import Mathlib

/-!
# A shallow embedding of `torch.h` (oderoi/nan)

The C source is a single header implementing dense tensors with a recorded
operation graph and a recursive `backward` driver.  The embedding keeps the
imperative structure of the source:

* tensors live in a heap (`Heap`), a list of cells addressed by position; a
  `Tensor *` is an `Option Nat` (`none` is `NULL`), a freed cell is `none`;
* every operation returns an `Option`: `none` stands for an execution the C
  standard leaves undefined (out-of-bounds access, use of a freed or
  uninitialised object, division by a zero `int`);
* `for (int i = 0; i < n; i++)` is `forLoop n body`, each iteration reading and
  writing the heap exactly as the C statement does;
* `float`/`double` arithmetic is read as exact arithmetic in a linearly ordered
  field `F` (no rounding, no NaN, no infinity, a cast between `float` and
  `double` is the identity); the functions of `<math.h>` and the object
  representation of floating values are a parameter (`Libm`).  The element
  expressions whose branch a comparison of floating values decides (`relu`,
  `leaky_relu` and their rules) are also given on their own (`reluExpr`,
  `reluBwdExpr`, `leakyExpr`, `leakyBwdExpr`) and evaluated on a fragment of
  IEEE 754 doubles (`Fp64`), where NaN and underflow exist;
* `int32_t`/`int64_t` element arithmetic wraps (`wrap`); the `int` product of
  `total_size` has no outcome when it leaves the range of `int` (signed
  overflow); the `int` arithmetic on positions is exact.
-/

namespace Torch

/-! ## Scalars, enums -/

/-- The macro `MAX_PREVS`. -/
def MAX_PREVS : Nat := 3

/-- The enum `DType`. -/
inductive DType where
  | FLOAT32
  | FLOAT64
  | INT32
  | INT64
  deriving DecidableEq

/-- The enum `Op`. -/
inductive Op where
  | ADD
  | SUM
  | SUB
  | MUL
  | MATMUL
  | RELU
  | LEAKY_RELU
  | SIGMOID
  | TANH
  | MEAN
  | SOFTMAX
  | DIV
  | POW
  | EXP
  | MSE
  deriving DecidableEq

/-- The enum `bool` of the source: `typedef enum{ true, false }bool;`, so that
`true` is the integer 0 and `false` is the integer 1. -/
inductive bool where
  | true
  | false
  deriving DecidableEq

/-- Integer value of an enumerator of `bool`. -/
def bool.toInt : bool → Int
  | .true => 0
  | .false => 1

/-- The C expression `!b` for `b` of the enum type `bool`, as a condition. -/
def lnot (b : bool) : Bool := b.toInt == 0

/-- The C expression `b == true` for `b` of the enum type `bool`. -/
def eqTrue (b : bool) : Bool := b.toInt == bool.toInt .true

/-- The C expression `c ? true : false`, stored in an `int` and passed on as a
`bool`. -/
def condBool (c : Bool) : bool := if c then .true else .false

/-- Bit width of an integer element type. -/
def DType.bits : DType → Nat
  | .INT64 => 64
  | .FLOAT64 => 64
  | _ => 32

/-- Is the element type one of the two floating-point types. -/
def DType.isFloat : DType → Bool
  | .FLOAT32 => true
  | .FLOAT64 => true
  | _ => false

/-- Two's-complement reduction of an integer to `w` bits. -/
def wrap (w : Nat) (x : Int) : Int := (x + 2 ^ (w - 1)) % 2 ^ w - 2 ^ (w - 1)

/-- The value `x` fits the signed type of `w` bits. -/
def InRange (w : Nat) (x : Int) : Prop := -(2 : Int) ^ (w - 1) ≤ x ∧ x < (2 : Int) ^ (w - 1)

/-- The test whether `x` fits the signed type of `w` bits, on the magnitude of
`x`: `n <= 2^(w-1) - 1` for `x = n >= 0`, and for `x = -(n + 1)`. -/
def fitsBits (w : Nat) (x : Int) : Bool :=
  match x with
  | .ofNat n => Nat.ble n (2 ^ (w - 1) - 1)
  | .negSucc n => Nat.ble n (2 ^ (w - 1) - 1)

/-- The macro `INT_MAX` of `<limits.h>` for the 32-bit `int` of the source. -/
def INT_MAX : Int := 2147483647

/-- The dims `r`, `c` and the element count `r * c` of a matrix are values of
`int`, as the entries of `dims` and the member `size` of the struct are. -/
def FitsInt (r c : Nat) : Prop :=
  (r : Int) ≤ INT_MAX ∧ (c : Int) ≤ INT_MAX ∧ (r : Int) * (c : Int) ≤ INT_MAX

instance (r c : Nat) : Decidable (FitsInt r c) :=
  inferInstanceAs
    (Decidable ((r : Int) ≤ INT_MAX ∧ (c : Int) ≤ INT_MAX ∧ (r : Int) * (c : Int) ≤ INT_MAX))

/-- The floating-point environment of the source, over the field that stands
for `float` and `double`: the functions of `<math.h>` it calls (`exp`/`expf`,
`pow`/`powf`), and the object representation of a `float` (`bits32`) and of a
`double` (`bits64`) read back as an `int32_t` / `int64_t`. -/
structure Libm (F : Type) where
  exp : F → F
  pow : F → F → F
  bits32 : F → Int
  bits64 : F → Int

/-- The integer an element of an integer buffer of type `dt` holds after the
floating value `v` was stored into it through the float member of the same
width (`data.float32` for `INT32`, `data.float64` for `INT64`). -/
def Libm.bits {F : Type} (L : Libm F) (dt : DType) (v : F) : Int :=
  match dt with
  | .INT64 => L.bits64 v
  | _ => L.bits32 v

/-! ## Tensors and the heap -/

/-- The union `Data`: a pointer to a buffer, seen through one of four members. -/
inductive Data (F : Type) where
  | float32 (buf : List F)
  | float64 (buf : List F)
  | int32 (buf : List Int)
  | int64 (buf : List Int)
  deriving DecidableEq

/-- The struct `Tensor`.  `op = none` is the value `-1` the constructor stores;
`grad = none` is a `NULL` (or, for integer tensors, never initialised) gradient
pointer; an entry `none` of `prevs` is a slot that was never assigned.  The
three function pointers `T`, `reshape`, `flatten` are constant and left out. -/
structure Tensor (F : Type) where
  data : Data F
  dtype : DType
  extra : F
  dims : List Int
  ndim : Int
  size : Int
  op : Option Op
  grad : Option (List F)
  prevs : List (Option Nat)
  requires_grad : bool
  num_prevs : Int
  deriving DecidableEq

/-- The heap of tensors: cell `p` holds the tensor at address `p`, or `none`
once it was freed. -/
abbrev Heap (F : Type) := List (Option (Tensor F))

variable {F : Type} [LinearOrderedField F]

/-- Dereference `p`: fails on a dangling or freed address. -/
def Heap.deref (h : Heap F) (p : Nat) : Option (Tensor F) := (h[p]?).join

/-- Overwrite the tensor at address `p`. -/
def Heap.store (h : Heap F) (p : Nat) (t : Tensor F) : Heap F := h.set p (some t)

/-- Element `i` of a buffer, for a C `int` position. -/
@[noinline]
def bufGet {α : Type} (b : List α) (i : Int) : Option α :=
  if 0 ≤ i then b[i.toNat]? else none

/-- Store into element `i` of a buffer, for a C `int` position. -/
@[noinline]
def bufSet {α : Type} (b : List α) (i : Int) (v : α) : Option (List α) :=
  if 0 ≤ i ∧ i.toNat < b.length then some (b.set i.toNat v) else none

/-- Read `d.float32[i]` / `d.float64[i]` (member chosen by `dt`). -/
def Data.getF (d : Data F) (dt : DType) (i : Int) : Option F :=
  match dt, d with
  | .FLOAT32, .float32 b => bufGet b i
  | .FLOAT64, .float64 b => bufGet b i
  | _, _ => none

/-- Write `d.float32[i] = v` / `d.float64[i] = v` (member chosen by `dt`). -/
def Data.setF (d : Data F) (dt : DType) (i : Int) (v : F) : Option (Data F) :=
  match dt, d with
  | .FLOAT32, .float32 b => (bufSet b i v).map .float32
  | .FLOAT64, .float64 b => (bufSet b i v).map .float64
  | _, _ => none

/-- Read `d.int32[i]` / `d.int64[i]` (member chosen by `dt`). -/
def Data.getI (d : Data F) (dt : DType) (i : Int) : Option Int :=
  match dt, d with
  | .INT32, .int32 b => bufGet b i
  | .INT64, .int64 b => bufGet b i
  | _, _ => none

/-- Write `d.int32[i] = v` / `d.int64[i] = v` (member chosen by `dt`). -/
def Data.setI (d : Data F) (dt : DType) (i : Int) (v : Int) : Option (Data F) :=
  match dt, d with
  | .INT32, .int32 b => (bufSet b i v).map .int32
  | .INT64, .int64 b => (bufSet b i v).map .int64
  | _, _ => none

/-- Read `p->dims[k]`. -/
@[noinline]
def rdDim (h : Heap F) (p : Nat) (k : Nat) : Option Int := do
  let t ← h.deref p
  t.dims[k]?

/-- Read `p->prevs[k]`; an unassigned slot holds no usable pointer. -/
@[noinline]
def rdPrev (h : Heap F) (p : Nat) (k : Nat) : Option Nat := do
  let t ← h.deref p
  (t.prevs[k]?).join

/-- Read `p->data.<dt>[i]` for a floating-point member. -/
@[noinline]
def rdF (h : Heap F) (p : Nat) (dt : DType) (i : Int) : Option F := do
  let t ← h.deref p
  t.data.getF dt i

/-- Write `p->data.<dt>[i] = v` for a floating-point member. -/
@[noinline]
def wrF (h : Heap F) (p : Nat) (dt : DType) (i : Int) (v : F) : Option (Heap F) := do
  let t ← h.deref p
  let d ← t.data.setF dt i v
  some (h.store p { t with data := d })

/-- Read `p->data.<dt>[i]` for an integer member. -/
@[noinline]
def rdI (h : Heap F) (p : Nat) (dt : DType) (i : Int) : Option Int := do
  let t ← h.deref p
  t.data.getI dt i

/-- Write `p->data.<dt>[i] = v` for an integer member. -/
@[noinline]
def wrI (h : Heap F) (p : Nat) (dt : DType) (i : Int) (v : Int) : Option (Heap F) := do
  let t ← h.deref p
  let d ← t.data.setI dt i v
  some (h.store p { t with data := d })

/-- Read `p->grad.<dt>[i]`: the gradient pointer must be a buffer of the
tensor's own floating-point type. -/
@[noinline]
def rdG (h : Heap F) (p : Nat) (dt : DType) (i : Int) : Option F := do
  let t ← h.deref p
  if t.dtype = dt ∧ dt.isFloat then
    let g ← t.grad
    bufGet g i
  else none

/-- Write `p->grad.<dt>[i] = v`. -/
@[noinline]
def wrG (h : Heap F) (p : Nat) (dt : DType) (i : Int) (v : F) : Option (Heap F) := do
  let t ← h.deref p
  if t.dtype = dt ∧ dt.isFloat then
    let g ← t.grad
    let g1 ← bufSet g i v
    some (h.store p { t with grad := some g1 })
  else none

/-- The first `n` iterations `0, 1, ..., n-1` of a loop body over a state. -/
def loopN {S : Type} (body : Nat → S → Option S) : Nat → S → Option S
  | 0, s => some s
  | n + 1, s => (loopN body n s).bind (body n)

/-- The C loop `for (int i = 0; i < n; i++) body`. -/
def forLoop {S : Type} (n : Int) (body : Nat → S → Option S) (s : S) : Option S :=
  loopN body n.toNat s

/-! ## Index helpers of the source -/

/-- The function `shape_index`; `/` and `%` on `int` truncate, and a zero
divisor is undefined. -/
@[noinline]
def shape_index (index rows cols : Int) : Option Int :=
  if cols = 0 then none
  else
    let row := index.tdiv cols
    let col := index.tmod cols
    some (row * cols + col)

/-- The function `Reshape_index`. -/
def Reshape_index (index rows cols : Int) : Option Int :=
  if cols = 0 then none
  else
    let row := index.tdiv cols
    let col := index.tmod cols
    some (row * cols + col)

/-- The function `T_index`. -/
def T_index (index rows cols : Int) : Option Int :=
  if cols = 0 then none
  else
    let row := index.tdiv cols
    let col := index.tmod cols
    some (col * rows + row)

/-- The position `shape_index(i, p->dims[0], p->dims[1])` every element loop
computes for its counter `i` and a tensor `p`. -/
def posOf (hh : Heap F) (p : Nat) (i : Nat) : Option Int := do
  shape_index i (← rdDim hh p 0) (← rdDim hh p 1)

/-- The function `total_size`: the product of `dims[0..ndim)`, accumulated in
an `int` by `size *= dims[i]`.  A product that leaves the range of `int` is a
signed overflow, which the C standard leaves undefined: no outcome.  (Compiled
code usually wraps instead, and `size` is then no longer the product.) -/
def total_size (dims : List Int) (ndim : Int) : Option Int :=
  forLoop ndim (fun i size => do
    let d ← dims[i]?
    if fitsBits 32 (size * d) then some (size * d) else none) 1

/-- The function `copy_dims`: a fresh copy of `dims[0..ndim)`. -/
def copy_dims (dims : List Int) (ndim : Int) : Option (List Int) :=
  if ndim.toNat ≤ dims.length then some (dims.take ndim.toNat) else none

/-! ## Construction and release -/

/-- A buffer `calloc(n, sizeof(<dtype>))` seen through the member of `dtype`. -/
def Data.calloc (dtype : DType) (n : Nat) : Data F :=
  match dtype with
  | .FLOAT32 => .float32 (List.replicate n 0)
  | .FLOAT64 => .float64 (List.replicate n 0)
  | .INT32 => .int32 (List.replicate n 0)
  | .INT64 => .int64 (List.replicate n 0)

/-- A floating-point buffer seen through the member of `dtype`. -/
def Data.ofF (dtype : DType) (xs : List F) : Data F :=
  match dtype with
  | .FLOAT32 => .float32 xs
  | _ => .float64 xs

/-- An integer buffer seen through the member of `dtype`. -/
def Data.ofI (dtype : DType) (xs : List Int) : Data F :=
  match dtype with
  | .INT32 => .int32 xs
  | _ => .int64 xs

/-- The call `memcpy(t->data.<dtype>, data, n * sizeof(<dtype>))` into a fresh
buffer of `n` elements: the caller's array must hold `n` elements of that
type. -/
def Data.memcpy (dtype : DType) (src : Data F) (n : Nat) : Option (Data F) :=
  match dtype, src with
  | .FLOAT32, .float32 b => if n ≤ b.length then some (.float32 (b.take n)) else none
  | .FLOAT64, .float64 b => if n ≤ b.length then some (.float64 (b.take n)) else none
  | .INT32, .int32 b => if n ≤ b.length then some (.int32 (b.take n)) else none
  | .INT64, .int64 b => if n ≤ b.length then some (.int64 (b.take n)) else none
  | _, _ => none

/-- The function `t_free`: releases the tensor's own buffers and the struct;
`NULL` is accepted; releasing a dead tensor is undefined. -/
def t_free (h : Heap F) (t : Option Nat) : Option (Heap F) :=
  match t with
  | none => some h
  | some p => do
    let _ ← h.deref p
    some (h.set p none)

/-- The call `free(t)` on a tensor struct (its buffers are leaked). -/
def free (h : Heap F) (p : Nat) : Option (Heap F) := do
  let _ ← h.deref p
  some (h.set p none)

/-- The function `grad_mem_init`, on the struct under construction: a zeroed
gradient buffer when `!self->requires_grad` holds, `NULL` otherwise; for a
non-float type it frees the struct its caller goes on to use. -/
def grad_mem_init (self : Tensor F) : Option (Tensor F) :=
  if self.dtype = .FLOAT32 then
    if lnot self.requires_grad then
      some { self with grad := some (List.replicate self.size.toNat 0) }
    else some { self with grad := none }
  else if self.dtype = .FLOAT64 then
    if lnot self.requires_grad then
      some { self with grad := some (List.replicate self.size.toNat 0) }
    else some { self with grad := none }
  else none

/-- The constructor `tensor(data, dtype, dims, ndim, requires_grad)`.
The new struct is appended to the heap.  `malloc` and `calloc` succeed, except
that `calloc` of a negative `int` count (a huge `size_t`) returns `NULL`; on
that path `t_free` inspects the still uninitialised `grad` member of a float
tensor. -/
def tensor (h : Heap F) (data : Option (Data F)) (dtype : DType)
    (dims : Option (List Int)) (ndim : Int) (requires_grad : bool) :
    Option (Heap F × Option Nat) :=
  match dims with
  | none => some (h, none)
  | some ds =>
    if ndim ≤ 0 then some (h, none)
    else do
      let size ← total_size ds ndim
      let dims1 ← copy_dims ds ndim
      if size < 0 then
        if dtype.isFloat then none else some (h, none)
      else
        let buf ← (match data with
          | none => some (Data.calloc dtype size.toNat)
          | some src => Data.memcpy dtype src size.toNat)
        let t : Tensor F :=
          { data := buf, dtype := dtype, extra := 0, dims := dims1, ndim := ndim,
            size := size, op := none, grad := none,
            prevs := List.replicate MAX_PREVS none,
            requires_grad := requires_grad, num_prevs := 0 }
        let t1 ← (if dtype.isFloat then grad_mem_init t else some t)
        some (h ++ [some t1], some h.length)

/-- One iteration of a loop of `grad_init`: the (unused) `shape_index` of the
position, then `self->grad.<dt>[i] = 1`. -/
def gradInitStep (p : Nat) (dt : DType) (i : Nat) (hh : Heap F) : Option (Heap F) := do
  let _ ← posOf hh p i
  wrG hh p dt i 1

/-- The function `grad_init`: fills the gradient of a tracking float tensor
with ones; a `FLOAT64` test, then a `FLOAT32` test. -/
def grad_init (h : Heap F) (self : Option Nat) : Option (Heap F) :=
  match self with
  | none => some h
  | some p => do
    let t ← h.deref p
    let h1 ← (if t.dtype = .FLOAT64 ∧ lnot t.requires_grad then
        forLoop t.size (gradInitStep p .FLOAT64) h
      else some h)
    let t1 ← h1.deref p
    if t1.dtype = .FLOAT32 ∧ lnot t1.requires_grad then
      forLoop t1.size (gradInitStep p .FLOAT32) h1
    else some h1

/-- The caller's store `t->grad.<dtype>[i] = v` (seeding a gradient by hand). -/
def seed_grad (h : Heap F) (p : Nat) (i : Int) (v : F) : Option (Heap F) := do
  let t ← h.deref p
  wrG h p t.dtype i v

/-! ## Forward operations -/

/-- The shape test shared by the element-wise operations:
`for (i < ndim) if (t1->dims[i] != t2->dims[i]) return NULL;`
The result tells whether the early return was taken. -/
def dimsDiffer (d1 d2 : List Int) (ndim : Int) : Option Bool :=
  forLoop ndim (fun i found =>
    if found then some true
    else do
      let x ← d1[i]?
      let y ← d2[i]?
      some (x != y)) false

/-- One iteration of the float element loop of `add` and `mul`:
`t->data[idx] = t1->data[idx1] (op) t2->data[idx2]`. -/
def binStepF (f : F → F → F) (dt : DType) (t p1 p2 : Nat) (i : Nat) (hh : Heap F) :
    Option (Heap F) := do
  let idx ← posOf hh t i
  let idx1 ← posOf hh p1 i
  let idx2 ← posOf hh p2 i
  let a ← rdF hh p1 dt idx1
  let b ← rdF hh p2 dt idx2
  wrF hh t dt idx (f a b)

/-- One iteration of the integer element loop of `add` and `mul`. -/
def binStepI (f : Int → Int → Int) (dt : DType) (t p1 p2 : Nat) (i : Nat) (hh : Heap F) :
    Option (Heap F) := do
  let idx ← posOf hh t i
  let idx1 ← posOf hh p1 i
  let idx2 ← posOf hh p2 i
  let a ← rdI hh p1 dt idx1
  let b ← rdI hh p2 dt idx2
  wrI hh t dt idx (wrap dt.bits (f a b))

/-- The assignments `t->op = op; t->prevs[0] = p1; t->prevs[1] = p2;
t->num_prevs = 2;` that close a binary forward operation. -/
def link2 (h : Heap F) (t : Nat) (op : Op) (p1 p2 : Nat) : Option (Heap F) := do
  let tt ← h.deref t
  some (h.store t { tt with op := some op,
                            prevs := (tt.prevs.set 0 (some p1)).set 1 (some p2),
                            num_prevs := 2 })

/-- The function `add`.  The result of `tensor` is used without a `NULL`
test. -/
def add (h : Heap F) (t1 t2 : Option Nat) : Option (Heap F × Option Nat) :=
  match t1, t2 with
  | some p1, some p2 => do
    let a ← h.deref p1
    let b ← h.deref p2
    if a.ndim ≠ b.ndim ∨ a.dtype ≠ b.dtype then some (h, none)
    else if (← dimsDiffer a.dims b.dims a.ndim) then some (h, none)
    else
      let require_grad := condBool (lnot a.requires_grad || lnot b.requires_grad)
      let r ← tensor h none a.dtype (some a.dims) a.ndim require_grad
      let t ← r.2
      let h2 ← (match a.dtype with
        | .FLOAT32 => forLoop a.size (binStepF (· + ·) .FLOAT32 t p1 p2) r.1
        | .FLOAT64 => forLoop a.size (binStepF (· + ·) .FLOAT64 t p1 p2) r.1
        | .INT32 => forLoop a.size (binStepI (· + ·) .INT32 t p1 p2) r.1
        | .INT64 => forLoop a.size (binStepI (· + ·) .INT64 t p1 p2) r.1)
      let h3 ← link2 h2 t .ADD p1 p2
      some (h3, some t)
  | _, _ => some (h, none)

/-- The function `mul`.  Its `INT64` case has no `break`: after the loop,
control falls into `default`, which calls `free(t)` and returns `NULL`. -/
def mul (h : Heap F) (t1 t2 : Option Nat) : Option (Heap F × Option Nat) :=
  match t1, t2 with
  | some p1, some p2 => do
    let a ← h.deref p1
    let b ← h.deref p2
    if a.ndim ≠ b.ndim ∨ a.dtype ≠ b.dtype then some (h, none)
    else if (← dimsDiffer a.dims b.dims a.ndim) then some (h, none)
    else
      let require_grad := condBool (lnot a.requires_grad || lnot b.requires_grad)
      let r ← tensor h none a.dtype (some a.dims) a.ndim require_grad
      let t ← r.2
      match a.dtype with
      | .FLOAT32 => do
        let h2 ← forLoop a.size (binStepF (· * ·) .FLOAT32 t p1 p2) r.1
        let h3 ← link2 h2 t .MUL p1 p2
        some (h3, some t)
      | .FLOAT64 => do
        let h2 ← forLoop a.size (binStepF (· * ·) .FLOAT64 t p1 p2) r.1
        let h3 ← link2 h2 t .MUL p1 p2
        some (h3, some t)
      | .INT32 => do
        let h2 ← forLoop a.size (binStepI (· * ·) .INT32 t p1 p2) r.1
        let h3 ← link2 h2 t .MUL p1 p2
        some (h3, some t)
      | .INT64 => do
        let h2 ← forLoop a.size (binStepI (· * ·) .INT64 t p1 p2) r.1
        let h3 ← free h2 t
        some (h3, none)
  | _, _ => some (h, none)

/-- The loop `for (int i = a; i < n; i++) body`. -/
def forRange {S : Type} (a n : Int) (body : Int → S → Option S) (s : S) : Option S :=
  loopN (fun k s => body (a + (k : Int)) s) (n - a).toNat s

/-- One iteration of the innermost float loop of `matmul`:
`t->data[i*n + j] += t1->data[i*l + k] * t2->data[k*n + j]`. -/
def matmulStepF (dt : DType) (t p1 p2 : Nat) (n l : Int) (i j k : Nat) (hh : Heap F) :
    Option (Heap F) := do
  let acc ← rdF hh t dt (i * n + j)
  let a ← rdF hh p1 dt (i * l + k)
  let b ← rdF hh p2 dt (k * n + j)
  wrF hh t dt (i * n + j) (acc + a * b)

/-- One iteration of the innermost integer loop of `matmul`. -/
def matmulStepI (dt : DType) (t p1 p2 : Nat) (n l : Int) (i j k : Nat) (hh : Heap F) :
    Option (Heap F) := do
  let acc ← rdI hh t dt (i * n + j)
  let a ← rdI hh p1 dt (i * l + k)
  let b ← rdI hh p2 dt (k * n + j)
  wrI hh t dt (i * n + j) (wrap dt.bits (acc + wrap dt.bits (a * b)))

/-- The triple loop `for (i < m) for (j < n) for (k < l)` of `matmul`. -/
def matmulLoops (step : Nat → Nat → Nat → Heap F → Option (Heap F)) (m n l : Int)
    (h : Heap F) : Option (Heap F) :=
  forLoop m (fun i h1 => forLoop n (fun j h2 => forLoop l (fun k h3 => step i j k h3) h2) h1) h

/-- The function `matmul`.  `m`, `n`, `l` are read before any test; the result
is built with `t1->ndim` as its rank. -/
def matmul (h : Heap F) (t1 t2 : Option Nat) : Option (Heap F × Option Nat) :=
  match t1, t2 with
  | some p1, some p2 => do
    let a ← h.deref p1
    let b ← h.deref p2
    let m ← a.dims[0]?
    let n ← b.dims[1]?
    let l ← a.dims[1]?
    let b0 ← b.dims[0]?
    if l ≠ b0 ∨ a.dtype ≠ b.dtype then some (h, none)
    else
      let require_grad := condBool (lnot a.requires_grad || lnot b.requires_grad)
      let r ← tensor h none a.dtype (some [m, n]) a.ndim require_grad
      match r.2 with
      | none => some (r.1, none)
      | some t => do
        let h2 ← (match a.dtype with
          | .FLOAT32 => matmulLoops (matmulStepF .FLOAT32 t p1 p2 n l) m n l r.1
          | .FLOAT64 => matmulLoops (matmulStepF .FLOAT64 t p1 p2 n l) m n l r.1
          | .INT32 => matmulLoops (matmulStepI .INT32 t p1 p2 n l) m n l r.1
          | .INT64 => matmulLoops (matmulStepI .INT64 t p1 p2 n l) m n l r.1)
        let h3 ← link2 h2 t .MATMUL p1 p2
        some (h3, some t)
  | _, _ => some (h, none)

/-- The assignments `t->op = op; t->prevs[0] = p1; t->num_prevs = 1;` that
close a unary forward operation. -/
def link1 (h : Heap F) (t : Nat) (op : Op) (p1 : Nat) : Option (Heap F) := do
  let tt ← h.deref t
  some (h.store t { tt with op := some op, prevs := tt.prevs.set 0 (some p1), num_prevs := 1 })

/-- One iteration of the float loop of `relu`:
`t->data[idx] = (t1->data[idx] < 0) ? 0 : t1->data[idx]`, the element read as
a value of the ordered field (the stored value is `reluExpr` of it). -/
def reluStepF (dt : DType) (t p1 : Nat) (i : Nat) (hh : Heap F) : Option (Heap F) := do
  let idx ← posOf hh p1 i
  let x ← rdF hh p1 dt idx
  wrF hh t dt idx (if x < 0 then 0 else x)

/-- One iteration of the integer loop of `relu`. -/
def reluStepI (dt : DType) (t p1 : Nat) (i : Nat) (hh : Heap F) : Option (Heap F) := do
  let idx ← posOf hh p1 i
  let x ← rdI hh p1 dt idx
  wrI hh t dt idx (if x < 0 then 0 else x)

/-- The function `relu`. -/
def relu (h : Heap F) (t1 : Option Nat) : Option (Heap F × Option Nat) :=
  match t1 with
  | none => some (h, none)
  | some p1 => do
    let a ← h.deref p1
    let require_grad := condBool (lnot a.requires_grad)
    let r ← tensor h none a.dtype (some a.dims) a.ndim require_grad
    match r.2 with
    | none => some (r.1, none)
    | some t => do
      let h2 ← (match a.dtype with
        | .FLOAT32 => forLoop a.size (reluStepF .FLOAT32 t p1) r.1
        | .FLOAT64 => forLoop a.size (reluStepF .FLOAT64 t p1) r.1
        | .INT32 => forLoop a.size (reluStepI .INT32 t p1) r.1
        | .INT64 => forLoop a.size (reluStepI .INT64 t p1) r.1)
      let h3 ← link1 h2 t .RELU p1
      some (h3, some t)

/-- The float branch of `softmax`: the running maximum from `data[0]`, the
shifted exponentials `ex[i]` with their sum `s`, then `t->data[i] = ex[i] / s`.
The scratch array `ex` and the scalars are locals. -/
def softmaxF (L : Libm F) (dt : DType) (t p1 : Nat) (size : Int) (h : Heap F) :
    Option (Heap F) := do
  let x0 ← rdF h p1 dt 0
  let max_val ← forRange 1 size (fun i mx => do
    let x ← rdF h p1 dt i
    some (if x > mx then x else mx)) x0
  let exs ← forLoop size (fun i (st : List F × F) => do
    let x ← rdF h p1 dt i
    let e := L.exp (x - max_val)
    let ex1 ← bufSet st.1 i e
    some (ex1, st.2 + e)) (List.replicate size.toNat 0, 0)
  forLoop size (fun i hh => do
    let e ← bufGet exs.1 i
    wrF hh t dt i (e / exs.2)) h

/-- The function `softmax`. -/
def softmax (L : Libm F) (h : Heap F) (t1 : Option Nat) : Option (Heap F × Option Nat) :=
  match t1 with
  | none => some (h, none)
  | some p1 => do
    let a ← h.deref p1
    let require_grad := condBool (lnot a.requires_grad)
    let r ← tensor h none a.dtype (some a.dims) a.ndim require_grad
    match r.2 with
    | none => some (r.1, none)
    | some t =>
      match a.dtype with
      | .FLOAT32 => do
        let h2 ← softmaxF L .FLOAT32 t p1 a.size r.1
        let h3 ← link1 h2 t .SOFTMAX p1
        some (h3, some t)
      | .FLOAT64 => do
        let h2 ← softmaxF L .FLOAT64 t p1 a.size r.1
        let h3 ← link1 h2 t .SOFTMAX p1
        some (h3, some t)
      | _ => do
        let h2 ← t_free r.1 (some t)
        some (h2, none)

/-- One iteration of the float loop of `sum` and `mean`:
`t->data[0] += t1->data[idx]`. -/
def sumStepF (dt : DType) (t p1 : Nat) (i : Nat) (hh : Heap F) : Option (Heap F) := do
  let idx ← posOf hh p1 i
  let acc ← rdF hh t dt 0
  let x ← rdF hh p1 dt idx
  wrF hh t dt 0 (acc + x)

/-- One iteration of the integer loop of `sum`. -/
def sumStepI (dt : DType) (t p1 : Nat) (i : Nat) (hh : Heap F) : Option (Heap F) := do
  let idx ← posOf hh p1 i
  let acc ← rdI hh t dt 0
  let x ← rdI hh p1 dt idx
  wrI hh t dt 0 (wrap dt.bits (acc + x))

/-- The closing assignments of `sum`: `t->op = SUM; t->prevs[0] = t1;`
(`num_prevs` keeps the value `tensor` gave it). -/
def linkSum (h : Heap F) (t : Nat) (p1 : Nat) : Option (Heap F) := do
  let tt ← h.deref t
  some (h.store t { tt with op := some .SUM, prevs := tt.prevs.set 0 (some p1) })

/-- The function `sum`.  Its `INT64` case has no `break`: after the loop,
control falls into `default`, which calls `free(t)` and returns `NULL`. -/
def sum (h : Heap F) (t1 : Option Nat) : Option (Heap F × Option Nat) :=
  match t1 with
  | none => some (h, none)
  | some p1 => do
    let a ← h.deref p1
    let require_grad := condBool (lnot a.requires_grad)
    let r ← tensor h none a.dtype (some [1]) 1 require_grad
    match r.2 with
    | none => some (r.1, none)
    | some t =>
      match a.dtype with
      | .FLOAT32 => do
        let h2 ← forLoop a.size (sumStepF .FLOAT32 t p1) r.1
        let h3 ← linkSum h2 t p1
        some (h3, some t)
      | .FLOAT64 => do
        let h2 ← forLoop a.size (sumStepF .FLOAT64 t p1) r.1
        let h3 ← linkSum h2 t p1
        some (h3, some t)
      | .INT32 => do
        let h2 ← forLoop a.size (sumStepI .INT32 t p1) r.1
        let h3 ← linkSum h2 t p1
        some (h3, some t)
      | .INT64 => do
        let h2 ← forLoop a.size (sumStepI .INT64 t p1) r.1
        let h3 ← free h2 t
        some (h3, none)

/-- The float branch of `mean`: the summing loop, then
`t->data[0] = t->data[0] / t1->size`. -/
def meanF (dt : DType) (t p1 : Nat) (size : Int) (h : Heap F) : Option (Heap F) := do
  let h2 ← forLoop size (sumStepF dt t p1) h
  let acc ← rdF h2 t dt 0
  wrF h2 t dt 0 (acc / (size : F))

/-- The function `mean`. -/
def mean (h : Heap F) (t1 : Option Nat) : Option (Heap F × Option Nat) :=
  match t1 with
  | none => some (h, none)
  | some p1 => do
    let a ← h.deref p1
    let require_grad := condBool (lnot a.requires_grad)
    let r ← tensor h none a.dtype (some [1]) 1 require_grad
    match r.2 with
    | none => some (r.1, none)
    | some t =>
      match a.dtype with
      | .FLOAT32 => do
        let h2 ← meanF .FLOAT32 t p1 a.size r.1
        let h3 ← link1 h2 t .MEAN p1
        some (h3, some t)
      | .FLOAT64 => do
        let h2 ← meanF .FLOAT64 t p1 a.size r.1
        let h3 ← link1 h2 t .MEAN p1
        some (h3, some t)
      | _ => do
        let h2 ← t_free r.1 (some t)
        some (h2, none)

/-- One iteration of the float loop of `MSELoss`:
`t->data[0] += pow(yPred->data[idx] - yTrue->data[idx], 2)`. -/
def mseStepF (L : Libm F) (dt : DType) (t yPred yTrue : Nat) (i : Nat) (hh : Heap F) :
    Option (Heap F) := do
  let idx ← posOf hh yPred i
  let acc ← rdF hh t dt 0
  let p ← rdF hh yPred dt idx
  let q ← rdF hh yTrue dt idx
  wrF hh t dt 0 (acc + L.pow (p - q) 2)

/-- The float branch of `MSELoss`: the loop, then
`t->data[0] /= (2 * yPred->size)`. -/
def mseF (L : Libm F) (dt : DType) (t yPred yTrue : Nat) (size : Int) (h : Heap F) :
    Option (Heap F) := do
  let h2 ← forLoop size (mseStepF L dt t yPred yTrue) h
  let acc ← rdF h2 t dt 0
  wrF h2 t dt 0 (acc / ((2 * size : Int) : F))

/-- The function `MSELoss(yTrue, yPred)`: the result records `yPred` as
`prevs[0]` and `yTrue` as `prevs[1]`, and takes its tracking flag from `yPred`
alone. -/
def MSELoss (L : Libm F) (h : Heap F) (yTrue yPred : Option Nat) :
    Option (Heap F × Option Nat) :=
  match yTrue, yPred with
  | some pt, some pp => do
    let a ← h.deref pt
    let b ← h.deref pp
    if a.ndim ≠ b.ndim ∨ b.dtype ≠ a.dtype then some (h, none)
    else if (← dimsDiffer a.dims b.dims b.ndim) then some (h, none)
    else
      let require_grad := condBool (lnot b.requires_grad)
      let r ← tensor h none b.dtype (some [1]) 1 require_grad
      match r.2 with
      | none => some (r.1, none)
      | some t =>
        match b.dtype with
        | .FLOAT32 => do
          let h2 ← mseF L .FLOAT32 t pp pt b.size r.1
          let h3 ← link2 h2 t .MSE pp pt
          some (h3, some t)
        | .FLOAT64 => do
          let h2 ← mseF L .FLOAT64 t pp pt b.size r.1
          let h3 ← link2 h2 t .MSE pp pt
          some (h3, some t)
        | _ => do
          let h2 ← t_free r.1 (some t)
          some (h2, none)
  | _, _ => some (h, none)

/-! ## Backward rules -/

/-- One iteration of a loop of `add_backward` / `sub_backward`:
`pk->grad[idx] += coef * out->grad[out_idx]`, with `pk` the operand. -/
def addBwdStep (coef : F) (dt : DType) (o pk : Nat) (i : Nat) (hh : Heap F) :
    Option (Heap F) := do
  let idx ← posOf hh pk i
  let out_idx ← posOf hh o i
  let g ← rdG hh pk dt idx
  let og ← rdG hh o dt out_idx
  wrG hh pk dt idx (g + coef * og)

/-- The `switch (out->dtype)` around an element loop of a backward rule: the
two float cases run the loop over `n` positions, `default` calls `t_free(out)`.
The flag tells whether the rule returned from inside the switch. -/
def bwdSwitch (dtype : DType) (n : Int) (o : Nat)
    (step : DType → Nat → Heap F → Option (Heap F)) (h : Heap F) : Option (Heap F × Bool) :=
  match dtype with
  | .FLOAT32 => (forLoop n (step .FLOAT32) h).map (fun h1 => (h1, false))
  | .FLOAT64 => (forLoop n (step .FLOAT64) h).map (fun h1 => (h1, false))
  | _ => (t_free h (some o)).map (fun h1 => (h1, true))

/-- The second block of a two-operand backward rule, guarded by
`out->prevs[1]->requires_grad == true`. -/
def bwdSecond (o : Nat) (step : Nat → DType → Nat → Heap F → Option (Heap F)) (h : Heap F) :
    Option (Heap F) := do
  let t ← h.deref o
  let p1 ← rdPrev h o 1
  let t1 ← h.deref p1
  if eqTrue t1.requires_grad then
    let r ← bwdSwitch t.dtype t.size o (step p1) h
    some r.1
  else some h

/-- The function `add_backward`: first block guarded by
`!out->prevs[0]->requires_grad`, second by `out->prevs[1]->requires_grad == true`. -/
def add_backward (h : Heap F) (out : Option Nat) : Option (Heap F) :=
  match out with
  | none => some h
  | some o => do
    let t ← h.deref o
    let p0 ← rdPrev h o 0
    let t0 ← h.deref p0
    if lnot t0.requires_grad then
      let r ← bwdSwitch t.dtype t.size o (fun dt => addBwdStep 1 dt o p0) h
      if r.2 then some r.1
      else bwdSecond o (fun p1 dt => addBwdStep 1 dt o p1) r.1
    else bwdSecond o (fun p1 dt => addBwdStep 1 dt o p1) h

/-- The function `sub_backward`. -/
def sub_backward (h : Heap F) (out : Option Nat) : Option (Heap F) :=
  match out with
  | none => some h
  | some o => do
    let t ← h.deref o
    let p0 ← rdPrev h o 0
    let t0 ← h.deref p0
    if eqTrue t0.requires_grad then
      let r ← bwdSwitch t.dtype t.size o (fun dt => addBwdStep 1 dt o p0) h
      if r.2 then some r.1
      else bwdSecond o (fun p1 dt => addBwdStep (-1) dt o p1) r.1
    else bwdSecond o (fun p1 dt => addBwdStep (-1) dt o p1) h

/-- One iteration of the first loop of `mul_backward`:
`prevs[0]->grad[idx1] += prevs[1]->data[idx2] * out->grad[idx]`. -/
def mulBwdStepA (dt : DType) (o p0 p1 : Nat) (i : Nat) (hh : Heap F) : Option (Heap F) := do
  let idx1 ← posOf hh p0 i
  let idx2 ← posOf hh p1 i
  let idx ← posOf hh o i
  let g ← rdG hh p0 dt idx1
  let d ← rdF hh p1 dt idx2
  let og ← rdG hh o dt idx
  wrG hh p0 dt idx1 (g + d * og)

/-- One iteration of the second loop of `mul_backward`:
`prevs[1]->grad[idx2] += prevs[0]->data[idx1] * out->grad[idx]`. -/
def mulBwdStepB (dt : DType) (o p0 p1 : Nat) (i : Nat) (hh : Heap F) : Option (Heap F) := do
  let idx1 ← posOf hh p0 i
  let idx2 ← posOf hh p1 i
  let idx ← posOf hh o i
  let g ← rdG hh p1 dt idx2
  let d ← rdF hh p0 dt idx1
  let og ← rdG hh o dt idx
  wrG hh p1 dt idx2 (g + d * og)

/-- The function `mul_backward`. -/
def mul_backward (h : Heap F) (out : Option Nat) : Option (Heap F) :=
  match out with
  | none => some h
  | some o => do
    let t ← h.deref o
    let p0 ← rdPrev h o 0
    let t0 ← h.deref p0
    if eqTrue t0.requires_grad then
      let p1 ← rdPrev h o 1
      let r ← bwdSwitch t.dtype t.size o (fun dt => mulBwdStepA dt o p0 p1) h
      if r.2 then some r.1
      else bwdSecond o (fun p1 dt => mulBwdStepB dt o p0 p1) r.1
    else bwdSecond o (fun p1 dt => mulBwdStepB dt o p0 p1) h

/-- Innermost statement of the first block of `matmul_backward`:
`prevs[0]->grad[i*l + k] += out->grad[i*n + j] * prevs[1]->data[j*l + k]`. -/
def matmulBwdStepA (dt : DType) (o p0 p1 : Nat) (n l : Int) (i k j : Nat) (hh : Heap F) :
    Option (Heap F) := do
  let g ← rdG hh p0 dt (i * l + k)
  let og ← rdG hh o dt (i * n + j)
  let d ← rdF hh p1 dt (j * l + k)
  wrG hh p0 dt (i * l + k) (g + og * d)

/-- Innermost statement of the second block of `matmul_backward`:
`prevs[1]->grad[k*n + j] += prevs[0]->data[k*m + i] * out->grad[i*n + j]`. -/
def matmulBwdStepB (dt : DType) (o p0 p1 : Nat) (m n : Int) (k j i : Nat) (hh : Heap F) :
    Option (Heap F) := do
  let g ← rdG hh p1 dt (k * n + j)
  let d ← rdF hh p0 dt (k * m + i)
  let og ← rdG hh o dt (i * n + j)
  wrG hh p1 dt (k * n + j) (g + d * og)

/-- The body of one float case of `matmul_backward`: both guarded triple
loops. -/
def matmulBwdF (dt : DType) (o p0 p1 : Nat) (m n l : Int) (h : Heap F) : Option (Heap F) := do
  let t0 ← h.deref p0
  let h1 ← (if eqTrue t0.requires_grad then
      forLoop m (fun i ha => forLoop l (fun k hb => forLoop n (fun j hc =>
        matmulBwdStepA dt o p0 p1 n l i k j hc) hb) ha) h
    else some h)
  let t1 ← h1.deref p1
  if eqTrue t1.requires_grad then
    forLoop l (fun k ha => forLoop n (fun j hb => forLoop m (fun i hc =>
      matmulBwdStepB dt o p0 p1 m n k j i hc) hb) ha) h1
  else some h1

/-- The function `matmul_backward`: `m`, `n`, `l` are read from the operands
before the switch on `out->dtype`. -/
def matmul_backward (h : Heap F) (out : Option Nat) : Option (Heap F) :=
  match out with
  | none => some h
  | some o => do
    let t ← h.deref o
    let p0 ← rdPrev h o 0
    let m ← rdDim h p0 0
    let p1 ← rdPrev h o 1
    let n ← rdDim h p1 1
    let l ← rdDim h p1 0
    match t.dtype with
    | .FLOAT32 => matmulBwdF .FLOAT32 o p0 p1 m n l h
    | .FLOAT64 => matmulBwdF .FLOAT64 o p0 p1 m n l h
    | _ => t_free h (some o)

/-- One iteration of the first loop of `Div_backward`:
`prevs[0]->grad[idx] += out->grad[idx] / prevs[1]->data[idx]`. -/
def divBwdStepA (dt : DType) (o p0 p1 : Nat) (i : Nat) (hh : Heap F) : Option (Heap F) := do
  let idx ← posOf hh o i
  let g ← rdG hh p0 dt idx
  let og ← rdG hh o dt idx
  let d ← rdF hh p1 dt idx
  wrG hh p0 dt idx (g + og / d)

/-- One iteration of the second loop of `Div_backward`:
`prevs[1]->grad[idx] += (-out->grad[idx] * prevs[0]->data[idx]) / pow(prevs[1]->data[idx], 2)`. -/
def divBwdStepB (L : Libm F) (dt : DType) (o p0 p1 : Nat) (i : Nat) (hh : Heap F) :
    Option (Heap F) := do
  let idx ← posOf hh o i
  let g ← rdG hh p1 dt idx
  let og ← rdG hh o dt idx
  let a ← rdF hh p0 dt idx
  let b ← rdF hh p1 dt idx
  wrG hh p1 dt idx (g + (-og * a) / L.pow b 2)

/-- The body of one float case of `Div_backward`. -/
def divBwdF (L : Libm F) (dt : DType) (o : Nat) (h : Heap F) : Option (Heap F) := do
  let t ← h.deref o
  let p0 ← rdPrev h o 0
  let t0 ← h.deref p0
  let h1 ← (if eqTrue t0.requires_grad then do
      let p1 ← rdPrev h o 1
      forLoop t.size (divBwdStepA dt o p0 p1) h
    else some h)
  let p1 ← rdPrev h1 o 1
  let t1 ← h1.deref p1
  if eqTrue t1.requires_grad then
    forLoop t.size (divBwdStepB L dt o p0 p1) h1
  else some h1

/-- The function `Div_backward`. -/
def Div_backward (L : Libm F) (h : Heap F) (out : Option Nat) : Option (Heap F) :=
  match out with
  | none => some h
  | some o => do
    let t ← h.deref o
    match t.dtype with
    | .FLOAT32 => divBwdF L .FLOAT32 o h
    | .FLOAT64 => divBwdF L .FLOAT64 o h
    | _ => t_free h (some o)

/-- A one-operand backward rule whose switch on `out->dtype` encloses the guard
`out->prevs[0]->requires_grad == true` and a loop over the operand's
positions (`Pow_backward`, `Exp_backward`). -/
def unaryBwdSwitchFirst (o : Nat) (step : DType → Nat → Nat → Heap F → Option (Heap F))
    (h : Heap F) : Option (Heap F) := do
  let t ← h.deref o
  match t.dtype with
  | .FLOAT32 => do
    let p0 ← rdPrev h o 0
    let t0 ← h.deref p0
    if eqTrue t0.requires_grad then forLoop t0.size (step .FLOAT32 p0) h else some h
  | .FLOAT64 => do
    let p0 ← rdPrev h o 0
    let t0 ← h.deref p0
    if eqTrue t0.requires_grad then forLoop t0.size (step .FLOAT64 p0) h else some h
  | _ => t_free h (some o)

/-- One iteration of the loop of `Pow_backward`:
`prevs[0]->grad[idx] += out->grad[idx] * out->extra * pow(prevs[0]->data[idx], out->extra - 1)`. -/
def powBwdStep (L : Libm F) (o : Nat) (dt : DType) (p0 : Nat) (i : Nat) (hh : Heap F) :
    Option (Heap F) := do
  let idx ← posOf hh p0 i
  let t ← hh.deref o
  let g ← rdG hh p0 dt idx
  let og ← rdG hh o dt idx
  let x ← rdF hh p0 dt idx
  wrG hh p0 dt idx (g + og * t.extra * L.pow x (t.extra - 1))

/-- The function `Pow_backward`. -/
def Pow_backward (L : Libm F) (h : Heap F) (out : Option Nat) : Option (Heap F) :=
  match out with
  | none => some h
  | some o => unaryBwdSwitchFirst o (powBwdStep L o) h

/-- One iteration of the loop of `Exp_backward`:
`prevs[0]->grad[idx] += out->grad[idx] * exp(prevs[0]->data[idx])`. -/
def expBwdStep (L : Libm F) (o : Nat) (dt : DType) (p0 : Nat) (i : Nat) (hh : Heap F) :
    Option (Heap F) := do
  let idx ← posOf hh p0 i
  let g ← rdG hh p0 dt idx
  let og ← rdG hh o dt idx
  let x ← rdF hh p0 dt idx
  wrG hh p0 dt idx (g + og * L.exp x)

/-- The function `Exp_backward`. -/
def Exp_backward (L : Libm F) (h : Heap F) (out : Option Nat) : Option (Heap F) :=
  match out with
  | none => some h
  | some o => unaryBwdSwitchFirst o (expBwdStep L o) h

/-- A one-operand backward rule whose guard
`out->prevs[0]->requires_grad == true` encloses a switch on `sel` (the dtype
of `out`, or of the operand in `Sigmoid_backward`) and a loop over the
operand's positions. -/
def unaryBwdGateFirst (o : Nat) (ofOperand : Bool)
    (step : DType → Nat → Nat → Heap F → Option (Heap F)) (h : Heap F) : Option (Heap F) := do
  let t ← h.deref o
  let p0 ← rdPrev h o 0
  let t0 ← h.deref p0
  if eqTrue t0.requires_grad then
    let r ← bwdSwitch (if ofOperand then t0.dtype else t.dtype) t0.size o
      (fun dt => step dt p0) h
    some r.1
  else some h

/-- One iteration of the loop of `relu_backward`:
`prevs[0]->grad[idx] += (out->data[idx] < 0) ? 0 : out->grad[idx]`, the
elements read as values of the ordered field (the addend is `reluBwdExpr`);
`out->grad[idx]` is read only in the branch that uses it. -/
def reluBwdStep (o : Nat) (dt : DType) (p0 : Nat) (i : Nat) (hh : Heap F) :
    Option (Heap F) := do
  let idx ← posOf hh p0 i
  let g ← rdG hh p0 dt idx
  let y ← rdF hh o dt idx
  let v ← (if y < 0 then some 0 else rdG hh o dt idx)
  wrG hh p0 dt idx (g + v)

/-- The function `relu_backward`. -/
def relu_backward (h : Heap F) (out : Option Nat) : Option (Heap F) :=
  match out with
  | none => some h
  | some o => unaryBwdGateFirst o false (reluBwdStep o) h

/-- One iteration of the loop of `leaky_relu_backward`:
`prevs[0]->grad[idx] += (out->data[idx] < 0) ? out->extra * out->grad[idx] : out->grad[idx]`,
the elements read as values of the ordered field, where the product is exact
and the `(float)` cast of `out->extra` in the `FLOAT32` case is the identity
(the addend is `leakyBwdExpr`). -/
def leakyBwdStep (o : Nat) (dt : DType) (p0 : Nat) (i : Nat) (hh : Heap F) :
    Option (Heap F) := do
  let idx ← posOf hh p0 i
  let t ← hh.deref o
  let g ← rdG hh p0 dt idx
  let y ← rdF hh o dt idx
  let og ← rdG hh o dt idx
  wrG hh p0 dt idx (g + (if y < 0 then t.extra * og else og))

/-- The function `leaky_relu_backward`. -/
def leaky_relu_backward (h : Heap F) (out : Option Nat) : Option (Heap F) :=
  match out with
  | none => some h
  | some o => unaryBwdGateFirst o false (leakyBwdStep o) h

/-- One iteration of the loop of `Tanh_backward`:
`prevs[0]->grad[idx] += (1 - pow(out->data[idx], 2)) * out->grad[idx]`. -/
def tanhBwdStep (L : Libm F) (o : Nat) (dt : DType) (p0 : Nat) (i : Nat) (hh : Heap F) :
    Option (Heap F) := do
  let idx ← posOf hh p0 i
  let g ← rdG hh p0 dt idx
  let y ← rdF hh o dt idx
  let og ← rdG hh o dt idx
  wrG hh p0 dt idx (g + (1 - L.pow y 2) * og)

/-- The function `Tanh_backward`. -/
def Tanh_backward (L : Libm F) (h : Heap F) (out : Option Nat) : Option (Heap F) :=
  match out with
  | none => some h
  | some o => unaryBwdGateFirst o false (tanhBwdStep L o) h

/-- One iteration of the loop of `Sigmoid_backward`:
`prevs[0]->grad[idx] += out->data[idx] * (1 - out->data[idx]) * out->grad[idx]`. -/
def sigmoidBwdStep (o : Nat) (dt : DType) (p0 : Nat) (i : Nat) (hh : Heap F) :
    Option (Heap F) := do
  let idx ← posOf hh p0 i
  let g ← rdG hh p0 dt idx
  let y ← rdF hh o dt idx
  let og ← rdG hh o dt idx
  wrG hh p0 dt idx (g + y * (1 - y) * og)

/-- The function `Sigmoid_backward`: its switch is on the operand's dtype. -/
def Sigmoid_backward (h : Heap F) (out : Option Nat) : Option (Heap F) :=
  match out with
  | none => some h
  | some o => unaryBwdGateFirst o true (sigmoidBwdStep o) h

/-- A one-operand backward rule guarded on the result itself (`gate` applied to
`out->requires_grad`), with a switch on `sel` around a loop body. -/
def unaryBwdGateOut (o : Nat) (gate : bool → Bool) (ofOperand : Bool)
    (body : DType → Nat → Heap F → Option (Heap F)) (h : Heap F) : Option (Heap F) := do
  let t ← h.deref o
  if gate t.requires_grad then
    if ofOperand then
      let p0 ← rdPrev h o 0
      let t0 ← h.deref p0
      match t0.dtype with
      | .FLOAT32 => body .FLOAT32 p0 h
      | .FLOAT64 => body .FLOAT64 p0 h
      | _ => t_free h (some o)
    else
      match t.dtype with
      | .FLOAT32 => do
        let p0 ← rdPrev h o 0
        body .FLOAT32 p0 h
      | .FLOAT64 => do
        let p0 ← rdPrev h o 0
        body .FLOAT64 p0 h
      | _ => t_free h (some o)
  else some h

/-- Innermost statement of `softmax_backward`, for row `i` and column `j` of
the operand, `c` its column count:
`prevs[0]->grad[i*c + j] += -(prevs[0]->data[i] * prevs[0]->data[j]) * out->grad[i*c + j]`
when `i != j`, and
`prevs[0]->grad[i*c + j] += prevs[0]->data[i] * (1 - prevs[0]->data[i]) * out->grad[i*c + j]`
otherwise. -/
def softmaxBwdStep (o : Nat) (dt : DType) (p0 : Nat) (i j : Nat) (hh : Heap F) :
    Option (Heap F) := do
  let c ← rdDim hh p0 1
  let g ← rdG hh p0 dt (i * c + j)
  let xi ← rdF hh p0 dt i
  if i ≠ j then
    let xj ← rdF hh p0 dt j
    let og ← rdG hh o dt (i * c + j)
    wrG hh p0 dt (i * c + j) (g + -(xi * xj) * og)
  else
    let og ← rdG hh o dt (i * c + j)
    wrG hh p0 dt (i * c + j) (g + xi * (1 - xi) * og)

/-- The double loop of `softmax_backward` over `dims[0]` and `dims[1]` of the
operand. -/
def softmaxBwdLoops (o : Nat) (dt : DType) (p0 : Nat) (h : Heap F) : Option (Heap F) := do
  let r ← rdDim h p0 0
  forLoop r (fun i ha => do
    let c ← rdDim ha p0 1
    forLoop c (fun j hb => softmaxBwdStep o dt p0 i j hb) ha) h

/-- The function `softmax_backward`: guarded by `!out->requires_grad`, switch
on the operand's dtype. -/
def softmax_backward (h : Heap F) (out : Option Nat) : Option (Heap F) :=
  match out with
  | none => some h
  | some o => unaryBwdGateOut o lnot true (softmaxBwdLoops o) h

/-- One iteration of the loop of `sum_backward`:
`prevs[0]->grad[idx] += out->grad[0] * 1.0`. -/
def sumBwdStep (o : Nat) (dt : DType) (p0 : Nat) (i : Nat) (hh : Heap F) :
    Option (Heap F) := do
  let idx ← posOf hh p0 i
  let g ← rdG hh p0 dt idx
  let og ← rdG hh o dt 0
  wrG hh p0 dt idx (g + og * 1)

/-- The loop of `sum_backward` over the operand's positions. -/
def sumBwdLoop (o : Nat) (dt : DType) (p0 : Nat) (h : Heap F) : Option (Heap F) := do
  let t0 ← h.deref p0
  forLoop t0.size (sumBwdStep o dt p0) h

/-- The function `sum_backward`: guarded by `!out->requires_grad`. -/
def sum_backward (h : Heap F) (out : Option Nat) : Option (Heap F) :=
  match out with
  | none => some h
  | some o => unaryBwdGateOut o lnot false (sumBwdLoop o) h

/-- One iteration of the loop of `mean_backward`:
`prevs[0]->grad[idx] += out->grad[0] / prevs[0]->size`. -/
def meanBwdStep (o : Nat) (dt : DType) (p0 : Nat) (i : Nat) (hh : Heap F) :
    Option (Heap F) := do
  let idx ← posOf hh p0 i
  let t0 ← hh.deref p0
  let g ← rdG hh p0 dt idx
  let og ← rdG hh o dt 0
  wrG hh p0 dt idx (g + og / (t0.size : F))

/-- A float case of `mean_backward`: it returns early when either gradient
pointer is `NULL`, else loops over the operand's positions. -/
def meanBwdLoop (o : Nat) (dt : DType) (p0 : Nat) (h : Heap F) : Option (Heap F) := do
  let t ← h.deref o
  let t0 ← h.deref p0
  if t.grad.isNone ∨ t0.grad.isNone then some h
  else forLoop t0.size (meanBwdStep o dt p0) h

/-- The function `mean_backward`: guarded by `out->requires_grad == true`. -/
def mean_backward (h : Heap F) (out : Option Nat) : Option (Heap F) :=
  match out with
  | none => some h
  | some o => unaryBwdGateOut o eqTrue false (meanBwdLoop o) h

/-- The quotient `a / b` of two `int`s: truncating, undefined for `b == 0`. -/
def cdiv (a b : Int) : Option Int := if b = 0 then none else some (a.tdiv b)

/-- The factor `(float)(1 / prevs[0]->size)` of `MSELoss_backward`: the
quotient is a division of two `int`s. -/
def mseScale (hh : Heap F) (p0 : Nat) : Option F := do
  let t0 ← hh.deref p0
  let q ← cdiv 1 t0.size
  some (q : F)

/-- The factor `prevs[0]->data[idx] - prevs[1]->data[idx]` of
`MSELoss_backward`. -/
def mseDiff (o : Nat) (dt : DType) (p0 : Nat) (idx : Int) (hh : Heap F) : Option F := do
  let a ← rdF hh p0 dt idx
  let p1 ← rdPrev hh o 1
  let b ← rdF hh p1 dt idx
  some (a - b)

/-- One iteration of the loop of `MSELoss_backward`:
`prevs[0]->grad[idx] += (float)(1 / prevs[0]->size) * (prevs[0]->data[idx] - prevs[1]->data[idx]) * out->grad[0]`. -/
def mseBwdStep (o : Nat) (dt : DType) (p0 : Nat) (i : Nat) (hh : Heap F) :
    Option (Heap F) := do
  let idx ← posOf hh p0 i
  let g ← rdG hh p0 dt idx
  let q ← mseScale hh p0
  let d ← mseDiff o dt p0 idx hh
  let og ← rdG hh o dt 0
  wrG hh p0 dt idx (g + q * d * og)

/-- The loop of `MSELoss_backward` over the positions of `prevs[0]`. -/
def mseBwdLoop (o : Nat) (dt : DType) (p0 : Nat) (h : Heap F) : Option (Heap F) := do
  let t0 ← h.deref p0
  forLoop t0.size (mseBwdStep o dt p0) h

/-- The function `MSELoss_backward`: guarded by `!out->requires_grad`. -/
def MSELoss_backward (h : Heap F) (out : Option Nat) : Option (Heap F) :=
  match out with
  | none => some h
  | some o => unaryBwdGateOut o lnot false (mseBwdLoop o) h

/-! ## The traversal driver -/

/-- Outcome of a run of the recursive driver: a final heap, an execution the C
standard leaves undefined, or a recursion deeper than the budget given. -/
inductive Res (α : Type) where
  | ok (a : α)
  | ub
  | fuel
  deriving DecidableEq

/-- Sequencing of outcomes. -/
def Res.bind {α β : Type} (r : Res α) (f : α → Res β) : Res β :=
  match r with
  | .ok a => f a
  | .ub => .ub
  | .fuel => .fuel

/-- An operation whose only failure is undefined behaviour, as an outcome. -/
def Res.ofOption {α : Type} (o : Option α) : Res α :=
  match o with
  | some a => .ok a
  | none => .ub

/-- The `if / else if` chain of `backward` on `t->op`.  There is no case for
`MSE`, and none matches the value `-1` of a leaf. -/
def dispatch (L : Libm F) (h : Heap F) (p : Nat) : Option (Heap F) := do
  let t ← h.deref p
  if t.op = some .MUL then mul_backward h (some p)
  else if t.op = some .ADD then add_backward h (some p)
  else if t.op = some .SUB then sub_backward h (some p)
  else if t.op = some .MATMUL then matmul_backward h (some p)
  else if t.op = some .MEAN then mean_backward h (some p)
  else if t.op = some .RELU then relu_backward h (some p)
  else if t.op = some .LEAKY_RELU then leaky_relu_backward h (some p)
  else if t.op = some .TANH then Tanh_backward L h (some p)
  else if t.op = some .SIGMOID then Sigmoid_backward h (some p)
  else if t.op = some .SOFTMAX then softmax_backward h (some p)
  else if t.op = some .POW then Pow_backward L h (some p)
  else if t.op = some .EXP then Exp_backward L h (some p)
  else if t.op = some .DIV then Div_backward L h (some p)
  else if t.op = some .SUM then sum_backward h (some p)
  else some h

/-- The function `backward`, with a budget on the recursion depth: the rule for
`t->op`, then `for (i < t->num_prevs) backward(t->prevs[i]);`.  The loop test
re-reads `t->num_prevs` before every iteration and once more at the end; no
rule writes that field, so the model reads its value once and checks at each
test that `t` is still alive. -/
def backward (L : Libm F) : Nat → Heap F → Option Nat → Res (Heap F)
  | 0, _, _ => .fuel
  | _ + 1, h, none => .ok h
  | fuel + 1, h, some p =>
    (Res.ofOption (dispatch L h p)).bind fun h1 =>
    (Res.ofOption (h1.deref p)).bind fun t =>
    ((List.range t.num_prevs.toNat).foldl
      (fun (acc : Res (Heap F)) (i : Nat) => acc.bind fun hh =>
        (Res.ofOption (hh.deref p)).bind fun _ =>
        (Res.ofOption (rdPrev hh p i)).bind fun q =>
        backward L fuel hh (some q))
      (.ok h1)).bind fun h2 =>
    (Res.ofOption (h2.deref p)).bind fun _ => .ok h2

/-! ## Specification helpers -/

/-- The struct a successful `tensor(NULL, dtype, ds, |ds|, rg)` builds. -/
def fresh (dtype : DType) (ds : List Int) (rg : bool) : Tensor F :=
  { data := Data.calloc dtype ds.prod.toNat, dtype := dtype, extra := 0, dims := ds,
    ndim := ds.length, size := ds.prod, op := none,
    grad := if dtype.isFloat ∧ lnot rg then some (List.replicate ds.prod.toNat 0) else none,
    prevs := List.replicate MAX_PREVS none, requires_grad := rg, num_prevs := 0 }

/-- The tensor `t` is a floating-point matrix: rank 2, dims `(r, c)` with a
non-zero column count, `r * c` elements (a count the `int` member `size` can
hold), its buffer holding `xs`. -/
structure IsMat (t : Tensor F) (r c : Nat) (xs : List F) : Prop where
  isFloat : t.dtype.isFloat = true
  dims_eq : t.dims = [(r : Int), (c : Int)]
  ndim_eq : t.ndim = 2
  size_eq : t.size = (r : Int) * (c : Int)
  cols_pos : 0 < c
  data_eq : t.data = Data.ofF t.dtype xs
  len_eq : xs.length = r * c
  fits : FitsInt r c

/-- The tensor `t` tracks gradients and owns the gradient buffer `g`, one entry
per element. -/
structure HasGrad (t : Tensor F) (g : List F) : Prop where
  tracks : t.requires_grad = bool.true
  grad_eq : t.grad = some g
  len_eq : (g.length : Int) = t.size

/-- The tensor `t` does not track gradients and owns no gradient buffer. -/
structure NoGrad (t : Tensor F) : Prop where
  tracks : t.requires_grad = bool.false
  grad_eq : t.grad = none

/-- The gradient buffer `g` after `v i` was added to every entry `i`. -/
def addv (g : List F) (v : Nat → F) : List F :=
  (List.range g.length).map (fun i => g.getD i 0 + v i)

/-- The heap after `v i` was added to entry `i` of the gradient buffer of `p`,
for every `i`. -/
def accGrad (h : Heap F) (p : Nat) (v : Nat → F) : Heap F :=
  match h.deref p with
  | some t => h.store p { t with grad := t.grad.map (fun g => addv g v) }
  | none => h

/-- Entry `i` of the gradient buffer of the tensor at `p`. -/
def gradAt (h : Heap F) (p : Nat) (i : Nat) : Option F := do
  let t ← h.deref p
  let g ← t.grad
  g[i]?

/-- The floating-point buffer behind a `Data`, if it is one. -/
def Data.floats (d : Data F) : Option (List F) :=
  match d with
  | .float32 b => some b
  | .float64 b => some b
  | _ => none

/-- The integer buffer behind a `Data`, if it is one. -/
def Data.ints (d : Data F) : Option (List Int) :=
  match d with
  | .int32 b => some b
  | .int64 b => some b
  | _ => none

/-- Element `i` of the floating-point data of the tensor at `p`. -/
def dataAt (h : Heap F) (p : Nat) (i : Nat) : Option F := do
  let t ← h.deref p
  let b ← t.data.floats
  b[i]?

/-- The struct a binary element-wise forward operation `op` returns on float
operands `a` (at `p1`) and `b` (at `p2`), with `D` the computed data. -/
def binResult (op : Op) (a b : Tensor F) (p1 p2 : Nat) (D : List F) : Tensor F :=
  { fresh a.dtype a.dims (condBool (lnot a.requires_grad || lnot b.requires_grad)) with
    data := Data.ofF a.dtype D, op := some op,
    prevs := [some p1, some p2, none], num_prevs := 2 }

/-- A tensor that tracks gradients owns a gradient buffer of `n` entries. -/
def GradOK (t : Tensor F) (n : Nat) : Prop :=
  t.requires_grad = bool.true → ∃ g, t.grad = some g ∧ g.length = n

/-- The heap after `v i` was added to the gradient of `p` when `t` tracks
gradients, the heap unchanged otherwise. -/
def accIf (t : Tensor F) (h : Heap F) (p : Nat) (v : Nat → F) : Heap F :=
  if t.requires_grad = bool.true then accGrad h p v else h

/-- The struct a reduction (`sum`, `mean`) returns on a float operand `a` at
`p1`: a single-element tensor of dims `[1]` holding `v`. -/
def redResult (op : Op) (a : Tensor F) (p1 : Nat) (v : F) (num_prevs : Int) : Tensor F :=
  { fresh a.dtype [1] (condBool (lnot a.requires_grad)) with
    data := Data.ofF a.dtype [v], op := some op,
    prevs := [some p1, none, none], num_prevs := num_prevs }

/-- The heap with the gradient buffer of `p` replaced by `g` (the caller's
stores into `p->grad`). -/
def setGrad (h : Heap F) (p : Nat) (g : List F) : Heap F :=
  match h.deref p with
  | some t => h.store p { t with grad := some g }
  | none => h

/-- The tensor `t` is a leaf as the constructor leaves it: no producing
operation, no recorded operand. -/
structure IsLeaf (t : Tensor F) : Prop where
  op_eq : t.op = none
  num_prevs_eq : t.num_prevs = 0

/-- The tensor `t'` is `t` up to the contents of its gradient buffer, which
keeps its presence and length. -/
structure SameButGrad (t t' : Tensor F) : Prop where
  eq : t' = { t with grad := t'.grad }
  some_len : ∀ g, t.grad = some g → ∃ g', t'.grad = some g' ∧ g'.length = g.length

/-- The struct a unary element-wise forward operation `op` returns on a float
operand `a` at `p1`, with `D` the computed data. -/
def unResult (op : Op) (a : Tensor F) (p1 : Nat) (D : List F) : Tensor F :=
  { fresh a.dtype a.dims (condBool (lnot a.requires_grad)) with
    data := Data.ofF a.dtype D, op := some op,
    prevs := [some p1, none, none], num_prevs := 1 }

/-- The buffer `D` after positions `0..n-1` were overwritten with `f`. -/
def overwrite {α : Type} (n : Nat) (f : Nat → α) (D : List α) : List α :=
  (List.range n).map f ++ D.drop n

/-! ## Concrete inputs and caller programs -/

/-- The leaf a call `tensor(xs, dt, {r, c}, 2, rg)` builds for a float type
`dt`. -/
def leafMat (dt : DType) (r c : Nat) (xs : List F) (rg : bool) : Tensor F :=
  { data := Data.ofF dt xs, dtype := dt, extra := 0, dims := [(r : Int), (c : Int)], ndim := 2,
    size := (r : Int) * (c : Int), op := none,
    grad := if rg = bool.true then some (List.replicate (r * c) 0) else none,
    prevs := List.replicate MAX_PREVS none, requires_grad := rg, num_prevs := 0 }

/-- A stand-in for the floating-point environment over the rationals, exact
at the arguments the examples below evaluate: `exp 0 = 1`, `pow x 2 = x * x`,
`pow x 1 = x`, `pow x 0 = 1`, and the IEEE 754 representations of `0`, `1/2`,
`1` and `2` (`0x3F000000`, `0x3F800000`, `0x40000000` as a `float`;
`0x3FE0000000000000`, `0x3FF0000000000000`, `0x4000000000000000` as a
`double`). -/
def libmQ : Libm ℚ :=
  { exp := fun x => if x = 0 then 1 else 1 + x,
    pow := fun x e => if e = 2 then x * x else if e = 1 then x else 1,
    bits32 := fun x =>
      if x = 1 / 2 then 1056964608 else if x = 1 then 1065353216
      else if x = 2 then 1073741824 else 0,
    bits64 := fun x =>
      if x = 1 / 2 then 4602678819172646912 else if x = 1 then 4607182418800017408
      else if x = 2 then 4611686018427387904 else 0 }

/-- The heap of an outcome, if the run returned. -/
def Res.toOption {α : Type} (r : Res α) : Option α :=
  match r with
  | .ok a => some a
  | _ => none

/-- The whole gradient buffer of the tensor at `p`. -/
def gradOf (h : Heap F) (p : Nat) : Option (List F) := do
  let t ← h.deref p
  t.grad

/-- The floating-point data of the tensor at `p`. -/
def dataOf (h : Heap F) (p : Nat) : Option (List F) := do
  let t ← h.deref p
  t.data.floats

/-- Caller program: `out = MSELoss(yTrue, yPred); out->grad[0] = 1;`. -/
def progMSE (L : Libm F) (h : Heap F) (yTrue yPred : Nat) : Option (Heap F × Nat) := do
  let r ← MSELoss L h (some yTrue) (some yPred)
  let out ← r.2
  let h1 ← seed_grad r.1 out 0 1
  some (h1, out)

/-- Caller program: `m = mul(x, y); s = sum(m); s->grad[0] = 1;`. -/
def progMulSum (h : Heap F) (x y : Nat) : Option (Heap F × Nat × Nat) := do
  let r1 ← mul h (some x) (some y)
  let m ← r1.2
  let r2 ← sum r1.1 (some m)
  let s ← r2.2
  let h1 ← seed_grad r2.1 s 0 1
  some (h1, m, s)

/-- Caller program: `b = mul(a, w); c = add(b, b); grad_init(c);`. -/
def progDiamond (h : Heap F) (a w : Nat) : Option (Heap F × Nat) := do
  let r1 ← mul h (some a) (some w)
  let b ← r1.2
  let r2 ← add r1.1 (some b) (some b)
  let c ← r2.2
  let h1 ← grad_init r2.1 (some c)
  some (h1, c)

/-- Caller program: `out = matmul(A, B);`, then the stores of `g` into
`out->grad`. -/
def progMatmul (h : Heap F) (A B : Nat) (g : List F) : Option (Heap F × Nat) := do
  let r ← matmul h (some A) (some B)
  let out ← r.2
  some (setGrad r.1 out g, out)

/-- Caller program: `out = softmax(x);`, then the stores of `g` into
`out->grad`. -/
def progSoftmax (L : Libm F) (h : Heap F) (x : Nat) (g : List F) : Option (Heap F × Nat) := do
  let r ← softmax L h (some x)
  let out ← r.2
  some (setGrad r.1 out g, out)

/-- Heap for the `MSELoss` example with one element: `yTrue = [[1]]` at 0,
`yPred = [[3]]` (tracking) at 1. -/
def exMSE1 : Heap ℚ :=
  [some (leafMat .FLOAT32 1 1 [1] .false), some (leafMat .FLOAT32 1 1 [3] .true)]

/-- Heap for the `MSELoss` example with two elements: `yTrue = [[0, 0]]` at 0,
`yPred = [[1, 1]]` (tracking) at 1. -/
def exMSE2 : Heap ℚ :=
  [some (leafMat .FLOAT32 1 2 [0, 0] .false), some (leafMat .FLOAT32 1 2 [1, 1] .true)]

/-- Heap with `x = [[2]]` at 0 and `y = [[3]]` at 1, both tracking. -/
def exXY : Heap ℚ :=
  [some (leafMat .FLOAT32 1 1 [2] .true), some (leafMat .FLOAT32 1 1 [3] .true)]

/-- Heap with `a = [[1]]` (tracking) at 0 and `w = [[3]]` (not tracking) at 1. -/
def exAW : Heap ℚ :=
  [some (leafMat .FLOAT32 1 1 [1] .true), some (leafMat .FLOAT32 1 1 [3] .false)]

/-- Heap with `A = [[1, 1]]` (1 x 2) at 0 and `B = [[0, 1], [0, 0]]` (2 x 2) at
1, both tracking. -/
def exAB : Heap ℚ :=
  [some (leafMat .FLOAT32 1 2 [1, 1] .true), some (leafMat .FLOAT32 2 2 [0, 1, 0, 0] .true)]

/-- Heap with the single tracking tensor `x = [[2]]`. -/
def exX2 : Heap ℚ := [some (leafMat .FLOAT32 1 1 [2] .true)]

section MoreDefinitions

variable {F : Type} [LinearOrderedField F]

/-! ## Specification helpers for `matmul` and the integer types -/

/-- The accumulator `a` after iterations `0, ..., k-1` of a loop whose
iteration `k` replaces the accumulator `acc` by `g k acc`. -/
def accK {α : Type} (g : Nat → α → α) : Nat → α → α
  | 0, a => a
  | k + 1, a => g k (accK g k a)

/-- The value position `q` of the result holds after a triple loop over
`(i, j, k)` that accumulates `g i j k` into position `i * n + j`. -/
def tripleVal {α : Type} (g : Nat → Nat → Nat → α → α) (z : α) (n l : Nat) (D0 : List α)
    (q : Nat) : α :=
  accK (g (q / n) (q % n)) l (D0.getD q z)

/-- The sum over `k < l` of `xs[i*l + k] * ys[k*n + j]`, over the field. -/
def dotF (xs ys : List F) (l n i j : Nat) : F :=
  ((List.range l).map fun k => xs.getD (i * l + k) 0 * ys.getD (k * n + j) 0).sum

/-- The sum over `k < l` of `xs[i*l + k] * ys[k*n + j]`, over the integers. -/
def dotI (xs ys : List Int) (l n i j : Nat) : Int :=
  ((List.range l).map fun k => xs.getD (i * l + k) 0 * ys.getD (k * n + j) 0).sum

/-- The tensor `t` is an integer matrix: rank 2, dims `(r, c)`, `r * c`
elements, its buffer holding `xs`. -/
structure IsMatI (t : Tensor F) (r c : Nat) (xs : List Int) : Prop where
  isInt : t.dtype.isFloat = false
  dims_eq : t.dims = [(r : Int), (c : Int)]
  ndim_eq : t.ndim = 2
  size_eq : t.size = (r : Int) * (c : Int)
  data_eq : t.data = Data.ofI t.dtype xs
  len_eq : xs.length = r * c
  fits : FitsInt r c

/-- Element `i` of the integer data of the tensor at `p`. -/
def intAt (h : Heap F) (p : Nat) (i : Nat) : Option Int := do
  let t ← h.deref p
  let b ← t.data.ints
  b[i]?

/-- The integer data of the tensor at `p`. -/
def intsOf (h : Heap F) (p : Nat) : Option (List Int) := do
  let t ← h.deref p
  t.data.ints

/-- The struct `matmul` returns on operands `a` (at `p1`) and `b` (at `p2`)
for a result of dims `(m, n)` with data `D`. -/
def matResult (a b : Tensor F) (p1 p2 : Nat) (m n : Nat) (D : Data F) : Tensor F :=
  { fresh a.dtype [(m : Int), (n : Int)]
      (condBool (lnot a.requires_grad || lnot b.requires_grad)) with
    data := D, op := some .MATMUL, prevs := [some p1, some p2, none], num_prevs := 2 }

/-- The struct a binary element-wise forward operation `op` returns on integer
operands `a` (at `p1`) and `b` (at `p2`), with `D` the computed data. -/
def binResultI (op : Op) (a b : Tensor F) (p1 p2 : Nat) (D : List Int) : Tensor F :=
  { fresh a.dtype a.dims (condBool (lnot a.requires_grad || lnot b.requires_grad)) with
    data := Data.ofI a.dtype D, op := some op,
    prevs := [some p1, some p2, none], num_prevs := 2 }

/-! ## Further concrete inputs -/

/-- The leaf a call `tensor(xs, dt, {r, c}, 2, rg)` builds for an integer type
`dt`. -/
def leafMatI (dt : DType) (r c : Nat) (xs : List Int) (rg : bool) : Tensor F :=
  { data := Data.ofI dt xs, dtype := dt, extra := 0, dims := [(r : Int), (c : Int)], ndim := 2,
    size := (r : Int) * (c : Int), op := none, grad := none,
    prevs := List.replicate MAX_PREVS none, requires_grad := rg, num_prevs := 0 }

/-- Heap with `A = [[1, 2], [3, 4]]` at 0 and `B = [[5, 6], [7, 8]]` at 1. -/
def exMM : Heap ℚ :=
  [some (leafMat .FLOAT32 2 2 [1, 2, 3, 4] .false),
   some (leafMat .FLOAT32 2 2 [5, 6, 7, 8] .false)]

/-- Heap with `x = [[2]]` (tracking, gradient `[5]`) at 0, `y1 = [[3]]`
(tracking) at 1 and `y2 = [[4]]` (not tracking) at 2. -/
def exG : Heap ℚ :=
  [some { leafMat .FLOAT32 1 1 [2] .true with grad := some [5] },
   some (leafMat .FLOAT32 1 1 [3] .true),
   some (leafMat .FLOAT32 1 1 [4] .false)]

/-- Heap with the single tracking tensor `x = [[-1, 0, 2]]`, gradient
`[10, 20, 30]`. -/
def exRelu : Heap ℚ :=
  [some { leafMat .FLOAT64 1 3 [-1, 0, 2] .true with grad := some [10, 20, 30] }]

/-! ## Further forward operations -/

/-- One iteration of the `FLOAT32` loop of `sub`: the three positions are
computed and left unused, `t->data[i] = t1->data[i] - t2->data[i]`. -/
def subStepF32 (t p1 p2 : Nat) (i : Nat) (hh : Heap F) : Option (Heap F) := do
  let _ ← posOf hh t i
  let _ ← posOf hh p1 i
  let _ ← posOf hh p2 i
  let a ← rdF hh p1 .FLOAT32 i
  let b ← rdF hh p2 .FLOAT32 i
  wrF hh t .FLOAT32 i (a - b)

/-- The function `sub`.  The result of `tensor` is used without a `NULL` test;
the `INT64` case has no `break`: after the loop, control falls into `default`,
which calls `t_free(t)` and returns `NULL`. -/
def sub (h : Heap F) (t1 t2 : Option Nat) : Option (Heap F × Option Nat) :=
  match t1, t2 with
  | some p1, some p2 => do
    let a ← h.deref p1
    let b ← h.deref p2
    if a.ndim ≠ b.ndim ∨ a.dtype ≠ b.dtype then some (h, none)
    else if (← dimsDiffer a.dims b.dims a.ndim) then some (h, none)
    else
      let require_grad := condBool (lnot a.requires_grad || lnot b.requires_grad)
      let r ← tensor h none a.dtype (some a.dims) a.ndim require_grad
      let t ← r.2
      match a.dtype with
      | .FLOAT32 => do
        let h2 ← forLoop a.size (subStepF32 t p1 p2) r.1
        let h3 ← link2 h2 t .SUB p1 p2
        some (h3, some t)
      | .FLOAT64 => do
        let h2 ← forLoop a.size (binStepF (· - ·) .FLOAT64 t p1 p2) r.1
        let h3 ← link2 h2 t .SUB p1 p2
        some (h3, some t)
      | .INT32 => do
        let h2 ← forLoop a.size (binStepI (· - ·) .INT32 t p1 p2) r.1
        let h3 ← link2 h2 t .SUB p1 p2
        some (h3, some t)
      | .INT64 => do
        let h2 ← forLoop a.size (binStepI (· - ·) .INT64 t p1 p2) r.1
        let h3 ← t_free h2 (some t)
        some (h3, none)
  | _, _ => some (h, none)

/-- One iteration of a float loop of `Div`:
`t->data[idx] = t1->data[idx] / t2->data[idx]`, the quotient read in the
field. -/
def divStepF (dt : DType) (t p1 p2 : Nat) (i : Nat) (hh : Heap F) : Option (Heap F) := do
  let idx ← posOf hh t i
  let a ← rdF hh p1 dt idx
  let b ← rdF hh p2 dt idx
  wrF hh t dt idx (a / b)

/-- The quotient `a / b` of two integers of `w` bits: truncating, undefined
for `b == 0` and when the quotient does not fit the type (`MIN / -1`). -/
def cdivw (w : Nat) (a b : Int) : Option Int := do
  let q ← cdiv a b
  if fitsBits w q then some q else none

/-- One iteration of an integer loop of `Div`:
`t->data.float32[idx] = t1->data.int32[idx] / t2->data.int32[idx]` (for
`INT64`: `data.float64`, `data.int64`).  The integer quotient is converted to
the floating type and stored through the float member of the same width into
the integer buffer of the result, whose element then holds the representation
of that floating value. -/
def divStepI (L : Libm F) (dt : DType) (t p1 p2 : Nat) (i : Nat) (hh : Heap F) :
    Option (Heap F) := do
  let idx ← posOf hh t i
  let a ← rdI hh p1 dt idx
  let b ← rdI hh p2 dt idx
  let q ← cdivw dt.bits a b
  wrI hh t dt idx (L.bits dt (q : F))

/-- The function `Div`. -/
def Div (L : Libm F) (h : Heap F) (t1 t2 : Option Nat) : Option (Heap F × Option Nat) :=
  match t1, t2 with
  | some p1, some p2 => do
    let a ← h.deref p1
    let b ← h.deref p2
    if a.dtype ≠ b.dtype ∨ a.ndim ≠ b.ndim then some (h, none)
    else if (← dimsDiffer a.dims b.dims a.ndim) then some (h, none)
    else
      let require_grad := condBool (lnot a.requires_grad || lnot b.requires_grad)
      let r ← tensor h none a.dtype (some a.dims) a.ndim require_grad
      match r.2 with
      | none => some (r.1, none)
      | some t => do
        let h2 ← (match a.dtype with
          | .FLOAT32 => forLoop a.size (divStepF .FLOAT32 t p1 p2) r.1
          | .FLOAT64 => forLoop a.size (divStepF .FLOAT64 t p1 p2) r.1
          | .INT32 => forLoop a.size (divStepI L .INT32 t p1 p2) r.1
          | .INT64 => forLoop a.size (divStepI L .INT64 t p1 p2) r.1)
        let h3 ← link2 h2 t .DIV p1 p2
        some (h3, some t)
  | _, _ => some (h, none)

/-- The common frame of `Pow`, `Exp`, `Tanh` and `Sigmoid`: the result is built
by `tensor` from the operand's type and dims with
`require_grad = (!t1->requires_grad) ? true : false`; `NULL` is returned when
`tensor` fails; the `switch (t1->dtype)` runs one element loop over
`t1->size` positions; `close` makes the final assignments. -/
def unaryForward (stepF stepI : DType → Nat → Nat → Nat → Heap F → Option (Heap F))
    (close : Heap F → Nat → Nat → Option (Heap F)) (h : Heap F) (t1 : Option Nat) :
    Option (Heap F × Option Nat) :=
  match t1 with
  | none => some (h, none)
  | some p1 => do
    let a ← h.deref p1
    let require_grad := condBool (lnot a.requires_grad)
    let r ← tensor h none a.dtype (some a.dims) a.ndim require_grad
    match r.2 with
    | none => some (r.1, none)
    | some t => do
      let h2 ← (match a.dtype with
        | .FLOAT32 => forLoop a.size (stepF .FLOAT32 t p1) r.1
        | .FLOAT64 => forLoop a.size (stepF .FLOAT64 t p1) r.1
        | .INT32 => forLoop a.size (stepI .INT32 t p1) r.1
        | .INT64 => forLoop a.size (stepI .INT64 t p1) r.1)
      let h3 ← close h2 t p1
      some (h3, some t)

/-- The assignments `t->op = op; t->prevs[0] = p1; t->extra = x;
t->num_prevs = 1;` that close `Pow` and `leaky_relu`. -/
def link1x (h : Heap F) (t : Nat) (op : Op) (p1 : Nat) (x : F) : Option (Heap F) := do
  let tt ← h.deref t
  some (h.store t { tt with op := some op, prevs := tt.prevs.set 0 (some p1), extra := x,
                            num_prevs := 1 })

/-- One iteration of a float loop of `Pow`:
`t->data[idx] = pow(t1->data[idx], exponent)`. -/
def powStepF (L : Libm F) (e : F) (dt : DType) (t p1 : Nat) (i : Nat) (hh : Heap F) :
    Option (Heap F) := do
  let idx ← posOf hh p1 i
  let x ← rdF hh p1 dt idx
  wrF hh t dt idx (L.pow x e)

/-- One iteration of an integer loop of `Pow`:
`t->data[idx] = (int32_t)pow((double)t1->data[idx], exponent)`; `cvt` is the
conversion of a floating value to an integer. -/
def powStepI (L : Libm F) (cvt : F → Int) (e : F) (dt : DType) (t p1 : Nat) (i : Nat)
    (hh : Heap F) : Option (Heap F) := do
  let idx ← posOf hh p1 i
  let x ← rdI hh p1 dt idx
  wrI hh t dt idx (wrap dt.bits (cvt (L.pow (x : F) e)))

/-- The function `Pow`. -/
def Pow (L : Libm F) (cvt : F → Int) (h : Heap F) (t1 : Option Nat) (exponent : F) :
    Option (Heap F × Option Nat) :=
  unaryForward (powStepF L exponent) (powStepI L cvt exponent)
    (fun h2 t p1 => link1x h2 t .POW p1 exponent) h t1

/-- One iteration of a float loop of `Exp`: `t->data[idx] = exp(t->data[idx])`,
the argument read from the result's own buffer. -/
def expStepF (L : Libm F) (dt : DType) (t p1 : Nat) (i : Nat) (hh : Heap F) :
    Option (Heap F) := do
  let idx ← posOf hh p1 i
  let y ← rdF hh t dt idx
  wrF hh t dt idx (L.exp y)

/-- One iteration of an integer loop of `Exp`:
`t->data.float32[idx] = exp((float)t->data.int32[idx])` (for `INT64`:
`data.float64`, `(double)`, `data.int64`).  The argument is read from the
result's own buffer; the floating value is stored through the float member
into the integer buffer, whose element then holds its representation. -/
def expStepI (L : Libm F) (dt : DType) (t p1 : Nat) (i : Nat) (hh : Heap F) :
    Option (Heap F) := do
  let idx ← posOf hh p1 i
  let y ← rdI hh t dt idx
  wrI hh t dt idx (L.bits dt (L.exp (y : F)))

/-- The function `Exp`. -/
def Exp (L : Libm F) (h : Heap F) (t1 : Option Nat) : Option (Heap F × Option Nat) :=
  unaryForward (expStepF L) (expStepI L) (fun h2 t p1 => link1 h2 t .EXP p1) h t1

/-- One iteration of a float loop of `leaky_relu`:
`t->data[idx] = (t1->data[idx] < 0) ? negative_slope * t1->data[idx] : t1->data[idx]`,
the element read as a value of the ordered field, where the product is exact
and the `(float)` cast of `negative_slope` in the `FLOAT32` case is the
identity (the stored value is `leakyExpr`). -/
def leakyStepF (slope : F) (dt : DType) (t p1 : Nat) (i : Nat) (hh : Heap F) :
    Option (Heap F) := do
  let idx ← posOf hh p1 i
  let x ← rdF hh p1 dt idx
  wrF hh t dt idx (if x < 0 then slope * x else x)

/-- The function `leaky_relu`: the integer cases release the fresh result and
return `NULL`. -/
def leaky_relu (negative_slope : F) (h : Heap F) (t1 : Option Nat) :
    Option (Heap F × Option Nat) :=
  match t1 with
  | none => some (h, none)
  | some p1 => do
    let a ← h.deref p1
    let require_grad := condBool (lnot a.requires_grad)
    let r ← tensor h none a.dtype (some a.dims) a.ndim require_grad
    match r.2 with
    | none => some (r.1, none)
    | some t =>
      match a.dtype with
      | .FLOAT32 => do
        let h2 ← forLoop a.size (leakyStepF negative_slope .FLOAT32 t p1) r.1
        let h3 ← link1x h2 t .LEAKY_RELU p1 negative_slope
        some (h3, some t)
      | .FLOAT64 => do
        let h2 ← forLoop a.size (leakyStepF negative_slope .FLOAT64 t p1) r.1
        let h3 ← link1x h2 t .LEAKY_RELU p1 negative_slope
        some (h3, some t)
      | _ => do
        let h2 ← t_free r.1 (some t)
        some (h2, none)

/-- One iteration of a float loop of `Tanh`:
`t->data[idx] = (exp(2*x) - 1) / (exp(2*x) + 1)` with `x = t1->data[idx]`. -/
def tanhStepF (L : Libm F) (dt : DType) (t p1 : Nat) (i : Nat) (hh : Heap F) :
    Option (Heap F) := do
  let idx ← posOf hh p1 i
  let x ← rdF hh p1 dt idx
  wrF hh t dt idx ((L.exp (2 * x) - 1) / (L.exp (2 * x) + 1))

/-- One iteration of an integer loop of `Tanh`:
`t->data.float32[idx] = (exp(2*x) - 1) / (exp(2*x) + 1)` with
`x = t1->data.int32[idx]` (for `INT64`: `data.float64`, `data.int64`).  The
product `2*x` is integer arithmetic of the element type; the floating value is
stored through the float member into the integer buffer, whose element then
holds its representation. -/
def tanhStepI (L : Libm F) (dt : DType) (t p1 : Nat) (i : Nat) (hh : Heap F) :
    Option (Heap F) := do
  let idx ← posOf hh p1 i
  let x ← rdI hh p1 dt idx
  let e := L.exp ((wrap dt.bits (2 * x) : Int) : F)
  wrI hh t dt idx (L.bits dt ((e - 1) / (e + 1)))

/-- The function `Tanh`. -/
def Tanh (L : Libm F) (h : Heap F) (t1 : Option Nat) : Option (Heap F × Option Nat) :=
  unaryForward (tanhStepF L) (tanhStepI L) (fun h2 t p1 => link1 h2 t .TANH p1) h t1

/-- One iteration of a float loop of `Sigmoid`:
`t->data[idx] = 1 / (1 + exp(-t1->data[idx]))`. -/
def sigmoidStepF (L : Libm F) (dt : DType) (t p1 : Nat) (i : Nat) (hh : Heap F) :
    Option (Heap F) := do
  let idx ← posOf hh p1 i
  let x ← rdF hh p1 dt idx
  wrF hh t dt idx (1 / (1 + L.exp (-x)))

/-- One iteration of an integer loop of `Sigmoid`:
`t->data.float32[idx] = 1 / (1 + exp(-t1->data.int32[idx]))` (for `INT64`:
`data.float64`, `data.int64`).  The negation is integer arithmetic of the
element type; the floating value is stored through the float member into the
integer buffer, whose element then holds its representation. -/
def sigmoidStepI (L : Libm F) (dt : DType) (t p1 : Nat) (i : Nat) (hh : Heap F) :
    Option (Heap F) := do
  let idx ← posOf hh p1 i
  let x ← rdI hh p1 dt idx
  wrI hh t dt idx (L.bits dt (1 / (1 + L.exp ((wrap dt.bits (-x) : Int) : F))))

/-- The function `Sigmoid`. -/
def Sigmoid (L : Libm F) (h : Heap F) (t1 : Option Nat) : Option (Heap F × Option Nat) :=
  unaryForward (sigmoidStepF L) (sigmoidStepI L) (fun h2 t p1 => link1 h2 t .SIGMOID p1) h t1

/-- One iteration of a float loop of `zeros` / `ones`: `t->data[idx] = v`. -/
def fillStepF (v : F) (dt : DType) (t : Nat) (i : Nat) (hh : Heap F) : Option (Heap F) := do
  let idx ← posOf hh t i
  wrF hh t dt idx v

/-- One iteration of an integer loop of `zeros` / `ones`. -/
def fillStepI (v : Int) (dt : DType) (t : Nat) (i : Nat) (hh : Heap F) : Option (Heap F) := do
  let idx ← posOf hh t i
  wrI hh t dt idx v

/-- The common body of `zeros` and `ones`: build the tensor, then store the
constant at every position. -/
def filled (vF : F) (vI : Int) (h : Heap F) (dtype : DType) (dims : Option (List Int))
    (ndim : Int) (requires_grad : bool) : Option (Heap F × Option Nat) := do
  let r ← tensor h none dtype dims ndim requires_grad
  match r.2 with
  | none => some (r.1, none)
  | some t => do
    let tt ← r.1.deref t
    let h2 ← (match dtype with
      | .FLOAT32 => forLoop tt.size (fillStepF vF .FLOAT32 t) r.1
      | .FLOAT64 => forLoop tt.size (fillStepF vF .FLOAT64 t) r.1
      | .INT32 => forLoop tt.size (fillStepI vI .INT32 t) r.1
      | .INT64 => forLoop tt.size (fillStepI vI .INT64 t) r.1)
    some (h2, some t)

/-- The function `zeros`. -/
def zeros (h : Heap F) (dtype : DType) (dims : Option (List Int)) (ndim : Int)
    (requires_grad : bool) : Option (Heap F × Option Nat) :=
  filled 0 0 h dtype dims ndim requires_grad

/-- The function `ones`. -/
def ones (h : Heap F) (dtype : DType) (dims : Option (List Int)) (ndim : Int)
    (requires_grad : bool) : Option (Heap F × Option Nat) :=
  filled 1 1 h dtype dims ndim requires_grad

/-! ## Specification helpers for the frame of the backward rules -/

/-- Every tensor of `h` other than `o` that owns no gradient buffer is the same
tensor in `h1`. -/
def Keeps (o : Nat) (h h1 : Heap F) : Prop :=
  ∀ p tp, p ≠ o → h.deref p = some tp → tp.grad = none → h1.deref p = some tp

/-- The backward rules of the fifteen recorded operations. -/
def backwardRules (L : Libm F) : List (Heap F → Option Nat → Option (Heap F)) :=
  [add_backward, sub_backward, mul_backward, matmul_backward, Div_backward L, Pow_backward L,
   Exp_backward L, relu_backward, leaky_relu_backward, Tanh_backward L, Sigmoid_backward,
   softmax_backward, sum_backward, mean_backward, MSELoss_backward]

/-! ## Specification helpers for the constructor and the results of forward operations -/

/-- Number of elements of a data buffer. -/
def Data.len (d : Data F) : Nat :=
  match d with
  | .float32 b => b.length
  | .float64 b => b.length
  | .int32 b => b.length
  | .int64 b => b.length

/-- The first `n` elements of a data buffer. -/
def Data.take (n : Nat) (d : Data F) : Data F :=
  match d with
  | .float32 b => .float32 (b.take n)
  | .float64 b => .float64 (b.take n)
  | .int32 b => .int32 (b.take n)
  | .int64 b => .int64 (b.take n)

/-- The member of the data union that belongs to the element type `dt`. -/
def Data.isOf (d : Data F) (dt : DType) : Prop :=
  match dt, d with
  | .FLOAT32, .float32 _ => True
  | .FLOAT64, .float64 _ => True
  | .INT32, .int32 _ => True
  | .INT64, .int64 _ => True
  | _, _ => False

/-- The tensor `t1` has the type, shape, tracking flag, gradient buffer and
number of elements of `t`. -/
structure SameShape (t t1 : Tensor F) : Prop where
  dtype_eq : t1.dtype = t.dtype
  dims_eq : t1.dims = t.dims
  ndim_eq : t1.ndim = t.ndim
  size_eq : t1.size = t.size
  grad_eq : t1.grad = t.grad
  requires_grad_eq : t1.requires_grad = t.requires_grad
  len_eq : t1.data.len = t.data.len

/-- From `h` to `h1` every tensor kept its type, shape, tracking flag, gradient
buffer and number of elements. -/
def ShapeOnly (h h1 : Heap F) : Prop :=
  ∀ q tq, h.deref q = some tq → ∃ tq1, h1.deref q = some tq1 ∧ SameShape tq tq1

/-- The size invariants of a tensor struct: a positive rank, one dimension per
rank, `size` the product of the dimensions and the number of elements of the
data buffer, and a zeroed gradient buffer of `size` entries exactly when the
tensor is floating-point and its `requires_grad` is the value `true`. -/
structure WellBuilt (t : Tensor F) : Prop where
  ndim_pos : 0 < t.ndim
  dims_len : (t.dims.length : Int) = t.ndim
  size_eq : t.size = t.dims.prod
  len_eq : (t.data.len : Int) = t.size
  grad_eq : t.grad = if t.dtype.isFloat = true ∧ t.requires_grad = bool.true
    then some (List.replicate t.size.toNat 0) else none

/-- The tensor at `p` tracks gradients. -/
def Tracks (h : Heap F) (p : Nat) : Prop :=
  ∃ t, h.deref p = some t ∧ t.requires_grad = bool.true

/-- The two-operand forward operations other than `MSELoss`. -/
def binaryOps (L : Libm F) :
    List (Heap F → Option Nat → Option Nat → Option (Heap F × Option Nat)) :=
  [add, sub, mul, matmul, Div L]

/-- The one-operand forward operations, for an exponent `e` and a slope `s`. -/
def unaryOps (L : Libm F) (cvt : F → Int) (e s : F) :
    List (Heap F → Option Nat → Option (Heap F × Option Nat)) :=
  [fun h t1 => Pow L cvt h t1 e, Exp L, relu, leaky_relu s, Sigmoid L, Tanh L, softmax L,
   sum, mean]

/-- What the constructor establishes of the struct `t` it returns for
`tensor(data, dt, ds, ndim, rg)`. -/
structure Built (data : Option (Data F)) (dt : DType) (ds : List Int) (ndim : Int) (rg : bool)
    (t : Tensor F) : Prop where
  ndim_pos : 0 < ndim
  ndim_le : ndim.toNat ≤ ds.length
  dtype_eq : t.dtype = dt
  requires_grad_eq : t.requires_grad = rg
  dims_eq : t.dims = ds.take ndim.toNat
  ndim_eq : t.ndim = ndim
  size_eq : t.size = (ds.take ndim.toNat).prod
  size_nonneg : 0 ≤ t.size
  op_eq : t.op = none
  num_prevs_eq : t.num_prevs = 0
  extra_eq : t.extra = 0
  grad_eq : t.grad = if dt.isFloat = true ∧ rg = bool.true
    then some (List.replicate t.size.toNat 0) else none
  data_null : data = none → t.data = Data.calloc dt t.size.toNat
  data_copy : ∀ src, data = some src →
    src.isOf dt ∧ t.size.toNat ≤ src.len ∧ t.data = src.take t.size.toNat

/-- The result `t` (in `h1`) of a two-operand forward operation on `a` and `b`
(in `h`): a well-built struct of the operands' common type whose tracking flag
is `(!a->requires_grad || !b->requires_grad) ? true : false`. -/
def BinRes (h : Heap F) (a b : Nat) (h1 : Heap F) (t : Nat) : Prop :=
  ∃ ta tb tt, h.deref a = some ta ∧ h.deref b = some tb ∧ h1.deref t = some tt ∧
    WellBuilt tt ∧ ta.dtype = tb.dtype ∧ tt.dtype = ta.dtype ∧
    tt.requires_grad = condBool (lnot ta.requires_grad || lnot tb.requires_grad)

/-- The result `t` (in `h1`) of a one-operand forward operation on `a` (in
`h`): a well-built struct of the operand's type whose tracking flag is
`(!a->requires_grad) ? true : false`. -/
def UnRes (h : Heap F) (a : Nat) (h1 : Heap F) (t : Nat) : Prop :=
  ∃ ta tt, h.deref a = some ta ∧ h1.deref t = some tt ∧ WellBuilt tt ∧
    tt.dtype = ta.dtype ∧ tt.requires_grad = condBool (lnot ta.requires_grad)

/-- The element-wise two-operand forward operations other than `MSELoss`. -/
def elementwiseOps (L : Libm F) :
    List (Heap F → Option Nat → Option Nat → Option (Heap F × Option Nat)) :=
  [add, sub, mul, Div L]

/-! ## Further concrete inputs -/

/-- Heap with `yTrue = [[1]]` (tracking) at 0 and `yPred = [[3]]` (not
tracking) at 1. -/
def exMSE3 : Heap ℚ :=
  [some (leafMat .FLOAT32 1 1 [1] .true), some (leafMat .FLOAT32 1 1 [3] .false)]

/-- Heap with `a = [[5, 7]]` (tracking, gradient `[1, 2]`) at 0 and
`b = [[1, 2]]` (tracking, gradient `[3, 4]`) at 1. -/
def exSub : Heap ℚ :=
  [some { leafMat .FLOAT32 1 2 [5, 7] .true with grad := some [1, 2] },
   some { leafMat .FLOAT32 1 2 [1, 2] .true with grad := some [3, 4] }]

/-- Heap with `a = [[2, 3]]` (tracking, gradient `[1, 1]`) at 0 and
`w = [[4, 5]]` (not tracking) at 1. -/
def exFrame : Heap ℚ :=
  [some { leafMat .FLOAT64 1 2 [2, 3] .true with grad := some [1, 1] },
   some (leafMat .FLOAT64 1 2 [4, 5] .false)]

/-! ## Specification helpers for `leaky_relu`, `MSELoss` and `softmax` -/

/-- The struct `leaky_relu` and `Pow` return on a float operand `a` at `p1`,
with `D` the computed data and `x` the auxiliary scalar. -/
def unResultX (op : Op) (a : Tensor F) (p1 : Nat) (D : List F) (x : F) : Tensor F :=
  { fresh a.dtype a.dims (condBool (lnot a.requires_grad)) with
    data := Data.ofF a.dtype D, op := some op,
    prevs := [some p1, none, none], extra := x, num_prevs := 1 }

/-- The running maximum the first loop of `softmax` computes: it starts from
element 0 and replaces the maximum by each later element that is greater. -/
def maxOf (xs : List F) : F :=
  xs.tail.foldl (fun mx x => if x > mx then x else mx) (xs.headD 0)

/-- The shifted exponentials `exp(x[i] - max)` of `softmax`. -/
def expsOf (L : Libm F) (xs : List F) : List F :=
  xs.map fun x => L.exp (x - maxOf xs)

/-- The data of `softmax(x)`: `exp(x[i] - max) / s` with `s` the sum of the
shifted exponentials over the whole tensor. -/
def softmaxVal (L : Libm F) (xs : List F) : List F :=
  (expsOf L xs).map fun e => e / (expsOf L xs).sum

/-- The struct `zeros` / `ones` return for a float type and dims `(r, c)`:
the constructor's struct with every element equal to `v`. -/
def filledF (dt : DType) (r c : Nat) (rg : bool) (v : F) : Tensor F :=
  { fresh dt [(r : Int), (c : Int)] rg with data := Data.ofF dt (List.replicate (r * c) v) }

/-- The struct `zeros` / `ones` return for an integer type and dims `(r, c)`. -/
def filledI (dt : DType) (r c : Nat) (rg : bool) (v : Int) : Tensor F :=
  { fresh dt [(r : Int), (c : Int)] rg with data := Data.ofI dt (List.replicate (r * c) v) }

/-- Caller program: `z = zeros(dt, {r, c}, 2, rg); o = ones(dt, {r, c}, 2, rg);
out = add(z, o);`, returning the final heap and `out`. -/
def progZerosOnes (h : Heap F) (dt : DType) (r c : Int) (rg : bool) :
    Option (Heap F × Option Nat) := do
  let z ← zeros h dt (some [r, c]) 2 rg
  let o ← ones z.1 dt (some [r, c]) 2 rg
  add o.1 z.2 o.2

/-! ## Further concrete inputs -/

/-- Heap with the single `INT32` tensor `n = [[1, 2]]`. -/
def exInt : Heap ℚ := [some (leafMatI .INT32 1 2 [1, 2] .false)]

/-! ## Concrete inputs of the integer and exponential examples -/

/-- Heap with the `INT64` tensors `a = [[5]]` at 0 and `b = [[3]]` at 1. -/
def exI64 : Heap ℚ :=
  [some (leafMatI .INT64 1 1 [5] .false), some (leafMatI .INT64 1 1 [3] .false)]

/-- Heap with the `INT32` tensors `a = [[5]]` at 0 and `b = [[3]]` at 1, both
created with `requires_grad = true`. -/
def exI32 : Heap ℚ :=
  [some (leafMatI .INT32 1 1 [5] .true), some (leafMatI .INT32 1 1 [3] .true)]

/-- The struct a unary forward operation `op` returns on an integer operand `a`
at `p1`, with `D` the computed data. -/
def unResultI (op : Op) (a : Tensor F) (p1 : Nat) (D : List Int) : Tensor F :=
  { fresh a.dtype a.dims (condBool (lnot a.requires_grad)) with
    data := Data.ofI a.dtype D, op := some op,
    prevs := [some p1, none, none], num_prevs := 1 }

/-- Heap with the single float tensor `x = [[0], [0]]` (two rows, one
column). -/
def exRows : Heap ℚ := [some (leafMat .FLOAT32 2 1 [0, 0] .false)]

/-- Heap with the single float tensor `x = [[1000, 1000, 1000]]`. -/
def exBig : Heap ℚ := [some (leafMat .FLOAT32 1 3 [1000, 1000, 1000] .false)]

/-- The pointer a forward operation returned. -/
def ptrOf (r : Option (Heap F × Option Nat)) : Option (Option Nat) := r.map Prod.snd

/-- The integer data of the tensor a forward operation returned. -/
def intsOfResult (r : Option (Heap F × Option Nat)) : Option (List Int) :=
  r.bind fun x => x.2.bind fun t => intsOf x.1 t

/-- The floating-point data of the tensor a forward operation returned. -/
def dataOfResult (r : Option (Heap F × Option Nat)) : Option (List F) :=
  r.bind fun x => x.2.bind fun t => dataOf x.1 t

/-- Caller program: `out = add(a, b); backward(out);` with recursion budget
`fuel`. -/
def progAddBackward (L : Libm F) (fuel : Nat) (h : Heap F) (a b : Nat) : Res (Heap F) :=
  (Res.ofOption (add h (some a) (some b))).bind fun r =>
  (Res.ofOption r.2).bind fun out => backward L fuel r.1 (some out)

/-- Caller program: `out = add(a, b); add_backward(out);`, returning whether
`out` is still alive afterwards. -/
def progAddRule (h : Heap F) (a b : Nat) : Option Bool := do
  let r ← add h (some a) (some b)
  let out ← r.2
  let h1 ← add_backward r.1 (some out)
  some (h1.deref out).isSome

/-! ## `transpose` and `eye` -/

/-- One iteration of a float loop of `transpose`:
`t->data[t_idx] = self->data[idx]; if (!self->requires_grad)
t->grad[t_idx] = self->grad[idx];`. -/
def transposeStepF (dt : DType) (rows cols : Int) (t p1 : Nat) (i : Nat) (hh : Heap F) :
    Option (Heap F) := do
  let idx ← shape_index i rows cols
  let t_idx ← T_index i rows cols
  let x ← rdF hh p1 dt idx
  let h1 ← wrF hh t dt t_idx x
  let s ← h1.deref p1
  if lnot s.requires_grad then do
    let g ← rdG h1 p1 dt idx
    wrG h1 t dt t_idx g
  else some h1

/-- One iteration of an integer loop of `transpose`. -/
def transposeStepI (dt : DType) (rows cols : Int) (t p1 : Nat) (i : Nat) (hh : Heap F) :
    Option (Heap F) := do
  let idx ← shape_index i rows cols
  let t_idx ← T_index i rows cols
  let x ← rdI hh p1 dt idx
  wrI hh t dt t_idx x

/-- The function `transpose`.  On `NULL` the error message reads `self->ndim`.
The result is built by `tensor` with dims `{cols, rows}` and the operand's
flag, and is not linked to the operand. -/
def transpose (h : Heap F) (self : Option Nat) : Option (Heap F × Option Nat) :=
  match self with
  | none => none
  | some p1 => do
    let s ← h.deref p1
    if s.ndim ≠ 2 then some (h, none)
    else
      let rows ← rdDim h p1 0
      let cols ← rdDim h p1 1
      let r ← tensor h none s.dtype (some [cols, rows]) 2 s.requires_grad
      match r.2 with
      | none => some (r.1, none)
      | some t => do
        let h2 ← (match s.dtype with
          | .FLOAT32 => forLoop s.size (transposeStepF .FLOAT32 rows cols t p1) r.1
          | .FLOAT64 => forLoop s.size (transposeStepF .FLOAT64 rows cols t p1) r.1
          | .INT32 => forLoop s.size (transposeStepI .INT32 rows cols t p1) r.1
          | .INT64 => forLoop s.size (transposeStepI .INT64 rows cols t p1) r.1)
        some (h2, some t)

/-- The value `(i / t->dims[1]) == (i % t->dims[1]) ? 1 : 0` of `eye`. -/
def eyeVal (hh : Heap F) (t : Nat) (i : Nat) : Option Bool := do
  let d1 ← rdDim hh t 1
  if d1 = 0 then none
  else some (decide ((i : Int).tdiv d1 = (i : Int).tmod d1))

/-- One iteration of a float loop of `eye`. -/
def eyeStepF (dt : DType) (t : Nat) (i : Nat) (hh : Heap F) : Option (Heap F) := do
  let idx ← posOf hh t i
  let b ← eyeVal hh t i
  wrF hh t dt idx (if b then 1 else 0)

/-- One iteration of an integer loop of `eye`. -/
def eyeStepI (dt : DType) (t : Nat) (i : Nat) (hh : Heap F) : Option (Heap F) := do
  let idx ← posOf hh t i
  let b ← eyeVal hh t i
  wrI hh t dt idx (if b then 1 else 0)

/-- The function `eye`: `tensor(NULL, dtype, {dim, dim}, 2, requires_grad)`,
`t->size` recomputed, then the element loop. -/
def eye (h : Heap F) (dtype : DType) (dim : Int) (requires_grad : bool) :
    Option (Heap F × Option Nat) := do
  let r ← tensor h none dtype (some [dim, dim]) 2 requires_grad
  match r.2 with
  | none => some (r.1, none)
  | some t => do
    let tt ← r.1.deref t
    let sz ← total_size tt.dims tt.ndim
    let h1 := r.1.store t { tt with size := sz }
    let h2 ← (match dtype with
      | .FLOAT32 => forLoop sz (eyeStepF .FLOAT32 t) h1
      | .FLOAT64 => forLoop sz (eyeStepF .FLOAT64 t) h1
      | .INT32 => forLoop sz (eyeStepI .INT32 t) h1
      | .INT64 => forLoop sz (eyeStepI .INT64 t) h1)
    some (h2, some t)

/-! ## Specification helpers for `transpose` and `eye` -/

/-- The function `T_index(., rows, cols)` on naturals. -/
def tIdx (rows cols : Nat) (i : Nat) : Nat := (i % cols) * rows + i / cols

/-- The row-major buffer of the transpose of the `r x c` matrix held in `xs`:
position `t` holds `xs[T_index(t, c, r)]`. -/
def transposed {α : Type} (d : α) (r c : Nat) (xs : List α) : List α :=
  (List.range (r * c)).map fun t => xs.getD (tIdx c r t) d

/-- The buffer `D0` of `N` entries after the stores of the first `k`
iterations of a loop that writes `f i` at a permuted position; `σ t` is the
iteration that writes position `t`. -/
def scat {α : Type} (N k : Nat) (σ : Nat → Nat) (f : Nat → α) (D0 : List α) (d : α) : List α :=
  (List.range N).map fun t => if σ t < k then f (σ t) else D0.getD t d

/-- The struct `transpose` returns on a float operand `a` of dims `(r, c)` with
data `xs`. -/
def transposeResult (a : Tensor F) (r c : Nat) (xs : List F) : Tensor F :=
  { fresh a.dtype [(c : Int), (r : Int)] a.requires_grad with
    data := Data.ofF a.dtype (transposed 0 r c xs),
    grad := a.grad.map (transposed 0 r c) }

/-- The struct `transpose` returns on an integer operand `a` of dims `(r, c)`
with data `xs`. -/
def transposeResultI (a : Tensor F) (r c : Nat) (xs : List Int) : Tensor F :=
  { fresh a.dtype [(c : Int), (r : Int)] a.requires_grad with
    data := Data.ofI a.dtype (transposed 0 r c xs) }

/-- The data of the `n x n` identity matrix. -/
def eyeData (n : Nat) : List Int :=
  (List.range (n * n)).map fun q => if q / n = q % n then 1 else 0

/-- The struct `eye` returns for an integer type. -/
def eyeResult (dt : DType) (n : Nat) (rg : bool) : Tensor F :=
  { fresh dt [(n : Int), (n : Int)] rg with data := Data.ofI dt (eyeData n) }

/-- Caller program: `t = transpose(x); u = transpose(t);`, returning the final
heap and `u`. -/
def progTwice (h : Heap F) (x : Nat) : Option (Heap F × Option Nat) := do
  let r ← transpose h (some x)
  transpose r.1 r.2

/-- Caller program: `e = eye(dtype, n, false); out = matmul(A, e);`. -/
def progMatmulEye (h : Heap F) (A : Nat) (dtype : DType) (n : Int) :
    Option (Heap F × Option Nat) := do
  let e ← eye h dtype n .false
  matmul e.1 (some A) e.2

/-- Caller program: `e = eye(dtype, m, false); out = matmul(e, A);`. -/
def progEyeMatmul (h : Heap F) (A : Nat) (dtype : DType) (m : Int) :
    Option (Heap F × Option Nat) := do
  let e ← eye h dtype m .false
  matmul e.1 e.2 (some A)

/-- Heap with the single tracking tensor `x = [[1, 2, 3], [4, 5, 6]]`, gradient
`[10, 20, 30, 40, 50, 60]`. -/
def exTr : Heap ℚ :=
  [some { leafMat .FLOAT32 2 3 [1, 2, 3, 4, 5, 6] .true with
    grad := some [10, 20, 30, 40, 50, 60] }]

/-- The leaf a call `tensor(xs, dt, {n}, 1, rg)` builds for a float type `dt`:
a tensor of rank 1. -/
def leafVec (dt : DType) (n : Nat) (xs : List F) (rg : bool) : Tensor F :=
  { data := Data.ofF dt xs, dtype := dt, extra := 0, dims := [(n : Int)], ndim := 1,
    size := (n : Int), op := none,
    grad := if rg = bool.true then some (List.replicate n 0) else none,
    prevs := List.replicate MAX_PREVS none, requires_grad := rg, num_prevs := 0 }

/-- Heap with the rank-1 tensors `a = [1, 2]` at 0 and `b = [3, 4]` at 1. -/
def exVec : Heap ℚ :=
  [some (leafVec .FLOAT32 2 [1, 2] .false), some (leafVec .FLOAT32 2 [3, 4] .false)]

/-! ## Specification helpers for the traversal -/

/-- Every tensor alive in the heap has a floating-point type. -/
def AllFloat (h : Heap F) : Prop := ∀ q t, h.deref q = some t → t.dtype.isFloat = true

/-- A relation between heaps that holds across the two kinds of store a
backward rule performs: a write into a gradient buffer, and the release of a
node by a `default` branch, taken only when some tensor of the heap has a
non-float type. -/
structure HeapRel (R : Heap F → Heap F → Prop) : Prop where
  rRefl : ∀ h, R h h
  rTrans : ∀ h1 h2 h3, R h1 h2 → R h2 h3 → R h1 h3
  rWrG : ∀ hh hh1 q dt i v, wrG hh q dt i v = some hh1 → R hh hh1
  rFree : ∀ hh hh1 o q tq, hh.deref q = some tq → tq.dtype.isFloat = false →
    t_free hh (some o) = some hh1 → R hh hh1

/-- A relation between heaps that holds across every store a forward operation
performs: the constructor's allocation, a write into a data buffer, the release
of the fresh result, and the closing assignments that link the result at `t`
to operands at addresses below `t`. -/
structure FwdRel (R : Heap F → Heap F → Prop) : Prop where
  fRefl : ∀ h, R h h
  fTrans : ∀ h1 h2 h3, R h1 h2 → R h2 h3 → R h1 h3
  fWrF : ∀ hh hh1 p dt i v, wrF hh p dt i v = some hh1 → R hh hh1
  fWrI : ∀ hh hh1 p dt i v, wrI hh p dt i v = some hh1 → R hh hh1
  fTFree : ∀ hh hh1 t, t_free hh (some t) = some hh1 → R hh hh1
  fFree : ∀ hh hh1 t, free hh t = some hh1 → R hh hh1
  fTensor : ∀ h data dt dims ndim rg r, tensor h data dt dims ndim rg = some r → R h r.1
  fLink1 : ∀ h h1 t op p1, p1 < t → link1 h t op p1 = some h1 → R h h1
  fLink1x : ∀ h h1 t op p1 x, p1 < t → link1x h t op p1 x = some h1 → R h h1
  fLink2 : ∀ h h1 t op p1 p2, p1 < t → p2 < t → link2 h t op p1 p2 = some h1 → R h h1
  fLinkSum : ∀ h h1 t p1, p1 < t → linkSum h t p1 = some h1 → R h h1

/-- The tensor `t1` is `t` up to the contents of its gradient buffer: every
other member is the same, and the buffer keeps its presence and its length. -/
structure UpToGrad (t t1 : Tensor F) : Prop where
  eq : t1 = { t with grad := t1.grad }
  len : t1.grad.map List.length = t.grad.map List.length

/-- From `h` to `h1` only contents of gradient buffers changed: every tensor
alive in `h1` is the tensor `h` holds at that address up to its gradient
values, and when every tensor of `h` is floating-point no tensor was
released. -/
def Frame (h h1 : Heap F) : Prop :=
  (∀ q t1, h1.deref q = some t1 → ∃ t, h.deref q = some t ∧ UpToGrad t t1) ∧
  (AllFloat h → ∀ q t, h.deref q = some t → ∃ t1, h1.deref q = some t1)

/-- The recorded operands of every tensor were created strictly before it, and
no tensor records more than `MAX_PREVS` operands: the heap of a graph built
forward-only. -/
def ForwardOnly (h : Heap F) : Prop :=
  ∀ p t, h.deref p = some t → t.num_prevs ≤ MAX_PREVS ∧
    ∀ (i q : Nat), (i : Int) < t.num_prevs → (t.prevs[i]?).join = some q → q < p

/-- From `h` to `h1` the heap stays forward-only. -/
def KeepsForward (h h1 : Heap F) : Prop := ForwardOnly h → ForwardOnly h1

/-- The forward operations of one operand, for an exponent `e` and a slope
`s`, and those of two operands. -/
def forwardOps (L : Libm F) (cvt : F → Int) (e s : F) :
    List (Heap F → Option Nat → Option Nat → Option (Heap F × Option Nat)) :=
  [add, sub, mul, matmul, Div L, MSELoss L,
   fun h t1 _ => Pow L cvt h t1 e, fun h t1 _ => Exp L h t1, fun h t1 _ => relu h t1,
   fun h t1 _ => leaky_relu s h t1, fun h t1 _ => Sigmoid L h t1, fun h t1 _ => Tanh L h t1,
   fun h t1 _ => softmax L h t1, fun h t1 _ => sum h t1, fun h t1 _ => mean h t1]

/-- Whether every cell of the heap holds a floating-point tensor or nothing. -/
def allFloatB (h : Heap F) : Bool :=
  h.all fun c => match c with
    | some t => t.dtype.isFloat
    | none => true

/-- Whether the first `k` recorded operands of a tensor at address `p` are
assigned and lie below `p`. -/
def linksBelow (p : Nat) (prevs : List (Option Nat)) (k : Nat) : Bool :=
  (List.range k).all fun i => match (prevs[i]?).join with
    | some q => decide (q < p)
    | none => true

/-- Whether the heap is built forward-only, by inspection of its cells. -/
def forwardOnlyB (h : Heap F) : Bool :=
  (List.range h.length).all fun p => match h.deref p with
    | some t => decide (t.num_prevs ≤ MAX_PREVS) && linksBelow p t.prevs t.num_prevs.toNat
    | none => true

/-- Heap of the graph `m = mul(x, y)` with `x = [[2]]` at 0, `y = [[3]]` at 1,
both tracking, and `m = [[6]]` at 2 with `m->grad[0] = 1`. -/
def exMulGraph : Heap ℚ :=
  [some (leafMat .FLOAT32 1 1 [2] .true), some (leafMat .FLOAT32 1 1 [3] .true),
   some { binResult .MUL (leafMat .FLOAT32 1 1 [2] .true) (leafMat .FLOAT32 1 1 [3] .true)
            0 1 [6] with grad := some [1] }]

/-- The heap `exMulGraph` after `backward(m)`: `x.grad = [3]`, `y.grad = [2]`. -/
def exMulGraphAfter : Heap ℚ :=
  [some { leafMat .FLOAT32 1 1 [2] .true with grad := some [3] },
   some { leafMat .FLOAT32 1 1 [3] .true with grad := some [2] },
   some { binResult .MUL (leafMat .FLOAT32 1 1 [2] .true) (leafMat .FLOAT32 1 1 [3] .true)
            0 1 [6] with grad := some [1] }]

/-! ## Specification helpers for the safety of the backward rules -/

/-- From `h` to `hh` every tensor is still alive and is the same up to the
contents of its gradient buffer. -/
def Same (h hh : Heap F) : Prop :=
  ∀ q t, h.deref q = some t → ∃ t1, hh.deref q = some t1 ∧ UpToGrad t t1

/-- The struct `t` is a well-built matrix of the float type `dt` with dims
`(r, c)`: `r * c` elements of data, and a gradient buffer of `r * c` entries
when it tracks gradients. -/
structure WMat (t : Tensor F) (dt : DType) (r c : Nat) : Prop where
  dtype_eq : t.dtype = dt
  dims_eq : t.dims = [(r : Int), (c : Int)]
  size_eq : t.size = (r : Int) * (c : Int)
  data_ok : ∃ xs, t.data = Data.ofF dt xs ∧ xs.length = r * c
  grad_ok : t.requires_grad = bool.true → ∃ g, t.grad = some g ∧ g.length = r * c

/-- The struct `t` is a well-built single-element result of the float type
`dt`, as a reduction returns it: a gradient buffer of one entry when it tracks
gradients. -/
structure WOne (t : Tensor F) (dt : DType) : Prop where
  dtype_eq : t.dtype = dt
  grad_ok : t.requires_grad = bool.true → ∃ g, t.grad = some g ∧ g.length = 1

/-- The shapes of graph node a forward operation builds. -/
inductive NodeKind where
  | binary
  | matmul
  | unary
  | reduce
  | mse
  deriving DecidableEq

/-- The node at `o` is wired as a forward operation of kind `k` over float
matrices leaves it: its recorded operands are alive, the shapes agree as the
operation requires, every struct is well built, and the result tracks
gradients exactly as the operation sets its flag. -/
def Wired (k : NodeKind) (h : Heap F) (o : Nat) : Prop :=
  match k with
  | .binary => ∃ (t t0 t1 : Tensor F) (p0 p1 : Nat) (dt : DType) (r c : Nat),
      dt.isFloat = true ∧ h.deref o = some t ∧
      t.prevs[0]? = some (some p0) ∧ t.prevs[1]? = some (some p1) ∧
      h.deref p0 = some t0 ∧ h.deref p1 = some t1 ∧
      WMat t dt r c ∧ WMat t0 dt r c ∧ WMat t1 dt r c ∧
      t.requires_grad = condBool (lnot t0.requires_grad || lnot t1.requires_grad)
  | .matmul => ∃ (t t0 t1 : Tensor F) (p0 p1 : Nat) (dt : DType) (m l n : Nat),
      dt.isFloat = true ∧ h.deref o = some t ∧
      t.prevs[0]? = some (some p0) ∧ t.prevs[1]? = some (some p1) ∧
      h.deref p0 = some t0 ∧ h.deref p1 = some t1 ∧
      WMat t dt m n ∧ WMat t0 dt m l ∧ WMat t1 dt l n ∧
      t.requires_grad = condBool (lnot t0.requires_grad || lnot t1.requires_grad)
  | .unary => ∃ (t t0 : Tensor F) (p0 : Nat) (dt : DType) (r c : Nat),
      dt.isFloat = true ∧ h.deref o = some t ∧ t.prevs[0]? = some (some p0) ∧
      h.deref p0 = some t0 ∧ WMat t dt r c ∧ WMat t0 dt r c ∧
      t.requires_grad = condBool (lnot t0.requires_grad)
  | .reduce => ∃ (t t0 : Tensor F) (p0 : Nat) (dt : DType) (r c : Nat),
      dt.isFloat = true ∧ h.deref o = some t ∧ t.prevs[0]? = some (some p0) ∧
      h.deref p0 = some t0 ∧ WOne t dt ∧ WMat t0 dt r c ∧
      t.requires_grad = condBool (lnot t0.requires_grad)
  | .mse => ∃ (t t0 t1 : Tensor F) (p0 p1 : Nat) (dt : DType) (r c : Nat),
      dt.isFloat = true ∧ h.deref o = some t ∧
      t.prevs[0]? = some (some p0) ∧ t.prevs[1]? = some (some p1) ∧
      h.deref p0 = some t0 ∧ h.deref p1 = some t1 ∧
      WOne t dt ∧ WMat t0 dt r c ∧ WMat t1 dt r c ∧
      t.requires_grad = condBool (lnot t0.requires_grad)

/-- The tensor at `p` has element type `dt` and owns a gradient buffer of `N`
elements. -/
def HasG (h : Heap F) (p : Nat) (dt : DType) (N : Nat) : Prop :=
  ∃ t, h.deref p = some t ∧ t.dtype = dt ∧ ∃ g, t.grad = some g ∧ g.length = N

/-- The tensor at `p` owns a data buffer of `N` elements of type `dt`. -/
def HasD (h : Heap F) (p : Nat) (dt : DType) (N : Nat) : Prop :=
  ∃ t, h.deref p = some t ∧ ∃ xs, t.data = Data.ofF dt xs ∧ xs.length = N

/-- The tensor at `p` has the shape `r × c` and records `r * c` as its size. -/
def HasDims (h : Heap F) (p : Nat) (r c : Nat) : Prop :=
  ∃ t, h.deref p = some t ∧ t.dims = [(r : Int), (c : Int)] ∧ t.size = (r : Int) * (c : Int)

/-- Operand slot `i` of the node at `o` holds `q`, and the gate of the backward
rule for that operand is open: the operand tracks gradients (the two-operand
rules and most one-operand rules test the operand), or the result does
(`softmax_backward` and the rules of the reductions test the result). -/
def GateOpen (k : NodeKind) (h : Heap F) (o i q : Nat) : Prop :=
  ∃ t tq, h.deref o = some t ∧ t.prevs[i]? = some (some q) ∧ h.deref q = some tq ∧
    match k with
    | .binary => i < 2 ∧ tq.requires_grad = bool.true
    | .matmul => i < 2 ∧ tq.requires_grad = bool.true
    | .unary => i = 0 ∧ (tq.requires_grad = bool.true ∨ t.requires_grad = bool.true)
    | .reduce => i = 0 ∧ t.requires_grad = bool.true
    | .mse => i = 0 ∧ t.requires_grad = bool.true

/-! ## Graphs built by the forward operations -/

/-- From `h` to `h1` only the struct at `t` changed, and it kept its type,
shape, tracking flag, gradient buffer, the member and the length of its data
buffer, and the number of its operand slots. -/
def Touch (t : Nat) (h h1 : Heap F) : Prop :=
  (∀ q, q ≠ t → h1.deref q = h.deref q) ∧
  ∀ x, h.deref t = some x → ∃ x1, h1.deref t = some x1 ∧ SameShape x x1 ∧
    x1.prevs.length = x.prevs.length ∧ ∀ dt, x.data.isOf dt → x1.data.isOf dt

/-- The heap `h2` is `h` after `tensor(NULL, dt, ds, nd, rg)` returned `t` and
element loops stored into `t` only. -/
def Made (h : Heap F) (dt : DType) (ds : List Int) (nd : Int) (rg : bool) (t : Nat)
    (h2 : Heap F) : Prop :=
  ∃ r, tensor h none dt (some ds) nd rg = some r ∧ r.2 = some t ∧ Touch t r.1 h2

/-- From `h2` to `h1` the closing assignments of a one-operand operation were
made on `t`: the tag `op` and the operand `a` in slot 0. -/
def Linked1 (t : Nat) (op : Op) (a : Nat) (h2 h1 : Heap F) : Prop :=
  Touch t h2 h1 ∧ ∀ x, h2.deref t = some x → ∃ x1, h1.deref t = some x1 ∧
    x1.op = some op ∧ x1.prevs = x.prevs.set 0 (some a)

/-- What is known of the result `x` at `t` of a forward operation that took
`h` to `h1`: the tensors of `h` are untouched, and `x` is the struct `tensor`
built for the type `dt`, the dimensions `ds` and the flag `rg`, tagged `op`. -/
structure NodeAt (h h1 : Heap F) (t : Nat) (dt : DType) (ds : List Int) (nd : Int) (rg : bool)
    (op : Op) (x : Tensor F) : Prop where
  addr : t = h.length
  old : ∀ q y, h.deref q = some y → h1.deref q = some y
  others : ∀ q, q ≠ t → h1.deref q = h.deref q
  alive : h1.deref t = some x
  built : WellBuilt x
  dtype_eq : x.dtype = dt
  dims_eq : x.dims = ds.take nd.toNat
  ndim_eq : x.ndim = nd
  flag_eq : x.requires_grad = rg
  member : x.data.isOf dt
  slots : x.prevs.length = MAX_PREVS
  op_eq : x.op = some op

/-- The kind of node each operation tag stands for. -/
def kindOf : Op → NodeKind
  | .ADD => .binary
  | .SUB => .binary
  | .MUL => .binary
  | .DIV => .binary
  | .MATMUL => .matmul
  | .RELU => .unary
  | .LEAKY_RELU => .unary
  | .SIGMOID => .unary
  | .TANH => .unary
  | .SOFTMAX => .unary
  | .POW => .unary
  | .EXP => .unary
  | .SUM => .reduce
  | .MEAN => .reduce
  | .MSE => .mse

/-- The backward rule of each operation tag. -/
def ruleOf (L : Libm F) : Op → Heap F → Option Nat → Option (Heap F)
  | .ADD => add_backward
  | .SUB => sub_backward
  | .MUL => mul_backward
  | .DIV => Div_backward L
  | .MATMUL => matmul_backward
  | .RELU => relu_backward
  | .LEAKY_RELU => leaky_relu_backward
  | .SIGMOID => Sigmoid_backward
  | .TANH => Tanh_backward L
  | .SOFTMAX => softmax_backward
  | .POW => Pow_backward L
  | .EXP => Exp_backward L
  | .SUM => sum_backward
  | .MEAN => mean_backward
  | .MSE => MSELoss_backward

/-- The tensor at `a` has rank 2. -/
def Rank2 (h : Heap F) (a : Nat) : Prop := ∃ ta, h.deref a = some ta ∧ ta.ndim = 2

/-- The heaps a program builds from nothing by calls of the constructor for
rank-2 floating-point leaves and by forward operations applied to rank-2
tensors that return a result.  The operation is any of `forwardOps`, for any
exponent and slope; an operation of one operand ignores `b`. -/
inductive Builds (L : Libm F) (cvt : F → Int) : Heap F → Prop where
  | start : Builds L cvt []
  | leaf {h h1 : Heap F} {data : Option (Data F)} {dt : DType} {r c : Nat} {rg : bool}
      {p : Nat} : Builds L cvt h → dt.isFloat = true →
      tensor h data dt (some [(r : Int), (c : Int)]) 2 rg = some (h1, some p) → Builds L cvt h1
  | node {h h1 : Heap F} {e s : F} {a b t : Nat}
      {op : Heap F → Option Nat → Option Nat → Option (Heap F × Option Nat)} :
      Builds L cvt h → op ∈ forwardOps L cvt e s → Rank2 h a → Rank2 h b →
      op h (some a) (some b) = some (h1, some t) → Builds L cvt h1

/-- What every tensor of a built heap satisfies: it is floating-point and well
built, its data buffer is the member of its type, its dimensions are not
negative, and its operand slots are the `MAX_PREVS` of the struct. -/
structure Sound (t : Tensor F) : Prop where
  isFloat : t.dtype.isFloat = true
  built : WellBuilt t
  member : t.data.isOf t.dtype
  dims_nonneg : ∀ d ∈ t.dims, 0 ≤ d
  slots : t.prevs.length = MAX_PREVS

/-- The invariant of built heaps: every tensor is sound, and every tensor that
carries an operation tag is wired as a node of that operation's kind. -/
def SoundHeap (h : Heap F) : Prop :=
  ∀ o t, h.deref o = some t → Sound t ∧ ∀ op, t.op = some op → Wired (kindOf op) h o

/-- The heap after `x = tensor({2}, FLOAT32, {1, 1}, 2, true)`,
`y = tensor({3}, FLOAT32, {1, 1}, 2, true)` and `m = mul(x, y)`. -/
def exMulBuilt : Heap ℚ :=
  [some (leafMat .FLOAT32 1 1 [2] .true), some (leafMat .FLOAT32 1 1 [3] .true),
   some (binResult .MUL (leafMat .FLOAT32 1 1 [2] .true) (leafMat .FLOAT32 1 1 [3] .true)
            0 1 [6])]

/-! ## Inputs whose product holds more than `INT_MAX` elements -/

/-- Heap with the `FLOAT32` matrices `A` of dims `(65536, 1)` at 0 and `B` of
dims `(1, 65536)` at 1, all elements zero.  Each holds 65536 elements; their
product has dims `(65536, 65536)`, that is `2^32` elements. -/
def exWide : Heap ℚ :=
  [some (leafMat .FLOAT32 65536 1 (List.replicate 65536 0) .false),
   some (leafMat .FLOAT32 1 65536 (List.replicate 65536 0) .false)]

/-- Heap with the `INT32` matrices `A` of dims `(65536, 1)` at 0 and `B` of
dims `(1, 65536)` at 1, all elements zero. -/
def exWideI : Heap ℚ :=
  [some (leafMatI .INT32 65536 1 (List.replicate 65536 0) .false),
   some (leafMatI .INT32 1 65536 (List.replicate 65536 0) .false)]

/-- Heap with the single `INT32` matrix `A` of dims `(1, 65536)`, all elements
zero. -/
def exRowI : Heap ℚ := [some (leafMatI .INT32 1 65536 (List.replicate 65536 0) .false)]

/-! ## Integer operands of `Div`, `Exp`, `Sigmoid` and `Tanh` -/

/-- Heap with the `INT32` tensors `a = [[6]]` at 0 and `b = [[3]]` at 1. -/
def exDivI : Heap ℚ :=
  [some (leafMatI .INT32 1 1 [6] .false), some (leafMatI .INT32 1 1 [3] .false)]

/-- The heap after `Div(a, b)` on `exDivI`: the quotient `2` was stored as the
`float` `2.0f`, whose representation `0x40000000` the `int32_t` element of the
result now holds. -/
def exDivIOut : Heap ℚ :=
  exDivI ++ [some (binResultI .DIV (leafMatI .INT32 1 1 [6] .false)
    (leafMatI .INT32 1 1 [3] .false) 0 1 [1073741824])]

/-- Heap with the single `INT64` tensor `n = [[0]]`. -/
def exZeroI : Heap ℚ := [some (leafMatI .INT64 1 1 [0] .false)]

/-- The heap after `Exp(n)` on `exZeroI`: `exp(0) = 1` was stored as a
`double`, whose representation `0x3FF0000000000000` the `int64_t` element of
the result now holds. -/
def exExpIOut : Heap ℚ :=
  exZeroI ++ [some (unResultI .EXP (leafMatI .INT64 1 1 [0] .false) 0 [4607182418800017408])]

/-- The heap after `Tanh(n)` on `exZeroI`: `(exp(0) - 1) / (exp(0) + 1) = 0`
was stored as a `double`, whose representation is all zero bits. -/
def exTanhIOut : Heap ℚ :=
  exZeroI ++ [some (unResultI .TANH (leafMatI .INT64 1 1 [0] .false) 0 [0])]

/-! ## The element expressions of `relu` and `leaky_relu`

The conditional expressions of the loops of `relu`, `relu_backward`,
`leaky_relu` and `leaky_relu_backward`, over any type of numbers with a zero,
a comparison and a product.  Over the ordered field `F` they are the
expressions of `reluStepF`, `reluBwdStep`, `leakyStepF` and `leakyBwdStep`;
over `Fp64` they are evaluated in floating point. -/

/-- The expression `(x < 0) ? 0 : x` of `relu`. -/
def reluExpr {V : Type} [Zero V] [LT V] [∀ a b : V, Decidable (a < b)] (x : V) : V :=
  if x < 0 then 0 else x

/-- The addend `(y < 0) ? 0 : og` of `relu_backward`, with `y` the element
`out->data[idx]` of the result and `og` the element `out->grad[idx]`. -/
def reluBwdExpr {V : Type} [Zero V] [LT V] [∀ a b : V, Decidable (a < b)] (y og : V) : V :=
  if y < 0 then 0 else og

/-- The expression `(x < 0) ? negative_slope * x : x` of `leaky_relu`. -/
def leakyExpr {V : Type} [Zero V] [LT V] [Mul V] [∀ a b : V, Decidable (a < b)]
    (slope x : V) : V :=
  if x < 0 then slope * x else x

/-- The addend `(y < 0) ? out->extra * og : og` of `leaky_relu_backward`, with
`y` the element `out->data[idx]` of the result and `og` the element
`out->grad[idx]`. -/
def leakyBwdExpr {V : Type} [Zero V] [LT V] [Mul V] [∀ a b : V, Decidable (a < b)]
    (slope y og : V) : V :=
  if y < 0 then slope * og else og

/-! ## A fragment of IEEE 754 arithmetic -/

/-- The values of a `double` that the element expressions are evaluated on: a
finite value, held as a rational (the sign of a zero is dropped: `-0.0 < 0`
is false as `0.0 < 0` is), or NaN. -/
inductive Fp64 where
  | num (q : ℚ)
  | nan
  deriving DecidableEq

/-- Half of the least positive `double` `2^-1074`: a product of a magnitude
up to this bound rounds to zero. -/
def Fp64.half : ℚ := 1 / 2 ^ 1075

/-- The comparison `a < b` of two `double`s: false when an operand is NaN. -/
def Fp64.lt : Fp64 → Fp64 → Bool
  | .num x, .num y => decide (x < y)
  | _, _ => false

/-- The comparison `a <= b` of two `double`s: false when an operand is NaN. -/
def Fp64.le : Fp64 → Fp64 → Bool
  | .num x, .num y => decide (x ≤ y)
  | _, _ => false

/-- The product `a * b` of two `double`s: NaN when an operand is NaN; zero
when the exact product underflows; the rounding of a product that does not
underflow is left out (the exact product stands for it). -/
def Fp64.mul : Fp64 → Fp64 → Fp64
  | .num x, .num y => .num (if |x * y| ≤ Fp64.half then 0 else x * y)
  | _, _ => .nan

instance : Zero Fp64 := ⟨Fp64.num 0⟩

instance : LT Fp64 := ⟨fun a b => Fp64.lt a b = true⟩

instance : LE Fp64 := ⟨fun a b => Fp64.le a b = true⟩

instance : Mul Fp64 := ⟨Fp64.mul⟩

instance (a b : Fp64) : Decidable (a < b) := inferInstanceAs (Decidable (Fp64.lt a b = true))

instance (a b : Fp64) : Decidable (a ≤ b) := inferInstanceAs (Decidable (Fp64.le a b = true))

/-- The `double` `2^-600`, a normal number. -/
def Fp64.small : Fp64 := .num (1 / 2 ^ 600)

/-- The `double` `-2^-600`. -/
def Fp64.negSmall : Fp64 := .num (-(1 / 2 ^ 600))

/-! ## Contributions of the two-operand backward rules -/

/-- The forward operation `fwd` applied to the operands at `p` and `q` returns
a result `out`; with the upstream gradient `og` stored in `out->grad`, the
backward rule `rule` returns on `out`, the tensor at `w` is still the struct
`tw`, and entry `i` of the gradient of the tensor at `a` is `ga[i] + v i` for
every `i < n`. -/
def Contrib (fwd : Heap F → Option Nat → Option Nat → Option (Heap F × Option Nat))
    (rule : Heap F → Option Nat → Option (Heap F)) (h : Heap F) (p q a w : Nat)
    (tw : Tensor F) (ga og : List F) (n : Nat) (v : Nat → F) : Prop :=
  ∃ h1 out h2, fwd h (some p) (some q) = some (h1, some out) ∧
    rule (setGrad h1 out og) (some out) = some h2 ∧
    h2.deref w = some tw ∧
    ∀ i, i < n → gradAt h2 a i = some (ga.getD i 0 + v i)

/-- The heap after `a = tensor({2}, FLOAT32, {1, 1}, 2, true)`,
`w = tensor({3}, FLOAT32, {1, 1}, 2, false)` and `m = mul(a, w)`: `a` tracks
gradients, `w` does not. -/
def exMixedBuilt : Heap ℚ :=
  [some (leafMat .FLOAT32 1 1 [2] .true), some (leafMat .FLOAT32 1 1 [3] .false),
   some (binResult .MUL (leafMat .FLOAT32 1 1 [2] .true) (leafMat .FLOAT32 1 1 [3] .false)
            0 1 [6])]

end MoreDefinitions

/-! # Theorems -/

section Basic

variable {F : Type}

/-! ## Basic facts: heap, buffers, loops -/

theorem deref_eq_some_lt {h : Heap F} {p : Nat} {t : Tensor F}
    (hp : h.deref p = some t) : p < h.length := by
  unfold Heap.deref at hp
  by_contra hlt
  rw [List.getElem?_eq_none (by omega)] at hp
  simp at hp

theorem deref_eq_some_iff {h : Heap F} {p : Nat} {t : Tensor F} :
    h.deref p = some t ↔ h[p]? = some (some t) := by
  unfold Heap.deref
  cases hq : h[p]? with
  | none => simp
  | some o => cases o <;> simp

theorem deref_append_left {h : Heap F} {p : Nat} {t : Tensor F} (l : Heap F)
    (hp : h.deref p = some t) : Heap.deref (h ++ l) p = some t := by
  have hlt := deref_eq_some_lt hp
  rw [deref_eq_some_iff] at hp ⊢
  rw [List.getElem?_append_left hlt]; exact hp

theorem deref_append_new (h : Heap F) (t : Tensor F) :
    Heap.deref (h ++ [some t]) h.length = some t := by
  simp [Heap.deref]

theorem deref_store_self {h : Heap F} {p : Nat} (t : Tensor F) (hp : p < h.length) :
    (h.store p t).deref p = some t := by
  simp [Heap.deref, Heap.store, List.getElem?_set_self hp]

theorem deref_store_ne {h : Heap F} {p q : Nat} (t : Tensor F) (hq : q ≠ p) :
    (h.store p t).deref q = h.deref q := by
  simp [Heap.deref, Heap.store, List.getElem?_set_ne (Ne.symm hq)]

theorem store_store (h : Heap F) (p : Nat) (t u : Tensor F) :
    (h.store p t).store p u = h.store p u := by
  simp [Heap.store, List.set_set]

theorem length_store (h : Heap F) (p : Nat) (t : Tensor F) :
    (h.store p t).length = h.length := by
  simp [Heap.store]

theorem store_append_new (h : Heap F) (t u : Tensor F) :
    Heap.store (h ++ [some t]) h.length u = h ++ [some u] := by
  simp [Heap.store, List.set_append_right]

theorem bufGet_nat {α : Type} (b : List α) (i : Nat) : bufGet b (i : Int) = b[i]? := by
  simp [bufGet]

theorem bufSet_nat {α : Type} (b : List α) (i : Nat) (v : α) (hi : i < b.length) :
    bufSet b (i : Int) v = some (b.set i v) := by
  simp [bufSet, hi]

theorem shape_index_nat (i : Nat) (r c : Int) (hc : c ≠ 0) :
    shape_index (i : Int) r c = some (i : Int) := by
  simp only [shape_index, hc, if_false]
  congr 1
  have := Int.tdiv_add_tmod (i : Int) c
  linarith [mul_comm ((i : Int).tdiv c) c]

theorem loopN_succ {S : Type} (body : Nat → S → Option S) (n : Nat) (s : S) :
    loopN body (n + 1) s = (loopN body n s).bind (body n) := rfl

/-- Hoare rule for `loopN`: an invariant carried through every iteration. -/
theorem loopN_inv {S : Type} (body : Nat → S → Option S) (Inv : Nat → S → Prop) (n : Nat)
    (s : S) (h0 : Inv 0 s)
    (hstep : ∀ i s, i < n → Inv i s → ∃ s', body i s = some s' ∧ Inv (i + 1) s') :
    ∃ s', loopN body n s = some s' ∧ Inv n s' := by
  induction n with
  | zero => exact ⟨s, rfl, h0⟩
  | succ k ih =>
    obtain ⟨s1, hs1, hi1⟩ := ih (fun i s hi => hstep i s (by omega))
    obtain ⟨s2, hs2, hi2⟩ := hstep k s1 (by omega) hi1
    exact ⟨s2, by simp [loopN_succ, hs1, hs2], hi2⟩

theorem overwrite_zero {α : Type} (f : Nat → α) (D : List α) : overwrite 0 f D = D := by
  simp [overwrite]

theorem length_overwrite {α : Type} (n : Nat) (f : Nat → α) (D : List α) (hn : n ≤ D.length) :
    (overwrite n f D).length = D.length := by
  simp [overwrite]; omega

theorem getElem?_overwrite_lt {α : Type} {n j : Nat} (f : Nat → α) (D : List α) (hj : j < n) :
    (overwrite n f D)[j]? = some (f j) := by
  unfold overwrite
  rw [List.getElem?_append_left (by simpa using hj)]
  simp [List.getElem?_map, List.getElem?_range hj]

theorem getElem?_overwrite_ge {α : Type} {n j : Nat} (f : Nat → α) (D : List α) (hj : n ≤ j) :
    (overwrite n f D)[j]? = D[j]? := by
  unfold overwrite
  rw [List.getElem?_append_right (by simpa using hj)]
  simp only [List.length_map, List.length_range, List.getElem?_drop]
  congr 1; omega

theorem overwrite_succ {α : Type} (n : Nat) (f : Nat → α) (D : List α) (hn : n < D.length) :
    (overwrite n f D).set n (f n) = overwrite (n + 1) f D := by
  apply List.ext_getElem?
  intro j
  rw [List.getElem?_set]
  by_cases hj : n = j
  · subst hj
    simp [length_overwrite n f D (le_of_lt hn), hn, getElem?_overwrite_lt f D (Nat.lt_succ_self n)]
  · simp only [hj, if_false]
    by_cases hlt : j < n
    · rw [getElem?_overwrite_lt f D hlt, getElem?_overwrite_lt f D (by omega)]
    · rw [getElem?_overwrite_ge f D (by omega), getElem?_overwrite_ge f D (by omega)]

theorem overwrite_full {α : Type} (f : Nat → α) (D : List α) :
    overwrite D.length f D = (List.range D.length).map f := by
  simp [overwrite]

/-- A loop that writes position `i` of one buffer at iteration `i`. -/
theorem loopN_overwrite {S α : Type} (mk : List α → S) (body : Nat → S → Option S)
    (f : Nat → α) (D : List α) (N : Nat) (hN : N ≤ D.length)
    (hstep : ∀ i, i < N →
      body i (mk (overwrite i f D)) = some (mk ((overwrite i f D).set i (f i)))) :
    loopN body N (mk D) = some (mk (overwrite N f D)) := by
  induction N with
  | zero => simp [loopN, overwrite_zero]
  | succ k ih =>
    rw [loopN_succ, ih (by omega) (fun i hi => hstep i (by omega))]
    simp only [Option.some_bind]
    rw [hstep k (by omega), overwrite_succ k f D (by omega)]

theorem fitsBits_iff (w : Nat) (x : Int) : fitsBits w x = true ↔ InRange w x := by
  have hpos : 0 < 2 ^ (w - 1) := Nat.pow_pos (by decide)
  have hc : ((2 : Int) ^ (w - 1)) = ((2 ^ (w - 1) : Nat) : Int) := by push_cast; rfl
  unfold InRange fitsBits
  rw [hc]
  generalize 2 ^ (w - 1) = k at hpos
  cases x with
  | ofNat n =>
    simp only [Nat.ble_eq, Int.ofNat_eq_coe]
    constructor
    · intro h; constructor <;> omega
    · intro h; omega
  | negSucc n =>
    simp only [Nat.ble_eq, Int.negSucc_eq]
    constructor
    · intro h; constructor <;> omega
    · intro h; omega

/-- The dims `ds`: every product `ds[0] * ... * ds[j-1]` the loop of
`total_size` forms is a value of `int`. -/
theorem total_size_take (ds : List Int) (k : Nat) (hk : k ≤ ds.length)
    (hfit : ∀ j, j ≤ k → InRange 32 (ds.take j).prod) :
    loopN (fun i size => do
      let d ← ds[i]?
      if fitsBits 32 (size * d) then some (size * d) else none) k 1
      = some (ds.take k).prod := by
  induction k with
  | zero => simp [loopN]
  | succ n ih =>
    rw [loopN_succ, ih (by omega) (fun j hj => hfit j (by omega))]
    have hn : n < ds.length := by omega
    have hp : (ds.take (n + 1)).prod = (ds.take n).prod * ds[n] := by
      rw [List.take_succ, List.prod_append]
      simp [List.getElem?_eq_getElem hn]
    have hr := hfit (n + 1) le_rfl
    rw [hp] at hr
    simp only [Option.some_bind, List.getElem?_eq_getElem hn, Option.bind_eq_bind,
      (fitsBits_iff _ _).2 hr, if_true, hp]

theorem total_size_eq (ds : List Int) (ndim : Int) (hnd : ndim = ds.length)
    (hfit : ∀ j, j ≤ ds.length → InRange 32 (ds.take j).prod) :
    total_size ds ndim = some ds.prod := by
  unfold total_size forLoop
  subst hnd
  simp only [Int.toNat_ofNat]
  rw [total_size_take ds ds.length le_rfl hfit, List.take_length]

/-- Whatever `total_size` returns is the product of the dims it multiplied. -/
theorem total_size_loop (ds : List Int) (k : Nat) (v : Int)
    (ht : loopN (fun i size => do
      let d ← ds[i]?
      if fitsBits 32 (size * d) then some (size * d) else none) k 1 = some v) :
    k ≤ ds.length ∧ v = (ds.take k).prod ∧ ∀ j, j ≤ k → InRange 32 (ds.take j).prod := by
  induction k generalizing v with
  | zero =>
    simp only [loopN, Option.some.injEq] at ht
    refine ⟨Nat.zero_le _, by simp [← ht], fun j hj => ?_⟩
    have : j = 0 := by omega
    subst this
    simp [InRange]
  | succ n ih =>
    rw [loopN_succ] at ht
    simp only [Option.bind_eq_bind, Option.bind_eq_some] at ht
    obtain ⟨w, hw, d, hd, hv⟩ := ht
    obtain ⟨hle, hwv, hall⟩ := ih w hw
    have hn : n < ds.length := by
      by_contra hc
      rw [List.getElem?_eq_none (by omega)] at hd
      cases hd
    have hp : (ds.take (n + 1)).prod = (ds.take n).prod * ds[n] := by
      rw [List.take_succ, List.prod_append]
      simp [List.getElem?_eq_getElem hn]
    rw [List.getElem?_eq_getElem hn] at hd
    cases hd
    by_cases hr : fitsBits 32 (w * ds[n]) = true
    · simp only [hr, if_true, Option.some.injEq] at hv
      refine ⟨hn, by rw [hp, ← hv, hwv], fun j hj => ?_⟩
      rcases Nat.lt_or_ge j (n + 1) with h1 | h1
      · exact hall j (by omega)
      · have : j = n + 1 := by omega
        subst this
        rw [hp, ← hwv]; exact (fitsBits_iff _ _).1 hr
    · simp [hr] at hv

theorem fitsInt_iff (r c : Nat) :
    FitsInt r c ↔
      (r : Int) ≤ INT_MAX ∧ (c : Int) ≤ INT_MAX ∧ (r : Int) * (c : Int) ≤ INT_MAX :=
  Iff.rfl

theorem fitsInt_swap {r c : Nat} (hf : FitsInt r c) : FitsInt c r := by
  obtain ⟨h1, h2, h3⟩ := (fitsInt_iff r c).1 hf
  exact (fitsInt_iff c r).2 ⟨h2, h1, by rw [mul_comm]; exact h3⟩

/-- The dims `(m, n)` of a product of an `(m, l)` and an `(l, n)` matrix fit
`int` once the element count `m * n` does. -/
theorem fitsInt_prod {m l n : Nat} (ha : FitsInt m l) (hb : FitsInt l n)
    (hmn : (m : Int) * (n : Int) ≤ INT_MAX) : FitsInt m n :=
  (fitsInt_iff m n).2 ⟨((fitsInt_iff m l).1 ha).1, ((fitsInt_iff l n).1 hb).2.1, hmn⟩

/-- The dims `(n, n)` fit `int` once `n * n` does. -/
theorem fitsInt_square {n : Nat} (hnn : (n : Int) * (n : Int) ≤ INT_MAX) : FitsInt n n := by
  have h0 : (0 : Int) ≤ n := Int.ofNat_nonneg n
  have h1 : (n : Int) ≤ (n : Int) * (n : Int) := by nlinarith
  exact (fitsInt_iff n n).2 ⟨le_trans h1 hnn, le_trans h1 hnn, hnn⟩

/-- The two products the loop of `total_size` forms for the dims `(r, c)`. -/
theorem fits_pair {r c : Nat} (hf : FitsInt r c) :
    ∀ j, j ≤ ([(r : Int), (c : Int)] : List Int).length →
      InRange 32 (([(r : Int), (c : Int)] : List Int).take j).prod := by
  intro j hj
  obtain ⟨h1, _, h3⟩ :
    (r : Int) ≤ INT_MAX ∧ (c : Int) ≤ INT_MAX ∧ (r : Int) * (c : Int) ≤ INT_MAX := hf
  simp only [List.length_cons, List.length_nil] at hj
  have hr0 : (0 : Int) ≤ r := Int.ofNat_nonneg r
  have hc0 : (0 : Int) ≤ c := Int.ofNat_nonneg c
  have hrc := mul_nonneg hr0 hc0
  simp only [INT_MAX] at h1 h3
  interval_cases j
  · simp [InRange]
  · simp only [InRange, List.take_succ_cons, List.take_zero, List.prod_cons, List.prod_nil,
      mul_one]
    norm_num
    constructor <;> omega
  · simp only [InRange, List.take_succ_cons, List.take_zero, List.prod_cons, List.prod_nil,
      mul_one]
    norm_num
    constructor <;> omega

theorem copy_dims_eq (ds : List Int) (ndim : Int) (hnd : ndim = ds.length) :
    copy_dims ds ndim = some ds := by
  subst hnd
  simp [copy_dims]

theorem dimsDiffer_self_aux (ds : List Int) (k : Nat) (hk : k ≤ ds.length) :
    loopN (fun i found =>
      if found then some true
      else do
        let x ← ds[i]?
        let y ← ds[i]?
        some (x != y)) k false = some false := by
  induction k with
  | zero => simp [loopN]
  | succ n ih =>
    rw [loopN_succ, ih (by omega)]
    have hn : n < ds.length := by omega
    simp [List.getElem?_eq_getElem hn]

theorem dimsDiffer_self (ds : List Int) (ndim : Int) (hnd : ndim = ds.length) :
    dimsDiffer ds ds ndim = some false := by
  unfold dimsDiffer forLoop
  subst hnd
  simpa using dimsDiffer_self_aux ds ds.length le_rfl

end Basic

section Main

variable {F : Type} [LinearOrderedField F]

/-! ## The constructor -/

theorem tensor_ok (h : Heap F) (dt : DType) (ds : List Int) (rg : bool)
    (hne : ds ≠ []) (hsz : 0 ≤ ds.prod)
    (hfit : ∀ j, j ≤ ds.length → InRange 32 (ds.take j).prod) :
    tensor h none dt (some ds) ds.length rg
      = some (h ++ [some (fresh dt ds rg)], some h.length) := by
  have hlen : ¬ ((ds.length : Int) ≤ 0) := by
    have : 0 < ds.length := List.length_pos.mpr hne
    omega
  unfold tensor
  simp only [hlen, if_false, total_size_eq ds _ rfl hfit, copy_dims_eq ds _ rfl,
    Option.bind_eq_bind,
    Option.some_bind, not_lt.mpr hsz]
  cases dt <;> cases rg <;>
    simp [fresh, grad_mem_init, DType.isFloat, lnot, bool.toInt]

theorem getF_ofF {dt : DType} (hfl : dt.isFloat = true) (xs : List F) (i : Nat) :
    (Data.ofF dt xs).getF dt (i : Int) = xs[i]? := by
  cases dt <;> simp_all [Data.ofF, Data.getF, DType.isFloat, bufGet_nat]

theorem setF_ofF {dt : DType} (hfl : dt.isFloat = true) (xs : List F) (i : Nat) (v : F)
    (hi : i < xs.length) :
    (Data.ofF dt xs).setF dt (i : Int) v = some (Data.ofF dt (xs.set i v)) := by
  cases dt <;> simp_all [Data.ofF, Data.setF, DType.isFloat, bufSet_nat]

theorem calloc_float {dt : DType} (hfl : dt.isFloat = true) (n : Nat) :
    (Data.calloc dt n : Data F) = Data.ofF dt (List.replicate n 0) := by
  cases dt <;> simp_all [Data.ofF, Data.calloc, DType.isFloat]

theorem getElem?_getD {α : Type} (xs : List α) (i : Nat) (d : α) (hi : i < xs.length) :
    xs[i]? = some (xs.getD i d) := by
  simp [List.getD, List.getElem?_eq_getElem hi]

/-- The element loop of `add`/`mul` on two float matrices fills the fresh
result with the element-wise combination. -/
theorem binStepF_loop (f : F → F → F) (dt : DType) (h : Heap F) (p1 p2 : Nat)
    (a b t0 : Tensor F) (r c : Nat) (xs ys : List F)
    (ha : h.deref p1 = some a) (hb : h.deref p2 = some b)
    (ma : IsMat a r c xs) (mb : IsMat b r c ys) (hda : a.dtype = dt) (hdb : b.dtype = dt)
    (ht0 : t0.dims = [(r : Int), (c : Int)])
    (D : List F) (hD : D.length = r * c) :
    loopN (binStepF f dt h.length p1 p2) (r * c) (h ++ [some { t0 with data := Data.ofF dt D }])
      = some (h ++ [some { t0 with data := (Data.ofF dt
            ((List.range (r * c)).map fun i => f (xs.getD i 0) (ys.getD i 0))) }]) := by
  have hfl : dt.isFloat = true := hda ▸ ma.isFloat
  have hc : (c : Int) ≠ 0 := by have := ma.cols_pos; omega
  have key := loopN_overwrite (fun D => h ++ [some { t0 with data := Data.ofF dt D }])
    (binStepF f dt h.length p1 p2) (fun i => f (xs.getD i 0) (ys.getD i 0)) D (r * c)
    (le_of_eq hD.symm) ?_
  · rw [key, ← hD, overwrite_full]
  · intro i hi
    have hxi : i < xs.length := by rw [ma.len_eq]; exact hi
    have hyi : i < ys.length := by rw [mb.len_eq]; exact hi
    have hoi : i < (overwrite i (fun i => f (xs.getD i 0) (ys.getD i 0)) D).length := by
      rw [length_overwrite _ _ _ (by omega)]; omega
    simp only [binStepF, posOf, rdDim, rdF, wrF, deref_append_new, deref_append_left _ ha,
      deref_append_left _ hb, Option.bind_eq_bind, Option.some_bind, ht0, ma.dims_eq,
      mb.dims_eq, List.getElem?_cons_zero, List.getElem?_cons_succ, shape_index_nat i _ _ hc,
      ma.data_eq, mb.data_eq, hda, hdb, getF_ofF hfl, getElem?_getD xs i 0 hxi,
      getElem?_getD ys i 0 hyi, setF_ofF hfl _ i _ hoi, store_append_new]

theorem toNat_mul_cast (r c : Nat) : ((r : Int) * (c : Int)).toNat = r * c := by
  rw [← Nat.cast_mul, Int.toNat_ofNat]

theorem prod_pair (r c : Nat) : ([(r : Int), (c : Int)] : List Int).prod = (r : Int) * c := by
  simp

theorem tensor_mat (h : Heap F) (dt : DType) (r c : Nat) (rg : bool) (hf : FitsInt r c) :
    tensor h none dt (some [(r : Int), (c : Int)]) 2 rg
      = some (h ++ [some (fresh dt [(r : Int), (c : Int)] rg)], some h.length) := by
  have := tensor_ok h dt [(r : Int), (c : Int)] rg (by simp)
    (by rw [prod_pair]; positivity) (fits_pair hf)
  simpa using this

/-- `mul` on two float matrices of one type and shape. -/
theorem mul_float (h : Heap F) (p1 p2 : Nat) (a b : Tensor F) (r c : Nat) (xs ys : List F)
    (ha : h.deref p1 = some a) (hb : h.deref p2 = some b)
    (ma : IsMat a r c xs) (mb : IsMat b r c ys) (hdt : a.dtype = b.dtype) :
    mul h (some p1) (some p2)
      = some (h ++ [some (binResult .MUL a b p1 p2
            ((List.range (r * c)).map fun i => xs.getD i 0 * ys.getD i 0))], some h.length) := by
  have hfl := ma.isFloat
  have hloop := fun (dt : DType) (hda : a.dtype = dt) t0 ht0 =>
    binStepF_loop (· * ·) dt h p1 p2 a b t0 r c xs ys ha hb ma mb hda (hdt ▸ hda) ht0
      (List.replicate (r * c) 0) (by simp)
  unfold mul
  simp only [ha, hb, Option.bind_eq_bind, Option.some_bind, ma.ndim_eq, mb.ndim_eq, hdt,
    ne_eq, not_true_eq_false, or_self, if_false, ma.dims_eq, mb.dims_eq,
    dimsDiffer_self [(r : Int), (c : Int)] 2 (by simp), Bool.false_eq_true, tensor_mat _ _ _ _ _ ma.fits,
    forLoop, ma.size_eq, toNat_mul_cast]
  cases hd : b.dtype with
  | FLOAT32 =>
    have := hloop .FLOAT32 (hdt.trans hd) (fresh .FLOAT32 [(r : Int), (c : Int)]
      (condBool (lnot a.requires_grad || lnot b.requires_grad))) rfl
    simp only [fresh, prod_pair, toNat_mul_cast, Data.calloc, Data.ofF] at this ⊢
    rw [this]
    simp [link2, deref_append_new, store_append_new, binResult, fresh, hdt, hd,
      ma.dims_eq, Data.ofF, MAX_PREVS, toNat_mul_cast]
  | FLOAT64 =>
    have := hloop .FLOAT64 (hdt.trans hd) (fresh .FLOAT64 [(r : Int), (c : Int)]
      (condBool (lnot a.requires_grad || lnot b.requires_grad))) rfl
    simp only [fresh, prod_pair, toNat_mul_cast, Data.calloc, Data.ofF] at this ⊢
    rw [this]
    simp [link2, deref_append_new, store_append_new, binResult, fresh, hdt, hd,
      ma.dims_eq, Data.ofF, MAX_PREVS, toNat_mul_cast]
  | INT32 => simp [hdt, hd, DType.isFloat] at hfl
  | INT64 => simp [hdt, hd, DType.isFloat] at hfl

/-! ## Frame facts for gradient writes -/

theorem deref_store {h : Heap F} {p : Nat} (t : Tensor F) (q : Nat) (hp : p < h.length) :
    (h.store p t).deref q = if q = p then some t else h.deref q := by
  by_cases hq : q = p
  · subst hq; simp [deref_store_self t hp]
  · simp [hq, deref_store_ne t hq]

theorem store_self_eq {h : Heap F} {p : Nat} {t : Tensor F} (hp : h.deref p = some t) :
    h.store p t = h := by
  have hlt := deref_eq_some_lt hp
  rw [deref_eq_some_iff] at hp
  apply List.ext_getElem?
  intro j
  unfold Heap.store
  rw [List.getElem?_set]
  by_cases hj : p = j
  · subst hj; simp [hlt, hp]
  · simp [hj]

theorem rdDim_sg {h : Heap F} {p : Nat} {tp : Tensor F} (hp : h.deref p = some tp)
    (G : Option (List F)) (q k : Nat) :
    rdDim (h.store p { tp with grad := G }) q k = rdDim h q k := by
  unfold rdDim
  rw [deref_store _ _ (deref_eq_some_lt hp)]
  by_cases hq : q = p
  · subst hq; simp [hp]
  · simp [hq]

theorem rdPrev_sg {h : Heap F} {p : Nat} {tp : Tensor F} (hp : h.deref p = some tp)
    (G : Option (List F)) (q k : Nat) :
    rdPrev (h.store p { tp with grad := G }) q k = rdPrev h q k := by
  unfold rdPrev
  rw [deref_store _ _ (deref_eq_some_lt hp)]
  by_cases hq : q = p
  · subst hq; simp [hp]
  · simp [hq]

theorem rdF_sg {h : Heap F} {p : Nat} {tp : Tensor F} (hp : h.deref p = some tp)
    (G : Option (List F)) (q : Nat) (dt : DType) (i : Int) :
    rdF (h.store p { tp with grad := G }) q dt i = rdF h q dt i := by
  unfold rdF
  rw [deref_store _ _ (deref_eq_some_lt hp)]
  by_cases hq : q = p
  · subst hq; simp [hp]
  · simp [hq]

theorem rdG_sg_ne {h : Heap F} {p q : Nat} (t : Tensor F) (hq : q ≠ p) (dt : DType) (i : Int) :
    rdG (h.store p t) q dt i = rdG h q dt i := by
  unfold rdG
  rw [deref_store_ne t hq]

theorem rdG_sg_self {h : Heap F} {p : Nat} {tp : Tensor F} (hp : h.deref p = some tp)
    (G : List F) (dt : DType) (hdt : tp.dtype = dt) (hfl : dt.isFloat = true) (i : Nat) :
    rdG (h.store p { tp with grad := some G }) p dt (i : Int) = G[i]? := by
  unfold rdG
  rw [deref_store_self _ (deref_eq_some_lt hp)]
  simp [hdt, hfl, bufGet_nat]

theorem wrG_sg_self {h : Heap F} {p : Nat} {tp : Tensor F} (hp : h.deref p = some tp)
    (G : List F) (dt : DType) (hdt : tp.dtype = dt) (hfl : dt.isFloat = true) (i : Nat) (v : F)
    (hi : i < G.length) :
    wrG (h.store p { tp with grad := some G }) p dt (i : Int) v
      = some (h.store p { tp with grad := some (G.set i v) }) := by
  unfold wrG
  rw [deref_store_self _ (deref_eq_some_lt hp)]
  simp [hdt, hfl, bufSet_nat _ _ _ hi, store_store]

theorem rdG_of {h : Heap F} {p : Nat} {t : Tensor F} (hp : h.deref p = some t) {g : List F}
    (hg : t.grad = some g) (dt : DType) (hdt : t.dtype = dt) (hfl : dt.isFloat = true) (i : Nat) :
    rdG h p dt (i : Int) = g[i]? := by
  unfold rdG
  simp [hp, hdt, hfl, hg, bufGet_nat]

theorem accGrad_eq {h : Heap F} {p : Nat} {t : Tensor F} (hp : h.deref p = some t) {g : List F}
    (hg : t.grad = some g) (v : Nat → F) :
    accGrad h p v = h.store p { t with grad := some (addv g v) } := by
  simp [accGrad, hp, hg]

/-- A loop whose iteration `i` performs `p->grad[i] += v i`. -/
theorem loopN_accGrad (h : Heap F) (p : Nat) (tp : Tensor F) (g : List F)
    (body : Nat → Heap F → Option (Heap F)) (v : Nat → F)
    (hp : h.deref p = some tp) (hg : tp.grad = some g)
    (hstep : ∀ i, i < g.length → ∀ G : List F, G.length = g.length → G[i]? = g[i]? →
      body i (h.store p { tp with grad := some G })
        = some (h.store p { tp with grad := some (G.set i (g.getD i 0 + v i)) })) :
    loopN body g.length h = some (accGrad h p v) := by
  have key := loopN_overwrite (fun G => h.store p { tp with grad := some G }) body
    (fun i => g.getD i 0 + v i) g g.length le_rfl ?_
  · have h0 : h.store p { tp with grad := some g } = h := by
      have : ({ tp with grad := some g } : Tensor F) = tp := by rw [← hg]
      rw [this, store_self_eq hp]
    beta_reduce at key
    rw [h0] at key
    rw [key, overwrite_full, accGrad_eq hp hg]
    rfl
  · intro i hi
    exact hstep i hi _ (length_overwrite _ _ _ (le_of_lt hi)) (getElem?_overwrite_ge _ _ le_rfl)

/-- One guarded block of `add_backward` / `sub_backward` on an operand `pk`. -/
theorem addBwd_block (coef : F) (h : Heap F) (o pk : Nat) (tout tk : Tensor F) (dt : DType)
    (r c : Nat) (og g : List F)
    (ho : h.deref o = some tout) (hk : h.deref pk = some tk) (hne : o ≠ pk)
    (hdo : tout.dims = [(r : Int), (c : Int)]) (hdk : tk.dims = [(r : Int), (c : Int)])
    (hc : 0 < c) (hfl : dt.isFloat = true) (hto : tout.dtype = dt) (htk : tk.dtype = dt)
    (hog : tout.grad = some og) (hogl : og.length = r * c)
    (hg : tk.grad = some g) (hgl : g.length = r * c) :
    loopN (addBwdStep coef dt o pk) (r * c) h
      = some (accGrad h pk (fun i => coef * og.getD i 0)) := by
  have hc' : (c : Int) ≠ 0 := by omega
  rw [← hgl]
  apply loopN_accGrad h pk tk g _ _ hk hg
  intro i hi G hG hGi
  have hio : i < og.length := by omega
  have hrd0 : rdDim h pk 0 = some (r : Int) := by simp [rdDim, hk, hdk]
  have hrd1 : rdDim h pk 1 = some (c : Int) := by simp [rdDim, hk, hdk]
  have hro0 : rdDim h o 0 = some (r : Int) := by simp [rdDim, ho, hdo]
  have hro1 : rdDim h o 1 = some (c : Int) := by simp [rdDim, ho, hdo]
  simp only [addBwdStep, posOf, rdDim_sg hk, hrd0, hrd1, hro0, hro1, Option.bind_eq_bind,
    Option.some_bind, shape_index_nat i _ _ hc', rdG_sg_self hk G dt htk hfl, hGi,
    getElem?_getD g i 0 hi, rdG_sg_ne _ hne, rdG_of ho hog dt hto hfl,
    getElem?_getD og i 0 hio, wrG_sg_self hk G dt htk hfl i _ (by omega)]

theorem rdF_of {h : Heap F} {p : Nat} {t : Tensor F} (hp : h.deref p = some t) (dt : DType)
    {xs : List F} (hd : t.data = Data.ofF dt xs) (hfl : dt.isFloat = true) (i : Nat) :
    rdF h p dt (i : Int) = xs[i]? := by
  unfold rdF
  simp [hp, hd, getF_ofF hfl]

theorem bwdSwitch_float {dt : DType} (hfl : dt.isFloat = true) (n : Int) (o : Nat)
    (step : DType → Nat → Heap F → Option (Heap F)) (h : Heap F) :
    bwdSwitch dt n o step h = (forLoop n (step dt) h).map (fun h1 => (h1, false)) := by
  cases dt <;> simp_all [bwdSwitch, DType.isFloat]

theorem eqTrue_iff (b : bool) : eqTrue b = true ↔ b = bool.true := by
  cases b <;> simp [eqTrue, bool.toInt]

theorem lnot_iff (b : bool) : lnot b = true ↔ b = bool.true := by
  cases b <;> simp [lnot, bool.toInt]

theorem deref_accGrad_ne (h : Heap F) {p q : Nat} (v : Nat → F) (hq : q ≠ p) :
    (accGrad h p v).deref q = h.deref q := by
  unfold accGrad
  cases hp : h.deref p with
  | none => rfl
  | some t => simp [deref_store_ne _ hq]

theorem deref_accGrad_self {h : Heap F} {p : Nat} {t : Tensor F} (hp : h.deref p = some t)
    (v : Nat → F) :
    (accGrad h p v).deref p = some { t with grad := t.grad.map (fun g => addv g v) } := by
  unfold accGrad
  simp [hp, deref_store_self _ (deref_eq_some_lt hp)]

theorem length_addv (g : List F) (v : Nat → F) : (addv g v).length = g.length := by
  simp [addv]

theorem getElem?_addv (g : List F) (v : Nat → F) (i : Nat) :
    (addv g v)[i]? = (g[i]?).map (fun x => x + v i) := by
  unfold addv
  by_cases hi : i < g.length
  · simp [List.getElem?_map, List.getElem?_range hi, List.getElem?_eq_getElem hi, List.getD]
  · rw [List.getElem?_eq_none (by simpa using hi), List.getElem?_eq_none (by simpa using hi)]
    rfl

theorem gradAt_accGrad_ne (h : Heap F) {p q : Nat} (v : Nat → F) (hq : q ≠ p) (i : Nat) :
    gradAt (accGrad h p v) q i = gradAt h q i := by
  unfold gradAt
  rw [deref_accGrad_ne h v hq]

theorem gradAt_accGrad_self (h : Heap F) (p : Nat) (v : Nat → F) (i : Nat) :
    gradAt (accGrad h p v) p i = (gradAt h p i).map (fun x => x + v i) := by
  unfold gradAt
  cases hp : h.deref p with
  | none => simp [accGrad, hp]
  | some t =>
    rw [deref_accGrad_self hp]
    cases hg : t.grad with
    | none => simp [hg]
    | some g => simp [hg, getElem?_addv]

/-- Any tensor of the heap after `accGrad` is the tensor before it, up to its
gradient buffer, which keeps its presence and its length. -/
theorem deref_accGrad_shape (h : Heap F) (p q : Nat) (v : Nat → F) {t : Tensor F}
    (hq : h.deref q = some t) :
    ∃ G, (accGrad h p v).deref q = some { t with grad := G } ∧
      (∀ n, (∃ g, t.grad = some g ∧ g.length = n) → ∃ g, G = some g ∧ g.length = n) ∧
      (t.grad = none → G = none) := by
  by_cases hqp : q = p
  · subst hqp
    refine ⟨t.grad.map (fun g => addv g v), deref_accGrad_self hq v, ?_, ?_⟩
    · rintro n ⟨g, hg, hl⟩
      exact ⟨addv g v, by simp [hg], by simp [length_addv, hl]⟩
    · intro hn; simp [hn]
  · refine ⟨t.grad, ?_, fun n hn => hn, fun hn => hn⟩
    rw [deref_accGrad_ne h v hqp, hq]

/-- First block of `mul_backward`: `prevs[0]->grad[i] += prevs[1]->data[i] * out->grad[i]`. -/
theorem mulBwd_first (h : Heap F) (o p0 p1 : Nat) (tout t0 t1 : Tensor F) (dt : DType)
    (r c : Nat) (og g ys : List F)
    (ho : h.deref o = some tout) (h0 : h.deref p0 = some t0) (h1 : h.deref p1 = some t1)
    (hne : o ≠ p0)
    (hdo : tout.dims = [(r : Int), (c : Int)]) (hd0 : t0.dims = [(r : Int), (c : Int)])
    (hd1 : t1.dims = [(r : Int), (c : Int)])
    (hc : 0 < c) (hfl : dt.isFloat = true) (hto : tout.dtype = dt) (ht0 : t0.dtype = dt)
    (hog : tout.grad = some og) (hogl : og.length = r * c)
    (hg : t0.grad = some g) (hgl : g.length = r * c)
    (hys : t1.data = Data.ofF dt ys) (hysl : ys.length = r * c) :
    loopN (mulBwdStepA dt o p0 p1) (r * c) h
      = some (accGrad h p0 (fun i => ys.getD i 0 * og.getD i 0)) := by
  have hc' : (c : Int) ≠ 0 := by omega
  rw [← hgl]
  apply loopN_accGrad h p0 t0 g _ _ h0 hg
  intro i hi G hG hGi
  have hio : i < og.length := by omega
  have hiy : i < ys.length := by omega
  have e1 : rdDim h p0 0 = some (r : Int) := by simp [rdDim, h0, hd0]
  have e2 : rdDim h p0 1 = some (c : Int) := by simp [rdDim, h0, hd0]
  have e3 : rdDim h p1 0 = some (r : Int) := by simp [rdDim, h1, hd1]
  have e4 : rdDim h p1 1 = some (c : Int) := by simp [rdDim, h1, hd1]
  have e5 : rdDim h o 0 = some (r : Int) := by simp [rdDim, ho, hdo]
  have e6 : rdDim h o 1 = some (c : Int) := by simp [rdDim, ho, hdo]
  simp only [mulBwdStepA, posOf, rdDim_sg h0, e1, e2, e3, e4, e5, e6, Option.bind_eq_bind,
    Option.some_bind, shape_index_nat i _ _ hc', rdG_sg_self h0 G dt ht0 hfl, hGi,
    getElem?_getD g i 0 hi, rdG_sg_ne _ hne, rdG_of ho hog dt hto hfl,
    getElem?_getD og i 0 hio, rdF_sg h0, rdF_of h1 dt hys hfl, getElem?_getD ys i 0 hiy,
    wrG_sg_self h0 G dt ht0 hfl i _ (by omega)]

/-- Second block of `mul_backward`: `prevs[1]->grad[i] += prevs[0]->data[i] * out->grad[i]`. -/
theorem mulBwd_second (h : Heap F) (o p0 p1 : Nat) (tout t0 t1 : Tensor F) (dt : DType)
    (r c : Nat) (og g xs : List F)
    (ho : h.deref o = some tout) (h0 : h.deref p0 = some t0) (h1 : h.deref p1 = some t1)
    (hne : o ≠ p1)
    (hdo : tout.dims = [(r : Int), (c : Int)]) (hd0 : t0.dims = [(r : Int), (c : Int)])
    (hd1 : t1.dims = [(r : Int), (c : Int)])
    (hc : 0 < c) (hfl : dt.isFloat = true) (hto : tout.dtype = dt) (ht1 : t1.dtype = dt)
    (hog : tout.grad = some og) (hogl : og.length = r * c)
    (hg : t1.grad = some g) (hgl : g.length = r * c)
    (hxs : t0.data = Data.ofF dt xs) (hxsl : xs.length = r * c) :
    loopN (mulBwdStepB dt o p0 p1) (r * c) h
      = some (accGrad h p1 (fun i => xs.getD i 0 * og.getD i 0)) := by
  have hc' : (c : Int) ≠ 0 := by omega
  rw [← hgl]
  apply loopN_accGrad h p1 t1 g _ _ h1 hg
  intro i hi G hG hGi
  have hio : i < og.length := by omega
  have hix : i < xs.length := by omega
  have e1 : rdDim h p0 0 = some (r : Int) := by simp [rdDim, h0, hd0]
  have e2 : rdDim h p0 1 = some (c : Int) := by simp [rdDim, h0, hd0]
  have e3 : rdDim h p1 0 = some (r : Int) := by simp [rdDim, h1, hd1]
  have e4 : rdDim h p1 1 = some (c : Int) := by simp [rdDim, h1, hd1]
  have e5 : rdDim h o 0 = some (r : Int) := by simp [rdDim, ho, hdo]
  have e6 : rdDim h o 1 = some (c : Int) := by simp [rdDim, ho, hdo]
  simp only [mulBwdStepB, posOf, rdDim_sg h1, e1, e2, e3, e4, e5, e6, Option.bind_eq_bind,
    Option.some_bind, shape_index_nat i _ _ hc',
    rdG_sg_self h1 G dt ht1 hfl, hGi,
    getElem?_getD g i 0 hi, rdG_sg_ne _ hne, rdG_of ho hog dt hto hfl,
    getElem?_getD og i 0 hio, rdF_sg h1, rdF_of h0 dt hxs hfl, getElem?_getD xs i 0 hix,
    wrG_sg_self h1 G dt ht1 hfl i _ (by omega)]

theorem rdPrev_of {h : Heap F} {o : Nat} {tout : Tensor F} (ho : h.deref o = some tout)
    {k p : Nat} (hk : tout.prevs[k]? = some (some p)) : rdPrev h o k = some p := by
  simp [rdPrev, ho, hk]

theorem accIf_true {t : Tensor F} (ht : t.requires_grad = bool.true) (h : Heap F) (p : Nat)
    (v : Nat → F) : accIf t h p v = accGrad h p v := by
  simp [accIf, ht]

theorem accIf_false {t : Tensor F} (ht : t.requires_grad = bool.false) (h : Heap F) (p : Nat)
    (v : Nat → F) : accIf t h p v = h := by
  simp [accIf, ht]

theorem deref_accIf_ne (t : Tensor F) (h : Heap F) {p q : Nat} (v : Nat → F) (hq : q ≠ p) :
    (accIf t h p v).deref q = h.deref q := by
  unfold accIf
  split
  · exact deref_accGrad_ne h v hq
  · rfl

/-- The rule `mul_backward` on a result of two distinct float matrices. -/
theorem mul_backward_spec (h : Heap F) (o p0 p1 : Nat) (tout t0 t1 : Tensor F) (dt : DType)
    (r c : Nat) (og xs ys : List F)
    (ho : h.deref o = some tout)
    (hp0 : tout.prevs[0]? = some (some p0)) (hp1 : tout.prevs[1]? = some (some p1))
    (hdo : tout.dims = [(r : Int), (c : Int)]) (hto : tout.dtype = dt)
    (hsz : tout.size = (r : Int) * (c : Int))
    (hog : tout.grad = some og) (hogl : og.length = r * c)
    (h0 : h.deref p0 = some t0) (m0 : IsMat t0 r c xs) (hd0 : t0.dtype = dt)
    (g0 : GradOK t0 (r * c))
    (h1 : h.deref p1 = some t1) (m1 : IsMat t1 r c ys) (hd1 : t1.dtype = dt)
    (g1 : GradOK t1 (r * c))
    (hne0 : o ≠ p0) (hne1 : o ≠ p1) (hne : p0 ≠ p1) :
    mul_backward h (some o)
      = some (accIf t1 (accIf t0 h p0 (fun i => ys.getD i 0 * og.getD i 0)) p1
          (fun i => xs.getD i 0 * og.getD i 0)) := by
  have hfl : dt.isFloat = true := hd0 ▸ m0.isFloat
  have hc := m0.cols_pos
  -- the second block, on any heap that agrees with `h` at `o`, `p0`, `p1`
  have second : ∀ (h' : Heap F) (t0' : Tensor F), h'.deref o = some tout →
      h'.deref p0 = some t0' → t0'.dims = [(r : Int), (c : Int)] →
      t0'.data = Data.ofF dt xs → h'.deref p1 = some t1 →
      bwdSecond o (fun p1 dt => mulBwdStepB dt o p0 p1) h'
        = some (accIf t1 h' p1 (fun i => xs.getD i 0 * og.getD i 0)) := by
    intro h' t0' ho' h0' hd0' hx0' h1'
    unfold bwdSecond
    simp only [ho', rdPrev_of ho' hp1, h1', Option.bind_eq_bind, Option.some_bind]
    cases hrg : t1.requires_grad with
    | true =>
      obtain ⟨g, hg, hgl⟩ := g1 hrg
      have hb := mulBwd_second h' o p0 p1 tout t0' t1 dt r c og g xs ho' h0' h1' hne1 hdo
        hd0' m1.dims_eq hc hfl hto hd1 hog hogl hg hgl hx0' m0.len_eq
      simp [eqTrue, bool.toInt, bwdSwitch_float hfl, hto, forLoop, hsz, toNat_mul_cast, hb,
        accIf_true hrg]
    | false => simp [eqTrue, bool.toInt, accIf_false hrg]
  unfold mul_backward
  simp only [ho, rdPrev_of ho hp0, rdPrev_of ho hp1, h0, Option.bind_eq_bind, Option.some_bind]
  cases hrg : t0.requires_grad with
  | true =>
    obtain ⟨g, hg, hgl⟩ := g0 hrg
    have hb := mulBwd_first h o p0 p1 tout t0 t1 dt r c og g ys ho h0 h1 hne0 hdo
      m0.dims_eq m1.dims_eq hc hfl hto hd0 hog hogl hg hgl (hd1 ▸ m1.data_eq) m1.len_eq
    have ho' : (accGrad h p0 (fun i => ys.getD i 0 * og.getD i 0)).deref o = some tout := by
      rw [deref_accGrad_ne h _ hne0, ho]
    have h1' : (accGrad h p0 (fun i => ys.getD i 0 * og.getD i 0)).deref p1 = some t1 := by
      rw [deref_accGrad_ne h _ (Ne.symm hne), h1]
    simp only [eqTrue, bool.toInt, beq_self_eq_true, if_true, bwdSwitch_float hfl, hto, forLoop,
      hsz, toNat_mul_cast, hb, Option.map_some', Option.some_bind, Bool.false_eq_true, if_false,
      accIf_true hrg]
    exact second _ _ ho' (deref_accGrad_self h0 _) m0.dims_eq (hd0 ▸ m0.data_eq) h1'
  | false =>
    simp only [eqTrue, bool.toInt, accIf_false hrg]
    simpa using second h t0 ho h0 m0.dims_eq (hd0 ▸ m0.data_eq) h1

theorem tensor_one (h : Heap F) (dt : DType) (rg : bool) :
    tensor h none dt (some [1]) 1 rg = some (h ++ [some (fresh dt [1] rg)], some h.length) := by
  have := tensor_ok h dt [1] rg (by simp) (by simp) (by
    intro j hj
    simp only [List.length_cons, List.length_nil] at hj
    interval_cases j <;> simp [InRange])
  simpa using this

/-- The summing loop of `sum` and `mean` into the single cell of the fresh
result. -/
theorem sumStepF_loop (dt : DType) (h : Heap F) (p1 : Nat) (a t0 : Tensor F) (r c : Nat)
    (xs : List F) (ha : h.deref p1 = some a) (ma : IsMat a r c xs) (hda : a.dtype = dt)
    (k : Nat) (hk : k ≤ r * c) (acc : F) :
    loopN (sumStepF dt h.length p1) k (h ++ [some { t0 with data := Data.ofF dt [acc] }])
      = some (h ++ [some { t0 with data := Data.ofF dt [acc + (xs.take k).sum] }]) := by
  have hfl : dt.isFloat = true := hda ▸ ma.isFloat
  have hc : (c : Int) ≠ 0 := by have := ma.cols_pos; omega
  induction k with
  | zero => simp [loopN]
  | succ n ih =>
    have hn : n < xs.length := by rw [ma.len_eq]; omega
    rw [loopN_succ, ih (by omega)]
    have e0 : ((0 : Nat) : Int) = 0 := rfl
    simp only [Option.some_bind, sumStepF, posOf, rdDim, rdF, wrF, deref_append_new,
      deref_append_left _ ha, Option.bind_eq_bind, ma.dims_eq, List.getElem?_cons_zero,
      List.getElem?_cons_succ, shape_index_nat n _ _ hc, ma.data_eq, hda]
    rw [← e0, getF_ofF hfl, getF_ofF hfl, List.getElem?_eq_getElem hn]
    simp only [List.getElem?_cons_zero, Option.some_bind]
    rw [setF_ofF hfl _ 0 _ (by simp)]
    simp only [Option.some_bind, store_append_new, List.set_cons_zero]
    rw [List.sum_take_succ xs n hn, add_assoc]

theorem fresh_float_eq {dt : DType} (hfl : dt.isFloat = true) (ds : List Int) (rg : bool) :
    (fresh dt ds rg : Tensor F)
      = { (fresh dt ds rg : Tensor F) with
          data := Data.ofF dt (List.replicate ds.prod.toNat 0) } := by
  cases dt <;> simp_all [fresh, Data.calloc, Data.ofF, DType.isFloat]

/-- The float branch of `mean` on the fresh single-cell result. -/
theorem meanF_spec (dt : DType) (h : Heap F) (p1 : Nat) (a t0 : Tensor F) (r c : Nat)
    (xs : List F) (ha : h.deref p1 = some a) (ma : IsMat a r c xs) (hda : a.dtype = dt) :
    meanF dt h.length p1 ((r : Int) * (c : Int))
        (h ++ [some { t0 with data := Data.ofF dt [0] }])
      = some (h ++ [some { t0 with data := Data.ofF dt [xs.sum / ((r * c : Nat) : F)] }]) := by
  have hfl : dt.isFloat = true := hda ▸ ma.isFloat
  have htake : xs.take (r * c) = xs := by rw [← ma.len_eq, List.take_length]
  have e0 : ((0 : Nat) : Int) = 0 := rfl
  unfold meanF forLoop
  rw [toNat_mul_cast, sumStepF_loop dt h p1 a t0 r c xs ha ma hda (r * c) le_rfl 0, htake]
  simp only [Option.bind_eq_bind, Option.some_bind, rdF, wrF, deref_append_new, zero_add]
  rw [← e0, getF_ofF hfl]
  simp only [List.getElem?_cons_zero, Option.some_bind]
  rw [setF_ofF hfl _ 0 _ (by simp)]
  simp [store_append_new]

/-- `mean` on a float matrix. -/
theorem mean_float (h : Heap F) (p1 : Nat) (a : Tensor F) (r c : Nat) (xs : List F)
    (ha : h.deref p1 = some a) (ma : IsMat a r c xs) :
    mean h (some p1)
      = some (h ++ [some (redResult .MEAN a p1 (xs.sum / ((r * c : Nat) : F)) 1)],
          some h.length) := by
  have hfl := ma.isFloat
  have hspec := fun (dt : DType) (hda : a.dtype = dt) =>
    meanF_spec dt h p1 a (fresh dt [1] (condBool (lnot a.requires_grad))) r c xs ha ma hda
  have hfr := fun (dt : DType) (hda : a.dtype = dt) =>
    fresh_float_eq (F := F) (hda ▸ hfl) [1] (condBool (lnot a.requires_grad))
  unfold mean
  simp only [ha, Option.bind_eq_bind, Option.some_bind, tensor_one, ma.size_eq]
  cases hd : a.dtype with
  | FLOAT32 =>
    have h1 := hfr .FLOAT32 hd
    simp only [List.prod_cons, List.prod_nil, mul_one, Int.toNat_one, List.replicate_one] at h1
    rw [h1]
    simp only [hspec .FLOAT32 hd, Option.some_bind, link1, deref_append_new, store_append_new,
      Option.bind_eq_bind]
    simp [redResult, fresh, hd, MAX_PREVS]
  | FLOAT64 =>
    have h1 := hfr .FLOAT64 hd
    simp only [List.prod_cons, List.prod_nil, mul_one, Int.toNat_one, List.replicate_one] at h1
    rw [h1]
    simp only [hspec .FLOAT64 hd, Option.some_bind, link1, deref_append_new, store_append_new,
      Option.bind_eq_bind]
    simp [redResult, fresh, hd, MAX_PREVS]
  | INT32 => simp [hd, DType.isFloat] at hfl
  | INT64 => simp [hd, DType.isFloat] at hfl

theorem rdG_zero {h : Heap F} {p : Nat} {t : Tensor F} (hp : h.deref p = some t) {g : List F}
    (hg : t.grad = some g) (dt : DType) (hdt : t.dtype = dt) (hfl : dt.isFloat = true) :
    rdG h p dt 0 = g[0]? := by
  have := rdG_of hp hg dt hdt hfl 0
  simpa using this

/-- The loop of `mean_backward`: `prevs[0]->grad[i] += out->grad[0] / prevs[0]->size`. -/
theorem meanBwd_loop (h : Heap F) (o p0 : Nat) (tout t0 : Tensor F) (dt : DType)
    (r c : Nat) (og g : List F) (u : F)
    (ho : h.deref o = some tout) (h0 : h.deref p0 = some t0) (hne : o ≠ p0)
    (hd0 : t0.dims = [(r : Int), (c : Int)]) (hs0 : t0.size = (r : Int) * (c : Int))
    (hc : 0 < c) (hfl : dt.isFloat = true) (hto : tout.dtype = dt) (ht0 : t0.dtype = dt)
    (hog : tout.grad = some og) (hu : og[0]? = some u)
    (hg : t0.grad = some g) (hgl : g.length = r * c) :
    loopN (meanBwdStep o dt p0) (r * c) h
      = some (accGrad h p0 (fun _ => u / ((r * c : Nat) : F))) := by
  have hc' : (c : Int) ≠ 0 := by omega
  have hsz : ((r * c : Nat) : F) = ((t0.size : Int) : F) := by rw [hs0]; push_cast; rfl
  rw [hsz]
  have key := loopN_accGrad h p0 t0 g (meanBwdStep o dt p0) (fun _ => u / ((t0.size : Int) : F))
    h0 hg ?_
  · rw [hgl] at key; exact key
  intro i hi G hG hGi
  have e1 : rdDim h p0 0 = some (r : Int) := by simp [rdDim, h0, hd0]
  have e2 : rdDim h p0 1 = some (c : Int) := by simp [rdDim, h0, hd0]
  simp only [meanBwdStep, posOf, rdDim_sg h0, e1, e2, Option.bind_eq_bind,
    Option.some_bind, shape_index_nat i _ _ hc', deref_store_self _ (deref_eq_some_lt h0),
    rdG_sg_self h0 G dt ht0 hfl, hGi, getElem?_getD g i 0 hi, rdG_sg_ne _ hne,
    rdG_zero ho hog dt hto hfl, hu, wrG_sg_self h0 G dt ht0 hfl i _ (by omega)]

/-- The rule `mean_backward` on a tracking result whose operand is a float
matrix owning a gradient buffer. -/
theorem mean_backward_spec (h : Heap F) (o p0 : Nat) (tout t0 : Tensor F) (dt : DType)
    (r c : Nat) (og g : List F) (u : F)
    (ho : h.deref o = some tout) (hrg : tout.requires_grad = bool.true)
    (hp0 : tout.prevs[0]? = some (some p0))
    (h0 : h.deref p0 = some t0) (hne : o ≠ p0)
    (hd0 : t0.dims = [(r : Int), (c : Int)]) (hs0 : t0.size = (r : Int) * (c : Int))
    (hc : 0 < c) (hfl : dt.isFloat = true) (hto : tout.dtype = dt) (ht0 : t0.dtype = dt)
    (hog : tout.grad = some og) (hu : og[0]? = some u)
    (hg : t0.grad = some g) (hgl : g.length = r * c) :
    mean_backward h (some o) = some (accGrad h p0 (fun _ => u / ((r * c : Nat) : F))) := by
  have hl := meanBwd_loop h o p0 tout t0 dt r c og g u ho h0 hne hd0 hs0 hc hfl hto ht0 hog hu
    hg hgl
  unfold mean_backward unaryBwdGateOut
  simp only [ho, hrg, Option.bind_eq_bind, Option.some_bind, eqTrue, bool.toInt,
    beq_self_eq_true, if_true, Bool.false_eq_true, if_false, hto]
  cases dt with
  | FLOAT32 =>
    simp [rdPrev_of ho hp0, meanBwdLoop, ho, h0, hog, hg, forLoop, hs0, toNat_mul_cast, hl]
  | FLOAT64 =>
    simp [rdPrev_of ho hp0, meanBwdLoop, ho, h0, hog, hg, forLoop, hs0, toNat_mul_cast, hl]
  | INT32 => simp [DType.isFloat] at hfl
  | INT64 => simp [DType.isFloat] at hfl

/-! ## The driver on small graphs -/

theorem dispatch_op {L : Libm F} {h : Heap F} {p : Nat} {t : Tensor F} (hp : h.deref p = some t) :
    dispatch L h p =
      (if t.op = some .MUL then mul_backward h (some p)
      else if t.op = some .ADD then add_backward h (some p)
      else if t.op = some .SUB then sub_backward h (some p)
      else if t.op = some .MATMUL then matmul_backward h (some p)
      else if t.op = some .MEAN then mean_backward h (some p)
      else if t.op = some .RELU then relu_backward h (some p)
      else if t.op = some .LEAKY_RELU then leaky_relu_backward h (some p)
      else if t.op = some .TANH then Tanh_backward L h (some p)
      else if t.op = some .SIGMOID then Sigmoid_backward h (some p)
      else if t.op = some .SOFTMAX then softmax_backward h (some p)
      else if t.op = some .POW then Pow_backward L h (some p)
      else if t.op = some .EXP then Exp_backward L h (some p)
      else if t.op = some .DIV then Div_backward L h (some p)
      else if t.op = some .SUM then sum_backward h (some p)
      else some h) := by
  simp [dispatch, hp]

/-- `backward` on a node that records no operand. -/
theorem backward_node0 (L : Libm F) (fuel : Nat) {h h1 : Heap F} {p : Nat} {t : Tensor F}
    (hdisp : dispatch L h p = some h1) (hd : h1.deref p = some t) (hn : t.num_prevs = 0) :
    backward L (fuel + 1) h (some p) = .ok h1 := by
  simp [backward, hdisp, Res.ofOption, Res.bind, hd, hn]

/-- `backward` on a leaf: no rule matches, nothing is visited. -/
theorem backward_leaf (L : Libm F) (fuel : Nat) {h : Heap F} {p : Nat} {t : Tensor F}
    (hd : h.deref p = some t) (hop : t.op = none) (hn : t.num_prevs = 0) :
    backward L (fuel + 1) h (some p) = .ok h := by
  apply backward_node0 L fuel _ hd hn
  rw [dispatch_op hd]
  simp [hop]

/-- `backward` on a node that records one operand. -/
theorem backward_node1 (L : Libm F) (fuel : Nat) {h h1 h2 : Heap F} {p q : Nat}
    {t t2 : Tensor F}
    (hdisp : dispatch L h p = some h1) (hd : h1.deref p = some t) (hn : t.num_prevs = 1)
    (hq : rdPrev h1 p 0 = some q) (hrec : backward L fuel h1 (some q) = .ok h2)
    (hd2 : h2.deref p = some t2) :
    backward L (fuel + 1) h (some p) = .ok h2 := by
  have r1 : List.range 1 = [0] := rfl
  simp [backward, hdisp, Res.ofOption, Res.bind, hd, hn, r1, hq, hrec, hd2]

/-- `backward` on a node that records two operands. -/
theorem backward_node2 (L : Libm F) (fuel : Nat) {h h1 h2 h3 : Heap F} {p q0 q1 : Nat}
    {t t2 t3 : Tensor F}
    (hdisp : dispatch L h p = some h1) (hd : h1.deref p = some t) (hn : t.num_prevs = 2)
    (hq0 : rdPrev h1 p 0 = some q0) (hrec0 : backward L fuel h1 (some q0) = .ok h2)
    (hd2 : h2.deref p = some t2) (hq1 : rdPrev h2 p 1 = some q1)
    (hrec1 : backward L fuel h2 (some q1) = .ok h3) (hd3 : h3.deref p = some t3) :
    backward L (fuel + 1) h (some p) = .ok h3 := by
  have r2 : List.range 2 = [0, 1] := rfl
  have e2 : (2 : Int).toNat = 2 := rfl
  simp [backward, hdisp, Res.ofOption, Res.bind, hd, hn, e2, r2, hq0, hrec0, hd2, hq1, hrec1, hd3]

theorem seed_grad_zero {h : Heap F} {p : Nat} {t : Tensor F} (hp : h.deref p = some t)
    (hfl : t.dtype.isFloat = true) {g : List F} (hg : t.grad = some g) (hl : 0 < g.length)
    (v : F) :
    seed_grad h p 0 v = some (h.store p { t with grad := some (g.set 0 v) }) := by
  simp [seed_grad, hp, wrG, hfl, hg, bufSet, hl]

theorem binResult_isMat (op : Op) {a : Tensor F} (b : Tensor F) (p1 p2 : Nat) {r c : Nat}
    {xs : List F} (ma : IsMat a r c xs) (D : List F) (hD : D.length = r * c) :
    IsMat (binResult op a b p1 p2 D) r c D where
  isFloat := ma.isFloat
  dims_eq := ma.dims_eq
  ndim_eq := by simp [binResult, fresh, ma.dims_eq]
  size_eq := by simp [binResult, fresh, ma.dims_eq]
  cols_pos := ma.cols_pos
  data_eq := rfl
  len_eq := hD
  fits := ma.fits

theorem binResult_grad (op : Op) {a : Tensor F} (b : Tensor F) (p1 p2 : Nat) {r c : Nat}
    {xs : List F} (ma : IsMat a r c xs) (D : List F)
    (hrg : a.requires_grad = bool.true ∨ b.requires_grad = bool.true) :
    (binResult op a b p1 p2 D).requires_grad = bool.true ∧
    (binResult op a b p1 p2 D).grad = some (List.replicate (r * c) 0) := by
  have hcb : condBool (lnot a.requires_grad || lnot b.requires_grad) = bool.true := by
    rcases hrg with h | h <;> simp [h, condBool, lnot, bool.toInt]
  constructor
  · simp [binResult, fresh, hcb]
  · simp only [binResult, fresh, hcb, ma.isFloat, ma.dims_eq]
    simp [lnot, bool.toInt, toNat_mul_cast]

theorem redResult_grad (op : Op) {a : Tensor F} (p1 : Nat) (v : F) (n : Int)
    (hfl : a.dtype.isFloat = true) (hrg : a.requires_grad = bool.true) :
    (redResult op a p1 v n).requires_grad = bool.true ∧
    (redResult op a p1 v n).grad = some [0] := by
  have hcb : condBool (lnot a.requires_grad) = bool.true := by
    simp [hrg, condBool, lnot, bool.toInt]
  constructor
  · simp [redResult, fresh, hcb]
  · simp only [redResult, fresh, hcb, hfl]
    simp [lnot, bool.toInt]

theorem gradAt_of {h : Heap F} {p : Nat} {t : Tensor F} (hp : h.deref p = some t) {g : List F}
    (hg : t.grad = some g) (i : Nat) : gradAt h p i = g[i]? := by
  simp [gradAt, hp, hg]

theorem hasGrad_ok {t : Tensor F} {g : List F} {n : Nat} (hg : HasGrad t g)
    (hs : t.size = (n : Int)) : GradOK t n := by
  intro _
  refine ⟨g, hg.grad_eq, ?_⟩
  have := hg.len_eq
  rw [hs] at this
  exact_mod_cast this

theorem SameButGrad.refl (t : Tensor F) : SameButGrad t t :=
  ⟨rfl, fun g hg => ⟨g, hg, rfl⟩⟩

theorem SameButGrad.trans {t t' t'' : Tensor F} (h1 : SameButGrad t t')
    (h2 : SameButGrad t' t'') : SameButGrad t t'' := by
  refine ⟨?_, ?_⟩
  · have e1 := h1.eq
    have e2 := h2.eq
    rw [e2, e1]
  · intro g hg
    obtain ⟨g', hg', hl'⟩ := h1.some_len g hg
    obtain ⟨g'', hg'', hl''⟩ := h2.some_len g' hg'
    exact ⟨g'', hg'', hl''.trans hl'⟩

theorem SameButGrad.dtype {t t' : Tensor F} (s : SameButGrad t t') : t'.dtype = t.dtype := by
  rw [s.eq]

theorem SameButGrad.requires_grad {t t' : Tensor F} (s : SameButGrad t t') :
    t'.requires_grad = t.requires_grad := by
  rw [s.eq]

theorem SameButGrad.isMat {t t' : Tensor F} (s : SameButGrad t t') {r c : Nat} {xs : List F}
    (m : IsMat t r c xs) : IsMat t' r c xs := by
  have e := s.eq
  constructor
  · rw [e]; exact m.isFloat
  · rw [e]; exact m.dims_eq
  · rw [e]; exact m.ndim_eq
  · rw [e]; exact m.size_eq
  · exact m.cols_pos
  · rw [e]; exact m.data_eq
  · exact m.len_eq
  · exact m.fits

theorem SameButGrad.isLeaf {t t' : Tensor F} (s : SameButGrad t t') (l : IsLeaf t) :
    IsLeaf t' := by
  have e := s.eq
  constructor
  · rw [e]; exact l.op_eq
  · rw [e]; exact l.num_prevs_eq

theorem SameButGrad.gradOK {t t' : Tensor F} (s : SameButGrad t t') {n : Nat}
    (g : GradOK t n) : GradOK t' n := by
  intro hrg
  rw [s.requires_grad] at hrg
  obtain ⟨g0, hg0, hl⟩ := g hrg
  obtain ⟨g', hg', hl'⟩ := s.some_len g0 hg0
  exact ⟨g', hg', hl'.trans hl⟩

theorem sameButGrad_withGrad (t : Tensor F) (G : Option (List F))
    (hG : ∀ g, t.grad = some g → ∃ g', G = some g' ∧ g'.length = g.length) :
    SameButGrad t { t with grad := G } :=
  ⟨rfl, hG⟩

/-- `accGrad` keeps every live tensor, up to gradient contents. -/
theorem deref_accGrad_same (h : Heap F) (p q : Nat) (v : Nat → F) {t : Tensor F}
    (hq : h.deref q = some t) :
    ∃ t', (accGrad h p v).deref q = some t' ∧ SameButGrad t t' := by
  by_cases hqp : q = p
  · subst hqp
    refine ⟨_, deref_accGrad_self hq v, sameButGrad_withGrad t _ ?_⟩
    intro g hg
    exact ⟨addv g v, by simp [hg], length_addv g v⟩
  · exact ⟨t, by rw [deref_accGrad_ne h v hqp, hq], SameButGrad.refl t⟩

/-- `accIf` keeps every live tensor, up to gradient contents. -/
theorem deref_accIf_same (u : Tensor F) (h : Heap F) (p q : Nat) (v : Nat → F) {t : Tensor F}
    (hq : h.deref q = some t) :
    ∃ t', (accIf u h p v).deref q = some t' ∧ SameButGrad t t' := by
  unfold accIf
  split
  · exact deref_accGrad_same h p q v hq
  · exact ⟨t, hq, SameButGrad.refl t⟩

theorem gradAt_accIf_ne (u : Tensor F) (h : Heap F) {p q : Nat} (v : Nat → F) (hq : q ≠ p)
    (i : Nat) : gradAt (accIf u h p v) q i = gradAt h q i := by
  unfold accIf
  split
  · exact gradAt_accGrad_ne h v hq i
  · rfl

theorem deref_setGrad_ne (h : Heap F) {p q : Nat} (g : List F) (hq : q ≠ p) :
    (setGrad h p g).deref q = h.deref q := by
  unfold setGrad
  cases hp : h.deref p with
  | none => rfl
  | some t => simp [deref_store_ne _ hq]

theorem deref_setGrad_self {h : Heap F} {p : Nat} {t : Tensor F} (hp : h.deref p = some t)
    (g : List F) : (setGrad h p g).deref p = some { t with grad := some g } := by
  unfold setGrad
  simp [hp, deref_store_self _ (deref_eq_some_lt hp)]

theorem map_range_const {α : Type} (n : Nat) (a : α) :
    (List.range n).map (fun _ => a) = List.replicate n a := by
  apply List.ext_getElem?
  intro j
  by_cases hj : j < n
  · simp [List.getElem?_map, List.getElem?_range hj, List.getElem?_replicate, hj]
  · rw [List.getElem?_eq_none (by simpa using hj), List.getElem?_eq_none (by simpa using hj)]

/-- The loop of `grad_init` on a float matrix owning a gradient buffer. -/
theorem gradInit_loop (h : Heap F) (p : Nat) (t : Tensor F) (dt : DType) (r c : Nat)
    (g : List F) (hp : h.deref p = some t) (hd : t.dims = [(r : Int), (c : Int)]) (hc : 0 < c)
    (hdt : t.dtype = dt) (hfl : dt.isFloat = true) (hg : t.grad = some g)
    (hgl : g.length = r * c) :
    loopN (gradInitStep p dt) (r * c) h = some (setGrad h p (List.replicate (r * c) 1)) := by
  have hc' : (c : Int) ≠ 0 := by omega
  have key := loopN_overwrite (fun G => h.store p { t with grad := some G })
    (gradInitStep p dt) (fun _ => (1 : F)) g (r * c) (le_of_eq hgl.symm) ?_
  · beta_reduce at key
    have h0 : h.store p { t with grad := some g } = h := by
      have : ({ t with grad := some g } : Tensor F) = t := by rw [← hg]
      rw [this, store_self_eq hp]
    rw [h0] at key
    rw [key, ← hgl, overwrite_full, map_range_const]
    simp [setGrad, hp]
  · intro i hi
    have e1 : rdDim h p 0 = some (r : Int) := by simp [rdDim, hp, hd]
    have e2 : rdDim h p 1 = some (c : Int) := by simp [rdDim, hp, hd]
    simp only [gradInitStep, posOf, rdDim_sg hp, e1, e2, Option.bind_eq_bind, Option.some_bind,
      shape_index_nat i _ _ hc']
    rw [wrG_sg_self hp _ dt hdt hfl i _ (by rw [length_overwrite _ _ _ (by omega)]; omega)]

/-- `grad_init` on a tracking float matrix fills its gradient with ones. -/
theorem grad_init_spec (h : Heap F) (p : Nat) (t : Tensor F) (r c : Nat) (xs g : List F)
    (hp : h.deref p = some t) (m : IsMat t r c xs) (hg : HasGrad t g) :
    grad_init h (some p) = some (setGrad h p (List.replicate (r * c) 1)) := by
  have hgl : g.length = r * c := by
    have := hg.len_eq
    rw [m.size_eq] at this
    exact_mod_cast this
  have hl := fun dt (hdt : t.dtype = dt) (hfl : dt.isFloat = true) =>
    gradInit_loop h p t dt r c g hp m.dims_eq m.cols_pos hdt hfl hg.grad_eq hgl
  have hfl := m.isFloat
  have hln : lnot t.requires_grad = true := by rw [hg.tracks]; rfl
  unfold grad_init
  simp only [hp, Option.bind_eq_bind, Option.some_bind, hln, and_true, forLoop, m.size_eq,
    toNat_mul_cast]
  cases hd : t.dtype with
  | FLOAT32 =>
    simp [hp, hd, hln, m.size_eq, toNat_mul_cast, hl .FLOAT32 hd rfl]
  | FLOAT64 =>
    have hsg := deref_setGrad_self hp (List.replicate (r * c) (1 : F))
    simp [hd, hl .FLOAT64 hd rfl, hsg]
  | INT32 => simp [hd, DType.isFloat] at hfl
  | INT64 => simp [hd, DType.isFloat] at hfl

theorem backward_isLeaf (L : Libm F) (fuel : Nat) {h : Heap F} {p : Nat} {t : Tensor F}
    (hd : h.deref p = some t) (l : IsLeaf t) : backward L (fuel + 1) h (some p) = .ok h :=
  backward_leaf L fuel hd l.op_eq l.num_prevs_eq

/-- The driver at a `mul` node whose two distinct operands are leaves: the
`mul` rule, then two visits that change nothing. -/
theorem backward_mul_leaves (L : Libm F) (fuel : Nat) (h : Heap F) (o p0 p1 : Nat)
    (tout t0 t1 : Tensor F) (dt : DType) (r c : Nat) (og xs ys : List F)
    (ho : h.deref o = some tout) (hop : tout.op = some .MUL) (hn : tout.num_prevs = 2)
    (hp0 : tout.prevs[0]? = some (some p0)) (hp1 : tout.prevs[1]? = some (some p1))
    (hdo : tout.dims = [(r : Int), (c : Int)]) (hto : tout.dtype = dt)
    (hsz : tout.size = (r : Int) * (c : Int))
    (hog : tout.grad = some og) (hogl : og.length = r * c)
    (h0 : h.deref p0 = some t0) (m0 : IsMat t0 r c xs) (hd0 : t0.dtype = dt)
    (g0 : GradOK t0 (r * c)) (l0 : IsLeaf t0)
    (h1 : h.deref p1 = some t1) (m1 : IsMat t1 r c ys) (hd1 : t1.dtype = dt)
    (g1 : GradOK t1 (r * c)) (l1 : IsLeaf t1)
    (hne0 : o ≠ p0) (hne1 : o ≠ p1) (hne : p0 ≠ p1) :
    backward L (fuel + 2) h (some o)
      = .ok (accIf t1 (accIf t0 h p0 (fun i => ys.getD i 0 * og.getD i 0)) p1
          (fun i => xs.getD i 0 * og.getD i 0)) := by
  have hrule := mul_backward_spec h o p0 p1 tout t0 t1 dt r c og xs ys ho hp0 hp1 hdo hto hsz
    hog hogl h0 m0 hd0 g0 h1 m1 hd1 g1 hne0 hne1 hne
  set h' : Heap F := accIf t1 (accIf t0 h p0 (fun i => ys.getD i 0 * og.getD i 0)) p1
    (fun i => xs.getD i 0 * og.getD i 0) with hh'
  have ho' : h'.deref o = some tout := by
    rw [hh', deref_accIf_ne _ _ _ hne1, deref_accIf_ne _ _ _ hne0, ho]
  obtain ⟨t0a, h0a, s0a⟩ := deref_accIf_same t0 h p0 p0 (fun i => ys.getD i 0 * og.getD i 0) h0
  obtain ⟨t0b, h0b, s0b⟩ := deref_accIf_same t1 _ p1 p0 (fun i => xs.getD i 0 * og.getD i 0) h0a
  obtain ⟨t1a, h1a, s1a⟩ := deref_accIf_same t0 h p0 p1 (fun i => ys.getD i 0 * og.getD i 0) h1
  obtain ⟨t1b, h1b, s1b⟩ := deref_accIf_same t1 _ p1 p1 (fun i => xs.getD i 0 * og.getD i 0) h1a
  refine backward_node2 L (fuel + 1) ?_ ho' hn (rdPrev_of ho' hp0)
    (backward_isLeaf L fuel h0b ((s0a.trans s0b).isLeaf l0)) ho' (rdPrev_of ho' hp1)
    (backward_isLeaf L fuel h1b ((s1a.trans s1b).isLeaf l1)) ho'
  rw [dispatch_op ho]
  simpa [hop] using hrule

theorem binResult_hasGrad (op : Op) {a : Tensor F} (b : Tensor F) (p1 p2 : Nat) {r c : Nat}
    {xs : List F} (ma : IsMat a r c xs) (D : List F)
    (hrg : a.requires_grad = bool.true ∨ b.requires_grad = bool.true) :
    HasGrad (binResult op a b p1 p2 D) (List.replicate (r * c) 0) := by
  obtain ⟨h1, h2⟩ := binResult_grad op b p1 p2 ma D hrg
  refine ⟨h1, h2, ?_⟩
  simp [binResult, fresh, ma.dims_eq]

theorem gradAt_accIf_self {u : Tensor F} (hu : u.requires_grad = bool.true) (h : Heap F)
    (p : Nat) (v : Nat → F) (i : Nat) :
    gradAt (accIf u h p v) p i = (gradAt h p i).map (fun x => x + v i) := by
  rw [accIf_true hu, gradAt_accGrad_self]

theorem getD_replicate_one (n i : Nat) (hi : i < n) :
    (List.replicate n (1 : F)).getD i 0 = 1 := by
  simp [List.getD, List.getElem?_replicate, hi]

/-- `add` on two float matrices of one type and shape (possibly the same
tensor twice). -/
theorem add_float (h : Heap F) (p1 p2 : Nat) (a b : Tensor F) (r c : Nat) (xs ys : List F)
    (ha : h.deref p1 = some a) (hb : h.deref p2 = some b)
    (ma : IsMat a r c xs) (mb : IsMat b r c ys) (hdt : a.dtype = b.dtype) :
    add h (some p1) (some p2)
      = some (h ++ [some (binResult .ADD a b p1 p2
            ((List.range (r * c)).map fun i => xs.getD i 0 + ys.getD i 0))], some h.length) := by
  have hfl := ma.isFloat
  have hloop := fun (dt : DType) (hda : a.dtype = dt) t0 ht0 =>
    binStepF_loop (· + ·) dt h p1 p2 a b t0 r c xs ys ha hb ma mb hda (hdt ▸ hda) ht0
      (List.replicate (r * c) 0) (by simp)
  unfold add
  simp only [ha, hb, Option.bind_eq_bind, Option.some_bind, ma.ndim_eq, mb.ndim_eq, hdt,
    ne_eq, not_true_eq_false, or_self, if_false, ma.dims_eq, mb.dims_eq,
    dimsDiffer_self [(r : Int), (c : Int)] 2 (by simp), Bool.false_eq_true, tensor_mat _ _ _ _ _ ma.fits,
    forLoop, ma.size_eq, toNat_mul_cast]
  cases hd : b.dtype with
  | FLOAT32 =>
    have := hloop .FLOAT32 (hdt.trans hd) (fresh .FLOAT32 [(r : Int), (c : Int)]
      (condBool (lnot a.requires_grad || lnot b.requires_grad))) rfl
    simp only [fresh, prod_pair, toNat_mul_cast, Data.calloc, Data.ofF] at this ⊢
    rw [this]
    simp [link2, deref_append_new, store_append_new, binResult, fresh, hdt, hd,
      ma.dims_eq, Data.ofF, MAX_PREVS, toNat_mul_cast]
  | FLOAT64 =>
    have := hloop .FLOAT64 (hdt.trans hd) (fresh .FLOAT64 [(r : Int), (c : Int)]
      (condBool (lnot a.requires_grad || lnot b.requires_grad))) rfl
    simp only [fresh, prod_pair, toNat_mul_cast, Data.calloc, Data.ofF] at this ⊢
    rw [this]
    simp [link2, deref_append_new, store_append_new, binResult, fresh, hdt, hd,
      ma.dims_eq, Data.ofF, MAX_PREVS, toNat_mul_cast]
  | INT32 => simp [hdt, hd, DType.isFloat] at hfl
  | INT64 => simp [hdt, hd, DType.isFloat] at hfl

/-- The rule `add_backward` on a result of two float matrices (possibly the
same tensor twice): the upstream gradient is added to each tracking operand. -/
theorem add_backward_spec (h : Heap F) (o p0 p1 : Nat) (tout t0 t1 : Tensor F) (dt : DType)
    (r c : Nat) (og : List F)
    (ho : h.deref o = some tout)
    (hp0 : tout.prevs[0]? = some (some p0)) (hp1 : tout.prevs[1]? = some (some p1))
    (hdo : tout.dims = [(r : Int), (c : Int)]) (hto : tout.dtype = dt)
    (hsz : tout.size = (r : Int) * (c : Int))
    (hog : tout.grad = some og) (hogl : og.length = r * c)
    (h0 : h.deref p0 = some t0) (hd0 : t0.dims = [(r : Int), (c : Int)]) (hdt0 : t0.dtype = dt)
    (g0 : GradOK t0 (r * c))
    (h1 : h.deref p1 = some t1) (hd1 : t1.dims = [(r : Int), (c : Int)]) (hdt1 : t1.dtype = dt)
    (g1 : GradOK t1 (r * c))
    (hc : 0 < c) (hfl : dt.isFloat = true) (hne0 : o ≠ p0) (hne1 : o ≠ p1) :
    add_backward h (some o)
      = some (accIf t1 (accIf t0 h p0 (fun i => og.getD i 0)) p1 (fun i => og.getD i 0)) := by
  have hv : (fun i => (1 : F) * og.getD i 0) = fun i => og.getD i 0 := by
    funext i; rw [one_mul]
  have second : ∀ (h' : Heap F) (t1' : Tensor F), h'.deref o = some tout →
      h'.deref p1 = some t1' → SameButGrad t1 t1' →
      bwdSecond o (fun p1 dt => addBwdStep 1 dt o p1) h'
        = some (accIf t1 h' p1 (fun i => og.getD i 0)) := by
    intro h' t1' ho' h1' s1
    unfold bwdSecond
    simp only [ho', rdPrev_of ho' hp1, h1', Option.bind_eq_bind, Option.some_bind,
      s1.requires_grad]
    cases hrg : t1.requires_grad with
    | true =>
      obtain ⟨g, hg, hgl⟩ := s1.gradOK g1 (by rw [s1.requires_grad, hrg])
      have hb := addBwd_block 1 h' o p1 tout t1' dt r c og g ho' h1' hne1 hdo
        (by rw [s1.eq]; exact hd1) hc hfl hto (s1.dtype.trans hdt1) hog hogl hg hgl
      rw [hv] at hb
      simp [eqTrue, bool.toInt, bwdSwitch_float hfl, hto, forLoop, hsz, toNat_mul_cast, hb,
        accIf_true hrg]
    | false => simp [eqTrue, bool.toInt, accIf_false hrg]
  unfold add_backward
  simp only [ho, rdPrev_of ho hp0, h0, Option.bind_eq_bind, Option.some_bind]
  cases hrg : t0.requires_grad with
  | true =>
    obtain ⟨g, hg, hgl⟩ := g0 hrg
    have hb := addBwd_block 1 h o p0 tout t0 dt r c og g ho h0 hne0 hdo hd0 hc hfl hto hdt0
      hog hogl hg hgl
    rw [hv] at hb
    have ho' : (accGrad h p0 (fun i => og.getD i 0)).deref o = some tout := by
      rw [deref_accGrad_ne h _ hne0, ho]
    obtain ⟨t1', h1', s1⟩ := deref_accGrad_same h p0 p1 (fun i => og.getD i 0) h1
    simp only [lnot, bool.toInt, beq_self_eq_true, if_true, bwdSwitch_float hfl, hto, forLoop,
      hsz, toNat_mul_cast, hb, Option.map_some', Option.some_bind, Bool.false_eq_true, if_false,
      accIf_true hrg]
    exact second _ _ ho' h1' s1
  | false =>
    simp only [lnot, bool.toInt, accIf_false hrg]
    simpa using second h t1 ho h1 (SameButGrad.refl t1)

/-- The element loop of `relu` on a float matrix fills the fresh result. -/
theorem reluStepF_loop (dt : DType) (h : Heap F) (p1 : Nat) (a t0 : Tensor F) (r c : Nat)
    (xs : List F) (ha : h.deref p1 = some a) (ma : IsMat a r c xs) (hda : a.dtype = dt)
    (D : List F) (hD : D.length = r * c) :
    loopN (reluStepF dt h.length p1) (r * c) (h ++ [some { t0 with data := Data.ofF dt D }])
      = some (h ++ [some { t0 with data := (Data.ofF dt
            ((List.range (r * c)).map fun i => if xs.getD i 0 < 0 then 0 else xs.getD i 0)) }]) := by
  have hfl : dt.isFloat = true := hda ▸ ma.isFloat
  have hc : (c : Int) ≠ 0 := by have := ma.cols_pos; omega
  have key := loopN_overwrite (fun D => h ++ [some { t0 with data := Data.ofF dt D }])
    (reluStepF dt h.length p1) (fun i => if xs.getD i 0 < 0 then 0 else xs.getD i 0) D (r * c)
    (le_of_eq hD.symm) ?_
  · rw [key, ← hD, overwrite_full]
  · intro i hi
    have hxi : i < xs.length := by rw [ma.len_eq]; exact hi
    have hoi : i < (overwrite i (fun i => if xs.getD i 0 < 0 then 0 else xs.getD i 0) D).length := by
      rw [length_overwrite _ _ _ (by omega)]; omega
    simp only [reluStepF, posOf, rdDim, rdF, wrF, deref_append_new, deref_append_left _ ha,
      Option.bind_eq_bind, Option.some_bind, ma.dims_eq, List.getElem?_cons_zero,
      List.getElem?_cons_succ, shape_index_nat i _ _ hc, ma.data_eq, hda, getF_ofF hfl,
      getElem?_getD xs i 0 hxi, setF_ofF hfl _ i _ hoi, store_append_new]

/-- `relu` on a float matrix. -/
theorem relu_float (h : Heap F) (p1 : Nat) (a : Tensor F) (r c : Nat) (xs : List F)
    (ha : h.deref p1 = some a) (ma : IsMat a r c xs) :
    relu h (some p1)
      = some (h ++ [some (unResult .RELU a p1
            ((List.range (r * c)).map fun i => if xs.getD i 0 < 0 then 0 else xs.getD i 0))],
          some h.length) := by
  have hfl := ma.isFloat
  have hloop := fun (dt : DType) (hda : a.dtype = dt) =>
    reluStepF_loop dt h p1 a (fresh dt [(r : Int), (c : Int)] (condBool (lnot a.requires_grad)))
      r c xs ha ma hda (List.replicate (r * c) 0) (by simp)
  have hfr := fun (dt : DType) (hda : a.dtype = dt) =>
    fresh_float_eq (F := F) (hda ▸ hfl) [(r : Int), (c : Int)] (condBool (lnot a.requires_grad))
  unfold relu
  simp only [ha, Option.bind_eq_bind, Option.some_bind, ma.ndim_eq, ma.dims_eq, tensor_mat _ _ _ _ _ ma.fits,
    forLoop, ma.size_eq, toNat_mul_cast]
  cases hd : a.dtype with
  | FLOAT32 =>
    have h1 := hfr .FLOAT32 hd
    rw [prod_pair, toNat_mul_cast] at h1
    rw [h1]
    simp only [hloop .FLOAT32 hd, Option.some_bind, link1, deref_append_new, store_append_new,
      Option.bind_eq_bind]
    simp [unResult, fresh, hd, MAX_PREVS, ma.dims_eq]
  | FLOAT64 =>
    have h1 := hfr .FLOAT64 hd
    rw [prod_pair, toNat_mul_cast] at h1
    rw [h1]
    simp only [hloop .FLOAT64 hd, Option.some_bind, link1, deref_append_new, store_append_new,
      Option.bind_eq_bind]
    simp [unResult, fresh, hd, MAX_PREVS, ma.dims_eq]
  | INT32 => simp [hd, DType.isFloat] at hfl
  | INT64 => simp [hd, DType.isFloat] at hfl

/-- The loop of `relu_backward`. -/
theorem reluBwd_loop (h : Heap F) (o p0 : Nat) (tout t0 : Tensor F) (dt : DType)
    (r c : Nat) (og g ys : List F)
    (ho : h.deref o = some tout) (h0 : h.deref p0 = some t0) (hne : o ≠ p0)
    (hd0 : t0.dims = [(r : Int), (c : Int)])
    (hc : 0 < c) (hfl : dt.isFloat = true) (hto : tout.dtype = dt) (ht0 : t0.dtype = dt)
    (hys : tout.data = Data.ofF dt ys) (hysl : ys.length = r * c)
    (hog : tout.grad = some og) (hogl : og.length = r * c)
    (hg : t0.grad = some g) (hgl : g.length = r * c) :
    loopN (reluBwdStep o dt p0) (r * c) h
      = some (accGrad h p0 (fun i => if ys.getD i 0 < 0 then 0 else og.getD i 0)) := by
  have hc' : (c : Int) ≠ 0 := by omega
  rw [← hgl]
  apply loopN_accGrad h p0 t0 g _ _ h0 hg
  intro i hi G hG hGi
  have hio : i < og.length := by omega
  have hiy : i < ys.length := by omega
  have e1 : rdDim h p0 0 = some (r : Int) := by simp [rdDim, h0, hd0]
  have e2 : rdDim h p0 1 = some (c : Int) := by simp [rdDim, h0, hd0]
  simp only [reluBwdStep, posOf, rdDim_sg h0, e1, e2, Option.bind_eq_bind,
    Option.some_bind, shape_index_nat i _ _ hc', rdG_sg_self h0 G dt ht0 hfl, hGi,
    getElem?_getD g i 0 hi, rdG_sg_ne _ hne, rdG_of ho hog dt hto hfl,
    getElem?_getD og i 0 hio, rdF_sg h0, rdF_of ho dt hys hfl, getElem?_getD ys i 0 hiy]
  by_cases hy : ys.getD i 0 < 0
  · simp only [hy, if_true, Option.some_bind, wrG_sg_self h0 G dt ht0 hfl i _ (by omega)]
  · simp only [hy, if_false, Option.some_bind, wrG_sg_self h0 G dt ht0 hfl i _ (by omega)]

/-- The rule `relu_backward` on a float result whose operand tracks. -/
theorem relu_backward_spec (h : Heap F) (o p0 : Nat) (tout t0 : Tensor F) (dt : DType)
    (r c : Nat) (og g ys : List F)
    (ho : h.deref o = some tout) (hp0 : tout.prevs[0]? = some (some p0))
    (h0 : h.deref p0 = some t0) (hne : o ≠ p0)
    (hd0 : t0.dims = [(r : Int), (c : Int)]) (hs0 : t0.size = (r : Int) * (c : Int))
    (hc : 0 < c) (hfl : dt.isFloat = true) (hto : tout.dtype = dt) (ht0 : t0.dtype = dt)
    (hys : tout.data = Data.ofF dt ys) (hysl : ys.length = r * c)
    (hog : tout.grad = some og) (hogl : og.length = r * c)
    (hrg : t0.requires_grad = bool.true) (hg : t0.grad = some g) (hgl : g.length = r * c) :
    relu_backward h (some o)
      = some (accGrad h p0 (fun i => if ys.getD i 0 < 0 then 0 else og.getD i 0)) := by
  have hl := reluBwd_loop h o p0 tout t0 dt r c og g ys ho h0 hne hd0 hc hfl hto ht0 hys hysl
    hog hogl hg hgl
  unfold relu_backward unaryBwdGateFirst
  simp only [ho, rdPrev_of ho hp0, h0, hrg, Option.bind_eq_bind, Option.some_bind, eqTrue,
    bool.toInt, beq_self_eq_true, if_true, Bool.false_eq_true, if_false, hto,
    bwdSwitch_float hfl, forLoop, hs0, toNat_mul_cast, hl, Option.map_some']

theorem set_getD_self {α : Type} (D : List α) (q : Nat) (z : α) :
    D.set q (D.getD q z) = D := by
  apply List.ext_getElem?
  intro j
  rw [List.getElem?_set]
  by_cases hj : q = j
  · subst hj
    by_cases hq : q < D.length
    · simp [hq, List.getD, List.getElem?_eq_getElem hq]
    · simp [hq, List.getElem?_eq_none (not_lt.mp hq)]
  · simp [hj]

theorem getD_set_self {α : Type} (D : List α) (q : Nat) (v z : α) (hq : q < D.length) :
    (D.set q v).getD q z = v := by
  simp [List.getD, List.getElem?_set, hq]

/-- The innermost loop of a triple loop that accumulates into position `q`. -/
theorem accLoop {S α : Type} (mk : List α → S) (body : Nat → S → Option S)
    (g : Nat → α → α) (z : α) (q : Nat) (D : List α) (hq : q < D.length) (l : Nat)
    (hstep : ∀ k E, k < l → E.length = D.length →
      body k (mk E) = some (mk (E.set q (g k (E.getD q z))))) :
    loopN body l (mk D) = some (mk (D.set q (accK g l (D.getD q z)))) := by
  induction l with
  | zero =>
    show some (mk D) = some (mk (D.set q (D.getD q z)))
    rw [set_getD_self]
  | succ k ih =>
    rw [loopN_succ, ih (fun k E hk hE => hstep k E (by omega) hE)]
    simp only [Option.some_bind]
    rw [hstep k _ (by omega) (by simp), getD_set_self _ _ _ _ hq, List.set_set]
    rfl

/-- The middle loop of a triple loop: row `i`, columns `0, ..., j-1`. -/
theorem rowLoop {S α : Type} (mk : List α → S) (step : Nat → Nat → Nat → S → Option S)
    (g : Nat → Nat → Nat → α → α) (z : α) (m n l : Nat) (D0 : List α) (hD : D0.length = m * n)
    (hstep : ∀ i j k E, i < m → j < n → k < l → E.length = m * n →
      step i j k (mk E) = some (mk (E.set (i * n + j) (g i j k (E.getD (i * n + j) z)))))
    (i : Nat) (hi : i < m) (j : Nat) (hj : j ≤ n) :
    loopN (fun j s => loopN (fun k s => step i j k s) l s) j
        (mk (overwrite (i * n) (tripleVal g z n l D0) D0))
      = some (mk (overwrite (i * n + j) (tripleVal g z n l D0) D0)) := by
  induction j with
  | zero => simp [loopN]
  | succ j ih =>
    have hq : i * n + j < m * n := by
      calc i * n + j < i * n + n := by omega
        _ = (i + 1) * n := by ring
        _ ≤ m * n := Nat.mul_le_mul_right n (by omega)
    have hlen : (overwrite (i * n + j) (tripleVal g z n l D0) D0).length = m * n := by
      rw [length_overwrite _ _ _ (by omega), hD]
    rw [loopN_succ, ih (by omega)]
    simp only [Option.some_bind]
    rw [accLoop mk (fun k s => step i j k s) (g i j) z (i * n + j) _ (by omega) l
      (fun k E hk hE => hstep i j k E hi (by omega) hk (by rw [hE, hlen]))]
    have hn : 0 < n := by omega
    have e1 : (i * n + j) / n = i := by
      rw [Nat.add_comm, Nat.add_mul_div_right _ _ hn, Nat.div_eq_of_lt (by omega), Nat.zero_add]
    have e2 : (i * n + j) % n = j := by
      rw [Nat.add_comm, Nat.add_mul_mod_self_right, Nat.mod_eq_of_lt (by omega)]
    have e3 : (overwrite (i * n + j) (tripleVal g z n l D0) D0).getD (i * n + j) z
        = D0.getD (i * n + j) z := by
      simp only [List.getD_eq_getElem?_getD, getElem?_overwrite_ge _ _ (le_refl _)]
    have e4 : accK (g i j) l (D0.getD (i * n + j) z) = tripleVal g z n l D0 (i * n + j) := by
      simp only [tripleVal, e1, e2]
    rw [e3, e4, overwrite_succ _ _ _ (by omega)]
    rfl

/-- A triple loop over `(i, j, k)` that accumulates into position `i * n + j`
of one buffer. -/
theorem tripleLoop {S α : Type} (mk : List α → S) (step : Nat → Nat → Nat → S → Option S)
    (g : Nat → Nat → Nat → α → α) (z : α) (m n l : Nat) (D0 : List α) (hD : D0.length = m * n)
    (hstep : ∀ i j k E, i < m → j < n → k < l → E.length = m * n →
      step i j k (mk E) = some (mk (E.set (i * n + j) (g i j k (E.getD (i * n + j) z))))) :
    loopN (fun i s => loopN (fun j s => loopN (fun k s => step i j k s) l s) n s) m (mk D0)
      = some (mk ((List.range (m * n)).map (tripleVal g z n l D0))) := by
  have key : ∀ i, i ≤ m →
      loopN (fun i s => loopN (fun j s => loopN (fun k s => step i j k s) l s) n s) i (mk D0)
        = some (mk (overwrite (i * n) (tripleVal g z n l D0) D0)) := by
    intro i
    induction i with
    | zero => intro _; simp [loopN, overwrite_zero]
    | succ i ih =>
      intro hi
      rw [loopN_succ, ih (by omega)]
      simp only [Option.some_bind]
      rw [rowLoop mk step g z m n l D0 hD hstep i (by omega) n le_rfl]
      have : i * n + n = (i + 1) * n := by ring
      rw [this]
  rw [key m le_rfl, ← hD, overwrite_full]

theorem accK_sum {α : Type} [AddCommMonoid α] (u : Nat → α) (l : Nat) (a : α) :
    accK (fun k acc => acc + u k) l a = a + ((List.range l).map u).sum := by
  induction l with
  | zero => simp [accK]
  | succ k ih => simp [accK, ih, List.range_succ, add_assoc]

theorem idx_cast (i n j : Nat) : ((i : Int) * (n : Int) + (j : Int)) = ((i * n + j : Nat) : Int) := by
  push_cast; rfl

theorem idx_lt {i j m n : Nat} (hi : i < m) (hj : j < n) : i * n + j < m * n := by
  calc i * n + j < i * n + n := by omega
    _ = (i + 1) * n := by ring
    _ ≤ m * n := Nat.mul_le_mul_right n (by omega)

/-- One iteration of the innermost float loop of `matmul`, on the fresh
result at the end of the heap. -/
theorem matmulStepF_at (dt : DType) (h : Heap F) (p1 p2 : Nat) (a b t0 : Tensor F)
    (m l n : Nat) (xs ys : List F)
    (ha : h.deref p1 = some a) (hb : h.deref p2 = some b)
    (ma : IsMat a m l xs) (mb : IsMat b l n ys) (hda : a.dtype = dt) (hdb : b.dtype = dt)
    (i j k : Nat) (E : List F) (hi : i < m) (hj : j < n) (hk : k < l) (hE : E.length = m * n) :
    matmulStepF dt h.length p1 p2 (n : Int) (l : Int) i j k
        (h ++ [some { t0 with data := Data.ofF dt E }])
      = some (h ++ [some { t0 with data := (Data.ofF dt
          (E.set (i * n + j)
            (E.getD (i * n + j) 0 + xs.getD (i * l + k) 0 * ys.getD (k * n + j) 0))) }]) := by
  have hfl : dt.isFloat = true := hda ▸ ma.isFloat
  have hq : i * n + j < E.length := by rw [hE]; exact idx_lt hi hj
  have hx : i * l + k < xs.length := by rw [ma.len_eq]; exact idx_lt hi hk
  have hy : k * n + j < ys.length := by rw [mb.len_eq]; exact idx_lt hk hj
  simp only [matmulStepF, idx_cast, rdF, wrF, deref_append_new, deref_append_left _ ha,
    deref_append_left _ hb, Option.bind_eq_bind, Option.some_bind, ma.data_eq, mb.data_eq,
    hda, hdb, getF_ofF hfl, getElem?_getD E _ 0 hq, getElem?_getD xs _ 0 hx,
    getElem?_getD ys _ 0 hy, setF_ofF hfl _ _ _ hq, store_append_new]

theorem getD_replicate_zero {α : Type} (n q : Nat) (z : α) :
    (List.replicate n z).getD q z = z := by
  simp only [List.getD_eq_getElem?_getD, List.getElem?_replicate]
  split <;> rfl

/-- `matmul` on two float matrices `(m, l)` and `(l, n)` of one type. -/
theorem matmul_float (h : Heap F) (p1 p2 : Nat) (a b : Tensor F) (m l n : Nat)
    (xs ys : List F) (ha : h.deref p1 = some a) (hb : h.deref p2 = some b)
    (ma : IsMat a m l xs) (mb : IsMat b l n ys) (hdt : a.dtype = b.dtype)
    (hmn : (m : Int) * (n : Int) ≤ INT_MAX) :
    matmul h (some p1) (some p2)
      = some (h ++ [some (matResult a b p1 p2 m n (Data.ofF a.dtype
            ((List.range (m * n)).map fun q => dotF xs ys l n (q / n) (q % n))))],
          some h.length) := by
  have hfl := ma.isFloat
  have hval : (List.range (m * n)).map (tripleVal (fun i j k (acc : F) =>
        acc + xs.getD (i * l + k) 0 * ys.getD (k * n + j) 0) 0 n l (List.replicate (m * n) 0))
      = (List.range (m * n)).map fun q => dotF xs ys l n (q / n) (q % n) := by
    apply List.map_congr_left
    intro q _
    simp only [tripleVal, getD_replicate_zero, dotF]
    rw [accK_sum (fun k => xs.getD (q / n * l + k) 0 * ys.getD (k * n + q % n) 0), zero_add]
  have hloop := fun (dt : DType) (hda : a.dtype = dt) (t0 : Tensor F) =>
    tripleLoop (fun E => h ++ [some { t0 with data := Data.ofF dt E }])
      (matmulStepF dt h.length p1 p2 (n : Int) (l : Int))
      (fun i j k (acc : F) => acc + xs.getD (i * l + k) 0 * ys.getD (k * n + j) 0) 0 m n l
      (List.replicate (m * n) 0) (by simp)
      (fun i j k E hi hj hk hE => matmulStepF_at dt h p1 p2 a b t0 m l n xs ys ha hb ma mb hda
        (hdt ▸ hda) i j k E hi hj hk hE)
  have hfr := fun (dt : DType) (hda : a.dtype = dt) =>
    fresh_float_eq (F := F) (hda ▸ hfl) [(m : Int), (n : Int)]
      (condBool (lnot a.requires_grad || lnot b.requires_grad))
  unfold matmul
  simp only [ha, hb, Option.bind_eq_bind, Option.some_bind, ma.ndim_eq, ma.dims_eq, mb.dims_eq,
    List.getElem?_cons_zero, List.getElem?_cons_succ, hdt, ne_eq, not_true_eq_false, or_self,
    if_false, tensor_mat _ _ _ _ _ (fitsInt_prod ma.fits mb.fits hmn), matmulLoops, forLoop,
    Int.toNat_ofNat]
  cases hd : b.dtype with
  | FLOAT32 =>
    have h1 := hfr .FLOAT32 (hdt.trans hd)
    rw [prod_pair, toNat_mul_cast] at h1
    rw [h1]
    simp only [hloop .FLOAT32 (hdt.trans hd), hval, Option.some_bind, link2, deref_append_new,
      store_append_new, Option.bind_eq_bind]
    simp [matResult, fresh, hdt, hd, MAX_PREVS]
  | FLOAT64 =>
    have h1 := hfr .FLOAT64 (hdt.trans hd)
    rw [prod_pair, toNat_mul_cast] at h1
    rw [h1]
    simp only [hloop .FLOAT64 (hdt.trans hd), hval, Option.some_bind, link2, deref_append_new,
      store_append_new, Option.bind_eq_bind]
    simp [matResult, fresh, hdt, hd, MAX_PREVS]
  | INT32 => simp [hdt, hd, DType.isFloat] at hfl
  | INT64 => simp [hdt, hd, DType.isFloat] at hfl

theorem wrap_congr (w : Nat) {x y : Int} (hxy : x ≡ y [ZMOD (2 : Int) ^ w]) :
    wrap w x = wrap w y := by
  unfold wrap
  have : (x + 2 ^ (w - 1)) % 2 ^ w = (y + 2 ^ (w - 1)) % 2 ^ w := Int.ModEq.add_right _ hxy
  rw [this]

theorem wrap_modEq (w : Nat) (x : Int) : wrap w x ≡ x [ZMOD (2 : Int) ^ w] := by
  unfold wrap
  have h1 : (x + 2 ^ (w - 1)) % 2 ^ w ≡ x + 2 ^ (w - 1) [ZMOD (2 : Int) ^ w] := Int.mod_modEq _ _
  have := Int.ModEq.sub_right ((2 : Int) ^ (w - 1)) h1
  simpa using this

theorem wrap_of_inRange (w : Nat) (hw : 0 < w) (x : Int) (hx : InRange w x) : wrap w x = x := by
  obtain ⟨h1, h2⟩ := hx
  unfold wrap
  have hp : (2 : Int) ^ w = 2 * 2 ^ (w - 1) := by
    obtain ⟨k, rfl⟩ : ∃ k, w = k + 1 := ⟨w - 1, by omega⟩
    simp [pow_succ, mul_comm]
  rw [Int.emod_eq_of_lt (by linarith) (by linarith)]
  ring

theorem wrap_zero (w : Nat) (hw : 0 < w) : wrap w 0 = 0 :=
  wrap_of_inRange w hw 0
    ⟨by have : (0 : Int) < 2 ^ (w - 1) := by positivity
        linarith, by positivity⟩

theorem wrap_add_wrap (w : Nat) (s p : Int) : wrap w (wrap w s + wrap w p) = wrap w (s + p) :=
  wrap_congr w (Int.ModEq.add (wrap_modEq w s) (wrap_modEq w p))

/-- The accumulator of the integer loop of `matmul` is the wrapped sum. -/
theorem accK_wrap (w : Nat) (hw : 0 < w) (u : Nat → Int) (l : Nat) :
    accK (fun k acc => wrap w (acc + wrap w (u k))) l 0 = wrap w ((List.range l).map u).sum := by
  induction l with
  | zero => simp [accK, wrap_zero w hw]
  | succ k ih =>
    simp only [accK, ih, List.range_succ, List.map_append, List.sum_append, List.map_cons,
      List.map_nil, List.sum_cons, List.sum_nil, add_zero]
    exact wrap_add_wrap w _ _

theorem getI_ofI {dt : DType} (hfl : dt.isFloat = false) (xs : List Int) (i : Nat) :
    (Data.ofI dt xs : Data F).getI dt (i : Int) = xs[i]? := by
  cases dt <;> simp_all [Data.ofI, Data.getI, DType.isFloat, bufGet_nat]

theorem setI_ofI {dt : DType} (hfl : dt.isFloat = false) (xs : List Int) (i : Nat) (v : Int)
    (hi : i < xs.length) :
    (Data.ofI dt xs : Data F).setI dt (i : Int) v = some (Data.ofI dt (xs.set i v)) := by
  cases dt <;> simp_all [Data.ofI, Data.setI, DType.isFloat, bufSet_nat]

theorem fresh_int_eq {dt : DType} (hfl : dt.isFloat = false) (ds : List Int) (rg : bool) :
    (fresh dt ds rg : Tensor F)
      = { (fresh dt ds rg : Tensor F) with
          data := Data.ofI dt (List.replicate ds.prod.toNat 0) } := by
  cases dt <;> simp_all [fresh, Data.calloc, Data.ofI, DType.isFloat]

theorem bits_pos (dt : DType) : 0 < dt.bits := by
  cases dt <;> simp [DType.bits]

/-- One iteration of the innermost integer loop of `matmul`, on the fresh
result at the end of the heap. -/
theorem matmulStepI_at (dt : DType) (h : Heap F) (p1 p2 : Nat) (a b t0 : Tensor F)
    (m l n : Nat) (xs ys : List Int)
    (ha : h.deref p1 = some a) (hb : h.deref p2 = some b)
    (ma : IsMatI a m l xs) (mb : IsMatI b l n ys) (hda : a.dtype = dt) (hdb : b.dtype = dt)
    (i j k : Nat) (E : List Int) (hi : i < m) (hj : j < n) (hk : k < l) (hE : E.length = m * n) :
    matmulStepI dt h.length p1 p2 (n : Int) (l : Int) i j k
        (h ++ [some { t0 with data := Data.ofI dt E }])
      = some (h ++ [some { t0 with data := (Data.ofI dt
          (E.set (i * n + j) (wrap dt.bits (E.getD (i * n + j) 0
            + wrap dt.bits (xs.getD (i * l + k) 0 * ys.getD (k * n + j) 0))))) }]) := by
  have hfl : dt.isFloat = false := hda ▸ ma.isInt
  have hq : i * n + j < E.length := by rw [hE]; exact idx_lt hi hj
  have hx : i * l + k < xs.length := by rw [ma.len_eq]; exact idx_lt hi hk
  have hy : k * n + j < ys.length := by rw [mb.len_eq]; exact idx_lt hk hj
  simp only [matmulStepI, idx_cast, rdI, wrI, deref_append_new, deref_append_left _ ha,
    deref_append_left _ hb, Option.bind_eq_bind, Option.some_bind, ma.data_eq, mb.data_eq,
    hda, hdb, getI_ofI hfl, getElem?_getD E _ 0 hq, getElem?_getD xs _ 0 hx,
    getElem?_getD ys _ 0 hy, setI_ofI hfl _ _ _ hq, store_append_new]

/-- `matmul` on two integer matrices `(m, l)` and `(l, n)` of one type. -/
theorem matmul_int (h : Heap F) (p1 p2 : Nat) (a b : Tensor F) (m l n : Nat)
    (xs ys : List Int) (ha : h.deref p1 = some a) (hb : h.deref p2 = some b)
    (ma : IsMatI a m l xs) (mb : IsMatI b l n ys) (hdt : a.dtype = b.dtype)
    (hmn : (m : Int) * (n : Int) ≤ INT_MAX) :
    matmul h (some p1) (some p2)
      = some (h ++ [some (matResult a b p1 p2 m n (Data.ofI a.dtype
            ((List.range (m * n)).map fun q =>
              wrap a.dtype.bits (dotI xs ys l n (q / n) (q % n)))))],
          some h.length) := by
  have hfl := ma.isInt
  have hval : ∀ dt : DType, (List.range (m * n)).map (tripleVal (fun i j k (acc : Int) =>
        wrap dt.bits (acc + wrap dt.bits (xs.getD (i * l + k) 0 * ys.getD (k * n + j) 0)))
        0 n l (List.replicate (m * n) 0))
      = (List.range (m * n)).map fun q => wrap dt.bits (dotI xs ys l n (q / n) (q % n)) := by
    intro dt
    apply List.map_congr_left
    intro q _
    simp only [tripleVal, getD_replicate_zero, dotI]
    rw [accK_wrap dt.bits (bits_pos dt)
      (fun k => xs.getD (q / n * l + k) 0 * ys.getD (k * n + q % n) 0)]
  have hloop := fun (dt : DType) (hda : a.dtype = dt) (t0 : Tensor F) =>
    tripleLoop (fun E => h ++ [some { t0 with data := Data.ofI dt E }])
      (matmulStepI dt h.length p1 p2 (n : Int) (l : Int))
      (fun i j k (acc : Int) =>
        wrap dt.bits (acc + wrap dt.bits (xs.getD (i * l + k) 0 * ys.getD (k * n + j) 0)))
      0 m n l (List.replicate (m * n) 0) (by simp)
      (fun i j k E hi hj hk hE => matmulStepI_at dt h p1 p2 a b t0 m l n xs ys ha hb ma mb hda
        (hdt ▸ hda) i j k E hi hj hk hE)
  have hfr := fun (dt : DType) (hda : a.dtype = dt) =>
    fresh_int_eq (F := F) (hda ▸ hfl) [(m : Int), (n : Int)]
      (condBool (lnot a.requires_grad || lnot b.requires_grad))
  unfold matmul
  simp only [ha, hb, Option.bind_eq_bind, Option.some_bind, ma.ndim_eq, ma.dims_eq, mb.dims_eq,
    List.getElem?_cons_zero, List.getElem?_cons_succ, hdt, ne_eq, not_true_eq_false, or_self,
    if_false, tensor_mat _ _ _ _ _ (fitsInt_prod ma.fits mb.fits hmn), matmulLoops, forLoop,
    Int.toNat_ofNat]
  cases hd : b.dtype with
  | INT32 =>
    have h1 := hfr .INT32 (hdt.trans hd)
    rw [prod_pair, toNat_mul_cast] at h1
    rw [h1]
    simp only [hloop .INT32 (hdt.trans hd), hval, Option.some_bind, link2, deref_append_new,
      store_append_new, Option.bind_eq_bind]
    simp [matResult, fresh, hdt, hd, MAX_PREVS]
  | INT64 =>
    have h1 := hfr .INT64 (hdt.trans hd)
    rw [prod_pair, toNat_mul_cast] at h1
    rw [h1]
    simp only [hloop .INT64 (hdt.trans hd), hval, Option.some_bind, link2, deref_append_new,
      store_append_new, Option.bind_eq_bind]
    simp [matResult, fresh, hdt, hd, MAX_PREVS]
  | FLOAT32 => simp [hdt, hd, DType.isFloat] at hfl
  | FLOAT64 => simp [hdt, hd, DType.isFloat] at hfl

/-- The `FLOAT32` element loop of `sub` on two float matrices. -/
theorem subStepF32_loop (h : Heap F) (p1 p2 : Nat)
    (a b t0 : Tensor F) (r c : Nat) (xs ys : List F)
    (ha : h.deref p1 = some a) (hb : h.deref p2 = some b)
    (ma : IsMat a r c xs) (mb : IsMat b r c ys) (hda : a.dtype = .FLOAT32)
    (hdb : b.dtype = .FLOAT32) (ht0 : t0.dims = [(r : Int), (c : Int)])
    (D : List F) (hD : D.length = r * c) :
    loopN (subStepF32 h.length p1 p2) (r * c)
        (h ++ [some { t0 with data := Data.ofF .FLOAT32 D }])
      = some (h ++ [some { t0 with data := (Data.ofF .FLOAT32
            ((List.range (r * c)).map fun i => xs.getD i 0 - ys.getD i 0)) }]) := by
  have hfl : DType.isFloat .FLOAT32 = true := rfl
  have hc : (c : Int) ≠ 0 := by have := ma.cols_pos; omega
  have key := loopN_overwrite (fun D => h ++ [some { t0 with data := Data.ofF .FLOAT32 D }])
    (subStepF32 h.length p1 p2) (fun i => xs.getD i 0 - ys.getD i 0) D (r * c)
    (le_of_eq hD.symm) ?_
  · rw [key, ← hD, overwrite_full]
  · intro i hi
    have hxi : i < xs.length := by rw [ma.len_eq]; exact hi
    have hyi : i < ys.length := by rw [mb.len_eq]; exact hi
    have hoi : i < (overwrite i (fun i => xs.getD i 0 - ys.getD i 0) D).length := by
      rw [length_overwrite _ _ _ (by omega)]; omega
    simp only [subStepF32, posOf, rdDim, rdF, wrF, deref_append_new, deref_append_left _ ha,
      deref_append_left _ hb, Option.bind_eq_bind, Option.some_bind, ht0, ma.dims_eq,
      mb.dims_eq, List.getElem?_cons_zero, List.getElem?_cons_succ, shape_index_nat i _ _ hc,
      ma.data_eq, mb.data_eq, hda, hdb, getF_ofF hfl, getElem?_getD xs i 0 hxi,
      getElem?_getD ys i 0 hyi, setF_ofF hfl _ i _ hoi, store_append_new]

/-- `sub` on two float matrices of one type and shape. -/
theorem sub_float (h : Heap F) (p1 p2 : Nat) (a b : Tensor F) (r c : Nat) (xs ys : List F)
    (ha : h.deref p1 = some a) (hb : h.deref p2 = some b)
    (ma : IsMat a r c xs) (mb : IsMat b r c ys) (hdt : a.dtype = b.dtype) :
    sub h (some p1) (some p2)
      = some (h ++ [some (binResult .SUB a b p1 p2
            ((List.range (r * c)).map fun i => xs.getD i 0 - ys.getD i 0))], some h.length) := by
  have hfl := ma.isFloat
  unfold sub
  simp only [ha, hb, Option.bind_eq_bind, Option.some_bind, ma.ndim_eq, mb.ndim_eq, hdt,
    ne_eq, not_true_eq_false, or_self, if_false, ma.dims_eq, mb.dims_eq,
    dimsDiffer_self [(r : Int), (c : Int)] 2 (by simp), Bool.false_eq_true, tensor_mat _ _ _ _ _ ma.fits,
    forLoop, ma.size_eq, toNat_mul_cast]
  cases hd : b.dtype with
  | FLOAT32 =>
    have := subStepF32_loop h p1 p2 a b (fresh .FLOAT32 [(r : Int), (c : Int)]
      (condBool (lnot a.requires_grad || lnot b.requires_grad))) r c xs ys ha hb ma mb
      (hdt.trans hd) hd rfl (List.replicate (r * c) 0) (by simp)
    simp only [fresh, prod_pair, toNat_mul_cast, Data.calloc, Data.ofF] at this ⊢
    rw [this]
    simp [link2, deref_append_new, store_append_new, binResult, fresh, hdt, hd,
      ma.dims_eq, Data.ofF, MAX_PREVS, toNat_mul_cast]
  | FLOAT64 =>
    have := binStepF_loop (· - ·) .FLOAT64 h p1 p2 a b (fresh .FLOAT64 [(r : Int), (c : Int)]
      (condBool (lnot a.requires_grad || lnot b.requires_grad))) r c xs ys ha hb ma mb
      (hdt.trans hd) hd rfl (List.replicate (r * c) 0) (by simp)
    simp only [fresh, prod_pair, toNat_mul_cast, Data.calloc, Data.ofF] at this ⊢
    rw [this]
    simp [link2, deref_append_new, store_append_new, binResult, fresh, hdt, hd,
      ma.dims_eq, Data.ofF, MAX_PREVS, toNat_mul_cast]
  | INT32 => simp [hdt, hd, DType.isFloat] at hfl
  | INT64 => simp [hdt, hd, DType.isFloat] at hfl

/-- The rule `sub_backward` on a result of two float matrices (possibly the
same tensor twice): the upstream gradient is added to the first operand and
subtracted from the second, each when it tracks. -/
theorem sub_backward_spec (h : Heap F) (o p0 p1 : Nat) (tout t0 t1 : Tensor F) (dt : DType)
    (r c : Nat) (og : List F)
    (ho : h.deref o = some tout)
    (hp0 : tout.prevs[0]? = some (some p0)) (hp1 : tout.prevs[1]? = some (some p1))
    (hdo : tout.dims = [(r : Int), (c : Int)]) (hto : tout.dtype = dt)
    (hsz : tout.size = (r : Int) * (c : Int))
    (hog : tout.grad = some og) (hogl : og.length = r * c)
    (h0 : h.deref p0 = some t0) (hd0 : t0.dims = [(r : Int), (c : Int)]) (hdt0 : t0.dtype = dt)
    (g0 : GradOK t0 (r * c))
    (h1 : h.deref p1 = some t1) (hd1 : t1.dims = [(r : Int), (c : Int)]) (hdt1 : t1.dtype = dt)
    (g1 : GradOK t1 (r * c))
    (hc : 0 < c) (hfl : dt.isFloat = true) (hne0 : o ≠ p0) (hne1 : o ≠ p1) :
    sub_backward h (some o)
      = some (accIf t1 (accIf t0 h p0 (fun i => og.getD i 0)) p1 (fun i => -og.getD i 0)) := by
  have hv : (fun i => (1 : F) * og.getD i 0) = fun i => og.getD i 0 := by
    funext i; rw [one_mul]
  have hv' : (fun i => (-1 : F) * og.getD i 0) = fun i => -og.getD i 0 := by
    funext i; rw [neg_one_mul]
  have second : ∀ (h' : Heap F) (t1' : Tensor F), h'.deref o = some tout →
      h'.deref p1 = some t1' → SameButGrad t1 t1' →
      bwdSecond o (fun p1 dt => addBwdStep (-1) dt o p1) h'
        = some (accIf t1 h' p1 (fun i => -og.getD i 0)) := by
    intro h' t1' ho' h1' s1
    unfold bwdSecond
    simp only [ho', rdPrev_of ho' hp1, h1', Option.bind_eq_bind, Option.some_bind,
      s1.requires_grad]
    cases hrg : t1.requires_grad with
    | true =>
      obtain ⟨g, hg, hgl⟩ := s1.gradOK g1 (by rw [s1.requires_grad, hrg])
      have hb := addBwd_block (-1) h' o p1 tout t1' dt r c og g ho' h1' hne1 hdo
        (by rw [s1.eq]; exact hd1) hc hfl hto (s1.dtype.trans hdt1) hog hogl hg hgl
      rw [hv'] at hb
      simp [eqTrue, bool.toInt, bwdSwitch_float hfl, hto, forLoop, hsz, toNat_mul_cast, hb,
        accIf_true hrg]
    | false => simp [eqTrue, bool.toInt, accIf_false hrg]
  unfold sub_backward
  simp only [ho, rdPrev_of ho hp0, h0, Option.bind_eq_bind, Option.some_bind]
  cases hrg : t0.requires_grad with
  | true =>
    obtain ⟨g, hg, hgl⟩ := g0 hrg
    have hb := addBwd_block 1 h o p0 tout t0 dt r c og g ho h0 hne0 hdo hd0 hc hfl hto hdt0
      hog hogl hg hgl
    rw [hv] at hb
    have ho' : (accGrad h p0 (fun i => og.getD i 0)).deref o = some tout := by
      rw [deref_accGrad_ne h _ hne0, ho]
    obtain ⟨t1', h1', s1⟩ := deref_accGrad_same h p0 p1 (fun i => og.getD i 0) h1
    simp only [eqTrue, bool.toInt, beq_self_eq_true, if_true, bwdSwitch_float hfl, hto, forLoop,
      hsz, toNat_mul_cast, hb, Option.map_some', Option.some_bind, Bool.false_eq_true, if_false,
      accIf_true hrg]
    exact second _ _ ho' h1' s1
  | false =>
    simp only [eqTrue, bool.toInt, accIf_false hrg]
    simpa using second h t1 ho h1 (SameButGrad.refl t1)

/-! ## Frame of the backward rules -/

theorem Keeps.kRefl (o : Nat) (h : Heap F) : Keeps o h h := fun _ _ _ hp _ => hp

theorem Keeps.kTrans {o : Nat} {h1 h2 h3 : Heap F} (a : Keeps o h1 h2) (b : Keeps o h2 h3) :
    Keeps o h1 h3 := fun p tp hne hp hg => b p tp hne (a p tp hne hp hg) hg

theorem keeps_wrG {o : Nat} {hh hh1 : Heap F} {q : Nat} {dt : DType} {i : Int} {v : F}
    (hw : wrG hh q dt i v = some hh1) : Keeps o hh hh1 := by
  intro p tp _ hp hg
  unfold wrG at hw
  cases hq : hh.deref q with
  | none => simp [hq] at hw
  | some t =>
    simp only [hq, Option.bind_eq_bind, Option.some_bind] at hw
    split at hw
    · cases hgr : t.grad with
      | none => simp [hgr] at hw
      | some g =>
        simp only [hgr, Option.some_bind, Option.bind_eq_some] at hw
        obtain ⟨g1, _, hw⟩ := hw
        have hpq : p ≠ q := by
          intro e; subst e
          rw [hq] at hp; cases hp
          rw [hg] at hgr; cases hgr
        cases hw
        rw [deref_store_ne _ hpq, hp]
    · cases hw

theorem keeps_t_free {o : Nat} {hh hh1 : Heap F} (hf : t_free hh (some o) = some hh1) :
    Keeps o hh hh1 := by
  intro p tp hne hp _
  simp only [t_free, Option.bind_eq_bind, Option.bind_eq_some] at hf
  obtain ⟨_, _, hf⟩ := hf
  cases hf
  rw [← hp]
  simp [Heap.deref, List.getElem?_set_ne (Ne.symm hne)]

theorem keeps_loopN {o : Nat} (body : Nat → Heap F → Option (Heap F))
    (hb : ∀ i s s1, body i s = some s1 → Keeps o s s1) (n : Nat) {s s1 : Heap F}
    (hl : loopN body n s = some s1) : Keeps o s s1 := by
  induction n generalizing s1 with
  | zero => cases hl; exact Keeps.kRefl o s
  | succ k ih =>
    rw [loopN_succ, Option.bind_eq_some] at hl
    obtain ⟨s2, h1, h2⟩ := hl
    exact (ih h1).kTrans (hb k s2 s1 h2)

theorem keeps_forLoop {o : Nat} (body : Nat → Heap F → Option (Heap F))
    (hb : ∀ i s s1, body i s = some s1 → Keeps o s s1) (n : Int) {s s1 : Heap F}
    (hl : forLoop n body s = some s1) : Keeps o s s1 :=
  keeps_loopN body hb n.toNat hl

theorem keeps_addBwdStep {o : Nat} (coef : F) (dt : DType) (o' pk i : Nat) (hh hh1 : Heap F)
    (hs : addBwdStep coef dt o' pk i hh = some hh1) : Keeps o hh hh1 := by
  simp only [addBwdStep, Option.bind_eq_bind, Option.bind_eq_some] at hs
  repeat (obtain ⟨_, _, hs⟩ := hs)
  exact keeps_wrG hs

theorem keeps_mulBwdStepA {o : Nat} (dt : DType) (o' p0 p1 i : Nat) (hh hh1 : Heap F)
    (hs : mulBwdStepA dt o' p0 p1 i hh = some hh1) : Keeps o hh hh1 := by
  simp only [mulBwdStepA, Option.bind_eq_bind, Option.bind_eq_some] at hs
  repeat (obtain ⟨_, _, hs⟩ := hs)
  exact keeps_wrG hs

theorem keeps_mulBwdStepB {o : Nat} (dt : DType) (o' p0 p1 i : Nat) (hh hh1 : Heap F)
    (hs : mulBwdStepB dt o' p0 p1 i hh = some hh1) : Keeps o hh hh1 := by
  simp only [mulBwdStepB, Option.bind_eq_bind, Option.bind_eq_some] at hs
  repeat (obtain ⟨_, _, hs⟩ := hs)
  exact keeps_wrG hs

theorem keeps_matmulBwdStepA {o : Nat} (dt : DType) (o' p0 p1 : Nat) (n l : Int) (i k j : Nat)
    (hh hh1 : Heap F) (hs : matmulBwdStepA dt o' p0 p1 n l i k j hh = some hh1) :
    Keeps o hh hh1 := by
  simp only [matmulBwdStepA, Option.bind_eq_bind, Option.bind_eq_some] at hs
  repeat (obtain ⟨_, _, hs⟩ := hs)
  exact keeps_wrG hs

theorem keeps_matmulBwdStepB {o : Nat} (dt : DType) (o' p0 p1 : Nat) (m n : Int) (k j i : Nat)
    (hh hh1 : Heap F) (hs : matmulBwdStepB dt o' p0 p1 m n k j i hh = some hh1) :
    Keeps o hh hh1 := by
  simp only [matmulBwdStepB, Option.bind_eq_bind, Option.bind_eq_some] at hs
  repeat (obtain ⟨_, _, hs⟩ := hs)
  exact keeps_wrG hs

theorem keeps_divBwdStepA {o : Nat} (dt : DType) (o' p0 p1 i : Nat) (hh hh1 : Heap F)
    (hs : divBwdStepA dt o' p0 p1 i hh = some hh1) : Keeps o hh hh1 := by
  simp only [divBwdStepA, Option.bind_eq_bind, Option.bind_eq_some] at hs
  repeat (obtain ⟨_, _, hs⟩ := hs)
  exact keeps_wrG hs

theorem keeps_divBwdStepB {o : Nat} (L : Libm F) (dt : DType) (o' p0 p1 i : Nat)
    (hh hh1 : Heap F) (hs : divBwdStepB L dt o' p0 p1 i hh = some hh1) : Keeps o hh hh1 := by
  simp only [divBwdStepB, Option.bind_eq_bind, Option.bind_eq_some] at hs
  repeat (obtain ⟨_, _, hs⟩ := hs)
  exact keeps_wrG hs

theorem keeps_powBwdStep {o : Nat} (L : Libm F) (o' : Nat) (dt : DType) (p0 i : Nat)
    (hh hh1 : Heap F) (hs : powBwdStep L o' dt p0 i hh = some hh1) : Keeps o hh hh1 := by
  simp only [powBwdStep, Option.bind_eq_bind, Option.bind_eq_some] at hs
  repeat (obtain ⟨_, _, hs⟩ := hs)
  exact keeps_wrG hs

theorem keeps_expBwdStep {o : Nat} (L : Libm F) (o' : Nat) (dt : DType) (p0 i : Nat)
    (hh hh1 : Heap F) (hs : expBwdStep L o' dt p0 i hh = some hh1) : Keeps o hh hh1 := by
  simp only [expBwdStep, Option.bind_eq_bind, Option.bind_eq_some] at hs
  repeat (obtain ⟨_, _, hs⟩ := hs)
  exact keeps_wrG hs

theorem keeps_reluBwdStep {o : Nat} (o' : Nat) (dt : DType) (p0 i : Nat)
    (hh hh1 : Heap F) (hs : reluBwdStep o' dt p0 i hh = some hh1) : Keeps o hh hh1 := by
  simp only [reluBwdStep, Option.bind_eq_bind, Option.bind_eq_some] at hs
  repeat (obtain ⟨_, _, hs⟩ := hs)
  exact keeps_wrG hs

theorem keeps_leakyBwdStep {o : Nat} (o' : Nat) (dt : DType) (p0 i : Nat)
    (hh hh1 : Heap F) (hs : leakyBwdStep o' dt p0 i hh = some hh1) : Keeps o hh hh1 := by
  simp only [leakyBwdStep, Option.bind_eq_bind, Option.bind_eq_some] at hs
  repeat (obtain ⟨_, _, hs⟩ := hs)
  exact keeps_wrG hs

theorem keeps_tanhBwdStep {o : Nat} (L : Libm F) (o' : Nat) (dt : DType) (p0 i : Nat)
    (hh hh1 : Heap F) (hs : tanhBwdStep L o' dt p0 i hh = some hh1) : Keeps o hh hh1 := by
  simp only [tanhBwdStep, Option.bind_eq_bind, Option.bind_eq_some] at hs
  repeat (obtain ⟨_, _, hs⟩ := hs)
  exact keeps_wrG hs

theorem keeps_sigmoidBwdStep {o : Nat} (o' : Nat) (dt : DType) (p0 i : Nat)
    (hh hh1 : Heap F) (hs : sigmoidBwdStep o' dt p0 i hh = some hh1) : Keeps o hh hh1 := by
  simp only [sigmoidBwdStep, Option.bind_eq_bind, Option.bind_eq_some] at hs
  repeat (obtain ⟨_, _, hs⟩ := hs)
  exact keeps_wrG hs

theorem keeps_sumBwdStep {o : Nat} (o' : Nat) (dt : DType) (p0 i : Nat)
    (hh hh1 : Heap F) (hs : sumBwdStep o' dt p0 i hh = some hh1) : Keeps o hh hh1 := by
  simp only [sumBwdStep, Option.bind_eq_bind, Option.bind_eq_some] at hs
  repeat (obtain ⟨_, _, hs⟩ := hs)
  exact keeps_wrG hs

theorem keeps_meanBwdStep {o : Nat} (o' : Nat) (dt : DType) (p0 i : Nat)
    (hh hh1 : Heap F) (hs : meanBwdStep o' dt p0 i hh = some hh1) : Keeps o hh hh1 := by
  simp only [meanBwdStep, Option.bind_eq_bind, Option.bind_eq_some] at hs
  repeat (obtain ⟨_, _, hs⟩ := hs)
  exact keeps_wrG hs

theorem keeps_mseBwdStep {o : Nat} (o' : Nat) (dt : DType) (p0 i : Nat)
    (hh hh1 : Heap F) (hs : mseBwdStep o' dt p0 i hh = some hh1) : Keeps o hh hh1 := by
  simp only [mseBwdStep, Option.bind_eq_bind, Option.bind_eq_some] at hs
  repeat (obtain ⟨_, _, hs⟩ := hs)
  exact keeps_wrG hs

theorem keeps_softmaxBwdStep {o : Nat} (o' : Nat) (dt : DType) (p0 i j : Nat)
    (hh hh1 : Heap F) (hs : softmaxBwdStep o' dt p0 i j hh = some hh1) : Keeps o hh hh1 := by
  simp only [softmaxBwdStep, Option.bind_eq_bind, Option.bind_eq_some] at hs
  obtain ⟨_, _, _, _, _, _, hs⟩ := hs
  split at hs
  · simp only [Option.bind_eq_some] at hs
    repeat (obtain ⟨_, _, hs⟩ := hs)
    exact keeps_wrG hs
  · simp only [Option.bind_eq_some] at hs
    repeat (obtain ⟨_, _, hs⟩ := hs)
    exact keeps_wrG hs

theorem keeps_bwdSwitch {o : Nat} (dtype : DType) (n : Int)
    (step : DType → Nat → Heap F → Option (Heap F))
    (hb : ∀ dt i s s1, step dt i s = some s1 → Keeps o s s1) {h : Heap F} {r : Heap F × Bool}
    (hs : bwdSwitch dtype n o step h = some r) : Keeps o h r.1 := by
  unfold bwdSwitch at hs
  cases dtype <;> simp only [Option.map_eq_some'] at hs <;> obtain ⟨h1, hl, rfl⟩ := hs
  · exact keeps_forLoop _ (hb _) n hl
  · exact keeps_forLoop _ (hb _) n hl
  · exact keeps_t_free hl
  · exact keeps_t_free hl

theorem keeps_bwdSecond {o : Nat} (step : Nat → DType → Nat → Heap F → Option (Heap F))
    (hb : ∀ p dt i s s1, step p dt i s = some s1 → Keeps o s s1) {h h1 : Heap F}
    (hs : bwdSecond o step h = some h1) : Keeps o h h1 := by
  simp only [bwdSecond, Option.bind_eq_bind, Option.bind_eq_some] at hs
  obtain ⟨t, _, p1, _, t1, _, hs⟩ := hs
  split at hs
  · simp only [Option.bind_eq_some] at hs
    obtain ⟨r, hr, hs⟩ := hs
    cases hs
    exact keeps_bwdSwitch _ _ _ (hb p1) hr
  · cases hs; exact Keeps.kRefl o h

/-- The frame of a two-operand rule built from `bwdSwitch` and `bwdSecond`. -/
theorem keeps_binary {o : Nat} (gate : bool → Bool)
    (stepA : Nat → Nat → DType → Nat → Heap F → Option (Heap F))
    (stepB : Nat → DType → Nat → Heap F → Option (Heap F))
    (hA : ∀ p0 p1 dt i s s1, stepA p0 p1 dt i s = some s1 → Keeps o s s1)
    (hB : ∀ p dt i s s1, stepB p dt i s = some s1 → Keeps o s s1)
    {h h1 : Heap F} {t : Tensor F} {p0 q : Nat} {t0 : Tensor F}
    (hs : (if gate t0.requires_grad then
        (bwdSwitch t.dtype t.size o (stepA p0 q) h).bind fun r =>
          if r.2 then some r.1 else bwdSecond o stepB r.1
      else bwdSecond o stepB h) = some h1) : Keeps o h h1 := by
  split at hs
  · simp only [Option.bind_eq_some] at hs
    obtain ⟨r, hr, hs⟩ := hs
    have k1 := keeps_bwdSwitch _ _ _ (hA p0 q) hr
    split at hs
    · cases hs; exact k1
    · exact k1.kTrans (keeps_bwdSecond _ hB hs)
  · exact keeps_bwdSecond _ hB hs

theorem keeps_add_backward {o : Nat} {h h1 : Heap F} (hs : add_backward h (some o) = some h1) :
    Keeps o h h1 := by
  simp only [add_backward, Option.bind_eq_bind, Option.bind_eq_some] at hs
  obtain ⟨t, _, p0, _, t0, _, hs⟩ := hs
  exact keeps_binary lnot (fun p0 _ dt => addBwdStep 1 dt o p0)
    (fun p1 dt => addBwdStep 1 dt o p1)
    (fun _ _ _ _ _ _ => keeps_addBwdStep _ _ _ _ _ _ _)
    (fun _ _ _ _ _ => keeps_addBwdStep _ _ _ _ _ _ _) (q := 0) hs

theorem keeps_sub_backward {o : Nat} {h h1 : Heap F} (hs : sub_backward h (some o) = some h1) :
    Keeps o h h1 := by
  simp only [sub_backward, Option.bind_eq_bind, Option.bind_eq_some] at hs
  obtain ⟨t, _, p0, _, t0, _, hs⟩ := hs
  exact keeps_binary eqTrue (fun p0 _ dt => addBwdStep 1 dt o p0)
    (fun p1 dt => addBwdStep (-1) dt o p1)
    (fun _ _ _ _ _ _ => keeps_addBwdStep _ _ _ _ _ _ _)
    (fun _ _ _ _ _ => keeps_addBwdStep _ _ _ _ _ _ _) (q := 0) hs

theorem keeps_mul_backward {o : Nat} {h h1 : Heap F} (hs : mul_backward h (some o) = some h1) :
    Keeps o h h1 := by
  simp only [mul_backward, Option.bind_eq_bind, Option.bind_eq_some] at hs
  obtain ⟨t, _, p0, _, t0, _, hs⟩ := hs
  split at hs
  · simp only [Option.bind_eq_some] at hs
    obtain ⟨p1, _, r, hr, hs⟩ := hs
    have k1 := keeps_bwdSwitch _ _ _ (fun dt i s s1 => keeps_mulBwdStepA dt o p0 p1 i s s1) hr
    split at hs
    · cases hs; exact k1
    · exact k1.kTrans (keeps_bwdSecond _ (fun p dt i s s1 => keeps_mulBwdStepB dt o p0 p i s s1) hs)
  · exact keeps_bwdSecond _ (fun p dt i s s1 => keeps_mulBwdStepB dt o p0 p i s s1) hs

theorem keeps_matmulBwdF {o : Nat} (dt : DType) (p0 p1 : Nat) (m n l : Int) {h h1 : Heap F}
    (hs : matmulBwdF dt o p0 p1 m n l h = some h1) : Keeps o h h1 := by
  simp only [matmulBwdF, Option.bind_eq_bind, Option.bind_eq_some] at hs
  obtain ⟨t0, _, h2, hA, t1, _, hs⟩ := hs
  have k1 : Keeps o h h2 := by
    split at hA
    · exact keeps_forLoop _ (fun i s s1 hi => keeps_forLoop _ (fun k s s1 hk =>
        keeps_forLoop _ (fun j s s1 hj => keeps_matmulBwdStepA dt o p0 p1 n l i k j s s1 hj)
          _ hk) _ hi) _ hA
    · cases hA; exact Keeps.kRefl o h
  split at hs
  · exact k1.kTrans (keeps_forLoop _ (fun k s s1 hk => keeps_forLoop _ (fun j s s1 hj =>
      keeps_forLoop _ (fun i s s1 hi => keeps_matmulBwdStepB dt o p0 p1 m n k j i s s1 hi)
        _ hj) _ hk) _ hs)
  · cases hs; exact k1

theorem keeps_matmul_backward {o : Nat} {h h1 : Heap F}
    (hs : matmul_backward h (some o) = some h1) : Keeps o h h1 := by
  simp only [matmul_backward, Option.bind_eq_bind, Option.bind_eq_some] at hs
  obtain ⟨t, _, p0, _, m, _, p1, _, n, _, l, _, hs⟩ := hs
  split at hs
  · exact keeps_matmulBwdF _ _ _ _ _ _ hs
  · exact keeps_matmulBwdF _ _ _ _ _ _ hs
  · exact keeps_t_free hs

theorem keeps_divBwdF {o : Nat} (L : Libm F) (dt : DType) {h h1 : Heap F}
    (hs : divBwdF L dt o h = some h1) : Keeps o h h1 := by
  simp only [divBwdF, Option.bind_eq_bind, Option.bind_eq_some] at hs
  obtain ⟨t, _, p0, _, t0, _, h2, hA, p1, _, t1, _, hs⟩ := hs
  have k1 : Keeps o h h2 := by
    split at hA
    · simp only [Option.bind_eq_some] at hA
      obtain ⟨q, _, hA⟩ := hA
      exact keeps_forLoop _ (fun i s s1 hi => keeps_divBwdStepA dt o p0 q i s s1 hi) _ hA
    · cases hA; exact Keeps.kRefl o h
  split at hs
  · exact k1.kTrans (keeps_forLoop _ (fun i s s1 hi => keeps_divBwdStepB L dt o p0 p1 i s s1 hi)
      _ hs)
  · cases hs; exact k1

theorem keeps_Div_backward {o : Nat} (L : Libm F) {h h1 : Heap F}
    (hs : Div_backward L h (some o) = some h1) : Keeps o h h1 := by
  simp only [Div_backward, Option.bind_eq_bind, Option.bind_eq_some] at hs
  obtain ⟨t, _, hs⟩ := hs
  split at hs
  · exact keeps_divBwdF _ _ hs
  · exact keeps_divBwdF _ _ hs
  · exact keeps_t_free hs

theorem keeps_unaryBwdSwitchFirst {o : Nat}
    (step : DType → Nat → Nat → Heap F → Option (Heap F))
    (hb : ∀ dt p i s s1, step dt p i s = some s1 → Keeps o s s1) {h h1 : Heap F}
    (hs : unaryBwdSwitchFirst o step h = some h1) : Keeps o h h1 := by
  simp only [unaryBwdSwitchFirst, Option.bind_eq_bind, Option.bind_eq_some] at hs
  obtain ⟨t, _, hs⟩ := hs
  split at hs
  · simp only [Option.bind_eq_some] at hs
    obtain ⟨p0, _, t0, _, hs⟩ := hs
    split at hs
    · exact keeps_forLoop _ (hb _ _) _ hs
    · cases hs; exact Keeps.kRefl o h
  · simp only [Option.bind_eq_some] at hs
    obtain ⟨p0, _, t0, _, hs⟩ := hs
    split at hs
    · exact keeps_forLoop _ (hb _ _) _ hs
    · cases hs; exact Keeps.kRefl o h
  · exact keeps_t_free hs

theorem keeps_unaryBwdGateFirst {o : Nat} (ofOperand : Bool)
    (step : DType → Nat → Nat → Heap F → Option (Heap F))
    (hb : ∀ dt p i s s1, step dt p i s = some s1 → Keeps o s s1) {h h1 : Heap F}
    (hs : unaryBwdGateFirst o ofOperand step h = some h1) : Keeps o h h1 := by
  simp only [unaryBwdGateFirst, Option.bind_eq_bind, Option.bind_eq_some] at hs
  obtain ⟨t, _, p0, _, t0, _, hs⟩ := hs
  split at hs
  · simp only [Option.bind_eq_some] at hs
    obtain ⟨r, hr, hs⟩ := hs
    cases hs
    exact keeps_bwdSwitch _ _ _ (fun dt => hb dt p0) hr
  · cases hs; exact Keeps.kRefl o h

theorem keeps_unaryBwdGateOut {o : Nat} (gate : bool → Bool) (ofOperand : Bool)
    (body : DType → Nat → Heap F → Option (Heap F))
    (hb : ∀ dt p s s1, body dt p s = some s1 → Keeps o s s1) {h h1 : Heap F}
    (hs : unaryBwdGateOut o gate ofOperand body h = some h1) : Keeps o h h1 := by
  simp only [unaryBwdGateOut, Option.bind_eq_bind, Option.bind_eq_some] at hs
  obtain ⟨t, _, hs⟩ := hs
  split at hs
  · split at hs
    · simp only [Option.bind_eq_some] at hs
      obtain ⟨p0, _, t0, _, hs⟩ := hs
      split at hs
      · exact hb _ _ _ _ hs
      · exact hb _ _ _ _ hs
      · exact keeps_t_free hs
    · split at hs
      · simp only [Option.bind_eq_some] at hs
        obtain ⟨p0, _, hs⟩ := hs
        exact hb _ _ _ _ hs
      · simp only [Option.bind_eq_some] at hs
        obtain ⟨p0, _, hs⟩ := hs
        exact hb _ _ _ _ hs
      · exact keeps_t_free hs
  · cases hs; exact Keeps.kRefl o h

theorem keeps_softmaxBwdLoops {o : Nat} (dt : DType) (p0 : Nat) {h h1 : Heap F}
    (hs : softmaxBwdLoops o dt p0 h = some h1) : Keeps o h h1 := by
  simp only [softmaxBwdLoops, Option.bind_eq_bind, Option.bind_eq_some] at hs
  obtain ⟨r, _, hs⟩ := hs
  refine keeps_forLoop _ (fun i s s1 hi => ?_) _ hs
  simp only [Option.bind_eq_some] at hi
  obtain ⟨c, _, hi⟩ := hi
  exact keeps_forLoop _ (fun j s s1 hj => keeps_softmaxBwdStep o dt p0 i j s s1 hj) _ hi

theorem keeps_sumBwdLoop {o : Nat} (dt : DType) (p0 : Nat) {h h1 : Heap F}
    (hs : sumBwdLoop o dt p0 h = some h1) : Keeps o h h1 := by
  simp only [sumBwdLoop, Option.bind_eq_bind, Option.bind_eq_some] at hs
  obtain ⟨t0, _, hs⟩ := hs
  exact keeps_forLoop _ (fun i s s1 hi => keeps_sumBwdStep o dt p0 i s s1 hi) _ hs

theorem keeps_meanBwdLoop {o : Nat} (dt : DType) (p0 : Nat) {h h1 : Heap F}
    (hs : meanBwdLoop o dt p0 h = some h1) : Keeps o h h1 := by
  simp only [meanBwdLoop, Option.bind_eq_bind, Option.bind_eq_some] at hs
  obtain ⟨t, _, t0, _, hs⟩ := hs
  split at hs
  · cases hs; exact Keeps.kRefl o h
  · exact keeps_forLoop _ (fun i s s1 hi => keeps_meanBwdStep o dt p0 i s s1 hi) _ hs

theorem keeps_mseBwdLoop {o : Nat} (dt : DType) (p0 : Nat) {h h1 : Heap F}
    (hs : mseBwdLoop o dt p0 h = some h1) : Keeps o h h1 := by
  simp only [mseBwdLoop, Option.bind_eq_bind, Option.bind_eq_some] at hs
  obtain ⟨t0, _, hs⟩ := hs
  exact keeps_forLoop _ (fun i s s1 hi => keeps_mseBwdStep o dt p0 i s s1 hi) _ hs

/-- Every backward rule, whenever it returns, leaves every tensor other than
`out` that owns no gradient buffer as it was. -/
theorem keeps_backwardRules (L : Libm F) (R : Heap F → Option Nat → Option (Heap F))
    (hR : R ∈ backwardRules L) {o : Nat} {h h1 : Heap F} (hs : R h (some o) = some h1) :
    Keeps o h h1 := by
  simp only [backwardRules, List.mem_cons, List.mem_singleton, List.not_mem_nil,
    or_false] at hR
  rcases hR with rfl | rfl | rfl | rfl | rfl | rfl | rfl | rfl | rfl | rfl | rfl | rfl | rfl
    | rfl | rfl
  · exact keeps_add_backward hs
  · exact keeps_sub_backward hs
  · exact keeps_mul_backward hs
  · exact keeps_matmul_backward hs
  · exact keeps_Div_backward L hs
  · exact keeps_unaryBwdSwitchFirst _ (fun dt p i s s1 => keeps_powBwdStep L o dt p i s s1) hs
  · exact keeps_unaryBwdSwitchFirst _ (fun dt p i s s1 => keeps_expBwdStep L o dt p i s s1) hs
  · exact keeps_unaryBwdGateFirst _ _ (fun dt p i s s1 => keeps_reluBwdStep o dt p i s s1) hs
  · exact keeps_unaryBwdGateFirst _ _ (fun dt p i s s1 => keeps_leakyBwdStep o dt p i s s1) hs
  · exact keeps_unaryBwdGateFirst _ _ (fun dt p i s s1 => keeps_tanhBwdStep L o dt p i s s1) hs
  · exact keeps_unaryBwdGateFirst _ _ (fun dt p i s s1 => keeps_sigmoidBwdStep o dt p i s s1) hs
  · exact keeps_unaryBwdGateOut _ _ _ (fun dt p s s1 => keeps_softmaxBwdLoops dt p) hs
  · exact keeps_unaryBwdGateOut _ _ _ (fun dt p s s1 => keeps_sumBwdLoop dt p) hs
  · exact keeps_unaryBwdGateOut _ _ _ (fun dt p s s1 => keeps_meanBwdLoop dt p) hs
  · exact keeps_unaryBwdGateOut _ _ _ (fun dt p s s1 => keeps_mseBwdLoop dt p) hs

/-! ## Results of the forward operations keep the constructor's invariants -/

theorem SameShape.sRefl (t : Tensor F) : SameShape t t := ⟨rfl, rfl, rfl, rfl, rfl, rfl, rfl⟩

theorem SameShape.sTrans {t t1 t2 : Tensor F} (a : SameShape t t1) (b : SameShape t1 t2) :
    SameShape t t2 :=
  ⟨b.dtype_eq.trans a.dtype_eq, b.dims_eq.trans a.dims_eq, b.ndim_eq.trans a.ndim_eq,
    b.size_eq.trans a.size_eq, b.grad_eq.trans a.grad_eq,
    b.requires_grad_eq.trans a.requires_grad_eq, b.len_eq.trans a.len_eq⟩

theorem ShapeOnly.oRefl (h : Heap F) : ShapeOnly h h := fun _ tq hq => ⟨tq, hq, SameShape.sRefl tq⟩

theorem ShapeOnly.oTrans {h1 h2 h3 : Heap F} (a : ShapeOnly h1 h2) (b : ShapeOnly h2 h3) :
    ShapeOnly h1 h3 := by
  intro q tq hq
  obtain ⟨t1, h1q, s1⟩ := a q tq hq
  obtain ⟨t2, h2q, s2⟩ := b q t1 h1q
  exact ⟨t2, h2q, s1.sTrans s2⟩

theorem WellBuilt.of_sameShape {t t1 : Tensor F} (w : WellBuilt t) (s : SameShape t t1) :
    WellBuilt t1 := by
  refine ⟨?_, ?_, ?_, ?_, ?_⟩
  · rw [s.ndim_eq]; exact w.ndim_pos
  · rw [s.dims_eq, s.ndim_eq]; exact w.dims_len
  · rw [s.size_eq, s.dims_eq]; exact w.size_eq
  · rw [s.len_eq, s.size_eq]; exact w.len_eq
  · rw [s.grad_eq, s.dtype_eq, s.requires_grad_eq, s.size_eq]; exact w.grad_eq

theorem bufSet_length {α : Type} {b b1 : List α} {i : Int} {v : α}
    (hs : bufSet b i v = some b1) : b1.length = b.length := by
  unfold bufSet at hs
  split at hs
  · cases hs; simp
  · cases hs

theorem setF_len {d d1 : Data F} {dt : DType} {i : Int} {v : F}
    (hs : d.setF dt i v = some d1) : d1.len = d.len := by
  unfold Data.setF at hs
  split at hs
  · simp only [Option.map_eq_some'] at hs
    obtain ⟨b1, hb, rfl⟩ := hs
    exact bufSet_length hb
  · simp only [Option.map_eq_some'] at hs
    obtain ⟨b1, hb, rfl⟩ := hs
    exact bufSet_length hb
  · cases hs

theorem setI_len {d d1 : Data F} {dt : DType} {i : Int} {v : Int}
    (hs : d.setI dt i v = some d1) : d1.len = d.len := by
  unfold Data.setI at hs
  split at hs
  · simp only [Option.map_eq_some'] at hs
    obtain ⟨b1, hb, rfl⟩ := hs
    exact bufSet_length hb
  · simp only [Option.map_eq_some'] at hs
    obtain ⟨b1, hb, rfl⟩ := hs
    exact bufSet_length hb
  · cases hs

/-- Replacing the struct at `p` by one of the same shape. -/
theorem shapeOnly_store {h : Heap F} {p : Nat} {t t1 : Tensor F} (hp : h.deref p = some t)
    (s : SameShape t t1) : ShapeOnly h (h.store p t1) := by
  intro q tq hq
  by_cases e : q = p
  · subst e
    rw [hp] at hq; cases hq
    exact ⟨t1, deref_store_self _ (deref_eq_some_lt hp), s⟩
  · exact ⟨tq, by rw [deref_store_ne _ e, hq], SameShape.sRefl tq⟩

theorem shapeOnly_wrF {hh hh1 : Heap F} {p : Nat} {dt : DType} {i : Int} {v : F}
    (hw : wrF hh p dt i v = some hh1) : ShapeOnly hh hh1 := by
  simp only [wrF, Option.bind_eq_bind, Option.bind_eq_some] at hw
  obtain ⟨t, ht, d, hd, hw⟩ := hw
  cases hw
  exact shapeOnly_store ht ⟨rfl, rfl, rfl, rfl, rfl, rfl, setF_len hd⟩

theorem shapeOnly_wrI {hh hh1 : Heap F} {p : Nat} {dt : DType} {i : Int} {v : Int}
    (hw : wrI hh p dt i v = some hh1) : ShapeOnly hh hh1 := by
  simp only [wrI, Option.bind_eq_bind, Option.bind_eq_some] at hw
  obtain ⟨t, ht, d, hd, hw⟩ := hw
  cases hw
  exact shapeOnly_store ht ⟨rfl, rfl, rfl, rfl, rfl, rfl, setI_len hd⟩

theorem shapeOnly_link1 {h h1 : Heap F} {t : Nat} {op : Op} {p1 : Nat}
    (hl : link1 h t op p1 = some h1) : ShapeOnly h h1 := by
  simp only [link1, Option.bind_eq_bind, Option.bind_eq_some] at hl
  obtain ⟨tt, ht, hl⟩ := hl
  cases hl
  exact shapeOnly_store ht ⟨rfl, rfl, rfl, rfl, rfl, rfl, rfl⟩

theorem shapeOnly_link1x {h h1 : Heap F} {t : Nat} {op : Op} {p1 : Nat} {x : F}
    (hl : link1x h t op p1 x = some h1) : ShapeOnly h h1 := by
  simp only [link1x, Option.bind_eq_bind, Option.bind_eq_some] at hl
  obtain ⟨tt, ht, hl⟩ := hl
  cases hl
  exact shapeOnly_store ht ⟨rfl, rfl, rfl, rfl, rfl, rfl, rfl⟩

theorem shapeOnly_link2 {h h1 : Heap F} {t : Nat} {op : Op} {p1 p2 : Nat}
    (hl : link2 h t op p1 p2 = some h1) : ShapeOnly h h1 := by
  simp only [link2, Option.bind_eq_bind, Option.bind_eq_some] at hl
  obtain ⟨tt, ht, hl⟩ := hl
  cases hl
  exact shapeOnly_store ht ⟨rfl, rfl, rfl, rfl, rfl, rfl, rfl⟩

theorem shapeOnly_linkSum {h h1 : Heap F} {t : Nat} {p1 : Nat}
    (hl : linkSum h t p1 = some h1) : ShapeOnly h h1 := by
  simp only [linkSum, Option.bind_eq_bind, Option.bind_eq_some] at hl
  obtain ⟨tt, ht, hl⟩ := hl
  cases hl
  exact shapeOnly_store ht ⟨rfl, rfl, rfl, rfl, rfl, rfl, rfl⟩

theorem shapeOnly_loopN (body : Nat → Heap F → Option (Heap F))
    (hb : ∀ i s s1, body i s = some s1 → ShapeOnly s s1) (n : Nat) {s s1 : Heap F}
    (hl : loopN body n s = some s1) : ShapeOnly s s1 := by
  induction n generalizing s1 with
  | zero => cases hl; exact ShapeOnly.oRefl s
  | succ k ih =>
    rw [loopN_succ, Option.bind_eq_some] at hl
    obtain ⟨s2, h1, h2⟩ := hl
    exact (ih h1).oTrans (hb k s2 s1 h2)

theorem shapeOnly_forLoop (body : Nat → Heap F → Option (Heap F))
    (hb : ∀ i s s1, body i s = some s1 → ShapeOnly s s1) (n : Int) {s s1 : Heap F}
    (hl : forLoop n body s = some s1) : ShapeOnly s s1 :=
  shapeOnly_loopN body hb n.toNat hl

theorem copy_dims_some {ds ds1 : List Int} {ndim : Int} (hc : copy_dims ds ndim = some ds1) :
    ndim.toNat ≤ ds.length ∧ ds1 = ds.take ndim.toNat := by
  unfold copy_dims at hc
  split at hc
  · cases hc; exact ⟨by assumption, rfl⟩
  · cases hc

theorem total_size_some {ds : List Int} {ndim v : Int} (hle : ndim.toNat ≤ ds.length)
    (ht : total_size ds ndim = some v) : v = (ds.take ndim.toNat).prod := by
  unfold total_size forLoop at ht
  exact (total_size_loop ds _ v ht).2.1

theorem len_calloc (dt : DType) (n : Nat) : (Data.calloc dt n : Data F).len = n := by
  cases dt <;> simp [Data.calloc, Data.len]

theorem memcpy_some {dt : DType} {src d : Data F} {n : Nat}
    (hm : Data.memcpy dt src n = some d) : src.isOf dt ∧ n ≤ src.len ∧ d = src.take n := by
  unfold Data.memcpy at hm
  split at hm
  all_goals first
    | (split at hm
       · cases hm; exact ⟨trivial, by assumption, rfl⟩
       · cases hm)
    | cases hm

theorem len_take {d : Data F} {n : Nat} (hn : n ≤ d.len) : (d.take n).len = n := by
  cases d <;> simpa [Data.take, Data.len] using hn

theorem grad_mem_init_some {t t1 : Tensor F} (hg : grad_mem_init t = some t1) :
    t1 = { t with grad := t1.grad } ∧
    t1.grad = if t.dtype.isFloat = true ∧ t.requires_grad = bool.true
      then some (List.replicate t.size.toNat 0) else none := by
  unfold grad_mem_init at hg
  cases hrg : t.requires_grad <;> cases hd : t.dtype <;>
    simp [hrg, hd, lnot, bool.toInt, DType.isFloat] at hg ⊢ <;> subst hg <;> simp

/-- The postconditions of the constructor. -/
theorem tensor_built {h h1 : Heap F} {data : Option (Data F)} {dt : DType}
    {dims : Option (List Int)} {ndim : Int} {rg : bool} {t : Nat}
    (ht : tensor h data dt dims ndim rg = some (h1, some t)) :
    ∃ ds tt, dims = some ds ∧ t = h.length ∧ h1 = h ++ [some tt] ∧
      Built data dt ds ndim rg tt := by
  unfold tensor at ht
  cases dims with
  | none => simp at ht
  | some ds =>
    simp only at ht
    split at ht
    · simp at ht
    · rename_i hnd
      simp only [Option.bind_eq_bind, Option.bind_eq_some] at ht
      obtain ⟨size, hsz, dims1, hcd, ht⟩ := ht
      obtain ⟨hle, rfl⟩ := copy_dims_some hcd
      have hsize := total_size_some hle hsz
      split at ht
      · split at ht <;> simp at ht
      · rename_i hneg
        simp only [Option.bind_eq_some] at ht
        obtain ⟨buf, hbuf, t1, ht1, ht⟩ := ht
        simp only [Option.some.injEq, Prod.mk.injEq] at ht
        obtain ⟨rfl, rfl⟩ := ht
        refine ⟨ds, t1, rfl, rfl, rfl, ?_⟩
        have hdata : (data = none → buf = Data.calloc dt size.toNat) ∧
            (∀ src, data = some src → src.isOf dt ∧ size.toNat ≤ src.len ∧
              buf = src.take size.toNat) := by
          cases data with
          | none =>
            simp only [Option.some.injEq] at hbuf
            exact ⟨fun _ => hbuf.symm, fun _ hh => by cases hh⟩
          | some src =>
            refine ⟨(fun hh => nomatch hh), fun s hh => ?_⟩
            cases hh
            exact memcpy_some hbuf
        cases hfl : dt.isFloat with
        | false =>
          simp only [hfl, Bool.false_eq_true, if_false, Option.some.injEq] at ht1
          subst ht1
          exact ⟨by omega, hle, rfl, rfl, rfl, rfl, hsize, not_lt.mp hneg, rfl, rfl, rfl,
            by simp [hfl], hdata.1, hdata.2⟩
        | true =>
          simp only [hfl, if_true] at ht1
          obtain ⟨e1, e2⟩ := grad_mem_init_some ht1
          rw [e1]
          exact ⟨by omega, hle, rfl, rfl, rfl, rfl, hsize, not_lt.mp hneg, rfl, rfl, rfl,
            by simpa [hfl] using e2, hdata.1, hdata.2⟩

theorem Built.toWellBuilt {data : Option (Data F)} {dt : DType} {ds : List Int} {ndim : Int}
    {rg : bool} {t : Tensor F} (b : Built data dt ds ndim rg t) : WellBuilt t := by
  refine ⟨?_, ?_, ?_, ?_, ?_⟩
  · rw [b.ndim_eq]; exact b.ndim_pos
  · rw [b.dims_eq, b.ndim_eq, List.length_take, Nat.min_eq_left b.ndim_le]
    exact Int.toNat_of_nonneg (le_of_lt b.ndim_pos)
  · rw [b.size_eq, b.dims_eq]
  · have hn := Int.toNat_of_nonneg b.size_nonneg
    cases data with
    | none => rw [b.data_null rfl, len_calloc, hn]
    | some src =>
      obtain ⟨_, hle, hd⟩ := b.data_copy src rfl
      rw [hd, len_take hle, hn]
  · rw [b.grad_eq, b.dtype_eq, b.requires_grad_eq]

theorem shapeOnly_binStepF (f : F → F → F) (dt : DType) (t p1 p2 i : Nat) (hh hh1 : Heap F)
    (hs : binStepF f dt t p1 p2 i hh = some hh1) : ShapeOnly hh hh1 := by
  simp only [binStepF, Option.bind_eq_bind, Option.bind_eq_some] at hs
  repeat (obtain ⟨_, _, hs⟩ := hs)
  exact shapeOnly_wrF hs

theorem shapeOnly_binStepI (f : Int → Int → Int) (dt : DType) (t p1 p2 i : Nat)
    (hh hh1 : Heap F) (hs : binStepI f dt t p1 p2 i hh = some hh1) : ShapeOnly hh hh1 := by
  simp only [binStepI, Option.bind_eq_bind, Option.bind_eq_some] at hs
  repeat (obtain ⟨_, _, hs⟩ := hs)
  exact shapeOnly_wrI hs

theorem shapeOnly_subStepF32 (t p1 p2 i : Nat) (hh hh1 : Heap F)
    (hs : subStepF32 t p1 p2 i hh = some hh1) : ShapeOnly hh hh1 := by
  simp only [subStepF32, Option.bind_eq_bind, Option.bind_eq_some] at hs
  repeat (obtain ⟨_, _, hs⟩ := hs)
  exact shapeOnly_wrF hs

theorem shapeOnly_divStepF (dt : DType) (t p1 p2 i : Nat) (hh hh1 : Heap F)
    (hs : divStepF dt t p1 p2 i hh = some hh1) : ShapeOnly hh hh1 := by
  simp only [divStepF, Option.bind_eq_bind, Option.bind_eq_some] at hs
  repeat (obtain ⟨_, _, hs⟩ := hs)
  exact shapeOnly_wrF hs

theorem shapeOnly_divStepI (L : Libm F) (dt : DType) (t p1 p2 i : Nat)
    (hh hh1 : Heap F) (hs : divStepI L dt t p1 p2 i hh = some hh1) : ShapeOnly hh hh1 := by
  simp only [divStepI, Option.bind_eq_bind, Option.bind_eq_some] at hs
  repeat (obtain ⟨_, _, hs⟩ := hs)
  exact shapeOnly_wrI hs

theorem shapeOnly_matmulStepF (dt : DType) (t p1 p2 : Nat) (n l : Int) (i j k : Nat)
    (hh hh1 : Heap F) (hs : matmulStepF dt t p1 p2 n l i j k hh = some hh1) :
    ShapeOnly hh hh1 := by
  simp only [matmulStepF, Option.bind_eq_bind, Option.bind_eq_some] at hs
  repeat (obtain ⟨_, _, hs⟩ := hs)
  exact shapeOnly_wrF hs

theorem shapeOnly_matmulStepI (dt : DType) (t p1 p2 : Nat) (n l : Int) (i j k : Nat)
    (hh hh1 : Heap F) (hs : matmulStepI dt t p1 p2 n l i j k hh = some hh1) :
    ShapeOnly hh hh1 := by
  simp only [matmulStepI, Option.bind_eq_bind, Option.bind_eq_some] at hs
  repeat (obtain ⟨_, _, hs⟩ := hs)
  exact shapeOnly_wrI hs

theorem shapeOnly_matmulLoops (step : Nat → Nat → Nat → Heap F → Option (Heap F))
    (hb : ∀ i j k s s1, step i j k s = some s1 → ShapeOnly s s1) (m n l : Int)
    {h h1 : Heap F} (hs : matmulLoops step m n l h = some h1) : ShapeOnly h h1 :=
  shapeOnly_forLoop _ (fun i _ _ hi => shapeOnly_forLoop _ (fun j _ _ hj =>
    shapeOnly_forLoop _ (fun k _ _ hk => hb i j k _ _ hk) _ hj) _ hi) _ hs

theorem shapeOnly_reluStepF (dt : DType) (t p1 i : Nat) (hh hh1 : Heap F)
    (hs : reluStepF dt t p1 i hh = some hh1) : ShapeOnly hh hh1 := by
  simp only [reluStepF, Option.bind_eq_bind, Option.bind_eq_some] at hs
  repeat (obtain ⟨_, _, hs⟩ := hs)
  exact shapeOnly_wrF hs

theorem shapeOnly_reluStepI (dt : DType) (t p1 i : Nat) (hh hh1 : Heap F)
    (hs : reluStepI dt t p1 i hh = some hh1) : ShapeOnly hh hh1 := by
  simp only [reluStepI, Option.bind_eq_bind, Option.bind_eq_some] at hs
  repeat (obtain ⟨_, _, hs⟩ := hs)
  exact shapeOnly_wrI hs

theorem shapeOnly_powStepF (L : Libm F) (e : F) (dt : DType) (t p1 i : Nat) (hh hh1 : Heap F)
    (hs : powStepF L e dt t p1 i hh = some hh1) : ShapeOnly hh hh1 := by
  simp only [powStepF, Option.bind_eq_bind, Option.bind_eq_some] at hs
  repeat (obtain ⟨_, _, hs⟩ := hs)
  exact shapeOnly_wrF hs

theorem shapeOnly_powStepI (L : Libm F) (cvt : F → Int) (e : F) (dt : DType) (t p1 i : Nat)
    (hh hh1 : Heap F) (hs : powStepI L cvt e dt t p1 i hh = some hh1) : ShapeOnly hh hh1 := by
  simp only [powStepI, Option.bind_eq_bind, Option.bind_eq_some] at hs
  repeat (obtain ⟨_, _, hs⟩ := hs)
  exact shapeOnly_wrI hs

theorem shapeOnly_expStepF (L : Libm F) (dt : DType) (t p1 i : Nat) (hh hh1 : Heap F)
    (hs : expStepF L dt t p1 i hh = some hh1) : ShapeOnly hh hh1 := by
  simp only [expStepF, Option.bind_eq_bind, Option.bind_eq_some] at hs
  repeat (obtain ⟨_, _, hs⟩ := hs)
  exact shapeOnly_wrF hs

theorem shapeOnly_expStepI (L : Libm F) (dt : DType) (t p1 i : Nat)
    (hh hh1 : Heap F) (hs : expStepI L dt t p1 i hh = some hh1) : ShapeOnly hh hh1 := by
  simp only [expStepI, Option.bind_eq_bind, Option.bind_eq_some] at hs
  repeat (obtain ⟨_, _, hs⟩ := hs)
  exact shapeOnly_wrI hs

theorem shapeOnly_leakyStepF (s : F) (dt : DType) (t p1 i : Nat) (hh hh1 : Heap F)
    (hs : leakyStepF s dt t p1 i hh = some hh1) : ShapeOnly hh hh1 := by
  simp only [leakyStepF, Option.bind_eq_bind, Option.bind_eq_some] at hs
  repeat (obtain ⟨_, _, hs⟩ := hs)
  exact shapeOnly_wrF hs

theorem shapeOnly_tanhStepF (L : Libm F) (dt : DType) (t p1 i : Nat) (hh hh1 : Heap F)
    (hs : tanhStepF L dt t p1 i hh = some hh1) : ShapeOnly hh hh1 := by
  simp only [tanhStepF, Option.bind_eq_bind, Option.bind_eq_some] at hs
  repeat (obtain ⟨_, _, hs⟩ := hs)
  exact shapeOnly_wrF hs

theorem shapeOnly_tanhStepI (L : Libm F) (dt : DType) (t p1 i : Nat)
    (hh hh1 : Heap F) (hs : tanhStepI L dt t p1 i hh = some hh1) : ShapeOnly hh hh1 := by
  simp only [tanhStepI, Option.bind_eq_bind, Option.bind_eq_some] at hs
  repeat (obtain ⟨_, _, hs⟩ := hs)
  exact shapeOnly_wrI hs

theorem shapeOnly_sigmoidStepI (L : Libm F) (dt : DType) (t p1 i : Nat)
    (hh hh1 : Heap F) (hs : sigmoidStepI L dt t p1 i hh = some hh1) : ShapeOnly hh hh1 := by
  simp only [sigmoidStepI, Option.bind_eq_bind, Option.bind_eq_some] at hs
  repeat (obtain ⟨_, _, hs⟩ := hs)
  exact shapeOnly_wrI hs

theorem shapeOnly_sigmoidStepF (L : Libm F) (dt : DType) (t p1 i : Nat) (hh hh1 : Heap F)
    (hs : sigmoidStepF L dt t p1 i hh = some hh1) : ShapeOnly hh hh1 := by
  simp only [sigmoidStepF, Option.bind_eq_bind, Option.bind_eq_some] at hs
  repeat (obtain ⟨_, _, hs⟩ := hs)
  exact shapeOnly_wrF hs

theorem shapeOnly_sumStepF (dt : DType) (t p1 i : Nat) (hh hh1 : Heap F)
    (hs : sumStepF dt t p1 i hh = some hh1) : ShapeOnly hh hh1 := by
  simp only [sumStepF, Option.bind_eq_bind, Option.bind_eq_some] at hs
  repeat (obtain ⟨_, _, hs⟩ := hs)
  exact shapeOnly_wrF hs

theorem shapeOnly_sumStepI (dt : DType) (t p1 i : Nat) (hh hh1 : Heap F)
    (hs : sumStepI dt t p1 i hh = some hh1) : ShapeOnly hh hh1 := by
  simp only [sumStepI, Option.bind_eq_bind, Option.bind_eq_some] at hs
  repeat (obtain ⟨_, _, hs⟩ := hs)
  exact shapeOnly_wrI hs

theorem shapeOnly_meanF (dt : DType) (t p1 : Nat) (size : Int) {h h1 : Heap F}
    (hs : meanF dt t p1 size h = some h1) : ShapeOnly h h1 := by
  simp only [meanF, Option.bind_eq_bind, Option.bind_eq_some] at hs
  obtain ⟨h2, hl, _, _, hw⟩ := hs
  exact (shapeOnly_forLoop _ (shapeOnly_sumStepF dt t p1) _ hl).oTrans (shapeOnly_wrF hw)

theorem shapeOnly_mseStepF (L : Libm F) (dt : DType) (t pp pt i : Nat) (hh hh1 : Heap F)
    (hs : mseStepF L dt t pp pt i hh = some hh1) : ShapeOnly hh hh1 := by
  simp only [mseStepF, Option.bind_eq_bind, Option.bind_eq_some] at hs
  repeat (obtain ⟨_, _, hs⟩ := hs)
  exact shapeOnly_wrF hs

theorem shapeOnly_mseF (L : Libm F) (dt : DType) (t pp pt : Nat) (size : Int) {h h1 : Heap F}
    (hs : mseF L dt t pp pt size h = some h1) : ShapeOnly h h1 := by
  simp only [mseF, Option.bind_eq_bind, Option.bind_eq_some] at hs
  obtain ⟨h2, hl, _, _, hw⟩ := hs
  exact (shapeOnly_forLoop _ (shapeOnly_mseStepF L dt t pp pt) _ hl).oTrans (shapeOnly_wrF hw)

theorem shapeOnly_softmaxF (L : Libm F) (dt : DType) (t p1 : Nat) (size : Int) {h h1 : Heap F}
    (hs : softmaxF L dt t p1 size h = some h1) : ShapeOnly h h1 := by
  simp only [softmaxF, Option.bind_eq_bind, Option.bind_eq_some] at hs
  obtain ⟨_, _, _, _, exs, _, hl⟩ := hs
  refine shapeOnly_forLoop _ (fun i s s1 hi => ?_) _ hl
  simp only [Option.bind_eq_some] at hi
  obtain ⟨_, _, hw⟩ := hi
  exact shapeOnly_wrF hw

/-- The struct a forward operation returns: built by `tensor`, then changed
only in its element values and its graph links. -/
theorem fwd_result {h : Heap F} {dt : DType} {ds : List Int} {ndim : Int} {rg : bool}
    {r : Heap F × Option Nat} {t : Nat} {h3 : Heap F}
    (ht : tensor h none dt (some ds) ndim rg = some r) (hr : r.2 = some t)
    (hS : ShapeOnly r.1 h3) :
    ∃ tt, h3.deref t = some tt ∧ WellBuilt tt ∧ tt.requires_grad = rg ∧ tt.dtype = dt ∧
      tt.dims = ds.take ndim.toNat := by
  obtain ⟨r1, r2⟩ := r
  simp only at hr hS
  subst hr
  obtain ⟨ds', tt, hds, rfl, rfl, b⟩ := tensor_built ht
  cases hds
  obtain ⟨tt1, h1, s⟩ := hS h.length tt (deref_append_new h tt)
  exact ⟨tt1, h1, b.toWellBuilt.of_sameShape s, s.requires_grad_eq.trans b.requires_grad_eq,
    s.dtype_eq.trans b.dtype_eq, s.dims_eq.trans b.dims_eq⟩

theorem add_result {h h1 : Heap F} {a b t : Nat}
    (hs : add h (some a) (some b) = some (h1, some t)) :
    BinRes h a b h1 t ∧ ∃ ta tb tt, h.deref a = some ta ∧ h.deref b = some tb ∧
      h1.deref t = some tt ∧ ta.ndim = tb.ndim ∧
      dimsDiffer ta.dims tb.dims ta.ndim = some false ∧ tt.dims = ta.dims.take ta.ndim.toNat := by
  simp only [add, Option.bind_eq_bind, Option.bind_eq_some] at hs
  obtain ⟨ta, ha, tb, hb, hs⟩ := hs
  split at hs
  · simp at hs
  · rename_i hnd
    simp only [Option.bind_eq_some] at hs
    obtain ⟨df, hdf, hs⟩ := hs
    split at hs
    · simp at hs
    · rename_i hdf'
      simp only [Option.bind_eq_some] at hs
      obtain ⟨r, hr, t', ht', h2, hl, h3, hk, hs⟩ := hs
      simp only [Option.some.injEq, Prod.mk.injEq] at hs
      obtain ⟨rfl, rfl⟩ := hs
      have hS : ShapeOnly r.1 h3 := by
        refine ShapeOnly.oTrans ?_ (shapeOnly_link2 hk)
        split at hl
        · exact shapeOnly_forLoop _ (shapeOnly_binStepF _ _ _ _ _) _ hl
        · exact shapeOnly_forLoop _ (shapeOnly_binStepF _ _ _ _ _) _ hl
        · exact shapeOnly_forLoop _ (shapeOnly_binStepI _ _ _ _ _) _ hl
        · exact shapeOnly_forLoop _ (shapeOnly_binStepI _ _ _ _ _) _ hl
      obtain ⟨tt, h1t, w, hrg, hdt, hdm⟩ := fwd_result hr ht' hS
      push_neg at hnd
      have hdf2 : df = false := by simpa using hdf'
      subst hdf2
      exact ⟨⟨ta, tb, tt, ha, hb, h1t, w, hnd.2, hdt, hrg⟩,
        ta, tb, tt, ha, hb, h1t, hnd.1, hdf, hdm⟩

theorem sub_result {h h1 : Heap F} {a b t : Nat}
    (hs : sub h (some a) (some b) = some (h1, some t)) :
    BinRes h a b h1 t ∧ ∃ ta tb tt, h.deref a = some ta ∧ h.deref b = some tb ∧
      h1.deref t = some tt ∧ ta.ndim = tb.ndim ∧
      dimsDiffer ta.dims tb.dims ta.ndim = some false ∧ tt.dims = ta.dims.take ta.ndim.toNat := by
  simp only [sub, Option.bind_eq_bind, Option.bind_eq_some] at hs
  obtain ⟨ta, ha, tb, hb, hs⟩ := hs
  split at hs
  · simp at hs
  · rename_i hnd
    simp only [Option.bind_eq_some] at hs
    obtain ⟨df, hdf, hs⟩ := hs
    split at hs
    · simp at hs
    · rename_i hdf'
      push_neg at hnd
      have hdf2 : df = false := by simpa using hdf'
      subst hdf2
      simp only [Option.bind_eq_some] at hs
      obtain ⟨r, hr, t', ht', hs⟩ := hs
      have fin : ∀ h3, ShapeOnly r.1 h3 → t' = t → h3 = h1 →
          BinRes h a b h1 t ∧ ∃ ta tb tt, h.deref a = some ta ∧ h.deref b = some tb ∧
            h1.deref t = some tt ∧ ta.ndim = tb.ndim ∧
            dimsDiffer ta.dims tb.dims ta.ndim = some false ∧
            tt.dims = ta.dims.take ta.ndim.toNat := by
        intro h3 hS e1 e2
        subst e1; subst e2
        obtain ⟨tt, h1t, w, hrg, hdt, hdm⟩ := fwd_result hr ht' hS
        exact ⟨⟨ta, tb, tt, ha, hb, h1t, w, hnd.2, hdt, hrg⟩,
          ta, tb, tt, ha, hb, h1t, hnd.1, hdf, hdm⟩
      split at hs
      · simp only [Option.bind_eq_some] at hs
        obtain ⟨h2, hl, h3, hk, hs⟩ := hs
        simp only [Option.some.injEq, Prod.mk.injEq] at hs
        exact fin h3 ((shapeOnly_forLoop _ (shapeOnly_subStepF32 _ _ _) _ hl).oTrans
          (shapeOnly_link2 hk)) hs.2 hs.1
      · simp only [Option.bind_eq_some] at hs
        obtain ⟨h2, hl, h3, hk, hs⟩ := hs
        simp only [Option.some.injEq, Prod.mk.injEq] at hs
        exact fin h3 ((shapeOnly_forLoop _ (shapeOnly_binStepF _ _ _ _ _) _ hl).oTrans
          (shapeOnly_link2 hk)) hs.2 hs.1
      · simp only [Option.bind_eq_some] at hs
        obtain ⟨h2, hl, h3, hk, hs⟩ := hs
        simp only [Option.some.injEq, Prod.mk.injEq] at hs
        exact fin h3 ((shapeOnly_forLoop _ (shapeOnly_binStepI _ _ _ _ _) _ hl).oTrans
          (shapeOnly_link2 hk)) hs.2 hs.1
      · simp only [Option.bind_eq_some] at hs
        obtain ⟨h2, hl, h3, hk, hs⟩ := hs
        simp at hs

theorem mul_result {h h1 : Heap F} {a b t : Nat}
    (hs : mul h (some a) (some b) = some (h1, some t)) :
    BinRes h a b h1 t ∧ ∃ ta tb tt, h.deref a = some ta ∧ h.deref b = some tb ∧
      h1.deref t = some tt ∧ ta.ndim = tb.ndim ∧
      dimsDiffer ta.dims tb.dims ta.ndim = some false ∧ tt.dims = ta.dims.take ta.ndim.toNat := by
  simp only [mul, Option.bind_eq_bind, Option.bind_eq_some] at hs
  obtain ⟨ta, ha, tb, hb, hs⟩ := hs
  split at hs
  · simp at hs
  · rename_i hnd
    simp only [Option.bind_eq_some] at hs
    obtain ⟨df, hdf, hs⟩ := hs
    split at hs
    · simp at hs
    · rename_i hdf'
      push_neg at hnd
      have hdf2 : df = false := by simpa using hdf'
      subst hdf2
      simp only [Option.bind_eq_some] at hs
      obtain ⟨r, hr, t', ht', hs⟩ := hs
      have fin : ∀ h3, ShapeOnly r.1 h3 → t' = t → h3 = h1 →
          BinRes h a b h1 t ∧ ∃ ta tb tt, h.deref a = some ta ∧ h.deref b = some tb ∧
            h1.deref t = some tt ∧ ta.ndim = tb.ndim ∧
            dimsDiffer ta.dims tb.dims ta.ndim = some false ∧
            tt.dims = ta.dims.take ta.ndim.toNat := by
        intro h3 hS e1 e2
        subst e1; subst e2
        obtain ⟨tt, h1t, w, hrg, hdt, hdm⟩ := fwd_result hr ht' hS
        exact ⟨⟨ta, tb, tt, ha, hb, h1t, w, hnd.2, hdt, hrg⟩,
          ta, tb, tt, ha, hb, h1t, hnd.1, hdf, hdm⟩
      split at hs
      · simp only [Option.bind_eq_some] at hs
        obtain ⟨h2, hl, h3, hk, hs⟩ := hs
        simp only [Option.some.injEq, Prod.mk.injEq] at hs
        exact fin h3 ((shapeOnly_forLoop _ (shapeOnly_binStepF _ _ _ _ _) _ hl).oTrans
          (shapeOnly_link2 hk)) hs.2 hs.1
      · simp only [Option.bind_eq_some] at hs
        obtain ⟨h2, hl, h3, hk, hs⟩ := hs
        simp only [Option.some.injEq, Prod.mk.injEq] at hs
        exact fin h3 ((shapeOnly_forLoop _ (shapeOnly_binStepF _ _ _ _ _) _ hl).oTrans
          (shapeOnly_link2 hk)) hs.2 hs.1
      · simp only [Option.bind_eq_some] at hs
        obtain ⟨h2, hl, h3, hk, hs⟩ := hs
        simp only [Option.some.injEq, Prod.mk.injEq] at hs
        exact fin h3 ((shapeOnly_forLoop _ (shapeOnly_binStepI _ _ _ _ _) _ hl).oTrans
          (shapeOnly_link2 hk)) hs.2 hs.1
      · simp only [Option.bind_eq_some] at hs
        obtain ⟨h2, hl, h3, hk, hs⟩ := hs
        simp at hs

theorem Div_result (L : Libm F) {h h1 : Heap F} {a b t : Nat}
    (hs : Div L h (some a) (some b) = some (h1, some t)) :
    BinRes h a b h1 t ∧ ∃ ta tb tt, h.deref a = some ta ∧ h.deref b = some tb ∧
      h1.deref t = some tt ∧ ta.ndim = tb.ndim ∧
      dimsDiffer ta.dims tb.dims ta.ndim = some false ∧ tt.dims = ta.dims.take ta.ndim.toNat := by
  simp only [Div, Option.bind_eq_bind, Option.bind_eq_some] at hs
  obtain ⟨ta, ha, tb, hb, hs⟩ := hs
  split at hs
  · simp at hs
  · rename_i hnd
    simp only [Option.bind_eq_some] at hs
    obtain ⟨df, hdf, hs⟩ := hs
    split at hs
    · simp at hs
    · rename_i hdf'
      push_neg at hnd
      have hdf2 : df = false := by simpa using hdf'
      subst hdf2
      simp only [Option.bind_eq_some] at hs
      obtain ⟨r, hr, hs⟩ := hs
      split at hs
      · simp at hs
      · rename_i t' ht'
        simp only [Option.bind_eq_some] at hs
        obtain ⟨h2, hl, h3, hk, hs⟩ := hs
        simp only [Option.some.injEq, Prod.mk.injEq] at hs
        obtain ⟨rfl, rfl⟩ := hs
        have hS : ShapeOnly r.1 h3 := by
          refine ShapeOnly.oTrans ?_ (shapeOnly_link2 hk)
          split at hl
          · exact shapeOnly_forLoop _ (shapeOnly_divStepF _ _ _ _) _ hl
          · exact shapeOnly_forLoop _ (shapeOnly_divStepF _ _ _ _) _ hl
          · exact shapeOnly_forLoop _ (shapeOnly_divStepI L _ _ _ _) _ hl
          · exact shapeOnly_forLoop _ (shapeOnly_divStepI L _ _ _ _) _ hl
        obtain ⟨tt, h1t, w, hrg, hdt, hdm⟩ := fwd_result hr ht' hS
        exact ⟨⟨ta, tb, tt, ha, hb, h1t, w, hnd.1, hdt, hrg⟩,
          ta, tb, tt, ha, hb, h1t, hnd.2, hdf, hdm⟩

theorem matmul_result {h h1 : Heap F} {a b t : Nat}
    (hs : matmul h (some a) (some b) = some (h1, some t)) :
    BinRes h a b h1 t ∧ ∃ ta tb tt m n l, h.deref a = some ta ∧ h.deref b = some tb ∧
      h1.deref t = some tt ∧ ta.dims[0]? = some m ∧ tb.dims[1]? = some n ∧
      ta.dims[1]? = some l ∧ tb.dims[0]? = some l ∧
      tt.dims = [m, n].take ta.ndim.toNat := by
  simp only [matmul, Option.bind_eq_bind, Option.bind_eq_some] at hs
  obtain ⟨ta, ha, tb, hb, m, hm, n, hn, l, hl', b0, hb0, hs⟩ := hs
  split at hs
  · simp at hs
  · rename_i hnd
    push_neg at hnd
    simp only [Option.bind_eq_some] at hs
    obtain ⟨r, hr, hs⟩ := hs
    split at hs
    · simp at hs
    · rename_i t' ht'
      simp only [Option.bind_eq_some] at hs
      obtain ⟨h2, hl, h3, hk, hs⟩ := hs
      simp only [Option.some.injEq, Prod.mk.injEq] at hs
      obtain ⟨rfl, rfl⟩ := hs
      have hS : ShapeOnly r.1 h3 := by
        refine ShapeOnly.oTrans ?_ (shapeOnly_link2 hk)
        split at hl
        · exact shapeOnly_matmulLoops _ (shapeOnly_matmulStepF _ _ _ _ _ _) _ _ _ hl
        · exact shapeOnly_matmulLoops _ (shapeOnly_matmulStepF _ _ _ _ _ _) _ _ _ hl
        · exact shapeOnly_matmulLoops _ (shapeOnly_matmulStepI _ _ _ _ _ _) _ _ _ hl
        · exact shapeOnly_matmulLoops _ (shapeOnly_matmulStepI _ _ _ _ _ _) _ _ _ hl
      obtain ⟨tt, h1t, w, hrg, hdt, hdm⟩ := fwd_result hr ht' hS
      exact ⟨⟨ta, tb, tt, ha, hb, h1t, w, hnd.2, hdt, hrg⟩,
        ta, tb, tt, m, n, l, ha, hb, h1t, hm, hn, hl', by rw [hb0, hnd.1], hdm⟩

/-- The result of `MSELoss`: its tracking flag is that of `yPred` alone. -/
theorem MSELoss_result (L : Libm F) {h h1 : Heap F} {yt yp t : Nat}
    (hs : MSELoss L h (some yt) (some yp) = some (h1, some t)) :
    ∃ ta tb tt, h.deref yt = some ta ∧ h.deref yp = some tb ∧ h1.deref t = some tt ∧
      WellBuilt tt ∧ ta.dtype = tb.dtype ∧ tt.dtype = tb.dtype ∧
      tt.requires_grad = condBool (lnot tb.requires_grad) ∧ tt.dims = [1] ∧
      ta.ndim = tb.ndim ∧ dimsDiffer ta.dims tb.dims tb.ndim = some false ∧
      tb.dtype.isFloat = true := by
  simp only [MSELoss, Option.bind_eq_bind, Option.bind_eq_some] at hs
  obtain ⟨ta, ha, tb, hb, hs⟩ := hs
  split at hs
  · simp at hs
  · rename_i hnd
    simp only [Option.bind_eq_some] at hs
    obtain ⟨df, hdf, hs⟩ := hs
    split at hs
    · simp at hs
    · rename_i hdf'
      push_neg at hnd
      have hdf2 : df = false := by simpa using hdf'
      subst hdf2
      simp only [Option.bind_eq_some] at hs
      obtain ⟨r, hr, hs⟩ := hs
      split at hs
      · simp at hs
      · rename_i t' ht'
        have fin : ∀ h3, ShapeOnly r.1 h3 → t' = t → h3 = h1 → tb.dtype.isFloat = true →
            ∃ ta tb tt, h.deref yt = some ta ∧ h.deref yp = some tb ∧ h1.deref t = some tt ∧
              WellBuilt tt ∧ ta.dtype = tb.dtype ∧ tt.dtype = tb.dtype ∧
              tt.requires_grad = condBool (lnot tb.requires_grad) ∧ tt.dims = [1] ∧
              ta.ndim = tb.ndim ∧ dimsDiffer ta.dims tb.dims tb.ndim = some false ∧
              tb.dtype.isFloat = true := by
          intro h3 hS e1 e2 hfl
          subst e1; subst e2
          obtain ⟨tt, h1t, w, hrg, hdt, hdm⟩ := fwd_result hr ht' hS
          exact ⟨ta, tb, tt, ha, hb, h1t, w, hnd.2.symm, hdt, hrg, by simpa using hdm, hnd.1,
            hdf, hfl⟩
        split at hs
        · rename_i hd
          simp only [Option.bind_eq_some] at hs
          obtain ⟨h2, hl, h3, hk, hs⟩ := hs
          simp only [Option.some.injEq, Prod.mk.injEq] at hs
          exact fin h3 ((shapeOnly_mseF _ _ _ _ _ _ hl).oTrans (shapeOnly_link2 hk)) hs.2 hs.1
            (by rw [hd]; rfl)
        · rename_i hd
          simp only [Option.bind_eq_some] at hs
          obtain ⟨h2, hl, h3, hk, hs⟩ := hs
          simp only [Option.some.injEq, Prod.mk.injEq] at hs
          exact fin h3 ((shapeOnly_mseF _ _ _ _ _ _ hl).oTrans (shapeOnly_link2 hk)) hs.2 hs.1
            (by rw [hd]; rfl)
        · simp only [Option.bind_eq_some] at hs
          obtain ⟨h2, hl, hs⟩ := hs
          simp at hs

theorem unaryForward_result
    (stepF stepI : DType → Nat → Nat → Nat → Heap F → Option (Heap F))
    (close : Heap F → Nat → Nat → Option (Heap F))
    (hF : ∀ dt t p i s s1, stepF dt t p i s = some s1 → ShapeOnly s s1)
    (hI : ∀ dt t p i s s1, stepI dt t p i s = some s1 → ShapeOnly s s1)
    (hC : ∀ s t p s1, close s t p = some s1 → ShapeOnly s s1)
    {h h1 : Heap F} {a t : Nat}
    (hs : unaryForward stepF stepI close h (some a) = some (h1, some t)) :
    UnRes h a h1 t ∧ ∃ ta tt, h.deref a = some ta ∧ h1.deref t = some tt ∧
      tt.dims = ta.dims.take ta.ndim.toNat := by
  simp only [unaryForward, Option.bind_eq_bind, Option.bind_eq_some] at hs
  obtain ⟨ta, ha, r, hr, hs⟩ := hs
  split at hs
  · simp at hs
  · rename_i t' ht'
    simp only [Option.bind_eq_some] at hs
    obtain ⟨h2, hl, h3, hk, hs⟩ := hs
    simp only [Option.some.injEq, Prod.mk.injEq] at hs
    obtain ⟨rfl, rfl⟩ := hs
    have hS : ShapeOnly r.1 h3 := by
      refine ShapeOnly.oTrans ?_ (hC _ _ _ _ hk)
      split at hl
      · exact shapeOnly_forLoop _ (hF _ _ _) _ hl
      · exact shapeOnly_forLoop _ (hF _ _ _) _ hl
      · exact shapeOnly_forLoop _ (hI _ _ _) _ hl
      · exact shapeOnly_forLoop _ (hI _ _ _) _ hl
    obtain ⟨tt, h1t, w, hrg, hdt, hdm⟩ := fwd_result hr ht' hS
    exact ⟨⟨ta, tt, ha, h1t, w, hdt, hrg⟩, ta, tt, ha, h1t, hdm⟩

theorem Pow_result (L : Libm F) (cvt : F → Int) (e : F) {h h1 : Heap F} {a t : Nat}
    (hs : Pow L cvt h (some a) e = some (h1, some t)) :
    UnRes h a h1 t ∧ ∃ ta tt, h.deref a = some ta ∧ h1.deref t = some tt ∧
      tt.dims = ta.dims.take ta.ndim.toNat :=
  unaryForward_result _ _ _ (shapeOnly_powStepF L e) (shapeOnly_powStepI L cvt e)
    (fun _ _ _ _ hk => shapeOnly_link1x hk) hs

theorem Exp_result (L : Libm F) {h h1 : Heap F} {a t : Nat}
    (hs : Exp L h (some a) = some (h1, some t)) :
    UnRes h a h1 t ∧ ∃ ta tt, h.deref a = some ta ∧ h1.deref t = some tt ∧
      tt.dims = ta.dims.take ta.ndim.toNat :=
  unaryForward_result _ _ _ (shapeOnly_expStepF L) (shapeOnly_expStepI L)
    (fun _ _ _ _ hk => shapeOnly_link1 hk) hs

theorem Tanh_result (L : Libm F) {h h1 : Heap F} {a t : Nat}
    (hs : Tanh L h (some a) = some (h1, some t)) :
    UnRes h a h1 t ∧ ∃ ta tt, h.deref a = some ta ∧ h1.deref t = some tt ∧
      tt.dims = ta.dims.take ta.ndim.toNat :=
  unaryForward_result _ _ _ (shapeOnly_tanhStepF L) (shapeOnly_tanhStepI L)
    (fun _ _ _ _ hk => shapeOnly_link1 hk) hs

theorem Sigmoid_result (L : Libm F) {h h1 : Heap F} {a t : Nat}
    (hs : Sigmoid L h (some a) = some (h1, some t)) :
    UnRes h a h1 t ∧ ∃ ta tt, h.deref a = some ta ∧ h1.deref t = some tt ∧
      tt.dims = ta.dims.take ta.ndim.toNat :=
  unaryForward_result _ _ _ (shapeOnly_sigmoidStepF L) (shapeOnly_sigmoidStepI L)
    (fun _ _ _ _ hk => shapeOnly_link1 hk) hs

theorem relu_result {h h1 : Heap F} {a t : Nat}
    (hs : relu h (some a) = some (h1, some t)) :
    UnRes h a h1 t ∧ ∃ ta tt, h.deref a = some ta ∧ h1.deref t = some tt ∧
      tt.dims = ta.dims.take ta.ndim.toNat := by
  simp only [relu, Option.bind_eq_bind, Option.bind_eq_some] at hs
  obtain ⟨ta, ha, r, hr, hs⟩ := hs
  split at hs
  · simp at hs
  · rename_i t' ht'
    simp only [Option.bind_eq_some] at hs
    obtain ⟨h2, hl, h3, hk, hs⟩ := hs
    simp only [Option.some.injEq, Prod.mk.injEq] at hs
    obtain ⟨rfl, rfl⟩ := hs
    have hS : ShapeOnly r.1 h3 := by
      refine ShapeOnly.oTrans ?_ (shapeOnly_link1 hk)
      split at hl
      · exact shapeOnly_forLoop _ (shapeOnly_reluStepF _ _ _) _ hl
      · exact shapeOnly_forLoop _ (shapeOnly_reluStepF _ _ _) _ hl
      · exact shapeOnly_forLoop _ (shapeOnly_reluStepI _ _ _) _ hl
      · exact shapeOnly_forLoop _ (shapeOnly_reluStepI _ _ _) _ hl
    obtain ⟨tt, h1t, w, hrg, hdt, hdm⟩ := fwd_result hr ht' hS
    exact ⟨⟨ta, tt, ha, h1t, w, hdt, hrg⟩, ta, tt, ha, h1t, hdm⟩

/-- The result of a one-operand operation that rejects the integer types. -/
theorem floatOnly_result {h h1 : Heap F} {a t : Nat} {ta : Tensor F} {ds : List Int}
    {ndim : Int} {r : Heap F × Option Nat} {t' : Nat}
    (ha : h.deref a = some ta)
    (hr : tensor h none ta.dtype (some ds) ndim (condBool (lnot ta.requires_grad)) = some r)
    (ht' : r.2 = some t')
    (body : DType → Heap F → Option (Heap F)) (close : Heap F → Option (Heap F))
    (hB : ∀ dt s s1, body dt s = some s1 → ShapeOnly s s1)
    (hC : ∀ s s1, close s = some s1 → ShapeOnly s s1)
    (hs : (match ta.dtype with
      | .FLOAT32 => (body .FLOAT32 r.1).bind fun h2 => (close h2).bind fun h3 =>
          some (h3, some t')
      | .FLOAT64 => (body .FLOAT64 r.1).bind fun h2 => (close h2).bind fun h3 =>
          some (h3, some t')
      | _ => (t_free r.1 (some t')).bind fun h2 => some (h2, none)) = some (h1, some t)) :
    UnRes h a h1 t ∧ ta.dtype.isFloat = true ∧ ∃ tt, h1.deref t = some tt ∧
      tt.dims = ds.take ndim.toNat := by
  have fin : ∀ h3, ShapeOnly r.1 h3 → t' = t → h3 = h1 → ta.dtype.isFloat = true →
      UnRes h a h1 t ∧ ta.dtype.isFloat = true ∧ ∃ tt, h1.deref t = some tt ∧
        tt.dims = ds.take ndim.toNat := by
    intro h3 hS e1 e2 hfl
    subst e1; subst e2
    obtain ⟨tt, h1t, w, hrg, hdt, hdm⟩ := fwd_result hr ht' hS
    exact ⟨⟨ta, tt, ha, h1t, w, hdt, hrg⟩, hfl, tt, h1t, hdm⟩
  split at hs
  · rename_i hd
    simp only [Option.bind_eq_some] at hs
    obtain ⟨h2, hl, h3, hk, hs⟩ := hs
    simp only [Option.some.injEq, Prod.mk.injEq] at hs
    exact fin h3 ((hB _ _ _ hl).oTrans (hC _ _ hk)) hs.2 hs.1 (by rw [hd]; rfl)
  · rename_i hd
    simp only [Option.bind_eq_some] at hs
    obtain ⟨h2, hl, h3, hk, hs⟩ := hs
    simp only [Option.some.injEq, Prod.mk.injEq] at hs
    exact fin h3 ((hB _ _ _ hl).oTrans (hC _ _ hk)) hs.2 hs.1 (by rw [hd]; rfl)
  · simp only [Option.bind_eq_some] at hs
    obtain ⟨h2, hl, hs⟩ := hs
    simp at hs

theorem leaky_relu_result (s : F) {h h1 : Heap F} {a t : Nat}
    (hs : leaky_relu s h (some a) = some (h1, some t)) :
    UnRes h a h1 t ∧ ∃ ta tt, h.deref a = some ta ∧ h1.deref t = some tt ∧
      ta.dtype.isFloat = true ∧ tt.dims = ta.dims.take ta.ndim.toNat := by
  simp only [leaky_relu, Option.bind_eq_bind, Option.bind_eq_some] at hs
  obtain ⟨ta, ha, r, hr, hs⟩ := hs
  split at hs
  · simp at hs
  · rename_i t' ht'
    obtain ⟨u, hfl, tt, h1t, hdm⟩ := floatOnly_result ha hr ht'
      (fun dt => forLoop ta.size (leakyStepF s dt t' a))
      (fun h2 => link1x h2 t' .LEAKY_RELU a s)
      (fun dt _ _ hl => shapeOnly_forLoop _ (shapeOnly_leakyStepF s dt t' a) _ hl)
      (fun _ _ hk => shapeOnly_link1x hk) hs
    exact ⟨u, ta, tt, ha, h1t, hfl, hdm⟩

theorem softmax_result (L : Libm F) {h h1 : Heap F} {a t : Nat}
    (hs : softmax L h (some a) = some (h1, some t)) :
    UnRes h a h1 t ∧ ∃ ta tt, h.deref a = some ta ∧ h1.deref t = some tt ∧
      ta.dtype.isFloat = true ∧ tt.dims = ta.dims.take ta.ndim.toNat := by
  simp only [softmax, Option.bind_eq_bind, Option.bind_eq_some] at hs
  obtain ⟨ta, ha, r, hr, hs⟩ := hs
  split at hs
  · simp at hs
  · rename_i t' ht'
    obtain ⟨u, hfl, tt, h1t, hdm⟩ := floatOnly_result ha hr ht'
      (fun dt => softmaxF L dt t' a ta.size)
      (fun h2 => link1 h2 t' .SOFTMAX a)
      (fun dt _ _ hl => shapeOnly_softmaxF L dt t' a ta.size hl)
      (fun _ _ hk => shapeOnly_link1 hk) hs
    exact ⟨u, ta, tt, ha, h1t, hfl, hdm⟩

theorem mean_result {h h1 : Heap F} {a t : Nat}
    (hs : mean h (some a) = some (h1, some t)) :
    UnRes h a h1 t ∧ ∃ ta tt, h.deref a = some ta ∧ h1.deref t = some tt ∧
      ta.dtype.isFloat = true ∧ tt.dims = [1] := by
  simp only [mean, Option.bind_eq_bind, Option.bind_eq_some] at hs
  obtain ⟨ta, ha, r, hr, hs⟩ := hs
  split at hs
  · simp at hs
  · rename_i t' ht'
    obtain ⟨u, hfl, tt, h1t, hdm⟩ := floatOnly_result ha hr ht'
      (fun dt => meanF dt t' a ta.size)
      (fun h2 => link1 h2 t' .MEAN a)
      (fun dt _ _ hl => shapeOnly_meanF dt t' a ta.size hl)
      (fun _ _ hk => shapeOnly_link1 hk) hs
    exact ⟨u, ta, tt, ha, h1t, hfl, by simpa using hdm⟩

theorem sum_result {h h1 : Heap F} {a t : Nat}
    (hs : sum h (some a) = some (h1, some t)) :
    UnRes h a h1 t ∧ ∃ ta tt, h.deref a = some ta ∧ h1.deref t = some tt ∧
      tt.dims = [1] := by
  simp only [sum, Option.bind_eq_bind, Option.bind_eq_some] at hs
  obtain ⟨ta, ha, r, hr, hs⟩ := hs
  split at hs
  · simp at hs
  · rename_i t' ht'
    have fin : ∀ h3, ShapeOnly r.1 h3 → t' = t → h3 = h1 →
        UnRes h a h1 t ∧ ∃ ta tt, h.deref a = some ta ∧ h1.deref t = some tt ∧
          tt.dims = [1] := by
      intro h3 hS e1 e2
      subst e1; subst e2
      obtain ⟨tt, h1t, w, hrg, hdt, hdm⟩ := fwd_result hr ht' hS
      exact ⟨⟨ta, tt, ha, h1t, w, hdt, hrg⟩, ta, tt, ha, h1t, by simpa using hdm⟩
    split at hs
    · simp only [Option.bind_eq_some] at hs
      obtain ⟨h2, hl, h3, hk, hs⟩ := hs
      simp only [Option.some.injEq, Prod.mk.injEq] at hs
      exact fin h3 ((shapeOnly_forLoop _ (shapeOnly_sumStepF _ _ _) _ hl).oTrans
        (shapeOnly_linkSum hk)) hs.2 hs.1
    · simp only [Option.bind_eq_some] at hs
      obtain ⟨h2, hl, h3, hk, hs⟩ := hs
      simp only [Option.some.injEq, Prod.mk.injEq] at hs
      exact fin h3 ((shapeOnly_forLoop _ (shapeOnly_sumStepF _ _ _) _ hl).oTrans
        (shapeOnly_linkSum hk)) hs.2 hs.1
    · simp only [Option.bind_eq_some] at hs
      obtain ⟨h2, hl, h3, hk, hs⟩ := hs
      simp only [Option.some.injEq, Prod.mk.injEq] at hs
      exact fin h3 ((shapeOnly_forLoop _ (shapeOnly_sumStepI _ _ _) _ hl).oTrans
        (shapeOnly_linkSum hk)) hs.2 hs.1
    · simp only [Option.bind_eq_some] at hs
      obtain ⟨h2, hl, h3, hk, hs⟩ := hs
      simp at hs

theorem memcpy_ok {dt : DType} {src : Data F} {n : Nat} (ho : src.isOf dt) (hn : n ≤ src.len) :
    Data.memcpy dt src n = some (src.take n) := by
  cases dt <;> cases src <;> simp_all [Data.isOf, Data.memcpy, Data.len, Data.take]

theorem prod_pos_of_pos (ds : List Int) (hp : ∀ d ∈ ds, 0 < d) : 0 < ds.prod := by
  induction ds with
  | nil => simp
  | cons d ds ih =>
    rw [List.prod_cons]
    exact mul_pos (hp d (List.mem_cons_self _ _))
      (ih (fun x hx => hp x (List.mem_cons_of_mem _ hx)))

/-- For positive dims whose product is at most `INT_MAX`, every product the
loop of `total_size` forms is a value of `int`. -/
theorem fits_of_pos (ds : List Int) (hp : ∀ d ∈ ds, 0 < d) (hmax : ds.prod ≤ INT_MAX) :
    ∀ j, j ≤ ds.length → InRange 32 (ds.take j).prod := by
  intro j _
  have h1 : 0 < (ds.take j).prod :=
    prod_pos_of_pos _ (fun d hd => hp d (List.mem_of_mem_take hd))
  have h2 : 0 < (ds.drop j).prod :=
    prod_pos_of_pos _ (fun d hd => hp d (List.mem_of_mem_drop hd))
  have h3 : (ds.take j).prod * (ds.drop j).prod = ds.prod := by
    rw [← List.prod_append, List.take_append_drop]
  have h4 : (ds.take j).prod ≤ ds.prod := by
    rw [← h3]
    exact le_mul_of_one_le_right (le_of_lt h1) h2
  simp only [INT_MAX] at hmax
  simp only [InRange]
  norm_num
  constructor <;> omega

/-- The constructor returns a tensor for every non-empty shape whose product
is not negative and does not overflow, when the caller's array (if any) holds
enough elements of the element type. -/
theorem tensor_total (h : Heap F) (data : Option (Data F)) (dt : DType) (ds : List Int)
    (rg : bool) (hne : ds ≠ []) (hsz : 0 ≤ ds.prod)
    (hfit : ∀ j, j ≤ ds.length → InRange 32 (ds.take j).prod)
    (hsrc : ∀ src, data = some src → src.isOf dt ∧ ds.prod.toNat ≤ src.len) :
    ∃ tt, tensor h data dt (some ds) ds.length rg = some (h ++ [some tt], some h.length) := by
  have hlen : ¬ ((ds.length : Int) ≤ 0) := by
    have : 0 < ds.length := List.length_pos.mpr hne
    omega
  unfold tensor
  simp only [hlen, if_false, total_size_eq ds _ rfl hfit, copy_dims_eq ds _ rfl,
    Option.bind_eq_bind,
    Option.some_bind, not_lt.mpr hsz]
  cases data with
  | none =>
    cases dt <;> cases rg <;> simp [grad_mem_init, DType.isFloat, lnot, bool.toInt]
  | some src =>
    obtain ⟨ho, hn⟩ := hsrc src rfl
    simp only [memcpy_ok ho hn, Option.some_bind]
    cases dt <;> cases rg <;> simp [grad_mem_init, DType.isFloat, lnot, bool.toInt]

theorem dimsDiffer_take (d1 d2 : List Int) (k : Nat) (h1 : k ≤ d1.length) (h2 : k ≤ d2.length) :
    loopN (fun i found =>
      if found then some true
      else do
        let x ← d1[i]?
        let y ← d2[i]?
        some (x != y)) k false = some (decide (d1.take k ≠ d2.take k)) := by
  induction k with
  | zero => simp [loopN]
  | succ n ih =>
    rw [loopN_succ, ih (by omega) (by omega)]
    have hn1 : n < d1.length := by omega
    have hn2 : n < d2.length := by omega
    have t1 : d1.take (n + 1) = d1.take n ++ [d1[n]] := by
      rw [List.take_succ]; simp [List.getElem?_eq_getElem hn1]
    have t2 : d2.take (n + 1) = d2.take n ++ [d2[n]] := by
      rw [List.take_succ]; simp [List.getElem?_eq_getElem hn2]
    rw [t1, t2]
    simp only [Option.some_bind, List.getElem?_eq_getElem hn1, List.getElem?_eq_getElem hn2,
      Option.bind_eq_bind]
    by_cases hne : d1.take n = d2.take n
    · have key : (d1.take n ++ [d1[n]] ≠ d2.take n ++ [d2[n]]) ↔ d1[n] ≠ d2[n] := by
        rw [hne]
        constructor
        · intro hh e; exact hh (by rw [e])
        · intro hh e
          exact hh (by simpa using List.append_cancel_left e)
      rw [if_neg (by rw [decide_eq_true_eq]; exact fun hh => hh hne)]
      congr 1
      by_cases hx : d1[n] = d2[n]
      · rw [decide_eq_false (by rw [key]; exact fun hh => hh hx)]
        simp only [bne_iff_ne, ne_eq, hx, not_true_eq_false, Bool.not_eq_true, bne_self_eq_false]
      · rw [decide_eq_true (key.mpr hx)]
        simp only [bne_iff_ne, ne_eq, hx, not_false_eq_true]
    · have key : d1.take n ++ [d1[n]] ≠ d2.take n ++ [d2[n]] := by
        intro hh
        apply hne
        exact (List.append_inj hh (by simp [List.length_take, le_of_lt hn1, le_of_lt hn2])).1
      rw [if_pos (by rw [decide_eq_true_eq]; exact hne), decide_eq_true key]

theorem dimsDiffer_eq (d1 d2 : List Int) (ndim : Int) (h1 : (d1.length : Int) = ndim)
    (h2 : (d2.length : Int) = ndim) : dimsDiffer d1 d2 ndim = some (decide (d1 ≠ d2)) := by
  unfold dimsDiffer forLoop
  have e1 : ndim.toNat = d1.length := by omega
  have e2 : ndim.toNat = d2.length := by omega
  have k1 : d1.take ndim.toNat = d1 := by rw [e1]; exact List.take_length _
  have k2 : d2.take ndim.toNat = d2 := by rw [e2]; exact List.take_length _
  rw [dimsDiffer_take d1 d2 ndim.toNat (by omega) (by omega), k1, k2]

/-- Each of `add`, `sub`, `mul`, `Div` returns `NULL` when the operands differ
in element type, rank or dims. -/
theorem elementwise_reject (L : Libm F)
    {op : Heap F → Option Nat → Option Nat → Option (Heap F × Option Nat)}
    (hop : op ∈ elementwiseOps L) (h : Heap F) (a b : Nat) (ta tb : Tensor F)
    (ha : h.deref a = some ta) (hb : h.deref b = some tb)
    (la : (ta.dims.length : Int) = ta.ndim) (lb : (tb.dims.length : Int) = tb.ndim)
    (hd : ta.dtype ≠ tb.dtype ∨ ta.ndim ≠ tb.ndim ∨ ta.dims ≠ tb.dims) :
    op h (some a) (some b) = some (h, none) := by
  simp only [elementwiseOps, List.mem_cons, List.mem_singleton, List.not_mem_nil,
    or_false] at hop
  by_cases h1 : ta.ndim ≠ tb.ndim ∨ ta.dtype ≠ tb.dtype
  · have h1' : ta.dtype ≠ tb.dtype ∨ ta.ndim ≠ tb.ndim := h1.symm
    rcases hop with rfl | rfl | rfl | rfl
    · simp only [add, ha, hb, Option.bind_eq_bind, Option.some_bind, h1, if_true]
    · simp only [sub, ha, hb, Option.bind_eq_bind, Option.some_bind, h1, if_true]
    · simp only [mul, ha, hb, Option.bind_eq_bind, Option.some_bind, h1, if_true]
    · simp only [Div, ha, hb, Option.bind_eq_bind, Option.some_bind, h1', if_true]
  · have h1' : ¬ (ta.dtype ≠ tb.dtype ∨ ta.ndim ≠ tb.ndim) := fun hh => h1 hh.symm
    have hdims : ta.dims ≠ tb.dims := by
      rcases hd with hd | hd | hd
      · exact absurd (Or.inr hd) h1
      · exact absurd (Or.inl hd) h1
      · exact hd
    push_neg at h1
    have hdd : dimsDiffer ta.dims tb.dims ta.ndim = some true := by
      rw [dimsDiffer_eq _ _ _ la (by rw [lb, h1.1]), decide_eq_true hdims]
    have hdd' : dimsDiffer ta.dims tb.dims tb.ndim = some true := h1.1 ▸ hdd
    rcases hop with rfl | rfl | rfl | rfl
    · simp only [add, ha, hb, Option.bind_eq_bind, Option.some_bind, h1, ne_eq,
        not_true_eq_false, or_self, if_false, hdd, hdd', if_true]
    · simp only [sub, ha, hb, Option.bind_eq_bind, Option.some_bind, h1, ne_eq,
        not_true_eq_false, or_self, if_false, hdd, hdd', if_true]
    · simp only [mul, ha, hb, Option.bind_eq_bind, Option.some_bind, h1, ne_eq,
        not_true_eq_false, or_self, if_false, hdd, hdd', if_true]
    · simp only [Div, ha, hb, Option.bind_eq_bind, Option.some_bind, h1, ne_eq,
        not_true_eq_false, or_self, if_false, hdd, hdd', if_true]

/-- `MSELoss` returns `NULL` when the operands differ in element type, rank or
dims. -/
theorem MSELoss_reject (L : Libm F) (h : Heap F) (yt yp : Nat) (ta tb : Tensor F)
    (ha : h.deref yt = some ta) (hb : h.deref yp = some tb)
    (la : (ta.dims.length : Int) = ta.ndim) (lb : (tb.dims.length : Int) = tb.ndim)
    (hd : ta.dtype ≠ tb.dtype ∨ ta.ndim ≠ tb.ndim ∨ ta.dims ≠ tb.dims) :
    MSELoss L h (some yt) (some yp) = some (h, none) := by
  by_cases h1 : ta.ndim ≠ tb.ndim ∨ tb.dtype ≠ ta.dtype
  · simp only [MSELoss, ha, hb, Option.bind_eq_bind, Option.some_bind, h1, if_true]
  · have hdims : ta.dims ≠ tb.dims := by
      rcases hd with hd | hd | hd
      · exact absurd (Or.inr (Ne.symm hd)) h1
      · exact absurd (Or.inl hd) h1
      · exact hd
    push_neg at h1
    have hdd : dimsDiffer ta.dims tb.dims tb.ndim = some true := by
      rw [dimsDiffer_eq _ _ _ (by rw [la, h1.1]) lb, decide_eq_true hdims]
    simp only [MSELoss, ha, hb, Option.bind_eq_bind, Option.some_bind, h1, ne_eq,
      not_true_eq_false, or_self, if_false, hdd, if_true]

/-- The result of `add`, `sub`, `mul` or `Div` has the dims of both operands. -/
theorem elementwise_dims (L : Libm F)
    {op : Heap F → Option Nat → Option Nat → Option (Heap F × Option Nat)}
    (hop : op ∈ elementwiseOps L) (h : Heap F) (a b : Nat) (ta tb : Tensor F) (h1 : Heap F)
    (t : Nat) (ha : h.deref a = some ta) (hb : h.deref b = some tb)
    (la : (ta.dims.length : Int) = ta.ndim) (lb : (tb.dims.length : Int) = tb.ndim)
    (hs : op h (some a) (some b) = some (h1, some t)) :
    ∃ tt, h1.deref t = some tt ∧ tt.dims = ta.dims ∧ tt.dims = tb.dims := by
  simp only [elementwiseOps, List.mem_cons, List.mem_singleton, List.not_mem_nil,
    or_false] at hop
  have key : ∃ ta' tb' tt, h.deref a = some ta' ∧ h.deref b = some tb' ∧
      h1.deref t = some tt ∧ ta'.ndim = tb'.ndim ∧
      dimsDiffer ta'.dims tb'.dims ta'.ndim = some false ∧
      tt.dims = ta'.dims.take ta'.ndim.toNat := by
    rcases hop with rfl | rfl | rfl | rfl
    · exact (add_result hs).2
    · exact (sub_result hs).2
    · exact (mul_result hs).2
    · exact (Div_result L hs).2
  obtain ⟨ta', tb', tt, ha', hb', ht, hnd, hdf, hdm⟩ := key
  rw [ha] at ha'; cases ha'
  rw [hb] at hb'; cases hb'
  have e1 : ta.ndim.toNat = ta.dims.length := by omega
  have hta : tt.dims = ta.dims := by rw [hdm, e1, List.take_length]
  rw [dimsDiffer_eq _ _ _ la (by rw [lb, hnd])] at hdf
  have heq : ta.dims = tb.dims := by
    by_contra hne
    rw [decide_eq_true hne] at hdf
    cases hdf
  exact ⟨tt, ht, hta, hta.trans heq⟩

/-- A loop that stores `f (x[i])` at position `i` of the fresh result, for a
step that reads the operand at the position `shape_index` gives. -/
theorem pointwise_loop (step : Nat → Heap F → Option (Heap F)) (f : F → F) (dt : DType)
    (h : Heap F) (t0 : Tensor F) (r c : Nat) (xs : List F) (hxs : xs.length = r * c)
    (D : List F) (hD : D.length = r * c)
    (hstep : ∀ i E, i < r * c → E.length = r * c →
      step i (h ++ [some { t0 with data := Data.ofF dt E }])
        = some (h ++ [some { t0 with data := Data.ofF dt (E.set i (f (xs.getD i 0))) }])) :
    loopN step (r * c) (h ++ [some { t0 with data := Data.ofF dt D }])
      = some (h ++ [some { t0 with data := (Data.ofF dt
            ((List.range (r * c)).map fun i => f (xs.getD i 0))) }]) := by
  have key := loopN_overwrite (fun D => h ++ [some { t0 with data := Data.ofF dt D }])
    step (fun i => f (xs.getD i 0)) D (r * c) (le_of_eq hD.symm) ?_
  · rw [key, ← hD, overwrite_full]
  · intro i hi
    exact hstep i _ hi (by rw [length_overwrite _ _ _ (by omega)]; exact hD)

/-- One iteration of the float loop of `leaky_relu` on the fresh result. -/
theorem leakyStepF_at (s : F) (dt : DType) (h : Heap F) (p1 : Nat) (a t0 : Tensor F)
    (r c : Nat) (xs : List F) (ha : h.deref p1 = some a) (ma : IsMat a r c xs)
    (hda : a.dtype = dt) (i : Nat) (E : List F) (hi : i < r * c) (hE : E.length = r * c) :
    leakyStepF s dt h.length p1 i (h ++ [some { t0 with data := Data.ofF dt E }])
      = some (h ++ [some { t0 with data := (Data.ofF dt
          (E.set i ((fun x => if x < 0 then s * x else x) (xs.getD i 0)))) }]) := by
  have hfl : dt.isFloat = true := hda ▸ ma.isFloat
  have hc : (c : Int) ≠ 0 := by have := ma.cols_pos; omega
  have hxi : i < xs.length := by rw [ma.len_eq]; exact hi
  simp only [leakyStepF, posOf, rdDim, rdF, wrF, deref_append_new, deref_append_left _ ha,
    Option.bind_eq_bind, Option.some_bind, ma.dims_eq, List.getElem?_cons_zero,
    List.getElem?_cons_succ, shape_index_nat i _ _ hc, ma.data_eq, hda, getF_ofF hfl,
    getElem?_getD xs i 0 hxi, setF_ofF hfl _ i _ (by omega : i < E.length), store_append_new]

/-- `leaky_relu` on a float matrix. -/
theorem leaky_relu_float (s : F) (h : Heap F) (p1 : Nat) (a : Tensor F) (r c : Nat)
    (xs : List F) (ha : h.deref p1 = some a) (ma : IsMat a r c xs) :
    leaky_relu s h (some p1)
      = some (h ++ [some (unResultX .LEAKY_RELU a p1
            ((List.range (r * c)).map fun i => if xs.getD i 0 < 0 then s * xs.getD i 0
              else xs.getD i 0) s)],
          some h.length) := by
  have hfl := ma.isFloat
  have hloop := fun (dt : DType) (hda : a.dtype = dt) =>
    pointwise_loop (leakyStepF s dt h.length p1) (fun x => if x < 0 then s * x else x) dt h
      (fresh dt [(r : Int), (c : Int)] (condBool (lnot a.requires_grad))) r c xs ma.len_eq
      (List.replicate (r * c) 0) (by simp)
      (fun i E hi hE => leakyStepF_at s dt h p1 a _ r c xs ha ma hda i E hi hE)
  have hfr := fun (dt : DType) (hda : a.dtype = dt) =>
    fresh_float_eq (F := F) (hda ▸ hfl) [(r : Int), (c : Int)] (condBool (lnot a.requires_grad))
  unfold leaky_relu
  simp only [ha, Option.bind_eq_bind, Option.some_bind, ma.ndim_eq, ma.dims_eq, tensor_mat _ _ _ _ _ ma.fits,
    forLoop, ma.size_eq, toNat_mul_cast]
  cases hd : a.dtype with
  | FLOAT32 =>
    have h1 := hfr .FLOAT32 hd
    rw [prod_pair, toNat_mul_cast] at h1
    rw [h1]
    simp only [hloop .FLOAT32 hd, Option.some_bind, link1x, deref_append_new, store_append_new,
      Option.bind_eq_bind]
    simp [unResultX, fresh, hd, MAX_PREVS, ma.dims_eq]
  | FLOAT64 =>
    have h1 := hfr .FLOAT64 hd
    rw [prod_pair, toNat_mul_cast] at h1
    rw [h1]
    simp only [hloop .FLOAT64 hd, Option.some_bind, link1x, deref_append_new, store_append_new,
      Option.bind_eq_bind]
    simp [unResultX, fresh, hd, MAX_PREVS, ma.dims_eq]
  | INT32 => simp [hd, DType.isFloat] at hfl
  | INT64 => simp [hd, DType.isFloat] at hfl

theorem map_range_getD {α β : Type} (xs : List α) (d : α) (f : α → β) :
    (List.range xs.length).map (fun i => f (xs.getD i d)) = xs.map f := by
  apply List.ext_getElem?
  intro i
  by_cases hi : i < xs.length
  · simp [List.getElem?_map, List.getElem?_range hi, List.getElem?_eq_getElem hi, List.getD,
      hi]
  · rw [List.getElem?_eq_none (by simpa using hi), List.getElem?_eq_none (by simpa using hi)]

/-- The first loop of `softmax`: the running maximum. -/
theorem softmax_max_loop (dt : DType) (hh : Heap F) (p1 : Nat) (a : Tensor F) (xs : List F)
    (ha : hh.deref p1 = some a) (hfl : dt.isFloat = true) (hdata : a.data = Data.ofF dt xs)
    (k : Nat) (hk : k ≤ xs.tail.length) (x0 : F) :
    loopN (fun k mx => (rdF hh p1 dt ((1 : Int) + (k : Int))).bind fun x =>
        some (if x > mx then x else mx)) k x0
      = some ((xs.tail.take k).foldl (fun mx x => if x > mx then x else mx) x0) := by
  induction k with
  | zero => simp [loopN]
  | succ n ih =>
    have hn : n < xs.tail.length := by omega
    have hn1 : n + 1 < xs.length := by
      have := List.length_tail xs; omega
    have e1 : ((1 : Int) + (n : Int)) = ((n + 1 : Nat) : Int) := by push_cast; ring
    have ex : xs[n + 1]? = some (xs.tail[n]) := by
      cases xs with
      | nil => simp at hn
      | cons y ys => simp
    rw [loopN_succ, ih (by omega)]
    simp only [Option.some_bind, rdF, ha, hdata, e1, getF_ofF hfl, ex, Option.bind_eq_bind]
    rw [List.take_succ, List.foldl_append, List.getElem?_eq_getElem hn]
    simp

/-- The second loop of `softmax`: the shifted exponentials and their sum. -/
theorem softmax_exp_loop (L : Libm F) (dt : DType) (hh : Heap F) (p1 : Nat) (a : Tensor F)
    (xs : List F) (M : F)
    (ha : hh.deref p1 = some a) (hfl : dt.isFloat = true) (hdata : a.data = Data.ofF dt xs)
    (k : Nat) (hk : k ≤ xs.length) :
    loopN (fun i (st : List F × F) => (rdF hh p1 dt (i : Int)).bind fun x =>
        (bufSet st.1 (i : Int) (L.exp (x - M))).bind fun ex1 =>
          some (ex1, st.2 + L.exp (x - M))) k (List.replicate xs.length 0, 0)
      = some (overwrite k (fun i => L.exp (xs.getD i 0 - M)) (List.replicate xs.length 0),
          ((List.range k).map fun i => L.exp (xs.getD i 0 - M)).sum) := by
  induction k with
  | zero => simp [loopN, overwrite_zero]
  | succ n ih =>
    have hn : n < xs.length := by omega
    rw [loopN_succ, ih (by omega)]
    simp only [Option.some_bind, rdF, ha, hdata, getF_ofF hfl, getElem?_getD xs n 0 hn,
      Option.bind_eq_bind]
    rw [bufSet_nat _ _ _ (by rw [length_overwrite _ _ _ (by simp; omega)]; simpa using hn)]
    simp only [Option.some_bind]
    rw [overwrite_succ _ _ _ (by simpa using hn), List.range_succ, List.map_append,
      List.sum_append]
    simp

/-- The float branch of `softmax` on the fresh result. -/
theorem softmaxF_spec (L : Libm F) (dt : DType) (h : Heap F) (p1 : Nat) (a t0 : Tensor F)
    (r c : Nat) (xs : List F) (ha : h.deref p1 = some a) (ma : IsMat a r c xs)
    (hda : a.dtype = dt) (hr : 0 < r) (D : List F) (hD : D.length = r * c) :
    softmaxF L dt h.length p1 ((r : Int) * (c : Int))
        (h ++ [some { t0 with data := Data.ofF dt D }])
      = some (h ++ [some { t0 with data := Data.ofF dt (softmaxVal L xs) }]) := by
  have hfl : dt.isFloat = true := hda ▸ ma.isFloat
  have hN : 0 < r * c := Nat.mul_pos hr ma.cols_pos
  have hlen := ma.len_eq
  have hdata : a.data = Data.ofF dt xs := by rw [ma.data_eq, hda]
  set H0 : Heap F := h ++ [some { t0 with data := Data.ofF dt D }] with hH0
  have ha0 : H0.deref p1 = some a := deref_append_left _ ha
  have e0 : ((0 : Nat) : Int) = 0 := rfl
  have hx0 : rdF H0 p1 dt 0 = some (xs.headD 0) := by
    simp only [rdF, ha0, hdata, Option.bind_eq_bind, Option.some_bind]
    rw [← e0, getF_ofF hfl]
    cases xs with
    | nil => exact absurd hlen.symm (Nat.pos_iff_ne_zero.mp hN)
    | cons y ys => simp
  have htl : xs.tail.length = r * c - 1 := by rw [List.length_tail, hlen]
  have hsz : ((r : Int) * (c : Int) - 1).toNat = r * c - 1 := by
    have : ((r : Int) * (c : Int)) = ((r * c : Nat) : Int) := by push_cast; rfl
    have key : ∀ N : Nat, ((N : Int) - 1).toNat = N - 1 := fun N => by omega
    rw [this]; exact key _
  have hmax := softmax_max_loop dt H0 p1 a xs ha0 hfl hdata (r * c - 1) (le_of_eq htl.symm) (xs.headD 0)
  rw [← htl, List.take_length] at hmax
  have hexp := softmax_exp_loop L dt H0 p1 a xs (maxOf xs) ha0 hfl hdata xs.length le_rfl
  have hfull : overwrite xs.length (fun i => L.exp (xs.getD i 0 - maxOf xs))
      (List.replicate xs.length (0 : F)) = expsOf L xs := by
    have := overwrite_full (fun i => L.exp (xs.getD i 0 - maxOf xs))
      (List.replicate xs.length (0 : F))
    simp only [List.length_replicate] at this
    rw [this, expsOf]
    exact map_range_getD xs 0 (fun x => L.exp (x - maxOf xs))
  have hsum : ((List.range xs.length).map fun i => L.exp (xs.getD i 0 - maxOf xs)).sum
      = (expsOf L xs).sum := by
    rw [expsOf, ← map_range_getD xs 0 (fun x => L.exp (x - maxOf xs))]
  rw [hfull, hsum] at hexp
  have hel : (expsOf L xs).length = r * c := by simp [expsOf, hlen]
  unfold softmaxF forRange forLoop
  rw [hx0]
  simp only [Option.bind_eq_bind, Option.some_bind, hsz, toNat_mul_cast]
  rw [htl] at hmax
  have hmx : List.foldl (fun mx x => if x > mx then x else mx) (xs.headD 0) xs.tail
      = maxOf xs := rfl
  rw [hmx] at hmax
  rw [hlen] at hexp
  rw [hmax]
  simp only [Option.some_bind]
  rw [hexp]
  simp only [Option.some_bind]
  have key := loopN_overwrite (fun D => h ++ [some { t0 with data := Data.ofF dt D }])
    (fun i hh => (bufGet (expsOf L xs) (i : Int)).bind fun e =>
      wrF hh h.length dt (i : Int) (e / (expsOf L xs).sum))
    (fun i => (expsOf L xs).getD i 0 / (expsOf L xs).sum) D (r * c) (le_of_eq hD.symm) ?_
  · rw [key, ← hD, overwrite_full, hD, ← hel, softmaxVal]
    rw [map_range_getD (expsOf L xs) 0 (fun e => e / (expsOf L xs).sum)]
  · intro i hi
    have hoi : i < (overwrite i (fun i => (expsOf L xs).getD i 0 / (expsOf L xs).sum) D).length := by
      rw [length_overwrite _ _ _ (by omega)]; omega
    simp only [bufGet_nat, getElem?_getD (expsOf L xs) i 0 (by omega), Option.some_bind, wrF,
      deref_append_new, Option.bind_eq_bind, setF_ofF hfl _ i _ hoi, store_append_new]

/-- `softmax` on a float matrix with at least one element. -/
theorem softmax_float (L : Libm F) (h : Heap F) (p1 : Nat) (a : Tensor F) (r c : Nat)
    (xs : List F) (ha : h.deref p1 = some a) (ma : IsMat a r c xs) (hr : 0 < r) :
    softmax L h (some p1)
      = some (h ++ [some (unResult .SOFTMAX a p1 (softmaxVal L xs))], some h.length) := by
  have hfl := ma.isFloat
  have hspec := fun (dt : DType) (hda : a.dtype = dt) =>
    softmaxF_spec L dt h p1 a (fresh dt [(r : Int), (c : Int)] (condBool (lnot a.requires_grad)))
      r c xs ha ma hda hr (List.replicate (r * c) 0) (by simp)
  have hfr := fun (dt : DType) (hda : a.dtype = dt) =>
    fresh_float_eq (F := F) (hda ▸ hfl) [(r : Int), (c : Int)] (condBool (lnot a.requires_grad))
  unfold softmax
  simp only [ha, Option.bind_eq_bind, Option.some_bind, ma.ndim_eq, ma.dims_eq, tensor_mat _ _ _ _ _ ma.fits,
    ma.size_eq]
  cases hd : a.dtype with
  | FLOAT32 =>
    have h1 := hfr .FLOAT32 hd
    rw [prod_pair, toNat_mul_cast] at h1
    rw [h1]
    simp only [hspec .FLOAT32 hd, Option.some_bind, link1, deref_append_new, store_append_new,
      Option.bind_eq_bind]
    simp [unResult, fresh, hd, MAX_PREVS, ma.dims_eq]
  | FLOAT64 =>
    have h1 := hfr .FLOAT64 hd
    rw [prod_pair, toNat_mul_cast] at h1
    rw [h1]
    simp only [hspec .FLOAT64 hd, Option.some_bind, link1, deref_append_new, store_append_new,
      Option.bind_eq_bind]
    simp [unResult, fresh, hd, MAX_PREVS, ma.dims_eq]
  | INT32 => simp [hd, DType.isFloat] at hfl
  | INT64 => simp [hd, DType.isFloat] at hfl

/-- The element loop of `add`/`sub`/`mul` on two integer matrices fills the
fresh result with the element-wise combination, reduced to the type. -/
theorem binStepI_loop (f : Int → Int → Int) (dt : DType) (h : Heap F) (p1 p2 : Nat)
    (a b t0 : Tensor F) (r c : Nat) (xs ys : List Int)
    (ha : h.deref p1 = some a) (hb : h.deref p2 = some b)
    (ma : IsMatI a r c xs) (mb : IsMatI b r c ys) (hda : a.dtype = dt) (hdb : b.dtype = dt)
    (hc : 0 < c) (ht0 : t0.dims = [(r : Int), (c : Int)])
    (D : List Int) (hD : D.length = r * c) :
    loopN (binStepI f dt h.length p1 p2) (r * c) (h ++ [some { t0 with data := Data.ofI dt D }])
      = some (h ++ [some { t0 with data := (Data.ofI dt
            ((List.range (r * c)).map fun i =>
              wrap dt.bits (f (xs.getD i 0) (ys.getD i 0)))) }]) := by
  have hfl : dt.isFloat = false := hda ▸ ma.isInt
  have hc' : (c : Int) ≠ 0 := by omega
  have key := loopN_overwrite (fun D => h ++ [some { t0 with data := Data.ofI dt D }])
    (binStepI f dt h.length p1 p2) (fun i => wrap dt.bits (f (xs.getD i 0) (ys.getD i 0))) D
    (r * c) (le_of_eq hD.symm) ?_
  · rw [key, ← hD, overwrite_full]
  · intro i hi
    have hxi : i < xs.length := by rw [ma.len_eq]; exact hi
    have hyi : i < ys.length := by rw [mb.len_eq]; exact hi
    have hoi : i < (overwrite i (fun i => wrap dt.bits (f (xs.getD i 0) (ys.getD i 0))) D).length := by
      rw [length_overwrite _ _ _ (by omega)]; omega
    simp only [binStepI, posOf, rdDim, rdI, wrI, deref_append_new, deref_append_left _ ha,
      deref_append_left _ hb, Option.bind_eq_bind, Option.some_bind, ht0, ma.dims_eq,
      mb.dims_eq, List.getElem?_cons_zero, List.getElem?_cons_succ, shape_index_nat i _ _ hc',
      ma.data_eq, mb.data_eq, hda, hdb, getI_ofI hfl, getElem?_getD xs i 0 hxi,
      getElem?_getD ys i 0 hyi, setI_ofI hfl _ i _ hoi, store_append_new]

/-- `add` on two integer matrices of one type and shape. -/
theorem add_int (h : Heap F) (p1 p2 : Nat) (a b : Tensor F) (r c : Nat) (xs ys : List Int)
    (ha : h.deref p1 = some a) (hb : h.deref p2 = some b)
    (ma : IsMatI a r c xs) (mb : IsMatI b r c ys) (hdt : a.dtype = b.dtype) (hc : 0 < c) :
    add h (some p1) (some p2)
      = some (h ++ [some (binResultI .ADD a b p1 p2
            ((List.range (r * c)).map fun i =>
              wrap a.dtype.bits (xs.getD i 0 + ys.getD i 0)))], some h.length) := by
  have hfl := ma.isInt
  have hloop := fun (dt : DType) (hda : a.dtype = dt) t0 ht0 =>
    binStepI_loop (· + ·) dt h p1 p2 a b t0 r c xs ys ha hb ma mb hda (hdt ▸ hda) hc ht0
      (List.replicate (r * c) 0) (by simp)
  unfold add
  simp only [ha, hb, Option.bind_eq_bind, Option.some_bind, ma.ndim_eq, mb.ndim_eq, hdt,
    ne_eq, not_true_eq_false, or_self, if_false, ma.dims_eq, mb.dims_eq,
    dimsDiffer_self [(r : Int), (c : Int)] 2 (by simp), Bool.false_eq_true, tensor_mat _ _ _ _ _ ma.fits,
    forLoop, ma.size_eq, toNat_mul_cast]
  cases hd : b.dtype with
  | INT32 =>
    have := hloop .INT32 (hdt.trans hd) (fresh .INT32 [(r : Int), (c : Int)]
      (condBool (lnot a.requires_grad || lnot b.requires_grad))) rfl
    simp only [fresh, prod_pair, toNat_mul_cast, Data.calloc, Data.ofI] at this ⊢
    rw [this]
    simp [link2, deref_append_new, store_append_new, binResultI, fresh, hdt, hd,
      ma.dims_eq, Data.ofI, MAX_PREVS, toNat_mul_cast]
  | INT64 =>
    have := hloop .INT64 (hdt.trans hd) (fresh .INT64 [(r : Int), (c : Int)]
      (condBool (lnot a.requires_grad || lnot b.requires_grad))) rfl
    simp only [fresh, prod_pair, toNat_mul_cast, Data.calloc, Data.ofI] at this ⊢
    rw [this]
    simp [link2, deref_append_new, store_append_new, binResultI, fresh, hdt, hd,
      ma.dims_eq, Data.ofI, MAX_PREVS, toNat_mul_cast]
  | FLOAT32 => simp [hdt, hd, DType.isFloat] at hfl
  | FLOAT64 => simp [hdt, hd, DType.isFloat] at hfl

theorem map_range_const2 {α : Type} (n : Nat) (a : α) :
    (List.range n).map (fun _ => a) = List.replicate n a := by
  apply List.ext_getElem?
  intro i
  by_cases hi : i < n
  · simp [List.getElem?_map, List.getElem?_range hi, List.getElem?_replicate, hi]
  · rw [List.getElem?_eq_none (by simpa using hi), List.getElem?_eq_none (by simpa using hi)]

theorem fillStepF_loop (v : F) (dt : DType) (h : Heap F) (t0 : Tensor F) (r c : Nat)
    (hfl : dt.isFloat = true) (hc : 0 < c) (ht0 : t0.dims = [(r : Int), (c : Int)]) :
    loopN (fillStepF v dt h.length) (r * c)
        (h ++ [some { t0 with data := Data.ofF dt (List.replicate (r * c) 0) }])
      = some (h ++ [some { t0 with data := Data.ofF dt (List.replicate (r * c) v) }]) := by
  have hc' : (c : Int) ≠ 0 := by omega
  have hloop := loopN_overwrite
    (fun D => h ++ [some { t0 with data := Data.ofF dt D }])
    (fillStepF v dt h.length) (fun _ => v) (List.replicate (r * c) 0) (r * c) (by simp) ?_
  · have hov : overwrite (r * c) (fun _ => v) (List.replicate (r * c) (0 : F))
        = List.replicate (r * c) v := by
      have := overwrite_full (fun _ => v) (List.replicate (r * c) (0 : F))
      simp only [List.length_replicate] at this
      rw [this, map_range_const2]
    rw [hloop, hov]
  · intro i hi
    have hoi : i < (overwrite i (fun _ => v) (List.replicate (r * c) (0 : F))).length := by
      rw [length_overwrite _ _ _ (by simp; omega)]; simpa using hi
    simp only [fillStepF, posOf, rdDim, wrF, deref_append_new, Option.bind_eq_bind,
      Option.some_bind, ht0, List.getElem?_cons_zero, List.getElem?_cons_succ,
      shape_index_nat i _ _ hc', setF_ofF hfl _ i _ hoi, store_append_new]

theorem fillStepI_loop (v : Int) (dt : DType) (h : Heap F) (t0 : Tensor F) (r c : Nat)
    (hfl : dt.isFloat = false) (hc : 0 < c) (ht0 : t0.dims = [(r : Int), (c : Int)]) :
    loopN (fillStepI v dt h.length) (r * c)
        (h ++ [some { t0 with data := Data.ofI dt (List.replicate (r * c) 0) }])
      = some (h ++ [some { t0 with data := Data.ofI dt (List.replicate (r * c) v) }]) := by
  have hc' : (c : Int) ≠ 0 := by omega
  have hloop := loopN_overwrite
    (fun D => h ++ [some { t0 with data := Data.ofI dt D }])
    (fillStepI v dt h.length) (fun _ => v) (List.replicate (r * c) 0) (r * c) (by simp) ?_
  · have hov : overwrite (r * c) (fun _ => v) (List.replicate (r * c) (0 : Int))
        = List.replicate (r * c) v := by
      have := overwrite_full (fun _ => v) (List.replicate (r * c) (0 : Int))
      simp only [List.length_replicate] at this
      rw [this, map_range_const2]
    rw [hloop, hov]
  · intro i hi
    have hoi : i < (overwrite i (fun _ => v) (List.replicate (r * c) (0 : Int))).length := by
      rw [length_overwrite _ _ _ (by simp; omega)]; simpa using hi
    simp only [fillStepI, posOf, rdDim, wrI, deref_append_new, Option.bind_eq_bind,
      Option.some_bind, ht0, List.getElem?_cons_zero, List.getElem?_cons_succ,
      shape_index_nat i _ _ hc', setI_ofI hfl _ i _ hoi, store_append_new]

/-- `zeros` / `ones` for a float type and dims `(r, c)`. -/
theorem filled_float (vF : F) (vI : Int) (h : Heap F) (dt : DType) (r c : Nat) (rg : bool)
    (hfl : dt.isFloat = true) (hc : 0 < c) (hf : FitsInt r c) :
    filled vF vI h dt (some [(r : Int), (c : Int)]) 2 rg
      = some (h ++ [some (filledF dt r c rg vF)], some h.length) := by
  have hfr := fresh_float_eq (F := F) hfl [(r : Int), (c : Int)] rg
  rw [prod_pair, toNat_mul_cast] at hfr
  have hl := fillStepF_loop vF dt h (fresh dt [(r : Int), (c : Int)] rg) r c hfl hc rfl
  have hsz : (fresh dt [(r : Int), (c : Int)] rg : Tensor F).size = (r : Int) * (c : Int) := by
    simp [fresh]
  unfold filled
  simp only [tensor_mat _ _ _ _ _ hf, Option.bind_eq_bind, Option.some_bind, deref_append_new]
  rw [hsz]
  simp only [forLoop, toNat_mul_cast]
  rw [hfr]
  cases dt with
  | FLOAT32 => simp only [hl, Option.some_bind]; rfl
  | FLOAT64 => simp only [hl, Option.some_bind]; rfl
  | INT32 => simp [DType.isFloat] at hfl
  | INT64 => simp [DType.isFloat] at hfl

/-- `zeros` / `ones` for an integer type and dims `(r, c)`. -/
theorem filled_int (vF : F) (vI : Int) (h : Heap F) (dt : DType) (r c : Nat) (rg : bool)
    (hfl : dt.isFloat = false) (hc : 0 < c) (hf : FitsInt r c) :
    filled vF vI h dt (some [(r : Int), (c : Int)]) 2 rg
      = some (h ++ [some (filledI dt r c rg vI)], some h.length) := by
  have hfr := fresh_int_eq (F := F) hfl [(r : Int), (c : Int)] rg
  rw [prod_pair, toNat_mul_cast] at hfr
  have hl := fillStepI_loop (F := F) vI dt h (fresh dt [(r : Int), (c : Int)] rg) r c hfl hc rfl
  have hsz : (fresh dt [(r : Int), (c : Int)] rg : Tensor F).size = (r : Int) * (c : Int) := by
    simp [fresh]
  unfold filled
  simp only [tensor_mat _ _ _ _ _ hf, Option.bind_eq_bind, Option.some_bind, deref_append_new]
  rw [hsz]
  simp only [forLoop, toNat_mul_cast]
  rw [hfr]
  cases dt with
  | INT32 => simp only [hl, Option.some_bind]; rfl
  | INT64 => simp only [hl, Option.some_bind]; rfl
  | FLOAT32 => simp [DType.isFloat] at hfl
  | FLOAT64 => simp [DType.isFloat] at hfl

theorem filledF_isMat (dt : DType) (r c : Nat) (rg : bool) (v : F) (hfl : dt.isFloat = true)
    (hc : 0 < c) (hf : FitsInt r c) :
    IsMat (filledF dt r c rg v) r c (List.replicate (r * c) v) where
  isFloat := hfl
  dims_eq := rfl
  ndim_eq := by simp [filledF, fresh]
  size_eq := by simp [filledF, fresh]
  cols_pos := hc
  data_eq := rfl
  len_eq := by simp
  fits := hf

theorem filledI_isMatI (dt : DType) (r c : Nat) (rg : bool) (v : Int)
    (hfl : dt.isFloat = false) (hf : FitsInt r c) :
    IsMatI (filledI dt r c rg v : Tensor F) r c (List.replicate (r * c) v) where
  isInt := hfl
  dims_eq := rfl
  ndim_eq := by simp [filledI, fresh]
  size_eq := by simp [filledI, fresh]
  data_eq := rfl
  len_eq := by simp
  fits := hf

theorem getElem?_map_range {α : Type} (f : Nat → α) (N q : Nat) (hq : q < N) :
    ((List.range N).map f)[q]? = some (f q) := by
  simp [List.getElem?_map, List.getElem?_range hq]

theorem floats_ofF {dt : DType} (hfl : dt.isFloat = true) (xs : List F) :
    (Data.ofF dt xs).floats = some xs := by
  cases dt <;> simp_all [Data.ofF, Data.floats, DType.isFloat]

theorem ints_ofI {dt : DType} (hfl : dt.isFloat = false) (xs : List Int) :
    (Data.ofI dt xs : Data F).ints = some xs := by
  cases dt <;> simp_all [Data.ofI, Data.ints, DType.isFloat]

theorem div_mod_idx {i j n : Nat} (hj : j < n) : (i * n + j) / n = i ∧ (i * n + j) % n = j := by
  constructor
  · rw [Nat.add_comm, Nat.add_mul_div_right _ _ (by omega), Nat.div_eq_of_lt hj, Nat.zero_add]
  · rw [Nat.add_comm, Nat.add_mul_mod_self_right, Nat.mod_eq_of_lt hj]

/-- C1, amended: `matmul` computes the matrix product whenever the product has
at most `INT_MAX` elements.  For rank-2 operands `A` of dims `(m, l)` and `B`
of dims `(l, n)` of one element type with `m * n <= INT_MAX`, `matmul(A, B)`
returns a tensor of dims `(m, n)` whose element at flat position `i*n + j` is
the sum over `k < l` of `A[i*l + k] * B[k*n + j]`: over exact arithmetic for
the float types, and for `INT32`/`INT64` the sum reduced to the element type,
which is the sum itself whenever the sum fits the type. -/
theorem matmul_product :
    (∀ (h : Heap F) (p1 p2 : Nat) (a b : Tensor F) (m l n : Nat) (xs ys : List F),
      h.deref p1 = some a → h.deref p2 = some b → IsMat a m l xs → IsMat b l n ys →
      a.dtype = b.dtype → (m : Int) * (n : Int) ≤ INT_MAX →
      ∃ h1 t tt, matmul h (some p1) (some p2) = some (h1, some t) ∧
        h1.deref t = some tt ∧ tt.dims = [(m : Int), (n : Int)] ∧
        ∀ i j, i < m → j < n → dataAt h1 t (i * n + j) = some (dotF xs ys l n i j)) ∧
    (∀ (h : Heap F) (p1 p2 : Nat) (a b : Tensor F) (m l n : Nat) (xs ys : List Int),
      h.deref p1 = some a → h.deref p2 = some b → IsMatI a m l xs → IsMatI b l n ys →
      a.dtype = b.dtype → (m : Int) * (n : Int) ≤ INT_MAX →
      ∃ h1 t tt, matmul h (some p1) (some p2) = some (h1, some t) ∧
        h1.deref t = some tt ∧ tt.dims = [(m : Int), (n : Int)] ∧
        ∀ i j, i < m → j < n →
          intAt h1 t (i * n + j) = some (wrap a.dtype.bits (dotI xs ys l n i j)) ∧
          (InRange a.dtype.bits (dotI xs ys l n i j) →
            intAt h1 t (i * n + j) = some (dotI xs ys l n i j))) := by
  constructor
  · intro h p1 p2 a b m l n xs ys ha hb ma mb hdt hmn
    refine ⟨_, _, _, matmul_float h p1 p2 a b m l n xs ys ha hb ma mb hdt hmn,
      deref_append_new _ _, rfl, ?_⟩
    intro i j hi hj
    obtain ⟨e1, e2⟩ := div_mod_idx (i := i) hj
    simp only [dataAt, deref_append_new, Option.bind_eq_bind, Option.some_bind, matResult,
      floats_ofF ma.isFloat, getElem?_map_range _ _ _ (idx_lt hi hj), e1, e2]
  · intro h p1 p2 a b m l n xs ys ha hb ma mb hdt hmn
    refine ⟨_, _, _, matmul_int h p1 p2 a b m l n xs ys ha hb ma mb hdt hmn,
      deref_append_new _ _, rfl, ?_⟩
    intro i j hi hj
    obtain ⟨e1, e2⟩ := div_mod_idx (i := i) hj
    have e : intAt (h ++ [some (matResult a b p1 p2 m n (Data.ofI a.dtype
        ((List.range (m * n)).map fun q =>
          wrap a.dtype.bits (dotI xs ys l n (q / n) (q % n)))))]) h.length (i * n + j)
        = some (wrap a.dtype.bits (dotI xs ys l n i j)) := by
      simp only [intAt, deref_append_new, Option.bind_eq_bind, Option.some_bind, matResult,
        ints_ofI ma.isInt, getElem?_map_range _ _ _ (idx_lt hi hj), e1, e2]
    refine ⟨e, fun hr => ?_⟩
    rw [e, wrap_of_inRange _ (bits_pos _) _ hr]

/-- Instance of `matmul_product`: `[[1,2],[3,4]] x [[5,6],[7,8]]` over the
rationals, whose data is `[19, 22, 43, 50]`. -/
theorem matmul_product_witness :
    (∃ h1 t tt, matmul exMM (some 0) (some 1) = some (h1, some t) ∧
        h1.deref t = some tt ∧ tt.dims = [((2 : Nat) : Int), ((2 : Nat) : Int)] ∧
        ∀ i j, i < 2 → j < 2 →
          dataAt h1 t (i * 2 + j) = some (dotF [1, 2, 3, 4] [5, 6, 7, 8] 2 2 i j)) ∧
    ((matmul exMM (some 0) (some 1)).bind fun r => r.2.bind (dataOf r.1))
      = some [19, 22, 43, 50] :=
  ⟨(matmul_product (F := ℚ)).1 exMM 0 1 (leafMat .FLOAT32 2 2 [1, 2, 3, 4] .false)
      (leafMat .FLOAT32 2 2 [5, 6, 7, 8] .false) 2 2 2 [1, 2, 3, 4] [5, 6, 7, 8] rfl rfl
      ⟨rfl, rfl, rfl, rfl, by decide, rfl, rfl, by decide⟩
      ⟨rfl, rfl, rfl, rfl, by decide, rfl, rfl, by decide⟩ rfl (by decide),
    by with_unfolding_all decide⟩

/-- C1 as stated, for every pair of operands, fails: `A` of dims `(65536, 1)`
and `B` of dims `(1, 65536)` are `FLOAT32` matrices whose inner dimensions
agree, each of 65536 elements, yet `matmul(A, B)` has no outcome.  The element
count `65536 * 65536 = 2^32` of the result overflows the `int` of
`total_size`, so no tensor of dims `(65536, 65536)` with `2^32` elements is
returned.  (Where the compiled product wraps to 0, the result gets a buffer of
no elements and the first store of the product loop is out of bounds.) -/
theorem matmul_product_counterexample :
    exWide.deref 0 = some (leafMat .FLOAT32 65536 1 (List.replicate 65536 0) .false) ∧
    exWide.deref 1 = some (leafMat .FLOAT32 1 65536 (List.replicate 65536 0) .false) ∧
    IsMat (leafMat .FLOAT32 65536 1 (List.replicate 65536 (0 : ℚ)) .false) 65536 1
      (List.replicate 65536 0) ∧
    IsMat (leafMat .FLOAT32 1 65536 (List.replicate 65536 (0 : ℚ)) .false) 1 65536
      (List.replicate 65536 0) ∧
    matmul exWide (some 0) (some 1) = none :=
  ⟨rfl, rfl,
    ⟨rfl, rfl, rfl, rfl, by decide, rfl, by rw [List.length_replicate], by decide⟩,
    ⟨rfl, rfl, rfl, rfl, by decide, rfl, by rw [List.length_replicate], by decide⟩, rfl⟩

/-- C2: the chain rule through `mul` then `mean`.  For two distinct leaf float
matrices `x`, `y` of one type and shape with `N = r * c` elements, both tracking
with zero gradients: `m = mul(x, y)` and `s = mean(m)` succeed, and after the
store `s->grad[0] = 1`, `backward(s)` returns (for every budget of at least 3)
with `x.grad[i] = y[i] / N` and `y.grad[i] = x[i] / N` for every `i < N`. -/
theorem mul_mean_backward (L : Libm F) (h : Heap F) (x y : Nat) (tx ty : Tensor F)
    (r c : Nat) (xs ys : List F) (fuel : Nat)
    (hx : h.deref x = some tx) (hy : h.deref y = some ty) (hxy : x ≠ y)
    (mx : IsMat tx r c xs) (my : IsMat ty r c ys) (hdt : tx.dtype = ty.dtype)
    (lx : IsLeaf tx) (ly : IsLeaf ty)
    (gx : HasGrad tx (List.replicate (r * c) 0)) (gy : HasGrad ty (List.replicate (r * c) 0)) :
    ∃ h1 m h2 s h3 h4,
      mul h (some x) (some y) = some (h1, some m) ∧
      mean h1 (some m) = some (h2, some s) ∧
      seed_grad h2 s 0 1 = some h3 ∧
      backward L (fuel + 3) h3 (some s) = .ok h4 ∧
      ∀ i, i < r * c →
        gradAt h4 x i = some (ys.getD i 0 / ((r * c : Nat) : F)) ∧
        gradAt h4 y i = some (xs.getD i 0 / ((r * c : Nat) : F)) := by
  -- forward: m = mul(x, y)
  set D : List F := (List.range (r * c)).map fun i => xs.getD i 0 * ys.getD i 0 with hD
  have hDl : D.length = r * c := by simp [hD]
  set tm : Tensor F := binResult .MUL tx ty x y D with htm
  have hmul := mul_float h x y tx ty r c xs ys hx hy mx my hdt
  have mm : IsMat tm r c D := binResult_isMat .MUL ty x y mx D hDl
  obtain ⟨hmrg, hmg⟩ := binResult_grad .MUL ty x y mx D (Or.inl gx.tracks)
  have hxlt := deref_eq_some_lt hx
  have hylt := deref_eq_some_lt hy
  have hm1 : Heap.deref (h ++ [some tm]) h.length = some tm := deref_append_new h tm
  -- forward: s = mean(m)
  have hmean := mean_float (h ++ [some tm]) h.length tm r c D hm1 mm
  set ts : Tensor F := redResult .MEAN tm h.length (D.sum / ((r * c : Nat) : F)) 1 with hts
  obtain ⟨hsrg, hsg⟩ := redResult_grad .MEAN h.length (D.sum / ((r * c : Nat) : F)) 1
    mm.isFloat hmrg
  set h2 : Heap F := h ++ [some tm] ++ [some ts] with hh2
  have hs2 : h2.deref (h ++ [some tm]).length = some ts := deref_append_new _ ts
  have hm2 : h2.deref h.length = some tm := deref_append_left _ hm1
  have hx2 : h2.deref x = some tx := deref_append_left _ (deref_append_left _ hx)
  have hy2 : h2.deref y = some ty := deref_append_left _ (deref_append_left _ hy)
  have hslen : (h ++ [some tm]).length = h.length + 1 := by simp
  -- the seed
  have hseed := seed_grad_zero hs2 (t := ts) mm.isFloat hsg (by simp) (1 : F)
  set ts' : Tensor F := { ts with grad := some ([0].set 0 1) } with hts'
  set h3 : Heap F := h2.store (h ++ [some tm]).length ts' with hh3
  have hs3 : h3.deref (h ++ [some tm]).length = some ts' :=
    deref_store_self _ (deref_eq_some_lt hs2)
  have hm3 : h3.deref h.length = some tm := by
    rw [hh3, deref_store_ne _ (by omega), hm2]
  have hx3 : h3.deref x = some tx := by rw [hh3, deref_store_ne _ (by omega), hx2]
  have hy3 : h3.deref y = some ty := by rw [hh3, deref_store_ne _ (by omega), hy2]
  -- backward at s: the mean rule
  have hmb := mean_backward_spec h3 (h ++ [some tm]).length h.length ts' tm tx.dtype r c
    [1] (List.replicate (r * c) 0) 1 hs3 hsrg rfl hm3 (by omega) mm.dims_eq mm.size_eq
    mm.cols_pos mx.isFloat rfl rfl rfl rfl hmg (by simp)
  set h4 : Heap F := accGrad h3 h.length (fun _ => 1 / ((r * c : Nat) : F)) with hh4
  set og : List F := addv (List.replicate (r * c) 0) (fun _ => 1 / ((r * c : Nat) : F)) with hog
  have hs4 : h4.deref (h ++ [some tm]).length = some ts' := by
    rw [hh4, deref_accGrad_ne _ _ (by omega), hs3]
  have hm4 : h4.deref h.length = some { tm with grad := some og } := by
    rw [hh4, deref_accGrad_self hm3, hmg]; rfl
  have hx4 : h4.deref x = some tx := by rw [hh4, deref_accGrad_ne _ _ (by omega), hx3]
  have hy4 : h4.deref y = some ty := by rw [hh4, deref_accGrad_ne _ _ (by omega), hy3]
  -- backward at m: the mul rule
  have hmulb := mul_backward_spec h4 h.length x y { tm with grad := some og } tx ty tx.dtype
    r c og xs ys hm4 rfl rfl mm.dims_eq rfl mm.size_eq rfl (by simp [hog, length_addv])
    hx4 mx rfl (hasGrad_ok gx (by rw [mx.size_eq]; push_cast; rfl))
    hy4 my hdt.symm (hasGrad_ok gy (by rw [my.size_eq]; push_cast; rfl))
    (by omega) (by omega) hxy
  rw [accIf_true gx.tracks, accIf_true gy.tracks] at hmulb
  set v0 : Nat → F := fun i => ys.getD i 0 * og.getD i 0 with hv0
  set v1 : Nat → F := fun i => xs.getD i 0 * og.getD i 0 with hv1
  set h5 : Heap F := accGrad (accGrad h4 x v0) y v1 with hh5
  have hm5 : h5.deref h.length = some { tm with grad := some og } := by
    rw [hh5, deref_accGrad_ne _ _ (by omega), deref_accGrad_ne _ _ (by omega), hm4]
  have hs5 : h5.deref (h ++ [some tm]).length = some ts' := by
    rw [hh5, deref_accGrad_ne _ _ (by omega), deref_accGrad_ne _ _ (by omega), hs4]
  have hx5 : h5.deref x = some { tx with grad := tx.grad.map (fun g => addv g v0) } := by
    rw [hh5, deref_accGrad_ne _ _ hxy, deref_accGrad_self hx4]
  have hy5 : h5.deref y = some { ty with grad := ty.grad.map (fun g => addv g v1) } := by
    rw [hh5, deref_accGrad_self (by rw [deref_accGrad_ne _ _ (Ne.symm hxy), hy4])]
  have bx : backward L (fuel + 1) h5 (some x) = .ok h5 :=
    backward_leaf L fuel hx5 lx.op_eq lx.num_prevs_eq
  have by' : backward L (fuel + 1) h5 (some y) = .ok h5 :=
    backward_leaf L fuel hy5 ly.op_eq ly.num_prevs_eq
  have bm : backward L (fuel + 2) h4 (some h.length) = .ok h5 := by
    refine backward_node2 L (fuel + 1) ?_ hm5 rfl (rdPrev_of hm5 rfl) bx hm5
      (rdPrev_of hm5 rfl) by' hm5
    rw [dispatch_op hm4]
    simpa [htm, binResult] using hmulb
  have bs : backward L (fuel + 3) h3 (some (h ++ [some tm]).length) = .ok h5 := by
    refine backward_node1 L (fuel + 2) ?_ hs4 rfl (rdPrev_of hs4 rfl) bm hs5
    rw [dispatch_op hs3]
    simpa [hts', hts, redResult] using hmb
  refine ⟨_, _, _, _, _, _, hmul, hmean, hseed, bs, ?_⟩
  intro i hi
  have hogi : og.getD i 0 = 1 / ((r * c : Nat) : F) := by
    have := getElem?_addv (List.replicate (r * c) (0 : F)) (fun _ => 1 / ((r * c : Nat) : F)) i
    rw [List.getElem?_replicate, if_pos hi] at this
    simp only [Option.map_some', zero_add] at this
    simp [List.getD, ← hog, this]
  constructor
  · rw [gradAt_of hx5 (by rw [gx.grad_eq]; rfl), getElem?_addv, List.getElem?_replicate,
      if_pos hi]
    simp only [Option.map_some', zero_add, hv0, hogi, mul_one_div]
  · rw [gradAt_of hy5 (by rw [gy.grad_eq]; rfl), getElem?_addv, List.getElem?_replicate,
      if_pos hi]
    simp only [Option.map_some', zero_add, hv1, hogi, mul_one_div]

theorem noGrad_ok {t : Tensor F} (ng : NoGrad t) (n : Nat) : GradOK t n := by
  intro h
  rw [ng.tracks] at h
  cases h

/-- The diamond in general.  On `b = mul(a, w)`, `c = add(b, b)` over leaf float
matrices `a` (tracking, zero gradient) and `w` (not tracking) of one type and
shape, with `c`'s gradient set to ones by `grad_init`, `backward(c)` returns and
leaves `a.grad[i] = 4 * w[i]` for every `i`, twice the derivative `2 * w[i]`:
`b`'s rule runs once per incoming edge, each time on `b`'s gradient that
already holds both edges' contributions. -/
theorem diamond_backward (L : Libm F) (h : Heap F) (a w : Nat) (ta tw : Tensor F)
    (r c : Nat) (xs ws : List F) (fuel : Nat)
    (ha : h.deref a = some ta) (hw : h.deref w = some tw) (haw : a ≠ w)
    (ma : IsMat ta r c xs) (mw : IsMat tw r c ws) (hdt : ta.dtype = tw.dtype)
    (la : IsLeaf ta) (lw : IsLeaf tw)
    (ga : HasGrad ta (List.replicate (r * c) 0)) (gw : NoGrad tw) :
    ∃ h1 b h2 cc h3 h4,
      mul h (some a) (some w) = some (h1, some b) ∧
      add h1 (some b) (some b) = some (h2, some cc) ∧
      grad_init h2 (some cc) = some h3 ∧
      backward L (fuel + 3) h3 (some cc) = .ok h4 ∧
      ∀ i, i < r * c → gradAt h4 a i = some (4 * ws.getD i 0) := by
  have halt := deref_eq_some_lt ha
  have hwlt := deref_eq_some_lt hw
  have hsa : ta.size = ((r * c : Nat) : Int) := by rw [ma.size_eq]; push_cast; rfl
  -- forward
  set Db : List F := (List.range (r * c)).map fun i => xs.getD i 0 * ws.getD i 0 with hDb
  set tb : Tensor F := binResult .MUL ta tw a w Db with htb
  have hmul := mul_float h a w ta tw r c xs ws ha hw ma mw hdt
  have mb : IsMat tb r c Db := binResult_isMat .MUL tw a w ma Db (by simp [hDb])
  have gb : HasGrad tb (List.replicate (r * c) 0) :=
    binResult_hasGrad .MUL tw a w ma Db (Or.inl ga.tracks)
  have hb1 : Heap.deref (h ++ [some tb]) h.length = some tb := deref_append_new h tb
  set Dc : List F := (List.range (r * c)).map fun i => Db.getD i 0 + Db.getD i 0 with hDc
  set tc : Tensor F := binResult .ADD tb tb h.length h.length Dc with htc
  have hadd := add_float (h ++ [some tb]) h.length h.length tb tb r c Db Db hb1 hb1 mb mb rfl
  have mc : IsMat tc r c Dc := binResult_isMat .ADD tb h.length h.length mb Dc (by simp [hDc])
  have gc : HasGrad tc (List.replicate (r * c) 0) :=
    binResult_hasGrad .ADD tb h.length h.length mb Dc (Or.inl gb.tracks)
  have hlen1 : (h ++ [some tb]).length = h.length + 1 := by simp
  set h2 : Heap F := h ++ [some tb] ++ [some tc] with hh2
  have hc2 : h2.deref (h ++ [some tb]).length = some tc := deref_append_new _ tc
  have hb2 : h2.deref h.length = some tb := deref_append_left _ hb1
  have ha2 : h2.deref a = some ta := deref_append_left _ (deref_append_left _ ha)
  have hw2 : h2.deref w = some tw := deref_append_left _ (deref_append_left _ hw)
  -- seed
  have hgi := grad_init_spec h2 (h ++ [some tb]).length tc r c Dc _ hc2 mc gc
  set ones : List F := List.replicate (r * c) 1 with hones
  set h3 : Heap F := setGrad h2 (h ++ [some tb]).length ones with hh3
  have hc3 : h3.deref (h ++ [some tb]).length = some { tc with grad := some ones } := by
    rw [hh3, deref_setGrad_self hc2]
  have hb3 : h3.deref h.length = some tb := by rw [hh3, deref_setGrad_ne _ _ (by omega), hb2]
  have ha3 : h3.deref a = some ta := by rw [hh3, deref_setGrad_ne _ _ (by omega), ha2]
  have hw3 : h3.deref w = some tw := by rw [hh3, deref_setGrad_ne _ _ (by omega), hw2]
  -- the add rule at c
  have hgbok : GradOK tb (r * c) := hasGrad_ok gb (by rw [mb.size_eq]; push_cast; rfl)
  have hrule := add_backward_spec h3 (h ++ [some tb]).length h.length h.length _ tb tb ta.dtype
    r c ones hc3 rfl rfl mc.dims_eq rfl mc.size_eq rfl (by simp [hones])
    hb3 mb.dims_eq rfl hgbok hb3 mb.dims_eq rfl hgbok ma.cols_pos ma.isFloat
    (by omega) (by omega)
  rw [accIf_true gb.tracks, accIf_true gb.tracks] at hrule
  set v : Nat → F := fun i => ones.getD i 0 with hv
  set h4 : Heap F := accGrad (accGrad h3 h.length v) h.length v with hh4
  set og : List F := addv (addv (List.replicate (r * c) 0) v) v with hog
  have hb4 : h4.deref h.length = some { tb with grad := some og } := by
    rw [hh4, deref_accGrad_self (deref_accGrad_self hb3 v) v, gb.grad_eq]
    rfl
  have hc4 : h4.deref (h ++ [some tb]).length = some { tc with grad := some ones } := by
    rw [hh4, deref_accGrad_ne _ _ (by omega), deref_accGrad_ne _ _ (by omega), hc3]
  have ha4 : h4.deref a = some ta := by
    rw [hh4, deref_accGrad_ne _ _ (by omega), deref_accGrad_ne _ _ (by omega), ha3]
  have hw4 : h4.deref w = some tw := by
    rw [hh4, deref_accGrad_ne _ _ (by omega), deref_accGrad_ne _ _ (by omega), hw3]
  have hogl : og.length = r * c := by simp [hog, length_addv]
  -- first visit of b
  have hv1 := backward_mul_leaves L fuel h4 h.length a w _ ta tw ta.dtype r c og xs ws
    hb4 rfl rfl rfl rfl mb.dims_eq rfl mb.size_eq rfl hogl
    ha4 ma rfl (hasGrad_ok ga hsa) la hw4 mw hdt.symm (noGrad_ok gw _) lw
    (by omega) (by omega) haw
  set v0 : Nat → F := fun i => ws.getD i 0 * og.getD i 0 with hv0
  set v1 : Nat → F := fun i => xs.getD i 0 * og.getD i 0 with hv1'
  set h5 : Heap F := accIf tw (accIf ta h4 a v0) w v1 with hh5
  have hb5 : h5.deref h.length = some { tb with grad := some og } := by
    rw [hh5, deref_accIf_ne _ _ _ (by omega), deref_accIf_ne _ _ _ (by omega), hb4]
  have hc5 : h5.deref (h ++ [some tb]).length = some { tc with grad := some ones } := by
    rw [hh5, deref_accIf_ne _ _ _ (by omega), deref_accIf_ne _ _ _ (by omega), hc4]
  obtain ⟨taa, haa, saa⟩ := deref_accIf_same ta h4 a a v0 ha4
  obtain ⟨ta5, ha5, sab⟩ := deref_accIf_same tw _ w a v1 haa
  have sa5 := saa.trans sab
  obtain ⟨twa, hwa, swa⟩ := deref_accIf_same ta h4 a w v0 hw4
  obtain ⟨tw5, hw5, swb⟩ := deref_accIf_same tw _ w w v1 hwa
  have sw5 := swa.trans swb
  -- second visit of b
  have hv2 := backward_mul_leaves L fuel h5 h.length a w _ ta5 tw5 ta.dtype r c og xs ws
    hb5 rfl rfl rfl rfl mb.dims_eq rfl mb.size_eq rfl hogl
    ha5 (sa5.isMat ma) sa5.dtype (sa5.gradOK (hasGrad_ok ga hsa)) (sa5.isLeaf la)
    hw5 (sw5.isMat mw) (sw5.dtype.trans hdt.symm) (sw5.gradOK (noGrad_ok gw _)) (sw5.isLeaf lw)
    (by omega) (by omega) haw
  set h6 : Heap F := accIf tw5 (accIf ta5 h5 a v0) w v1 with hh6
  have hc6 : h6.deref (h ++ [some tb]).length = some { tc with grad := some ones } := by
    rw [hh6, deref_accIf_ne _ _ _ (by omega), deref_accIf_ne _ _ _ (by omega), hc5]
  have bc : backward L (fuel + 3) h3 (some (h ++ [some tb]).length) = .ok h6 := by
    refine backward_node2 L (fuel + 2) ?_ hc4 rfl (rdPrev_of hc4 rfl) hv1 hc5
      (rdPrev_of hc5 rfl) hv2 hc6
    rw [dispatch_op hc3]
    simpa [htc, binResult] using hrule
  refine ⟨_, _, _, _, _, _, hmul, hadd, hgi, bc, ?_⟩
  intro i hi
  have htr5 : ta5.requires_grad = bool.true := by rw [sa5.requires_grad, ga.tracks]
  have hogi : og.getD i 0 = 2 := by
    have e1 : (addv (List.replicate (r * c) (0 : F)) v)[i]? = some (0 + v i) := by
      rw [getElem?_addv, List.getElem?_replicate, if_pos hi]; rfl
    have e2 : og[i]? = some (0 + v i + v i) := by
      rw [hog, getElem?_addv, e1]; rfl
    rw [List.getD_eq_getElem?_getD, e2]
    simp only [hv, hones, getD_replicate_one _ _ hi, Option.getD_some]
    norm_num
  rw [hh6, gradAt_accIf_ne _ _ _ haw, gradAt_accIf_self htr5, hh5, gradAt_accIf_ne _ _ _ haw,
    gradAt_accIf_self ga.tracks, gradAt_of ha4 ga.grad_eq, List.getElem?_replicate, if_pos hi]
  simp only [Option.map_some', zero_add, hv0, hogi]
  congr 1
  ring

/-- C6: gradient accumulation is additive across two `backward` runs on graphs
that share a leaf.  For leaf float matrices `x` (tracking, with any gradient
`g0`), `y1`, `y2` (each distinct from `x`, tracking or not) of one type and
shape: `z1 = mul(x, y1)` and `z2 = mul(x, y2)` succeed, `grad_init` sets both
results' gradients to ones, `backward(z1)` then `backward(z2)` return, and
`x.grad[i] = g0[i] + y1[i] + y2[i]` for every `i`. -/
theorem backward_twice_additive (L : Libm F) (h : Heap F) (x y1 y2 : Nat)
    (tx ty1 ty2 : Tensor F) (r c : Nat) (xs ys1 ys2 g0 : List F) (fuel : Nat)
    (hx : h.deref x = some tx) (hy1 : h.deref y1 = some ty1) (hy2 : h.deref y2 = some ty2)
    (hxy1 : x ≠ y1) (hxy2 : x ≠ y2)
    (mx : IsMat tx r c xs) (my1 : IsMat ty1 r c ys1) (my2 : IsMat ty2 r c ys2)
    (hdt1 : tx.dtype = ty1.dtype) (hdt2 : tx.dtype = ty2.dtype)
    (lx : IsLeaf tx) (ly1 : IsLeaf ty1) (ly2 : IsLeaf ty2)
    (gx : HasGrad tx g0) (gy1 : GradOK ty1 (r * c)) (gy2 : GradOK ty2 (r * c)) :
    ∃ h1 z1 h2 z2 h3 h4 h5 h6,
      mul h (some x) (some y1) = some (h1, some z1) ∧
      mul h1 (some x) (some y2) = some (h2, some z2) ∧
      grad_init h2 (some z1) = some h3 ∧
      grad_init h3 (some z2) = some h4 ∧
      backward L (fuel + 2) h4 (some z1) = .ok h5 ∧
      backward L (fuel + 2) h5 (some z2) = .ok h6 ∧
      ∀ i, i < r * c →
        gradAt h6 x i = some (g0.getD i 0 + ys1.getD i 0 + ys2.getD i 0) := by
  have hxlt := deref_eq_some_lt hx
  have hy1lt := deref_eq_some_lt hy1
  have hy2lt := deref_eq_some_lt hy2
  have hsx : tx.size = ((r * c : Nat) : Int) := by rw [mx.size_eq]; push_cast; rfl
  have hg0l : g0.length = r * c := by
    have := gx.len_eq
    rw [hsx] at this
    exact_mod_cast this
  -- forward
  set D1 : List F := (List.range (r * c)).map fun i => xs.getD i 0 * ys1.getD i 0 with hD1
  set D2 : List F := (List.range (r * c)).map fun i => xs.getD i 0 * ys2.getD i 0 with hD2
  set tz1 : Tensor F := binResult .MUL tx ty1 x y1 D1 with htz1
  set tz2 : Tensor F := binResult .MUL tx ty2 x y2 D2 with htz2
  have hmul1 := mul_float h x y1 tx ty1 r c xs ys1 hx hy1 mx my1 hdt1
  have hx1 : Heap.deref (h ++ [some tz1]) x = some tx := deref_append_left _ hx
  have hy21 : Heap.deref (h ++ [some tz1]) y2 = some ty2 := deref_append_left _ hy2
  have hmul2 := mul_float (h ++ [some tz1]) x y2 tx ty2 r c xs ys2 hx1 hy21 mx my2 hdt2
  have mz1 : IsMat tz1 r c D1 := binResult_isMat .MUL ty1 x y1 mx D1 (by simp [hD1])
  have mz2 : IsMat tz2 r c D2 := binResult_isMat .MUL ty2 x y2 mx D2 (by simp [hD2])
  have gz1 : HasGrad tz1 (List.replicate (r * c) 0) :=
    binResult_hasGrad .MUL ty1 x y1 mx D1 (Or.inl gx.tracks)
  have gz2 : HasGrad tz2 (List.replicate (r * c) 0) :=
    binResult_hasGrad .MUL ty2 x y2 mx D2 (Or.inl gx.tracks)
  have hlen1 : (h ++ [some tz1]).length = h.length + 1 := by simp
  set h2 : Heap F := h ++ [some tz1] ++ [some tz2] with hh2
  have hz12 : h2.deref h.length = some tz1 := deref_append_left _ (deref_append_new h tz1)
  have hz22 : h2.deref (h ++ [some tz1]).length = some tz2 := deref_append_new _ tz2
  have hx2 : h2.deref x = some tx := deref_append_left _ hx1
  have hy12 : h2.deref y1 = some ty1 := deref_append_left _ (deref_append_left _ hy1)
  have hy22 : h2.deref y2 = some ty2 := deref_append_left _ hy21
  -- seeds
  have hgi1 := grad_init_spec h2 h.length tz1 r c D1 _ hz12 mz1 gz1
  set h3 : Heap F := setGrad h2 h.length (List.replicate (r * c) 1) with hh3
  have hz23 : h3.deref (h ++ [some tz1]).length = some tz2 := by
    rw [hh3, deref_setGrad_ne _ _ (by omega), hz22]
  have hgi2 := grad_init_spec h3 (h ++ [some tz1]).length tz2 r c D2 _ hz23 mz2 gz2
  set h4 : Heap F := setGrad h3 (h ++ [some tz1]).length (List.replicate (r * c) 1) with hh4
  have hz14 : h4.deref h.length = some { tz1 with grad := some (List.replicate (r * c) 1) } := by
    rw [hh4, deref_setGrad_ne _ _ (by omega), hh3, deref_setGrad_self hz12]
  have hz24 : h4.deref (h ++ [some tz1]).length
      = some { tz2 with grad := some (List.replicate (r * c) 1) } := by
    rw [hh4, deref_setGrad_self hz23]
  have hx4 : h4.deref x = some tx := by
    rw [hh4, deref_setGrad_ne _ _ (by omega), hh3, deref_setGrad_ne _ _ (by omega), hx2]
  have hy14 : h4.deref y1 = some ty1 := by
    rw [hh4, deref_setGrad_ne _ _ (by omega), hh3, deref_setGrad_ne _ _ (by omega), hy12]
  have hy24 : h4.deref y2 = some ty2 := by
    rw [hh4, deref_setGrad_ne _ _ (by omega), hh3, deref_setGrad_ne _ _ (by omega), hy22]
  -- first run
  set ones : List F := List.replicate (r * c) 1 with hones
  have hb1 := backward_mul_leaves L fuel h4 h.length x y1 _ tx ty1 tx.dtype r c ones xs ys1
    hz14 rfl rfl rfl rfl mz1.dims_eq rfl mz1.size_eq rfl (by simp [hones])
    hx4 mx rfl (hasGrad_ok gx hsx) lx hy14 my1 hdt1.symm gy1 ly1 (by omega) (by omega) hxy1
  set v01 : Nat → F := fun i => ys1.getD i 0 * ones.getD i 0 with hv01
  set v11 : Nat → F := fun i => xs.getD i 0 * ones.getD i 0 with hv11
  set h5 : Heap F := accIf ty1 (accIf tx h4 x v01) y1 v11 with hh5
  have hz25 : h5.deref (h ++ [some tz1]).length
      = some { tz2 with grad := some (List.replicate (r * c) 1) } := by
    rw [hh5, deref_accIf_ne _ _ _ (by omega), deref_accIf_ne _ _ _ (by omega), hz24]
  obtain ⟨txa, hxa, sxa⟩ := deref_accIf_same tx h4 x x v01 hx4
  obtain ⟨tx5, hx5, sxb⟩ := deref_accIf_same ty1 _ y1 x v11 hxa
  have sx5 := sxa.trans sxb
  obtain ⟨tya, hya, sya⟩ := deref_accIf_same tx h4 x y2 v01 hy24
  obtain ⟨ty5, hy5, syb⟩ := deref_accIf_same ty1 _ y1 y2 v11 hya
  have sy5 := sya.trans syb
  -- second run
  have hb2 := backward_mul_leaves L fuel h5 (h ++ [some tz1]).length x y2 _ tx5 ty5 tx.dtype
    r c ones xs ys2 hz25 rfl rfl rfl rfl mz2.dims_eq rfl mz2.size_eq rfl (by simp [hones])
    hx5 (sx5.isMat mx) sx5.dtype (sx5.gradOK (hasGrad_ok gx hsx)) (sx5.isLeaf lx)
    hy5 (sy5.isMat my2) (sy5.dtype.trans hdt2.symm) (sy5.gradOK gy2) (sy5.isLeaf ly2)
    (by omega) (by omega) hxy2
  refine ⟨_, _, _, _, _, _, _, _, hmul1, hmul2, hgi1, hgi2, hb1, hb2, ?_⟩
  intro i hi
  have htr5 : tx5.requires_grad = bool.true := by rw [sx5.requires_grad, gx.tracks]
  rw [gradAt_accIf_ne _ _ _ hxy2, gradAt_accIf_self htr5, hh5, gradAt_accIf_ne _ _ _ hxy1,
    gradAt_accIf_self gx.tracks, gradAt_of hx4 gx.grad_eq,
    getElem?_getD g0 i 0 (by omega)]
  simp only [Option.map_some', hv01, hones, getD_replicate_one _ _ hi, mul_one]

/-- C10, amended: the backward rule of `relu`, float arithmetic read as exact
(every element a number, none a NaN).  For a float matrix `x` of `r * c`
elements that tracks gradients with gradient buffer `g`, `out = relu(x)`
succeeds with data `ys`; with any upstream gradient `og` stored in `out->grad`,
`relu_backward(out)` returns and leaves
`x.grad[i] = g[i] + (out.grad[i] if out.data[i] >= 0, else 0)` at every
position `i < r * c`.  The amount added is the value of the rule's expression
`(out.data[i] < 0) ? 0 : out.grad[i]` (`reluBwdExpr`), and `out.data[i]` is
the value of `relu`'s expression `(x[i] < 0) ? 0 : x[i]` (`reluExpr`); over an
ordered field the test `< 0` fails exactly when the element is `>= 0`. -/
theorem relu_backward_rule (h : Heap F) (x : Nat) (tx : Tensor F) (r c : Nat)
    (xs g og : List F)
    (hx : h.deref x = some tx) (mx : IsMat tx r c xs) (gx : HasGrad tx g)
    (hog : og.length = r * c) :
    ∃ h1 out ys h2,
      relu h (some x) = some (h1, some out) ∧
      dataOf h1 out = some ys ∧
      relu_backward (setGrad h1 out og) (some out) = some h2 ∧
      ∀ i, i < r * c →
        gradAt h2 x i = some (g.getD i 0 + if 0 ≤ ys.getD i 0 then og.getD i 0 else 0) ∧
        (if 0 ≤ ys.getD i 0 then og.getD i 0 else 0)
          = reluBwdExpr (ys.getD i 0) (og.getD i 0) ∧
        ys.getD i 0 = reluExpr (xs.getD i 0) := by
  set D : List F := (List.range (r * c)).map fun i => if xs.getD i 0 < 0 then 0 else xs.getD i 0
    with hD
  have hDl : D.length = r * c := by simp [hD]
  set tout : Tensor F := unResult .RELU tx x D with htout
  have hrelu := relu_float h x tx r c xs hx mx
  have hxlt := deref_eq_some_lt hx
  have ho1 : Heap.deref (h ++ [some tout]) h.length = some tout := deref_append_new h tout
  have hx1 : Heap.deref (h ++ [some tout]) x = some tx := deref_append_left _ hx
  have hfl := mx.isFloat
  have hdata : dataOf (h ++ [some tout]) h.length = some D := by
    have e : tout.data.floats = some D := by
      simp only [htout, unResult]
      cases hd : tx.dtype <;> simp [hd, DType.isFloat, Data.ofF, Data.floats] at hfl ⊢
    simp only [dataOf, ho1, Option.bind_eq_bind, Option.some_bind, e]
  have ho2 : (setGrad (h ++ [some tout]) h.length og).deref h.length
      = some { tout with grad := some og } := deref_setGrad_self ho1 og
  have hx2 : (setGrad (h ++ [some tout]) h.length og).deref x = some tx := by
    rw [deref_setGrad_ne _ _ (by omega), hx1]
  have hgl : g.length = r * c := by
    have := gx.len_eq; rw [mx.size_eq] at this; exact_mod_cast this
  have hb := relu_backward_spec (setGrad (h ++ [some tout]) h.length og) h.length x
    { tout with grad := some og } tx tx.dtype r c og g D ho2 rfl hx2 (by omega) mx.dims_eq
    mx.size_eq mx.cols_pos hfl rfl rfl rfl hDl rfl hog gx.tracks gx.grad_eq hgl
  refine ⟨_, _, _, _, hrelu, hdata, hb, ?_⟩
  intro i hi
  have hgi : g[i]? = some (g.getD i 0) := getElem?_getD g i 0 (by omega)
  have hDi : D.getD i 0 = reluExpr (xs.getD i 0) := by
    simp [hD, reluExpr, List.getD, List.getElem?_map, List.getElem?_range hi]
  have hexpr : (if 0 ≤ D.getD i 0 then og.getD i 0 else 0)
      = reluBwdExpr (D.getD i 0) (og.getD i 0) := by
    unfold reluBwdExpr
    by_cases hy : D.getD i 0 < 0
    · rw [if_pos hy, if_neg (not_le.mpr hy)]
    · rw [if_neg hy, if_pos (not_lt.mp hy)]
  refine ⟨?_, hexpr, hDi⟩
  rw [gradAt_accGrad_self, gradAt_of hx2 gx.grad_eq, hgi]
  simp only [Option.map_some']
  by_cases hy : D.getD i 0 < 0
  · rw [if_pos hy, if_neg (not_le.mpr hy)]
  · rw [if_neg hy, if_pos (not_lt.mp hy)]

/-- Instance of `relu_backward_rule` on `x = [[-1, 0, 2]]` with gradient
`[10, 20, 30]` and upstream gradient `[1, 1, 1]` over the rationals. -/
theorem relu_backward_rule_witness :
    ∃ h1 out ys h2,
      relu exRelu (some 0) = some (h1, some out) ∧
      dataOf h1 out = some ys ∧
      relu_backward (setGrad h1 out [1, 1, 1]) (some out) = some h2 ∧
      ∀ i, i < 1 * 3 →
        gradAt h2 0 i = some (([10, 20, 30] : List ℚ).getD i 0
          + if 0 ≤ ys.getD i 0 then ([1, 1, 1] : List ℚ).getD i 0 else 0) ∧
        (if 0 ≤ ys.getD i 0 then ([1, 1, 1] : List ℚ).getD i 0 else 0)
          = reluBwdExpr (ys.getD i 0) (([1, 1, 1] : List ℚ).getD i 0) ∧
        ys.getD i 0 = reluExpr (([-1, 0, 2] : List ℚ).getD i 0) :=
  relu_backward_rule exRelu 0
    { leafMat .FLOAT64 1 3 [-1, 0, 2] .true with grad := some [10, 20, 30] } 1 3
    [-1, 0, 2] [10, 20, 30] [1, 1, 1] rfl
    ⟨rfl, rfl, rfl, rfl, by decide, rfl, rfl, by decide⟩ ⟨rfl, rfl, rfl⟩ rfl

/-- C10 as stated, for every float result, fails on a NaN element.  In
floating point `relu` returns a NaN element as it is (`NaN < 0` is false), the
result element NaN is not `>= 0`, and the rule's expression still yields the
upstream gradient `1`, not `0`: `relu_backward` adds `out.grad[i]` where the
claim says it adds 0. -/
theorem relu_backward_rule_counterexample :
    reluExpr Fp64.nan = Fp64.nan ∧ ¬ (0 ≤ reluExpr Fp64.nan) ∧
    reluBwdExpr (reluExpr Fp64.nan) (Fp64.num 1) = Fp64.num 1 ∧ Fp64.num 1 ≠ 0 :=
  ⟨rfl, by decide, rfl, by decide⟩

/-- C11: the backward rule of `sub`.  For two distinct float matrices `a`, `b`
of one type and shape, both tracking with gradient buffers `ga`, `gb`:
`out = sub(a, b)` succeeds, and with any upstream gradient `og` stored in
`out->grad`, `sub_backward(out)` returns and leaves
`a.grad[i] = ga[i] + og[i]` and `b.grad[i] = gb[i] - og[i]` for every `i`. -/
theorem sub_backward_rule (h : Heap F) (a b : Nat) (ta tb : Tensor F) (r c : Nat)
    (xs ys ga gb og : List F)
    (ha : h.deref a = some ta) (hb : h.deref b = some tb) (hab : a ≠ b)
    (ma : IsMat ta r c xs) (mb : IsMat tb r c ys) (hdt : ta.dtype = tb.dtype)
    (gA : HasGrad ta ga) (gB : HasGrad tb gb) (hog : og.length = r * c) :
    ∃ h1 out h2,
      sub h (some a) (some b) = some (h1, some out) ∧
      sub_backward (setGrad h1 out og) (some out) = some h2 ∧
      ∀ i, i < r * c →
        gradAt h2 a i = some (ga.getD i 0 + og.getD i 0) ∧
        gradAt h2 b i = some (gb.getD i 0 - og.getD i 0) := by
  set D : List F := (List.range (r * c)).map fun i => xs.getD i 0 - ys.getD i 0 with hD
  have hDl : D.length = r * c := by simp [hD]
  set tout : Tensor F := binResult .SUB ta tb a b D with htout
  have hsub := sub_float h a b ta tb r c xs ys ha hb ma mb hdt
  have mo : IsMat tout r c D := binResult_isMat .SUB tb a b ma D hDl
  have halt := deref_eq_some_lt ha
  have hblt := deref_eq_some_lt hb
  have ho1 : Heap.deref (h ++ [some tout]) h.length = some tout := deref_append_new h tout
  have ha1 : Heap.deref (h ++ [some tout]) a = some ta := deref_append_left _ ha
  have hb1 : Heap.deref (h ++ [some tout]) b = some tb := deref_append_left _ hb
  set hs : Heap F := setGrad (h ++ [some tout]) h.length og with hhs
  have ho2 : hs.deref h.length = some { tout with grad := some og } :=
    deref_setGrad_self ho1 og
  have ha2 : hs.deref a = some ta := by rw [hhs, deref_setGrad_ne _ _ (by omega), ha1]
  have hb2 : hs.deref b = some tb := by rw [hhs, deref_setGrad_ne _ _ (by omega), hb1]
  have hsa : ta.size = ((r * c : Nat) : Int) := by rw [ma.size_eq]; push_cast; rfl
  have hsb : tb.size = ((r * c : Nat) : Int) := by rw [mb.size_eq]; push_cast; rfl
  have hspec := sub_backward_spec hs h.length a b { tout with grad := some og } ta tb ta.dtype
    r c og ho2 rfl rfl mo.dims_eq rfl mo.size_eq rfl hog ha2 ma.dims_eq rfl (hasGrad_ok gA hsa)
    hb2 mb.dims_eq hdt.symm (hasGrad_ok gB hsb) ma.cols_pos ma.isFloat (by omega) (by omega)
  rw [accIf_true gA.tracks, accIf_true gB.tracks] at hspec
  have hgal : ga.length = r * c := by
    have := gA.len_eq; rw [hsa] at this; exact_mod_cast this
  have hgbl : gb.length = r * c := by
    have := gB.len_eq; rw [hsb] at this; exact_mod_cast this
  refine ⟨_, _, _, hsub, hspec, ?_⟩
  intro i hi
  constructor
  · rw [gradAt_accGrad_ne _ _ hab, gradAt_accGrad_self, gradAt_of ha2 gA.grad_eq,
      getElem?_getD ga i 0 (by omega)]
    rfl
  · rw [gradAt_accGrad_self, gradAt_accGrad_ne _ _ (Ne.symm hab), gradAt_of hb2 gB.grad_eq,
      getElem?_getD gb i 0 (by omega)]
    simp only [Option.map_some', sub_eq_add_neg]

theorem condBool_lnot (b : bool) : condBool (lnot b) = b := by
  cases b <;> rfl

theorem condBool_or_true (a b : bool) :
    condBool (lnot a || lnot b) = bool.true ↔ a = bool.true ∨ b = bool.true := by
  cases a <;> cases b <;> simp [condBool, lnot, bool.toInt]

theorem BinRes.bTracks {h h1 : Heap F} {a b t : Nat} (r : BinRes h a b h1 t) :
    Tracks h1 t ↔ Tracks h a ∨ Tracks h b := by
  obtain ⟨ta, tb, tt, ha, hb, ht, _, _, _, hrg⟩ := r
  simp only [Tracks, ha, hb, ht, Option.some.injEq, exists_eq_left', hrg, condBool_or_true]

theorem UnRes.uTracks {h h1 : Heap F} {a t : Nat} (r : UnRes h a h1 t) :
    Tracks h1 t ↔ Tracks h a := by
  obtain ⟨ta, tt, ha, ht, _, _, hrg⟩ := r
  simp only [Tracks, ha, ht, Option.some.injEq, exists_eq_left', hrg, condBool_lnot]

theorem binaryOps_result (L : Libm F)
    {op : Heap F → Option Nat → Option Nat → Option (Heap F × Option Nat)}
    (hop : op ∈ binaryOps L) {h h1 : Heap F} {a b t : Nat}
    (hs : op h (some a) (some b) = some (h1, some t)) : BinRes h a b h1 t := by
  simp only [binaryOps, List.mem_cons, List.mem_singleton, List.not_mem_nil, or_false] at hop
  rcases hop with rfl | rfl | rfl | rfl | rfl
  · exact (add_result hs).1
  · exact (sub_result hs).1
  · exact (mul_result hs).1
  · exact (matmul_result hs).1
  · exact (Div_result L hs).1

theorem unaryOps_result (L : Libm F) (cvt : F → Int) (e s : F)
    {op : Heap F → Option Nat → Option (Heap F × Option Nat)}
    (hop : op ∈ unaryOps L cvt e s) {h h1 : Heap F} {a t : Nat}
    (hs : op h (some a) = some (h1, some t)) : UnRes h a h1 t := by
  simp only [unaryOps, List.mem_cons, List.mem_singleton, List.not_mem_nil, or_false] at hop
  rcases hop with rfl | rfl | rfl | rfl | rfl | rfl | rfl | rfl | rfl
  · exact (Pow_result L cvt e hs).1
  · exact (Exp_result L hs).1
  · exact (relu_result hs).1
  · exact (leaky_relu_result s hs).1
  · exact (Sigmoid_result L hs).1
  · exact (Tanh_result L hs).1
  · exact (softmax_result L hs).1
  · exact (sum_result hs).1
  · exact (mean_result hs).1

/-- C13 (counterexample): `MSELoss(yTrue, yPred)` with `yTrue` tracking and
`yPred` not tracking returns a result whose `requires_grad` is `false`. -/
theorem mse_flag_counterexample :
    ((MSELoss libmQ exMSE3 (some 0) (some 1)).bind fun r =>
        r.2.bind fun t => (r.1.deref t).map fun tt => tt.requires_grad) = some bool.false ∧
    ((exMSE3.deref 0).map fun tt => tt.requires_grad) = some bool.true := by
  constructor <;> with_unfolding_all decide

/-- C13 (amended): the tracking flag of a result.  For `add`, `sub`, `mul`,
`matmul` and `Div` the result tracks gradients iff the first or the second
operand does; for `MSELoss(yTrue, yPred)` the result tracks iff `yPred` does
(the flag of `yTrue` is not read); for `Pow`, `Exp`, `relu`, `leaky_relu`,
`Sigmoid`, `Tanh`, `softmax`, `sum` and `mean` the result tracks iff the
operand does.  This holds of every result the operations return, for the four
element types: the integer cases of `Div`, `Exp`, `Sigmoid` and `Tanh` return
a result as the float cases do. -/
theorem result_tracks_iff (L : Libm F) (cvt : F → Int) (e s : F) :
    (∀ op ∈ binaryOps L, ∀ (h : Heap F) (a b : Nat) (h1 : Heap F) (t : Nat),
      op h (some a) (some b) = some (h1, some t) →
      (Tracks h1 t ↔ Tracks h a ∨ Tracks h b)) ∧
    (∀ (h : Heap F) (yTrue yPred : Nat) (h1 : Heap F) (t : Nat),
      MSELoss L h (some yTrue) (some yPred) = some (h1, some t) →
      (Tracks h1 t ↔ Tracks h yPred)) ∧
    (∀ op ∈ unaryOps L cvt e s, ∀ (h : Heap F) (a : Nat) (h1 : Heap F) (t : Nat),
      op h (some a) = some (h1, some t) → (Tracks h1 t ↔ Tracks h a)) := by
  refine ⟨fun op hop h a b h1 t hs => (binaryOps_result L hop hs).bTracks, ?_,
    fun op hop h a h1 t hs => (unaryOps_result L cvt e s hop hs).uTracks⟩
  intro h yt yp h1 t hs
  obtain ⟨ta, tb, tt, ha, hb, ht, _, _, _, hrg, _⟩ := MSELoss_result L hs
  simp only [Tracks, hb, ht, Option.some.injEq, exists_eq_left', hrg, condBool_lnot]

/-- Instance of `result_tracks_iff`: `Div` on the `INT32` tensors `a = [[6]]`
and `b = [[3]]`, which returns the result at address 2 of `exDivIOut`. -/
theorem result_tracks_iff_witness :
    Div libmQ exDivI (some 0) (some 1) = some (exDivIOut, some 2) ∧
    (Tracks exDivIOut 2 ↔ Tracks exDivI 0 ∨ Tracks exDivI 1) :=
  ⟨by with_unfolding_all rfl,
    (result_tracks_iff libmQ (fun _ => 0) 2 0).1 (Div libmQ) (by simp [binaryOps]) exDivI 0 1
      exDivIOut 2 (by with_unfolding_all rfl)⟩

theorem BinRes.bWellBuilt {h h1 : Heap F} {a b t : Nat} (r : BinRes h a b h1 t) :
    ∃ tt, h1.deref t = some tt ∧ WellBuilt tt := by
  obtain ⟨_, _, tt, _, _, ht, w, _⟩ := r
  exact ⟨tt, ht, w⟩

theorem UnRes.uWellBuilt {h h1 : Heap F} {a t : Nat} (r : UnRes h a h1 t) :
    ∃ tt, h1.deref t = some tt ∧ WellBuilt tt := by
  obtain ⟨_, tt, _, ht, w, _⟩ := r
  exact ⟨tt, ht, w⟩

/-- Every result of one of the fifteen recorded forward operations is
well built. -/
theorem forward_wellBuilt (L : Libm F) (cvt : F → Int) (e s : F) :
    (∀ op ∈ binaryOps L, ∀ (h : Heap F) (a b : Nat) (h1 : Heap F) (t : Nat),
      op h (some a) (some b) = some (h1, some t) → ∃ tt, h1.deref t = some tt ∧ WellBuilt tt) ∧
    (∀ (h : Heap F) (yTrue yPred : Nat) (h1 : Heap F) (t : Nat),
      MSELoss L h (some yTrue) (some yPred) = some (h1, some t) →
      ∃ tt, h1.deref t = some tt ∧ WellBuilt tt) ∧
    (∀ op ∈ unaryOps L cvt e s, ∀ (h : Heap F) (a : Nat) (h1 : Heap F) (t : Nat),
      op h (some a) = some (h1, some t) → ∃ tt, h1.deref t = some tt ∧ WellBuilt tt) := by
  refine ⟨fun op hop h a b h1 t hs => (binaryOps_result L hop hs).bWellBuilt, ?_,
    fun op hop h a h1 t hs => (unaryOps_result L cvt e s hop hs).uWellBuilt⟩
  intro h yt yp h1 t hs
  obtain ⟨_, _, tt, _, _, ht, w, _⟩ := MSELoss_result L hs
  exact ⟨tt, ht, w⟩

/-- C14: a tensor owns a gradient buffer exactly when it is floating-point and
tracks gradients.  Every struct `tensor(data, dtype, dims, ndim, rg)` returns
has a zeroed gradient buffer of `size` entries when `dtype` is `FLOAT32` or
`FLOAT64` and `rg` is the value `true`, and none otherwise; the same holds,
in terms of its own `dtype` and `requires_grad`, of every result of the
fifteen recorded forward operations, for the four element types (the integer
cases of `Div`, `Exp`, `Sigmoid` and `Tanh` return a result as the float cases
do, and it has no gradient buffer). -/
theorem grad_buffer_iff (L : Libm F) (cvt : F → Int) (e s : F) :
    (∀ (h : Heap F) (data : Option (Data F)) (dt : DType) (dims : Option (List Int))
      (ndim : Int) (rg : bool) (h1 : Heap F) (t : Nat),
      tensor h data dt dims ndim rg = some (h1, some t) →
      ∃ tt, h1.deref t = some tt ∧
        tt.grad = if dt.isFloat = true ∧ rg = bool.true
          then some (List.replicate tt.size.toNat 0) else none) ∧
    (∀ op ∈ binaryOps L, ∀ (h : Heap F) (a b : Nat) (h1 : Heap F) (t : Nat),
      op h (some a) (some b) = some (h1, some t) →
      ∃ tt, h1.deref t = some tt ∧
        tt.grad = if tt.dtype.isFloat = true ∧ tt.requires_grad = bool.true
          then some (List.replicate tt.size.toNat 0) else none) ∧
    (∀ (h : Heap F) (yTrue yPred : Nat) (h1 : Heap F) (t : Nat),
      MSELoss L h (some yTrue) (some yPred) = some (h1, some t) →
      ∃ tt, h1.deref t = some tt ∧
        tt.grad = if tt.dtype.isFloat = true ∧ tt.requires_grad = bool.true
          then some (List.replicate tt.size.toNat 0) else none) ∧
    (∀ op ∈ unaryOps L cvt e s, ∀ (h : Heap F) (a : Nat) (h1 : Heap F) (t : Nat),
      op h (some a) = some (h1, some t) →
      ∃ tt, h1.deref t = some tt ∧
        tt.grad = if tt.dtype.isFloat = true ∧ tt.requires_grad = bool.true
          then some (List.replicate tt.size.toNat 0) else none) := by
  obtain ⟨fb, fm, fu⟩ := forward_wellBuilt L cvt e s
  refine ⟨?_, ?_, ?_, ?_⟩
  · intro h data dt dims ndim rg h1 t ht
    obtain ⟨ds, tt, _, rfl, rfl, b⟩ := tensor_built ht
    exact ⟨tt, deref_append_new h tt, b.grad_eq⟩
  · intro op hop h a b h1 t hs
    obtain ⟨tt, ht, w⟩ := fb op hop h a b h1 t hs
    exact ⟨tt, ht, w.grad_eq⟩
  · intro h yt yp h1 t hs
    obtain ⟨tt, ht, w⟩ := fm h yt yp h1 t hs
    exact ⟨tt, ht, w.grad_eq⟩
  · intro op hop h a h1 t hs
    obtain ⟨tt, ht, w⟩ := fu op hop h a h1 t hs
    exact ⟨tt, ht, w.grad_eq⟩

/-- Instances of `grad_buffer_iff`: `tensor(NULL, FLOAT32, {2, 2}, 2, true)` on
the heap `exXY` over the rationals, and `Exp` on the `INT64` tensor `[[0]]`,
which returns the result at address 1 of `exExpIOut`. -/
theorem grad_buffer_iff_witness :
    (∃ tt, Heap.deref (exXY ++ [some (fresh .FLOAT32 [((2 : Nat) : Int), ((2 : Nat) : Int)]
        bool.true)]) exXY.length = some tt ∧
      tt.grad = if DType.isFloat .FLOAT32 = true ∧ bool.true = bool.true
        then some (List.replicate tt.size.toNat 0) else none) ∧
    Exp libmQ exZeroI (some 0) = some (exExpIOut, some 1) ∧
    (∃ tt, exExpIOut.deref 1 = some tt ∧
      tt.grad = if tt.dtype.isFloat = true ∧ tt.requires_grad = bool.true
        then some (List.replicate tt.size.toNat 0) else none) :=
  ⟨(grad_buffer_iff libmQ (fun _ => 0) 2 0).1 exXY none .FLOAT32
      (some [((2 : Nat) : Int), ((2 : Nat) : Int)]) 2 bool.true _ _
      (tensor_mat exXY .FLOAT32 2 2 bool.true (by decide)),
    by with_unfolding_all rfl,
    (grad_buffer_iff libmQ (fun _ => 0) 2 0).2.2.2 (Exp libmQ) (by simp [unaryOps]) exZeroI 0
      exExpIOut 1 (by with_unfolding_all rfl)⟩

/-- C15, amended: the postconditions of the constructor.  For a non-empty list
`ds` of positive sizes whose product is at most `INT_MAX`, each element type
and each flag (and, when `data` is given, a caller array of that type with at
least `size` elements), `tensor(data, dtype, ds, |ds|, rg)` returns a leaf:
dims `ds`, `size` the product of `ds`, a data buffer of exactly `size`
elements (all zero when `data` is `NULL`, the first `size` elements of `data`
otherwise), no producing operation, `num_prevs = 0`, `extra = 0`.  Every
result of the fifteen recorded forward operations, for the four element
types, again has `size` equal to the product of its dims and to the length of
its data. -/
theorem constructor_postconditions (L : Libm F) (cvt : F → Int) (e s : F) :
    (∀ (h : Heap F) (data : Option (Data F)) (dt : DType) (ds : List Int) (rg : bool),
      ds ≠ [] → (∀ d ∈ ds, 0 < d) → ds.prod ≤ INT_MAX →
      (∀ src, data = some src → src.isOf dt ∧ ds.prod.toNat ≤ src.len) →
      ∃ tt, tensor h data dt (some ds) ds.length rg = some (h ++ [some tt], some h.length) ∧
        tt.dtype = dt ∧ tt.dims = ds ∧ tt.size = ds.prod ∧ tt.data.len = ds.prod.toNat ∧
        (data = none → tt.data = Data.calloc dt ds.prod.toNat) ∧
        (∀ src, data = some src → tt.data = src.take ds.prod.toNat) ∧
        tt.op = none ∧ tt.num_prevs = 0 ∧ tt.extra = 0) ∧
    (∀ op ∈ binaryOps L, ∀ (h : Heap F) (a b : Nat) (h1 : Heap F) (t : Nat),
      op h (some a) (some b) = some (h1, some t) →
      ∃ tt, h1.deref t = some tt ∧ tt.size = tt.dims.prod ∧ (tt.data.len : Int) = tt.size) ∧
    (∀ (h : Heap F) (yTrue yPred : Nat) (h1 : Heap F) (t : Nat),
      MSELoss L h (some yTrue) (some yPred) = some (h1, some t) →
      ∃ tt, h1.deref t = some tt ∧ tt.size = tt.dims.prod ∧ (tt.data.len : Int) = tt.size) ∧
    (∀ op ∈ unaryOps L cvt e s, ∀ (h : Heap F) (a : Nat) (h1 : Heap F) (t : Nat),
      op h (some a) = some (h1, some t) →
      ∃ tt, h1.deref t = some tt ∧ tt.size = tt.dims.prod ∧ (tt.data.len : Int) = tt.size) := by
  obtain ⟨fb, fm, fu⟩ := forward_wellBuilt L cvt e s
  refine ⟨?_, ?_, ?_, ?_⟩
  · intro h data dt ds rg hne hpos hmax hsrc
    have hp := prod_pos_of_pos ds hpos
    obtain ⟨tt, ht⟩ :=
      tensor_total h data dt ds rg hne (le_of_lt hp) (fits_of_pos ds hpos hmax) hsrc
    obtain ⟨ds', tt', hds, _, hh, b⟩ := tensor_built ht
    cases hds
    have htt : tt' = tt := by
      have := List.append_cancel_left hh
      simpa using this.symm
    subst htt
    have hdims : tt'.dims = ds := by rw [b.dims_eq]; simp
    have hsize : tt'.size = ds.prod := by rw [b.size_eq]; simp
    have hlen : tt'.data.len = ds.prod.toNat := by
      have := b.toWellBuilt.len_eq
      rw [hsize] at this
      omega
    refine ⟨tt', ht, b.dtype_eq, hdims, hsize, hlen, ?_, ?_, b.op_eq, b.num_prevs_eq,
      b.extra_eq⟩
    · intro hd; rw [b.data_null hd, hsize]
    · intro src hd; rw [(b.data_copy src hd).2.2, hsize]
  · intro op hop h a b h1 t hs
    obtain ⟨tt, ht, w⟩ := fb op hop h a b h1 t hs
    exact ⟨tt, ht, w.size_eq, w.len_eq⟩
  · intro h yt yp h1 t hs
    obtain ⟨tt, ht, w⟩ := fm h yt yp h1 t hs
    exact ⟨tt, ht, w.size_eq, w.len_eq⟩
  · intro op hop h a h1 t hs
    obtain ⟨tt, ht, w⟩ := fu op hop h a h1 t hs
    exact ⟨tt, ht, w.size_eq, w.len_eq⟩

/-- C15 as stated, for every list of positive sizes, fails: for the dims
`{65536, 65536}` (positive, product `2^32`) the constructor has no outcome,
since the product overflows the `int` of `total_size`; no tensor whose `size`
is the product of the dims is returned.  (Where the compiled product wraps,
`size` is 0, again not the product `2^32`.) -/
theorem constructor_postconditions_counterexample :
    (∀ d ∈ ([65536, 65536] : List Int), 0 < d) ∧
    ([65536, 65536] : List Int).prod = 4294967296 ∧
    total_size [65536, 65536] 2 = none ∧
    tensor ([] : Heap ℚ) none .FLOAT32 (some [65536, 65536])
      ([65536, 65536] : List Int).length bool.false = none ∧
    tensor ([] : Heap ℚ) none .INT32 (some [65536, 65536])
      ([65536, 65536] : List Int).length bool.false = none :=
  ⟨by decide, by decide, rfl, rfl, rfl⟩

/-- C17: element-wise binary operations never broadcast.  For operands whose
dims array has one entry per rank: each of `add`, `sub`, `mul`, `Div` and
`MSELoss` returns `NULL` (and leaves the heap as it was) whenever the operands
differ in element type, in rank or in dims; and whenever `add`, `sub`, `mul`
or `Div` returns a result, the result's dims are the dims of both operands
(for the four element types: the integer cases of `Div` return a result as
the float cases do). -/
theorem no_broadcast (L : Libm F) :
    (∀ op ∈ elementwiseOps L, ∀ (h : Heap F) (a b : Nat) (ta tb : Tensor F),
      h.deref a = some ta → h.deref b = some tb →
      (ta.dims.length : Int) = ta.ndim → (tb.dims.length : Int) = tb.ndim →
      (ta.dtype ≠ tb.dtype ∨ ta.ndim ≠ tb.ndim ∨ ta.dims ≠ tb.dims) →
      op h (some a) (some b) = some (h, none)) ∧
    (∀ (h : Heap F) (yTrue yPred : Nat) (ta tb : Tensor F),
      h.deref yTrue = some ta → h.deref yPred = some tb →
      (ta.dims.length : Int) = ta.ndim → (tb.dims.length : Int) = tb.ndim →
      (ta.dtype ≠ tb.dtype ∨ ta.ndim ≠ tb.ndim ∨ ta.dims ≠ tb.dims) →
      MSELoss L h (some yTrue) (some yPred) = some (h, none)) ∧
    (∀ op ∈ elementwiseOps L, ∀ (h : Heap F) (a b : Nat) (ta tb : Tensor F) (h1 : Heap F)
      (t : Nat), h.deref a = some ta → h.deref b = some tb →
      (ta.dims.length : Int) = ta.ndim → (tb.dims.length : Int) = tb.ndim →
      op h (some a) (some b) = some (h1, some t) →
      ∃ tt, h1.deref t = some tt ∧ tt.dims = ta.dims ∧ tt.dims = tb.dims) :=
  ⟨fun _ hop h a b ta tb ha hb la lb hd =>
      elementwise_reject L hop h a b ta tb ha hb la lb hd,
    fun h yt yp ta tb ha hb la lb hd => MSELoss_reject L h yt yp ta tb ha hb la lb hd,
    fun _ hop h a b ta tb h1 t ha hb la lb hs =>
      elementwise_dims L hop h a b ta tb h1 t ha hb la lb hs⟩

/-- C18, amended: the checks of `matmul`.  On rank-2 operands `A` of dims
`(m, l)` and `B` of dims `(l1, n)`: `matmul(A, B)` returns `NULL` (and leaves
the heap as it was) whenever `l` differs from `l1` or the element types
differ; and it returns a result for every pair of float matrices, and for
every pair of integer matrices, of one type whose inner dimensions agree and
whose product has at most `INT_MAX` elements (`m * n <= INT_MAX`). -/
theorem matmul_checks :
    (∀ (h : Heap F) (a b : Nat) (ta tb : Tensor F) (m l l1 n : Int),
      h.deref a = some ta → h.deref b = some tb →
      ta.dims = [m, l] → tb.dims = [l1, n] → (l ≠ l1 ∨ ta.dtype ≠ tb.dtype) →
      matmul h (some a) (some b) = some (h, none)) ∧
    (∀ (h : Heap F) (a b : Nat) (ta tb : Tensor F) (m l n : Nat) (xs ys : List F),
      h.deref a = some ta → h.deref b = some tb → IsMat ta m l xs → IsMat tb l n ys →
      ta.dtype = tb.dtype → (m : Int) * (n : Int) ≤ INT_MAX →
      ∃ h1 t, matmul h (some a) (some b) = some (h1, some t)) ∧
    (∀ (h : Heap F) (a b : Nat) (ta tb : Tensor F) (m l n : Nat) (xs ys : List Int),
      h.deref a = some ta → h.deref b = some tb → IsMatI ta m l xs → IsMatI tb l n ys →
      ta.dtype = tb.dtype → (m : Int) * (n : Int) ≤ INT_MAX →
      ∃ h1 t, matmul h (some a) (some b) = some (h1, some t)) := by
  refine ⟨?_, ?_, ?_⟩
  · intro h a b ta tb m l l1 n ha hb hda hdb hne
    simp only [matmul, ha, hb, hda, hdb, Option.bind_eq_bind, Option.some_bind,
      List.getElem?_cons_zero, List.getElem?_cons_succ, hne, if_true]
  · intro h a b ta tb m l n xs ys ha hb ma mb hdt hmn
    exact ⟨_, _, matmul_float h a b ta tb m l n xs ys ha hb ma mb hdt hmn⟩
  · intro h a b ta tb m l n xs ys ha hb ma mb hdt hmn
    exact ⟨_, _, matmul_int h a b ta tb m l n xs ys ha hb ma mb hdt hmn⟩

/-- Instance of `matmul_checks`: `matmul(B, A)` with `B` of dims `(2, 2)` and
`A` of dims `(1, 2)` returns `NULL`. -/
theorem matmul_checks_witness : matmul exAB (some 1) (some 0) = some (exAB, none) :=
  (matmul_checks (F := ℚ)).1 exAB 1 0 (leafMat .FLOAT32 2 2 [0, 1, 0, 0] .true)
    (leafMat .FLOAT32 1 2 [1, 1] .true) 2 2 1 2 rfl rfl rfl rfl (Or.inl (by decide))

/-- C18 as stated fails in its last part: the `INT32` operands `A` of dims
`(65536, 1)` and `B` of dims `(1, 65536)` have rank 2, one type and agreeing
inner dimensions, yet `matmul(A, B)` returns no result: the element count
`2^32` of the product overflows the `int` of `total_size`, an execution with
no outcome.  (Where the compiled product wraps to 0, the result gets a buffer
of no elements and the first store of the product loop is out of bounds.) -/
theorem matmul_checks_counterexample :
    IsMatI (leafMatI .INT32 65536 1 (List.replicate 65536 0) .false : Tensor ℚ) 65536 1
      (List.replicate 65536 0) ∧
    IsMatI (leafMatI .INT32 1 65536 (List.replicate 65536 0) .false : Tensor ℚ) 1 65536
      (List.replicate 65536 0) ∧
    exWideI.deref 0 = some (leafMatI .INT32 65536 1 (List.replicate 65536 0) .false) ∧
    exWideI.deref 1 = some (leafMatI .INT32 1 65536 (List.replicate 65536 0) .false) ∧
    ¬ ∃ h1 t, matmul exWideI (some 0) (some 1) = some (h1, some t) :=
  ⟨⟨rfl, rfl, rfl, rfl, rfl, by rw [List.length_replicate], by decide⟩,
    ⟨rfl, rfl, rfl, rfl, rfl, by rw [List.length_replicate], by decide⟩, rfl, rfl,
    fun ⟨_, _, hs⟩ => by
      have e : matmul exWideI (some 0) (some 1) = none := rfl
      rw [e] at hs
      cases hs⟩

theorem getD_replicate_lt {α : Type} (n i : Nat) (v d : α) (hi : i < n) :
    (List.replicate n v).getD i d = v := by
  simp [List.getD, List.getElem?_replicate, hi]

theorem map_range_eq_self {α : Type} (xs : List α) (d : α) (N : Nat) (hN : xs.length = N)
    (f : Nat → α) (hf : ∀ i, i < N → f i = xs.getD i d) : (List.range N).map f = xs := by
  subst hN
  apply List.ext_getElem?
  intro i
  by_cases hi : i < xs.length
  · rw [getElem?_map_range _ _ _ hi, hf i hi, getElem?_getD xs i d hi]
  · rw [List.getElem?_eq_none (by simpa using hi), List.getElem?_eq_none (by simpa using hi)]

/-- C20: `add` is element-wise for the four element types.  For matrices
`a`, `b` of one type and shape `add(a, b)` returns a tensor recorded with
operation `ADD` and operands `(a, b)` whose element `i` is `a[i] + b[i]` (for
`INT32`/`INT64` the sum reduced to the type, which is the sum itself when it
fits).  `add(zeros(s), x)` has the data of `x` (for an integer `x`, whose
elements fit the type), and `add(zeros(s), ones(s))` is all ones for every
shape `s` whose dims and element count are values of `int`. -/
theorem add_elementwise :
    (∀ (h : Heap F) (a b : Nat) (ta tb : Tensor F) (r c : Nat) (xs ys : List F),
      h.deref a = some ta → h.deref b = some tb → IsMat ta r c xs → IsMat tb r c ys →
      ta.dtype = tb.dtype →
      ∃ h1 t tt, add h (some a) (some b) = some (h1, some t) ∧ h1.deref t = some tt ∧
        tt.op = some .ADD ∧ tt.prevs[0]? = some (some a) ∧ tt.prevs[1]? = some (some b) ∧
        tt.num_prevs = 2 ∧
        ∀ i, i < r * c → dataAt h1 t i = some (xs.getD i 0 + ys.getD i 0)) ∧
    (∀ (h : Heap F) (a b : Nat) (ta tb : Tensor F) (r c : Nat) (xs ys : List Int),
      h.deref a = some ta → h.deref b = some tb → IsMatI ta r c xs → IsMatI tb r c ys →
      ta.dtype = tb.dtype → 0 < c →
      ∃ h1 t tt, add h (some a) (some b) = some (h1, some t) ∧ h1.deref t = some tt ∧
        tt.op = some .ADD ∧ tt.prevs[0]? = some (some a) ∧ tt.prevs[1]? = some (some b) ∧
        tt.num_prevs = 2 ∧
        ∀ i, i < r * c →
          intAt h1 t i = some (wrap ta.dtype.bits (xs.getD i 0 + ys.getD i 0)) ∧
          (InRange ta.dtype.bits (xs.getD i 0 + ys.getD i 0) →
            intAt h1 t i = some (xs.getD i 0 + ys.getD i 0))) ∧
    (∀ (h : Heap F) (x : Nat) (tx : Tensor F) (r c : Nat) (xs : List F) (rg : bool),
      h.deref x = some tx → IsMat tx r c xs →
      ∃ h1 z h2 t, zeros h tx.dtype (some [(r : Int), (c : Int)]) 2 rg = some (h1, some z) ∧
        add h1 (some z) (some x) = some (h2, some t) ∧ dataOf h2 t = some xs) ∧
    (∀ (h : Heap F) (x : Nat) (tx : Tensor F) (r c : Nat) (xs : List Int) (rg : bool),
      h.deref x = some tx → IsMatI tx r c xs → 0 < c →
      (∀ v ∈ xs, InRange tx.dtype.bits v) →
      ∃ h1 z h2 t, zeros h tx.dtype (some [(r : Int), (c : Int)]) 2 rg = some (h1, some z) ∧
        add h1 (some z) (some x) = some (h2, some t) ∧ intsOf h2 t = some xs) ∧
    (∀ (h : Heap F) (dt : DType) (r c : Nat) (rg : bool), dt.isFloat = true → 0 < c →
      FitsInt r c →
      ∃ h1 t, progZerosOnes h dt (r : Int) (c : Int) rg = some (h1, some t) ∧
        dataOf h1 t = some (List.replicate (r * c) 1)) := by
  refine ⟨?_, ?_, ?_, ?_, ?_⟩
  · intro h a b ta tb r c xs ys ha hb ma mb hdt
    refine ⟨_, _, _, add_float h a b ta tb r c xs ys ha hb ma mb hdt, deref_append_new _ _,
      rfl, rfl, rfl, rfl, ?_⟩
    intro i hi
    simp only [dataAt, deref_append_new, Option.bind_eq_bind, Option.some_bind, binResult,
      floats_ofF ma.isFloat, getElem?_map_range _ _ _ hi]
  · intro h a b ta tb r c xs ys ha hb ma mb hdt hc
    refine ⟨_, _, _, add_int h a b ta tb r c xs ys ha hb ma mb hdt hc, deref_append_new _ _,
      rfl, rfl, rfl, rfl, ?_⟩
    intro i hi
    have e : intAt (h ++ [some (binResultI .ADD ta tb a b
        ((List.range (r * c)).map fun i =>
          wrap ta.dtype.bits (xs.getD i 0 + ys.getD i 0)))]) h.length i
        = some (wrap ta.dtype.bits (xs.getD i 0 + ys.getD i 0)) := by
      simp only [intAt, deref_append_new, Option.bind_eq_bind, Option.some_bind, binResultI,
        ints_ofI ma.isInt, getElem?_map_range _ _ _ hi]
    exact ⟨e, fun hr => by rw [e, wrap_of_inRange _ (bits_pos _) _ hr]⟩
  · intro h x tx r c xs rg hx mx
    have hz := filled_float (0 : F) 0 h tx.dtype r c rg mx.isFloat mx.cols_pos mx.fits
    have mz := filledF_isMat tx.dtype r c rg (0 : F) mx.isFloat mx.cols_pos mx.fits
    have hadd := add_float (h ++ [some (filledF tx.dtype r c rg 0)]) h.length x
      (filledF tx.dtype r c rg 0) tx r c _ xs (deref_append_new _ _) (deref_append_left _ hx)
      mz mx rfl
    refine ⟨_, _, _, _, hz, hadd, ?_⟩
    simp only [dataOf, deref_append_new, Option.bind_eq_bind, Option.some_bind, binResult]
    rw [show (filledF tx.dtype r c rg (0 : F)).dtype = tx.dtype from rfl, floats_ofF mx.isFloat]
    congr 1
    apply map_range_eq_self xs 0 (r * c) mx.len_eq
    intro i hi
    rw [getD_replicate_lt _ _ _ _ hi, zero_add]
  · intro h x tx r c xs rg hx mx hc hin
    have hz := filled_int (0 : F) 0 h tx.dtype r c rg mx.isInt hc mx.fits
    have mz := filledI_isMatI (F := F) tx.dtype r c rg 0 mx.isInt mx.fits
    have hadd := add_int (h ++ [some (filledI tx.dtype r c rg 0)]) h.length x
      (filledI tx.dtype r c rg 0) tx r c _ xs (deref_append_new _ _) (deref_append_left _ hx)
      mz mx rfl hc
    refine ⟨_, _, _, _, hz, hadd, ?_⟩
    simp only [intsOf, deref_append_new, Option.bind_eq_bind, Option.some_bind, binResultI]
    rw [show (filledI tx.dtype r c rg 0 : Tensor F).dtype = tx.dtype from rfl,
      ints_ofI mx.isInt]
    congr 1
    apply map_range_eq_self xs 0 (r * c) mx.len_eq
    intro i hi
    have hxi : i < xs.length := by rw [mx.len_eq]; exact hi
    have hmem : xs.getD i 0 ∈ xs := by
      rw [List.getD_eq_getElem _ _ hxi]; exact List.getElem_mem _
    rw [getD_replicate_lt _ _ _ _ hi, zero_add, wrap_of_inRange _ (bits_pos _) _ (hin _ hmem)]
  · intro h dt r c rg hfl hc hf
    have hz := filled_float (0 : F) 0 h dt r c rg hfl hc hf
    have ho := filled_float (1 : F) 1 (h ++ [some (filledF dt r c rg 0)]) dt r c rg hfl hc hf
    have mz := filledF_isMat dt r c rg (0 : F) hfl hc hf
    have mo := filledF_isMat dt r c rg (1 : F) hfl hc hf
    have hadd := add_float (h ++ [some (filledF dt r c rg 0)] ++ [some (filledF dt r c rg 1)])
      h.length (h ++ [some (filledF dt r c rg (0 : F))]).length
      (filledF dt r c rg 0) (filledF dt r c rg 1) r c _ _
      (deref_append_left _ (deref_append_new _ _)) (deref_append_new _ _) mz mo rfl
    have hp : progZerosOnes h dt (r : Int) (c : Int) rg
        = add (h ++ [some (filledF dt r c rg 0)] ++ [some (filledF dt r c rg 1)])
            (some h.length) (some (h ++ [some (filledF dt r c rg (0 : F))]).length) := by
      simp only [progZerosOnes, zeros, ones, hz, ho, Option.bind_eq_bind, Option.some_bind]
    rw [hadd] at hp
    refine ⟨_, _, hp, ?_⟩
    · simp only [dataOf, deref_append_new, Option.bind_eq_bind, Option.some_bind, binResult]
      rw [show (filledF dt r c rg (0 : F)).dtype = dt from rfl, floats_ofF hfl]
      congr 1
      apply map_range_eq_self _ 0 (r * c) (by simp)
      intro i hi
      rw [getD_replicate_lt _ _ _ _ hi, getD_replicate_lt _ _ _ _ hi, zero_add]

/-- C3: `backward` has no case for `MSE`.  On `out = MSELoss([[1]], [[3]])` with
`out->grad[0] = 1`, the rule `MSELoss_backward(out)` leaves `yPred.grad = [2]`,
while `backward(out)` returns with `yPred.grad = [0]`: no rule was applied. -/
theorem backward_skips_mse :
    ((progMSE libmQ exMSE1 0 1).bind fun r =>
        (MSELoss_backward r.1 (some r.2)).bind fun h => gradOf h 1) = some [2] ∧
    ((progMSE libmQ exMSE1 0 1).bind fun r =>
        (backward libmQ 5 r.1 (some r.2)).toOption.bind fun h => gradOf h 1) = some [0] := by
  constructor <;> with_unfolding_all decide

/-- C4: `sum` leaves `num_prevs` at 0, so `backward` stops at a `sum` node.  On
`m = mul([[2]], [[3]])`, `s = sum(m)`, `s->grad[0] = 1`, `backward(s)` returns
with `m.grad = [1]` and with `x.grad = [0]`, `y.grad = [0]` (not 3 and 2). -/
theorem backward_stops_at_sum :
    ((progMulSum exXY 0 1).bind fun r =>
        (backward libmQ 5 r.1 (some r.2.2)).toOption.bind fun h =>
          some (gradOf h r.2.1, gradOf h 0, gradOf h 1))
      = some (some [1], some [0], some [0]) := by
  with_unfolding_all decide

/-- C5: `backward` keeps no record of visited nodes, so a shared node's rule
runs once per path, each time on the node's accumulated gradient.  On
`b = mul(a, w)`, `c = add(b, b)` with `a = [[1]]` tracking (zero gradient),
`w = [[3]]` not tracking and `c`'s gradient set to ones by `grad_init`,
`backward(c)` returns with `a.grad = [12]` (that is `4 * w`), while the
derivative of the sum of `c`'s elements with respect to `a` is `2 * w = 6`. -/
theorem backward_double_counts_shared :
    ((progDiamond exAW 0 1).bind fun r =>
        (backward libmQ 5 r.1 (some r.2)).toOption.bind fun h => gradOf h 0) = some [12] ∧
    (12 : ℚ) ≠ 2 * 3 := by
  constructor
  · with_unfolding_all decide
  · norm_num

/-- C7: `matmul_backward` reads `B` at `j*l + k` instead of `k*n + j`.  On
`A = [[1, 1]]`, `B = [[0, 1], [0, 0]]`, `out = matmul(A, B)` with
`out.grad = [1, 0]`, the rule leaves `A.grad = [0, 1]`; the product
`dOut * B^T` is `[1*0 + 0*1, 1*0 + 0*0] = [0, 0]`. -/
theorem matmul_backward_no_transpose :
    ((progMatmul exAB 0 1 [1, 0]).bind fun r =>
        (matmul_backward r.1 (some r.2)).bind fun h => gradOf h 0) = some [0, 1] := by
  with_unfolding_all decide

/-- C8: `MSELoss_backward` scales by the `int` quotient `1 / size`.  On
`out = MSELoss([[0, 0]], [[1, 1]])` with `out->grad[0] = 1`, the rule leaves
`yPred.grad = [0, 0]`, not `[1/2, 1/2]`; the gradient of `yTrue` stays absent. -/
theorem mse_backward_int_division :
    ((progMSE libmQ exMSE2 0 1).bind fun r =>
        (MSELoss_backward r.1 (some r.2)).bind fun h => some (gradOf h 1, gradOf h 0))
      = some (some [0, 0], none) := by
  with_unfolding_all decide

/-- C9: `softmax_backward` reads the operand's data, not the result's.  On
`x = [[2]]`, `out = softmax(x)` has data `[1]`; with `out.grad = [1]` the rule
leaves `x.grad = [-2]` (that is `x * (1 - x)`), while the Jacobian at
`y = 1` gives `y * (1 - y) = 0`. -/
theorem softmax_backward_uses_input :
    ((progSoftmax libmQ exX2 0 [1]).bind fun r => dataOf r.1 r.2) = some [1] ∧
    ((progSoftmax libmQ exX2 0 [1]).bind fun r =>
        (softmax_backward r.1 (some r.2)).bind fun h => gradOf h 0) = some [-2] := by
  constructor <;> with_unfolding_all decide

/-- Instance of `mul_mean_backward` on `x = [[2]]`, `y = [[3]]` over the
rationals. -/
theorem mul_mean_backward_witness :
    ∃ h1 m h2 s h3 h4,
      mul exXY (some 0) (some 1) = some (h1, some m) ∧
      mean h1 (some m) = some (h2, some s) ∧
      seed_grad h2 s 0 1 = some h3 ∧
      backward libmQ (0 + 3) h3 (some s) = .ok h4 ∧
      ∀ i, i < 1 * 1 →
        gradAt h4 0 i = some (([3] : List ℚ).getD i 0 / ((1 * 1 : Nat) : ℚ)) ∧
        gradAt h4 1 i = some (([2] : List ℚ).getD i 0 / ((1 * 1 : Nat) : ℚ)) :=
  mul_mean_backward libmQ exXY 0 1 (leafMat .FLOAT32 1 1 [2] .true)
    (leafMat .FLOAT32 1 1 [3] .true) 1 1 [2] [3] 0 rfl rfl (by decide)
    ⟨rfl, rfl, rfl, rfl, by decide, rfl, rfl, by decide⟩ ⟨rfl, rfl, rfl, rfl, by decide, rfl, rfl, by decide⟩ rfl
    ⟨rfl, rfl⟩ ⟨rfl, rfl⟩ ⟨rfl, rfl, rfl⟩ ⟨rfl, rfl, rfl⟩

/-- Instance of `diamond_backward` on `a = [[1]]`, `w = [[3]]` over the
rationals. -/
theorem diamond_backward_witness :
    ∃ h1 b h2 cc h3 h4,
      mul exAW (some 0) (some 1) = some (h1, some b) ∧
      add h1 (some b) (some b) = some (h2, some cc) ∧
      grad_init h2 (some cc) = some h3 ∧
      backward libmQ (0 + 3) h3 (some cc) = .ok h4 ∧
      ∀ i, i < 1 * 1 → gradAt h4 0 i = some (4 * ([3] : List ℚ).getD i 0) :=
  diamond_backward libmQ exAW 0 1 (leafMat .FLOAT32 1 1 [1] .true)
    (leafMat .FLOAT32 1 1 [3] .false) 1 1 [1] [3] 0 rfl rfl (by decide)
    ⟨rfl, rfl, rfl, rfl, by decide, rfl, rfl, by decide⟩ ⟨rfl, rfl, rfl, rfl, by decide, rfl, rfl, by decide⟩ rfl
    ⟨rfl, rfl⟩ ⟨rfl, rfl⟩ ⟨rfl, rfl, rfl⟩ ⟨rfl, rfl⟩

/-- Instance of `backward_twice_additive` on `x = [[2]]` with gradient `[5]`,
`y1 = [[3]]`, `y2 = [[4]]` over the rationals. -/
theorem backward_twice_additive_witness :
    ∃ h1 z1 h2 z2 h3 h4 h5 h6,
      mul exG (some 0) (some 1) = some (h1, some z1) ∧
      mul h1 (some 0) (some 2) = some (h2, some z2) ∧
      grad_init h2 (some z1) = some h3 ∧
      grad_init h3 (some z2) = some h4 ∧
      backward libmQ (0 + 2) h4 (some z1) = .ok h5 ∧
      backward libmQ (0 + 2) h5 (some z2) = .ok h6 ∧
      ∀ i, i < 1 * 1 →
        gradAt h6 0 i = some (([5] : List ℚ).getD i 0 + ([3] : List ℚ).getD i 0
          + ([4] : List ℚ).getD i 0) :=
  backward_twice_additive libmQ exG 0 1 2
    { leafMat .FLOAT32 1 1 [2] .true with grad := some [5] }
    (leafMat .FLOAT32 1 1 [3] .true) (leafMat .FLOAT32 1 1 [4] .false) 1 1 [2] [3] [4] [5] 0
    rfl rfl rfl (by decide) (by decide)
    ⟨rfl, rfl, rfl, rfl, by decide, rfl, rfl, by decide⟩ ⟨rfl, rfl, rfl, rfl, by decide, rfl, rfl, by decide⟩
    ⟨rfl, rfl, rfl, rfl, by decide, rfl, rfl, by decide⟩ rfl rfl
    ⟨rfl, rfl⟩ ⟨rfl, rfl⟩ ⟨rfl, rfl⟩ ⟨rfl, rfl, rfl⟩
    (fun _ => ⟨[0], rfl, rfl⟩) (fun hh => by cases hh)

/-- Instance of `sub_backward_rule` on `a = [[5, 7]]` (gradient `[1, 2]`),
`b = [[1, 2]]` (gradient `[3, 4]`) and upstream gradient `[10, 20]`, over the
rationals. -/
theorem sub_backward_rule_witness :
    ∃ h1 out h2,
      sub exSub (some 0) (some 1) = some (h1, some out) ∧
      sub_backward (setGrad h1 out [10, 20]) (some out) = some h2 ∧
      ∀ i, i < 1 * 2 →
        gradAt h2 0 i = some (([1, 2] : List ℚ).getD i 0 + ([10, 20] : List ℚ).getD i 0) ∧
        gradAt h2 1 i = some (([3, 4] : List ℚ).getD i 0 - ([10, 20] : List ℚ).getD i 0) :=
  sub_backward_rule exSub 0 1
    { leafMat .FLOAT32 1 2 [5, 7] .true with grad := some [1, 2] }
    { leafMat .FLOAT32 1 2 [1, 2] .true with grad := some [3, 4] } 1 2
    [5, 7] [1, 2] [1, 2] [3, 4] [10, 20] rfl rfl (by decide)
    ⟨rfl, rfl, rfl, rfl, by decide, rfl, rfl, by decide⟩ ⟨rfl, rfl, rfl, rfl, by decide, rfl, rfl, by decide⟩ rfl
    ⟨rfl, rfl, rfl⟩ ⟨rfl, rfl, rfl⟩ rfl

/-- Instances of `constructor_postconditions`: `tensor(data, FLOAT32, {2, 2},
2, false)` with a caller array of five floats, over the rationals; and `Tanh`
on the `INT64` tensor `[[0]]`, which returns the result at address 1 of
`exTanhIOut`. -/
theorem constructor_postconditions_witness :
    (∃ tt, tensor exXY (some (Data.float32 [1, 2, 3, 4, 5])) .FLOAT32 (some [2, 2])
        ([2, 2] : List Int).length bool.false = some (exXY ++ [some tt], some exXY.length) ∧
      tt.dtype = .FLOAT32 ∧ tt.dims = [2, 2] ∧ tt.size = ([2, 2] : List Int).prod ∧
      tt.data.len = ([2, 2] : List Int).prod.toNat ∧
      (some (Data.float32 [1, 2, 3, 4, 5] : Data ℚ) = none →
        tt.data = Data.calloc .FLOAT32 ([2, 2] : List Int).prod.toNat) ∧
      (∀ src, some (Data.float32 [1, 2, 3, 4, 5]) = some src →
        tt.data = src.take ([2, 2] : List Int).prod.toNat) ∧
      tt.op = none ∧ tt.num_prevs = 0 ∧ tt.extra = 0) ∧
    Tanh libmQ exZeroI (some 0) = some (exTanhIOut, some 1) ∧
    (∃ tt, exTanhIOut.deref 1 = some tt ∧ tt.size = tt.dims.prod ∧
      (tt.data.len : Int) = tt.size) :=
  ⟨(constructor_postconditions libmQ (fun _ => 0) 2 0).1 exXY
      (some (Data.float32 [1, 2, 3, 4, 5])) .FLOAT32 [2, 2] bool.false (by simp) (by decide)
      (by decide) (fun src hs => by cases hs; exact ⟨trivial, by decide⟩),
    by with_unfolding_all rfl,
    (constructor_postconditions libmQ (fun _ => 0) 2 0).2.2.2 (Tanh libmQ) (by simp [unaryOps])
      exZeroI 0 exTanhIOut 1 (by with_unfolding_all rfl)⟩

/-- Instances of `no_broadcast`: `add` of `A` (1 x 2) and `B` (2 x 2) returns
`NULL`; and `Div` on the `INT32` tensors `a = [[6]]`, `b = [[3]]` returns the
result at address 2 of `exDivIOut`, whose dims are those of `a` and of `b`. -/
theorem no_broadcast_witness :
    add exAB (some 0) (some 1) = some (exAB, none) ∧
    Div libmQ exDivI (some 0) (some 1) = some (exDivIOut, some 2) ∧
    (∃ tt, exDivIOut.deref 2 = some tt ∧
      tt.dims = (leafMatI .INT32 1 1 [6] .false : Tensor ℚ).dims ∧
      tt.dims = (leafMatI .INT32 1 1 [3] .false : Tensor ℚ).dims) :=
  ⟨(no_broadcast libmQ).1 add (by simp [elementwiseOps]) exAB 0 1
      (leafMat .FLOAT32 1 2 [1, 1] .true) (leafMat .FLOAT32 2 2 [0, 1, 0, 0] .true)
      rfl rfl rfl rfl (Or.inr (Or.inr (by decide))),
    by with_unfolding_all rfl,
    (no_broadcast libmQ).2.2 (Div libmQ) (by simp [elementwiseOps]) exDivI 0 1
      (leafMatI .INT32 1 1 [6] .false) (leafMatI .INT32 1 1 [3] .false) exDivIOut 2
      rfl rfl rfl rfl (by with_unfolding_all rfl)⟩

/-- C16: the constructor accepts negative sizes.  `tensor(NULL, INT32,
{-1, -1}, 2, false)` returns a tensor with dims `[-1, -1]` and `size` 1, and
`tensor(NULL, FLOAT32, {-2, -3}, 2, false)` one with dims `[-2, -3]` and
`size` 6. -/
theorem tensor_accepts_negative_dims :
    ((tensor ([] : Heap ℚ) none .INT32 (some [-1, -1]) 2 bool.false).bind fun r =>
        r.2.bind fun t => (r.1.deref t).map fun tt => (tt.dims, tt.size))
      = some ([-1, -1], 1) ∧
    ((tensor ([] : Heap ℚ) none .FLOAT32 (some [-2, -3]) 2 bool.false).bind fun r =>
        r.2.bind fun t => (r.1.deref t).map fun tt => (tt.dims, tt.size))
      = some ([-2, -3], 6) := by
  constructor <;> with_unfolding_all decide

/-- Instance of `add_elementwise`: `add(zeros([2, 2]), ones([2, 2]))` for
`FLOAT32` over the rationals is all ones. -/
theorem add_elementwise_witness :
    ∃ h1 t, progZerosOnes ([] : Heap ℚ) .FLOAT32 ((2 : Nat) : Int) ((2 : Nat) : Int) bool.false
        = some (h1, some t) ∧
      dataOf h1 t = some (List.replicate (2 * 2) 1) :=
  (add_elementwise (F := ℚ)).2.2.2.2 [] .FLOAT32 2 2 bool.false rfl (by decide) (by decide)

/-- The element loop of `relu` on an integer matrix fills the fresh result. -/
theorem reluStepI_loop (dt : DType) (h : Heap F) (p1 : Nat) (a t0 : Tensor F) (r c : Nat)
    (xs : List Int) (ha : h.deref p1 = some a) (ma : IsMatI a r c xs) (hda : a.dtype = dt)
    (hc : 0 < c) (D : List Int) (hD : D.length = r * c) :
    loopN (reluStepI dt h.length p1) (r * c) (h ++ [some { t0 with data := Data.ofI dt D }])
      = some (h ++ [some { t0 with data := (Data.ofI dt
            ((List.range (r * c)).map fun i => if xs.getD i 0 < 0 then 0 else xs.getD i 0)) }]) := by
  have hfl : dt.isFloat = false := hda ▸ ma.isInt
  have hc' : (c : Int) ≠ 0 := by omega
  have key := loopN_overwrite (fun D => h ++ [some { t0 with data := Data.ofI dt D }])
    (reluStepI dt h.length p1) (fun i => if xs.getD i 0 < 0 then 0 else xs.getD i 0) D (r * c)
    (le_of_eq hD.symm) ?_
  · rw [key, ← hD, overwrite_full]
  · intro i hi
    have hxi : i < xs.length := by rw [ma.len_eq]; exact hi
    have hoi : i < (overwrite i (fun i => if xs.getD i 0 < 0 then 0 else xs.getD i 0) D).length := by
      rw [length_overwrite _ _ _ (by omega)]; omega
    simp only [reluStepI, posOf, rdDim, rdI, wrI, deref_append_new, deref_append_left _ ha,
      Option.bind_eq_bind, Option.some_bind, ma.dims_eq, List.getElem?_cons_zero,
      List.getElem?_cons_succ, shape_index_nat i _ _ hc', ma.data_eq, hda, getI_ofI hfl,
      getElem?_getD xs i 0 hxi, setI_ofI hfl _ i _ hoi, store_append_new]

/-- `relu` on an integer matrix. -/
theorem relu_int (h : Heap F) (p1 : Nat) (a : Tensor F) (r c : Nat) (xs : List Int)
    (ha : h.deref p1 = some a) (ma : IsMatI a r c xs) (hc : 0 < c) :
    relu h (some p1)
      = some (h ++ [some (unResultI .RELU a p1
            ((List.range (r * c)).map fun i => if xs.getD i 0 < 0 then 0 else xs.getD i 0))],
          some h.length) := by
  have hfl := ma.isInt
  have hloop := fun (dt : DType) (hda : a.dtype = dt) =>
    reluStepI_loop dt h p1 a (fresh dt [(r : Int), (c : Int)] (condBool (lnot a.requires_grad)))
      r c xs ha ma hda hc (List.replicate (r * c) 0) (by simp)
  unfold relu
  simp only [ha, Option.bind_eq_bind, Option.some_bind, ma.ndim_eq, ma.dims_eq, tensor_mat _ _ _ _ _ ma.fits,
    forLoop, ma.size_eq, toNat_mul_cast]
  cases hd : a.dtype with
  | INT32 =>
    have := hloop .INT32 hd
    simp only [fresh, prod_pair, toNat_mul_cast, Data.calloc, Data.ofI] at this ⊢
    rw [this]
    simp [link1, deref_append_new, store_append_new, unResultI, fresh, hd,
      ma.dims_eq, Data.ofI, MAX_PREVS, toNat_mul_cast]
  | INT64 =>
    have := hloop .INT64 hd
    simp only [fresh, prod_pair, toNat_mul_cast, Data.calloc, Data.ofI] at this ⊢
    rw [this]
    simp [link1, deref_append_new, store_append_new, unResultI, fresh, hd,
      ma.dims_eq, Data.ofI, MAX_PREVS, toNat_mul_cast]
  | FLOAT32 => simp [hd, DType.isFloat] at hfl
  | FLOAT64 => simp [hd, DType.isFloat] at hfl

/-! ## The running maximum of `softmax` -/

theorem foldMax_ge_init (l : List F) (m : F) :
    m ≤ l.foldl (fun mx x => if x > mx then x else mx) m := by
  induction l generalizing m with
  | nil => simp
  | cons x l ih =>
    simp only [List.foldl_cons]
    split_ifs with hx
    · exact le_trans (le_of_lt hx) (ih x)
    · exact ih m

theorem foldMax_ge_mem (l : List F) (m : F) (y : F) (hy : y ∈ l) :
    y ≤ l.foldl (fun mx x => if x > mx then x else mx) m := by
  induction l generalizing m with
  | nil => simp at hy
  | cons x l ih =>
    simp only [List.foldl_cons]
    rcases List.mem_cons.mp hy with rfl | hy
    · split_ifs with hx
      · exact foldMax_ge_init l y
      · exact le_trans (not_lt.mp hx) (foldMax_ge_init l m)
    · exact ih _ hy

theorem foldMax_mem (l : List F) (m : F) :
    l.foldl (fun mx x => if x > mx then x else mx) m = m ∨
    l.foldl (fun mx x => if x > mx then x else mx) m ∈ l := by
  induction l generalizing m with
  | nil => simp
  | cons x l ih =>
    simp only [List.foldl_cons]
    split_ifs with hx
    · rcases ih x with h | h
      · right; rw [h]; simp
      · right; exact List.mem_cons_of_mem _ h
    · rcases ih m with h | h
      · left; exact h
      · right; exact List.mem_cons_of_mem _ h

/-- Every element is at most the running maximum. -/
theorem maxOf_ge (xs : List F) (y : F) (hy : y ∈ xs) : y ≤ maxOf xs := by
  cases xs with
  | nil => simp at hy
  | cons x l =>
    simp only [maxOf, List.tail_cons, List.headD_cons]
    rcases List.mem_cons.mp hy with rfl | hy
    · exact foldMax_ge_init l y
    · exact foldMax_ge_mem l x y hy

/-- The running maximum of a non-empty buffer is one of its elements. -/
theorem maxOf_mem (xs : List F) (hne : xs ≠ []) : maxOf xs ∈ xs := by
  cases xs with
  | nil => exact absurd rfl hne
  | cons x l =>
    simp only [maxOf, List.tail_cons, List.headD_cons]
    rcases foldMax_mem l x with h | h
    · rw [h]; simp
    · exact List.mem_cons_of_mem _ h

theorem foldMax_shift (l : List F) (m k : F) :
    (l.map (· + k)).foldl (fun mx x => if x > mx then x else mx) (m + k)
      = l.foldl (fun mx x => if x > mx then x else mx) m + k := by
  induction l generalizing m with
  | nil => simp
  | cons x l ih =>
    simp only [List.map_cons, List.foldl_cons, gt_iff_lt, add_lt_add_iff_right]
    split_ifs with hx
    · exact ih x
    · exact ih m

/-- Adding a constant to every element adds it to the running maximum. -/
theorem maxOf_shift (xs : List F) (k : F) (hne : xs ≠ []) :
    maxOf (xs.map (· + k)) = maxOf xs + k := by
  cases xs with
  | nil => exact absurd rfl hne
  | cons x l =>
    simp only [maxOf, List.map_cons, List.tail_cons, List.headD_cons]
    exact foldMax_shift l x k

/-- The shifted exponentials do not change when a constant is added to every
element. -/
theorem expsOf_shift (L : Libm F) (xs : List F) (k : F) (hne : xs ≠ []) :
    expsOf L (xs.map (· + k)) = expsOf L xs := by
  simp only [expsOf, maxOf_shift xs k hne, List.map_map]
  apply List.map_congr_left
  intro x _
  simp only [Function.comp]
  congr 1
  ring

theorem softmaxVal_shift (L : Libm F) (xs : List F) (k : F) (hne : xs ≠ []) :
    softmaxVal L (xs.map (· + k)) = softmaxVal L xs := by
  simp only [softmaxVal, expsOf_shift L xs k hne]

theorem sum_map_div (l : List F) (s : F) : (l.map fun e => e / s).sum = l.sum / s := by
  induction l with
  | nil => simp
  | cons x l ih => simp [ih, add_div]

theorem sum_pos_of_pos (l : List F) (hne : l ≠ []) (hp : ∀ y ∈ l, 0 < y) : 0 < l.sum := by
  cases l with
  | nil => exact absurd rfl hne
  | cons x l =>
    simp only [List.sum_cons]
    have hx := hp x (by simp)
    have hl : 0 ≤ l.sum := List.sum_nonneg fun y hy => le_of_lt (hp y (List.mem_cons_of_mem _ hy))
    linarith

theorem le_sum_of_mem (l : List F) (hp : ∀ y ∈ l, 0 ≤ y) (y : F) (hy : y ∈ l) : y ≤ l.sum := by
  induction l with
  | nil => simp at hy
  | cons x l ih =>
    simp only [List.sum_cons]
    have hx := hp x (by simp)
    have hl : 0 ≤ l.sum := List.sum_nonneg fun y hy => hp y (List.mem_cons_of_mem _ hy)
    rcases List.mem_cons.mp hy with rfl | hy
    · linarith
    · have := ih (fun y hy => hp y (List.mem_cons_of_mem _ hy)) hy
      linarith

theorem softmaxVal_pos (L : Libm F) (xs : List F) (hne : xs ≠ [])
    (hpos : ∀ x : F, 0 < L.exp x) :
    0 < (expsOf L xs).sum ∧ ∀ y ∈ softmaxVal L xs, 0 < y ∧ y ≤ 1 := by
  have hep : ∀ e ∈ expsOf L xs, 0 < e := by
    intro e he
    simp only [expsOf, List.mem_map] at he
    obtain ⟨x, _, rfl⟩ := he
    exact hpos _
  have hne2 : expsOf L xs ≠ [] := by
    simpa [expsOf] using hne
  have hs := sum_pos_of_pos _ hne2 hep
  refine ⟨hs, ?_⟩
  intro y hy
  simp only [softmaxVal, List.mem_map] at hy
  obtain ⟨e, he, rfl⟩ := hy
  refine ⟨div_pos (hep e he) hs, ?_⟩
  rw [div_le_one hs]
  exact le_sum_of_mem _ (fun y hy => le_of_lt (hep y hy)) e he

theorem softmaxVal_sum (L : Libm F) (xs : List F) (hne : xs ≠ [])
    (hpos : ∀ x : F, 0 < L.exp x) : (softmaxVal L xs).sum = 1 := by
  have hs := (softmaxVal_pos L xs hne hpos).1
  simp only [softmaxVal, sum_map_div]
  exact div_self (ne_of_gt hs)

theorem ne_nil_of_isMat {a : Tensor F} {r c : Nat} {xs : List F} (ma : IsMat a r c xs)
    (hr : 0 < r) : xs ≠ [] := by
  intro h0
  have h1 : ([] : List F).length = r * c := h0 ▸ ma.len_eq
  have hN : 0 < r * c := Nat.mul_pos hr ma.cols_pos
  exact absurd h1.symm (Nat.pos_iff_ne_zero.mp hN)

/-- C39: `softmax` returns a probability vector over the whole tensor.  On a
float matrix `x` with `N = r * c >= 1` elements, with `exp` positive, the result
holds `exp(x[i] - M) / (sum over all j < N of exp(x[j] - M))` at `i`, with `M`
the maximum element of `x`; every element is in `(0, 1]`, the `N` elements
sum to 1, and on a matrix `y` holding `x[i] + k` at every `i` the result holds
the same data. -/
theorem softmax_probability (L : Libm F) (h : Heap F) (p1 p2 : Nat) (a b : Tensor F)
    (r c : Nat) (xs : List F) (k : F) (ha : h.deref p1 = some a) (ma : IsMat a r c xs)
    (hb : h.deref p2 = some b) (mb : IsMat b r c (xs.map (· + k))) (hr : 0 < r)
    (hpos : ∀ x : F, 0 < L.exp x) :
    softmax L h (some p1)
      = some (h ++ [some (unResult .SOFTMAX a p1 (softmaxVal L xs))], some h.length) ∧
    (softmaxVal L xs).length = r * c ∧
    (∀ i, i < r * c → (softmaxVal L xs).getD i 0
      = L.exp (xs.getD i 0 - maxOf xs)
        / ((List.range (r * c)).map fun j => L.exp (xs.getD j 0 - maxOf xs)).sum) ∧
    maxOf xs ∈ xs ∧ (∀ x ∈ xs, x ≤ maxOf xs) ∧
    (∀ y ∈ softmaxVal L xs, 0 < y ∧ y ≤ 1) ∧
    (softmaxVal L xs).sum = 1 ∧
    softmax L h (some p2)
      = some (h ++ [some (unResult .SOFTMAX b p2 (softmaxVal L xs))], some h.length) := by
  have hne := ne_nil_of_isMat ma hr
  have hlen := ma.len_eq
  refine ⟨softmax_float L h p1 a r c xs ha ma hr, ?_, ?_, maxOf_mem xs hne,
    fun x hx => maxOf_ge xs x hx, (softmaxVal_pos L xs hne hpos).2,
    softmaxVal_sum L xs hne hpos, ?_⟩
  · simp [softmaxVal, expsOf, hlen]
  · intro i hi
    have hi' : i < xs.length := by rw [hlen]; exact hi
    have e1 : expsOf L xs = xs.map fun x => L.exp (x - maxOf xs) := rfl
    have e2 : ((List.range (r * c)).map fun j => L.exp (xs.getD j 0 - maxOf xs))
        = xs.map fun x => L.exp (x - maxOf xs) := by
      rw [← hlen]
      exact map_range_getD xs 0 (fun x => L.exp (x - maxOf xs))
    rw [e2]
    simp [softmaxVal, e1, List.getD, List.getElem?_map, List.getElem?_eq_getElem hi']
  · rw [softmax_float L h p2 b r c _ hb mb hr, softmaxVal_shift L xs k hne]

/-- C39, at `x = y = [[0], [0]]` over the rationals, with `1 + x^2` standing
for a positive `exp`. -/
theorem softmax_probability_witness :
    (softmaxVal (F := ℚ) ⟨fun x => 1 + x ^ 2, fun x _ => x, fun _ => 0, fun _ => 0⟩ [0, 0]).sum = 1 :=
  (softmax_probability (F := ℚ) ⟨fun x => 1 + x ^ 2, fun x _ => x, fun _ => 0, fun _ => 0⟩ exRows 0 0
    (leafMat .FLOAT32 2 1 [0, 0] .false) (leafMat .FLOAT32 2 1 [0, 0] .false) 2 1 [0, 0] 0
    rfl ⟨rfl, rfl, rfl, rfl, by decide, rfl, rfl, by decide⟩ rfl
    ⟨rfl, rfl, rfl, rfl, by decide, by simp [leafMat], rfl, by decide⟩ (by decide)
    (by intro x; positivity)).2.2.2.2.2.2.1

/-- A sum over `n + m` positions splits after the first `n`. -/
theorem sum_range_split (g : Nat → F) (n m : Nat) :
    ((List.range (n + m)).map g).sum
      = ((List.range n).map g).sum + ((List.range m).map fun j => g (n + j)).sum := by
  induction m with
  | zero => simp
  | succ m ih =>
    rw [← Nat.add_assoc, List.range_succ, List.map_append, List.sum_append, ih,
      List.range_succ (n := m), List.map_append, List.sum_append]
    simp [add_assoc]

/-- A sum over the `r * c` positions of a row-major matrix is the sum over the
rows of the row sums. -/
theorem sum_grid (g : Nat → F) (r c : Nat) :
    ((List.range (r * c)).map g).sum
      = ((List.range r).map fun i => ((List.range c).map fun j => g (i * c + j)).sum).sum := by
  induction r with
  | zero => simp
  | succ r ih =>
    rw [Nat.succ_mul, sum_range_split, ih, List.range_succ (n := r), List.map_append,
      List.sum_append]
    simp

/-- The sum of a list is the sum of its elements by position. -/
theorem sum_eq_sum_range (ys : List F) :
    ys.sum = ((List.range ys.length).map fun k => ys.getD k 0).sum := by
  have := map_range_getD ys (0 : F) (fun y => y)
  rw [this, List.map_id']

/-- C26, amended: `softmax` normalises over the whole tensor, float arithmetic
read as exact and `exp` positive.  For every rank-2 float tensor `x` with
`r >= 1` rows and `c` columns, `softmax(x)` returns a tensor whose element
`(i, j)` (at position `i * c + j`) equals `exp(x[i][j] - M)` divided by the
sum over all rows `i'` and columns `j'` of `exp(x[i'][j'] - M)`, with `M` the
maximum element of `x`; the `r * c` elements of the result together sum to 1.
On a tensor of a single row (`r = 1`) the `c` elements of that row sum to 1.
When `exp` turns differences into quotients, element `(i, j)` equals
`exp(x[i][j])` divided by the sum over all `i'`, `j'` of `exp(x[i'][j'])`. -/
theorem softmax_whole_tensor (L : Libm F) (h : Heap F) (p1 : Nat) (a : Tensor F)
    (r c : Nat) (xs : List F) (ha : h.deref p1 = some a) (ma : IsMat a r c xs) (hr : 0 < r)
    (hpos : ∀ x : F, 0 < L.exp x) :
    softmax L h (some p1)
      = some (h ++ [some (unResult .SOFTMAX a p1 (softmaxVal L xs))], some h.length) ∧
    (∀ i j, i < r → j < c → (softmaxVal L xs).getD (i * c + j) 0
      = L.exp (xs.getD (i * c + j) 0 - maxOf xs)
        / ((List.range r).map fun i' => ((List.range c).map fun j' =>
            L.exp (xs.getD (i' * c + j') 0 - maxOf xs)).sum).sum) ∧
    ((List.range r).map fun i => ((List.range c).map fun j =>
        (softmaxVal L xs).getD (i * c + j) 0).sum).sum = 1 ∧
    (r = 1 → ((List.range c).map fun j => (softmaxVal L xs).getD j 0).sum = 1) ∧
    ((∀ x y : F, L.exp (x - y) = L.exp x / L.exp y) →
      ∀ i j, i < r → j < c → (softmaxVal L xs).getD (i * c + j) 0
        = L.exp (xs.getD (i * c + j) 0)
          / ((List.range r).map fun i' => ((List.range c).map fun j' =>
              L.exp (xs.getD (i' * c + j') 0)).sum).sum) := by
  have hne := ne_nil_of_isMat ma hr
  have hlen := ma.len_eq
  have hsl : (softmaxVal L xs).length = r * c := by simp [softmaxVal, expsOf, hlen]
  have hsum := softmaxVal_sum L xs hne hpos
  have hgrid : ((List.range r).map fun i => ((List.range c).map fun j =>
      (softmaxVal L xs).getD (i * c + j) 0).sum).sum = 1 := by
    rw [← sum_grid (fun k => (softmaxVal L xs).getD k 0) r c, ← hsl, ← sum_eq_sum_range, hsum]
  have hel : ∀ i j, i < r → j < c → (softmaxVal L xs).getD (i * c + j) 0
      = L.exp (xs.getD (i * c + j) 0 - maxOf xs)
        / ((List.range r).map fun i' => ((List.range c).map fun j' =>
            L.exp (xs.getD (i' * c + j') 0 - maxOf xs)).sum).sum := by
    intro i j hi hj
    have hk : i * c + j < r * c := by
      calc i * c + j < i * c + c := by omega
        _ = (i + 1) * c := by rw [Nat.succ_mul]
        _ ≤ r * c := Nat.mul_le_mul_right c hi
    have hk' : i * c + j < xs.length := by rw [hlen]; exact hk
    have e1 : expsOf L xs = xs.map fun x => L.exp (x - maxOf xs) := rfl
    have e2 : ((List.range (r * c)).map fun k => L.exp (xs.getD k 0 - maxOf xs))
        = xs.map fun x => L.exp (x - maxOf xs) := by
      rw [← hlen]
      exact map_range_getD xs 0 (fun x => L.exp (x - maxOf xs))
    rw [← sum_grid (fun k => L.exp (xs.getD k 0 - maxOf xs)) r c, e2]
    simp [softmaxVal, e1, List.getD, List.getElem?_map, List.getElem?_eq_getElem hk']
  refine ⟨softmax_float L h p1 a r c xs ha ma hr, hel, hgrid, ?_, ?_⟩
  · intro h1
    subst h1
    have := hgrid
    have e1 : List.range 1 = [0] := rfl
    simp only [e1, List.map_cons, List.map_nil, List.sum_cons, List.sum_nil,
      zero_mul, zero_add, add_zero] at this
    exact this
  · intro hmul i j hi hj
    rw [hel i j hi hj]
    have hM : L.exp (maxOf xs) ≠ 0 := ne_of_gt (hpos _)
    have e : ((List.range r).map fun i' => ((List.range c).map fun j' =>
          L.exp (xs.getD (i' * c + j') 0 - maxOf xs)).sum).sum
        = ((List.range r).map fun i' => ((List.range c).map fun j' =>
          L.exp (xs.getD (i' * c + j') 0)).sum).sum / L.exp (maxOf xs) := by
      rw [← sum_grid (fun k => L.exp (xs.getD k 0 - maxOf xs)) r c,
        ← sum_grid (fun k => L.exp (xs.getD k 0)) r c]
      have : (fun k => L.exp (xs.getD k 0 - maxOf xs))
          = fun k => L.exp (xs.getD k 0) / L.exp (maxOf xs) := by
        funext k; exact hmul _ _
      rw [this, ← sum_map_div, List.map_map]
      rfl
    rw [e, hmul, div_div_div_cancel_right₀ hM]

/-- C26, amended, at `x = [[0], [0]]` with `1 + x^2` standing for a positive
`exp` (the two elements sum to 1), and at the single row
`x = [[1000, 1000, 1000]]` with the constant 1 standing for an `exp` that turns
differences into quotients (the row sums to 1, and each element is
`exp(x[0][j])` over the sum of all `exp(x[0][j'])`). -/
theorem softmax_whole_tensor_witness :
    ((List.range 2).map fun i => ((List.range 1).map fun j =>
        (softmaxVal (F := ℚ) ⟨fun x => 1 + x ^ 2, fun x _ => x, fun _ => 0, fun _ => 0⟩
          [0, 0]).getD (i * 1 + j) 0).sum).sum = 1 ∧
    ((List.range 3).map fun j =>
        (softmaxVal (F := ℚ) ⟨fun _ => 1, fun x _ => x, fun _ => 0, fun _ => 0⟩
          [1000, 1000, 1000]).getD j 0).sum = 1 ∧
    (∀ i j, i < 1 → j < 3 →
      (softmaxVal (F := ℚ) ⟨fun _ => 1, fun x _ => x, fun _ => 0, fun _ => 0⟩
          [1000, 1000, 1000]).getD (i * 3 + j) 0
        = (1 : ℚ) / ((List.range 1).map fun _ => ((List.range 3).map fun _ => (1 : ℚ)).sum).sum) :=
  ⟨(softmax_whole_tensor (F := ℚ) ⟨fun x => 1 + x ^ 2, fun x _ => x, fun _ => 0, fun _ => 0⟩
      exRows 0 (leafMat .FLOAT32 2 1 [0, 0] .false) 2 1 [0, 0] rfl
      ⟨rfl, rfl, rfl, rfl, by decide, rfl, rfl, by decide⟩ (by decide)
      (by intro x; positivity)).2.2.1,
   (softmax_whole_tensor (F := ℚ) ⟨fun _ => 1, fun x _ => x, fun _ => 0, fun _ => 0⟩
      exBig 0 (leafMat .FLOAT32 1 3 [1000, 1000, 1000] .false) 1 3 [1000, 1000, 1000] rfl
      ⟨rfl, rfl, rfl, rfl, by decide, rfl, rfl, by decide⟩ (by decide)
      (by intro x; exact one_pos)).2.2.2.1 rfl,
   (softmax_whole_tensor (F := ℚ) ⟨fun _ => 1, fun x _ => x, fun _ => 0, fun _ => 0⟩
      exBig 0 (leafMat .FLOAT32 1 3 [1000, 1000, 1000] .false) 1 3 [1000, 1000, 1000] rfl
      ⟨rfl, rfl, rfl, rfl, by decide, rfl, rfl, by decide⟩ (by decide)
      (by intro x; exact one_pos)).2.2.2.2 (by intro x y; simp)⟩

theorem relu_nonneg_F (xs : List F) (N : Nat) :
    ∀ y ∈ (List.range N).map (fun i => if xs.getD i 0 < 0 then 0 else xs.getD i 0),
      (0 : F) ≤ y := by
  intro y hy
  simp only [List.mem_map] at hy
  obtain ⟨i, _, rfl⟩ := hy
  split_ifs with hx
  · exact le_refl 0
  · exact not_lt.mp hx

theorem relu_nonneg_I (xs : List Int) (N : Nat) :
    ∀ y ∈ (List.range N).map (fun i => if xs.getD i 0 < 0 then 0 else xs.getD i 0),
      (0 : Int) ≤ y := by
  intro y hy
  simp only [List.mem_map] at hy
  obtain ⟨i, _, rfl⟩ := hy
  split_ifs with hx
  · exact le_refl 0
  · exact not_lt.mp hx

/-- C27, amended: float arithmetic read as exact (every float element a number,
none a NaN).  For each of the four element types and every matrix `x` of dims
`(r, c)` (with `c >= 1`), `relu(x)` returns a fresh tensor of the same dims and
type whose element `i` is the value of the code's expression
`(x[i] < 0) ? 0 : x[i]` (`reluExpr`): 0 when `x[i] < 0` and `x[i]` otherwise,
recorded with operation `RELU` and the single operand `x`; every element of the
result is `>= 0`. -/
theorem relu_all_types (h : Heap F) (p1 : Nat) (a : Tensor F) (r c : Nat)
    (ha : h.deref p1 = some a) :
    (∀ xs : List F, IsMat a r c xs →
      relu h (some p1)
        = some (h ++ [some (unResult .RELU a p1
            ((List.range (r * c)).map fun i => reluExpr (xs.getD i 0)))],
          some h.length) ∧
      (∀ i, reluExpr (xs.getD i 0) = if xs.getD i 0 < 0 then 0 else xs.getD i 0) ∧
      (unResult .RELU a p1 xs).dims = [(r : Int), (c : Int)] ∧
      (unResult .RELU a p1 xs).dtype = a.dtype ∧
      (unResult .RELU a p1 xs).op = some .RELU ∧
      (unResult .RELU a p1 xs).prevs.take 1 = [some p1] ∧
      (unResult .RELU a p1 xs).num_prevs = 1 ∧
      ∀ y ∈ (List.range (r * c)).map (fun i => reluExpr (xs.getD i 0)), (0 : F) ≤ y) ∧
    (∀ xs : List Int, IsMatI a r c xs → 0 < c →
      relu h (some p1)
        = some (h ++ [some (unResultI .RELU a p1
            ((List.range (r * c)).map fun i => reluExpr (xs.getD i 0)))],
          some h.length) ∧
      (∀ i, reluExpr (xs.getD i 0) = if xs.getD i 0 < 0 then 0 else xs.getD i 0) ∧
      (unResultI .RELU a p1 xs).dims = [(r : Int), (c : Int)] ∧
      (unResultI .RELU a p1 xs).dtype = a.dtype ∧
      (unResultI .RELU a p1 xs).op = some .RELU ∧
      (unResultI .RELU a p1 xs).prevs.take 1 = [some p1] ∧
      (unResultI .RELU a p1 xs).num_prevs = 1 ∧
      ∀ y ∈ (List.range (r * c)).map (fun i => reluExpr (xs.getD i 0)), (0 : Int) ≤ y) := by
  constructor
  · intro xs ma
    exact ⟨relu_float h p1 a r c xs ha ma, fun _ => rfl, ma.dims_eq, rfl, rfl, rfl, rfl,
      relu_nonneg_F xs (r * c)⟩
  · intro xs ma hc
    exact ⟨relu_int h p1 a r c xs ha ma hc, fun _ => rfl, ma.dims_eq, rfl, rfl, rfl, rfl,
      relu_nonneg_I xs (r * c)⟩

/-- C27, at `x = [[-1, 0, 2]]` over the rationals: `relu(x) = [[0, 0, 2]]`. -/
theorem relu_all_types_witness :
    relu exRelu (some 0)
      = some (exRelu ++ [some (unResult .RELU
            ({ leafMat .FLOAT64 1 3 [-1, 0, 2] .true with grad := some [10, 20, 30] } : Tensor ℚ)
            0 ((List.range (1 * 3)).map fun i => reluExpr (([-1, 0, 2] : List ℚ).getD i 0)))],
          some exRelu.length) ∧
    ((List.range (1 * 3)).map fun i => reluExpr (([-1, 0, 2] : List ℚ).getD i 0))
      = [0, 0, 2] :=
  ⟨((relu_all_types exRelu 0
      { leafMat .FLOAT64 1 3 [-1, 0, 2] .true with grad := some [10, 20, 30] } 1 3 rfl).1
      [-1, 0, 2] ⟨rfl, rfl, rfl, rfl, by decide, rfl, rfl, by decide⟩).1, by decide⟩

/-- C27 as stated, for every float tensor, fails on a NaN element: the test
`NaN < 0` is false, so `relu`'s expression returns the NaN itself, and NaN is
not `>= 0`. -/
theorem relu_all_types_counterexample :
    ¬ (Fp64.nan < 0) ∧ reluExpr Fp64.nan = Fp64.nan ∧ ¬ ((0 : Fp64) ≤ reluExpr Fp64.nan) :=
  ⟨by decide, rfl, by decide⟩

/-- The loop of `leaky_relu_backward`. -/
theorem leakyBwd_loop (h : Heap F) (o p0 : Nat) (tout t0 : Tensor F) (dt : DType)
    (r c : Nat) (og g ys : List F)
    (ho : h.deref o = some tout) (h0 : h.deref p0 = some t0) (hne : o ≠ p0)
    (hd0 : t0.dims = [(r : Int), (c : Int)])
    (hc : 0 < c) (hfl : dt.isFloat = true) (hto : tout.dtype = dt) (ht0 : t0.dtype = dt)
    (hys : tout.data = Data.ofF dt ys) (hysl : ys.length = r * c)
    (hog : tout.grad = some og) (hogl : og.length = r * c)
    (hg : t0.grad = some g) (hgl : g.length = r * c) :
    loopN (leakyBwdStep o dt p0) (r * c) h
      = some (accGrad h p0
          (fun i => if ys.getD i 0 < 0 then tout.extra * og.getD i 0 else og.getD i 0)) := by
  have hc' : (c : Int) ≠ 0 := by omega
  rw [← hgl]
  apply loopN_accGrad h p0 t0 g _ _ h0 hg
  intro i hi G hG hGi
  have hio : i < og.length := by omega
  have hiy : i < ys.length := by omega
  have e1 : rdDim h p0 0 = some (r : Int) := by simp [rdDim, h0, hd0]
  have e2 : rdDim h p0 1 = some (c : Int) := by simp [rdDim, h0, hd0]
  have e3 : (h.store p0 { t0 with grad := some G }).deref o = some tout := by
    rw [deref_store_ne _ hne, ho]
  simp only [leakyBwdStep, posOf, rdDim_sg h0, e1, e2, e3, Option.bind_eq_bind,
    Option.some_bind, shape_index_nat i _ _ hc', rdG_sg_self h0 G dt ht0 hfl, hGi,
    getElem?_getD g i 0 hi, rdG_sg_ne _ hne, rdG_of ho hog dt hto hfl,
    getElem?_getD og i 0 hio, rdF_sg h0, rdF_of ho dt hys hfl, getElem?_getD ys i 0 hiy,
    wrG_sg_self h0 G dt ht0 hfl i _ (by omega : i < G.length)]

/-- The rule `leaky_relu_backward` on a float result whose operand tracks. -/
theorem leaky_relu_backward_spec (h : Heap F) (o p0 : Nat) (tout t0 : Tensor F) (dt : DType)
    (r c : Nat) (og g ys : List F)
    (ho : h.deref o = some tout) (hp0 : tout.prevs[0]? = some (some p0))
    (h0 : h.deref p0 = some t0) (hne : o ≠ p0)
    (hd0 : t0.dims = [(r : Int), (c : Int)]) (hs0 : t0.size = (r : Int) * (c : Int))
    (hc : 0 < c) (hfl : dt.isFloat = true) (hto : tout.dtype = dt) (ht0 : t0.dtype = dt)
    (hys : tout.data = Data.ofF dt ys) (hysl : ys.length = r * c)
    (hog : tout.grad = some og) (hogl : og.length = r * c)
    (hrg : t0.requires_grad = bool.true) (hg : t0.grad = some g) (hgl : g.length = r * c) :
    leaky_relu_backward h (some o)
      = some (accGrad h p0
          (fun i => if ys.getD i 0 < 0 then tout.extra * og.getD i 0 else og.getD i 0)) := by
  have hl := leakyBwd_loop h o p0 tout t0 dt r c og g ys ho h0 hne hd0 hc hfl hto ht0 hys hysl
    hog hogl hg hgl
  unfold leaky_relu_backward unaryBwdGateFirst
  simp only [ho, rdPrev_of ho hp0, h0, hrg, Option.bind_eq_bind, Option.some_bind, eqTrue,
    bool.toInt, beq_self_eq_true, if_true, Bool.false_eq_true, if_false, hto,
    bwdSwitch_float hfl, forLoop, hs0, toNat_mul_cast, hl, Option.map_some']

/-- C33: on a float result built by `relu`, `relu_backward` adds the full
upstream gradient at every position.  For a float matrix `x` that tracks
gradients with gradient buffer `g`, `out = relu(x)` succeeds; with any upstream
gradient `og` stored in `out->grad`, `relu_backward(out)` returns and leaves
`x.grad[i] = g[i] + og[i]` at every position `i < r * c`, whatever the sign of
`x[i]`: the result's data is never negative, so the zero branch is not taken. -/
theorem relu_backward_passes_all (h : Heap F) (x : Nat) (tx : Tensor F) (r c : Nat)
    (xs g og : List F)
    (hx : h.deref x = some tx) (mx : IsMat tx r c xs) (gx : HasGrad tx g)
    (hog : og.length = r * c) :
    ∃ h1 out ys h2,
      relu h (some x) = some (h1, some out) ∧
      dataOf h1 out = some ys ∧ (∀ i, i < r * c → ¬ ys.getD i 0 < 0) ∧
      relu_backward (setGrad h1 out og) (some out) = some h2 ∧
      ∀ i, i < r * c → gradAt h2 x i = some (g.getD i 0 + og.getD i 0) := by
  set D : List F := (List.range (r * c)).map fun i => if xs.getD i 0 < 0 then 0 else xs.getD i 0
    with hD
  have hDl : D.length = r * c := by simp [hD]
  have hDnn : ∀ i, i < r * c → ¬ D.getD i 0 < 0 := by
    intro i hi
    have : D.getD i 0 = if xs.getD i 0 < 0 then 0 else xs.getD i 0 := by
      simp [hD, List.getD, List.getElem?_map, List.getElem?_range hi]
    rw [this]
    split_ifs with hxi
    · exact lt_irrefl 0
    · exact hxi
  set tout : Tensor F := unResult .RELU tx x D with htout
  have hrelu := relu_float h x tx r c xs hx mx
  have hxlt := deref_eq_some_lt hx
  have ho1 : Heap.deref (h ++ [some tout]) h.length = some tout := deref_append_new h tout
  have hx1 : Heap.deref (h ++ [some tout]) x = some tx := deref_append_left _ hx
  have hfl := mx.isFloat
  have hdata : dataOf (h ++ [some tout]) h.length = some D := by
    have e : tout.data.floats = some D := by
      simp only [htout, unResult]
      cases hd : tx.dtype <;> simp [hd, DType.isFloat, Data.ofF, Data.floats] at hfl ⊢
    simp only [dataOf, ho1, Option.bind_eq_bind, Option.some_bind, e]
  have ho2 : (setGrad (h ++ [some tout]) h.length og).deref h.length
      = some { tout with grad := some og } := deref_setGrad_self ho1 og
  have hx2 : (setGrad (h ++ [some tout]) h.length og).deref x = some tx := by
    rw [deref_setGrad_ne _ _ (by omega), hx1]
  have hgl : g.length = r * c := by
    have := gx.len_eq; rw [mx.size_eq] at this; exact_mod_cast this
  have hb := relu_backward_spec (setGrad (h ++ [some tout]) h.length og) h.length x
    { tout with grad := some og } tx tx.dtype r c og g D ho2 rfl hx2 (by omega) mx.dims_eq
    mx.size_eq mx.cols_pos hfl rfl rfl rfl hDl rfl hog gx.tracks gx.grad_eq hgl
  refine ⟨_, _, _, _, hrelu, hdata, hDnn, hb, ?_⟩
  intro i hi
  have hgi : g[i]? = some (g.getD i 0) := getElem?_getD g i 0 (by omega)
  rw [gradAt_accGrad_self, gradAt_of hx2 gx.grad_eq, hgi]
  simp only [Option.map_some']
  rw [if_neg (hDnn i hi)]

/-- C33, at `x = [[-1, 0, 2]]` with gradient `[10, 20, 30]` and upstream
gradient `[1, 1, 1]` over the rationals: position 0, where `x` is negative,
receives the upstream gradient too. -/
theorem relu_backward_passes_all_witness :
    ∃ h1 out ys h2,
      relu exRelu (some 0) = some (h1, some out) ∧
      dataOf h1 out = some ys ∧ (∀ i, i < 1 * 3 → ¬ ys.getD i 0 < 0) ∧
      relu_backward (setGrad h1 out [1, 1, 1]) (some out) = some h2 ∧
      ∀ i, i < 1 * 3 →
        gradAt h2 0 i = some (([10, 20, 30] : List ℚ).getD i 0 + ([1, 1, 1] : List ℚ).getD i 0) :=
  relu_backward_passes_all exRelu 0
    { leafMat .FLOAT64 1 3 [-1, 0, 2] .true with grad := some [10, 20, 30] } 1 3
    [-1, 0, 2] [10, 20, 30] [1, 1, 1] rfl ⟨rfl, rfl, rfl, rfl, by decide, rfl, rfl, by decide⟩
    ⟨rfl, rfl, rfl⟩ rfl

/-- C34, amended: the backward rule of `leaky_relu` for a positive slope, float
arithmetic read as exact (no rounding, no underflow, no NaN).  For a float
matrix `x` that tracks gradients with gradient buffer `g` and `slope > 0`,
`out = leaky_relu(slope, x)` succeeds and holds `slope` in `out->extra`; with
any upstream gradient `og` stored in `out->grad`, `leaky_relu_backward(out)`
returns and leaves `x.grad[i] = g[i] + slope * og[i]` where `x[i] < 0` and
`x.grad[i] = g[i] + og[i]` where `x[i] >= 0`.  The result element is the value
of `leaky_relu`'s expression `(x[i] < 0) ? slope * x[i] : x[i]` (`leakyExpr`)
and the amount added is the value of the rule's expression
`(out.data[i] < 0) ? out->extra * out.grad[i] : out.grad[i]` (`leakyBwdExpr`)
on it; in exact arithmetic a positive slope keeps the sign of `x[i]`, so the
test on the result is the test on `x[i]`. -/
theorem leaky_relu_backward_rule (s : F) (hs : 0 < s) (h : Heap F) (x : Nat) (tx : Tensor F)
    (r c : Nat) (xs g og : List F)
    (hx : h.deref x = some tx) (mx : IsMat tx r c xs) (gx : HasGrad tx g)
    (hog : og.length = r * c) :
    ∃ h1 out tout h2,
      leaky_relu s h (some x) = some (h1, some out) ∧
      h1.deref out = some tout ∧ tout.extra = s ∧
      tout.data.floats = some ((List.range (r * c)).map fun i => leakyExpr s (xs.getD i 0)) ∧
      leaky_relu_backward (setGrad h1 out og) (some out) = some h2 ∧
      ∀ i, i < r * c →
        gradAt h2 x i
          = some (g.getD i 0 + if xs.getD i 0 < 0 then s * og.getD i 0 else og.getD i 0) ∧
        (if xs.getD i 0 < 0 then s * og.getD i 0 else og.getD i 0)
          = leakyBwdExpr tout.extra (leakyExpr s (xs.getD i 0)) (og.getD i 0) := by
  set D : List F := (List.range (r * c)).map fun i =>
    if xs.getD i 0 < 0 then s * xs.getD i 0 else xs.getD i 0 with hD
  have hDl : D.length = r * c := by simp [hD]
  have hDs : ∀ i, i < r * c → (D.getD i 0 < 0 ↔ xs.getD i 0 < 0) := by
    intro i hi
    have : D.getD i 0 = if xs.getD i 0 < 0 then s * xs.getD i 0 else xs.getD i 0 := by
      simp [hD, List.getD, List.getElem?_map, List.getElem?_range hi]
    rw [this]
    split_ifs with hxi
    · exact ⟨fun _ => hxi, fun _ => mul_neg_of_pos_of_neg hs hxi⟩
    · exact Iff.rfl
  set tout : Tensor F := unResultX .LEAKY_RELU tx x D s with htout
  have hfwd := leaky_relu_float s h x tx r c xs hx mx
  have hxlt := deref_eq_some_lt hx
  have ho1 : Heap.deref (h ++ [some tout]) h.length = some tout := deref_append_new h tout
  have hx1 : Heap.deref (h ++ [some tout]) x = some tx := deref_append_left _ hx
  have hfl := mx.isFloat
  have ho2 : (setGrad (h ++ [some tout]) h.length og).deref h.length
      = some { tout with grad := some og } := deref_setGrad_self ho1 og
  have hx2 : (setGrad (h ++ [some tout]) h.length og).deref x = some tx := by
    rw [deref_setGrad_ne _ _ (by omega), hx1]
  have hgl : g.length = r * c := by
    have := gx.len_eq; rw [mx.size_eq] at this; exact_mod_cast this
  have hb := leaky_relu_backward_spec (setGrad (h ++ [some tout]) h.length og) h.length x
    { tout with grad := some og } tx tx.dtype r c og g D ho2 rfl hx2 (by omega) mx.dims_eq
    mx.size_eq mx.cols_pos hfl rfl rfl rfl hDl rfl hog gx.tracks gx.grad_eq hgl
  have hdata : tout.data.floats = some D := by
    simp only [htout, unResultX]
    cases hd : tx.dtype <;> simp [hd, DType.isFloat, Data.ofF, Data.floats] at hfl ⊢
  refine ⟨_, _, tout, _, hfwd, ho1, rfl, hdata, hb, ?_⟩
  intro i hi
  have hDi : D.getD i 0 = leakyExpr s (xs.getD i 0) := by
    simp [hD, leakyExpr, List.getD, List.getElem?_map, List.getElem?_range hi]
  have hexpr : (if xs.getD i 0 < 0 then s * og.getD i 0 else og.getD i 0)
      = leakyBwdExpr tout.extra (leakyExpr s (xs.getD i 0)) (og.getD i 0) := by
    rw [← hDi]
    show _ = if D.getD i 0 < 0 then s * og.getD i 0 else og.getD i 0
    by_cases hxi : xs.getD i 0 < 0
    · rw [if_pos ((hDs i hi).mpr hxi), if_pos hxi]
    · rw [if_neg (fun hd => hxi ((hDs i hi).mp hd)), if_neg hxi]
  refine ⟨?_, hexpr⟩
  have hgi : g[i]? = some (g.getD i 0) := getElem?_getD g i 0 (by omega)
  rw [gradAt_accGrad_self, gradAt_of hx2 gx.grad_eq, hgi]
  simp only [Option.map_some']
  by_cases hxi : xs.getD i 0 < 0
  · rw [if_pos ((hDs i hi).mpr hxi), if_pos hxi]
    rfl
  · rw [if_neg (fun hd => hxi ((hDs i hi).mp hd)), if_neg hxi]

/-- C34, at `x = [[-1, 0, 2]]` with gradient `[10, 20, 30]`, slope `1/2` and
upstream gradient `[1, 1, 1]` over the rationals. -/
theorem leaky_relu_backward_rule_witness :
    ∃ h1 out tout h2,
      leaky_relu (1 / 2 : ℚ) exRelu (some 0) = some (h1, some out) ∧
      h1.deref out = some tout ∧ tout.extra = 1 / 2 ∧
      tout.data.floats
        = some ((List.range (1 * 3)).map fun i =>
            leakyExpr (1 / 2 : ℚ) (([-1, 0, 2] : List ℚ).getD i 0)) ∧
      leaky_relu_backward (setGrad h1 out [1, 1, 1]) (some out) = some h2 ∧
      ∀ i, i < 1 * 3 →
        gradAt h2 0 i = some (([10, 20, 30] : List ℚ).getD i 0
          + if ([-1, 0, 2] : List ℚ).getD i 0 < 0 then 1 / 2 * ([1, 1, 1] : List ℚ).getD i 0
            else ([1, 1, 1] : List ℚ).getD i 0) ∧
        (if ([-1, 0, 2] : List ℚ).getD i 0 < 0 then 1 / 2 * ([1, 1, 1] : List ℚ).getD i 0
            else ([1, 1, 1] : List ℚ).getD i 0)
          = leakyBwdExpr tout.extra (leakyExpr (1 / 2 : ℚ) (([-1, 0, 2] : List ℚ).getD i 0))
              (([1, 1, 1] : List ℚ).getD i 0) :=
  leaky_relu_backward_rule (1 / 2 : ℚ) (by norm_num) exRelu 0
    { leafMat .FLOAT64 1 3 [-1, 0, 2] .true with grad := some [10, 20, 30] } 1 3
    [-1, 0, 2] [10, 20, 30] [1, 1, 1] rfl ⟨rfl, rfl, rfl, rfl, by decide, rfl, rfl, by decide⟩
    ⟨rfl, rfl, rfl⟩ rfl

/-- The comparison of two finite `double`s is the comparison of their values. -/
theorem fp64_lt_num (x y : ℚ) : (Fp64.num x < Fp64.num y) ↔ x < y := by
  show Fp64.lt (Fp64.num x) (Fp64.num y) = true ↔ x < y
  simp [Fp64.lt]

/-- The `double` `2^-600` is positive. -/
theorem fp64_small_pos : (0 : Fp64) < Fp64.small := by
  show Fp64.num 0 < Fp64.num (1 / 2 ^ 600)
  rw [fp64_lt_num]
  positivity

/-- The `double` `-2^-600` is negative. -/
theorem fp64_negSmall_neg : Fp64.negSmall < 0 := by
  show Fp64.num (-(1 / 2 ^ 600)) < Fp64.num 0
  rw [fp64_lt_num]
  have : (0 : ℚ) < 1 / 2 ^ 600 := by positivity
  linarith

/-- The product `2^-600 * -2^-600` underflows: it rounds to zero. -/
theorem fp64_underflow : Fp64.small * Fp64.negSmall = 0 := by
  show Fp64.mul (Fp64.num (1 / 2 ^ 600)) (Fp64.num (-(1 / 2 ^ 600))) = Fp64.num 0
  have h : |(1 / 2 ^ 600 : ℚ) * -(1 / 2 ^ 600)| ≤ Fp64.half := by
    have e : (1 / 2 ^ 600 : ℚ) * -(1 / 2 ^ 600) = -(1 / 2 ^ 1200) := by
      rw [mul_neg, div_mul_div_comm, one_mul, ← pow_add]
    rw [e, abs_neg, abs_of_pos (by positivity), Fp64.half]
    apply one_div_le_one_div_of_le (by positivity)
    exact pow_le_pow_right₀ (by norm_num) (by norm_num)
  simp only [Fp64.mul, h, if_true]

/-- Zero is not `< 0`. -/
theorem fp64_zero_not_neg : ¬ ((0 : Fp64) < 0) := by
  show ¬ (Fp64.num 0 < Fp64.num 0)
  rw [fp64_lt_num]
  exact lt_irrefl 0

/-- C34 as stated, for every positive slope and every float tensor, fails in
floating point when `slope * x[i]` underflows.  On a `FLOAT64` tensor with
`slope = 2^-600 > 0` and `x[i] = -2^-600 < 0` the product rounds to a zero, so
the result element of `leaky_relu` is not `< 0`, and the rule's expression
`(out.data[i] < 0) ? out->extra * out.grad[i] : out.grad[i]` yields the
upstream gradient `1` itself, not `slope * 1`. -/
theorem leaky_relu_backward_rule_counterexample :
    (0 : Fp64) < Fp64.small ∧ Fp64.negSmall < 0 ∧
    leakyExpr Fp64.small Fp64.negSmall = 0 ∧
    leakyBwdExpr Fp64.small (leakyExpr Fp64.small Fp64.negSmall) (Fp64.num 1) = Fp64.num 1 ∧
    Fp64.small * Fp64.num 1 ≠ Fp64.num 1 := by
  have e1 : leakyExpr Fp64.small Fp64.negSmall = 0 := by
    rw [leakyExpr, if_pos fp64_negSmall_neg, fp64_underflow]
  refine ⟨fp64_small_pos, fp64_negSmall_neg, e1, ?_, ?_⟩
  · rw [e1, leakyBwdExpr, if_neg fp64_zero_not_neg]
  · show Fp64.mul (Fp64.num (1 / 2 ^ 600)) (Fp64.num 1) ≠ Fp64.num 1
    simp only [Fp64.mul, mul_one]
    intro hc
    have hlt : (1 / 2 ^ 600 : ℚ) < 1 := by
      rw [div_lt_one (by positivity)]
      exact one_lt_pow₀ (by norm_num) (by norm_num)
    have hpos : (0 : ℚ) < 1 / 2 ^ 600 := by positivity
    split_ifs at hc with hq
    · have := Fp64.num.inj hc
      norm_num at this
    · have := Fp64.num.inj hc
      linarith

/-- C40: the row/column decomposition is the identity on flat positions.  For
every position `i >= 0`, every `rows` and every `cols > 0`,
`shape_index(i, rows, cols) = i` and `Reshape_index(i, rows, cols) = i`; hence
on a tensor of dims `(rows, cols)` every element loop addresses its counter's
own position. -/
theorem index_identity (i rows cols : Int) (hi : 0 ≤ i) (hc : 0 < cols) :
    shape_index i rows cols = some i ∧ Reshape_index i rows cols = some i ∧
    ∀ (hh : Heap F) (p : Nat) (t : Tensor F), hh.deref p = some t →
      t.dims = [rows, cols] → posOf hh p i.toNat = some i := by
  have hc' : cols ≠ 0 := ne_of_gt hc
  have key : i.tdiv cols * cols + i.tmod cols = i := by
    have := Int.tdiv_add_tmod i cols
    linarith [mul_comm (i.tdiv cols) cols]
  refine ⟨?_, ?_, ?_⟩
  · simp only [shape_index, hc', if_false, key]
  · simp only [Reshape_index, hc', if_false, key]
  · intro hh p t hp hd
    simp only [posOf, rdDim, hp, hd, Option.bind_eq_bind, Option.some_bind,
      List.getElem?_cons_zero, List.getElem?_cons_succ, Int.toNat_of_nonneg hi, shape_index,
      hc', if_false, key]

/-- C40, at position 5 of a matrix with 2 rows and 3 columns. -/
theorem index_identity_witness :
    shape_index 5 2 3 = some 5 ∧ Reshape_index 5 2 3 = some 5 :=
  ⟨(index_identity (F := ℚ) 5 2 3 (by decide) (by decide)).1,
    (index_identity (F := ℚ) 5 2 3 (by decide) (by decide)).2.1⟩

/-- The value test of `eye` at a natural position. -/
theorem eyeVal_at (hh : Heap F) (t : Nat) (tt : Tensor F) (r n : Nat) (i : Nat)
    (ht : hh.deref t = some tt) (hd : tt.dims = [(r : Int), (n : Int)]) (hn : 0 < n) :
    eyeVal hh t i = some (decide (i / n = i % n)) := by
  have hn' : (n : Int) ≠ 0 := by omega
  have e1 : ((i : Int).tdiv (n : Int)) = ((i / n : Nat) : Int) := by
    rw [Int.tdiv_eq_ediv (by omega : (0 : Int) ≤ (i : Int)) (by omega)]
    simp
  have e2 : ((i : Int).tmod (n : Int)) = ((i % n : Nat) : Int) := by
    rw [Int.tmod_eq_emod (by omega : (0 : Int) ≤ (i : Int)) (by omega)]
    simp
  simp only [eyeVal, rdDim, ht, hd, Option.bind_eq_bind, Option.some_bind,
    List.getElem?_cons_zero, List.getElem?_cons_succ, hn', if_false, e1, e2, Nat.cast_inj]

/-- The integer element loop of `eye` fills the fresh result with the identity
matrix. -/
theorem eyeStepI_loop (dt : DType) (h : Heap F) (t0 : Tensor F) (n : Nat)
    (hfl : dt.isFloat = false) (hn : 0 < n) (ht0 : t0.dims = [(n : Int), (n : Int)]) :
    loopN (eyeStepI dt h.length) (n * n)
        (h ++ [some { t0 with data := Data.ofI dt (List.replicate (n * n) 0) }])
      = some (h ++ [some { t0 with data := Data.ofI dt (eyeData n) }]) := by
  have hn' : (n : Int) ≠ 0 := by omega
  have hloop := loopN_overwrite
    (fun D => h ++ [some { t0 with data := Data.ofI dt D }])
    (eyeStepI dt h.length) (fun q => if q / n = q % n then (1 : Int) else 0)
    (List.replicate (n * n) 0) (n * n) (by simp) ?_
  · have hov : overwrite (n * n) (fun q => if q / n = q % n then (1 : Int) else 0)
        (List.replicate (n * n) (0 : Int)) = eyeData n := by
      have := overwrite_full (fun q => if q / n = q % n then (1 : Int) else 0)
        (List.replicate (n * n) (0 : Int))
      simp only [List.length_replicate] at this
      rw [this, eyeData]
    rw [hloop, hov]
  · intro i hi
    have hoi : i < (overwrite i (fun q => if q / n = q % n then (1 : Int) else 0)
        (List.replicate (n * n) (0 : Int))).length := by
      rw [length_overwrite _ _ _ (by simp; omega)]; simpa using hi
    have hev := eyeVal_at
      (h ++ [some { t0 with data := Data.ofI dt (overwrite i
        (fun q => if q / n = q % n then (1 : Int) else 0) (List.replicate (n * n) 0)) }])
      h.length _ n n i (deref_append_new _ _) ht0 hn
    simp only [eyeStepI, Option.bind_eq_bind]
    rw [hev]
    simp only [posOf, rdDim, wrI, deref_append_new, Option.bind_eq_bind,
      Option.some_bind, ht0, List.getElem?_cons_zero, List.getElem?_cons_succ,
      shape_index_nat i _ _ hn', setI_ofI hfl _ i _ hoi, store_append_new, decide_eq_true_eq]

/-- `eye` for an integer type and a positive dimension. -/
theorem eye_int (h : Heap F) (dt : DType) (n : Nat) (rg : bool)
    (hfl : dt.isFloat = false) (hn : 0 < n) (hf : FitsInt n n) :
    eye h dt (n : Int) rg = some (h ++ [some (eyeResult dt n rg)], some h.length) := by
  have hfr := fresh_int_eq (F := F) hfl [(n : Int), (n : Int)] rg
  rw [prod_pair, toNat_mul_cast] at hfr
  have hl := eyeStepI_loop (F := F) dt h (fresh dt [(n : Int), (n : Int)] rg) n hfl hn rfl
  have hsz : total_size (fresh dt [(n : Int), (n : Int)] rg : Tensor F).dims
      (fresh dt [(n : Int), (n : Int)] rg : Tensor F).ndim = some ((n : Int) * (n : Int)) := by
    have e1 : (fresh dt [(n : Int), (n : Int)] rg : Tensor F).dims = [(n : Int), (n : Int)] :=
      rfl
    rw [e1, total_size_eq _ _ (by simp [fresh]) (fits_pair hf)]
    simp
  have hst : ({ (fresh dt [(n : Int), (n : Int)] rg : Tensor F) with
      size := (n : Int) * (n : Int) }) = fresh dt [(n : Int), (n : Int)] rg := by
    simp [fresh]
  unfold eye
  simp only [tensor_mat _ _ _ _ _ hf, Option.bind_eq_bind, Option.some_bind, deref_append_new,
    hsz,
    store_append_new, hst, forLoop, toNat_mul_cast]
  rw [hfr]
  cases dt with
  | INT32 => simp only [hl, Option.some_bind]; rfl
  | INT64 => simp only [hl, Option.some_bind]; rfl
  | FLOAT32 => simp [DType.isFloat] at hfl
  | FLOAT64 => simp [DType.isFloat] at hfl

theorem eyeResult_isMatI (dt : DType) (n : Nat) (rg : bool) (hfl : dt.isFloat = false)
    (hf : FitsInt n n) : IsMatI (eyeResult dt n rg : Tensor F) n n (eyeData n) where
  isInt := hfl
  dims_eq := rfl
  ndim_eq := by simp [eyeResult, fresh]
  size_eq := by simp [eyeResult, fresh]
  data_eq := rfl
  len_eq := by simp [eyeData]
  fits := hf

theorem eyeData_getD (n : Nat) (q : Nat) (hq : q < n * n) :
    (eyeData n).getD q 0 = if q / n = q % n then 1 else 0 := by
  simp [eyeData, List.getD, List.getElem?_map, List.getElem?_range hq]

/-- A sum with a single non-zero term. -/
theorem sum_single (l : Nat) (j : Nat) (hj : j < l) (u : Nat → Int)
    (hu : ∀ k, k < l → k ≠ j → u k = 0) : ((List.range l).map u).sum = u j := by
  induction l with
  | zero => omega
  | succ m ih =>
    rw [List.range_succ, List.map_append, List.sum_append]
    simp only [List.map_cons, List.map_nil, List.sum_cons, List.sum_nil, add_zero]
    by_cases hjm : j = m
    · subst hjm
      have hz : ((List.range j).map u).sum = 0 := by
        apply List.sum_eq_zero
        intro x hx
        simp only [List.mem_map, List.mem_range] at hx
        obtain ⟨k, hk, rfl⟩ := hx
        exact hu k (by omega) (by omega)
      rw [hz, zero_add]
    · rw [ih (by omega) (fun k hk hne => hu k (by omega) hne), hu m (by omega) (Ne.symm hjm),
        add_zero]

/-- Row `i` of `A` times column `j` of the identity is `A[i][j]`. -/
theorem dotI_eye_right (xs : List Int) (n i j : Nat) (hj : j < n) :
    dotI xs (eyeData n) n n i j = xs.getD (i * n + j) 0 := by
  unfold dotI
  rw [sum_single n j hj]
  · have hq : j * n + j < n * n := by nlinarith
    rw [eyeData_getD n _ hq]
    have e1 : (j * n + j) / n = j := by
      rw [Nat.add_comm, Nat.add_mul_div_right _ _ (by omega), Nat.div_eq_of_lt hj]; omega
    have e2 : (j * n + j) % n = j := by
      rw [Nat.add_comm, Nat.add_mul_mod_self_right, Nat.mod_eq_of_lt hj]
    rw [e1, e2]
    simp
  · intro k hk hne
    have hq : k * n + j < n * n := by nlinarith
    rw [eyeData_getD n _ hq]
    have e1 : (k * n + j) / n = k := by
      rw [Nat.add_comm, Nat.add_mul_div_right _ _ (by omega), Nat.div_eq_of_lt hj]; omega
    have e2 : (k * n + j) % n = j := by
      rw [Nat.add_comm, Nat.add_mul_mod_self_right, Nat.mod_eq_of_lt hj]
    rw [e1, e2, if_neg hne, mul_zero]

/-- Row `i` of the identity times column `j` of `A` is `A[i][j]`. -/
theorem dotI_eye_left (xs : List Int) (m n i j : Nat) (hi : i < m) :
    dotI (eyeData m) xs m n i j = xs.getD (i * n + j) 0 := by
  unfold dotI
  rw [sum_single m i hi]
  · have hq : i * m + i < m * m := by nlinarith
    rw [eyeData_getD m _ hq]
    have e1 : (i * m + i) / m = i := by
      rw [Nat.add_comm, Nat.add_mul_div_right _ _ (by omega), Nat.div_eq_of_lt hi]; omega
    have e2 : (i * m + i) % m = i := by
      rw [Nat.add_comm, Nat.add_mul_mod_self_right, Nat.mod_eq_of_lt hi]
    rw [e1, e2]
    simp
  · intro k hk hne
    have hq : i * m + k < m * m := by nlinarith
    rw [eyeData_getD m _ hq]
    have e1 : (i * m + k) / m = i := by
      rw [Nat.add_comm, Nat.add_mul_div_right _ _ (by omega), Nat.div_eq_of_lt hk]; omega
    have e2 : (i * m + k) % m = k := by
      rw [Nat.add_comm, Nat.add_mul_mod_self_right, Nat.mod_eq_of_lt hk]
    rw [e1, e2, if_neg (Ne.symm hne), zero_mul]

/-- C38, amended: the identity matrix built by `eye` is a two-sided unit of
`matmul` on integer matrices, whenever the identity matrices have at most
`INT_MAX` elements.  For an `INT32` or `INT64` matrix `A` of dims `(m, n)` with
`m, n >= 1`, `m * m <= INT_MAX` and `n * n <= INT_MAX` (its elements values of
the type), `matmul(A, eye(dtype, n))` and `matmul(eye(dtype, m), A)` both
return a fresh tensor of dims `(m, n)` holding exactly the data of `A`. -/
theorem eye_matmul_unit (h : Heap F) (A : Nat) (a : Tensor F) (m n : Nat) (xs : List Int)
    (ha : h.deref A = some a) (ma : IsMatI a m n xs) (hm : 0 < m) (hn : 0 < n)
    (hmm : (m : Int) * (m : Int) ≤ INT_MAX) (hnn : (n : Int) * (n : Int) ≤ INT_MAX)
    (hr : ∀ x ∈ xs, InRange a.dtype.bits x) :
    progMatmulEye h A a.dtype (n : Int)
      = some (h ++ [some (eyeResult a.dtype n .false)]
            ++ [some (matResult a (eyeResult a.dtype n .false) A h.length m n a.data)],
          some (h.length + 1)) ∧
    progEyeMatmul h A a.dtype (m : Int)
      = some (h ++ [some (eyeResult a.dtype m .false)]
            ++ [some (matResult (eyeResult a.dtype m .false) a h.length A m n a.data)],
          some (h.length + 1)) ∧
    (matResult a (eyeResult a.dtype n .false) A h.length m n a.data).dims
      = [(m : Int), (n : Int)] := by
  have hfl := ma.isInt
  have hlen := ma.len_eq
  have hin : ∀ q, q < m * n → wrap a.dtype.bits (xs.getD q 0) = xs.getD q 0 := by
    intro q hq
    apply wrap_of_inRange _ (bits_pos _)
    apply hr
    have hq' : q < xs.length := by rw [hlen]; exact hq
    simp [List.getD, List.getElem?_eq_getElem hq']
  have hqn : ∀ q, q / n * n + q % n = q := fun q => Nat.div_add_mod' q n
  have hfn : FitsInt n n := fitsInt_square hnn
  have hfm : FitsInt m m := fitsInt_square hmm
  have hmn : (m : Int) * (n : Int) ≤ INT_MAX := ((fitsInt_iff m n).1 ma.fits).2.2
  refine ⟨?_, ?_, rfl⟩
  · have he := eye_int h a.dtype n .false hfl hn hfn
    have ha1 : Heap.deref (h ++ [some (eyeResult a.dtype n .false)]) A = some a :=
      deref_append_left _ ha
    have hb1 : Heap.deref (h ++ [some (eyeResult a.dtype n .false)]) h.length
        = some (eyeResult a.dtype n .false) := deref_append_new _ _
    have hmm := matmul_int (h ++ [some (eyeResult a.dtype n .false)]) A h.length a
      (eyeResult a.dtype n .false) m n n xs (eyeData n) ha1 hb1 ma
      (eyeResult_isMatI a.dtype n .false hfl hfn) rfl hmn
    have hD : ((List.range (m * n)).map fun q =>
        wrap a.dtype.bits (dotI xs (eyeData n) n n (q / n) (q % n))) = xs := by
      apply map_range_eq_self xs 0 (m * n) hlen
      intro q hq'
      rw [dotI_eye_right xs n (q / n) (q % n) (Nat.mod_lt _ hn), hqn, hin q hq']
    rw [hD, ← ma.data_eq] at hmm
    simp only [progMatmulEye, he, Option.bind_eq_bind, Option.some_bind, hmm,
      List.length_append, List.length_singleton]
  · have he := eye_int h a.dtype m .false hfl hm hfm
    have ha1 : Heap.deref (h ++ [some (eyeResult a.dtype m .false)]) A = some a :=
      deref_append_left _ ha
    have hb1 : Heap.deref (h ++ [some (eyeResult a.dtype m .false)]) h.length
        = some (eyeResult a.dtype m .false) := deref_append_new _ _
    have hmm := matmul_int (h ++ [some (eyeResult a.dtype m .false)]) h.length A
      (eyeResult a.dtype m .false) a m m n (eyeData m) xs hb1 ha1
      (eyeResult_isMatI a.dtype m .false hfl hfm) ma rfl hmn
    have hD : ((List.range (m * n)).map fun q =>
        wrap a.dtype.bits (dotI (eyeData m) xs m n (q / n) (q % n))) = xs := by
      apply map_range_eq_self xs 0 (m * n) hlen
      intro q hq'
      have hqm : q / n < m := by
        rw [Nat.div_lt_iff_lt_mul hn]; exact hq'
      rw [dotI_eye_left xs m n (q / n) (q % n) hqm, hqn, hin q hq']
    have hdt : (eyeResult a.dtype m .false : Tensor F).dtype = a.dtype := rfl
    rw [hdt, hD, ← ma.data_eq] at hmm
    simp only [progEyeMatmul, he, Option.bind_eq_bind, Option.some_bind, hmm,
      List.length_append, List.length_singleton]

/-- C38, at the `INT32` matrix `A = [[1, 2]]`. -/
theorem eye_matmul_unit_witness :
    progMatmulEye exInt 0 DType.INT32 ((2 : Nat) : Int)
      = some (exInt ++ [some (eyeResult .INT32 2 .false)]
            ++ [some (matResult (leafMatI .INT32 1 2 [1, 2] .false)
                (eyeResult .INT32 2 .false) 0 exInt.length 1 2
                (leafMatI (F := ℚ) .INT32 1 2 [1, 2] .false).data)],
          some (exInt.length + 1)) :=
  (eye_matmul_unit exInt 0 (leafMatI .INT32 1 2 [1, 2] .false) 1 2 [1, 2] rfl
    ⟨rfl, rfl, rfl, rfl, rfl, rfl, by decide⟩ (by decide) (by decide) (by decide) (by decide)
    (by
      intro x hx
      simp at hx
      rcases hx with rfl | rfl <;> simp [InRange, leafMatI, DType.bits])).1

/-- C38 as stated, for every `m, n >= 1`, fails: `A` is an `INT32` matrix of
dims `(1, 65536)`, yet `eye(INT32, 65536)` has no outcome, since the element
count `65536 * 65536 = 2^32` of the identity matrix overflows the `int` of
`total_size`; so `matmul(A, eye(INT32, 65536))` does not return the data of
`A`.  (Where the compiled product wraps to 0, the identity matrix has no
elements and `matmul` reads past its buffer.) -/
theorem eye_matmul_unit_counterexample :
    IsMatI (leafMatI .INT32 1 65536 (List.replicate 65536 0) .false : Tensor ℚ) 1 65536
      (List.replicate 65536 0) ∧
    exRowI.deref 0 = some (leafMatI .INT32 1 65536 (List.replicate 65536 0) .false) ∧
    eye exRowI .INT32 65536 .false = none ∧
    progMatmulEye exRowI 0 .INT32 65536 = none :=
  ⟨⟨rfl, rfl, rfl, rfl, rfl, by rw [List.length_replicate], by decide⟩, rfl, rfl, rfl⟩

/-! ## Index arithmetic of `transpose` -/

theorem tIdx_lt (r c i : Nat) (hc : 0 < c) (hi : i < r * c) : tIdx r c i < r * c := by
  unfold tIdx
  have h1 : i % c < c := Nat.mod_lt _ hc
  have h2 : i / c < r := by rw [Nat.div_lt_iff_lt_mul hc]; exact hi
  have h3 : i % c + 1 ≤ c := h1
  calc i % c * r + i / c < i % c * r + r := Nat.add_lt_add_left h2 _
    _ = (i % c + 1) * r := by ring
    _ ≤ c * r := Nat.mul_le_mul_right r h3
    _ = r * c := Nat.mul_comm c r

theorem tIdx_div (r c i : Nat) (hc : 0 < c) (hi : i < r * c) : tIdx r c i / r = i % c := by
  have h2 : i / c < r := by rw [Nat.div_lt_iff_lt_mul hc]; exact hi
  unfold tIdx
  rw [Nat.add_comm, Nat.add_mul_div_right _ _ (Nat.lt_of_le_of_lt (Nat.zero_le _) h2),
    Nat.div_eq_of_lt h2, Nat.zero_add]

theorem tIdx_mod (r c i : Nat) (hc : 0 < c) (hi : i < r * c) : tIdx r c i % r = i / c := by
  have h2 : i / c < r := by rw [Nat.div_lt_iff_lt_mul hc]; exact hi
  unfold tIdx
  rw [Nat.add_comm, Nat.add_mul_mod_self_right, Nat.mod_eq_of_lt h2]

/-- `T_index(., c, r)` undoes `T_index(., r, c)`. -/
theorem tIdx_tIdx (r c i : Nat) (hc : 0 < c) (hi : i < r * c) : tIdx c r (tIdx r c i) = i := by
  have e : tIdx c r (tIdx r c i) = (tIdx r c i % r) * c + tIdx r c i / r := rfl
  rw [e, tIdx_div r c i hc hi, tIdx_mod r c i hc hi]
  exact Nat.div_add_mod' i c

/-- Position `j * r + i` of the transpose comes from position `i * c + j`. -/
theorem tIdx_pair (r c i j : Nat) (hi : i < r) : tIdx c r (j * r + i) = i * c + j := by
  unfold tIdx
  have e1 : (j * r + i) % r = i := by
    rw [Nat.add_comm, Nat.add_mul_mod_self_right, Nat.mod_eq_of_lt hi]
  have e2 : (j * r + i) / r = j := by
    rw [Nat.add_comm, Nat.add_mul_div_right _ _ (by omega), Nat.div_eq_of_lt hi]; omega
  rw [e1, e2]

theorem T_index_nat (i r c : Nat) (hc : 0 < c) :
    T_index (i : Int) (r : Int) (c : Int) = some ((tIdx r c i : Nat) : Int) := by
  have hc' : (c : Int) ≠ 0 := by omega
  have e1 : ((i : Int).tdiv (c : Int)) = ((i / c : Nat) : Int) := by
    rw [Int.tdiv_eq_ediv (by omega : (0 : Int) ≤ (i : Int)) (by omega)]
    simp
  have e2 : ((i : Int).tmod (c : Int)) = ((i % c : Nat) : Int) := by
    rw [Int.tmod_eq_emod (by omega : (0 : Int) ≤ (i : Int)) (by omega)]
    simp
  simp only [T_index, hc', if_false, e1, e2, tIdx]
  push_cast
  rfl

/-! ## Stores at permuted positions -/

theorem scat_length {α : Type} (N k : Nat) (σ : Nat → Nat) (f : Nat → α) (D0 : List α) (d : α) :
    (scat N k σ f D0 d).length = N := by
  simp [scat]

theorem scat_zero {α : Type} (N : Nat) (σ : Nat → Nat) (f : Nat → α) (D0 : List α) (d : α)
    (hD : D0.length = N) : scat N 0 σ f D0 d = D0 := by
  unfold scat
  apply map_range_eq_self D0 d N hD
  intro i _
  simp

theorem scat_full {α : Type} (N : Nat) (σ : Nat → Nat) (f : Nat → α) (D0 : List α) (d : α)
    (hσ : ∀ t, t < N → σ t < N) :
    scat N N σ f D0 d = (List.range N).map fun t => f (σ t) := by
  unfold scat
  apply List.map_congr_left
  intro t ht
  rw [if_pos (hσ t (List.mem_range.mp ht))]

theorem scat_step {α : Type} (N k : Nat) (π σ : Nat → Nat) (f : Nat → α) (D0 : List α) (d : α)
    (hinv : ∀ t, t < N → (σ t = k ↔ t = π k)) :
    (scat N k σ f D0 d).set (π k) (f k) = scat N (k + 1) σ f D0 d := by
  apply List.ext_getElem?
  intro t
  by_cases ht : t < N
  · unfold scat
    rw [getElem?_map_range _ _ _ ht]
    by_cases htk : t = π k
    · subst htk
      rw [List.getElem?_set_self (by simpa using ht)]
      have hs : σ (π k) = k := (hinv _ ht).mpr rfl
      rw [hs, if_pos (Nat.lt_succ_self k)]
    · rw [List.getElem?_set_ne (Ne.symm htk), getElem?_map_range _ _ _ ht]
      have hne : σ t ≠ k := fun e => htk ((hinv t ht).mp e)
      by_cases hlt : σ t < k
      · rw [if_pos hlt, if_pos (by omega)]
      · rw [if_neg hlt, if_neg (by omega)]
  · rw [List.getElem?_eq_none (by simp [scat]; omega),
      List.getElem?_eq_none (by simp [scat]; omega)]

/-- The permutation facts of `transpose` in the form `scat_step` uses. -/
theorem tIdx_inv (r c k : Nat) (hc : 0 < c) (hk : k < r * c) :
    ∀ t, t < r * c → (tIdx c r t = k ↔ t = tIdx r c k) := by
  intro t ht
  have hr : 0 < r := by
    rcases Nat.eq_zero_or_pos r with h0 | h0
    · subst h0; simp at hk
    · exact h0
  have ht' : t < c * r := by rw [Nat.mul_comm]; exact ht
  constructor
  · intro e
    rw [← e, tIdx_tIdx c r t hr ht']
  · intro e
    rw [e, tIdx_tIdx r c k hc hk]

/-- The integer loop of `transpose` after `k` iterations. -/
theorem transposeStepI_loop (dt : DType) (h : Heap F) (p1 : Nat) (a t0 : Tensor F) (r c : Nat)
    (xs : List Int) (ha : h.deref p1 = some a) (ma : IsMatI a r c xs) (hda : a.dtype = dt)
    (hc : 0 < c) (D0 : List Int) (hD : D0.length = r * c) (k : Nat) (hk : k ≤ r * c) :
    loopN (transposeStepI dt (r : Int) (c : Int) h.length p1) k
        (h ++ [some { t0 with data := Data.ofI dt D0 }])
      = some (h ++ [some { t0 with data := (Data.ofI dt
          (scat (r * c) k (tIdx c r) (fun i => xs.getD i 0) D0 0)) }]) := by
  have hfl : dt.isFloat = false := hda ▸ ma.isInt
  have hc' : (c : Int) ≠ 0 := by omega
  induction k with
  | zero => rw [scat_zero _ _ _ _ _ hD]; rfl
  | succ n ih =>
    have hn : n < r * c := hk
    have hxi : n < xs.length := by rw [ma.len_eq]; exact hn
    have hti : tIdx r c n < (scat (r * c) n (tIdx c r) (fun i => xs.getD i 0) D0 0).length := by
      rw [scat_length]; exact tIdx_lt r c n hc hn
    rw [loopN_succ, ih (by omega)]
    simp only [Option.some_bind, transposeStepI, shape_index_nat n _ _ hc', T_index_nat n r c hc,
      rdI, wrI, deref_append_new, deref_append_left _ ha, Option.bind_eq_bind, ma.data_eq, hda,
      getI_ofI hfl, getElem?_getD xs n 0 hxi, setI_ofI hfl _ _ _ hti, store_append_new,
      scat_step (r * c) n (tIdx r c) (tIdx c r) (fun i => xs.getD i 0) D0 0
        (tIdx_inv r c n hc hn)]

/-- The float loop of `transpose` after `k` iterations, on an operand that does
not track gradients. -/
theorem transposeStepF_loop (dt : DType) (h : Heap F) (p1 : Nat) (a t0 : Tensor F) (r c : Nat)
    (xs : List F) (ha : h.deref p1 = some a) (ma : IsMat a r c xs) (hda : a.dtype = dt)
    (hng : a.requires_grad = bool.false)
    (D0 : List F) (hD : D0.length = r * c) (k : Nat) (hk : k ≤ r * c) :
    loopN (transposeStepF dt (r : Int) (c : Int) h.length p1) k
        (h ++ [some { t0 with data := Data.ofF dt D0 }])
      = some (h ++ [some { t0 with data := (Data.ofF dt
          (scat (r * c) k (tIdx c r) (fun i => xs.getD i 0) D0 0)) }]) := by
  have hfl : dt.isFloat = true := hda ▸ ma.isFloat
  have hc := ma.cols_pos
  have hc' : (c : Int) ≠ 0 := by omega
  induction k with
  | zero => rw [scat_zero _ _ _ _ _ hD]; rfl
  | succ n ih =>
    have hn : n < r * c := hk
    have hxi : n < xs.length := by rw [ma.len_eq]; exact hn
    have hti : tIdx r c n < (scat (r * c) n (tIdx c r) (fun i => xs.getD i 0) D0 0).length := by
      rw [scat_length]; exact tIdx_lt r c n hc hn
    rw [loopN_succ, ih (by omega)]
    simp only [Option.some_bind, transposeStepF, shape_index_nat n _ _ hc', T_index_nat n r c hc,
      rdF, wrF, deref_append_new, deref_append_left _ ha, Option.bind_eq_bind, ma.data_eq, hda,
      getF_ofF hfl, getElem?_getD xs n 0 hxi, setF_ofF hfl _ _ _ hti, store_append_new,
      scat_step (r * c) n (tIdx r c) (tIdx c r) (fun i => xs.getD i 0) D0 0
        (tIdx_inv r c n hc hn), hng, lnot, bool.toInt]
    simp

/-- The float loop of `transpose` after `k` iterations, on an operand that
tracks gradients. -/
theorem transposeStepF_loop_grad (dt : DType) (h : Heap F) (p1 : Nat) (a t0 : Tensor F)
    (r c : Nat) (xs gs : List F) (ha : h.deref p1 = some a) (ma : IsMat a r c xs)
    (hda : a.dtype = dt) (ht0 : t0.dtype = dt)
    (hrg : a.requires_grad = bool.true) (hg : a.grad = some gs) (hgl : gs.length = r * c)
    (D0 G0 : List F) (hD : D0.length = r * c) (hG : G0.length = r * c)
    (k : Nat) (hk : k ≤ r * c) :
    loopN (transposeStepF dt (r : Int) (c : Int) h.length p1) k
        (h ++ [some { t0 with data := Data.ofF dt D0, grad := some G0 }])
      = some (h ++ [some { t0 with
          data := Data.ofF dt (scat (r * c) k (tIdx c r) (fun i => xs.getD i 0) D0 0),
          grad := some (scat (r * c) k (tIdx c r) (fun i => gs.getD i 0) G0 0) }]) := by
  have hfl : dt.isFloat = true := hda ▸ ma.isFloat
  have hc := ma.cols_pos
  have hc' : (c : Int) ≠ 0 := by omega
  induction k with
  | zero => rw [scat_zero _ _ _ _ _ hD, scat_zero _ _ _ _ _ hG]; rfl
  | succ n ih =>
    have hn : n < r * c := hk
    have hxi : n < xs.length := by rw [ma.len_eq]; exact hn
    have hgi : n < gs.length := by rw [hgl]; exact hn
    have hti : tIdx r c n < (scat (r * c) n (tIdx c r) (fun i => xs.getD i 0) D0 0).length := by
      rw [scat_length]; exact tIdx_lt r c n hc hn
    have htg : tIdx r c n < (scat (r * c) n (tIdx c r) (fun i => gs.getD i 0) G0 0).length := by
      rw [scat_length]; exact tIdx_lt r c n hc hn
    rw [loopN_succ, ih (by omega)]
    simp only [Option.some_bind, transposeStepF, shape_index_nat n _ _ hc', T_index_nat n r c hc,
      rdF, wrF, rdG, wrG, deref_append_new, deref_append_left _ ha, Option.bind_eq_bind,
      ma.data_eq, hda, ht0, getF_ofF hfl, getElem?_getD xs n 0 hxi, setF_ofF hfl _ _ _ hti,
      store_append_new, hrg, lnot, bool.toInt, hg, hfl, bufGet_nat, bufSet_nat _ _ _ htg,
      getElem?_getD gs n 0 hgi, and_self, if_true, beq_self_eq_true,
      scat_step (r * c) n (tIdx r c) (tIdx c r) (fun i => xs.getD i 0) D0 0
        (tIdx_inv r c n hc hn),
      scat_step (r * c) n (tIdx r c) (tIdx c r) (fun i => gs.getD i 0) G0 0
        (tIdx_inv r c n hc hn)]

theorem scat_transposed {α : Type} (d : α) (r c : Nat) (xs D0 : List α) (hc : 0 < c) :
    scat (r * c) (r * c) (tIdx c r) (fun i => xs.getD i d) D0 d = transposed d r c xs := by
  rw [scat_full]
  · rfl
  · intro t ht
    rcases Nat.eq_zero_or_pos r with h0 | h0
    · subst h0; simp at ht
    · have := tIdx_lt c r t h0 (by rw [Nat.mul_comm]; exact ht)
      rw [Nat.mul_comm] at this
      exact this

/-- `transpose` on an integer matrix. -/
theorem transpose_int (h : Heap F) (p1 : Nat) (a : Tensor F) (r c : Nat) (xs : List Int)
    (ha : h.deref p1 = some a) (ma : IsMatI a r c xs) (hc : 0 < c) :
    transpose h (some p1)
      = some (h ++ [some (transposeResultI a r c xs)], some h.length) := by
  have hfl := ma.isInt
  have hloop := fun (dt : DType) (hda : a.dtype = dt) =>
    transposeStepI_loop dt h p1 a (fresh dt [(c : Int), (r : Int)] a.requires_grad)
      r c xs ha ma hda hc (List.replicate (r * c) 0) (by simp) (r * c) le_rfl
  have hfr := fun (dt : DType) (hf : dt.isFloat = false) =>
    fresh_int_eq (F := F) hf [(c : Int), (r : Int)] a.requires_grad
  have e1 : rdDim h p1 0 = some (r : Int) := by simp [rdDim, ha, ma.dims_eq]
  have e2 : rdDim h p1 1 = some (c : Int) := by simp [rdDim, ha, ma.dims_eq]
  unfold transpose
  simp only [ha, Option.bind_eq_bind, Option.some_bind, ma.ndim_eq, ne_eq, not_true_eq_false,
    if_false, e1, e2, tensor_mat _ _ _ _ _ (fitsInt_swap ma.fits), forLoop, ma.size_eq, toNat_mul_cast]
  cases hd : a.dtype with
  | INT32 =>
    have h1 := hfr .INT32 rfl
    rw [prod_pair, toNat_mul_cast, Nat.mul_comm c r] at h1
    have h2 := hloop .INT32 hd
    rw [scat_transposed 0 r c xs _ hc] at h2
    rw [h1]
    simp only [h2, Option.some_bind]
    simp [transposeResultI, hd]
  | INT64 =>
    have h1 := hfr .INT64 rfl
    rw [prod_pair, toNat_mul_cast, Nat.mul_comm c r] at h1
    have h2 := hloop .INT64 hd
    rw [scat_transposed 0 r c xs _ hc] at h2
    rw [h1]
    simp only [h2, Option.some_bind]
    simp [transposeResultI, hd]
  | FLOAT32 => simp [hd, DType.isFloat] at hfl
  | FLOAT64 => simp [hd, DType.isFloat] at hfl

/-- `transpose` on a float matrix that does not track gradients. -/
theorem transpose_float (h : Heap F) (p1 : Nat) (a : Tensor F) (r c : Nat) (xs : List F)
    (ha : h.deref p1 = some a) (ma : IsMat a r c xs) (na : NoGrad a) :
    transpose h (some p1)
      = some (h ++ [some (transposeResult a r c xs)], some h.length) := by
  have hfl := ma.isFloat
  have hc := ma.cols_pos
  have hloop := fun (dt : DType) (hda : a.dtype = dt) =>
    transposeStepF_loop dt h p1 a (fresh dt [(c : Int), (r : Int)] a.requires_grad)
      r c xs ha ma hda na.tracks (List.replicate (r * c) 0) (by simp) (r * c) le_rfl
  have hfr := fun (dt : DType) (hf : dt.isFloat = true) =>
    fresh_float_eq (F := F) hf [(c : Int), (r : Int)] a.requires_grad
  have e1 : rdDim h p1 0 = some (r : Int) := by simp [rdDim, ha, ma.dims_eq]
  have e2 : rdDim h p1 1 = some (c : Int) := by simp [rdDim, ha, ma.dims_eq]
  unfold transpose
  simp only [ha, Option.bind_eq_bind, Option.some_bind, ma.ndim_eq, ne_eq, not_true_eq_false,
    if_false, e1, e2, tensor_mat _ _ _ _ _ (fitsInt_swap ma.fits), forLoop, ma.size_eq, toNat_mul_cast]
  cases hd : a.dtype with
  | FLOAT32 =>
    have h1 := hfr .FLOAT32 rfl
    rw [prod_pair, toNat_mul_cast, Nat.mul_comm c r] at h1
    have h2 := hloop .FLOAT32 hd
    rw [scat_transposed 0 r c xs _ hc] at h2
    rw [h1]
    simp only [h2, Option.some_bind]
    simp [transposeResult, hd, na.grad_eq, na.tracks, fresh, lnot, bool.toInt]
  | FLOAT64 =>
    have h1 := hfr .FLOAT64 rfl
    rw [prod_pair, toNat_mul_cast, Nat.mul_comm c r] at h1
    have h2 := hloop .FLOAT64 hd
    rw [scat_transposed 0 r c xs _ hc] at h2
    rw [h1]
    simp only [h2, Option.some_bind]
    simp [transposeResult, hd, na.grad_eq, na.tracks, fresh, lnot, bool.toInt]
  | INT32 => simp [hd, DType.isFloat] at hfl
  | INT64 => simp [hd, DType.isFloat] at hfl

theorem fresh_float_grad {dt : DType} (hfl : dt.isFloat = true) (r c : Nat) :
    (fresh dt [(c : Int), (r : Int)] bool.true : Tensor F)
      = { (fresh dt [(c : Int), (r : Int)] bool.true : Tensor F) with
          data := Data.ofF dt (List.replicate (r * c) 0),
          grad := some (List.replicate (r * c) 0) } := by
  cases dt <;>
    simp_all [fresh, Data.calloc, Data.ofF, DType.isFloat, lnot, bool.toInt, toNat_mul_cast,
      Nat.mul_comm c r]

/-- `transpose` on a float matrix that tracks gradients. -/
theorem transpose_float_grad (h : Heap F) (p1 : Nat) (a : Tensor F) (r c : Nat)
    (xs gs : List F) (ha : h.deref p1 = some a) (ma : IsMat a r c xs) (ga : HasGrad a gs) :
    transpose h (some p1)
      = some (h ++ [some (transposeResult a r c xs)], some h.length) := by
  have hfl := ma.isFloat
  have hc := ma.cols_pos
  have hgl : gs.length = r * c := by
    have := ga.len_eq; rw [ma.size_eq] at this; exact_mod_cast this
  have hloop := fun (dt : DType) (hda : a.dtype = dt) =>
    transposeStepF_loop_grad dt h p1 a (fresh dt [(c : Int), (r : Int)] bool.true)
      r c xs gs ha ma hda rfl ga.tracks ga.grad_eq hgl (List.replicate (r * c) 0)
      (List.replicate (r * c) 0) (by simp) (by simp) (r * c) le_rfl
  have e1 : rdDim h p1 0 = some (r : Int) := by simp [rdDim, ha, ma.dims_eq]
  have e2 : rdDim h p1 1 = some (c : Int) := by simp [rdDim, ha, ma.dims_eq]
  unfold transpose
  simp only [ha, Option.bind_eq_bind, Option.some_bind, ma.ndim_eq, ne_eq, not_true_eq_false,
    if_false, e1, e2, tensor_mat _ _ _ _ _ (fitsInt_swap ma.fits), forLoop, ma.size_eq, toNat_mul_cast, ga.tracks]
  cases hd : a.dtype with
  | FLOAT32 =>
    have h2 := hloop .FLOAT32 hd
    rw [scat_transposed 0 r c xs _ hc, scat_transposed 0 r c gs _ hc] at h2
    rw [fresh_float_grad (by rfl) r c]
    simp only [h2, Option.some_bind]
    simp [transposeResult, hd, ga.grad_eq, ga.tracks, fresh]
  | FLOAT64 =>
    have h2 := hloop .FLOAT64 hd
    rw [scat_transposed 0 r c xs _ hc, scat_transposed 0 r c gs _ hc] at h2
    rw [fresh_float_grad (by rfl) r c]
    simp only [h2, Option.some_bind]
    simp [transposeResult, hd, ga.grad_eq, ga.tracks, fresh]
  | INT32 => simp [hd, DType.isFloat] at hfl
  | INT64 => simp [hd, DType.isFloat] at hfl

theorem transposed_getD {α : Type} (d : α) (r c : Nat) (xs : List α) (i j : Nat)
    (hi : i < r) (hj : j < c) :
    (transposed d r c xs).getD (j * r + i) d = xs.getD (i * c + j) d := by
  have hq : j * r + i < r * c := by nlinarith
  simp [transposed, List.getD, List.getElem?_map, List.getElem?_range hq, tIdx_pair r c i j hi]

theorem transposed_length {α : Type} (d : α) (r c : Nat) (xs : List α) :
    (transposed d r c xs).length = r * c := by
  simp [transposed]

/-- Transposing twice gives the buffer back. -/
theorem transposed_twice {α : Type} (d : α) (r c : Nat) (xs : List α) (hc : 0 < c)
    (hl : xs.length = r * c) : transposed d c r (transposed d r c xs) = xs := by
  unfold transposed
  rw [Nat.mul_comm c r]
  apply map_range_eq_self xs d (r * c) hl
  intro t ht
  have h1 : tIdx r c t < r * c := tIdx_lt r c t hc ht
  rw [List.getD_eq_getElem?_getD, getElem?_map_range _ _ _ h1, Option.getD_some,
    tIdx_tIdx r c t hc ht]

/-- `transpose` on a float matrix whose gradient buffer matches its flag. -/
theorem transpose_float_any (h : Heap F) (p1 : Nat) (a : Tensor F) (r c : Nat) (xs : List F)
    (ha : h.deref p1 = some a) (ma : IsMat a r c xs) (hg : NoGrad a ∨ ∃ gs, HasGrad a gs) :
    transpose h (some p1)
      = some (h ++ [some (transposeResult a r c xs)], some h.length) := by
  rcases hg with na | ⟨gs, ga⟩
  · exact transpose_float h p1 a r c xs ha ma na
  · exact transpose_float_grad h p1 a r c xs gs ha ma ga

theorem transposeResult_isMat (a : Tensor F) (r c : Nat) (xs : List F) (ma : IsMat a r c xs)
    (hr : 0 < r) : IsMat (transposeResult a r c xs) c r (transposed 0 r c xs) where
  isFloat := ma.isFloat
  dims_eq := rfl
  ndim_eq := by simp [transposeResult, fresh]
  size_eq := by simp [transposeResult, fresh]
  cols_pos := hr
  data_eq := rfl
  len_eq := by rw [transposed_length, Nat.mul_comm]
  fits := fitsInt_swap ma.fits

theorem transposeResult_grad (a : Tensor F) (r c : Nat) (xs : List F) (ma : IsMat a r c xs)
    (hg : NoGrad a ∨ ∃ gs, HasGrad a gs) :
    NoGrad (transposeResult a r c xs) ∨ ∃ gs, HasGrad (transposeResult a r c xs) gs := by
  rcases hg with na | ⟨gs, ga⟩
  · left
    exact ⟨na.tracks, by simp [transposeResult, na.grad_eq]⟩
  · right
    refine ⟨transposed 0 r c gs, ga.tracks, by simp [transposeResult, ga.grad_eq], ?_⟩
    rw [transposed_length]
    simp [transposeResult, fresh]
    ring

theorem transposeResultI_isMatI (a : Tensor F) (r c : Nat) (xs : List Int)
    (ma : IsMatI a r c xs) : IsMatI (transposeResultI a r c xs) c r (transposed 0 r c xs) where
  isInt := ma.isInt
  dims_eq := rfl
  ndim_eq := by simp [transposeResultI, fresh]
  size_eq := by simp [transposeResultI, fresh]
  data_eq := rfl
  len_eq := by rw [transposed_length, Nat.mul_comm]
  fits := fitsInt_swap ma.fits

/-- C31: `transpose` remaps values and gradients together.  For a matrix `x` of
dims `(r, c)` with `c >= 1`, `transpose(x)` returns a fresh tensor of the same
element type and size with dims `(c, r)` whose data holds `x.data[i*c + j]` at
`j*r + i` for all `i < r`, `j < c`; when `x` is a float tensor that tracks
gradients, its gradient buffer holds `x.grad[i*c + j]` at `j*r + i` as well. -/
theorem transpose_remaps (h : Heap F) (x : Nat) (a : Tensor F) (r c : Nat)
    (ha : h.deref x = some a) :
    (∀ xs : List F, IsMat a r c xs → (NoGrad a ∨ ∃ gs, HasGrad a gs) →
      transpose h (some x) = some (h ++ [some (transposeResult a r c xs)], some h.length) ∧
      (transposeResult a r c xs).dtype = a.dtype ∧
      (transposeResult a r c xs).size = a.size ∧
      (transposeResult a r c xs).dims = [(c : Int), (r : Int)] ∧
      (transposeResult a r c xs).data = Data.ofF a.dtype (transposed 0 r c xs) ∧
      (∀ i j, i < r → j < c →
        (transposed 0 r c xs).getD (j * r + i) 0 = xs.getD (i * c + j) 0) ∧
      ∀ gs, HasGrad a gs →
        (transposeResult a r c xs).grad = some (transposed 0 r c gs) ∧
        ∀ i j, i < r → j < c →
          (transposed 0 r c gs).getD (j * r + i) 0 = gs.getD (i * c + j) 0) ∧
    (∀ xs : List Int, IsMatI a r c xs → 0 < c →
      transpose h (some x) = some (h ++ [some (transposeResultI a r c xs)], some h.length) ∧
      (transposeResultI a r c xs).dtype = a.dtype ∧
      (transposeResultI a r c xs).size = a.size ∧
      (transposeResultI a r c xs).dims = [(c : Int), (r : Int)] ∧
      (transposeResultI a r c xs).data = Data.ofI a.dtype (transposed 0 r c xs) ∧
      ∀ i j, i < r → j < c →
        (transposed 0 r c xs).getD (j * r + i) 0 = xs.getD (i * c + j) 0) := by
  constructor
  · intro xs ma hg
    refine ⟨transpose_float_any h x a r c xs ha ma hg, rfl, ?_, rfl, rfl,
      fun i j hi hj => transposed_getD 0 r c xs i j hi hj, ?_⟩
    · rw [ma.size_eq]
      simp [transposeResult, fresh]
      ring
    · intro gs ga
      exact ⟨by simp [transposeResult, ga.grad_eq],
        fun i j hi hj => transposed_getD 0 r c gs i j hi hj⟩
  · intro xs ma hc
    refine ⟨transpose_int h x a r c xs ha ma hc, rfl, ?_, rfl, rfl,
      fun i j hi hj => transposed_getD 0 r c xs i j hi hj⟩
    rw [ma.size_eq]
    simp [transposeResultI, fresh]
    ring

/-- C31, at the tracking matrix `x = [[1, 2, 3], [4, 5, 6]]` with gradient
`[10, 20, 30, 40, 50, 60]` over the rationals. -/
theorem transpose_remaps_witness :
    transpose exTr (some 0)
      = some (exTr ++ [some (transposeResult
          ({ leafMat .FLOAT32 2 3 [1, 2, 3, 4, 5, 6] .true with
            grad := some [10, 20, 30, 40, 50, 60] } : Tensor ℚ) 2 3 [1, 2, 3, 4, 5, 6])],
        some exTr.length) :=
  ((transpose_remaps exTr 0
    ({ leafMat .FLOAT32 2 3 [1, 2, 3, 4, 5, 6] .true with
      grad := some [10, 20, 30, 40, 50, 60] } : Tensor ℚ) 2 3 rfl).1 [1, 2, 3, 4, 5, 6]
    ⟨rfl, rfl, rfl, rfl, by decide, rfl, rfl, by decide⟩ (Or.inr ⟨_, rfl, rfl, rfl⟩)).1

/-- C37: `transpose` is an involution.  For a matrix `x` with positive dims
`(r, c)`, `transpose(transpose(x))` returns a fresh tensor with the dims,
element type, data and gradient buffer of `x`; and `T_index(., c, r)` undoes
`T_index(., r, c)` on the positions `0, ..., r*c - 1`, which it maps into
themselves. -/
theorem transpose_involution (h : Heap F) (x : Nat) (a : Tensor F) (r c : Nat)
    (ha : h.deref x = some a) (hr : 0 < r) (hc : 0 < c) :
    (∀ xs : List F, IsMat a r c xs → (NoGrad a ∨ ∃ gs, HasGrad a gs) →
      ∃ t u, progTwice h x = some (h ++ [some t] ++ [some u], some (h.length + 1)) ∧
        u.dims = a.dims ∧ u.dtype = a.dtype ∧ u.data = a.data ∧ u.grad = a.grad) ∧
    (∀ xs : List Int, IsMatI a r c xs →
      ∃ t u, progTwice h x = some (h ++ [some t] ++ [some u], some (h.length + 1)) ∧
        u.dims = a.dims ∧ u.dtype = a.dtype ∧ u.data = a.data ∧ u.grad = none) ∧
    (∀ i, i < r * c →
      T_index (i : Int) (r : Int) (c : Int) = some ((tIdx r c i : Nat) : Int) ∧
      tIdx r c i < r * c ∧
      T_index ((tIdx r c i : Nat) : Int) (c : Int) (r : Int) = some (i : Int)) := by
  refine ⟨?_, ?_, ?_⟩
  · intro xs ma hg
    have h1 := transpose_float_any h x a r c xs ha ma hg
    have m1 := transposeResult_isMat a r c xs ma hr
    have g1 := transposeResult_grad a r c xs ma hg
    have h2 := transpose_float_any (h ++ [some (transposeResult a r c xs)]) h.length
      (transposeResult a r c xs) c r (transposed 0 r c xs) (deref_append_new _ _) m1 g1
    refine ⟨transposeResult a r c xs,
      transposeResult (transposeResult a r c xs) c r (transposed 0 r c xs), ?_, ?_, rfl, ?_, ?_⟩
    · simp only [progTwice, h1, Option.bind_eq_bind, Option.some_bind, h2, List.length_append,
        List.length_singleton]
    · rw [ma.dims_eq]; rfl
    · rw [ma.data_eq]
      simp only [transposeResult, transposed_twice 0 r c xs hc ma.len_eq]
      rfl
    · rcases hg with na | ⟨gs, ga⟩
      · simp [transposeResult, na.grad_eq]
      · have hgl : gs.length = r * c := by
          have := ga.len_eq; rw [ma.size_eq] at this; exact_mod_cast this
        simp [transposeResult, ga.grad_eq, transposed_twice 0 r c gs hc hgl]
  · intro xs ma
    have h1 := transpose_int h x a r c xs ha ma hc
    have m1 := transposeResultI_isMatI a r c xs ma
    have h2 := transpose_int (h ++ [some (transposeResultI a r c xs)]) h.length
      (transposeResultI a r c xs) c r (transposed 0 r c xs) (deref_append_new _ _) m1 hr
    refine ⟨transposeResultI a r c xs,
      transposeResultI (transposeResultI a r c xs) c r (transposed 0 r c xs), ?_, ?_, rfl, ?_,
      ?_⟩
    · simp only [progTwice, h1, Option.bind_eq_bind, Option.some_bind, h2, List.length_append,
        List.length_singleton]
    · rw [ma.dims_eq]; rfl
    · rw [ma.data_eq]
      simp only [transposeResultI, transposed_twice 0 r c xs hc ma.len_eq]
      rfl
    · have hfl := ma.isInt
      simp [transposeResultI, fresh, hfl]
  · intro i hi
    refine ⟨T_index_nat i r c hc, tIdx_lt r c i hc hi, ?_⟩
    rw [T_index_nat (tIdx r c i) c r hr, tIdx_tIdx r c i hc hi]

/-- C37, at the tracking matrix `x = [[1, 2, 3], [4, 5, 6]]` over the
rationals. -/
theorem transpose_involution_witness :
    ∃ t u, progTwice exTr 0 = some (exTr ++ [some t] ++ [some u], some (exTr.length + 1)) ∧
      u.dims = [2, 3] ∧ u.dtype = DType.FLOAT32 ∧
      u.data = Data.ofF .FLOAT32 ([1, 2, 3, 4, 5, 6] : List ℚ) ∧
      u.grad = some [10, 20, 30, 40, 50, 60] :=
  (transpose_involution exTr 0
    ({ leafMat .FLOAT32 2 3 [1, 2, 3, 4, 5, 6] .true with
      grad := some [10, 20, 30, 40, 50, 60] } : Tensor ℚ) 2 3 rfl (by decide) (by decide)).1
    [1, 2, 3, 4, 5, 6] ⟨rfl, rfl, rfl, rfl, by decide, rfl, rfl, by decide⟩ (Or.inr ⟨_, rfl, rfl, rfl⟩)

/-! ## Relations kept by every backward rule -/

theorem rel_loopN {R : Heap F → Heap F → Prop} (hR : HeapRel R) (body : Nat → Heap F → Option (Heap F))
    (hb : ∀ i s s1, body i s = some s1 → R s s1) (n : Nat) {s s1 : Heap F}
    (hl : loopN body n s = some s1) : R s s1 := by
  induction n generalizing s1 with
  | zero => cases hl; exact hR.rRefl s
  | succ k ih =>
    rw [loopN_succ, Option.bind_eq_some] at hl
    obtain ⟨s2, h1, h2⟩ := hl
    exact hR.rTrans _ _ _ (ih h1) (hb k s2 s1 h2)

theorem rel_forLoop {R : Heap F → Heap F → Prop} (hR : HeapRel R) (body : Nat → Heap F → Option (Heap F))
    (hb : ∀ i s s1, body i s = some s1 → R s s1) (n : Int) {s s1 : Heap F}
    (hl : forLoop n body s = some s1) : R s s1 :=
  rel_loopN hR body hb n.toNat hl

theorem rel_addBwdStep {R : Heap F → Heap F → Prop} (hR : HeapRel R) (coef : F) (dt : DType) (o' pk i : Nat) (hh hh1 : Heap F)
    (hs : addBwdStep coef dt o' pk i hh = some hh1) : R hh hh1 := by
  simp only [addBwdStep, Option.bind_eq_bind, Option.bind_eq_some] at hs
  repeat (obtain ⟨_, _, hs⟩ := hs)
  exact hR.rWrG _ _ _ _ _ _ hs

theorem rel_mulBwdStepA {R : Heap F → Heap F → Prop} (hR : HeapRel R) (dt : DType) (o' p0 p1 i : Nat) (hh hh1 : Heap F)
    (hs : mulBwdStepA dt o' p0 p1 i hh = some hh1) : R hh hh1 := by
  simp only [mulBwdStepA, Option.bind_eq_bind, Option.bind_eq_some] at hs
  repeat (obtain ⟨_, _, hs⟩ := hs)
  exact hR.rWrG _ _ _ _ _ _ hs

theorem rel_mulBwdStepB {R : Heap F → Heap F → Prop} (hR : HeapRel R) (dt : DType) (o' p0 p1 i : Nat) (hh hh1 : Heap F)
    (hs : mulBwdStepB dt o' p0 p1 i hh = some hh1) : R hh hh1 := by
  simp only [mulBwdStepB, Option.bind_eq_bind, Option.bind_eq_some] at hs
  repeat (obtain ⟨_, _, hs⟩ := hs)
  exact hR.rWrG _ _ _ _ _ _ hs

theorem rel_matmulBwdStepA {R : Heap F → Heap F → Prop} (hR : HeapRel R) (dt : DType) (o' p0 p1 : Nat) (n l : Int) (i k j : Nat)
    (hh hh1 : Heap F) (hs : matmulBwdStepA dt o' p0 p1 n l i k j hh = some hh1) :
    R hh hh1 := by
  simp only [matmulBwdStepA, Option.bind_eq_bind, Option.bind_eq_some] at hs
  repeat (obtain ⟨_, _, hs⟩ := hs)
  exact hR.rWrG _ _ _ _ _ _ hs

theorem rel_matmulBwdStepB {R : Heap F → Heap F → Prop} (hR : HeapRel R) (dt : DType) (o' p0 p1 : Nat) (m n : Int) (k j i : Nat)
    (hh hh1 : Heap F) (hs : matmulBwdStepB dt o' p0 p1 m n k j i hh = some hh1) :
    R hh hh1 := by
  simp only [matmulBwdStepB, Option.bind_eq_bind, Option.bind_eq_some] at hs
  repeat (obtain ⟨_, _, hs⟩ := hs)
  exact hR.rWrG _ _ _ _ _ _ hs

theorem rel_divBwdStepA {R : Heap F → Heap F → Prop} (hR : HeapRel R) (dt : DType) (o' p0 p1 i : Nat) (hh hh1 : Heap F)
    (hs : divBwdStepA dt o' p0 p1 i hh = some hh1) : R hh hh1 := by
  simp only [divBwdStepA, Option.bind_eq_bind, Option.bind_eq_some] at hs
  repeat (obtain ⟨_, _, hs⟩ := hs)
  exact hR.rWrG _ _ _ _ _ _ hs

theorem rel_divBwdStepB {R : Heap F → Heap F → Prop} (hR : HeapRel R) (L : Libm F) (dt : DType) (o' p0 p1 i : Nat)
    (hh hh1 : Heap F) (hs : divBwdStepB L dt o' p0 p1 i hh = some hh1) : R hh hh1 := by
  simp only [divBwdStepB, Option.bind_eq_bind, Option.bind_eq_some] at hs
  repeat (obtain ⟨_, _, hs⟩ := hs)
  exact hR.rWrG _ _ _ _ _ _ hs

theorem rel_powBwdStep {R : Heap F → Heap F → Prop} (hR : HeapRel R) (L : Libm F) (o' : Nat) (dt : DType) (p0 i : Nat)
    (hh hh1 : Heap F) (hs : powBwdStep L o' dt p0 i hh = some hh1) : R hh hh1 := by
  simp only [powBwdStep, Option.bind_eq_bind, Option.bind_eq_some] at hs
  repeat (obtain ⟨_, _, hs⟩ := hs)
  exact hR.rWrG _ _ _ _ _ _ hs

theorem rel_expBwdStep {R : Heap F → Heap F → Prop} (hR : HeapRel R) (L : Libm F) (o' : Nat) (dt : DType) (p0 i : Nat)
    (hh hh1 : Heap F) (hs : expBwdStep L o' dt p0 i hh = some hh1) : R hh hh1 := by
  simp only [expBwdStep, Option.bind_eq_bind, Option.bind_eq_some] at hs
  repeat (obtain ⟨_, _, hs⟩ := hs)
  exact hR.rWrG _ _ _ _ _ _ hs

theorem rel_reluBwdStep {R : Heap F → Heap F → Prop} (hR : HeapRel R) (o' : Nat) (dt : DType) (p0 i : Nat)
    (hh hh1 : Heap F) (hs : reluBwdStep o' dt p0 i hh = some hh1) : R hh hh1 := by
  simp only [reluBwdStep, Option.bind_eq_bind, Option.bind_eq_some] at hs
  repeat (obtain ⟨_, _, hs⟩ := hs)
  exact hR.rWrG _ _ _ _ _ _ hs

theorem rel_leakyBwdStep {R : Heap F → Heap F → Prop} (hR : HeapRel R) (o' : Nat) (dt : DType) (p0 i : Nat)
    (hh hh1 : Heap F) (hs : leakyBwdStep o' dt p0 i hh = some hh1) : R hh hh1 := by
  simp only [leakyBwdStep, Option.bind_eq_bind, Option.bind_eq_some] at hs
  repeat (obtain ⟨_, _, hs⟩ := hs)
  exact hR.rWrG _ _ _ _ _ _ hs

theorem rel_tanhBwdStep {R : Heap F → Heap F → Prop} (hR : HeapRel R) (L : Libm F) (o' : Nat) (dt : DType) (p0 i : Nat)
    (hh hh1 : Heap F) (hs : tanhBwdStep L o' dt p0 i hh = some hh1) : R hh hh1 := by
  simp only [tanhBwdStep, Option.bind_eq_bind, Option.bind_eq_some] at hs
  repeat (obtain ⟨_, _, hs⟩ := hs)
  exact hR.rWrG _ _ _ _ _ _ hs

theorem rel_sigmoidBwdStep {R : Heap F → Heap F → Prop} (hR : HeapRel R) (o' : Nat) (dt : DType) (p0 i : Nat)
    (hh hh1 : Heap F) (hs : sigmoidBwdStep o' dt p0 i hh = some hh1) : R hh hh1 := by
  simp only [sigmoidBwdStep, Option.bind_eq_bind, Option.bind_eq_some] at hs
  repeat (obtain ⟨_, _, hs⟩ := hs)
  exact hR.rWrG _ _ _ _ _ _ hs

theorem rel_sumBwdStep {R : Heap F → Heap F → Prop} (hR : HeapRel R) (o' : Nat) (dt : DType) (p0 i : Nat)
    (hh hh1 : Heap F) (hs : sumBwdStep o' dt p0 i hh = some hh1) : R hh hh1 := by
  simp only [sumBwdStep, Option.bind_eq_bind, Option.bind_eq_some] at hs
  repeat (obtain ⟨_, _, hs⟩ := hs)
  exact hR.rWrG _ _ _ _ _ _ hs

theorem rel_meanBwdStep {R : Heap F → Heap F → Prop} (hR : HeapRel R) (o' : Nat) (dt : DType) (p0 i : Nat)
    (hh hh1 : Heap F) (hs : meanBwdStep o' dt p0 i hh = some hh1) : R hh hh1 := by
  simp only [meanBwdStep, Option.bind_eq_bind, Option.bind_eq_some] at hs
  repeat (obtain ⟨_, _, hs⟩ := hs)
  exact hR.rWrG _ _ _ _ _ _ hs

theorem rel_mseBwdStep {R : Heap F → Heap F → Prop} (hR : HeapRel R) (o' : Nat) (dt : DType) (p0 i : Nat)
    (hh hh1 : Heap F) (hs : mseBwdStep o' dt p0 i hh = some hh1) : R hh hh1 := by
  simp only [mseBwdStep, Option.bind_eq_bind, Option.bind_eq_some] at hs
  repeat (obtain ⟨_, _, hs⟩ := hs)
  exact hR.rWrG _ _ _ _ _ _ hs

theorem rel_softmaxBwdStep {R : Heap F → Heap F → Prop} (hR : HeapRel R) (o' : Nat) (dt : DType) (p0 i j : Nat)
    (hh hh1 : Heap F) (hs : softmaxBwdStep o' dt p0 i j hh = some hh1) : R hh hh1 := by
  simp only [softmaxBwdStep, Option.bind_eq_bind, Option.bind_eq_some] at hs
  obtain ⟨_, _, _, _, _, _, hs⟩ := hs
  split at hs
  · simp only [Option.bind_eq_some] at hs
    repeat (obtain ⟨_, _, hs⟩ := hs)
    exact hR.rWrG _ _ _ _ _ _ hs
  · simp only [Option.bind_eq_some] at hs
    repeat (obtain ⟨_, _, hs⟩ := hs)
    exact hR.rWrG _ _ _ _ _ _ hs

theorem rel_bwdSwitch {R : Heap F → Heap F → Prop} (hR : HeapRel R) {o : Nat} (dtype : DType) (n : Int)
    (step : DType → Nat → Heap F → Option (Heap F))
    (hb : ∀ dt i s s1, step dt i s = some s1 → R s s1) {h : Heap F} {r : Heap F × Bool}
    {q : Nat} {tq : Tensor F} (hq : h.deref q = some tq) (hdt : tq.dtype = dtype)
    (hs : bwdSwitch dtype n o step h = some r) : R h r.1 := by
  unfold bwdSwitch at hs
  cases dtype <;> simp only [Option.map_eq_some'] at hs <;> obtain ⟨h1, hl, rfl⟩ := hs
  · exact rel_forLoop hR _ (hb _) n hl
  · exact rel_forLoop hR _ (hb _) n hl
  · exact hR.rFree _ _ _ q tq hq (by rw [hdt]; rfl) hl
  · exact hR.rFree _ _ _ q tq hq (by rw [hdt]; rfl) hl

theorem rel_bwdSecond {R : Heap F → Heap F → Prop} (hR : HeapRel R) {o : Nat} (step : Nat → DType → Nat → Heap F → Option (Heap F))
    (hb : ∀ p dt i s s1, step p dt i s = some s1 → R s s1) {h h1 : Heap F}
    (hs : bwdSecond o step h = some h1) : R h h1 := by
  simp only [bwdSecond, Option.bind_eq_bind, Option.bind_eq_some] at hs
  obtain ⟨t, ht, p1, _, t1, _, hs⟩ := hs
  split at hs
  · simp only [Option.bind_eq_some] at hs
    obtain ⟨r, hr, hs⟩ := hs
    cases hs
    exact rel_bwdSwitch hR _ _ _ (hb p1) ht rfl hr
  · cases hs; exact hR.rRefl h

/-- The frame of a two-operand rule built from `bwdSwitch` and `bwdSecond`. -/
theorem rel_binary {R : Heap F → Heap F → Prop} (hR : HeapRel R) {o : Nat} (gate : bool → Bool)
    (stepA : Nat → Nat → DType → Nat → Heap F → Option (Heap F))
    (stepB : Nat → DType → Nat → Heap F → Option (Heap F))
    (hA : ∀ p0 p1 dt i s s1, stepA p0 p1 dt i s = some s1 → R s s1)
    (hB : ∀ p dt i s s1, stepB p dt i s = some s1 → R s s1)
    {h h1 : Heap F} {t : Tensor F} {p0 q : Nat} {t0 : Tensor F} (ht : h.deref o = some t)
    (hs : (if gate t0.requires_grad then
        (bwdSwitch t.dtype t.size o (stepA p0 q) h).bind fun r =>
          if r.2 then some r.1 else bwdSecond o stepB r.1
      else bwdSecond o stepB h) = some h1) : R h h1 := by
  split at hs
  · simp only [Option.bind_eq_some] at hs
    obtain ⟨r, hr, hs⟩ := hs
    have k1 := rel_bwdSwitch hR _ _ _ (hA p0 q) ht rfl hr
    split at hs
    · cases hs; exact k1
    · exact hR.rTrans _ _ _ k1 (rel_bwdSecond hR _ hB hs)
  · exact rel_bwdSecond hR _ hB hs

theorem rel_add_backward {R : Heap F → Heap F → Prop} (hR : HeapRel R) {o : Nat} {h h1 : Heap F} (hs : add_backward h (some o) = some h1) :
    R h h1 := by
  simp only [add_backward, Option.bind_eq_bind, Option.bind_eq_some] at hs
  obtain ⟨t, ht, p0, _, t0, _, hs⟩ := hs
  exact rel_binary hR lnot (fun p0 _ dt => addBwdStep 1 dt o p0)
    (fun p1 dt => addBwdStep 1 dt o p1)
    (fun _ _ _ _ _ _ => rel_addBwdStep hR _ _ _ _ _ _ _)
    (fun _ _ _ _ _ => rel_addBwdStep hR _ _ _ _ _ _ _) (q := 0) ht hs

theorem rel_sub_backward {R : Heap F → Heap F → Prop} (hR : HeapRel R) {o : Nat} {h h1 : Heap F} (hs : sub_backward h (some o) = some h1) :
    R h h1 := by
  simp only [sub_backward, Option.bind_eq_bind, Option.bind_eq_some] at hs
  obtain ⟨t, ht, p0, _, t0, _, hs⟩ := hs
  exact rel_binary hR eqTrue (fun p0 _ dt => addBwdStep 1 dt o p0)
    (fun p1 dt => addBwdStep (-1) dt o p1)
    (fun _ _ _ _ _ _ => rel_addBwdStep hR _ _ _ _ _ _ _)
    (fun _ _ _ _ _ => rel_addBwdStep hR _ _ _ _ _ _ _) (q := 0) ht hs

theorem rel_mul_backward {R : Heap F → Heap F → Prop} (hR : HeapRel R) {o : Nat} {h h1 : Heap F} (hs : mul_backward h (some o) = some h1) :
    R h h1 := by
  simp only [mul_backward, Option.bind_eq_bind, Option.bind_eq_some] at hs
  obtain ⟨t, ht, p0, _, t0, _, hs⟩ := hs
  split at hs
  · simp only [Option.bind_eq_some] at hs
    obtain ⟨p1, _, r, hr, hs⟩ := hs
    have k1 := rel_bwdSwitch hR _ _ _ (fun dt i s s1 => rel_mulBwdStepA hR dt o p0 p1 i s s1)
      ht rfl hr
    split at hs
    · cases hs; exact k1
    · exact hR.rTrans _ _ _ k1 (rel_bwdSecond hR _ (fun p dt i s s1 => rel_mulBwdStepB hR dt o p0 p i s s1) hs)
  · exact rel_bwdSecond hR _ (fun p dt i s s1 => rel_mulBwdStepB hR dt o p0 p i s s1) hs

theorem rel_matmulBwdF {R : Heap F → Heap F → Prop} (hR : HeapRel R) {o : Nat} (dt : DType) (p0 p1 : Nat) (m n l : Int) {h h1 : Heap F}
    (hs : matmulBwdF dt o p0 p1 m n l h = some h1) : R h h1 := by
  simp only [matmulBwdF, Option.bind_eq_bind, Option.bind_eq_some] at hs
  obtain ⟨t0, _, h2, hA, t1, _, hs⟩ := hs
  have k1 : R h h2 := by
    split at hA
    · exact rel_forLoop hR _ (fun i s s1 hi => rel_forLoop hR _ (fun k s s1 hk =>
        rel_forLoop hR _ (fun j s s1 hj => rel_matmulBwdStepA hR dt o p0 p1 n l i k j s s1 hj)
          _ hk) _ hi) _ hA
    · cases hA; exact hR.rRefl h
  split at hs
  · exact hR.rTrans _ _ _ k1 (rel_forLoop hR _ (fun k s s1 hk => rel_forLoop hR _ (fun j s s1 hj =>
      rel_forLoop hR _ (fun i s s1 hi => rel_matmulBwdStepB hR dt o p0 p1 m n k j i s s1 hi)
        _ hj) _ hk) _ hs)
  · cases hs; exact k1

theorem rel_matmul_backward {R : Heap F → Heap F → Prop} (hR : HeapRel R) {o : Nat} {h h1 : Heap F}
    (hs : matmul_backward h (some o) = some h1) : R h h1 := by
  simp only [matmul_backward, Option.bind_eq_bind, Option.bind_eq_some] at hs
  obtain ⟨t, ht, p0, _, m, _, p1, _, n, _, l, _, hs⟩ := hs
  split at hs
  · exact rel_matmulBwdF hR _ _ _ _ _ _ hs
  · exact rel_matmulBwdF hR _ _ _ _ _ _ hs
  · rename_i h32 h64
    refine hR.rFree _ _ _ o t ht ?_ hs
    cases hd : t.dtype <;> simp_all [DType.isFloat]

theorem rel_divBwdF {R : Heap F → Heap F → Prop} (hR : HeapRel R) {o : Nat} (L : Libm F) (dt : DType) {h h1 : Heap F}
    (hs : divBwdF L dt o h = some h1) : R h h1 := by
  simp only [divBwdF, Option.bind_eq_bind, Option.bind_eq_some] at hs
  obtain ⟨t, _, p0, _, t0, _, h2, hA, p1, _, t1, _, hs⟩ := hs
  have k1 : R h h2 := by
    split at hA
    · simp only [Option.bind_eq_some] at hA
      obtain ⟨q, _, hA⟩ := hA
      exact rel_forLoop hR _ (fun i s s1 hi => rel_divBwdStepA hR dt o p0 q i s s1 hi) _ hA
    · cases hA; exact hR.rRefl h
  split at hs
  · exact hR.rTrans _ _ _ k1 (rel_forLoop hR _ (fun i s s1 hi => rel_divBwdStepB hR L dt o p0 p1 i s s1 hi)
      _ hs)
  · cases hs; exact k1

theorem rel_Div_backward {R : Heap F → Heap F → Prop} (hR : HeapRel R) {o : Nat} (L : Libm F) {h h1 : Heap F}
    (hs : Div_backward L h (some o) = some h1) : R h h1 := by
  simp only [Div_backward, Option.bind_eq_bind, Option.bind_eq_some] at hs
  obtain ⟨t, ht, hs⟩ := hs
  split at hs
  · exact rel_divBwdF hR _ _ hs
  · exact rel_divBwdF hR _ _ hs
  · rename_i h32 h64
    refine hR.rFree _ _ _ o t ht ?_ hs
    cases hd : t.dtype <;> simp_all [DType.isFloat]

theorem rel_unaryBwdSwitchFirst {R : Heap F → Heap F → Prop} (hR : HeapRel R) {o : Nat}
    (step : DType → Nat → Nat → Heap F → Option (Heap F))
    (hb : ∀ dt p i s s1, step dt p i s = some s1 → R s s1) {h h1 : Heap F}
    (hs : unaryBwdSwitchFirst o step h = some h1) : R h h1 := by
  simp only [unaryBwdSwitchFirst, Option.bind_eq_bind, Option.bind_eq_some] at hs
  obtain ⟨t, ht, hs⟩ := hs
  split at hs
  · simp only [Option.bind_eq_some] at hs
    obtain ⟨p0, _, t0, _, hs⟩ := hs
    split at hs
    · exact rel_forLoop hR _ (hb _ _) _ hs
    · cases hs; exact hR.rRefl h
  · simp only [Option.bind_eq_some] at hs
    obtain ⟨p0, _, t0, _, hs⟩ := hs
    split at hs
    · exact rel_forLoop hR _ (hb _ _) _ hs
    · cases hs; exact hR.rRefl h
  · rename_i h32 h64
    refine hR.rFree _ _ _ o t ht ?_ hs
    cases hd : t.dtype <;> simp_all [DType.isFloat]

theorem rel_unaryBwdGateFirst {R : Heap F → Heap F → Prop} (hR : HeapRel R) {o : Nat} (ofOperand : Bool)
    (step : DType → Nat → Nat → Heap F → Option (Heap F))
    (hb : ∀ dt p i s s1, step dt p i s = some s1 → R s s1) {h h1 : Heap F}
    (hs : unaryBwdGateFirst o ofOperand step h = some h1) : R h h1 := by
  simp only [unaryBwdGateFirst, Option.bind_eq_bind, Option.bind_eq_some] at hs
  obtain ⟨t, ht, p0, _, t0, ht0, hs⟩ := hs
  split at hs
  · simp only [Option.bind_eq_some] at hs
    obtain ⟨r, hr, hs⟩ := hs
    cases hs
    cases ofOperand
    · exact rel_bwdSwitch hR _ _ _ (fun dt => hb dt p0) ht (by simp) hr
    · exact rel_bwdSwitch hR _ _ _ (fun dt => hb dt p0) ht0 (by simp) hr
  · cases hs; exact hR.rRefl h

theorem rel_unaryBwdGateOut {R : Heap F → Heap F → Prop} (hR : HeapRel R) {o : Nat} (gate : bool → Bool) (ofOperand : Bool)
    (body : DType → Nat → Heap F → Option (Heap F))
    (hb : ∀ dt p s s1, body dt p s = some s1 → R s s1) {h h1 : Heap F}
    (hs : unaryBwdGateOut o gate ofOperand body h = some h1) : R h h1 := by
  simp only [unaryBwdGateOut, Option.bind_eq_bind, Option.bind_eq_some] at hs
  obtain ⟨t, ht, hs⟩ := hs
  split at hs
  · split at hs
    · simp only [Option.bind_eq_some] at hs
      obtain ⟨p0, _, t0, ht0, hs⟩ := hs
      split at hs
      · exact hb _ _ _ _ hs
      · exact hb _ _ _ _ hs
      · rename_i h32 h64
        refine hR.rFree _ _ _ p0 t0 ht0 ?_ hs
        cases hd : t0.dtype <;> simp_all [DType.isFloat]
    · split at hs
      · simp only [Option.bind_eq_some] at hs
        obtain ⟨p0, _, hs⟩ := hs
        exact hb _ _ _ _ hs
      · simp only [Option.bind_eq_some] at hs
        obtain ⟨p0, _, hs⟩ := hs
        exact hb _ _ _ _ hs
      · rename_i h32 h64
        refine hR.rFree _ _ _ o t ht ?_ hs
        cases hd : t.dtype <;> simp_all [DType.isFloat]
  · cases hs; exact hR.rRefl h

theorem rel_softmaxBwdLoops {R : Heap F → Heap F → Prop} (hR : HeapRel R) {o : Nat} (dt : DType) (p0 : Nat) {h h1 : Heap F}
    (hs : softmaxBwdLoops o dt p0 h = some h1) : R h h1 := by
  simp only [softmaxBwdLoops, Option.bind_eq_bind, Option.bind_eq_some] at hs
  obtain ⟨r, _, hs⟩ := hs
  refine rel_forLoop hR _ (fun i s s1 hi => ?_) _ hs
  simp only [Option.bind_eq_some] at hi
  obtain ⟨c, _, hi⟩ := hi
  exact rel_forLoop hR _ (fun j s s1 hj => rel_softmaxBwdStep hR o dt p0 i j s s1 hj) _ hi

theorem rel_sumBwdLoop {R : Heap F → Heap F → Prop} (hR : HeapRel R) {o : Nat} (dt : DType) (p0 : Nat) {h h1 : Heap F}
    (hs : sumBwdLoop o dt p0 h = some h1) : R h h1 := by
  simp only [sumBwdLoop, Option.bind_eq_bind, Option.bind_eq_some] at hs
  obtain ⟨t0, _, hs⟩ := hs
  exact rel_forLoop hR _ (fun i s s1 hi => rel_sumBwdStep hR o dt p0 i s s1 hi) _ hs

theorem rel_meanBwdLoop {R : Heap F → Heap F → Prop} (hR : HeapRel R) {o : Nat} (dt : DType) (p0 : Nat) {h h1 : Heap F}
    (hs : meanBwdLoop o dt p0 h = some h1) : R h h1 := by
  simp only [meanBwdLoop, Option.bind_eq_bind, Option.bind_eq_some] at hs
  obtain ⟨t, _, t0, _, hs⟩ := hs
  split at hs
  · cases hs; exact hR.rRefl h
  · exact rel_forLoop hR _ (fun i s s1 hi => rel_meanBwdStep hR o dt p0 i s s1 hi) _ hs

theorem rel_mseBwdLoop {R : Heap F → Heap F → Prop} (hR : HeapRel R) {o : Nat} (dt : DType) (p0 : Nat) {h h1 : Heap F}
    (hs : mseBwdLoop o dt p0 h = some h1) : R h h1 := by
  simp only [mseBwdLoop, Option.bind_eq_bind, Option.bind_eq_some] at hs
  obtain ⟨t0, _, hs⟩ := hs
  exact rel_forLoop hR _ (fun i s s1 hi => rel_mseBwdStep hR o dt p0 i s s1 hi) _ hs

/-- Every backward rule, whenever it returns, leaves every tensor other than
`out` that owns no gradient buffer as it was. -/
theorem rel_backwardRules {R : Heap F → Heap F → Prop} (hR : HeapRel R) (L : Libm F)
    (rule : Heap F → Option Nat → Option (Heap F))
    (hrule : rule ∈ backwardRules L) {o : Nat} {h h1 : Heap F}
    (hs : rule h (some o) = some h1) : R h h1 := by
  simp only [backwardRules, List.mem_cons, List.mem_singleton, List.not_mem_nil,
    or_false] at hrule
  rcases hrule with rfl | rfl | rfl | rfl | rfl | rfl | rfl | rfl | rfl | rfl | rfl | rfl | rfl
    | rfl | rfl
  · exact rel_add_backward hR hs
  · exact rel_sub_backward hR hs
  · exact rel_mul_backward hR hs
  · exact rel_matmul_backward hR hs
  · exact rel_Div_backward hR L hs
  · exact rel_unaryBwdSwitchFirst hR _ (fun dt p i s s1 => rel_powBwdStep hR L o dt p i s s1) hs
  · exact rel_unaryBwdSwitchFirst hR _ (fun dt p i s s1 => rel_expBwdStep hR L o dt p i s s1) hs
  · exact rel_unaryBwdGateFirst hR _ _ (fun dt p i s s1 => rel_reluBwdStep hR o dt p i s s1) hs
  · exact rel_unaryBwdGateFirst hR _ _ (fun dt p i s s1 => rel_leakyBwdStep hR o dt p i s s1) hs
  · exact rel_unaryBwdGateFirst hR _ _ (fun dt p i s s1 => rel_tanhBwdStep hR L o dt p i s s1) hs
  · exact rel_unaryBwdGateFirst hR _ _ (fun dt p i s s1 => rel_sigmoidBwdStep hR o dt p i s s1) hs
  · exact rel_unaryBwdGateOut hR _ _ _ (fun dt p s s1 => rel_softmaxBwdLoops hR dt p) hs
  · exact rel_unaryBwdGateOut hR _ _ _ (fun dt p s s1 => rel_sumBwdLoop hR dt p) hs
  · exact rel_unaryBwdGateOut hR _ _ _ (fun dt p s s1 => rel_meanBwdLoop hR dt p) hs
  · exact rel_unaryBwdGateOut hR _ _ _ (fun dt p s s1 => rel_mseBwdLoop hR dt p) hs

/-! ## The frame of `backward` -/

theorem UpToGrad.uRefl (t : Tensor F) : UpToGrad t t := ⟨rfl, rfl⟩

theorem UpToGrad.uTrans {t t1 t2 : Tensor F} (a : UpToGrad t t1) (b : UpToGrad t1 t2) :
    UpToGrad t t2 := by
  refine ⟨?_, b.len.trans a.len⟩
  have h1 := a.eq
  have h2 := b.eq
  rw [h2]
  rw [h1]

theorem UpToGrad.dtype_eq {t t1 : Tensor F} (a : UpToGrad t t1) : t1.dtype = t.dtype := by
  rw [a.eq]

theorem UpToGrad.prevs_eq {t t1 : Tensor F} (a : UpToGrad t t1) : t1.prevs = t.prevs := by
  rw [a.eq]

theorem UpToGrad.num_prevs_eq {t t1 : Tensor F} (a : UpToGrad t t1) :
    t1.num_prevs = t.num_prevs := by
  rw [a.eq]

theorem Frame.allFloat {h h1 : Heap F} (f : Frame h h1) (hf : AllFloat h) : AllFloat h1 := by
  intro q t1 hq
  obtain ⟨t, ht, u⟩ := f.1 q t1 hq
  rw [u.dtype_eq]
  exact hf q t ht

theorem Frame.fRefl (h : Heap F) : Frame h h :=
  ⟨fun _ t1 hq => ⟨t1, hq, UpToGrad.uRefl t1⟩, fun _ _ t hq => ⟨t, hq⟩⟩

theorem Frame.fTrans {h1 h2 h3 : Heap F} (a : Frame h1 h2) (b : Frame h2 h3) : Frame h1 h3 := by
  refine ⟨?_, ?_⟩
  · intro q t3 hq
    obtain ⟨t2, ht2, u2⟩ := b.1 q t3 hq
    obtain ⟨t1, ht1, u1⟩ := a.1 q t2 ht2
    exact ⟨t1, ht1, u1.uTrans u2⟩
  · intro hf q t hq
    obtain ⟨t2, ht2⟩ := a.2 hf q t hq
    exact b.2 (a.allFloat hf) q t2 ht2

theorem frame_wrG {hh hh1 : Heap F} {q : Nat} {dt : DType} {i : Int} {v : F}
    (hw : wrG hh q dt i v = some hh1) : Frame hh hh1 := by
  unfold wrG at hw
  cases hq : hh.deref q with
  | none => simp [hq] at hw
  | some t =>
    simp only [hq, Option.bind_eq_bind, Option.some_bind] at hw
    split at hw
    · cases hgr : t.grad with
      | none => simp [hgr] at hw
      | some g =>
        simp only [hgr, Option.some_bind, Option.bind_eq_some] at hw
        obtain ⟨g1, hg1, hw⟩ := hw
        cases hw
        have hlt := deref_eq_some_lt hq
        refine ⟨?_, ?_⟩
        · intro p t1 hp
          by_cases e : p = q
          · subst e
            rw [deref_store_self _ hlt] at hp
            cases hp
            exact ⟨t, hq, rfl, by simp [hgr, bufSet_length hg1]⟩
          · rw [deref_store_ne _ e] at hp
            exact ⟨t1, hp, UpToGrad.uRefl t1⟩
        · intro _ p tp hp
          by_cases e : p = q
          · subst e
            exact ⟨_, deref_store_self _ hlt⟩
          · exact ⟨tp, by rw [deref_store_ne _ e, hp]⟩
    · cases hw

theorem frame_t_free {hh hh1 : Heap F} {o q : Nat} {tq : Tensor F}
    (hq : hh.deref q = some tq) (hfl : tq.dtype.isFloat = false)
    (hf : t_free hh (some o) = some hh1) : Frame hh hh1 := by
  simp only [t_free, Option.bind_eq_bind, Option.bind_eq_some] at hf
  obtain ⟨tfr, hto, hf⟩ := hf
  cases hf
  refine ⟨?_, ?_⟩
  · intro p t1 hp
    by_cases e : p = o
    · subst e
      have hlt : p < hh.length := deref_eq_some_lt hto
      simp [Heap.deref, List.getElem?_set_self hlt] at hp
    · refine ⟨t1, ?_, UpToGrad.uRefl t1⟩
      rw [← hp]
      simp [Heap.deref, List.getElem?_set_ne (Ne.symm e)]
  · intro hall
    have := hall q tq hq
    rw [hfl] at this
    cases this

/-- `Frame` holds across every store of a backward rule. -/
theorem frame_heapRel : HeapRel (Frame : Heap F → Heap F → Prop) where
  rRefl := Frame.fRefl
  rTrans := fun _ _ _ a b => a.fTrans b
  rWrG := fun _ _ _ _ _ _ hw => frame_wrG hw
  rFree := fun _ _ _ _ _ hq hfl hf => frame_t_free hq hfl hf

/-- The rule `backward` selects respects every relation of the kind above. -/
theorem rel_dispatch {R : Heap F → Heap F → Prop} (hR : HeapRel R) (L : Libm F) {h h1 : Heap F}
    {p : Nat} (hs : dispatch L h p = some h1) : R h h1 := by
  cases hp : h.deref p with
  | none => simp [dispatch, hp] at hs
  | some t =>
    rw [dispatch_op hp] at hs
    have key := fun (rule : Heap F → Option Nat → Option (Heap F))
      (hm : rule ∈ backwardRules L) (hr : rule h (some p) = some h1) =>
      rel_backwardRules hR L rule hm hr
    by_cases c0 : t.op = some .MUL
    · rw [if_pos c0] at hs
      exact key mul_backward (List.Mem.tail _ (List.Mem.tail _ (List.Mem.head _))) hs
    rw [if_neg c0] at hs
    by_cases c1 : t.op = some .ADD
    · rw [if_pos c1] at hs
      exact key add_backward (List.Mem.head _) hs
    rw [if_neg c1] at hs
    by_cases c2 : t.op = some .SUB
    · rw [if_pos c2] at hs
      exact key sub_backward (List.Mem.tail _ (List.Mem.head _)) hs
    rw [if_neg c2] at hs
    by_cases c3 : t.op = some .MATMUL
    · rw [if_pos c3] at hs
      exact key matmul_backward (List.Mem.tail _ (List.Mem.tail _ (List.Mem.tail _ (List.Mem.head _)))) hs
    rw [if_neg c3] at hs
    by_cases c4 : t.op = some .MEAN
    · rw [if_pos c4] at hs
      exact key mean_backward (List.Mem.tail _ (List.Mem.tail _ (List.Mem.tail _ (List.Mem.tail _ (List.Mem.tail _ (List.Mem.tail _ (List.Mem.tail _ (List.Mem.tail _ (List.Mem.tail _ (List.Mem.tail _ (List.Mem.tail _ (List.Mem.tail _ (List.Mem.tail _ (List.Mem.head _)))))))))))))) hs
    rw [if_neg c4] at hs
    by_cases c5 : t.op = some .RELU
    · rw [if_pos c5] at hs
      exact key relu_backward (List.Mem.tail _ (List.Mem.tail _ (List.Mem.tail _ (List.Mem.tail _ (List.Mem.tail _ (List.Mem.tail _ (List.Mem.tail _ (List.Mem.head _)))))))) hs
    rw [if_neg c5] at hs
    by_cases c6 : t.op = some .LEAKY_RELU
    · rw [if_pos c6] at hs
      exact key leaky_relu_backward (List.Mem.tail _ (List.Mem.tail _ (List.Mem.tail _ (List.Mem.tail _ (List.Mem.tail _ (List.Mem.tail _ (List.Mem.tail _ (List.Mem.tail _ (List.Mem.head _))))))))) hs
    rw [if_neg c6] at hs
    by_cases c7 : t.op = some .TANH
    · rw [if_pos c7] at hs
      exact key (Tanh_backward L) (List.Mem.tail _ (List.Mem.tail _ (List.Mem.tail _ (List.Mem.tail _ (List.Mem.tail _ (List.Mem.tail _ (List.Mem.tail _ (List.Mem.tail _ (List.Mem.tail _ (List.Mem.head _)))))))))) hs
    rw [if_neg c7] at hs
    by_cases c8 : t.op = some .SIGMOID
    · rw [if_pos c8] at hs
      exact key Sigmoid_backward (List.Mem.tail _ (List.Mem.tail _ (List.Mem.tail _ (List.Mem.tail _ (List.Mem.tail _ (List.Mem.tail _ (List.Mem.tail _ (List.Mem.tail _ (List.Mem.tail _ (List.Mem.tail _ (List.Mem.head _))))))))))) hs
    rw [if_neg c8] at hs
    by_cases c9 : t.op = some .SOFTMAX
    · rw [if_pos c9] at hs
      exact key softmax_backward (List.Mem.tail _ (List.Mem.tail _ (List.Mem.tail _ (List.Mem.tail _ (List.Mem.tail _ (List.Mem.tail _ (List.Mem.tail _ (List.Mem.tail _ (List.Mem.tail _ (List.Mem.tail _ (List.Mem.tail _ (List.Mem.head _)))))))))))) hs
    rw [if_neg c9] at hs
    by_cases c10 : t.op = some .POW
    · rw [if_pos c10] at hs
      exact key (Pow_backward L) (List.Mem.tail _ (List.Mem.tail _ (List.Mem.tail _ (List.Mem.tail _ (List.Mem.tail _ (List.Mem.head _)))))) hs
    rw [if_neg c10] at hs
    by_cases c11 : t.op = some .EXP
    · rw [if_pos c11] at hs
      exact key (Exp_backward L) (List.Mem.tail _ (List.Mem.tail _ (List.Mem.tail _ (List.Mem.tail _ (List.Mem.tail _ (List.Mem.tail _ (List.Mem.head _))))))) hs
    rw [if_neg c11] at hs
    by_cases c12 : t.op = some .DIV
    · rw [if_pos c12] at hs
      exact key (Div_backward L) (List.Mem.tail _ (List.Mem.tail _ (List.Mem.tail _ (List.Mem.tail _ (List.Mem.head _))))) hs
    rw [if_neg c12] at hs
    by_cases c13 : t.op = some .SUM
    · rw [if_pos c13] at hs
      exact key sum_backward (List.Mem.tail _ (List.Mem.tail _ (List.Mem.tail _ (List.Mem.tail _ (List.Mem.tail _ (List.Mem.tail _ (List.Mem.tail _ (List.Mem.tail _ (List.Mem.tail _ (List.Mem.tail _ (List.Mem.tail _ (List.Mem.tail _ (List.Mem.head _))))))))))))) hs
    rw [if_neg c13] at hs
    cases hs
    exact hR.rRefl h

theorem fold_ub (step : Heap F → Nat → Res (Heap F)) (l : List Nat) :
    l.foldl (fun (acc : Res (Heap F)) (i : Nat) => acc.bind fun hh => step hh i) .ub = .ub := by
  induction l with
  | nil => rfl
  | cons _ _ ih => exact ih

theorem fold_fuel (step : Heap F → Nat → Res (Heap F)) (l : List Nat) :
    l.foldl (fun (acc : Res (Heap F)) (i : Nat) => acc.bind fun hh => step hh i) .fuel
      = .fuel := by
  induction l with
  | nil => rfl
  | cons _ _ ih => exact ih

/-- The operand loop of `backward`, as a fold. -/
theorem rel_fold {R : Heap F → Heap F → Prop} (hR : HeapRel R)
    (step : Heap F → Nat → Res (Heap F))
    (hstep : ∀ hh i hh1, step hh i = .ok hh1 → R hh hh1) (l : List Nat) (h0 h2 : Heap F)
    (hf : l.foldl (fun (acc : Res (Heap F)) (i : Nat) => acc.bind fun hh => step hh i) (.ok h0)
      = .ok h2) : R h0 h2 := by
  induction l generalizing h0 with
  | nil =>
    cases hf
    exact hR.rRefl _
  | cons i l ih =>
    change l.foldl (fun (acc : Res (Heap F)) (i : Nat) => acc.bind fun hh => step hh i)
      (step h0 i) = .ok h2 at hf
    cases hs : step h0 i with
    | ok h1 =>
      rw [hs] at hf
      exact hR.rTrans _ _ _ (hstep h0 i h1 hs) (ih h1 hf)
    | ub =>
      rw [hs, fold_ub] at hf
      cases hf
    | fuel =>
      rw [hs, fold_fuel] at hf
      cases hf

theorem backward_succ (L : Libm F) (fuel : Nat) (h : Heap F) (p : Nat) :
    backward L (fuel + 1) h (some p) =
      (Res.ofOption (dispatch L h p)).bind fun h1 =>
      (Res.ofOption (h1.deref p)).bind fun t =>
      ((List.range t.num_prevs.toNat).foldl
        (fun (acc : Res (Heap F)) (i : Nat) => acc.bind fun hh =>
          (Res.ofOption (hh.deref p)).bind fun _ =>
          (Res.ofOption (rdPrev hh p i)).bind fun q =>
          backward L fuel hh (some q))
        (.ok h1)).bind fun h2 =>
      (Res.ofOption (h2.deref p)).bind fun _ => .ok h2 := rfl

theorem Res.bind_ok {α β : Type} (a : α) (f : α → Res β) : (Res.ok a).bind f = f a := rfl

theorem Res.bind_ub {α β : Type} (f : α → Res β) : (Res.ub : Res α).bind f = .ub := rfl

theorem Res.bind_fuel {α β : Type} (f : α → Res β) : (Res.fuel : Res α).bind f = .fuel := rfl

theorem Res.ofOption_some {α : Type} (a : α) : Res.ofOption (some a) = .ok a := rfl

theorem Res.ofOption_none {α : Type} : Res.ofOption (none : Option α) = .ub := rfl

/-- Whenever `backward` returns, the final heap is related to the initial one
by every relation of the kind above. -/
theorem rel_backward {R : Heap F → Heap F → Prop} (hR : HeapRel R) (L : Libm F) :
    ∀ (fuel : Nat) (h : Heap F) (p : Option Nat) (h2 : Heap F),
      backward L fuel h p = .ok h2 → R h h2 := by
  intro fuel
  induction fuel with
  | zero => intro h p h2 hb; cases hb
  | succ n ih =>
    intro h p h2 hb
    cases p with
    | none =>
      have : backward L (n + 1) h none = .ok h := rfl
      rw [this] at hb
      cases hb
      exact hR.rRefl _
    | some p =>
      rw [backward_succ] at hb
      cases hd : dispatch L h p with
      | none => rw [hd, Res.ofOption_none, Res.bind_ub] at hb; cases hb
      | some h1 =>
        rw [hd, Res.ofOption_some, Res.bind_ok] at hb
        cases ht : h1.deref p with
        | none => rw [ht, Res.ofOption_none, Res.bind_ub] at hb; cases hb
        | some t =>
          rw [ht, Res.ofOption_some, Res.bind_ok] at hb
          generalize hfold : (List.range t.num_prevs.toNat).foldl
            (fun (acc : Res (Heap F)) (i : Nat) => acc.bind fun hh =>
              (Res.ofOption (hh.deref p)).bind fun _ =>
              (Res.ofOption (rdPrev hh p i)).bind fun q =>
              backward L n hh (some q)) (.ok h1) = res at hb
          cases res with
          | ub => rw [Res.bind_ub] at hb; cases hb
          | fuel => rw [Res.bind_fuel] at hb; cases hb
          | ok h3 =>
            rw [Res.bind_ok] at hb
            cases h3d : h3.deref p with
            | none => rw [h3d, Res.ofOption_none, Res.bind_ub] at hb; cases hb
            | some t3 =>
              rw [h3d, Res.ofOption_some, Res.bind_ok] at hb
              cases hb
              refine hR.rTrans _ _ _ (rel_dispatch hR L hd) ?_
              refine rel_fold hR (fun hh i => (Res.ofOption (hh.deref p)).bind fun _ =>
                (Res.ofOption (rdPrev hh p i)).bind fun q => backward L n hh (some q))
                ?_ _ h1 h2 hfold
              intro hh i hh1 hs
              dsimp only at hs
              cases hdp : hh.deref p with
              | none => rw [hdp, Res.ofOption_none, Res.bind_ub] at hs; cases hs
              | some tp =>
                rw [hdp, Res.ofOption_some, Res.bind_ok] at hs
                cases hq : rdPrev hh p i with
                | none => rw [hq, Res.ofOption_none, Res.bind_ub] at hs; cases hs
                | some q =>
                  rw [hq, Res.ofOption_some, Res.bind_ok] at hs
                  exact ih hh (some q) hh1 hs

theorem forwardOnly_frame {h h1 : Heap F} (hF : ForwardOnly h) (f : Frame h h1) :
    ForwardOnly h1 := by
  intro p t1 hp
  obtain ⟨t, ht, u⟩ := f.1 p t1 hp
  rw [u.prevs_eq, u.num_prevs_eq]
  exact hF p t ht

/-- A fold whose steps never exhaust the budget does not exhaust it. -/
theorem fold_noFuel (step : Heap F → Nat → Res (Heap F)) (Inv : Heap F → Prop) (l : List Nat)
    (hstep : ∀ hh i, i ∈ l → Inv hh →
      step hh i ≠ .fuel ∧ ∀ hh1, step hh i = .ok hh1 → Inv hh1)
    (h0 : Heap F) (hI : Inv h0) :
    l.foldl (fun (acc : Res (Heap F)) (i : Nat) => acc.bind fun hh => step hh i) (.ok h0)
      ≠ .fuel := by
  induction l generalizing h0 with
  | nil => intro e; cases e
  | cons i l ih =>
    change l.foldl (fun (acc : Res (Heap F)) (i : Nat) => acc.bind fun hh => step hh i)
      (step h0 i) ≠ .fuel
    have hs := hstep h0 i (List.mem_cons_self _ _) hI
    cases hr : step h0 i with
    | ok h1 =>
      exact ih (fun hh j hj hinv => hstep hh j (List.mem_cons_of_mem _ hj) hinv) h1
        (hs.2 h1 hr)
    | ub => rw [fold_ub]; intro e; cases e
    | fuel => exact absurd hr hs.1

/-- On a heap built forward-only, `backward(p)` returns or runs into undefined
behaviour within any recursion budget greater than `p`. -/
theorem backward_noFuel (L : Libm F) :
    ∀ (fuel : Nat) (h : Heap F) (p : Nat), ForwardOnly h → p < fuel →
      backward L fuel h (some p) ≠ .fuel := by
  intro fuel
  induction fuel with
  | zero => intro h p _ hp; omega
  | succ n ih =>
    intro h p hF hp
    rw [backward_succ]
    cases hd : dispatch L h p with
    | none => rw [Res.ofOption_none, Res.bind_ub]; intro e; cases e
    | some h1 =>
      have f1 : Frame h h1 := rel_dispatch frame_heapRel L hd
      have hF1 := forwardOnly_frame hF f1
      rw [Res.ofOption_some, Res.bind_ok]
      cases ht : h1.deref p with
      | none => rw [Res.ofOption_none, Res.bind_ub]; intro e; cases e
      | some t =>
        rw [Res.ofOption_some, Res.bind_ok]
        have hfold := fold_noFuel
          (fun hh i => (Res.ofOption (hh.deref p)).bind fun _ =>
            (Res.ofOption (rdPrev hh p i)).bind fun q => backward L n hh (some q))
          (fun hh => ForwardOnly hh ∧ Frame h1 hh) (List.range t.num_prevs.toNat) ?_ h1
          ⟨hF1, Frame.fRefl h1⟩
        · generalize (List.range t.num_prevs.toNat).foldl
            (fun (acc : Res (Heap F)) (i : Nat) => acc.bind fun hh =>
              (Res.ofOption (hh.deref p)).bind fun _ =>
              (Res.ofOption (rdPrev hh p i)).bind fun q =>
              backward L n hh (some q)) (.ok h1) = res at hfold
          cases res with
          | ub => rw [Res.bind_ub]; intro e; cases e
          | fuel => exact absurd rfl hfold
          | ok h3 =>
            rw [Res.bind_ok]
            cases h3.deref p with
            | none => rw [Res.ofOption_none, Res.bind_ub]; intro e; cases e
            | some t3 => rw [Res.ofOption_some, Res.bind_ok]; intro e; cases e
        · intro hh i hi hinv
          obtain ⟨hFh, fh⟩ := hinv
          show ((Res.ofOption (hh.deref p)).bind fun _ =>
              (Res.ofOption (rdPrev hh p i)).bind fun q => backward L n hh (some q)) ≠ .fuel ∧
            ∀ hh1, ((Res.ofOption (hh.deref p)).bind fun _ =>
              (Res.ofOption (rdPrev hh p i)).bind fun q => backward L n hh (some q)) = .ok hh1 →
              ForwardOnly hh1 ∧ Frame h1 hh1
          cases hdp : hh.deref p with
          | none =>
            rw [Res.ofOption_none, Res.bind_ub]
            exact ⟨(fun e => by cases e), (fun _ e => by cases e)⟩
          | some tp =>
            rw [Res.ofOption_some, Res.bind_ok]
            cases hq : rdPrev hh p i with
            | none =>
              rw [Res.ofOption_none, Res.bind_ub]
              exact ⟨(fun e => by cases e), (fun _ e => by cases e)⟩
            | some q =>
              rw [Res.ofOption_some, Res.bind_ok]
              obtain ⟨t', ht', u⟩ := fh.1 p tp hdp
              rw [ht] at ht'
              cases ht'
              have hi' : (i : Int) < tp.num_prevs := by
                rw [u.num_prevs_eq]
                exact Int.lt_toNat.mp (List.mem_range.mp hi)
              have hqj : (tp.prevs[i]?).join = some q := by
                simpa [rdPrev, hdp] using hq
              have hqp : q < p := (hFh p tp hdp).2 i q hi' hqj
              refine ⟨ih hh q hFh (by omega), ?_⟩
              intro hh1 hb
              have f2 : Frame hh hh1 := rel_backward frame_heapRel L n hh (some q) hh1 hb
              exact ⟨forwardOnly_frame hFh f2, fh.fTrans f2⟩

/-! ## Relations kept by every forward operation -/

theorem fr_loopN {R : Heap F → Heap F → Prop} (hR : FwdRel R) (body : Nat → Heap F → Option (Heap F))
    (hb : ∀ i s s1, body i s = some s1 → R s s1) (n : Nat) {s s1 : Heap F}
    (hl : loopN body n s = some s1) : R s s1 := by
  induction n generalizing s1 with
  | zero => cases hl; exact hR.fRefl s
  | succ k ih =>
    rw [loopN_succ, Option.bind_eq_some] at hl
    obtain ⟨s2, h1, h2⟩ := hl
    exact hR.fTrans _ _ _ (ih h1) (hb k s2 s1 h2)

theorem fr_forLoop {R : Heap F → Heap F → Prop} (hR : FwdRel R) (body : Nat → Heap F → Option (Heap F))
    (hb : ∀ i s s1, body i s = some s1 → R s s1) (n : Int) {s s1 : Heap F}
    (hl : forLoop n body s = some s1) : R s s1 :=
  fr_loopN hR body hb n.toNat hl

theorem fr_binStepF {R : Heap F → Heap F → Prop} (hR : FwdRel R) (f : F → F → F) (dt : DType) (t p1 p2 i : Nat) (hh hh1 : Heap F)
    (hs : binStepF f dt t p1 p2 i hh = some hh1) : R hh hh1 := by
  simp only [binStepF, Option.bind_eq_bind, Option.bind_eq_some] at hs
  repeat (obtain ⟨_, _, hs⟩ := hs)
  exact hR.fWrF _ _ _ _ _ _ hs

theorem fr_binStepI {R : Heap F → Heap F → Prop} (hR : FwdRel R) (f : Int → Int → Int) (dt : DType) (t p1 p2 i : Nat)
    (hh hh1 : Heap F) (hs : binStepI f dt t p1 p2 i hh = some hh1) : R hh hh1 := by
  simp only [binStepI, Option.bind_eq_bind, Option.bind_eq_some] at hs
  repeat (obtain ⟨_, _, hs⟩ := hs)
  exact hR.fWrI _ _ _ _ _ _ hs

theorem fr_subStepF32 {R : Heap F → Heap F → Prop} (hR : FwdRel R) (t p1 p2 i : Nat) (hh hh1 : Heap F)
    (hs : subStepF32 t p1 p2 i hh = some hh1) : R hh hh1 := by
  simp only [subStepF32, Option.bind_eq_bind, Option.bind_eq_some] at hs
  repeat (obtain ⟨_, _, hs⟩ := hs)
  exact hR.fWrF _ _ _ _ _ _ hs

theorem fr_divStepF {R : Heap F → Heap F → Prop} (hR : FwdRel R) (dt : DType) (t p1 p2 i : Nat) (hh hh1 : Heap F)
    (hs : divStepF dt t p1 p2 i hh = some hh1) : R hh hh1 := by
  simp only [divStepF, Option.bind_eq_bind, Option.bind_eq_some] at hs
  repeat (obtain ⟨_, _, hs⟩ := hs)
  exact hR.fWrF _ _ _ _ _ _ hs

theorem fr_divStepI {R : Heap F → Heap F → Prop} (hR : FwdRel R) (L : Libm F) (dt : DType) (t p1 p2 i : Nat)
    (hh hh1 : Heap F) (hs : divStepI L dt t p1 p2 i hh = some hh1) : R hh hh1 := by
  simp only [divStepI, Option.bind_eq_bind, Option.bind_eq_some] at hs
  repeat (obtain ⟨_, _, hs⟩ := hs)
  exact hR.fWrI _ _ _ _ _ _ hs

theorem fr_matmulStepF {R : Heap F → Heap F → Prop} (hR : FwdRel R) (dt : DType) (t p1 p2 : Nat) (n l : Int) (i j k : Nat)
    (hh hh1 : Heap F) (hs : matmulStepF dt t p1 p2 n l i j k hh = some hh1) :
    R hh hh1 := by
  simp only [matmulStepF, Option.bind_eq_bind, Option.bind_eq_some] at hs
  repeat (obtain ⟨_, _, hs⟩ := hs)
  exact hR.fWrF _ _ _ _ _ _ hs

theorem fr_matmulStepI {R : Heap F → Heap F → Prop} (hR : FwdRel R) (dt : DType) (t p1 p2 : Nat) (n l : Int) (i j k : Nat)
    (hh hh1 : Heap F) (hs : matmulStepI dt t p1 p2 n l i j k hh = some hh1) :
    R hh hh1 := by
  simp only [matmulStepI, Option.bind_eq_bind, Option.bind_eq_some] at hs
  repeat (obtain ⟨_, _, hs⟩ := hs)
  exact hR.fWrI _ _ _ _ _ _ hs

theorem fr_matmulLoops {R : Heap F → Heap F → Prop} (hR : FwdRel R) (step : Nat → Nat → Nat → Heap F → Option (Heap F))
    (hb : ∀ i j k s s1, step i j k s = some s1 → R s s1) (m n l : Int)
    {h h1 : Heap F} (hs : matmulLoops step m n l h = some h1) : R h h1 :=
  fr_forLoop hR _ (fun i _ _ hi => fr_forLoop hR _ (fun j _ _ hj =>
    fr_forLoop hR _ (fun k _ _ hk => hb i j k _ _ hk) _ hj) _ hi) _ hs

theorem fr_reluStepF {R : Heap F → Heap F → Prop} (hR : FwdRel R) (dt : DType) (t p1 i : Nat) (hh hh1 : Heap F)
    (hs : reluStepF dt t p1 i hh = some hh1) : R hh hh1 := by
  simp only [reluStepF, Option.bind_eq_bind, Option.bind_eq_some] at hs
  repeat (obtain ⟨_, _, hs⟩ := hs)
  exact hR.fWrF _ _ _ _ _ _ hs

theorem fr_reluStepI {R : Heap F → Heap F → Prop} (hR : FwdRel R) (dt : DType) (t p1 i : Nat) (hh hh1 : Heap F)
    (hs : reluStepI dt t p1 i hh = some hh1) : R hh hh1 := by
  simp only [reluStepI, Option.bind_eq_bind, Option.bind_eq_some] at hs
  repeat (obtain ⟨_, _, hs⟩ := hs)
  exact hR.fWrI _ _ _ _ _ _ hs

theorem fr_powStepF {R : Heap F → Heap F → Prop} (hR : FwdRel R) (L : Libm F) (e : F) (dt : DType) (t p1 i : Nat) (hh hh1 : Heap F)
    (hs : powStepF L e dt t p1 i hh = some hh1) : R hh hh1 := by
  simp only [powStepF, Option.bind_eq_bind, Option.bind_eq_some] at hs
  repeat (obtain ⟨_, _, hs⟩ := hs)
  exact hR.fWrF _ _ _ _ _ _ hs

theorem fr_powStepI {R : Heap F → Heap F → Prop} (hR : FwdRel R) (L : Libm F) (cvt : F → Int) (e : F) (dt : DType) (t p1 i : Nat)
    (hh hh1 : Heap F) (hs : powStepI L cvt e dt t p1 i hh = some hh1) : R hh hh1 := by
  simp only [powStepI, Option.bind_eq_bind, Option.bind_eq_some] at hs
  repeat (obtain ⟨_, _, hs⟩ := hs)
  exact hR.fWrI _ _ _ _ _ _ hs

theorem fr_expStepF {R : Heap F → Heap F → Prop} (hR : FwdRel R) (L : Libm F) (dt : DType) (t p1 i : Nat) (hh hh1 : Heap F)
    (hs : expStepF L dt t p1 i hh = some hh1) : R hh hh1 := by
  simp only [expStepF, Option.bind_eq_bind, Option.bind_eq_some] at hs
  repeat (obtain ⟨_, _, hs⟩ := hs)
  exact hR.fWrF _ _ _ _ _ _ hs

theorem fr_expStepI {R : Heap F → Heap F → Prop} (hR : FwdRel R) (L : Libm F) (dt : DType) (t p1 i : Nat)
    (hh hh1 : Heap F) (hs : expStepI L dt t p1 i hh = some hh1) : R hh hh1 := by
  simp only [expStepI, Option.bind_eq_bind, Option.bind_eq_some] at hs
  repeat (obtain ⟨_, _, hs⟩ := hs)
  exact hR.fWrI _ _ _ _ _ _ hs

theorem fr_leakyStepF {R : Heap F → Heap F → Prop} (hR : FwdRel R) (s : F) (dt : DType) (t p1 i : Nat) (hh hh1 : Heap F)
    (hs : leakyStepF s dt t p1 i hh = some hh1) : R hh hh1 := by
  simp only [leakyStepF, Option.bind_eq_bind, Option.bind_eq_some] at hs
  repeat (obtain ⟨_, _, hs⟩ := hs)
  exact hR.fWrF _ _ _ _ _ _ hs

theorem fr_tanhStepF {R : Heap F → Heap F → Prop} (hR : FwdRel R) (L : Libm F) (dt : DType) (t p1 i : Nat) (hh hh1 : Heap F)
    (hs : tanhStepF L dt t p1 i hh = some hh1) : R hh hh1 := by
  simp only [tanhStepF, Option.bind_eq_bind, Option.bind_eq_some] at hs
  repeat (obtain ⟨_, _, hs⟩ := hs)
  exact hR.fWrF _ _ _ _ _ _ hs

theorem fr_tanhStepI {R : Heap F → Heap F → Prop} (hR : FwdRel R) (L : Libm F) (dt : DType) (t p1 i : Nat)
    (hh hh1 : Heap F) (hs : tanhStepI L dt t p1 i hh = some hh1) : R hh hh1 := by
  simp only [tanhStepI, Option.bind_eq_bind, Option.bind_eq_some] at hs
  repeat (obtain ⟨_, _, hs⟩ := hs)
  exact hR.fWrI _ _ _ _ _ _ hs

theorem fr_sigmoidStepI {R : Heap F → Heap F → Prop} (hR : FwdRel R) (L : Libm F) (dt : DType) (t p1 i : Nat)
    (hh hh1 : Heap F) (hs : sigmoidStepI L dt t p1 i hh = some hh1) : R hh hh1 := by
  simp only [sigmoidStepI, Option.bind_eq_bind, Option.bind_eq_some] at hs
  repeat (obtain ⟨_, _, hs⟩ := hs)
  exact hR.fWrI _ _ _ _ _ _ hs

theorem fr_sigmoidStepF {R : Heap F → Heap F → Prop} (hR : FwdRel R) (L : Libm F) (dt : DType) (t p1 i : Nat) (hh hh1 : Heap F)
    (hs : sigmoidStepF L dt t p1 i hh = some hh1) : R hh hh1 := by
  simp only [sigmoidStepF, Option.bind_eq_bind, Option.bind_eq_some] at hs
  repeat (obtain ⟨_, _, hs⟩ := hs)
  exact hR.fWrF _ _ _ _ _ _ hs

theorem fr_sumStepF {R : Heap F → Heap F → Prop} (hR : FwdRel R) (dt : DType) (t p1 i : Nat) (hh hh1 : Heap F)
    (hs : sumStepF dt t p1 i hh = some hh1) : R hh hh1 := by
  simp only [sumStepF, Option.bind_eq_bind, Option.bind_eq_some] at hs
  repeat (obtain ⟨_, _, hs⟩ := hs)
  exact hR.fWrF _ _ _ _ _ _ hs

theorem fr_sumStepI {R : Heap F → Heap F → Prop} (hR : FwdRel R) (dt : DType) (t p1 i : Nat) (hh hh1 : Heap F)
    (hs : sumStepI dt t p1 i hh = some hh1) : R hh hh1 := by
  simp only [sumStepI, Option.bind_eq_bind, Option.bind_eq_some] at hs
  repeat (obtain ⟨_, _, hs⟩ := hs)
  exact hR.fWrI _ _ _ _ _ _ hs

theorem fr_meanF {R : Heap F → Heap F → Prop} (hR : FwdRel R) (dt : DType) (t p1 : Nat) (size : Int) {h h1 : Heap F}
    (hs : meanF dt t p1 size h = some h1) : R h h1 := by
  simp only [meanF, Option.bind_eq_bind, Option.bind_eq_some] at hs
  obtain ⟨h2, hl, _, _, hw⟩ := hs
  exact hR.fTrans _ _ _ (fr_forLoop hR _ (fr_sumStepF hR dt t p1) _ hl) (hR.fWrF _ _ _ _ _ _ hw)

theorem fr_mseStepF {R : Heap F → Heap F → Prop} (hR : FwdRel R) (L : Libm F) (dt : DType) (t pp pt i : Nat) (hh hh1 : Heap F)
    (hs : mseStepF L dt t pp pt i hh = some hh1) : R hh hh1 := by
  simp only [mseStepF, Option.bind_eq_bind, Option.bind_eq_some] at hs
  repeat (obtain ⟨_, _, hs⟩ := hs)
  exact hR.fWrF _ _ _ _ _ _ hs

theorem fr_mseF {R : Heap F → Heap F → Prop} (hR : FwdRel R) (L : Libm F) (dt : DType) (t pp pt : Nat) (size : Int) {h h1 : Heap F}
    (hs : mseF L dt t pp pt size h = some h1) : R h h1 := by
  simp only [mseF, Option.bind_eq_bind, Option.bind_eq_some] at hs
  obtain ⟨h2, hl, _, _, hw⟩ := hs
  exact hR.fTrans _ _ _ (fr_forLoop hR _ (fr_mseStepF hR L dt t pp pt) _ hl) (hR.fWrF _ _ _ _ _ _ hw)

theorem fr_softmaxF {R : Heap F → Heap F → Prop} (hR : FwdRel R) (L : Libm F) (dt : DType) (t p1 : Nat) (size : Int) {h h1 : Heap F}
    (hs : softmaxF L dt t p1 size h = some h1) : R h h1 := by
  simp only [softmaxF, Option.bind_eq_bind, Option.bind_eq_some] at hs
  obtain ⟨_, _, _, _, exs, _, hl⟩ := hs
  refine fr_forLoop hR _ (fun i s s1 hi => ?_) _ hl
  simp only [Option.bind_eq_some] at hi
  obtain ⟨_, _, hw⟩ := hi
  exact hR.fWrF _ _ _ _ _ _ hw

theorem tensor_addr {h : Heap F} {data : Option (Data F)} {dt : DType}
    {dims : Option (List Int)} {ndim : Int} {rg : bool} {r : Heap F × Option Nat} {t : Nat}
    (ht : tensor h data dt dims ndim rg = some r) (hr : r.2 = some t) : t = h.length := by
  obtain ⟨r1, r2⟩ := r
  simp only at hr
  subst hr
  obtain ⟨_, _, _, e, _, _⟩ := tensor_built ht
  exact e

/-- The tail shared by the two-operand element-wise operations: the result of
`tensor`, an element loop, `link2`. -/
theorem fr_binTail {R : Heap F → Heap F → Prop} (hR : FwdRel R) {h h1 : Heap F}
    {p1 p2 : Nat} {ta tb : Tensor F} (ha : h.deref p1 = some ta) (hb : h.deref p2 = some tb)
    {dt : DType} {ds : Option (List Int)} {ndim : Int} {rg : bool} {op : Op}
    {r0 : Heap F × Option Nat} {t : Nat} {h2 : Heap F}
    (hr : tensor h none dt ds ndim rg = some r0) (ht : r0.2 = some t) (k1 : R r0.1 h2)
    (hk : link2 h2 t op p1 p2 = some h1) : R h h1 := by
  have e := tensor_addr hr ht
  have l1 : p1 < t := e ▸ deref_eq_some_lt ha
  have l2 : p2 < t := e ▸ deref_eq_some_lt hb
  exact hR.fTrans _ _ _ (hR.fTensor _ _ _ _ _ _ _ hr)
    (hR.fTrans _ _ _ k1 (hR.fLink2 _ _ _ _ _ _ l1 l2 hk))

theorem fr_add {R : Heap F → Heap F → Prop} (hR : FwdRel R) {h h1 : Heap F}
    {t1 t2 r : Option Nat} (hs : add h t1 t2 = some (h1, r)) : R h h1 := by
  unfold add at hs
  split at hs
  · simp only [Option.bind_eq_bind, Option.bind_eq_some] at hs
    obtain ⟨ta, ha, tb, hb, hs⟩ := hs
    split at hs
    · cases hs; exact hR.fRefl _
    · simp only [Option.bind_eq_some] at hs
      obtain ⟨df, hdf, hs⟩ := hs
      split at hs
      · cases hs; exact hR.fRefl _
      · simp only [Option.bind_eq_some] at hs
        obtain ⟨r0, hr, t', ht', h2, hl, h3, hk, hs⟩ := hs
        cases hs
        refine fr_binTail hR ha hb hr ht' ?_ hk
        split at hl
        · exact fr_forLoop hR _ (fr_binStepF hR _ _ _ _ _) _ hl
        · exact fr_forLoop hR _ (fr_binStepF hR _ _ _ _ _) _ hl
        · exact fr_forLoop hR _ (fr_binStepI hR _ _ _ _ _) _ hl
        · exact fr_forLoop hR _ (fr_binStepI hR _ _ _ _ _) _ hl
  · cases hs; exact hR.fRefl _

theorem fr_sub {R : Heap F → Heap F → Prop} (hR : FwdRel R) {h h1 : Heap F}
    {t1 t2 r : Option Nat} (hs : sub h t1 t2 = some (h1, r)) : R h h1 := by
  unfold sub at hs
  split at hs
  · simp only [Option.bind_eq_bind, Option.bind_eq_some] at hs
    obtain ⟨ta, ha, tb, hb, hs⟩ := hs
    split at hs
    · cases hs; exact hR.fRefl _
    · simp only [Option.bind_eq_some] at hs
      obtain ⟨df, hdf, hs⟩ := hs
      split at hs
      · cases hs; exact hR.fRefl _
      · simp only [Option.bind_eq_some] at hs
        obtain ⟨r0, hr, t', ht', hs⟩ := hs
        split at hs
        · simp only [Option.bind_eq_bind, Option.bind_eq_some] at hs
          obtain ⟨h2, hl, h3, hk, hs⟩ := hs
          cases hs
          exact fr_binTail hR ha hb hr ht' (fr_forLoop hR _ (fr_subStepF32 hR _ _ _) _ hl) hk
        · simp only [Option.bind_eq_bind, Option.bind_eq_some] at hs
          obtain ⟨h2, hl, h3, hk, hs⟩ := hs
          cases hs
          exact fr_binTail hR ha hb hr ht' (fr_forLoop hR _ (fr_binStepF hR _ _ _ _ _) _ hl) hk
        · simp only [Option.bind_eq_bind, Option.bind_eq_some] at hs
          obtain ⟨h2, hl, h3, hk, hs⟩ := hs
          cases hs
          exact fr_binTail hR ha hb hr ht' (fr_forLoop hR _ (fr_binStepI hR _ _ _ _ _) _ hl) hk
        · simp only [Option.bind_eq_bind, Option.bind_eq_some] at hs
          obtain ⟨h2, hl, h3, hk, hs⟩ := hs
          cases hs
          exact hR.fTrans _ _ _ (hR.fTensor _ _ _ _ _ _ _ hr)
            (hR.fTrans _ _ _ (fr_forLoop hR _ (fr_binStepI hR _ _ _ _ _) _ hl)
              (hR.fTFree _ _ _ hk))
  · cases hs; exact hR.fRefl _

theorem fr_mul {R : Heap F → Heap F → Prop} (hR : FwdRel R) {h h1 : Heap F}
    {t1 t2 r : Option Nat} (hs : mul h t1 t2 = some (h1, r)) : R h h1 := by
  unfold mul at hs
  split at hs
  · simp only [Option.bind_eq_bind, Option.bind_eq_some] at hs
    obtain ⟨ta, ha, tb, hb, hs⟩ := hs
    split at hs
    · cases hs; exact hR.fRefl _
    · simp only [Option.bind_eq_some] at hs
      obtain ⟨df, hdf, hs⟩ := hs
      split at hs
      · cases hs; exact hR.fRefl _
      · simp only [Option.bind_eq_some] at hs
        obtain ⟨r0, hr, t', ht', hs⟩ := hs
        split at hs
        · simp only [Option.bind_eq_bind, Option.bind_eq_some] at hs
          obtain ⟨h2, hl, h3, hk, hs⟩ := hs
          cases hs
          exact fr_binTail hR ha hb hr ht' (fr_forLoop hR _ (fr_binStepF hR _ _ _ _ _) _ hl) hk
        · simp only [Option.bind_eq_bind, Option.bind_eq_some] at hs
          obtain ⟨h2, hl, h3, hk, hs⟩ := hs
          cases hs
          exact fr_binTail hR ha hb hr ht' (fr_forLoop hR _ (fr_binStepF hR _ _ _ _ _) _ hl) hk
        · simp only [Option.bind_eq_bind, Option.bind_eq_some] at hs
          obtain ⟨h2, hl, h3, hk, hs⟩ := hs
          cases hs
          exact fr_binTail hR ha hb hr ht' (fr_forLoop hR _ (fr_binStepI hR _ _ _ _ _) _ hl) hk
        · simp only [Option.bind_eq_bind, Option.bind_eq_some] at hs
          obtain ⟨h2, hl, h3, hk, hs⟩ := hs
          cases hs
          exact hR.fTrans _ _ _ (hR.fTensor _ _ _ _ _ _ _ hr)
            (hR.fTrans _ _ _ (fr_forLoop hR _ (fr_binStepI hR _ _ _ _ _) _ hl)
              (hR.fFree _ _ _ hk))
  · cases hs; exact hR.fRefl _

theorem fr_Div {R : Heap F → Heap F → Prop} (hR : FwdRel R) (L : Libm F) {h h1 : Heap F}
    {t1 t2 r : Option Nat} (hs : Div L h t1 t2 = some (h1, r)) : R h h1 := by
  unfold Div at hs
  split at hs
  · simp only [Option.bind_eq_bind, Option.bind_eq_some] at hs
    obtain ⟨ta, ha, tb, hb, hs⟩ := hs
    split at hs
    · cases hs; exact hR.fRefl _
    · simp only [Option.bind_eq_some] at hs
      obtain ⟨df, hdf, hs⟩ := hs
      split at hs
      · cases hs; exact hR.fRefl _
      · simp only [Option.bind_eq_some] at hs
        obtain ⟨r0, hr, hs⟩ := hs
        split at hs
        · cases hs; exact hR.fTensor _ _ _ _ _ _ _ hr
        · rename_i t' ht'
          simp only [Option.bind_eq_bind, Option.bind_eq_some] at hs
          obtain ⟨h2, hl, h3, hk, hs⟩ := hs
          cases hs
          refine fr_binTail hR ha hb hr ht' ?_ hk
          split at hl
          · exact fr_forLoop hR _ (fr_divStepF hR _ _ _ _) _ hl
          · exact fr_forLoop hR _ (fr_divStepF hR _ _ _ _) _ hl
          · exact fr_forLoop hR _ (fr_divStepI hR L _ _ _ _) _ hl
          · exact fr_forLoop hR _ (fr_divStepI hR L _ _ _ _) _ hl
  · cases hs; exact hR.fRefl _

theorem fr_matmul {R : Heap F → Heap F → Prop} (hR : FwdRel R) {h h1 : Heap F}
    {t1 t2 r : Option Nat} (hs : matmul h t1 t2 = some (h1, r)) : R h h1 := by
  unfold matmul at hs
  split at hs
  · simp only [Option.bind_eq_bind, Option.bind_eq_some] at hs
    obtain ⟨ta, ha, tb, hb, m, _, n, _, l, _, b0, _, hs⟩ := hs
    split at hs
    · cases hs; exact hR.fRefl _
    · simp only [Option.bind_eq_some] at hs
      obtain ⟨r0, hr, hs⟩ := hs
      split at hs
      · cases hs; exact hR.fTensor _ _ _ _ _ _ _ hr
      · rename_i t' ht'
        simp only [Option.bind_eq_bind, Option.bind_eq_some] at hs
        obtain ⟨h2, hl, h3, hk, hs⟩ := hs
        cases hs
        refine fr_binTail hR ha hb hr ht' ?_ hk
        split at hl
        · exact fr_matmulLoops hR _ (fr_matmulStepF hR _ _ _ _ _ _) _ _ _ hl
        · exact fr_matmulLoops hR _ (fr_matmulStepF hR _ _ _ _ _ _) _ _ _ hl
        · exact fr_matmulLoops hR _ (fr_matmulStepI hR _ _ _ _ _ _) _ _ _ hl
        · exact fr_matmulLoops hR _ (fr_matmulStepI hR _ _ _ _ _ _) _ _ _ hl
  · cases hs; exact hR.fRefl _

theorem fr_MSELoss {R : Heap F → Heap F → Prop} (hR : FwdRel R) (L : Libm F) {h h1 : Heap F}
    {t1 t2 r : Option Nat} (hs : MSELoss L h t1 t2 = some (h1, r)) : R h h1 := by
  unfold MSELoss at hs
  split at hs
  · simp only [Option.bind_eq_bind, Option.bind_eq_some] at hs
    obtain ⟨ta, ha, tb, hb, hs⟩ := hs
    split at hs
    · cases hs; exact hR.fRefl _
    · simp only [Option.bind_eq_some] at hs
      obtain ⟨df, hdf, hs⟩ := hs
      split at hs
      · cases hs; exact hR.fRefl _
      · simp only [Option.bind_eq_some] at hs
        obtain ⟨r0, hr, hs⟩ := hs
        split at hs
        · cases hs; exact hR.fTensor _ _ _ _ _ _ _ hr
        · rename_i t' ht'
          split at hs
          · simp only [Option.bind_eq_bind, Option.bind_eq_some] at hs
            obtain ⟨h2, hl, h3, hk, hs⟩ := hs
            cases hs
            exact fr_binTail hR hb ha hr ht' (fr_mseF hR L _ _ _ _ _ hl) hk
          · simp only [Option.bind_eq_bind, Option.bind_eq_some] at hs
            obtain ⟨h2, hl, h3, hk, hs⟩ := hs
            cases hs
            exact fr_binTail hR hb ha hr ht' (fr_mseF hR L _ _ _ _ _ hl) hk
          · simp only [Option.bind_eq_bind, Option.bind_eq_some] at hs
            obtain ⟨h2, hl, hs⟩ := hs
            cases hs
            exact hR.fTrans _ _ _ (hR.fTensor _ _ _ _ _ _ _ hr) (hR.fTFree _ _ _ hl)
  · cases hs; exact hR.fRefl _

/-- The tail shared by the one-operand operations: the result of `tensor`, the
element loops, a closing link to the operand. -/
theorem fr_unTail {R : Heap F → Heap F → Prop} (hR : FwdRel R) {h h1 : Heap F}
    {p1 : Nat} {ta : Tensor F} (ha : h.deref p1 = some ta)
    {dt : DType} {ds : Option (List Int)} {ndim : Int} {rg : bool}
    {r0 : Heap F × Option Nat} {t : Nat} {h2 : Heap F}
    (hr : tensor h none dt ds ndim rg = some r0) (ht : r0.2 = some t) (k1 : R r0.1 h2)
    (k2 : p1 < t → R h2 h1) : R h h1 := by
  have e := tensor_addr hr ht
  have l1 : p1 < t := e ▸ deref_eq_some_lt ha
  exact hR.fTrans _ _ _ (hR.fTensor _ _ _ _ _ _ _ hr) (hR.fTrans _ _ _ k1 (k2 l1))

theorem fr_unaryForward {R : Heap F → Heap F → Prop} (hR : FwdRel R)
    (stepF stepI : DType → Nat → Nat → Nat → Heap F → Option (Heap F))
    (close : Heap F → Nat → Nat → Option (Heap F))
    (hF : ∀ dt t p i s s1, stepF dt t p i s = some s1 → R s s1)
    (hI : ∀ dt t p i s s1, stepI dt t p i s = some s1 → R s s1)
    (hC : ∀ s t p s1, p < t → close s t p = some s1 → R s s1)
    {h h1 : Heap F} {t1 r : Option Nat}
    (hs : unaryForward stepF stepI close h t1 = some (h1, r)) : R h h1 := by
  unfold unaryForward at hs
  split at hs
  · cases hs; exact hR.fRefl _
  · simp only [Option.bind_eq_bind, Option.bind_eq_some] at hs
    obtain ⟨ta, ha, r0, hr, hs⟩ := hs
    split at hs
    · cases hs; exact hR.fTensor _ _ _ _ _ _ _ hr
    · rename_i t' ht'
      simp only [Option.bind_eq_some] at hs
      obtain ⟨h2, hl, h3, hk, hs⟩ := hs
      cases hs
      refine fr_unTail hR ha hr ht' ?_ (fun l1 => hC _ _ _ _ l1 hk)
      split at hl
      · exact fr_forLoop hR _ (hF _ _ _) _ hl
      · exact fr_forLoop hR _ (hF _ _ _) _ hl
      · exact fr_forLoop hR _ (hI _ _ _) _ hl
      · exact fr_forLoop hR _ (hI _ _ _) _ hl

theorem fr_Pow {R : Heap F → Heap F → Prop} (hR : FwdRel R) (L : Libm F) (cvt : F → Int)
    (e : F) {h h1 : Heap F} {t1 r : Option Nat} (hs : Pow L cvt h t1 e = some (h1, r)) :
    R h h1 :=
  fr_unaryForward hR _ _ _ (fr_powStepF hR L e) (fr_powStepI hR L cvt e)
    (fun _ _ _ _ l1 hk => hR.fLink1x _ _ _ _ _ _ l1 hk) hs

theorem fr_Exp {R : Heap F → Heap F → Prop} (hR : FwdRel R) (L : Libm F)
    {h h1 : Heap F} {t1 r : Option Nat} (hs : Exp L h t1 = some (h1, r)) : R h h1 :=
  fr_unaryForward hR _ _ _ (fr_expStepF hR L) (fr_expStepI hR L)
    (fun _ _ _ _ l1 hk => hR.fLink1 _ _ _ _ _ l1 hk) hs

theorem fr_Tanh {R : Heap F → Heap F → Prop} (hR : FwdRel R) (L : Libm F)
    {h h1 : Heap F} {t1 r : Option Nat} (hs : Tanh L h t1 = some (h1, r)) : R h h1 :=
  fr_unaryForward hR _ _ _ (fr_tanhStepF hR L) (fr_tanhStepI hR L)
    (fun _ _ _ _ l1 hk => hR.fLink1 _ _ _ _ _ l1 hk) hs

theorem fr_Sigmoid {R : Heap F → Heap F → Prop} (hR : FwdRel R) (L : Libm F)
    {h h1 : Heap F} {t1 r : Option Nat} (hs : Sigmoid L h t1 = some (h1, r)) : R h h1 :=
  fr_unaryForward hR _ _ _ (fr_sigmoidStepF hR L) (fr_sigmoidStepI hR L)
    (fun _ _ _ _ l1 hk => hR.fLink1 _ _ _ _ _ l1 hk) hs

theorem fr_relu {R : Heap F → Heap F → Prop} (hR : FwdRel R)
    {h h1 : Heap F} {t1 r : Option Nat} (hs : relu h t1 = some (h1, r)) : R h h1 := by
  unfold relu at hs
  split at hs
  · cases hs; exact hR.fRefl _
  · simp only [Option.bind_eq_bind, Option.bind_eq_some] at hs
    obtain ⟨ta, ha, r0, hr, hs⟩ := hs
    split at hs
    · cases hs; exact hR.fTensor _ _ _ _ _ _ _ hr
    · rename_i t' ht'
      simp only [Option.bind_eq_some] at hs
      obtain ⟨h2, hl, h3, hk, hs⟩ := hs
      cases hs
      refine fr_unTail hR ha hr ht' ?_ (fun l1 => hR.fLink1 _ _ _ _ _ l1 hk)
      split at hl
      · exact fr_forLoop hR _ (fr_reluStepF hR _ _ _) _ hl
      · exact fr_forLoop hR _ (fr_reluStepF hR _ _ _) _ hl
      · exact fr_forLoop hR _ (fr_reluStepI hR _ _ _) _ hl
      · exact fr_forLoop hR _ (fr_reluStepI hR _ _ _) _ hl

theorem fr_leaky_relu {R : Heap F → Heap F → Prop} (hR : FwdRel R) (s : F)
    {h h1 : Heap F} {t1 r : Option Nat} (hs : leaky_relu s h t1 = some (h1, r)) : R h h1 := by
  unfold leaky_relu at hs
  split at hs
  · cases hs; exact hR.fRefl _
  · simp only [Option.bind_eq_bind, Option.bind_eq_some] at hs
    obtain ⟨ta, ha, r0, hr, hs⟩ := hs
    split at hs
    · cases hs; exact hR.fTensor _ _ _ _ _ _ _ hr
    · rename_i t' ht'
      split at hs
      · simp only [Option.bind_eq_bind, Option.bind_eq_some] at hs
        obtain ⟨h2, hl, h3, hk, hs⟩ := hs
        cases hs
        exact fr_unTail hR ha hr ht' (fr_forLoop hR _ (fr_leakyStepF hR _ _ _ _) _ hl)
          (fun l1 => hR.fLink1x _ _ _ _ _ _ l1 hk)
      · simp only [Option.bind_eq_bind, Option.bind_eq_some] at hs
        obtain ⟨h2, hl, h3, hk, hs⟩ := hs
        cases hs
        exact fr_unTail hR ha hr ht' (fr_forLoop hR _ (fr_leakyStepF hR _ _ _ _) _ hl)
          (fun l1 => hR.fLink1x _ _ _ _ _ _ l1 hk)
      · simp only [Option.bind_eq_bind, Option.bind_eq_some] at hs
        obtain ⟨h2, hl, hs⟩ := hs
        cases hs
        exact hR.fTrans _ _ _ (hR.fTensor _ _ _ _ _ _ _ hr) (hR.fTFree _ _ _ hl)

theorem fr_softmax {R : Heap F → Heap F → Prop} (hR : FwdRel R) (L : Libm F)
    {h h1 : Heap F} {t1 r : Option Nat} (hs : softmax L h t1 = some (h1, r)) : R h h1 := by
  unfold softmax at hs
  split at hs
  · cases hs; exact hR.fRefl _
  · simp only [Option.bind_eq_bind, Option.bind_eq_some] at hs
    obtain ⟨ta, ha, r0, hr, hs⟩ := hs
    split at hs
    · cases hs; exact hR.fTensor _ _ _ _ _ _ _ hr
    · rename_i t' ht'
      split at hs
      · simp only [Option.bind_eq_bind, Option.bind_eq_some] at hs
        obtain ⟨h2, hl, h3, hk, hs⟩ := hs
        cases hs
        exact fr_unTail hR ha hr ht' (fr_softmaxF hR L _ _ _ _ hl)
          (fun l1 => hR.fLink1 _ _ _ _ _ l1 hk)
      · simp only [Option.bind_eq_bind, Option.bind_eq_some] at hs
        obtain ⟨h2, hl, h3, hk, hs⟩ := hs
        cases hs
        exact fr_unTail hR ha hr ht' (fr_softmaxF hR L _ _ _ _ hl)
          (fun l1 => hR.fLink1 _ _ _ _ _ l1 hk)
      · simp only [Option.bind_eq_bind, Option.bind_eq_some] at hs
        obtain ⟨h2, hl, hs⟩ := hs
        cases hs
        exact hR.fTrans _ _ _ (hR.fTensor _ _ _ _ _ _ _ hr) (hR.fTFree _ _ _ hl)

theorem fr_mean {R : Heap F → Heap F → Prop} (hR : FwdRel R)
    {h h1 : Heap F} {t1 r : Option Nat} (hs : mean h t1 = some (h1, r)) : R h h1 := by
  unfold mean at hs
  split at hs
  · cases hs; exact hR.fRefl _
  · simp only [Option.bind_eq_bind, Option.bind_eq_some] at hs
    obtain ⟨ta, ha, r0, hr, hs⟩ := hs
    split at hs
    · cases hs; exact hR.fTensor _ _ _ _ _ _ _ hr
    · rename_i t' ht'
      split at hs
      · simp only [Option.bind_eq_bind, Option.bind_eq_some] at hs
        obtain ⟨h2, hl, h3, hk, hs⟩ := hs
        cases hs
        exact fr_unTail hR ha hr ht' (fr_meanF hR _ _ _ _ hl)
          (fun l1 => hR.fLink1 _ _ _ _ _ l1 hk)
      · simp only [Option.bind_eq_bind, Option.bind_eq_some] at hs
        obtain ⟨h2, hl, h3, hk, hs⟩ := hs
        cases hs
        exact fr_unTail hR ha hr ht' (fr_meanF hR _ _ _ _ hl)
          (fun l1 => hR.fLink1 _ _ _ _ _ l1 hk)
      · simp only [Option.bind_eq_bind, Option.bind_eq_some] at hs
        obtain ⟨h2, hl, hs⟩ := hs
        cases hs
        exact hR.fTrans _ _ _ (hR.fTensor _ _ _ _ _ _ _ hr) (hR.fTFree _ _ _ hl)

theorem fr_sum {R : Heap F → Heap F → Prop} (hR : FwdRel R)
    {h h1 : Heap F} {t1 r : Option Nat} (hs : sum h t1 = some (h1, r)) : R h h1 := by
  unfold sum at hs
  split at hs
  · cases hs; exact hR.fRefl _
  · simp only [Option.bind_eq_bind, Option.bind_eq_some] at hs
    obtain ⟨ta, ha, r0, hr, hs⟩ := hs
    split at hs
    · cases hs; exact hR.fTensor _ _ _ _ _ _ _ hr
    · rename_i t' ht'
      split at hs
      · simp only [Option.bind_eq_bind, Option.bind_eq_some] at hs
        obtain ⟨h2, hl, h3, hk, hs⟩ := hs
        cases hs
        exact fr_unTail hR ha hr ht' (fr_forLoop hR _ (fr_sumStepF hR _ _ _) _ hl)
          (fun l1 => hR.fLinkSum _ _ _ _ l1 hk)
      · simp only [Option.bind_eq_bind, Option.bind_eq_some] at hs
        obtain ⟨h2, hl, h3, hk, hs⟩ := hs
        cases hs
        exact fr_unTail hR ha hr ht' (fr_forLoop hR _ (fr_sumStepF hR _ _ _) _ hl)
          (fun l1 => hR.fLinkSum _ _ _ _ l1 hk)
      · simp only [Option.bind_eq_bind, Option.bind_eq_some] at hs
        obtain ⟨h2, hl, h3, hk, hs⟩ := hs
        cases hs
        exact fr_unTail hR ha hr ht' (fr_forLoop hR _ (fr_sumStepI hR _ _ _) _ hl)
          (fun l1 => hR.fLinkSum _ _ _ _ l1 hk)
      · simp only [Option.bind_eq_bind, Option.bind_eq_some] at hs
        obtain ⟨h2, hl, h3, hk, hs⟩ := hs
        cases hs
        exact hR.fTrans _ _ _ (hR.fTensor _ _ _ _ _ _ _ hr)
          (hR.fTrans _ _ _ (fr_forLoop hR _ (fr_sumStepI hR _ _ _) _ hl) (hR.fFree _ _ _ hk))

/-- Every forward operation, whenever it returns, relates the initial heap to
the final one by every relation of the kind above. -/
theorem fr_forwardOps {R : Heap F → Heap F → Prop} (hR : FwdRel R) (L : Libm F)
    (cvt : F → Int) (e s : F)
    (op : Heap F → Option Nat → Option Nat → Option (Heap F × Option Nat))
    (hop : op ∈ forwardOps L cvt e s) {h h1 : Heap F} {t1 t2 r : Option Nat}
    (hs : op h t1 t2 = some (h1, r)) : R h h1 := by
  simp only [forwardOps, List.mem_cons, List.mem_singleton, List.not_mem_nil, or_false] at hop
  rcases hop with rfl | rfl | rfl | rfl | rfl | rfl | rfl | rfl | rfl | rfl | rfl | rfl | rfl
    | rfl | rfl
  · exact fr_add hR hs
  · exact fr_sub hR hs
  · exact fr_mul hR hs
  · exact fr_matmul hR hs
  · exact fr_Div hR L hs
  · exact fr_MSELoss hR L hs
  · exact fr_Pow hR L cvt e hs
  · exact fr_Exp hR L hs
  · exact fr_relu hR hs
  · exact fr_leaky_relu hR s hs
  · exact fr_Sigmoid hR L hs
  · exact fr_Tanh hR L hs
  · exact fr_softmax hR L hs
  · exact fr_sum hR hs
  · exact fr_mean hR hs

/-! ## Forward operations build forward-only heaps -/

theorem forwardOnly_store {h : Heap F} {p : Nat} {t t1 : Tensor F} (hp : h.deref p = some t)
    (hF : ForwardOnly h)
    (h1 : t1.num_prevs ≤ MAX_PREVS ∧
      ∀ (i q : Nat), (i : Int) < t1.num_prevs → (t1.prevs[i]?).join = some q → q < p) :
    ForwardOnly (h.store p t1) := by
  intro q tq hq
  by_cases e : q = p
  · subst e
    rw [deref_store_self _ (deref_eq_some_lt hp)] at hq
    cases hq
    exact h1
  · rw [deref_store_ne _ e] at hq
    exact hF q tq hq

theorem forwardOnly_set_none {h : Heap F} (p : Nat) (hF : ForwardOnly h) :
    ForwardOnly (h.set p none) := by
  intro q tq hq
  by_cases e : q = p
  · subst e
    by_cases hlt : q < h.length
    · simp [Heap.deref, List.getElem?_set_self hlt] at hq
    · have := deref_eq_some_lt hq
      simp only [List.length_set] at this
      exact absurd this hlt
  · apply hF q tq
    rw [← hq]
    simp [Heap.deref, List.getElem?_set_ne (Ne.symm e)]

theorem forwardOnly_append {h : Heap F} (tt : Tensor F) (hn : tt.num_prevs = 0)
    (hF : ForwardOnly h) : ForwardOnly (h ++ [some tt]) := by
  intro q tq hq
  by_cases hlt : q < h.length
  · apply hF q tq
    rw [← hq]
    simp [Heap.deref, List.getElem?_append_left hlt]
  · have hq2 := deref_eq_some_lt hq
    simp only [List.length_append, List.length_singleton] at hq2
    have e : q = h.length := by omega
    subst e
    rw [deref_append_new] at hq
    cases hq
    rw [hn]
    refine ⟨by simp [MAX_PREVS], ?_⟩
    intro i q hi _
    omega

theorem tensor_null {h h1 : Heap F} {data : Option (Data F)} {dt : DType}
    {dims : Option (List Int)} {ndim : Int} {rg : bool}
    (ht : tensor h data dt dims ndim rg = some (h1, none)) : h1 = h := by
  unfold tensor at ht
  cases dims with
  | none => simp at ht; exact ht.symm
  | some ds =>
    simp only at ht
    split at ht
    · simp at ht; exact ht.symm
    · simp only [Option.bind_eq_bind, Option.bind_eq_some] at ht
      obtain ⟨size, _, dims1, _, ht⟩ := ht
      split at ht
      · split at ht
        · cases ht
        · simp at ht; exact ht.symm
      · simp only [Option.bind_eq_some] at ht
        obtain ⟨buf, _, t1, _, ht⟩ := ht
        simp at ht

theorem keepsForward_tensor {h : Heap F} {data : Option (Data F)} {dt : DType}
    {dims : Option (List Int)} {ndim : Int} {rg : bool} {r : Heap F × Option Nat}
    (ht : tensor h data dt dims ndim rg = some r) : KeepsForward h r.1 := by
  intro hF
  obtain ⟨r1, r2⟩ := r
  cases r2 with
  | none => rw [tensor_null ht]; exact hF
  | some t =>
    obtain ⟨ds, tt, _, _, e, b⟩ := tensor_built ht
    simp only
    rw [e]
    exact forwardOnly_append tt b.num_prevs_eq hF

theorem keepsForward_same {hh : Heap F} {p : Nat} {t t1 : Tensor F}
    (hp : hh.deref p = some t) (e1 : t1.prevs = t.prevs) (e2 : t1.num_prevs = t.num_prevs) :
    KeepsForward hh (hh.store p t1) := by
  intro hF
  refine forwardOnly_store hp hF ?_
  rw [e1, e2]
  exact hF p t hp

theorem set_join_zero (l : List (Option Nat)) (p q : Nat)
    (h : ((l.set 0 (some p))[0]?).join = some q) : q = p := by
  cases l with
  | nil => simp at h
  | cons a l => simpa using h.symm

/-- Stepping to a heap with the same links keeps the heap forward-only. -/
theorem keepsForward_fwdRel : FwdRel (KeepsForward : Heap F → Heap F → Prop) where
  fRefl := fun _ hF => hF
  fTrans := fun _ _ _ a b hF => b (a hF)
  fWrF := by
    intro hh hh1 p dt i v hw
    simp only [wrF, Option.bind_eq_bind, Option.bind_eq_some] at hw
    obtain ⟨t, ht, d, _, hw⟩ := hw
    cases hw
    exact keepsForward_same ht rfl rfl
  fWrI := by
    intro hh hh1 p dt i v hw
    simp only [wrI, Option.bind_eq_bind, Option.bind_eq_some] at hw
    obtain ⟨t, ht, d, _, hw⟩ := hw
    cases hw
    exact keepsForward_same ht rfl rfl
  fTFree := by
    intro hh hh1 t hf hF
    simp only [t_free, Option.bind_eq_bind, Option.bind_eq_some] at hf
    obtain ⟨_, _, hf⟩ := hf
    cases hf
    exact forwardOnly_set_none t hF
  fFree := by
    intro hh hh1 t hf hF
    simp only [free, Option.bind_eq_bind, Option.bind_eq_some] at hf
    obtain ⟨_, _, hf⟩ := hf
    cases hf
    exact forwardOnly_set_none t hF
  fTensor := fun _ _ _ _ _ _ _ ht => keepsForward_tensor ht
  fLink1 := by
    intro h h1 t op p1 l1 hk hF
    simp only [link1, Option.bind_eq_bind, Option.bind_eq_some] at hk
    obtain ⟨tt, ht, hk⟩ := hk
    cases hk
    refine forwardOnly_store ht hF ⟨by simp [MAX_PREVS], ?_⟩
    intro i q hi hq
    have hi0 : i = 0 := by simp only at hi; omega
    subst hi0
    rw [set_join_zero _ _ _ hq]
    exact l1
  fLink1x := by
    intro h h1 t op p1 x l1 hk hF
    simp only [link1x, Option.bind_eq_bind, Option.bind_eq_some] at hk
    obtain ⟨tt, ht, hk⟩ := hk
    cases hk
    refine forwardOnly_store ht hF ⟨by simp [MAX_PREVS], ?_⟩
    intro i q hi hq
    have hi0 : i = 0 := by simp only at hi; omega
    subst hi0
    rw [set_join_zero _ _ _ hq]
    exact l1
  fLink2 := by
    intro h h1 t op p1 p2 l1 l2 hk hF
    simp only [link2, Option.bind_eq_bind, Option.bind_eq_some] at hk
    obtain ⟨tt, ht, hk⟩ := hk
    cases hk
    refine forwardOnly_store ht hF ⟨by simp [MAX_PREVS], ?_⟩
    intro i q hi hq
    simp only at hi hq
    have hi01 : i = 0 ∨ i = 1 := by omega
    rcases hi01 with rfl | rfl
    · rw [List.getElem?_set_ne (by decide)] at hq
      rw [set_join_zero _ _ _ hq]
      exact l1
    · by_cases hl : 1 < (tt.prevs.set 0 (some p1)).length
      · rw [List.getElem?_set_self hl] at hq
        simp at hq
        omega
      · rw [List.getElem?_eq_none (by simpa using hl)] at hq
        simp at hq
  fLinkSum := by
    intro h h1 t p1 l1 hk hF
    simp only [linkSum, Option.bind_eq_bind, Option.bind_eq_some] at hk
    obtain ⟨tt, ht, hk⟩ := hk
    cases hk
    refine forwardOnly_store ht hF ⟨(hF t tt ht).1, ?_⟩
    intro i q hi hq
    simp only at hi hq
    by_cases hi0 : i = 0
    · subst hi0
      rw [set_join_zero _ _ _ hq]
      exact l1
    · rw [List.getElem?_set_ne (by omega)] at hq
      exact (hF t tt ht).2 i q hi hq

/-! ## Independence of the recursion budget -/

theorem fold_mono (stepA stepB : Heap F → Nat → Res (Heap F))
    (hAB : ∀ hh i r, stepA hh i = r → r ≠ .fuel → stepB hh i = r) (l : List Nat)
    (h0 : Heap F) (r : Res (Heap F))
    (hf : l.foldl (fun (acc : Res (Heap F)) (i : Nat) => acc.bind fun hh => stepA hh i) (.ok h0)
      = r) (hr : r ≠ .fuel) :
    l.foldl (fun (acc : Res (Heap F)) (i : Nat) => acc.bind fun hh => stepB hh i) (.ok h0)
      = r := by
  induction l generalizing h0 with
  | nil => exact hf
  | cons i l ih =>
    change l.foldl (fun (acc : Res (Heap F)) (i : Nat) => acc.bind fun hh => stepA hh i)
      (stepA h0 i) = r at hf
    change l.foldl (fun (acc : Res (Heap F)) (i : Nat) => acc.bind fun hh => stepB hh i)
      (stepB h0 i) = r
    cases hs : stepA h0 i with
    | ok h1 =>
      rw [hs] at hf
      rw [hAB h0 i _ hs (fun e => by cases e)]
      exact ih h1 hf
    | ub =>
      rw [hs] at hf
      rw [hAB h0 i _ hs (fun e => by cases e)]
      rw [fold_ub] at hf ⊢
      exact hf
    | fuel =>
      rw [hs, fold_fuel] at hf
      exact absurd hf.symm hr

/-- A run of `backward` that does not exhaust its budget has the same outcome
with a larger budget. -/
theorem backward_mono (L : Libm F) :
    ∀ (n : Nat) (h : Heap F) (p : Option Nat) (r : Res (Heap F)),
      backward L n h p = r → r ≠ .fuel → backward L (n + 1) h p = r := by
  intro n
  induction n with
  | zero =>
    intro h p r hb hr
    have : backward L 0 h p = .fuel := rfl
    rw [this] at hb
    exact absurd hb.symm hr
  | succ n ih =>
    intro h p r hb hr
    cases p with
    | none => exact hb
    | some p =>
      rw [backward_succ] at hb ⊢
      cases hd : dispatch L h p with
      | none => rw [hd] at hb; exact hb
      | some h1 =>
        rw [hd, Res.ofOption_some, Res.bind_ok] at hb
        rw [Res.ofOption_some, Res.bind_ok]
        cases ht : h1.deref p with
        | none => rw [ht] at hb; exact hb
        | some t =>
          rw [ht, Res.ofOption_some, Res.bind_ok] at hb
          rw [Res.ofOption_some, Res.bind_ok]
          generalize hfold : (List.range t.num_prevs.toNat).foldl
            (fun (acc : Res (Heap F)) (i : Nat) => acc.bind fun hh =>
              (Res.ofOption (hh.deref p)).bind fun _ =>
              (Res.ofOption (rdPrev hh p i)).bind fun q =>
              backward L n hh (some q)) (.ok h1) = res at hb
          have hres : res ≠ .fuel := by
            intro e
            rw [e, Res.bind_fuel] at hb
            exact hr hb.symm
          have hfold2 := fold_mono
            (fun hh i => (Res.ofOption (hh.deref p)).bind fun _ =>
              (Res.ofOption (rdPrev hh p i)).bind fun q => backward L n hh (some q))
            (fun hh i => (Res.ofOption (hh.deref p)).bind fun _ =>
              (Res.ofOption (rdPrev hh p i)).bind fun q => backward L (n + 1) hh (some q))
            ?_ _ h1 res hfold hres
          · rw [hfold2]
            exact hb
          · intro hh i r1 hs hr1
            dsimp only at hs ⊢
            cases hdp : hh.deref p with
            | none => rw [hdp] at hs; exact hs
            | some tp =>
              rw [hdp, Res.ofOption_some, Res.bind_ok] at hs
              rw [Res.ofOption_some, Res.bind_ok]
              cases hq : rdPrev hh p i with
              | none => rw [hq] at hs; exact hs
              | some q =>
                rw [hq, Res.ofOption_some, Res.bind_ok] at hs
                rw [Res.ofOption_some, Res.bind_ok]
                exact ih hh (some q) r1 hs hr1

theorem backward_mono_le (L : Libm F) (n m : Nat) (hnm : n ≤ m) (h : Heap F) (p : Option Nat)
    (hr : backward L n h p ≠ .fuel) : backward L m h p = backward L n h p := by
  induction m with
  | zero =>
    have : n = 0 := by omega
    subst this
    rfl
  | succ k ih =>
    by_cases e : n = k + 1
    · subst e; rfl
    · have := ih (by omega)
      exact backward_mono L k h p _ this hr

/-! ## Checks by inspection of a concrete heap -/

theorem allFloat_of_check {h : Heap F} (hc : allFloatB h = true) : AllFloat h := by
  intro q t hq
  have hlt := deref_eq_some_lt hq
  simp only [allFloatB, List.all_eq_true] at hc
  have hm : h[q] ∈ h := List.getElem_mem hlt
  have := hc _ hm
  have e : h[q] = some t := by
    simpa [Heap.deref, List.getElem?_eq_getElem hlt] using hq
  rw [e] at this
  exact this

theorem forwardOnly_of_check {h : Heap F} (hc : forwardOnlyB h = true) : ForwardOnly h := by
  intro p t hp
  have hlt := deref_eq_some_lt hp
  simp only [forwardOnlyB, List.all_eq_true, List.mem_range] at hc
  have := hc p hlt
  rw [hp] at this
  simp only [Bool.and_eq_true, decide_eq_true_eq] at this
  refine ⟨this.1, ?_⟩
  intro i q hi hq
  have h2 := this.2
  simp only [linksBelow, List.all_eq_true, List.mem_range] at h2
  have h3 := h2 i (Int.lt_toNat.mpr hi)
  rw [hq] at h3
  simpa using h3

/-- C29: `backward` terminates on every graph built by the constructor and the
forward operations.  The empty heap is forward-only (every tensor records at
most `MAX_PREVS` operands, each created strictly before it), and the
constructor and each of the fifteen forward operations keep it so, whatever
they return and for the four element types (the integer cases of `Div`,
`Exp`, `Sigmoid` and `Tanh` return a linked result as the float cases do).
On a forward-only heap the recursion of `backward(p)` over
`prevs[0..num_prevs)` is no deeper than `p + 1`: with any budget `fuel > p` the
run does not exhaust the budget, and its outcome is the same for every such
budget. -/
theorem backward_terminates (L : Libm F) (cvt : F → Int) (e s : F) :
    ForwardOnly ([] : Heap F) ∧
    (∀ (h : Heap F) data dt dims ndim rg r, ForwardOnly h →
      tensor h data dt dims ndim rg = some r → ForwardOnly r.1) ∧
    (∀ op ∈ forwardOps L cvt e s, ∀ (h h1 : Heap F) (t1 t2 r : Option Nat), ForwardOnly h →
      op h t1 t2 = some (h1, r) → ForwardOnly h1) ∧
    (∀ (h : Heap F) (p fuel : Nat), ForwardOnly h → p < fuel →
      backward L fuel h (some p) ≠ .fuel ∧
      backward L fuel h (some p) = backward L (p + 1) h (some p)) := by
  refine ⟨?_, ?_, ?_, ?_⟩
  · intro p t hp
    simp [Heap.deref] at hp
  · intro h data dt dims ndim rg r hF ht
    exact keepsForward_tensor ht hF
  · intro op hop h h1 t1 t2 r hF hs
    exact fr_forwardOps keepsForward_fwdRel L cvt e s op hop hs hF
  · intro h p fuel hF hp
    have h1 := backward_noFuel L (p + 1) h p hF (Nat.lt_succ_self p)
    have h2 := backward_mono_le L (p + 1) fuel hp h (some p) h1
    exact ⟨h2 ▸ h1, h2⟩

/-- C29, on the graph `m = mul(x, y)` with budget 5, and on the graph
`d = Div(a, b)` of the `INT32` tensors `a = [[6]]`, `b = [[3]]`: the heap
`Div` returns is forward-only and `backward(d)` does not exhaust the budget. -/
theorem backward_terminates_witness :
    (backward libmQ 5 exMulGraph (some 2) ≠ .fuel ∧
      backward libmQ 5 exMulGraph (some 2) = backward libmQ (2 + 1) exMulGraph (some 2)) ∧
    Div libmQ exDivI (some 0) (some 1) = some (exDivIOut, some 2) ∧
    ForwardOnly exDivIOut ∧
    backward libmQ 5 exDivIOut (some 2) ≠ .fuel :=
  ⟨(backward_terminates libmQ (fun _ => 0) 2 0).2.2.2 exMulGraph 2 5
      (forwardOnly_of_check (by decide)) (by decide),
    by with_unfolding_all rfl,
    (backward_terminates libmQ (fun _ => 0) 2 0).2.2.1 (Div libmQ) (by simp [forwardOps])
      exDivI exDivIOut (some 0) (some 1) (some 2) (forwardOnly_of_check (by decide))
      (by with_unfolding_all rfl),
    ((backward_terminates libmQ (fun _ => 0) 2 0).2.2.2 exDivIOut 2 5
      (forwardOnly_of_check (by decide)) (by decide)).1⟩

/-- C36: `backward` only changes gradient values.  On a heap whose tensors are
all floating-point, whenever `backward(root)` returns, every tensor of the heap
is still alive and has the same data, dims, rank, size, element type,
producing operation, operand links, auxiliary scalar, `requires_grad` flag and
number of operands as before; its gradient buffer keeps its presence and
length, so a tensor without a gradient buffer is unchanged.  The same holds of
each backward rule on its own. -/
theorem backward_changes_only_grads (L : Libm F) :
    (∀ (fuel : Nat) (h h1 : Heap F) (root : Option Nat), AllFloat h →
      backward L fuel h root = .ok h1 →
      ∀ q t, h.deref q = some t → ∃ t1, h1.deref q = some t1 ∧
        t1.data = t.data ∧ t1.dims = t.dims ∧ t1.ndim = t.ndim ∧ t1.size = t.size ∧
        t1.dtype = t.dtype ∧ t1.op = t.op ∧ t1.prevs = t.prevs ∧ t1.extra = t.extra ∧
        t1.requires_grad = t.requires_grad ∧ t1.num_prevs = t.num_prevs ∧
        t1.grad.map List.length = t.grad.map List.length ∧ (t.grad = none → t1 = t)) ∧
    (∀ rule ∈ backwardRules L, ∀ (h h1 : Heap F) (o : Nat), AllFloat h →
      rule h (some o) = some h1 →
      ∀ q t, h.deref q = some t → ∃ t1, h1.deref q = some t1 ∧ UpToGrad t t1) := by
  have key : ∀ h h1 : Heap F, AllFloat h → Frame h h1 →
      ∀ q t, h.deref q = some t → ∃ t1, h1.deref q = some t1 ∧ UpToGrad t t1 := by
    intro h h1 hall f q t hq
    obtain ⟨t1, h1q⟩ := f.2 hall q t hq
    obtain ⟨t', ht', u⟩ := f.1 q t1 h1q
    rw [hq] at ht'
    cases ht'
    exact ⟨t1, h1q, u⟩
  constructor
  · intro fuel h h1 root hall hb q t hq
    obtain ⟨t1, h1q, u⟩ := key h h1 hall (rel_backward frame_heapRel L fuel h root h1 hb) q t hq
    have e := u.eq
    refine ⟨t1, h1q, ?_, ?_, ?_, ?_, ?_, ?_, ?_, ?_, ?_, ?_, u.len, ?_⟩
    · rw [e]
    · rw [e]
    · rw [e]
    · rw [e]
    · rw [e]
    · rw [e]
    · rw [e]
    · rw [e]
    · rw [e]
    · rw [e]
    · intro hg
      have hl := u.len
      rw [hg] at hl
      have hn : t1.grad = none := by
        cases hg1 : t1.grad with
        | none => rfl
        | some g => rw [hg1] at hl; cases hl
      rw [e, hn, ← hg]
  · intro rule hrule h h1 o hall hs
    exact key h h1 hall (rel_backwardRules frame_heapRel L rule hrule hs)

/-- C36, on the graph `m = mul(x, y)` with `m->grad[0] = 1`: `backward(m)`
returns, and `m` itself is found with the same data afterwards. -/
theorem backward_changes_only_grads_witness :
    ∃ t1, exMulGraphAfter.deref 2 = some t1 ∧
      t1.data = Data.ofF .FLOAT32 ([6] : List ℚ) ∧ t1.op = some .MUL ∧
      t1.prevs = [some 0, some 1, none] :=
  (fun r => ⟨r.choose, r.choose_spec.1, r.choose_spec.2.1, r.choose_spec.2.2.2.2.2.2.1,
      r.choose_spec.2.2.2.2.2.2.2.1⟩)
    ((backward_changes_only_grads libmQ).1 5 exMulGraph exMulGraphAfter (some 2)
      (allFloat_of_check (by decide)) (by with_unfolding_all decide) 2
      { binResult .MUL (leafMat .FLOAT32 1 1 [2] .true) (leafMat .FLOAT32 1 1 [3] .true)
            0 1 [6] with grad := some [1] } rfl)

/-! ## Reads and writes across gradient updates -/

theorem Same.sRefl2 (h : Heap F) : Same h h := fun _ t hq => ⟨t, hq, UpToGrad.uRefl t⟩

theorem Same.deref {h hh : Heap F} (S : Same h hh) {p : Nat} {t : Tensor F}
    (hp : h.deref p = some t) : ∃ t1, hh.deref p = some t1 ∧ t1 = { t with grad := t1.grad } ∧
      t1.grad.map List.length = t.grad.map List.length := by
  obtain ⟨t1, h1, u⟩ := S p t hp
  exact ⟨t1, h1, u.eq, u.len⟩

theorem same_rdDim {h hh : Heap F} (S : Same h hh) {p : Nat} {t : Tensor F}
    (hp : h.deref p = some t) (k : Nat) : rdDim hh p k = t.dims[k]? := by
  obtain ⟨t1, h1, e, _⟩ := S.deref hp
  simp only [rdDim, h1, Option.bind_eq_bind, Option.some_bind]
  rw [e]

theorem same_rdPrev {h hh : Heap F} (S : Same h hh) {p : Nat} {t : Tensor F}
    (hp : h.deref p = some t) (k : Nat) : rdPrev hh p k = (t.prevs[k]?).join := by
  obtain ⟨t1, h1, e, _⟩ := S.deref hp
  simp only [rdPrev, h1, Option.bind_eq_bind, Option.some_bind]
  rw [e]

theorem same_rdG {h hh : Heap F} (S : Same h hh) {p : Nat} {t : Tensor F} {dt : DType}
    (hp : h.deref p = some t) (hdt : t.dtype = dt) (hfl : dt.isFloat = true) {N : Nat}
    (hg : ∃ g, t.grad = some g ∧ g.length = N) (i : Nat) (hi : i < N) :
    ∃ v, rdG hh p dt (i : Int) = some v := by
  obtain ⟨t1, h1, e, hl⟩ := S.deref hp
  obtain ⟨g, hg, hgl⟩ := hg
  rw [hg] at hl
  cases hg1 : t1.grad with
  | none => rw [hg1] at hl; cases hl
  | some g1 =>
    rw [hg1] at hl
    simp only [Option.map_some', Option.some.injEq] at hl
    have hd : t1.dtype = dt := by rw [e]; exact hdt
    refine ⟨g1.getD i 0, ?_⟩
    rw [rdG_of h1 hg1 dt hd hfl i, getElem?_getD g1 i 0 (by omega)]

theorem same_wrG {h hh : Heap F} (S : Same h hh) {p : Nat} {t : Tensor F} {dt : DType}
    (hp : h.deref p = some t) (hdt : t.dtype = dt) (hfl : dt.isFloat = true) {N : Nat}
    (hg : ∃ g, t.grad = some g ∧ g.length = N) (i : Nat) (hi : i < N) (v : F) :
    ∃ hh1, wrG hh p dt (i : Int) v = some hh1 ∧ Same h hh1 := by
  obtain ⟨t1, h1, e, hl⟩ := S.deref hp
  obtain ⟨g, hg, hgl⟩ := hg
  rw [hg] at hl
  cases hg1 : t1.grad with
  | none => rw [hg1] at hl; cases hl
  | some g1 =>
    rw [hg1] at hl
    simp only [Option.map_some', Option.some.injEq] at hl
    have hd : t1.dtype = dt := by rw [e]; exact hdt
    have hi1 : i < g1.length := by omega
    refine ⟨hh.store p { t1 with grad := some (g1.set i v) }, ?_, ?_⟩
    · simp [wrG, h1, hd, hfl, hg1, bufSet_nat _ _ _ hi1]
    · intro q tq hq
      by_cases eq : q = p
      · subst eq
        rw [hp] at hq
        cases hq
        refine ⟨_, deref_store_self _ (deref_eq_some_lt h1), ?_, ?_⟩
        · rw [e]
        · simp only [List.length_set, Option.map_some', hg, hl]
      · obtain ⟨tq1, hq1, u⟩ := S q tq hq
        exact ⟨tq1, by rw [deref_store_ne _ eq, hq1], u⟩

theorem WMat.hasG {h : Heap F} {p : Nat} {t : Tensor F} {dt : DType} {r c : Nat}
    (hp : h.deref p = some t) (w : WMat t dt r c) (hg : t.requires_grad = bool.true) :
    HasG h p dt (r * c) := ⟨t, hp, w.dtype_eq, w.grad_ok hg⟩

theorem WMat.hasD {h : Heap F} {p : Nat} {t : Tensor F} {dt : DType} {r c : Nat}
    (hp : h.deref p = some t) (w : WMat t dt r c) : HasD h p dt (r * c) := ⟨t, hp, w.data_ok⟩

theorem WMat.hasDims {h : Heap F} {p : Nat} {t : Tensor F} {dt : DType} {r c : Nat}
    (hp : h.deref p = some t) (w : WMat t dt r c) : HasDims h p r c :=
  ⟨t, hp, w.dims_eq, w.size_eq⟩

theorem WOne.oneHasG {h : Heap F} {p : Nat} {t : Tensor F} {dt : DType}
    (hp : h.deref p = some t) (w : WOne t dt) (hg : t.requires_grad = bool.true) :
    HasG h p dt 1 := ⟨t, hp, w.dtype_eq, w.grad_ok hg⟩

theorem hasDims_posOf {h hh : Heap F} (S : Same h hh) {p r c : Nat} (D : HasDims h p r c)
    (i : Nat) (hi : i < r * c) : posOf hh p i = some (i : Int) := by
  obtain ⟨t, hp, hd, _⟩ := D
  have hc : (c : Int) ≠ 0 := by
    rcases Nat.eq_zero_or_pos c with h0 | h0
    · subst h0; simp at hi
    · omega
  simp only [posOf, same_rdDim S hp, hd, List.getElem?_cons_zero,
    List.getElem?_cons_succ, Option.bind_eq_bind, Option.some_bind, shape_index_nat i _ _ hc]

theorem hasDims_rows {h hh : Heap F} (S : Same h hh) {p r c : Nat} (D : HasDims h p r c) :
    rdDim hh p 0 = some (r : Int) := by
  obtain ⟨t, hp, hd, _⟩ := D
  rw [same_rdDim S hp, hd]; rfl

theorem hasDims_cols {h hh : Heap F} (S : Same h hh) {p r c : Nat} (D : HasDims h p r c) :
    rdDim hh p 1 = some (c : Int) := by
  obtain ⟨t, hp, hd, _⟩ := D
  rw [same_rdDim S hp, hd]; rfl

theorem hasD_rd {h hh : Heap F} (S : Same h hh) {p : Nat} {dt : DType} {N : Nat}
    (D : HasD h p dt N) (hfl : dt.isFloat = true) (z : Int) (i : Nat) (hz : z = (i : Int))
    (hi : i < N) : ∃ v, rdF hh p dt z = some v := by
  subst hz
  obtain ⟨t, hp, xs, hx, hl⟩ := D
  obtain ⟨t1, h1, e, _⟩ := S.deref hp
  have hd : t1.data = Data.ofF dt xs := by rw [e]; exact hx
  refine ⟨xs.getD i 0, ?_⟩
  rw [rdF_of h1 dt hd hfl i, getElem?_getD xs i 0 (by omega)]

theorem hasG_rd {h hh : Heap F} (S : Same h hh) {p : Nat} {dt : DType} {N : Nat}
    (G : HasG h p dt N) (hfl : dt.isFloat = true) (z : Int) (i : Nat) (hz : z = (i : Int))
    (hi : i < N) : ∃ v, rdG hh p dt z = some v := by
  subst hz
  obtain ⟨t, hp, hdt, hg⟩ := G
  exact same_rdG S hp hdt hfl hg i hi

theorem hasG_wr {h hh : Heap F} (S : Same h hh) {p : Nat} {dt : DType} {N : Nat}
    (G : HasG h p dt N) (hfl : dt.isFloat = true) (z : Int) (i : Nat) (hz : z = (i : Int))
    (hi : i < N) (v : F) : ∃ hh1, wrG hh p dt z v = some hh1 ∧ Same h hh1 := by
  subst hz
  obtain ⟨t, hp, hdt, hg⟩ := G
  exact same_wrG S hp hdt hfl hg i hi v

/-- A loop all of whose iterations return, under an invariant. -/
theorem loopN_total {S : Type} (body : Nat → S → Option S) (Inv : S → Prop) (n : Nat)
    (hstep : ∀ i, i < n → ∀ s, Inv s → ∃ s1, body i s = some s1 ∧ Inv s1) (s0 : S)
    (h0 : Inv s0) : ∃ s1, loopN body n s0 = some s1 ∧ Inv s1 := by
  induction n with
  | zero => exact ⟨s0, rfl, h0⟩
  | succ k ih =>
    obtain ⟨s1, h1, i1⟩ := ih (fun i hi => hstep i (by omega))
    obtain ⟨s2, h2, i2⟩ := hstep k (Nat.lt_succ_self k) s1 i1
    exact ⟨s2, by rw [loopN_succ, h1]; exact h2, i2⟩

theorem forLoop_total {S : Type} (body : Nat → S → Option S) (Inv : S → Prop) (n : Nat)
    (hstep : ∀ i, i < n → ∀ s, Inv s → ∃ s1, body i s = some s1 ∧ Inv s1) (s0 : S)
    (h0 : Inv s0) : ∃ s1, forLoop (n : Int) body s0 = some s1 ∧ Inv s1 := by
  unfold forLoop
  rw [Int.toNat_ofNat]
  exact loopN_total body Inv n hstep s0 h0

theorem lnot_true_iff (b : bool) : lnot b = true ↔ b = bool.true := by
  cases b <;> simp [lnot, bool.toInt]

theorem eqTrue_true_iff (b : bool) : eqTrue b = true ↔ b = bool.true := by
  cases b <;> simp [eqTrue, bool.toInt]

/-! ## Every iteration of a backward loop returns -/

theorem addBwdStep_total {h hh : Heap F} (S : Same h hh) (coef : F) {dt : DType}
    (hfl : dt.isFloat = true) {o pk r c : Nat}
    (Mo : HasDims h o r c) (Go : HasG h o dt (r * c)) (Mpk : HasDims h pk r c)
    (Gpk : HasG h pk dt (r * c))
    (i : Nat) (hi : i < r * c) :
    ∃ hh1, addBwdStep coef dt o pk i hh = some hh1 ∧ Same h hh1 := by
  obtain ⟨v3, e3⟩ := hasG_rd S Gpk hfl (i : Int) i rfl hi
  obtain ⟨v4, e4⟩ := hasG_rd S Go hfl (i : Int) i rfl hi
  simp only [addBwdStep, Option.bind_eq_bind, Option.some_bind, hasDims_posOf S Mpk i hi,
    hasDims_posOf S Mo i hi, e3, e4]
  exact hasG_wr S Gpk hfl (i : Int) i rfl hi _

theorem mulBwdStepA_total {h hh : Heap F} (S : Same h hh)  {dt : DType}
    (hfl : dt.isFloat = true) {o p0 p1 r c : Nat}
    (Mo : HasDims h o r c) (Go : HasG h o dt (r * c)) (Mp0 : HasDims h p0 r c)
    (Gp0 : HasG h p0 dt (r * c)) (Mp1 : HasDims h p1 r c) (Dp1 : HasD h p1 dt (r * c))
    (i : Nat) (hi : i < r * c) :
    ∃ hh1, mulBwdStepA dt o p0 p1 i hh = some hh1 ∧ Same h hh1 := by
  obtain ⟨v4, e4⟩ := hasG_rd S Gp0 hfl (i : Int) i rfl hi
  obtain ⟨v5, e5⟩ := hasD_rd S Dp1 hfl (i : Int) i rfl hi
  obtain ⟨v6, e6⟩ := hasG_rd S Go hfl (i : Int) i rfl hi
  simp only [mulBwdStepA, Option.bind_eq_bind, Option.some_bind, hasDims_posOf S Mp0 i hi,
    hasDims_posOf S Mp1 i hi, hasDims_posOf S Mo i hi, e4, e5, e6]
  exact hasG_wr S Gp0 hfl (i : Int) i rfl hi _

theorem mulBwdStepB_total {h hh : Heap F} (S : Same h hh)  {dt : DType}
    (hfl : dt.isFloat = true) {o p0 p1 r c : Nat}
    (Mo : HasDims h o r c) (Go : HasG h o dt (r * c)) (Mp0 : HasDims h p0 r c)
    (Dp0 : HasD h p0 dt (r * c)) (Mp1 : HasDims h p1 r c) (Gp1 : HasG h p1 dt (r * c))
    (i : Nat) (hi : i < r * c) :
    ∃ hh1, mulBwdStepB dt o p0 p1 i hh = some hh1 ∧ Same h hh1 := by
  obtain ⟨v4, e4⟩ := hasG_rd S Gp1 hfl (i : Int) i rfl hi
  obtain ⟨v5, e5⟩ := hasD_rd S Dp0 hfl (i : Int) i rfl hi
  obtain ⟨v6, e6⟩ := hasG_rd S Go hfl (i : Int) i rfl hi
  simp only [mulBwdStepB, Option.bind_eq_bind, Option.some_bind, hasDims_posOf S Mp0 i hi,
    hasDims_posOf S Mp1 i hi, hasDims_posOf S Mo i hi, e4, e5, e6]
  exact hasG_wr S Gp1 hfl (i : Int) i rfl hi _

theorem divBwdStepA_total {h hh : Heap F} (S : Same h hh)  {dt : DType}
    (hfl : dt.isFloat = true) {o p0 p1 r c : Nat}
    (Mo : HasDims h o r c) (Go : HasG h o dt (r * c)) (Gp0 : HasG h p0 dt (r * c))
    (Dp1 : HasD h p1 dt (r * c))
    (i : Nat) (hi : i < r * c) :
    ∃ hh1, divBwdStepA dt o p0 p1 i hh = some hh1 ∧ Same h hh1 := by
  obtain ⟨v2, e2⟩ := hasG_rd S Gp0 hfl (i : Int) i rfl hi
  obtain ⟨v3, e3⟩ := hasG_rd S Go hfl (i : Int) i rfl hi
  obtain ⟨v4, e4⟩ := hasD_rd S Dp1 hfl (i : Int) i rfl hi
  simp only [divBwdStepA, Option.bind_eq_bind, Option.some_bind, hasDims_posOf S Mo i hi, e2, e3,
    e4]
  exact hasG_wr S Gp0 hfl (i : Int) i rfl hi _

theorem divBwdStepB_total {h hh : Heap F} (S : Same h hh) (L : Libm F) {dt : DType}
    (hfl : dt.isFloat = true) {o p0 p1 r c : Nat}
    (Mo : HasDims h o r c) (Go : HasG h o dt (r * c)) (Dp0 : HasD h p0 dt (r * c))
    (Gp1 : HasG h p1 dt (r * c)) (Dp1 : HasD h p1 dt (r * c))
    (i : Nat) (hi : i < r * c) :
    ∃ hh1, divBwdStepB L dt o p0 p1 i hh = some hh1 ∧ Same h hh1 := by
  obtain ⟨v2, e2⟩ := hasG_rd S Gp1 hfl (i : Int) i rfl hi
  obtain ⟨v3, e3⟩ := hasG_rd S Go hfl (i : Int) i rfl hi
  obtain ⟨v4, e4⟩ := hasD_rd S Dp0 hfl (i : Int) i rfl hi
  obtain ⟨v5, e5⟩ := hasD_rd S Dp1 hfl (i : Int) i rfl hi
  simp only [divBwdStepB, Option.bind_eq_bind, Option.some_bind, hasDims_posOf S Mo i hi, e2, e3,
    e4, e5]
  exact hasG_wr S Gp1 hfl (i : Int) i rfl hi _

theorem powBwdStep_total {h hh : Heap F} (S : Same h hh) (L : Libm F) {dt : DType}
    (hfl : dt.isFloat = true) {o p0 r c : Nat}
    (Go : HasG h o dt (r * c)) (Mp0 : HasDims h p0 r c) (Gp0 : HasG h p0 dt (r * c))
    (Dp0 : HasD h p0 dt (r * c))
    (i : Nat) (hi : i < r * c) :
    ∃ hh1, powBwdStep L o dt p0 i hh = some hh1 ∧ Same h hh1 := by
  obtain ⟨v2, e2, _⟩ := S _ _ Go.choose_spec.1
  obtain ⟨v3, e3⟩ := hasG_rd S Gp0 hfl (i : Int) i rfl hi
  obtain ⟨v4, e4⟩ := hasG_rd S Go hfl (i : Int) i rfl hi
  obtain ⟨v5, e5⟩ := hasD_rd S Dp0 hfl (i : Int) i rfl hi
  simp only [powBwdStep, Option.bind_eq_bind, Option.some_bind, hasDims_posOf S Mp0 i hi, e2, e3,
    e4, e5]
  exact hasG_wr S Gp0 hfl (i : Int) i rfl hi _

theorem expBwdStep_total {h hh : Heap F} (S : Same h hh) (L : Libm F) {dt : DType}
    (hfl : dt.isFloat = true) {o p0 r c : Nat}
    (Go : HasG h o dt (r * c)) (Mp0 : HasDims h p0 r c) (Gp0 : HasG h p0 dt (r * c))
    (Dp0 : HasD h p0 dt (r * c))
    (i : Nat) (hi : i < r * c) :
    ∃ hh1, expBwdStep L o dt p0 i hh = some hh1 ∧ Same h hh1 := by
  obtain ⟨v2, e2⟩ := hasG_rd S Gp0 hfl (i : Int) i rfl hi
  obtain ⟨v3, e3⟩ := hasG_rd S Go hfl (i : Int) i rfl hi
  obtain ⟨v4, e4⟩ := hasD_rd S Dp0 hfl (i : Int) i rfl hi
  simp only [expBwdStep, Option.bind_eq_bind, Option.some_bind, hasDims_posOf S Mp0 i hi, e2, e3,
    e4]
  exact hasG_wr S Gp0 hfl (i : Int) i rfl hi _

theorem leakyBwdStep_total {h hh : Heap F} (S : Same h hh)  {dt : DType}
    (hfl : dt.isFloat = true) {o p0 r c : Nat}
    (Go : HasG h o dt (r * c)) (Do : HasD h o dt (r * c)) (Mp0 : HasDims h p0 r c)
    (Gp0 : HasG h p0 dt (r * c))
    (i : Nat) (hi : i < r * c) :
    ∃ hh1, leakyBwdStep o dt p0 i hh = some hh1 ∧ Same h hh1 := by
  obtain ⟨v2, e2, _⟩ := S _ _ Go.choose_spec.1
  obtain ⟨v3, e3⟩ := hasG_rd S Gp0 hfl (i : Int) i rfl hi
  obtain ⟨v4, e4⟩ := hasD_rd S Do hfl (i : Int) i rfl hi
  obtain ⟨v5, e5⟩ := hasG_rd S Go hfl (i : Int) i rfl hi
  simp only [leakyBwdStep, Option.bind_eq_bind, Option.some_bind, hasDims_posOf S Mp0 i hi, e2, e3,
    e4, e5]
  exact hasG_wr S Gp0 hfl (i : Int) i rfl hi _

theorem tanhBwdStep_total {h hh : Heap F} (S : Same h hh) (L : Libm F) {dt : DType}
    (hfl : dt.isFloat = true) {o p0 r c : Nat}
    (Go : HasG h o dt (r * c)) (Do : HasD h o dt (r * c)) (Mp0 : HasDims h p0 r c)
    (Gp0 : HasG h p0 dt (r * c))
    (i : Nat) (hi : i < r * c) :
    ∃ hh1, tanhBwdStep L o dt p0 i hh = some hh1 ∧ Same h hh1 := by
  obtain ⟨v2, e2⟩ := hasG_rd S Gp0 hfl (i : Int) i rfl hi
  obtain ⟨v3, e3⟩ := hasD_rd S Do hfl (i : Int) i rfl hi
  obtain ⟨v4, e4⟩ := hasG_rd S Go hfl (i : Int) i rfl hi
  simp only [tanhBwdStep, Option.bind_eq_bind, Option.some_bind, hasDims_posOf S Mp0 i hi, e2, e3,
    e4]
  exact hasG_wr S Gp0 hfl (i : Int) i rfl hi _

theorem sigmoidBwdStep_total {h hh : Heap F} (S : Same h hh)  {dt : DType}
    (hfl : dt.isFloat = true) {o p0 r c : Nat}
    (Go : HasG h o dt (r * c)) (Do : HasD h o dt (r * c)) (Mp0 : HasDims h p0 r c)
    (Gp0 : HasG h p0 dt (r * c))
    (i : Nat) (hi : i < r * c) :
    ∃ hh1, sigmoidBwdStep o dt p0 i hh = some hh1 ∧ Same h hh1 := by
  obtain ⟨v2, e2⟩ := hasG_rd S Gp0 hfl (i : Int) i rfl hi
  obtain ⟨v3, e3⟩ := hasD_rd S Do hfl (i : Int) i rfl hi
  obtain ⟨v4, e4⟩ := hasG_rd S Go hfl (i : Int) i rfl hi
  simp only [sigmoidBwdStep, Option.bind_eq_bind, Option.some_bind, hasDims_posOf S Mp0 i hi, e2,
    e3, e4]
  exact hasG_wr S Gp0 hfl (i : Int) i rfl hi _

theorem reluBwdStep_total {h hh : Heap F} (S : Same h hh) {dt : DType}
    (hfl : dt.isFloat = true) {o p0 r c : Nat}
    (Go : HasG h o dt (r * c)) (Do : HasD h o dt (r * c)) (Mp0 : HasDims h p0 r c)
    (Gp0 : HasG h p0 dt (r * c)) (i : Nat) (hi : i < r * c) :
    ∃ hh1, reluBwdStep o dt p0 i hh = some hh1 ∧ Same h hh1 := by
  obtain ⟨v1, e1⟩ := hasG_rd S Gp0 hfl (i : Int) i rfl hi
  obtain ⟨v2, e2⟩ := hasD_rd S Do hfl (i : Int) i rfl hi
  obtain ⟨v3, e3⟩ := hasG_rd S Go hfl (i : Int) i rfl hi
  simp only [reluBwdStep, Option.bind_eq_bind, Option.some_bind, hasDims_posOf S Mp0 i hi, e1, e2,
    e3]
  by_cases hy : v2 < 0
  · rw [if_pos hy]
    exact hasG_wr S Gp0 hfl (i : Int) i rfl hi _
  · rw [if_neg hy]
    exact hasG_wr S Gp0 hfl (i : Int) i rfl hi _

theorem sumBwdStep_total {h hh : Heap F} (S : Same h hh) {dt : DType}
    (hfl : dt.isFloat = true) {o p0 r c : Nat}
    (Go : HasG h o dt 1) (Mp0 : HasDims h p0 r c)
    (Gp0 : HasG h p0 dt (r * c)) (i : Nat) (hi : i < r * c) :
    ∃ hh1, sumBwdStep o dt p0 i hh = some hh1 ∧ Same h hh1 := by
  obtain ⟨v1, e1⟩ := hasG_rd S Gp0 hfl (i : Int) i rfl hi
  obtain ⟨v2, e2⟩ := hasG_rd S Go hfl 0 0 rfl Nat.one_pos
  simp only [sumBwdStep, Option.bind_eq_bind, Option.some_bind, hasDims_posOf S Mp0 i hi, e1, e2]
  exact hasG_wr S Gp0 hfl (i : Int) i rfl hi _

theorem meanBwdStep_total {h hh : Heap F} (S : Same h hh) {dt : DType}
    (hfl : dt.isFloat = true) {o p0 r c : Nat}
    (Go : HasG h o dt 1) (Mp0 : HasDims h p0 r c)
    (Gp0 : HasG h p0 dt (r * c)) (i : Nat) (hi : i < r * c) :
    ∃ hh1, meanBwdStep o dt p0 i hh = some hh1 ∧ Same h hh1 := by
  obtain ⟨v1, e1⟩ := hasG_rd S Gp0 hfl (i : Int) i rfl hi
  obtain ⟨v2, e2⟩ := hasG_rd S Go hfl 0 0 rfl Nat.one_pos
  obtain ⟨v3, e3, _⟩ := S _ _ Gp0.choose_spec.1
  simp only [meanBwdStep, Option.bind_eq_bind, Option.some_bind, hasDims_posOf S Mp0 i hi, e1, e2,
    e3]
  exact hasG_wr S Gp0 hfl (i : Int) i rfl hi _

theorem mseScale_total {h hh : Heap F} (S : Same h hh) {p0 r c : Nat}
    (Mp0 : HasDims h p0 r c) (hpos : 0 < r * c) : ∃ q, mseScale hh p0 = some q := by
  obtain ⟨t, hp, _, hs⟩ := Mp0
  obtain ⟨t1, h1, e, _⟩ := S.deref hp
  have hs1 : t1.size = ((r * c : Nat) : Int) := by rw [e]; simp only [hs, Nat.cast_mul]
  have hne : t1.size ≠ 0 := by rw [hs1]; omega
  refine ⟨((Int.tdiv 1 t1.size : Int) : F), ?_⟩
  simp only [mseScale, Option.bind_eq_bind, h1, Option.some_bind, cdiv, if_neg hne]

theorem mseBwdStep_total {h hh : Heap F} (S : Same h hh) {dt : DType}
    (hfl : dt.isFloat = true) {o p0 p1 r c : Nat} {t : Tensor F}
    (ho : h.deref o = some t) (hp1 : t.prevs[1]? = some (some p1))
    (Go : HasG h o dt 1) (Mp0 : HasDims h p0 r c)
    (Gp0 : HasG h p0 dt (r * c)) (Dp0 : HasD h p0 dt (r * c)) (Dp1 : HasD h p1 dt (r * c))
    (i : Nat) (hi : i < r * c) :
    ∃ hh1, mseBwdStep o dt p0 i hh = some hh1 ∧ Same h hh1 := by
  obtain ⟨v1, e1⟩ := hasG_rd S Gp0 hfl (i : Int) i rfl hi
  obtain ⟨v2, e2⟩ := hasG_rd S Go hfl 0 0 rfl Nat.one_pos
  obtain ⟨q, eq⟩ := mseScale_total S Mp0 (Nat.lt_of_le_of_lt (Nat.zero_le _) hi)
  obtain ⟨a, ea⟩ := hasD_rd S Dp0 hfl (i : Int) i rfl hi
  obtain ⟨b, eb⟩ := hasD_rd S Dp1 hfl (i : Int) i rfl hi
  have hpv : rdPrev hh o 1 = some p1 := by rw [same_rdPrev S ho, hp1]; rfl
  simp only [mseBwdStep, mseDiff, Option.bind_eq_bind, Option.some_bind,
    hasDims_posOf S Mp0 i hi, e1, e2, eq, ea, eb, hpv]
  exact hasG_wr S Gp0 hfl (i : Int) i rfl hi _

theorem matmulBwdStepA_total {h hh : Heap F} (S : Same h hh) {dt : DType}
    (hfl : dt.isFloat = true) {o p0 p1 m l n : Nat}
    (Go : HasG h o dt (m * n)) (Gp0 : HasG h p0 dt (m * l)) (Dp1 : HasD h p1 dt (l * n))
    (i k j : Nat) (hi : i < m) (hk : k < l) (hj : j < n) :
    ∃ hh1, matmulBwdStepA dt o p0 p1 (n : Int) (l : Int) i k j hh = some hh1 ∧ Same h hh1 := by
  have b1 : i * l + k < m * l := by nlinarith
  have b2 : i * n + j < m * n := by nlinarith
  have b3 : j * l + k < l * n := by nlinarith
  obtain ⟨v1, e1⟩ := hasG_rd S Gp0 hfl ((i : Int) * l + k) (i * l + k) (by push_cast; rfl) b1
  obtain ⟨v2, e2⟩ := hasG_rd S Go hfl ((i : Int) * n + j) (i * n + j) (by push_cast; rfl) b2
  obtain ⟨v3, e3⟩ := hasD_rd S Dp1 hfl ((j : Int) * l + k) (j * l + k) (by push_cast; rfl) b3
  simp only [matmulBwdStepA, Option.bind_eq_bind, Option.some_bind, e1, e2, e3]
  exact hasG_wr S Gp0 hfl _ (i * l + k) (by push_cast; rfl) b1 _

theorem matmulBwdStepB_total {h hh : Heap F} (S : Same h hh) {dt : DType}
    (hfl : dt.isFloat = true) {o p0 p1 m l n : Nat}
    (Go : HasG h o dt (m * n)) (Gp1 : HasG h p1 dt (l * n)) (Dp0 : HasD h p0 dt (m * l))
    (k j i : Nat) (hk : k < l) (hj : j < n) (hi : i < m) :
    ∃ hh1, matmulBwdStepB dt o p0 p1 (m : Int) (n : Int) k j i hh = some hh1 ∧ Same h hh1 := by
  have b1 : k * n + j < l * n := by nlinarith
  have b2 : k * m + i < m * l := by nlinarith
  have b3 : i * n + j < m * n := by nlinarith
  obtain ⟨v1, e1⟩ := hasG_rd S Gp1 hfl ((k : Int) * n + j) (k * n + j) (by push_cast; rfl) b1
  obtain ⟨v2, e2⟩ := hasD_rd S Dp0 hfl ((k : Int) * m + i) (k * m + i) (by push_cast; rfl) b2
  obtain ⟨v3, e3⟩ := hasG_rd S Go hfl ((i : Int) * n + j) (i * n + j) (by push_cast; rfl) b3
  simp only [matmulBwdStepB, Option.bind_eq_bind, Option.some_bind, e1, e2, e3]
  exact hasG_wr S Gp1 hfl _ (k * n + j) (by push_cast; rfl) b1 _

theorem softmaxBwdStep_total {h hh : Heap F} (S : Same h hh) {dt : DType}
    (hfl : dt.isFloat = true) {o p0 r c : Nat}
    (Go : HasG h o dt (r * c)) (Mp0 : HasDims h p0 r c)
    (Gp0 : HasG h p0 dt (r * c)) (Dp0 : HasD h p0 dt (r * c))
    (i j : Nat) (hi : i < r) (hj : j < c) :
    ∃ hh1, softmaxBwdStep o dt p0 i j hh = some hh1 ∧ Same h hh1 := by
  have b1 : i * c + j < r * c := by nlinarith
  have b2 : i < r * c := by nlinarith
  have b3 : j < r * c := by nlinarith
  obtain ⟨v1, e1⟩ := hasG_rd S Gp0 hfl ((i : Int) * c + j) (i * c + j) (by push_cast; rfl) b1
  obtain ⟨v2, e2⟩ := hasG_rd S Go hfl ((i : Int) * c + j) (i * c + j) (by push_cast; rfl) b1
  obtain ⟨xi, ei⟩ := hasD_rd S Dp0 hfl (i : Int) i rfl b2
  obtain ⟨xj, ej⟩ := hasD_rd S Dp0 hfl (j : Int) j rfl b3
  simp only [softmaxBwdStep, Option.bind_eq_bind, Option.some_bind, hasDims_cols S Mp0, e1, e2,
    ei, ej]
  by_cases hij : i = j
  · rw [if_neg (not_not.mpr hij)]
    exact hasG_wr S Gp0 hfl _ (i * c + j) (by push_cast; rfl) b1 _
  · rw [if_pos hij]
    exact hasG_wr S Gp0 hfl _ (i * c + j) (by push_cast; rfl) b1 _

/-! ## Every backward rule returns on a well-built node -/

theorem gate_left {a b c : bool} (h : c = condBool (lnot a || lnot b)) (ha : a = bool.true) :
    c = bool.true := by
  subst h; subst ha
  cases b <;> rfl

theorem gate_right {a b c : bool} (h : c = condBool (lnot a || lnot b)) (hb : b = bool.true) :
    c = bool.true := by
  subst h; subst hb
  cases a <;> rfl

theorem gate_one {a c : bool} (h : c = condBool (lnot a)) : c = bool.true ↔ a = bool.true := by
  subst h
  cases a <;> simp [lnot, condBool, bool.toInt]

theorem Same.fields {h hh : Heap F} (S : Same h hh) {p : Nat} {t : Tensor F}
    (hp : h.deref p = some t) : ∃ t1, hh.deref p = some t1 ∧ t1.dtype = t.dtype ∧
      t1.size = t.size ∧ t1.requires_grad = t.requires_grad ∧ t1.prevs = t.prevs ∧
      t1.grad.isNone = t.grad.isNone := by
  obtain ⟨t1, h1, e, hl⟩ := S.deref hp
  refine ⟨t1, h1, by rw [e], by rw [e], by rw [e], by rw [e], ?_⟩
  cases hg1 : t1.grad <;> cases hg : t.grad <;> rw [hg1, hg] at hl <;> simp at hl <;> rfl

theorem bwdSwitch_total {h hh : Heap F} {dt : DType} (hfl : dt.isFloat = true) (N : Nat)
    (o : Nat) (step : DType → Nat → Heap F → Option (Heap F))
    (hstep : ∀ i, i < N → ∀ s, Same h s → ∃ s1, step dt i s = some s1 ∧ Same h s1)
    (S : Same h hh) :
    ∃ hh1, bwdSwitch dt (N : Int) o step hh = some (hh1, false) ∧ Same h hh1 := by
  cases dt with
  | FLOAT32 =>
    obtain ⟨s1, e1, S1⟩ := forLoop_total (step .FLOAT32) (Same h) N hstep hh S
    exact ⟨s1, by simp only [bwdSwitch, e1, Option.map_some'], S1⟩
  | FLOAT64 =>
    obtain ⟨s1, e1, S1⟩ := forLoop_total (step .FLOAT64) (Same h) N hstep hh S
    exact ⟨s1, by simp only [bwdSwitch, e1, Option.map_some'], S1⟩
  | INT32 => cases hfl
  | INT64 => cases hfl

theorem bwdSecond_total {h hh : Heap F} (S : Same h hh) {o p1 r c : Nat} {t t1 : Tensor F}
    {dt : DType} (hfl : dt.isFloat = true) (ho : h.deref o = some t)
    (hp1 : t.prevs[1]? = some (some p1)) (h1 : h.deref p1 = some t1)
    (hdt : t.dtype = dt) (hsz : t.size = (r : Int) * (c : Int))
    (step : Nat → DType → Nat → Heap F → Option (Heap F))
    (hstep : t1.requires_grad = bool.true →
      ∀ i, i < r * c → ∀ s, Same h s → ∃ s1, step p1 dt i s = some s1 ∧ Same h s1) :
    ∃ hh1, bwdSecond o step hh = some hh1 ∧ Same h hh1 := by
  obtain ⟨u, hu, udt, usz, _, upv, _⟩ := S.fields ho
  obtain ⟨u1, hu1, _, _, urg, _, _⟩ := S.fields h1
  have hpv : rdPrev hh o 1 = some p1 := rdPrev_of hu (by rw [upv]; exact hp1)
  simp only [bwdSecond, Option.bind_eq_bind, hu, hpv, hu1, Option.some_bind]
  by_cases hg : t1.requires_grad = bool.true
  · rw [if_pos ((eqTrue_true_iff _).mpr (by rw [urg]; exact hg))]
    obtain ⟨s1, e1, S1⟩ := bwdSwitch_total hfl (r * c) o (step p1) (hstep hg) S
    rw [udt, usz, hdt, hsz, ← Nat.cast_mul, e1]
    exact ⟨s1, rfl, S1⟩
  · rw [if_neg (fun hc => hg (by rw [← urg]; exact (eqTrue_true_iff _).mp hc))]
    exact ⟨hh, rfl, S⟩

/-! ## The two-operand rules -/

theorem add_backward_total {h : Heap F} {o : Nat} (W : Wired .binary h o) :
    ∃ h1, add_backward h (some o) = some h1 ∧ Same h h1 := by
  obtain ⟨t, t0, t1, p0, p1, dt, r, c, hfl, ho, hp0, hp1, h0, h1, w, w0, w1, hrg⟩ := W
  have second : ∀ hh, Same h hh →
      ∃ hh1, bwdSecond o (fun p1 dt => addBwdStep 1 dt o p1) hh = some hh1 ∧ Same h hh1 :=
    fun hh S => bwdSecond_total S hfl ho hp1 h1 w.dtype_eq w.size_eq _
      (fun hg i hi s Ss => addBwdStep_total Ss 1 hfl (w.hasDims ho)
        (w.hasG ho (gate_right hrg hg)) (w1.hasDims h1) (w1.hasG h1 hg) i hi)
  simp only [add_backward, Option.bind_eq_bind, ho, rdPrev_of ho hp0, h0, Option.some_bind]
  by_cases hg : t0.requires_grad = bool.true
  · rw [if_pos ((lnot_true_iff _).mpr hg)]
    obtain ⟨s1, e1, S1⟩ := bwdSwitch_total hfl (r * c) o (fun dt => addBwdStep 1 dt o p0)
      (fun i hi s Ss => addBwdStep_total Ss 1 hfl (w.hasDims ho)
        (w.hasG ho (gate_left hrg hg)) (w0.hasDims h0) (w0.hasG h0 hg) i hi) (Same.sRefl2 h)
    rw [w.dtype_eq, w.size_eq, ← Nat.cast_mul, e1]
    exact second s1 S1
  · rw [if_neg (fun hc => hg ((lnot_true_iff _).mp hc))]
    exact second h (Same.sRefl2 h)

theorem sub_backward_total {h : Heap F} {o : Nat} (W : Wired .binary h o) :
    ∃ h1, sub_backward h (some o) = some h1 ∧ Same h h1 := by
  obtain ⟨t, t0, t1, p0, p1, dt, r, c, hfl, ho, hp0, hp1, h0, h1, w, w0, w1, hrg⟩ := W
  have second : ∀ hh, Same h hh →
      ∃ hh1, bwdSecond o (fun p1 dt => addBwdStep (-1) dt o p1) hh = some hh1 ∧ Same h hh1 :=
    fun hh S => bwdSecond_total S hfl ho hp1 h1 w.dtype_eq w.size_eq _
      (fun hg i hi s Ss => addBwdStep_total Ss (-1) hfl (w.hasDims ho)
        (w.hasG ho (gate_right hrg hg)) (w1.hasDims h1) (w1.hasG h1 hg) i hi)
  simp only [sub_backward, Option.bind_eq_bind, ho, rdPrev_of ho hp0, h0, Option.some_bind]
  by_cases hg : t0.requires_grad = bool.true
  · rw [if_pos ((eqTrue_true_iff _).mpr hg)]
    obtain ⟨s1, e1, S1⟩ := bwdSwitch_total hfl (r * c) o (fun dt => addBwdStep 1 dt o p0)
      (fun i hi s Ss => addBwdStep_total Ss 1 hfl (w.hasDims ho)
        (w.hasG ho (gate_left hrg hg)) (w0.hasDims h0) (w0.hasG h0 hg) i hi) (Same.sRefl2 h)
    rw [w.dtype_eq, w.size_eq, ← Nat.cast_mul, e1]
    exact second s1 S1
  · rw [if_neg (fun hc => hg ((eqTrue_true_iff _).mp hc))]
    exact second h (Same.sRefl2 h)

theorem mul_backward_total {h : Heap F} {o : Nat} (W : Wired .binary h o) :
    ∃ h1, mul_backward h (some o) = some h1 ∧ Same h h1 := by
  obtain ⟨t, t0, t1, p0, p1, dt, r, c, hfl, ho, hp0, hp1, h0, h1, w, w0, w1, hrg⟩ := W
  have second : ∀ hh, Same h hh →
      ∃ hh1, bwdSecond o (fun p1 dt => mulBwdStepB dt o p0 p1) hh = some hh1 ∧ Same h hh1 :=
    fun hh S => bwdSecond_total S hfl ho hp1 h1 w.dtype_eq w.size_eq _
      (fun hg i hi s Ss => mulBwdStepB_total Ss hfl (w.hasDims ho)
        (w.hasG ho (gate_right hrg hg)) (w0.hasDims h0) (w0.hasD h0) (w1.hasDims h1)
        (w1.hasG h1 hg) i hi)
  simp only [mul_backward, Option.bind_eq_bind, ho, rdPrev_of ho hp0, rdPrev_of ho hp1, h0,
    Option.some_bind]
  by_cases hg : t0.requires_grad = bool.true
  · rw [if_pos ((eqTrue_true_iff _).mpr hg)]
    obtain ⟨s1, e1, S1⟩ := bwdSwitch_total hfl (r * c) o (fun dt => mulBwdStepA dt o p0 p1)
      (fun i hi s Ss => mulBwdStepA_total Ss hfl (w.hasDims ho)
        (w.hasG ho (gate_left hrg hg)) (w0.hasDims h0) (w0.hasG h0 hg) (w1.hasDims h1)
        (w1.hasD h1) i hi) (Same.sRefl2 h)
    rw [w.dtype_eq, w.size_eq, ← Nat.cast_mul, e1]
    exact second s1 S1
  · rw [if_neg (fun hc => hg ((eqTrue_true_iff _).mp hc))]
    exact second h (Same.sRefl2 h)

/-! ## The matrix product and the quotient -/

theorem matmulBwdF_total {h : Heap F} {o p0 p1 m l n : Nat} {t t0 t1 : Tensor F} {dt : DType}
    (hfl : dt.isFloat = true) (ho : h.deref o = some t) (h0 : h.deref p0 = some t0)
    (h1 : h.deref p1 = some t1) (w : WMat t dt m n) (w0 : WMat t0 dt m l) (w1 : WMat t1 dt l n)
    (hrg : t.requires_grad = condBool (lnot t0.requires_grad || lnot t1.requires_grad)) :
    ∃ hh1, matmulBwdF dt o p0 p1 (m : Int) (n : Int) (l : Int) h = some hh1 ∧ Same h hh1 := by
  have first : ∃ s1, (if eqTrue t0.requires_grad = true then
      forLoop (m : Int) (fun i ha => forLoop (l : Int) (fun k hb => forLoop (n : Int) (fun j hc =>
        matmulBwdStepA dt o p0 p1 n l i k j hc) hb) ha) h
      else some h) = some s1 ∧ Same h s1 := by
    by_cases hg : t0.requires_grad = bool.true
    · rw [if_pos ((eqTrue_true_iff _).mpr hg)]
      exact forLoop_total _ (Same h) m (fun i hi s Ss =>
        forLoop_total _ (Same h) l (fun k hk s2 Ss2 =>
          forLoop_total _ (Same h) n (fun j hj s3 Ss3 =>
            matmulBwdStepA_total Ss3 hfl (w.hasG ho (gate_left hrg hg)) (w0.hasG h0 hg)
              (w1.hasD h1) i k j hi hk hj) s2 Ss2) s Ss) h (Same.sRefl2 h)
    · rw [if_neg (fun hc => hg ((eqTrue_true_iff _).mp hc))]
      exact ⟨h, rfl, Same.sRefl2 h⟩
  obtain ⟨s1, e1, S1⟩ := first
  obtain ⟨u1, hu1, _, _, urg, _, _⟩ := S1.fields h1
  simp only [matmulBwdF, Option.bind_eq_bind, h0, Option.some_bind, e1, hu1]
  by_cases hg : t1.requires_grad = bool.true
  · rw [if_pos ((eqTrue_true_iff _).mpr (by rw [urg]; exact hg))]
    exact forLoop_total _ (Same h) l (fun k hk s Ss =>
      forLoop_total _ (Same h) n (fun j hj s2 Ss2 =>
        forLoop_total _ (Same h) m (fun i hi s3 Ss3 =>
          matmulBwdStepB_total Ss3 hfl (w.hasG ho (gate_right hrg hg)) (w1.hasG h1 hg)
            (w0.hasD h0) k j i hk hj hi) s2 Ss2) s Ss) s1 S1
  · rw [if_neg (fun hc => hg (by rw [← urg]; exact (eqTrue_true_iff _).mp hc))]
    exact ⟨s1, rfl, S1⟩

theorem matmul_backward_total {h : Heap F} {o : Nat} (W : Wired .matmul h o) :
    ∃ h1, matmul_backward h (some o) = some h1 ∧ Same h h1 := by
  obtain ⟨t, t0, t1, p0, p1, dt, m, l, n, hfl, ho, hp0, hp1, h0, h1, w, w0, w1, hrg⟩ := W
  have S := Same.sRefl2 h
  simp only [matmul_backward, Option.bind_eq_bind, ho, rdPrev_of ho hp0, rdPrev_of ho hp1,
    hasDims_rows S (w0.hasDims h0), hasDims_rows S (w1.hasDims h1),
    hasDims_cols S (w1.hasDims h1), Option.some_bind, w.dtype_eq]
  cases dt with
  | FLOAT32 => exact matmulBwdF_total hfl ho h0 h1 w w0 w1 hrg
  | FLOAT64 => exact matmulBwdF_total hfl ho h0 h1 w w0 w1 hrg
  | INT32 => cases hfl
  | INT64 => cases hfl

theorem divBwdF_total {L : Libm F} {h : Heap F} {o p0 p1 r c : Nat} {t t0 t1 : Tensor F}
    {dt : DType} (hfl : dt.isFloat = true) (ho : h.deref o = some t)
    (hp0 : t.prevs[0]? = some (some p0)) (hp1 : t.prevs[1]? = some (some p1))
    (h0 : h.deref p0 = some t0)
    (h1 : h.deref p1 = some t1) (w : WMat t dt r c) (w0 : WMat t0 dt r c) (w1 : WMat t1 dt r c)
    (hrg : t.requires_grad = condBool (lnot t0.requires_grad || lnot t1.requires_grad)) :
    ∃ hh1, divBwdF L dt o h = some hh1 ∧ Same h hh1 := by
  have first : ∃ s1, (if eqTrue t0.requires_grad = true then
      forLoop t.size (divBwdStepA dt o p0 p1) h else some h) = some s1 ∧ Same h s1 := by
    by_cases hg : t0.requires_grad = bool.true
    · rw [if_pos ((eqTrue_true_iff _).mpr hg), w.size_eq, ← Nat.cast_mul]
      exact forLoop_total _ (Same h) (r * c) (fun i hi s Ss =>
        divBwdStepA_total Ss hfl (w.hasDims ho) (w.hasG ho (gate_left hrg hg)) (w0.hasG h0 hg)
          (w1.hasD h1) i hi) h (Same.sRefl2 h)
    · rw [if_neg (fun hc => hg ((eqTrue_true_iff _).mp hc))]
      exact ⟨h, rfl, Same.sRefl2 h⟩
  obtain ⟨s1, e1, S1⟩ := first
  obtain ⟨u, hu, _, _, _, upv, _⟩ := S1.fields ho
  obtain ⟨u1, hu1, _, _, urg, _, _⟩ := S1.fields h1
  have hpv : rdPrev s1 o 1 = some p1 := rdPrev_of hu (by rw [upv]; exact hp1)
  simp only [divBwdF, Option.bind_eq_bind, ho, rdPrev_of ho hp0, rdPrev_of ho hp1, h0,
    Option.some_bind]
  rw [e1]
  simp only [Option.some_bind, hpv, hu1]
  by_cases hg : t1.requires_grad = bool.true
  · rw [if_pos ((eqTrue_true_iff _).mpr (by rw [urg]; exact hg)), w.size_eq, ← Nat.cast_mul]
    exact forLoop_total _ (Same h) (r * c) (fun i hi s Ss =>
      divBwdStepB_total Ss L hfl (w.hasDims ho) (w.hasG ho (gate_right hrg hg)) (w0.hasD h0)
        (w1.hasG h1 hg) (w1.hasD h1) i hi) s1 S1
  · rw [if_neg (fun hc => hg (by rw [← urg]; exact (eqTrue_true_iff _).mp hc))]
    exact ⟨s1, rfl, S1⟩

theorem Div_backward_total (L : Libm F) {h : Heap F} {o : Nat} (W : Wired .binary h o) :
    ∃ h1, Div_backward L h (some o) = some h1 ∧ Same h h1 := by
  obtain ⟨t, t0, t1, p0, p1, dt, r, c, hfl, ho, hp0, hp1, h0, h1, w, w0, w1, hrg⟩ := W
  simp only [Div_backward, Option.bind_eq_bind, ho, Option.some_bind, w.dtype_eq]
  cases dt with
  | FLOAT32 => exact divBwdF_total hfl ho hp0 hp1 h0 h1 w w0 w1 hrg
  | FLOAT64 => exact divBwdF_total hfl ho hp0 hp1 h0 h1 w w0 w1 hrg
  | INT32 => cases hfl
  | INT64 => cases hfl

/-! ## The one-operand rules and the reductions -/

theorem unaryBwdSwitchFirst_total {h : Heap F} {o : Nat} (W : Wired .unary h o)
    (step : DType → Nat → Nat → Heap F → Option (Heap F))
    (hstep : ∀ (dt : DType) (p0 r c : Nat), dt.isFloat = true → HasDims h o r c →
      HasG h o dt (r * c) → HasD h o dt (r * c) → HasDims h p0 r c → HasG h p0 dt (r * c) →
      HasD h p0 dt (r * c) → ∀ i, i < r * c → ∀ s, Same h s →
      ∃ s1, step dt p0 i s = some s1 ∧ Same h s1) :
    ∃ h1, unaryBwdSwitchFirst o step h = some h1 ∧ Same h h1 := by
  obtain ⟨t, t0, p0, dt, r, c, hfl, ho, hp0, h0, w, w0, hrg⟩ := W
  have loop : ∃ s1, (if eqTrue t0.requires_grad = true then forLoop t0.size (step dt p0) h
      else some h) = some s1 ∧ Same h s1 := by
    by_cases hg : t0.requires_grad = bool.true
    · rw [if_pos ((eqTrue_true_iff _).mpr hg), w0.size_eq, ← Nat.cast_mul]
      exact forLoop_total _ (Same h) (r * c) (hstep dt p0 r c hfl (w.hasDims ho)
        (w.hasG ho ((gate_one hrg).mpr hg)) (w.hasD ho) (w0.hasDims h0) (w0.hasG h0 hg)
        (w0.hasD h0)) h (Same.sRefl2 h)
    · rw [if_neg (fun hc => hg ((eqTrue_true_iff _).mp hc))]
      exact ⟨h, rfl, Same.sRefl2 h⟩
  simp only [unaryBwdSwitchFirst, Option.bind_eq_bind, ho, Option.some_bind, w.dtype_eq]
  cases dt with
  | FLOAT32 =>
    simp only [rdPrev_of ho hp0, h0, Option.some_bind]
    exact loop
  | FLOAT64 =>
    simp only [rdPrev_of ho hp0, h0, Option.some_bind]
    exact loop
  | INT32 => cases hfl
  | INT64 => cases hfl

theorem unaryBwdGateFirst_total {h : Heap F} {o : Nat} (W : Wired .unary h o)
    (ofOperand : Bool) (step : DType → Nat → Nat → Heap F → Option (Heap F))
    (hstep : ∀ (dt : DType) (p0 r c : Nat), dt.isFloat = true → HasDims h o r c →
      HasG h o dt (r * c) → HasD h o dt (r * c) → HasDims h p0 r c → HasG h p0 dt (r * c) →
      HasD h p0 dt (r * c) → ∀ i, i < r * c → ∀ s, Same h s →
      ∃ s1, step dt p0 i s = some s1 ∧ Same h s1) :
    ∃ h1, unaryBwdGateFirst o ofOperand step h = some h1 ∧ Same h h1 := by
  obtain ⟨t, t0, p0, dt, r, c, hfl, ho, hp0, h0, w, w0, hrg⟩ := W
  simp only [unaryBwdGateFirst, Option.bind_eq_bind, ho, rdPrev_of ho hp0, h0, Option.some_bind,
    w.dtype_eq, w0.dtype_eq, ite_self]
  by_cases hg : t0.requires_grad = bool.true
  · rw [if_pos ((eqTrue_true_iff _).mpr hg), w0.size_eq, ← Nat.cast_mul]
    obtain ⟨s1, e1, S1⟩ := bwdSwitch_total hfl (r * c) o (fun dt => step dt p0)
      (hstep dt p0 r c hfl (w.hasDims ho)
        (w.hasG ho ((gate_one hrg).mpr hg)) (w.hasD ho) (w0.hasDims h0) (w0.hasG h0 hg)
        (w0.hasD h0)) (Same.sRefl2 h)
    rw [e1]
    exact ⟨s1, rfl, S1⟩
  · rw [if_neg (fun hc => hg ((eqTrue_true_iff _).mp hc))]
    exact ⟨h, rfl, Same.sRefl2 h⟩

theorem unaryBwdGateOut_total {h : Heap F} {o p0 : Nat} {t t0 : Tensor F} {dt : DType}
    (hfl : dt.isFloat = true) (ho : h.deref o = some t) (hp0 : t.prevs[0]? = some (some p0))
    (h0 : h.deref p0 = some t0) (hdt : t.dtype = dt) (hdt0 : t0.dtype = dt)
    (gate : bool → Bool) (ofOperand : Bool) (body : DType → Nat → Heap F → Option (Heap F))
    (hbody : gate t.requires_grad = true → ∃ h1, body dt p0 h = some h1 ∧ Same h h1) :
    ∃ h1, unaryBwdGateOut o gate ofOperand body h = some h1 ∧ Same h h1 := by
  simp only [unaryBwdGateOut, Option.bind_eq_bind, ho, Option.some_bind]
  by_cases hg : gate t.requires_grad = true
  · rw [if_pos hg]
    cases ofOperand with
    | true =>
      simp only [if_true, rdPrev_of ho hp0, h0, Option.some_bind, hdt0]
      cases dt with
      | FLOAT32 => exact hbody hg
      | FLOAT64 => exact hbody hg
      | INT32 => cases hfl
      | INT64 => cases hfl
    | false =>
      simp only [Bool.false_eq_true, if_false, hdt]
      cases dt with
      | FLOAT32 =>
        simp only [rdPrev_of ho hp0, Option.some_bind]
        exact hbody hg
      | FLOAT64 =>
        simp only [rdPrev_of ho hp0, Option.some_bind]
        exact hbody hg
      | INT32 => cases hfl
      | INT64 => cases hfl
  · rw [if_neg hg]
    exact ⟨h, rfl, Same.sRefl2 h⟩

theorem Pow_backward_total (L : Libm F) {h : Heap F} {o : Nat} (W : Wired .unary h o) :
    ∃ h1, Pow_backward L h (some o) = some h1 ∧ Same h h1 :=
  unaryBwdSwitchFirst_total W _ (fun _ _ _ _ hfl _ Go _ M0 G0 D0 i hi _ Ss =>
    powBwdStep_total Ss L hfl Go M0 G0 D0 i hi)

theorem Exp_backward_total (L : Libm F) {h : Heap F} {o : Nat} (W : Wired .unary h o) :
    ∃ h1, Exp_backward L h (some o) = some h1 ∧ Same h h1 :=
  unaryBwdSwitchFirst_total W _ (fun _ _ _ _ hfl _ Go _ M0 G0 D0 i hi _ Ss =>
    expBwdStep_total Ss L hfl Go M0 G0 D0 i hi)

theorem relu_backward_total {h : Heap F} {o : Nat} (W : Wired .unary h o) :
    ∃ h1, relu_backward h (some o) = some h1 ∧ Same h h1 :=
  unaryBwdGateFirst_total W false _ (fun _ _ _ _ hfl _ Go Do M0 G0 _ i hi _ Ss =>
    reluBwdStep_total Ss hfl Go Do M0 G0 i hi)

theorem leaky_relu_backward_total {h : Heap F} {o : Nat} (W : Wired .unary h o) :
    ∃ h1, leaky_relu_backward h (some o) = some h1 ∧ Same h h1 :=
  unaryBwdGateFirst_total W false _ (fun _ _ _ _ hfl _ Go Do M0 G0 _ i hi _ Ss =>
    leakyBwdStep_total Ss hfl Go Do M0 G0 i hi)

theorem Tanh_backward_total (L : Libm F) {h : Heap F} {o : Nat} (W : Wired .unary h o) :
    ∃ h1, Tanh_backward L h (some o) = some h1 ∧ Same h h1 :=
  unaryBwdGateFirst_total W false _ (fun _ _ _ _ hfl _ Go Do M0 G0 _ i hi _ Ss =>
    tanhBwdStep_total Ss L hfl Go Do M0 G0 i hi)

theorem Sigmoid_backward_total {h : Heap F} {o : Nat} (W : Wired .unary h o) :
    ∃ h1, Sigmoid_backward h (some o) = some h1 ∧ Same h h1 :=
  unaryBwdGateFirst_total W true _ (fun _ _ _ _ hfl _ Go Do M0 G0 _ i hi _ Ss =>
    sigmoidBwdStep_total Ss hfl Go Do M0 G0 i hi)

theorem softmax_backward_total {h : Heap F} {o : Nat} (W : Wired .unary h o) :
    ∃ h1, softmax_backward h (some o) = some h1 ∧ Same h h1 := by
  obtain ⟨t, t0, p0, dt, r, c, hfl, ho, hp0, h0, w, w0, hrg⟩ := W
  refine unaryBwdGateOut_total hfl ho hp0 h0 w.dtype_eq w0.dtype_eq lnot true _ (fun hg => ?_)
  have hgo : t.requires_grad = bool.true := (lnot_true_iff _).mp hg
  have hg0 : t0.requires_grad = bool.true := (gate_one hrg).mp hgo
  simp only [softmaxBwdLoops, Option.bind_eq_bind, hasDims_rows (Same.sRefl2 h) (w0.hasDims h0),
    Option.some_bind]
  refine forLoop_total _ (Same h) r (fun i hi s Ss => ?_) h (Same.sRefl2 h)
  simp only [hasDims_cols Ss (w0.hasDims h0), Option.some_bind]
  exact forLoop_total _ (Same h) c (fun j hj s2 Ss2 =>
    softmaxBwdStep_total Ss2 hfl (w.hasG ho hgo) (w0.hasDims h0) (w0.hasG h0 hg0) (w0.hasD h0)
      i j hi hj) s Ss

theorem sum_backward_total {h : Heap F} {o : Nat} (W : Wired .reduce h o) :
    ∃ h1, sum_backward h (some o) = some h1 ∧ Same h h1 := by
  obtain ⟨t, t0, p0, dt, r, c, hfl, ho, hp0, h0, w, w0, hrg⟩ := W
  refine unaryBwdGateOut_total hfl ho hp0 h0 w.dtype_eq w0.dtype_eq lnot false _ (fun hg => ?_)
  have hgo : t.requires_grad = bool.true := (lnot_true_iff _).mp hg
  have hg0 : t0.requires_grad = bool.true := (gate_one hrg).mp hgo
  simp only [sumBwdLoop, Option.bind_eq_bind, h0, Option.some_bind, w0.size_eq]
  rw [← Nat.cast_mul]
  exact forLoop_total _ (Same h) (r * c) (fun i hi s Ss =>
    sumBwdStep_total Ss hfl (w.oneHasG ho hgo) (w0.hasDims h0) (w0.hasG h0 hg0) i hi)
    h (Same.sRefl2 h)

theorem mean_backward_total {h : Heap F} {o : Nat} (W : Wired .reduce h o) :
    ∃ h1, mean_backward h (some o) = some h1 ∧ Same h h1 := by
  obtain ⟨t, t0, p0, dt, r, c, hfl, ho, hp0, h0, w, w0, hrg⟩ := W
  refine unaryBwdGateOut_total hfl ho hp0 h0 w.dtype_eq w0.dtype_eq eqTrue false _ (fun hg => ?_)
  have hgo : t.requires_grad = bool.true := (eqTrue_true_iff _).mp hg
  have hg0 : t0.requires_grad = bool.true := (gate_one hrg).mp hgo
  simp only [meanBwdLoop, Option.bind_eq_bind, ho, h0, Option.some_bind, w0.size_eq]
  by_cases hn : t.grad.isNone = true ∨ t0.grad.isNone = true
  · rw [if_pos hn]
    exact ⟨h, rfl, Same.sRefl2 h⟩
  · rw [if_neg hn, ← Nat.cast_mul]
    exact forLoop_total _ (Same h) (r * c) (fun i hi s Ss =>
      meanBwdStep_total Ss hfl (w.oneHasG ho hgo) (w0.hasDims h0) (w0.hasG h0 hg0) i hi)
      h (Same.sRefl2 h)

theorem MSELoss_backward_total {h : Heap F} {o : Nat} (W : Wired .mse h o) :
    ∃ h1, MSELoss_backward h (some o) = some h1 ∧ Same h h1 := by
  obtain ⟨t, t0, t1, p0, p1, dt, r, c, hfl, ho, hp0, hp1, h0, h1, w, w0, w1, hrg⟩ := W
  refine unaryBwdGateOut_total hfl ho hp0 h0 w.dtype_eq w0.dtype_eq lnot false _ (fun hg => ?_)
  have hgo : t.requires_grad = bool.true := (lnot_true_iff _).mp hg
  have hg0 : t0.requires_grad = bool.true := (gate_one hrg).mp hgo
  simp only [mseBwdLoop, Option.bind_eq_bind, h0, Option.some_bind, w0.size_eq]
  rw [← Nat.cast_mul]
  exact forLoop_total _ (Same h) (r * c) (fun i hi s Ss =>
    mseBwdStep_total Ss hfl ho hp1 (w.oneHasG ho hgo) (w0.hasDims h0) (w0.hasG h0 hg0) (w0.hasD h0)
      (w1.hasD h1) i hi) h (Same.sRefl2 h)

/-! ## Well-built nodes across gradient updates, and their gates -/

theorem WMat.same {t t1 : Tensor F} {dt : DType} {r c : Nat} (w : WMat t dt r c)
    (u : UpToGrad t t1) : WMat t1 dt r c := by
  have e := u.eq
  refine ⟨by rw [e]; exact w.dtype_eq, by rw [e]; exact w.dims_eq, by rw [e]; exact w.size_eq,
    by rw [e]; exact w.data_ok, fun hg => ?_⟩
  obtain ⟨g, hg1, hl⟩ := w.grad_ok (by rw [e] at hg; exact hg)
  have hlen := u.len
  rw [hg1] at hlen
  cases hg2 : t1.grad with
  | none => rw [hg2] at hlen; cases hlen
  | some g2 =>
    rw [hg2] at hlen
    simp only [Option.map_some', Option.some.injEq] at hlen
    exact ⟨g2, rfl, hlen.trans hl⟩

theorem WOne.oneSame {t t1 : Tensor F} {dt : DType} (w : WOne t dt)
    (u : UpToGrad t t1) : WOne t1 dt := by
  have e := u.eq
  refine ⟨by rw [e]; exact w.dtype_eq, fun hg => ?_⟩
  obtain ⟨g, hg1, hl⟩ := w.grad_ok (by rw [e] at hg; exact hg)
  have hlen := u.len
  rw [hg1] at hlen
  cases hg2 : t1.grad with
  | none => rw [hg2] at hlen; cases hlen
  | some g2 =>
    rw [hg2] at hlen
    simp only [Option.map_some', Option.some.injEq] at hlen
    exact ⟨g2, rfl, hlen.trans hl⟩

theorem UpToGrad.flag_eq {t t1 : Tensor F} (u : UpToGrad t t1) :
    t1.requires_grad = t.requires_grad := by
  rw [u.eq]

theorem UpToGrad.links_eq {t t1 : Tensor F} (u : UpToGrad t t1) : t1.prevs = t.prevs := by
  rw [u.eq]

theorem wired_same {h h1 : Heap F} (S : Same h h1) {k : NodeKind} {o : Nat}
    (W : Wired k h o) : Wired k h1 o := by
  cases k with
  | binary =>
    obtain ⟨t, t0, t1, p0, p1, dt, r, c, hfl, ho, hp0, hp1, h0, h1, w, w0, w1, hrg⟩ := W
    obtain ⟨u, hu, eu⟩ := S o t ho
    obtain ⟨u0, hu0, eu0⟩ := S p0 t0 h0
    obtain ⟨u1, hu1, eu1⟩ := S p1 t1 h1
    exact ⟨u, u0, u1, p0, p1, dt, r, c, hfl, hu, by rw [eu.links_eq]; exact hp0,
      by rw [eu.links_eq]; exact hp1, hu0, hu1, w.same eu, w0.same eu0, w1.same eu1,
      by rw [eu.flag_eq, eu0.flag_eq, eu1.flag_eq]; exact hrg⟩
  | matmul =>
    obtain ⟨t, t0, t1, p0, p1, dt, m, l, n, hfl, ho, hp0, hp1, h0, h1, w, w0, w1, hrg⟩ := W
    obtain ⟨u, hu, eu⟩ := S o t ho
    obtain ⟨u0, hu0, eu0⟩ := S p0 t0 h0
    obtain ⟨u1, hu1, eu1⟩ := S p1 t1 h1
    exact ⟨u, u0, u1, p0, p1, dt, m, l, n, hfl, hu, by rw [eu.links_eq]; exact hp0,
      by rw [eu.links_eq]; exact hp1, hu0, hu1, w.same eu, w0.same eu0, w1.same eu1,
      by rw [eu.flag_eq, eu0.flag_eq, eu1.flag_eq]; exact hrg⟩
  | unary =>
    obtain ⟨t, t0, p0, dt, r, c, hfl, ho, hp0, h0, w, w0, hrg⟩ := W
    obtain ⟨u, hu, eu⟩ := S o t ho
    obtain ⟨u0, hu0, eu0⟩ := S p0 t0 h0
    exact ⟨u, u0, p0, dt, r, c, hfl, hu, by rw [eu.links_eq]; exact hp0, hu0, w.same eu,
      w0.same eu0, by rw [eu.flag_eq, eu0.flag_eq]; exact hrg⟩
  | reduce =>
    obtain ⟨t, t0, p0, dt, r, c, hfl, ho, hp0, h0, w, w0, hrg⟩ := W
    obtain ⟨u, hu, eu⟩ := S o t ho
    obtain ⟨u0, hu0, eu0⟩ := S p0 t0 h0
    exact ⟨u, u0, p0, dt, r, c, hfl, hu, by rw [eu.links_eq]; exact hp0, hu0, w.oneSame eu,
      w0.same eu0, by rw [eu.flag_eq, eu0.flag_eq]; exact hrg⟩
  | mse =>
    obtain ⟨t, t0, t1, p0, p1, dt, r, c, hfl, ho, hp0, hp1, h0, h1, w, w0, w1, hrg⟩ := W
    obtain ⟨u, hu, eu⟩ := S o t ho
    obtain ⟨u0, hu0, eu0⟩ := S p0 t0 h0
    obtain ⟨u1, hu1, eu1⟩ := S p1 t1 h1
    exact ⟨u, u0, u1, p0, p1, dt, r, c, hfl, hu, by rw [eu.links_eq]; exact hp0,
      by rw [eu.links_eq]; exact hp1, hu0, hu1, w.oneSame eu, w0.same eu0, w1.same eu1,
      by rw [eu.flag_eq, eu0.flag_eq]; exact hrg⟩

theorem slot_cases {α : Type} {xs : List α} {i : Nat} {a b x : α} (hi : i < 2)
    (h0 : xs[0]? = some a) (h1 : xs[1]? = some b) (hx : xs[i]? = some x) :
    x = a ∨ x = b := by
  rcases Nat.lt_succ_iff_lt_or_eq.mp hi with hlt | rfl
  · have : i = 0 := by omega
    subst this
    rw [h0] at hx
    exact Or.inl (Option.some.inj hx).symm
  · rw [h1] at hx
    exact Or.inr (Option.some.inj hx).symm

theorem gate_buffers {k : NodeKind} {h : Heap F} {o i q : Nat} (W : Wired k h o)
    (G : GateOpen k h o i q) : ∃ dt n m, HasG h o dt n ∧ HasG h q dt m := by
  obtain ⟨t', tq, ho', hq, hdq, hk⟩ := G
  cases k with
  | binary =>
    obtain ⟨t, t0, t1, p0, p1, dt, r, c, hfl, ho, hp0, hp1, h0, h1, w, w0, w1, hrg⟩ := W
    rw [ho] at ho'; cases ho'
    obtain ⟨hi, hg⟩ := hk
    rcases slot_cases hi hp0 hp1 hq with e | e
    · cases e
      rw [h0] at hdq; cases hdq
      exact ⟨dt, _, _, w.hasG ho (gate_left hrg hg), w0.hasG h0 hg⟩
    · cases e
      rw [h1] at hdq; cases hdq
      exact ⟨dt, _, _, w.hasG ho (gate_right hrg hg), w1.hasG h1 hg⟩
  | matmul =>
    obtain ⟨t, t0, t1, p0, p1, dt, m, l, n, hfl, ho, hp0, hp1, h0, h1, w, w0, w1, hrg⟩ := W
    rw [ho] at ho'; cases ho'
    obtain ⟨hi, hg⟩ := hk
    rcases slot_cases hi hp0 hp1 hq with e | e
    · cases e
      rw [h0] at hdq; cases hdq
      exact ⟨dt, _, _, w.hasG ho (gate_left hrg hg), w0.hasG h0 hg⟩
    · cases e
      rw [h1] at hdq; cases hdq
      exact ⟨dt, _, _, w.hasG ho (gate_right hrg hg), w1.hasG h1 hg⟩
  | unary =>
    obtain ⟨t, t0, p0, dt, r, c, hfl, ho, hp0, h0, w, w0, hrg⟩ := W
    rw [ho] at ho'; cases ho'
    obtain ⟨hi, hg⟩ := hk
    subst hi
    rw [hp0] at hq; cases hq
    rw [h0] at hdq; cases hdq
    have hg0 : tq.requires_grad = bool.true := by
      rcases hg with hg | hg
      · exact hg
      · exact (gate_one hrg).mp hg
    exact ⟨dt, _, _, w.hasG ho ((gate_one hrg).mpr hg0), w0.hasG h0 hg0⟩
  | reduce =>
    obtain ⟨t, t0, p0, dt, r, c, hfl, ho, hp0, h0, w, w0, hrg⟩ := W
    rw [ho] at ho'; cases ho'
    obtain ⟨hi, hg⟩ := hk
    subst hi
    rw [hp0] at hq; cases hq
    rw [h0] at hdq; cases hdq
    exact ⟨dt, _, _, w.oneHasG ho hg, w0.hasG h0 ((gate_one hrg).mp hg)⟩
  | mse =>
    obtain ⟨t, t0, t1, p0, p1, dt, r, c, hfl, ho, hp0, hp1, h0, h1, w, w0, w1, hrg⟩ := W
    rw [ho] at ho'; cases ho'
    obtain ⟨hi, hg⟩ := hk
    subst hi
    rw [hp0] at hq; cases hq
    rw [h0] at hdq; cases hdq
    exact ⟨dt, _, _, w.oneHasG ho hg, w0.hasG h0 ((gate_one hrg).mp hg)⟩

/-! ## Changes confined to the fresh result -/

theorem Touch.tRefl (t : Nat) (h : Heap F) : Touch t h h :=
  ⟨fun _ _ => rfl, fun x hx => ⟨x, hx, SameShape.sRefl x, rfl, fun _ hd => hd⟩⟩

theorem Touch.tTrans {t : Nat} {h1 h2 h3 : Heap F} (a : Touch t h1 h2) (b : Touch t h2 h3) :
    Touch t h1 h3 := by
  refine ⟨fun q hq => (b.1 q hq).trans (a.1 q hq), fun x hx => ?_⟩
  obtain ⟨x1, h1x, s1, l1, k1⟩ := a.2 x hx
  obtain ⟨x2, h2x, s2, l2, k2⟩ := b.2 x1 h1x
  exact ⟨x2, h2x, s1.sTrans s2, l2.trans l1, fun dt hd => k2 dt (k1 dt hd)⟩

theorem setF_isOf {d d1 : Data F} {dt : DType} {i : Int} {v : F}
    (hs : d.setF dt i v = some d1) (dt1 : DType) (hd : d.isOf dt1) : d1.isOf dt1 := by
  unfold Data.setF at hs
  split at hs
  · simp only [Option.map_eq_some'] at hs
    obtain ⟨b1, _, rfl⟩ := hs
    cases dt1 <;> first | exact hd | exact trivial
  · simp only [Option.map_eq_some'] at hs
    obtain ⟨b1, _, rfl⟩ := hs
    cases dt1 <;> first | exact hd | exact trivial
  · cases hs

theorem setI_isOf {d d1 : Data F} {dt : DType} {i : Int} {v : Int}
    (hs : d.setI dt i v = some d1) (dt1 : DType) (hd : d.isOf dt1) : d1.isOf dt1 := by
  unfold Data.setI at hs
  split at hs
  · simp only [Option.map_eq_some'] at hs
    obtain ⟨b1, _, rfl⟩ := hs
    cases dt1 <;> first | exact hd | exact trivial
  · simp only [Option.map_eq_some'] at hs
    obtain ⟨b1, _, rfl⟩ := hs
    cases dt1 <;> first | exact hd | exact trivial
  · cases hs

/-- Replacing the struct at `t` by one of the same shape, data member and
number of slots. -/
theorem touch_store {h : Heap F} {t : Nat} {x x1 : Tensor F} (hp : h.deref t = some x)
    (s : SameShape x x1) (hl : x1.prevs.length = x.prevs.length)
    (hk : ∀ dt, x.data.isOf dt → x1.data.isOf dt) : Touch t h (h.store t x1) := by
  refine ⟨fun q hq => deref_store_ne _ hq, fun y hy => ?_⟩
  rw [hp] at hy; cases hy
  exact ⟨x1, deref_store_self _ (deref_eq_some_lt hp), s, hl, hk⟩

theorem touch_wrF {hh hh1 : Heap F} {p : Nat} {dt : DType} {i : Int} {v : F}
    (hw : wrF hh p dt i v = some hh1) : Touch p hh hh1 := by
  simp only [wrF, Option.bind_eq_bind, Option.bind_eq_some] at hw
  obtain ⟨t, ht, d, hd, hw⟩ := hw
  cases hw
  exact touch_store ht ⟨rfl, rfl, rfl, rfl, rfl, rfl, setF_len hd⟩ rfl (setF_isOf hd)

theorem touch_wrI {hh hh1 : Heap F} {p : Nat} {dt : DType} {i : Int} {v : Int}
    (hw : wrI hh p dt i v = some hh1) : Touch p hh hh1 := by
  simp only [wrI, Option.bind_eq_bind, Option.bind_eq_some] at hw
  obtain ⟨t, ht, d, hd, hw⟩ := hw
  cases hw
  exact touch_store ht ⟨rfl, rfl, rfl, rfl, rfl, rfl, setI_len hd⟩ rfl (setI_isOf hd)

theorem touch_link1 {h h1 : Heap F} {t : Nat} {op : Op} {p1 : Nat}
    (hl : link1 h t op p1 = some h1) : Touch t h h1 ∧
      ∀ x, h.deref t = some x → ∃ x1, h1.deref t = some x1 ∧ x1.op = some op ∧
        x1.prevs = x.prevs.set 0 (some p1) := by
  simp only [link1, Option.bind_eq_bind, Option.bind_eq_some] at hl
  obtain ⟨tt, ht, hl⟩ := hl
  cases hl
  refine ⟨touch_store ht ⟨rfl, rfl, rfl, rfl, rfl, rfl, rfl⟩ (by simp) (fun _ hd => hd),
    fun x hx => ?_⟩
  rw [ht] at hx; cases hx
  exact ⟨_, deref_store_self _ (deref_eq_some_lt ht), rfl, rfl⟩

theorem touch_link1x {h h1 : Heap F} {t : Nat} {op : Op} {p1 : Nat} {v : F}
    (hl : link1x h t op p1 v = some h1) : Touch t h h1 ∧
      ∀ x, h.deref t = some x → ∃ x1, h1.deref t = some x1 ∧ x1.op = some op ∧
        x1.prevs = x.prevs.set 0 (some p1) := by
  simp only [link1x, Option.bind_eq_bind, Option.bind_eq_some] at hl
  obtain ⟨tt, ht, hl⟩ := hl
  cases hl
  refine ⟨touch_store ht ⟨rfl, rfl, rfl, rfl, rfl, rfl, rfl⟩ (by simp) (fun _ hd => hd),
    fun x hx => ?_⟩
  rw [ht] at hx; cases hx
  exact ⟨_, deref_store_self _ (deref_eq_some_lt ht), rfl, rfl⟩

theorem touch_linkSum {h h1 : Heap F} {t : Nat} {p1 : Nat}
    (hl : linkSum h t p1 = some h1) : Touch t h h1 ∧
      ∀ x, h.deref t = some x → ∃ x1, h1.deref t = some x1 ∧ x1.op = some .SUM ∧
        x1.prevs = x.prevs.set 0 (some p1) := by
  simp only [linkSum, Option.bind_eq_bind, Option.bind_eq_some] at hl
  obtain ⟨tt, ht, hl⟩ := hl
  cases hl
  refine ⟨touch_store ht ⟨rfl, rfl, rfl, rfl, rfl, rfl, rfl⟩ (by simp) (fun _ hd => hd),
    fun x hx => ?_⟩
  rw [ht] at hx; cases hx
  exact ⟨_, deref_store_self _ (deref_eq_some_lt ht), rfl, rfl⟩

theorem touch_link2 {h h1 : Heap F} {t : Nat} {op : Op} {p1 p2 : Nat}
    (hl : link2 h t op p1 p2 = some h1) : Touch t h h1 ∧
      ∀ x, h.deref t = some x → ∃ x1, h1.deref t = some x1 ∧ x1.op = some op ∧
        x1.prevs = (x.prevs.set 0 (some p1)).set 1 (some p2) := by
  simp only [link2, Option.bind_eq_bind, Option.bind_eq_some] at hl
  obtain ⟨tt, ht, hl⟩ := hl
  cases hl
  refine ⟨touch_store ht ⟨rfl, rfl, rfl, rfl, rfl, rfl, rfl⟩ (by simp) (fun _ hd => hd),
    fun x hx => ?_⟩
  rw [ht] at hx; cases hx
  exact ⟨_, deref_store_self _ (deref_eq_some_lt ht), rfl, rfl⟩

theorem touch_loopN {t : Nat} (body : Nat → Heap F → Option (Heap F))
    (hb : ∀ i s s1, body i s = some s1 → Touch t s s1) (n : Nat) {s s1 : Heap F}
    (hl : loopN body n s = some s1) : Touch t s s1 := by
  induction n generalizing s1 with
  | zero => cases hl; exact Touch.tRefl t s
  | succ k ih =>
    rw [loopN_succ, Option.bind_eq_some] at hl
    obtain ⟨s2, h1, h2⟩ := hl
    exact (ih h1).tTrans (hb k s2 s1 h2)

theorem touch_forLoop {t : Nat} (body : Nat → Heap F → Option (Heap F))
    (hb : ∀ i s s1, body i s = some s1 → Touch t s s1) (n : Int) {s s1 : Heap F}
    (hl : forLoop n body s = some s1) : Touch t s s1 :=
  touch_loopN body hb n.toNat hl

/-! ## Every element loop of a forward operation writes the result only -/

theorem touch_binStepF (f : F → F → F) (dt : DType) (t p1 p2 i : Nat) (hh hh1 : Heap F)
    (hs : binStepF f dt t p1 p2 i hh = some hh1) : Touch t hh hh1 := by
  simp only [binStepF, Option.bind_eq_bind, Option.bind_eq_some] at hs
  repeat (obtain ⟨_, _, hs⟩ := hs)
  exact touch_wrF hs

theorem touch_binStepI (f : Int → Int → Int) (dt : DType) (t p1 p2 i : Nat)
    (hh hh1 : Heap F) (hs : binStepI f dt t p1 p2 i hh = some hh1) : Touch t hh hh1 := by
  simp only [binStepI, Option.bind_eq_bind, Option.bind_eq_some] at hs
  repeat (obtain ⟨_, _, hs⟩ := hs)
  exact touch_wrI hs

theorem touch_subStepF32 (t p1 p2 i : Nat) (hh hh1 : Heap F)
    (hs : subStepF32 t p1 p2 i hh = some hh1) : Touch t hh hh1 := by
  simp only [subStepF32, Option.bind_eq_bind, Option.bind_eq_some] at hs
  repeat (obtain ⟨_, _, hs⟩ := hs)
  exact touch_wrF hs

theorem touch_divStepF (dt : DType) (t p1 p2 i : Nat) (hh hh1 : Heap F)
    (hs : divStepF dt t p1 p2 i hh = some hh1) : Touch t hh hh1 := by
  simp only [divStepF, Option.bind_eq_bind, Option.bind_eq_some] at hs
  repeat (obtain ⟨_, _, hs⟩ := hs)
  exact touch_wrF hs

theorem touch_divStepI (L : Libm F) (dt : DType) (t p1 p2 i : Nat)
    (hh hh1 : Heap F) (hs : divStepI L dt t p1 p2 i hh = some hh1) : Touch t hh hh1 := by
  simp only [divStepI, Option.bind_eq_bind, Option.bind_eq_some] at hs
  repeat (obtain ⟨_, _, hs⟩ := hs)
  exact touch_wrI hs

theorem touch_matmulStepF (dt : DType) (t p1 p2 : Nat) (n l : Int) (i j k : Nat)
    (hh hh1 : Heap F) (hs : matmulStepF dt t p1 p2 n l i j k hh = some hh1) :
    Touch t hh hh1 := by
  simp only [matmulStepF, Option.bind_eq_bind, Option.bind_eq_some] at hs
  repeat (obtain ⟨_, _, hs⟩ := hs)
  exact touch_wrF hs

theorem touch_matmulStepI (dt : DType) (t p1 p2 : Nat) (n l : Int) (i j k : Nat)
    (hh hh1 : Heap F) (hs : matmulStepI dt t p1 p2 n l i j k hh = some hh1) :
    Touch t hh hh1 := by
  simp only [matmulStepI, Option.bind_eq_bind, Option.bind_eq_some] at hs
  repeat (obtain ⟨_, _, hs⟩ := hs)
  exact touch_wrI hs

theorem touch_matmulLoops {t : Nat} (step : Nat → Nat → Nat → Heap F → Option (Heap F))
    (hb : ∀ i j k s s1, step i j k s = some s1 → Touch t s s1) (m n l : Int)
    {h h1 : Heap F} (hs : matmulLoops step m n l h = some h1) : Touch t h h1 :=
  touch_forLoop _ (fun i _ _ hi => touch_forLoop _ (fun j _ _ hj =>
    touch_forLoop _ (fun k _ _ hk => hb i j k _ _ hk) _ hj) _ hi) _ hs

theorem touch_reluStepF (dt : DType) (t p1 i : Nat) (hh hh1 : Heap F)
    (hs : reluStepF dt t p1 i hh = some hh1) : Touch t hh hh1 := by
  simp only [reluStepF, Option.bind_eq_bind, Option.bind_eq_some] at hs
  repeat (obtain ⟨_, _, hs⟩ := hs)
  exact touch_wrF hs

theorem touch_reluStepI (dt : DType) (t p1 i : Nat) (hh hh1 : Heap F)
    (hs : reluStepI dt t p1 i hh = some hh1) : Touch t hh hh1 := by
  simp only [reluStepI, Option.bind_eq_bind, Option.bind_eq_some] at hs
  repeat (obtain ⟨_, _, hs⟩ := hs)
  exact touch_wrI hs

theorem touch_powStepF (L : Libm F) (e : F) (dt : DType) (t p1 i : Nat) (hh hh1 : Heap F)
    (hs : powStepF L e dt t p1 i hh = some hh1) : Touch t hh hh1 := by
  simp only [powStepF, Option.bind_eq_bind, Option.bind_eq_some] at hs
  repeat (obtain ⟨_, _, hs⟩ := hs)
  exact touch_wrF hs

theorem touch_powStepI (L : Libm F) (cvt : F → Int) (e : F) (dt : DType) (t p1 i : Nat)
    (hh hh1 : Heap F) (hs : powStepI L cvt e dt t p1 i hh = some hh1) : Touch t hh hh1 := by
  simp only [powStepI, Option.bind_eq_bind, Option.bind_eq_some] at hs
  repeat (obtain ⟨_, _, hs⟩ := hs)
  exact touch_wrI hs

theorem touch_expStepF (L : Libm F) (dt : DType) (t p1 i : Nat) (hh hh1 : Heap F)
    (hs : expStepF L dt t p1 i hh = some hh1) : Touch t hh hh1 := by
  simp only [expStepF, Option.bind_eq_bind, Option.bind_eq_some] at hs
  repeat (obtain ⟨_, _, hs⟩ := hs)
  exact touch_wrF hs

theorem touch_expStepI (L : Libm F) (dt : DType) (t p1 i : Nat)
    (hh hh1 : Heap F) (hs : expStepI L dt t p1 i hh = some hh1) : Touch t hh hh1 := by
  simp only [expStepI, Option.bind_eq_bind, Option.bind_eq_some] at hs
  repeat (obtain ⟨_, _, hs⟩ := hs)
  exact touch_wrI hs

theorem touch_leakyStepF (s : F) (dt : DType) (t p1 i : Nat) (hh hh1 : Heap F)
    (hs : leakyStepF s dt t p1 i hh = some hh1) : Touch t hh hh1 := by
  simp only [leakyStepF, Option.bind_eq_bind, Option.bind_eq_some] at hs
  repeat (obtain ⟨_, _, hs⟩ := hs)
  exact touch_wrF hs

theorem touch_tanhStepF (L : Libm F) (dt : DType) (t p1 i : Nat) (hh hh1 : Heap F)
    (hs : tanhStepF L dt t p1 i hh = some hh1) : Touch t hh hh1 := by
  simp only [tanhStepF, Option.bind_eq_bind, Option.bind_eq_some] at hs
  repeat (obtain ⟨_, _, hs⟩ := hs)
  exact touch_wrF hs

theorem touch_tanhStepI (L : Libm F) (dt : DType) (t p1 i : Nat)
    (hh hh1 : Heap F) (hs : tanhStepI L dt t p1 i hh = some hh1) : Touch t hh hh1 := by
  simp only [tanhStepI, Option.bind_eq_bind, Option.bind_eq_some] at hs
  repeat (obtain ⟨_, _, hs⟩ := hs)
  exact touch_wrI hs

theorem touch_sigmoidStepI (L : Libm F) (dt : DType) (t p1 i : Nat)
    (hh hh1 : Heap F) (hs : sigmoidStepI L dt t p1 i hh = some hh1) : Touch t hh hh1 := by
  simp only [sigmoidStepI, Option.bind_eq_bind, Option.bind_eq_some] at hs
  repeat (obtain ⟨_, _, hs⟩ := hs)
  exact touch_wrI hs

theorem touch_sigmoidStepF (L : Libm F) (dt : DType) (t p1 i : Nat) (hh hh1 : Heap F)
    (hs : sigmoidStepF L dt t p1 i hh = some hh1) : Touch t hh hh1 := by
  simp only [sigmoidStepF, Option.bind_eq_bind, Option.bind_eq_some] at hs
  repeat (obtain ⟨_, _, hs⟩ := hs)
  exact touch_wrF hs

theorem touch_sumStepF (dt : DType) (t p1 i : Nat) (hh hh1 : Heap F)
    (hs : sumStepF dt t p1 i hh = some hh1) : Touch t hh hh1 := by
  simp only [sumStepF, Option.bind_eq_bind, Option.bind_eq_some] at hs
  repeat (obtain ⟨_, _, hs⟩ := hs)
  exact touch_wrF hs

theorem touch_sumStepI (dt : DType) (t p1 i : Nat) (hh hh1 : Heap F)
    (hs : sumStepI dt t p1 i hh = some hh1) : Touch t hh hh1 := by
  simp only [sumStepI, Option.bind_eq_bind, Option.bind_eq_some] at hs
  repeat (obtain ⟨_, _, hs⟩ := hs)
  exact touch_wrI hs

theorem touch_meanF (dt : DType) (t p1 : Nat) (size : Int) {h h1 : Heap F}
    (hs : meanF dt t p1 size h = some h1) : Touch t h h1 := by
  simp only [meanF, Option.bind_eq_bind, Option.bind_eq_some] at hs
  obtain ⟨h2, hl, _, _, hw⟩ := hs
  exact (touch_forLoop _ (touch_sumStepF dt t p1) _ hl).tTrans (touch_wrF hw)

theorem touch_mseStepF (L : Libm F) (dt : DType) (t pp pt i : Nat) (hh hh1 : Heap F)
    (hs : mseStepF L dt t pp pt i hh = some hh1) : Touch t hh hh1 := by
  simp only [mseStepF, Option.bind_eq_bind, Option.bind_eq_some] at hs
  repeat (obtain ⟨_, _, hs⟩ := hs)
  exact touch_wrF hs

theorem touch_mseF (L : Libm F) (dt : DType) (t pp pt : Nat) (size : Int) {h h1 : Heap F}
    (hs : mseF L dt t pp pt size h = some h1) : Touch t h h1 := by
  simp only [mseF, Option.bind_eq_bind, Option.bind_eq_some] at hs
  obtain ⟨h2, hl, _, _, hw⟩ := hs
  exact (touch_forLoop _ (touch_mseStepF L dt t pp pt) _ hl).tTrans (touch_wrF hw)

theorem touch_softmaxF (L : Libm F) (dt : DType) (t p1 : Nat) (size : Int) {h h1 : Heap F}
    (hs : softmaxF L dt t p1 size h = some h1) : Touch t h h1 := by
  simp only [softmaxF, Option.bind_eq_bind, Option.bind_eq_some] at hs
  obtain ⟨_, _, _, _, exs, _, hl⟩ := hs
  refine touch_forLoop _ (fun i s s1 hi => ?_) _ hl
  simp only [Option.bind_eq_some] at hi
  obtain ⟨_, _, hw⟩ := hi
  exact touch_wrF hw

/-! ## The steps of a forward operation that returns a result -/

theorem add_steps {h h1 : Heap F} {a b t : Nat}
    (hs : add h (some a) (some b) = some (h1, some t)) :
    ∃ ta tb h2, h.deref a = some ta ∧ h.deref b = some tb ∧ ta.dtype = tb.dtype ∧
      ta.ndim = tb.ndim ∧ dimsDiffer ta.dims tb.dims ta.ndim = some false ∧
      Made h ta.dtype ta.dims ta.ndim
        (condBool (lnot ta.requires_grad || lnot tb.requires_grad)) t h2 ∧
      link2 h2 t .ADD a b = some h1 := by
  simp only [add, Option.bind_eq_bind, Option.bind_eq_some] at hs
  obtain ⟨ta, ha, tb, hb, hs⟩ := hs
  split at hs
  · simp at hs
  · rename_i hnd
    simp only [Option.bind_eq_some] at hs
    obtain ⟨df, hdf, hs⟩ := hs
    split at hs
    · simp at hs
    · rename_i hdf'
      push_neg at hnd
      have hdf2 : df = false := by simpa using hdf'
      subst hdf2
      simp only [Option.bind_eq_some] at hs
      obtain ⟨r, hr, t', ht', h2, hl, h3, hk, hs⟩ := hs
      simp only [Option.some.injEq, Prod.mk.injEq] at hs
      obtain ⟨rfl, rfl⟩ := hs
      have hT : Touch t' r.1 h2 := by
        split at hl
        · exact touch_forLoop _ (touch_binStepF _ _ _ _ _) _ hl
        · exact touch_forLoop _ (touch_binStepF _ _ _ _ _) _ hl
        · exact touch_forLoop _ (touch_binStepI _ _ _ _ _) _ hl
        · exact touch_forLoop _ (touch_binStepI _ _ _ _ _) _ hl
      exact ⟨ta, tb, h2, ha, hb, hnd.2, hnd.1, hdf, ⟨r, hr, ht', hT⟩, hk⟩

theorem sub_steps {h h1 : Heap F} {a b t : Nat}
    (hs : sub h (some a) (some b) = some (h1, some t)) :
    ∃ ta tb h2, h.deref a = some ta ∧ h.deref b = some tb ∧ ta.dtype = tb.dtype ∧
      ta.ndim = tb.ndim ∧ dimsDiffer ta.dims tb.dims ta.ndim = some false ∧
      Made h ta.dtype ta.dims ta.ndim
        (condBool (lnot ta.requires_grad || lnot tb.requires_grad)) t h2 ∧
      link2 h2 t .SUB a b = some h1 := by
  simp only [sub, Option.bind_eq_bind, Option.bind_eq_some] at hs
  obtain ⟨ta, ha, tb, hb, hs⟩ := hs
  split at hs
  · simp at hs
  · rename_i hnd
    simp only [Option.bind_eq_some] at hs
    obtain ⟨df, hdf, hs⟩ := hs
    split at hs
    · simp at hs
    · rename_i hdf'
      push_neg at hnd
      have hdf2 : df = false := by simpa using hdf'
      subst hdf2
      simp only [Option.bind_eq_some] at hs
      obtain ⟨r, hr, t', ht', hs⟩ := hs
      have fin : ∀ h2 h3, Touch t' r.1 h2 → link2 h2 t' .SUB a b = some h3 → t' = t →
          h3 = h1 →
          ∃ ta tb h2, h.deref a = some ta ∧ h.deref b = some tb ∧ ta.dtype = tb.dtype ∧
            ta.ndim = tb.ndim ∧ dimsDiffer ta.dims tb.dims ta.ndim = some false ∧
            Made h ta.dtype ta.dims ta.ndim
              (condBool (lnot ta.requires_grad || lnot tb.requires_grad)) t h2 ∧
            link2 h2 t .SUB a b = some h1 := by
        intro h2 h3 hT hk e1 e2
        subst e1; subst e2
        exact ⟨ta, tb, h2, ha, hb, hnd.2, hnd.1, hdf, ⟨r, hr, ht', hT⟩, hk⟩
      split at hs
      · simp only [Option.bind_eq_some] at hs
        obtain ⟨h2, hl, h3, hk, hs⟩ := hs
        simp only [Option.some.injEq, Prod.mk.injEq] at hs
        exact fin h2 h3 (touch_forLoop _ (touch_subStepF32 _ _ _) _ hl) hk hs.2 hs.1
      · simp only [Option.bind_eq_some] at hs
        obtain ⟨h2, hl, h3, hk, hs⟩ := hs
        simp only [Option.some.injEq, Prod.mk.injEq] at hs
        exact fin h2 h3 (touch_forLoop _ (touch_binStepF _ _ _ _ _) _ hl) hk hs.2 hs.1
      · simp only [Option.bind_eq_some] at hs
        obtain ⟨h2, hl, h3, hk, hs⟩ := hs
        simp only [Option.some.injEq, Prod.mk.injEq] at hs
        exact fin h2 h3 (touch_forLoop _ (touch_binStepI _ _ _ _ _) _ hl) hk hs.2 hs.1
      · simp only [Option.bind_eq_some] at hs
        obtain ⟨h2, hl, h3, hk, hs⟩ := hs
        simp at hs

theorem mul_steps {h h1 : Heap F} {a b t : Nat}
    (hs : mul h (some a) (some b) = some (h1, some t)) :
    ∃ ta tb h2, h.deref a = some ta ∧ h.deref b = some tb ∧ ta.dtype = tb.dtype ∧
      ta.ndim = tb.ndim ∧ dimsDiffer ta.dims tb.dims ta.ndim = some false ∧
      Made h ta.dtype ta.dims ta.ndim
        (condBool (lnot ta.requires_grad || lnot tb.requires_grad)) t h2 ∧
      link2 h2 t .MUL a b = some h1 := by
  simp only [mul, Option.bind_eq_bind, Option.bind_eq_some] at hs
  obtain ⟨ta, ha, tb, hb, hs⟩ := hs
  split at hs
  · simp at hs
  · rename_i hnd
    simp only [Option.bind_eq_some] at hs
    obtain ⟨df, hdf, hs⟩ := hs
    split at hs
    · simp at hs
    · rename_i hdf'
      push_neg at hnd
      have hdf2 : df = false := by simpa using hdf'
      subst hdf2
      simp only [Option.bind_eq_some] at hs
      obtain ⟨r, hr, t', ht', hs⟩ := hs
      have fin : ∀ h2 h3, Touch t' r.1 h2 → link2 h2 t' .MUL a b = some h3 → t' = t →
          h3 = h1 →
          ∃ ta tb h2, h.deref a = some ta ∧ h.deref b = some tb ∧ ta.dtype = tb.dtype ∧
            ta.ndim = tb.ndim ∧ dimsDiffer ta.dims tb.dims ta.ndim = some false ∧
            Made h ta.dtype ta.dims ta.ndim
              (condBool (lnot ta.requires_grad || lnot tb.requires_grad)) t h2 ∧
            link2 h2 t .MUL a b = some h1 := by
        intro h2 h3 hT hk e1 e2
        subst e1; subst e2
        exact ⟨ta, tb, h2, ha, hb, hnd.2, hnd.1, hdf, ⟨r, hr, ht', hT⟩, hk⟩
      split at hs
      · simp only [Option.bind_eq_some] at hs
        obtain ⟨h2, hl, h3, hk, hs⟩ := hs
        simp only [Option.some.injEq, Prod.mk.injEq] at hs
        exact fin h2 h3 (touch_forLoop _ (touch_binStepF _ _ _ _ _) _ hl) hk hs.2 hs.1
      · simp only [Option.bind_eq_some] at hs
        obtain ⟨h2, hl, h3, hk, hs⟩ := hs
        simp only [Option.some.injEq, Prod.mk.injEq] at hs
        exact fin h2 h3 (touch_forLoop _ (touch_binStepF _ _ _ _ _) _ hl) hk hs.2 hs.1
      · simp only [Option.bind_eq_some] at hs
        obtain ⟨h2, hl, h3, hk, hs⟩ := hs
        simp only [Option.some.injEq, Prod.mk.injEq] at hs
        exact fin h2 h3 (touch_forLoop _ (touch_binStepI _ _ _ _ _) _ hl) hk hs.2 hs.1
      · simp only [Option.bind_eq_some] at hs
        obtain ⟨h2, hl, h3, hk, hs⟩ := hs
        simp at hs

theorem Div_steps (L : Libm F) {h h1 : Heap F} {a b t : Nat}
    (hs : Div L h (some a) (some b) = some (h1, some t)) :
    ∃ ta tb h2, h.deref a = some ta ∧ h.deref b = some tb ∧ ta.dtype = tb.dtype ∧
      ta.ndim = tb.ndim ∧ dimsDiffer ta.dims tb.dims ta.ndim = some false ∧
      Made h ta.dtype ta.dims ta.ndim
        (condBool (lnot ta.requires_grad || lnot tb.requires_grad)) t h2 ∧
      link2 h2 t .DIV a b = some h1 := by
  simp only [Div, Option.bind_eq_bind, Option.bind_eq_some] at hs
  obtain ⟨ta, ha, tb, hb, hs⟩ := hs
  split at hs
  · simp at hs
  · rename_i hnd
    simp only [Option.bind_eq_some] at hs
    obtain ⟨df, hdf, hs⟩ := hs
    split at hs
    · simp at hs
    · rename_i hdf'
      push_neg at hnd
      have hdf2 : df = false := by simpa using hdf'
      subst hdf2
      simp only [Option.bind_eq_some] at hs
      obtain ⟨r, hr, hs⟩ := hs
      split at hs
      · simp at hs
      · rename_i t' ht'
        simp only [Option.bind_eq_some] at hs
        obtain ⟨h2, hl, h3, hk, hs⟩ := hs
        simp only [Option.some.injEq, Prod.mk.injEq] at hs
        obtain ⟨rfl, rfl⟩ := hs
        have hT : Touch t' r.1 h2 := by
          split at hl
          · exact touch_forLoop _ (touch_divStepF _ _ _ _) _ hl
          · exact touch_forLoop _ (touch_divStepF _ _ _ _) _ hl
          · exact touch_forLoop _ (touch_divStepI L _ _ _ _) _ hl
          · exact touch_forLoop _ (touch_divStepI L _ _ _ _) _ hl
        exact ⟨ta, tb, h2, ha, hb, hnd.1, hnd.2, hdf, ⟨r, hr, ht', hT⟩, hk⟩

theorem matmul_steps {h h1 : Heap F} {a b t : Nat}
    (hs : matmul h (some a) (some b) = some (h1, some t)) :
    ∃ ta tb m n l h2, h.deref a = some ta ∧ h.deref b = some tb ∧ ta.dtype = tb.dtype ∧
      ta.dims[0]? = some m ∧ tb.dims[1]? = some n ∧ ta.dims[1]? = some l ∧
      tb.dims[0]? = some l ∧
      Made h ta.dtype [m, n] ta.ndim
        (condBool (lnot ta.requires_grad || lnot tb.requires_grad)) t h2 ∧
      link2 h2 t .MATMUL a b = some h1 := by
  simp only [matmul, Option.bind_eq_bind, Option.bind_eq_some] at hs
  obtain ⟨ta, ha, tb, hb, m, hm, n, hn, l, hl', b0, hb0, hs⟩ := hs
  split at hs
  · simp at hs
  · rename_i hnd
    push_neg at hnd
    simp only [Option.bind_eq_some] at hs
    obtain ⟨r, hr, hs⟩ := hs
    split at hs
    · simp at hs
    · rename_i t' ht'
      simp only [Option.bind_eq_some] at hs
      obtain ⟨h2, hl, h3, hk, hs⟩ := hs
      simp only [Option.some.injEq, Prod.mk.injEq] at hs
      obtain ⟨rfl, rfl⟩ := hs
      have hT : Touch t' r.1 h2 := by
        split at hl
        · exact touch_matmulLoops _ (touch_matmulStepF _ _ _ _ _ _) _ _ _ hl
        · exact touch_matmulLoops _ (touch_matmulStepF _ _ _ _ _ _) _ _ _ hl
        · exact touch_matmulLoops _ (touch_matmulStepI _ _ _ _ _ _) _ _ _ hl
        · exact touch_matmulLoops _ (touch_matmulStepI _ _ _ _ _ _) _ _ _ hl
      exact ⟨ta, tb, m, n, l, h2, ha, hb, hnd.2, hm, hn, hl', by rw [hb0, hnd.1],
        ⟨r, hr, ht', hT⟩, hk⟩

theorem MSELoss_steps (L : Libm F) {h h1 : Heap F} {yt yp t : Nat}
    (hs : MSELoss L h (some yt) (some yp) = some (h1, some t)) :
    ∃ ta tb h2, h.deref yt = some ta ∧ h.deref yp = some tb ∧ ta.dtype = tb.dtype ∧
      ta.ndim = tb.ndim ∧ dimsDiffer ta.dims tb.dims tb.ndim = some false ∧
      Made h tb.dtype [1] 1 (condBool (lnot tb.requires_grad)) t h2 ∧
      link2 h2 t .MSE yp yt = some h1 := by
  simp only [MSELoss, Option.bind_eq_bind, Option.bind_eq_some] at hs
  obtain ⟨ta, ha, tb, hb, hs⟩ := hs
  split at hs
  · simp at hs
  · rename_i hnd
    simp only [Option.bind_eq_some] at hs
    obtain ⟨df, hdf, hs⟩ := hs
    split at hs
    · simp at hs
    · rename_i hdf'
      push_neg at hnd
      have hdf2 : df = false := by simpa using hdf'
      subst hdf2
      simp only [Option.bind_eq_some] at hs
      obtain ⟨r, hr, hs⟩ := hs
      split at hs
      · simp at hs
      · rename_i t' ht'
        have fin : ∀ h2 h3, Touch t' r.1 h2 → link2 h2 t' .MSE yp yt = some h3 → t' = t →
            h3 = h1 →
            ∃ ta tb h2, h.deref yt = some ta ∧ h.deref yp = some tb ∧ ta.dtype = tb.dtype ∧
              ta.ndim = tb.ndim ∧ dimsDiffer ta.dims tb.dims tb.ndim = some false ∧
              Made h tb.dtype [1] 1 (condBool (lnot tb.requires_grad)) t h2 ∧
              link2 h2 t .MSE yp yt = some h1 := by
          intro h2 h3 hT hk e1 e2
          subst e1; subst e2
          exact ⟨ta, tb, h2, ha, hb, hnd.2.symm, hnd.1, hdf, ⟨r, hr, ht', hT⟩, hk⟩
        split at hs
        · simp only [Option.bind_eq_some] at hs
          obtain ⟨h2, hl, h3, hk, hs⟩ := hs
          simp only [Option.some.injEq, Prod.mk.injEq] at hs
          exact fin h2 h3 (touch_mseF _ _ _ _ _ _ hl) hk hs.2 hs.1
        · simp only [Option.bind_eq_some] at hs
          obtain ⟨h2, hl, h3, hk, hs⟩ := hs
          simp only [Option.some.injEq, Prod.mk.injEq] at hs
          exact fin h2 h3 (touch_mseF _ _ _ _ _ _ hl) hk hs.2 hs.1
        · simp only [Option.bind_eq_some] at hs
          obtain ⟨h2, hl, hs⟩ := hs
          simp at hs

/-! ## The steps of a one-operand forward operation -/

theorem linked1_link1 {h h1 : Heap F} {t : Nat} {op : Op} {p1 : Nat}
    (hl : link1 h t op p1 = some h1) : Linked1 t op p1 h h1 := touch_link1 hl

theorem linked1_link1x {h h1 : Heap F} {t : Nat} {op : Op} {p1 : Nat} {v : F}
    (hl : link1x h t op p1 v = some h1) : Linked1 t op p1 h h1 := touch_link1x hl

theorem linked1_linkSum {h h1 : Heap F} {t : Nat} {p1 : Nat}
    (hl : linkSum h t p1 = some h1) : Linked1 t .SUM p1 h h1 := touch_linkSum hl

theorem unaryForward_steps
    (stepF stepI : DType → Nat → Nat → Nat → Heap F → Option (Heap F))
    (close : Heap F → Nat → Nat → Option (Heap F)) (op : Op)
    (hF : ∀ dt t p i s s1, stepF dt t p i s = some s1 → Touch t s s1)
    (hI : ∀ dt t p i s s1, stepI dt t p i s = some s1 → Touch t s s1)
    (hC : ∀ s t p s1, close s t p = some s1 → Linked1 t op p s s1)
    {h h1 : Heap F} {a t : Nat}
    (hs : unaryForward stepF stepI close h (some a) = some (h1, some t)) :
    ∃ ta h2, h.deref a = some ta ∧
      Made h ta.dtype ta.dims ta.ndim (condBool (lnot ta.requires_grad)) t h2 ∧
      Linked1 t op a h2 h1 := by
  simp only [unaryForward, Option.bind_eq_bind, Option.bind_eq_some] at hs
  obtain ⟨ta, ha, r, hr, hs⟩ := hs
  split at hs
  · simp at hs
  · rename_i t' ht'
    simp only [Option.bind_eq_some] at hs
    obtain ⟨h2, hl, h3, hk, hs⟩ := hs
    simp only [Option.some.injEq, Prod.mk.injEq] at hs
    obtain ⟨rfl, rfl⟩ := hs
    have hT : Touch t' r.1 h2 := by
      split at hl
      · exact touch_forLoop _ (hF _ _ _) _ hl
      · exact touch_forLoop _ (hF _ _ _) _ hl
      · exact touch_forLoop _ (hI _ _ _) _ hl
      · exact touch_forLoop _ (hI _ _ _) _ hl
    exact ⟨ta, h2, ha, ⟨r, hr, ht', hT⟩, hC _ _ _ _ hk⟩

theorem Pow_steps (L : Libm F) (cvt : F → Int) (e : F) {h h1 : Heap F} {a t : Nat}
    (hs : Pow L cvt h (some a) e = some (h1, some t)) :
    ∃ ta h2, h.deref a = some ta ∧
      Made h ta.dtype ta.dims ta.ndim (condBool (lnot ta.requires_grad)) t h2 ∧
      Linked1 t .POW a h2 h1 :=
  unaryForward_steps _ _ _ .POW (touch_powStepF L e) (touch_powStepI L cvt e)
    (fun _ _ _ _ hk => linked1_link1x hk) hs

theorem Exp_steps (L : Libm F) {h h1 : Heap F} {a t : Nat}
    (hs : Exp L h (some a) = some (h1, some t)) :
    ∃ ta h2, h.deref a = some ta ∧
      Made h ta.dtype ta.dims ta.ndim (condBool (lnot ta.requires_grad)) t h2 ∧
      Linked1 t .EXP a h2 h1 :=
  unaryForward_steps _ _ _ .EXP (touch_expStepF L) (touch_expStepI L)
    (fun _ _ _ _ hk => linked1_link1 hk) hs

theorem Tanh_steps (L : Libm F) {h h1 : Heap F} {a t : Nat}
    (hs : Tanh L h (some a) = some (h1, some t)) :
    ∃ ta h2, h.deref a = some ta ∧
      Made h ta.dtype ta.dims ta.ndim (condBool (lnot ta.requires_grad)) t h2 ∧
      Linked1 t .TANH a h2 h1 :=
  unaryForward_steps _ _ _ .TANH (touch_tanhStepF L) (touch_tanhStepI L)
    (fun _ _ _ _ hk => linked1_link1 hk) hs

theorem Sigmoid_steps (L : Libm F) {h h1 : Heap F} {a t : Nat}
    (hs : Sigmoid L h (some a) = some (h1, some t)) :
    ∃ ta h2, h.deref a = some ta ∧
      Made h ta.dtype ta.dims ta.ndim (condBool (lnot ta.requires_grad)) t h2 ∧
      Linked1 t .SIGMOID a h2 h1 :=
  unaryForward_steps _ _ _ .SIGMOID (touch_sigmoidStepF L) (touch_sigmoidStepI L)
    (fun _ _ _ _ hk => linked1_link1 hk) hs

theorem relu_steps {h h1 : Heap F} {a t : Nat}
    (hs : relu h (some a) = some (h1, some t)) :
    ∃ ta h2, h.deref a = some ta ∧
      Made h ta.dtype ta.dims ta.ndim (condBool (lnot ta.requires_grad)) t h2 ∧
      Linked1 t .RELU a h2 h1 := by
  simp only [relu, Option.bind_eq_bind, Option.bind_eq_some] at hs
  obtain ⟨ta, ha, r, hr, hs⟩ := hs
  split at hs
  · simp at hs
  · rename_i t' ht'
    simp only [Option.bind_eq_some] at hs
    obtain ⟨h2, hl, h3, hk, hs⟩ := hs
    simp only [Option.some.injEq, Prod.mk.injEq] at hs
    obtain ⟨rfl, rfl⟩ := hs
    have hT : Touch t' r.1 h2 := by
      split at hl
      · exact touch_forLoop _ (touch_reluStepF _ _ _) _ hl
      · exact touch_forLoop _ (touch_reluStepF _ _ _) _ hl
      · exact touch_forLoop _ (touch_reluStepI _ _ _) _ hl
      · exact touch_forLoop _ (touch_reluStepI _ _ _) _ hl
    exact ⟨ta, h2, ha, ⟨r, hr, ht', hT⟩, linked1_link1 hk⟩

/-- The steps of a one-operand operation that rejects the integer types. -/
theorem floatOnly_steps {h h1 : Heap F} {a t : Nat} {ta : Tensor F} {ds : List Int}
    {ndim : Int} {r : Heap F × Option Nat} {t' : Nat} (op : Op)
    (hr : tensor h none ta.dtype (some ds) ndim (condBool (lnot ta.requires_grad)) = some r)
    (ht' : r.2 = some t')
    (body : DType → Heap F → Option (Heap F)) (close : Heap F → Option (Heap F))
    (hB : ∀ dt s s1, body dt s = some s1 → Touch t' s s1)
    (hC : ∀ s s1, close s = some s1 → Linked1 t' op a s s1)
    (hs : (match ta.dtype with
      | .FLOAT32 => (body .FLOAT32 r.1).bind fun h2 => (close h2).bind fun h3 =>
          some (h3, some t')
      | .FLOAT64 => (body .FLOAT64 r.1).bind fun h2 => (close h2).bind fun h3 =>
          some (h3, some t')
      | _ => (t_free r.1 (some t')).bind fun h2 => some (h2, none)) = some (h1, some t)) :
    ∃ h2, Made h ta.dtype ds ndim (condBool (lnot ta.requires_grad)) t h2 ∧
      Linked1 t op a h2 h1 := by
  have fin : ∀ h2 h3, Touch t' r.1 h2 → Linked1 t' op a h2 h3 → t' = t → h3 = h1 →
      ∃ h2, Made h ta.dtype ds ndim (condBool (lnot ta.requires_grad)) t h2 ∧
        Linked1 t op a h2 h1 := by
    intro h2 h3 hT hk e1 e2
    subst e1; subst e2
    exact ⟨h2, ⟨r, hr, ht', hT⟩, hk⟩
  split at hs
  · simp only [Option.bind_eq_some] at hs
    obtain ⟨h2, hl, h3, hk, hs⟩ := hs
    simp only [Option.some.injEq, Prod.mk.injEq] at hs
    exact fin h2 h3 (hB _ _ _ hl) (hC _ _ hk) hs.2 hs.1
  · simp only [Option.bind_eq_some] at hs
    obtain ⟨h2, hl, h3, hk, hs⟩ := hs
    simp only [Option.some.injEq, Prod.mk.injEq] at hs
    exact fin h2 h3 (hB _ _ _ hl) (hC _ _ hk) hs.2 hs.1
  · simp only [Option.bind_eq_some] at hs
    obtain ⟨h2, hl, hs⟩ := hs
    simp at hs

theorem leaky_relu_steps (s : F) {h h1 : Heap F} {a t : Nat}
    (hs : leaky_relu s h (some a) = some (h1, some t)) :
    ∃ ta h2, h.deref a = some ta ∧
      Made h ta.dtype ta.dims ta.ndim (condBool (lnot ta.requires_grad)) t h2 ∧
      Linked1 t .LEAKY_RELU a h2 h1 := by
  simp only [leaky_relu, Option.bind_eq_bind, Option.bind_eq_some] at hs
  obtain ⟨ta, ha, r, hr, hs⟩ := hs
  split at hs
  · simp at hs
  · rename_i t' ht'
    obtain ⟨h2, m, l⟩ := floatOnly_steps .LEAKY_RELU hr ht'
      (fun dt => forLoop ta.size (leakyStepF s dt t' a))
      (fun h2 => link1x h2 t' .LEAKY_RELU a s)
      (fun dt _ _ hl => touch_forLoop _ (touch_leakyStepF s dt t' a) _ hl)
      (fun _ _ hk => linked1_link1x hk) hs
    exact ⟨ta, h2, ha, m, l⟩

theorem softmax_steps (L : Libm F) {h h1 : Heap F} {a t : Nat}
    (hs : softmax L h (some a) = some (h1, some t)) :
    ∃ ta h2, h.deref a = some ta ∧
      Made h ta.dtype ta.dims ta.ndim (condBool (lnot ta.requires_grad)) t h2 ∧
      Linked1 t .SOFTMAX a h2 h1 := by
  simp only [softmax, Option.bind_eq_bind, Option.bind_eq_some] at hs
  obtain ⟨ta, ha, r, hr, hs⟩ := hs
  split at hs
  · simp at hs
  · rename_i t' ht'
    obtain ⟨h2, m, l⟩ := floatOnly_steps .SOFTMAX hr ht'
      (fun dt => softmaxF L dt t' a ta.size)
      (fun h2 => link1 h2 t' .SOFTMAX a)
      (fun dt _ _ hl => touch_softmaxF L dt t' a ta.size hl)
      (fun _ _ hk => linked1_link1 hk) hs
    exact ⟨ta, h2, ha, m, l⟩

theorem mean_steps {h h1 : Heap F} {a t : Nat}
    (hs : mean h (some a) = some (h1, some t)) :
    ∃ ta h2, h.deref a = some ta ∧
      Made h ta.dtype [1] 1 (condBool (lnot ta.requires_grad)) t h2 ∧
      Linked1 t .MEAN a h2 h1 := by
  simp only [mean, Option.bind_eq_bind, Option.bind_eq_some] at hs
  obtain ⟨ta, ha, r, hr, hs⟩ := hs
  split at hs
  · simp at hs
  · rename_i t' ht'
    obtain ⟨h2, m, l⟩ := floatOnly_steps .MEAN hr ht'
      (fun dt => meanF dt t' a ta.size)
      (fun h2 => link1 h2 t' .MEAN a)
      (fun dt _ _ hl => touch_meanF dt t' a ta.size hl)
      (fun _ _ hk => linked1_link1 hk) hs
    exact ⟨ta, h2, ha, m, l⟩

theorem sum_steps {h h1 : Heap F} {a t : Nat}
    (hs : sum h (some a) = some (h1, some t)) :
    ∃ ta h2, h.deref a = some ta ∧
      Made h ta.dtype [1] 1 (condBool (lnot ta.requires_grad)) t h2 ∧
      Linked1 t .SUM a h2 h1 := by
  simp only [sum, Option.bind_eq_bind, Option.bind_eq_some] at hs
  obtain ⟨ta, ha, r, hr, hs⟩ := hs
  split at hs
  · simp at hs
  · rename_i t' ht'
    have fin : ∀ h2 h3, Touch t' r.1 h2 → linkSum h2 t' a = some h3 → t' = t → h3 = h1 →
        ∃ ta h2, h.deref a = some ta ∧
          Made h ta.dtype [1] 1 (condBool (lnot ta.requires_grad)) t h2 ∧
          Linked1 t .SUM a h2 h1 := by
      intro h2 h3 hT hk e1 e2
      subst e1; subst e2
      exact ⟨ta, h2, ha, ⟨r, hr, ht', hT⟩, linked1_linkSum hk⟩
    split at hs
    · simp only [Option.bind_eq_some] at hs
      obtain ⟨h2, hl, h3, hk, hs⟩ := hs
      simp only [Option.some.injEq, Prod.mk.injEq] at hs
      exact fin h2 h3 (touch_forLoop _ (touch_sumStepF _ _ _) _ hl) hk hs.2 hs.1
    · simp only [Option.bind_eq_some] at hs
      obtain ⟨h2, hl, h3, hk, hs⟩ := hs
      simp only [Option.some.injEq, Prod.mk.injEq] at hs
      exact fin h2 h3 (touch_forLoop _ (touch_sumStepF _ _ _) _ hl) hk hs.2 hs.1
    · simp only [Option.bind_eq_some] at hs
      obtain ⟨h2, hl, h3, hk, hs⟩ := hs
      simp only [Option.some.injEq, Prod.mk.injEq] at hs
      exact fin h2 h3 (touch_forLoop _ (touch_sumStepI _ _ _) _ hl) hk hs.2 hs.1
    · simp only [Option.bind_eq_some] at hs
      obtain ⟨h2, hl, h3, hk, hs⟩ := hs
      simp at hs

/-! ## The node a forward operation leaves -/

theorem calloc_isOf (dt : DType) (n : Nat) : (Data.calloc dt n : Data F).isOf dt := by
  cases dt <;> exact trivial

theorem take_isOf {d : Data F} {dt : DType} (n : Nat) (hd : d.isOf dt) :
    (d.take n).isOf dt := by
  cases d <;> cases dt <;> first | exact hd | exact trivial

/-- The operand slots of the struct the constructor returns. -/
theorem tensor_slots {h h1 : Heap F} {data : Option (Data F)} {dt : DType}
    {dims : Option (List Int)} {ndim : Int} {rg : bool} {t : Nat}
    (ht : tensor h data dt dims ndim rg = some (h1, some t)) :
    ∃ tt, h1 = h ++ [some tt] ∧ tt.prevs = List.replicate MAX_PREVS none := by
  unfold tensor at ht
  cases dims with
  | none => simp at ht
  | some ds =>
    simp only at ht
    split at ht
    · simp at ht
    · simp only [Option.bind_eq_bind, Option.bind_eq_some] at ht
      obtain ⟨size, hsz, dims1, hcd, ht⟩ := ht
      split at ht
      · split at ht <;> simp at ht
      · simp only [Option.bind_eq_some] at ht
        obtain ⟨buf, hbuf, t1, ht1, ht⟩ := ht
        simp only [Option.some.injEq, Prod.mk.injEq] at ht
        obtain ⟨rfl, rfl⟩ := ht
        refine ⟨t1, rfl, ?_⟩
        cases hfl : dt.isFloat with
        | false =>
          simp only [hfl, Bool.false_eq_true, if_false, Option.some.injEq] at ht1
          subst ht1
          rfl
        | true =>
          simp only [hfl, if_true] at ht1
          obtain ⟨e1, _⟩ := grad_mem_init_some ht1
          rw [e1]

theorem built_member {data : Option (Data F)} {dt : DType} {ds : List Int} {ndim : Int}
    {rg : bool} {t : Tensor F} (b : Built data dt ds ndim rg t) : t.data.isOf dt := by
  cases data with
  | none => rw [b.data_null rfl]; exact calloc_isOf dt _
  | some src =>
    obtain ⟨hk, _, hd⟩ := b.data_copy src rfl
    rw [hd]
    exact take_isOf _ hk

theorem deref_append_ne (h : Heap F) (x : Tensor F) {q : Nat} (hq : q ≠ h.length) :
    Heap.deref (h ++ [some x]) q = h.deref q := by
  rcases Nat.lt_or_gt_of_ne hq with hlt | hgt
  · simp only [Heap.deref, List.getElem?_append_left hlt]
  · have h1 : (h ++ [some x])[q]? = none := by
      apply List.getElem?_eq_none
      simp only [List.length_append, List.length_singleton]
      omega
    have h2 : h[q]? = none := List.getElem?_eq_none (by omega)
    simp only [Heap.deref, h1, h2]

/-- The result after the element loops, before the closing assignments. -/
theorem made_touch {h h2 h1 : Heap F} {dt : DType} {ds : List Int} {nd : Int} {rg : bool}
    {t : Nat} (M : Made h dt ds nd rg t h2) (T : Touch t h2 h1) :
    t = h.length ∧ (∀ q y, h.deref q = some y → h1.deref q = some y) ∧
    (∀ q, q ≠ h.length → h1.deref q = h.deref q) ∧
    ∃ x2 x, h2.deref t = some x2 ∧ h1.deref t = some x ∧ WellBuilt x ∧ x.dtype = dt ∧
      x.dims = ds.take nd.toNat ∧ x.ndim = nd ∧ x.requires_grad = rg ∧ x.data.isOf dt ∧
      x2.prevs.length = MAX_PREVS ∧ x.prevs.length = MAX_PREVS := by
  obtain ⟨⟨r1, r2⟩, hr, ht, T0⟩ := M
  simp only at ht T0
  subst ht
  obtain ⟨ds', tt, hds, rfl, rfl, b⟩ := tensor_built hr
  cases hds
  obtain ⟨tt', e, hsl⟩ := tensor_slots hr
  have ett : tt' = tt := by
    have := List.append_cancel_left e
    simp only [List.cons.injEq, Option.some.injEq, and_true] at this
    exact this.symm
  subst ett
  have T1 := T0.tTrans T
  obtain ⟨x2, hx2, s2, l2, k2⟩ := T0.2 tt' (deref_append_new h tt')
  obtain ⟨x, hx, s, l, k⟩ := T1.2 tt' (deref_append_new h tt')
  refine ⟨rfl, fun q y hq => ?_, fun q hq => ?_, x2, x, hx2, hx, b.toWellBuilt.of_sameShape s,
    s.dtype_eq.trans b.dtype_eq, s.dims_eq.trans b.dims_eq, s.ndim_eq.trans b.ndim_eq,
    s.requires_grad_eq.trans b.requires_grad_eq, k dt (built_member b), ?_, ?_⟩
  · rw [T1.1 q (Nat.ne_of_lt (deref_eq_some_lt hq))]
    exact deref_append_left _ hq
  · rw [T1.1 q hq]
    exact deref_append_ne h tt' hq
  · rw [l2, hsl]; simp
  · rw [l, hsl]; simp

theorem made_linked1 {h h2 h1 : Heap F} {dt : DType} {ds : List Int} {nd : Int} {rg : bool}
    {t a : Nat} {op : Op} (M : Made h dt ds nd rg t h2) (K : Linked1 t op a h2 h1) :
    ∃ x, NodeAt h h1 t dt ds nd rg op x ∧ x.prevs[0]? = some (some a) := by
  obtain ⟨e, old, oth, x2, x, hx2, hx, w, hdt, hdm, hnd, hrg, hk, l2, l⟩ := made_touch M K.1
  obtain ⟨x', hx', hop, hpv⟩ := K.2 x2 hx2
  rw [hx] at hx'; cases hx'
  refine ⟨x, ⟨e, old, fun q hq => oth q (e ▸ hq), hx, w, hdt, hdm, hnd, hrg, hk, l, hop⟩,
    ?_⟩
  rw [hpv, List.getElem?_set_self (by rw [l2]; decide)]

theorem made_link2 {h h2 h1 : Heap F} {dt : DType} {ds : List Int} {nd : Int} {rg : bool}
    {t a b : Nat} {op : Op} (M : Made h dt ds nd rg t h2)
    (hk : link2 h2 t op a b = some h1) :
    ∃ x, NodeAt h h1 t dt ds nd rg op x ∧ x.prevs[0]? = some (some a) ∧
      x.prevs[1]? = some (some b) := by
  obtain ⟨T, K⟩ := touch_link2 hk
  obtain ⟨e, old, oth, x2, x, hx2, hx, w, hdt, hdm, hnd, hrg, hk, l2, l⟩ := made_touch M T
  obtain ⟨x', hx', hop, hpv⟩ := K x2 hx2
  rw [hx] at hx'; cases hx'
  refine ⟨x, ⟨e, old, fun q hq => oth q (e ▸ hq), hx, w, hdt, hdm, hnd, hrg, hk, l, hop⟩,
    ?_, ?_⟩
  · rw [hpv, List.getElem?_set_ne (by decide),
      List.getElem?_set_self (by rw [l2]; decide)]
  · rw [hpv, List.getElem?_set_self (by rw [List.length_set, l2]; decide)]

/-! ## Built heaps are sound -/

theorem same_of_old {h h1 : Heap F} (old : ∀ q y, h.deref q = some y → h1.deref q = some y) :
    Same h h1 :=
  fun q t hq => ⟨t, old q t hq, UpToGrad.uRefl t⟩

theorem isOf_float {d : Data F} {dt : DType} (hfl : dt.isFloat = true) (hd : d.isOf dt) :
    ∃ xs, d = Data.ofF dt xs ∧ xs.length = d.len := by
  cases dt <;> cases d <;> first | exact ⟨_, rfl, rfl⟩ | exact hd.elim | cases hfl

theorem rank2_dims {t : Tensor F} (s : Sound t) (h2 : t.ndim = 2) :
    ∃ r c : Nat, t.dims = [(r : Int), (c : Int)] := by
  have hl := s.built.dims_len
  rw [h2] at hl
  have hl2 : t.dims.length = 2 := by exact_mod_cast hl
  obtain ⟨a, b, hd⟩ := List.length_eq_two.mp hl2
  have ha := s.dims_nonneg a (by rw [hd]; simp)
  have hb := s.dims_nonneg b (by rw [hd]; simp)
  exact ⟨a.toNat, b.toNat, by rw [Int.toNat_of_nonneg ha, Int.toNat_of_nonneg hb, hd]⟩

theorem sound_wmat {t : Tensor F} (s : Sound t) {r c : Nat}
    (hd : t.dims = [(r : Int), (c : Int)]) : WMat t t.dtype r c := by
  have hsz : t.size = (r : Int) * (c : Int) := by
    rw [s.built.size_eq, hd]
    simp only [List.prod_cons, List.prod_nil, mul_one]
  obtain ⟨xs, hx, hl⟩ := isOf_float s.isFloat s.member
  have hlen : (t.data.len : Int) = t.size := s.built.len_eq
  refine ⟨rfl, hd, hsz, ⟨xs, hx, ?_⟩, fun hg => ?_⟩
  · have e : ((xs.length : Nat) : Int) = ((r * c : Nat) : Int) := by
      rw [hl, hlen, hsz, Nat.cast_mul]
    exact_mod_cast e
  · refine ⟨List.replicate t.size.toNat 0, ?_, ?_⟩
    · rw [s.built.grad_eq, if_pos ⟨s.isFloat, hg⟩]
    · rw [List.length_replicate, hsz, ← Nat.cast_mul, Int.toNat_ofNat]

theorem sound_wone {t : Tensor F} (s : Sound t) (hd : t.dims = [1]) : WOne t t.dtype := by
  have hsz : t.size = 1 := by
    rw [s.built.size_eq, hd]
    simp only [List.prod_cons, List.prod_nil, mul_one]
  refine ⟨rfl, fun hg => ⟨List.replicate t.size.toNat 0, ?_, ?_⟩⟩
  · rw [s.built.grad_eq, if_pos ⟨s.isFloat, hg⟩]
  · rw [List.length_replicate, hsz]
    rfl

theorem nodeAt_sound {h h1 : Heap F} {t : Nat} {dt : DType} {ds : List Int} {nd : Int}
    {rg : bool} {op : Op} {x : Tensor F} (N : NodeAt h h1 t dt ds nd rg op x)
    (hfl : dt.isFloat = true) (hnn : ∀ d ∈ ds, 0 ≤ d) : Sound x :=
  ⟨by rw [N.dtype_eq]; exact hfl, N.built, by rw [N.dtype_eq]; exact N.member,
    fun d hd => hnn d (List.mem_of_mem_take (by rw [← N.dims_eq]; exact hd)), N.slots⟩

theorem soundHeap_node {h h1 : Heap F} {t : Nat} {dt : DType} {ds : List Int} {nd : Int}
    {rg : bool} {op : Op} {x : Tensor F} (H : SoundHeap h)
    (N : NodeAt h h1 t dt ds nd rg op x) (sx : Sound x) (W : Wired (kindOf op) h1 t) :
    SoundHeap h1 := by
  intro o y hy
  by_cases e : o = t
  · subst e
    rw [N.alive] at hy; cases hy
    refine ⟨sx, fun op1 hop => ?_⟩
    rw [N.op_eq] at hop; cases hop
    exact W
  · rw [N.others o e] at hy
    obtain ⟨sy, wy⟩ := H o y hy
    exact ⟨sy, fun op1 hop => wired_same (same_of_old N.old) (wy op1 hop)⟩

theorem same_dims {ta tb : Tensor F} (sa : Sound ta) (sb : Sound tb) {nd : Int}
    (ha : ta.ndim = nd) (hb : tb.ndim = nd)
    (hdf : dimsDiffer ta.dims tb.dims nd = some false) : tb.dims = ta.dims := by
  rw [dimsDiffer_eq ta.dims tb.dims nd (sa.built.dims_len.trans ha)
    (sb.built.dims_len.trans hb)] at hdf
  simp only [Option.some.injEq, decide_eq_false_iff_not, ne_eq, not_not] at hdf
  exact hdf.symm

theorem take_two (r c : Int) : [r, c].take (2 : Int).toNat = [r, c] := rfl

theorem take_one (r : Int) : [r].take (1 : Int).toNat = [r] := rfl

/-- The node of an element-wise two-operand operation. -/
theorem binary_node {h h1 h2 : Heap F} {a b t : Nat} {op : Op} {ta tb : Tensor F}
    (H : SoundHeap h) (ha : h.deref a = some ta) (hb : h.deref b = some tb)
    (ra : ta.ndim = 2) (hdt : ta.dtype = tb.dtype) (hnd : ta.ndim = tb.ndim)
    (hdf : dimsDiffer ta.dims tb.dims ta.ndim = some false)
    (M : Made h ta.dtype ta.dims ta.ndim
      (condBool (lnot ta.requires_grad || lnot tb.requires_grad)) t h2)
    (hk : link2 h2 t op a b = some h1) (hkind : kindOf op = .binary) : SoundHeap h1 := by
  obtain ⟨sa, _⟩ := H a ta ha
  obtain ⟨sb, _⟩ := H b tb hb
  obtain ⟨r, c, hda⟩ := rank2_dims sa ra
  have hdb : tb.dims = [(r : Int), (c : Int)] := (same_dims sa sb rfl hnd.symm hdf).trans hda
  obtain ⟨x, N, p0, p1⟩ := made_link2 M hk
  have sx : Sound x := nodeAt_sound N sa.isFloat sa.dims_nonneg
  have hxd : x.dims = [(r : Int), (c : Int)] := by rw [N.dims_eq, hda, ra, take_two]
  refine soundHeap_node H N sx ?_
  rw [hkind]
  have wx := sound_wmat sx hxd
  rw [N.dtype_eq] at wx
  have wb := sound_wmat sb hdb
  rw [← hdt] at wb
  exact ⟨x, ta, tb, a, b, ta.dtype, r, c, sa.isFloat, N.alive, p0, p1, N.old a ta ha,
    N.old b tb hb, wx, sound_wmat sa hda, wb, N.flag_eq⟩

/-- The node of `matmul`. -/
theorem matmul_node {h h1 h2 : Heap F} {a b t : Nat} {ta tb : Tensor F} {m n l : Int}
    (H : SoundHeap h) (ha : h.deref a = some ta) (hb : h.deref b = some tb)
    (ra : ta.ndim = 2) (rb : tb.ndim = 2) (hdt : ta.dtype = tb.dtype)
    (hm : ta.dims[0]? = some m) (hn : tb.dims[1]? = some n) (hl : ta.dims[1]? = some l)
    (hl2 : tb.dims[0]? = some l)
    (M : Made h ta.dtype [m, n] ta.ndim
      (condBool (lnot ta.requires_grad || lnot tb.requires_grad)) t h2)
    (hk : link2 h2 t .MATMUL a b = some h1) : SoundHeap h1 := by
  obtain ⟨sa, _⟩ := H a ta ha
  obtain ⟨sb, _⟩ := H b tb hb
  obtain ⟨r, c, hda⟩ := rank2_dims sa ra
  obtain ⟨r2, c2, hdb⟩ := rank2_dims sb rb
  rw [hda] at hm hl
  rw [hdb] at hn hl2
  simp only [List.getElem?_cons_zero, List.getElem?_cons_succ, Option.some.injEq] at hm hn hl hl2
  subst hm; subst hn; subst hl
  have e : r2 = c := by exact_mod_cast hl2
  subst e
  obtain ⟨x, N, p0, p1⟩ := made_link2 M hk
  have sx : Sound x := nodeAt_sound N sa.isFloat (by
    intro d hd
    simp only [List.mem_cons, List.mem_singleton, List.not_mem_nil, or_false] at hd
    rcases hd with rfl | rfl <;> exact Int.natCast_nonneg _)
  have hxd : x.dims = [(r : Int), (c2 : Int)] := by rw [N.dims_eq, ra, take_two]
  refine soundHeap_node H N sx ?_
  have wx := sound_wmat sx hxd
  rw [N.dtype_eq] at wx
  have wb := sound_wmat sb hdb
  rw [← hdt] at wb
  exact ⟨x, ta, tb, a, b, ta.dtype, r, r2, c2, sa.isFloat, N.alive, p0, p1, N.old a ta ha,
    N.old b tb hb, wx, sound_wmat sa hda, wb, N.flag_eq⟩

/-- The node of `MSELoss(yTrue, yPred)`. -/
theorem mse_node {h h1 h2 : Heap F} {yt yp t : Nat} {ta tb : Tensor F}
    (H : SoundHeap h) (ha : h.deref yt = some ta) (hb : h.deref yp = some tb)
    (rb : tb.ndim = 2) (hdt : ta.dtype = tb.dtype) (hnd : ta.ndim = tb.ndim)
    (hdf : dimsDiffer ta.dims tb.dims tb.ndim = some false)
    (M : Made h tb.dtype [1] 1 (condBool (lnot tb.requires_grad)) t h2)
    (hk : link2 h2 t .MSE yp yt = some h1) : SoundHeap h1 := by
  obtain ⟨sa, _⟩ := H yt ta ha
  obtain ⟨sb, _⟩ := H yp tb hb
  obtain ⟨r, c, hdb⟩ := rank2_dims sb rb
  have hda : ta.dims = [(r : Int), (c : Int)] := by
    have e := same_dims sa sb hnd rfl hdf
    rw [← e]; exact hdb
  obtain ⟨x, N, p0, p1⟩ := made_link2 M hk
  have sx : Sound x := nodeAt_sound N sb.isFloat (by
    intro d hd
    simp only [List.mem_singleton] at hd
    subst hd
    exact Int.one_nonneg)
  have hxd : x.dims = [1] := by rw [N.dims_eq, take_one]
  refine soundHeap_node H N sx ?_
  have wx := sound_wone sx hxd
  rw [N.dtype_eq] at wx
  have wa := sound_wmat sa hda
  rw [hdt] at wa
  exact ⟨x, tb, ta, yp, yt, tb.dtype, r, c, sb.isFloat, N.alive, p0, p1, N.old yp tb hb,
    N.old yt ta ha, wx, sound_wmat sb hdb, wa, N.flag_eq⟩

/-- The node of an element-wise one-operand operation. -/
theorem unary_node {h h1 h2 : Heap F} {a t : Nat} {op : Op} {ta : Tensor F}
    (H : SoundHeap h) (ha : h.deref a = some ta) (ra : ta.ndim = 2)
    (M : Made h ta.dtype ta.dims ta.ndim (condBool (lnot ta.requires_grad)) t h2)
    (K : Linked1 t op a h2 h1) (hkind : kindOf op = .unary) : SoundHeap h1 := by
  obtain ⟨sa, _⟩ := H a ta ha
  obtain ⟨r, c, hda⟩ := rank2_dims sa ra
  obtain ⟨x, N, p0⟩ := made_linked1 M K
  have sx : Sound x := nodeAt_sound N sa.isFloat sa.dims_nonneg
  have hxd : x.dims = [(r : Int), (c : Int)] := by rw [N.dims_eq, hda, ra, take_two]
  refine soundHeap_node H N sx ?_
  rw [hkind]
  have wx := sound_wmat sx hxd
  rw [N.dtype_eq] at wx
  exact ⟨x, ta, a, ta.dtype, r, c, sa.isFloat, N.alive, p0, N.old a ta ha, wx,
    sound_wmat sa hda, N.flag_eq⟩

/-- The node of a reduction. -/
theorem reduce_node {h h1 h2 : Heap F} {a t : Nat} {op : Op} {ta : Tensor F}
    (H : SoundHeap h) (ha : h.deref a = some ta) (ra : ta.ndim = 2)
    (M : Made h ta.dtype [1] 1 (condBool (lnot ta.requires_grad)) t h2)
    (K : Linked1 t op a h2 h1) (hkind : kindOf op = .reduce) : SoundHeap h1 := by
  obtain ⟨sa, _⟩ := H a ta ha
  obtain ⟨r, c, hda⟩ := rank2_dims sa ra
  obtain ⟨x, N, p0⟩ := made_linked1 M K
  have sx : Sound x := nodeAt_sound N sa.isFloat (by
    intro d hd
    simp only [List.mem_singleton] at hd
    subst hd
    exact Int.one_nonneg)
  have hxd : x.dims = [1] := by rw [N.dims_eq, take_one]
  refine soundHeap_node H N sx ?_
  rw [hkind]
  have wx := sound_wone sx hxd
  rw [N.dtype_eq] at wx
  exact ⟨x, ta, a, ta.dtype, r, c, sa.isFloat, N.alive, p0, N.old a ta ha, wx,
    sound_wmat sa hda, N.flag_eq⟩

/-! ## Every node of a built heap is wired -/

theorem soundHeap_leaf {h h1 : Heap F} {data : Option (Data F)} {dt : DType} {r c : Nat}
    {rg : bool} {p : Nat} (H : SoundHeap h) (hfl : dt.isFloat = true)
    (ht : tensor h data dt (some [(r : Int), (c : Int)]) 2 rg = some (h1, some p)) :
    SoundHeap h1 := by
  obtain ⟨tt2, e2, hsl⟩ := tensor_slots ht
  obtain ⟨ds, tt, hds, rfl, rfl, b⟩ := tensor_built ht
  cases hds
  have ett : tt2 = tt := by
    have := List.append_cancel_left e2
    simp only [List.cons.injEq, Option.some.injEq, and_true] at this
    exact this.symm
  subst ett
  intro o y hy
  by_cases e : o = h.length
  · subst e
    rw [deref_append_new] at hy; cases hy
    refine ⟨⟨by rw [b.dtype_eq]; exact hfl, b.toWellBuilt,
      by rw [b.dtype_eq]; exact built_member b, ?_, by rw [hsl]; simp⟩, fun op hop => ?_⟩
    · intro d hd
      rw [b.dims_eq, take_two] at hd
      simp only [List.mem_cons, List.mem_singleton, List.not_mem_nil, or_false] at hd
      rcases hd with rfl | rfl <;> exact Int.natCast_nonneg _
    · rw [b.op_eq] at hop; cases hop
  · rw [deref_append_ne h _ e] at hy
    obtain ⟨sy, wy⟩ := H o y hy
    exact ⟨sy, fun op hop =>
      wired_same (same_of_old (fun q z hq => deref_append_left _ hq)) (wy op hop)⟩

theorem builds_sound {L : Libm F} {cvt : F → Int} {h : Heap F} (B : Builds L cvt h) :
    SoundHeap h := by
  induction B with
  | start =>
    intro o y hy
    simp [Heap.deref] at hy
  | leaf _ hfl ht ih => exact soundHeap_leaf ih hfl ht
  | node _ hop ra rb hs ih =>
    obtain ⟨ta, ha, ra⟩ := ra
    obtain ⟨tb, hb, rb⟩ := rb
    simp only [forwardOps, List.mem_cons, List.mem_singleton, List.not_mem_nil, or_false] at hop
    rcases hop with e1 | e2 | e3 | e4 | e5 | e6 | e7 | e8 | e9 | e10 | e11 | e12 | e13 | e14 | e15
    · subst e1
      obtain ⟨ta1, tb1, h2, ha1, hb1, hdt, hnd, hdf, M, hk⟩ := add_steps hs
      rw [ha] at ha1; cases ha1
      rw [hb] at hb1; cases hb1
      exact binary_node ih ha hb ra hdt hnd hdf M hk rfl
    · subst e2
      obtain ⟨ta1, tb1, h2, ha1, hb1, hdt, hnd, hdf, M, hk⟩ := sub_steps hs
      rw [ha] at ha1; cases ha1
      rw [hb] at hb1; cases hb1
      exact binary_node ih ha hb ra hdt hnd hdf M hk rfl
    · subst e3
      obtain ⟨ta1, tb1, h2, ha1, hb1, hdt, hnd, hdf, M, hk⟩ := mul_steps hs
      rw [ha] at ha1; cases ha1
      rw [hb] at hb1; cases hb1
      exact binary_node ih ha hb ra hdt hnd hdf M hk rfl
    · subst e4
      obtain ⟨ta1, tb1, m, n, l, h2, ha1, hb1, hdt, hm, hn, hl, hl2, M, hk⟩ := matmul_steps hs
      rw [ha] at ha1; cases ha1
      rw [hb] at hb1; cases hb1
      exact matmul_node ih ha hb ra rb hdt hm hn hl hl2 M hk
    · subst e5
      obtain ⟨ta1, tb1, h2, ha1, hb1, hdt, hnd, hdf, M, hk⟩ := Div_steps L hs
      rw [ha] at ha1; cases ha1
      rw [hb] at hb1; cases hb1
      exact binary_node ih ha hb ra hdt hnd hdf M hk rfl
    · subst e6
      obtain ⟨ta1, tb1, h2, ha1, hb1, hdt, hnd, hdf, M, hk⟩ := MSELoss_steps L hs
      rw [ha] at ha1; cases ha1
      rw [hb] at hb1; cases hb1
      exact mse_node ih ha hb rb hdt hnd hdf M hk
    · subst e7
      obtain ⟨ta1, h2, ha1, M, K⟩ := Pow_steps L cvt _ hs
      rw [ha] at ha1; cases ha1
      exact unary_node ih ha ra M K rfl
    · subst e8
      obtain ⟨ta1, h2, ha1, M, K⟩ := Exp_steps L hs
      rw [ha] at ha1; cases ha1
      exact unary_node ih ha ra M K rfl
    · subst e9
      obtain ⟨ta1, h2, ha1, M, K⟩ := relu_steps hs
      rw [ha] at ha1; cases ha1
      exact unary_node ih ha ra M K rfl
    · subst e10
      obtain ⟨ta1, h2, ha1, M, K⟩ := leaky_relu_steps _ hs
      rw [ha] at ha1; cases ha1
      exact unary_node ih ha ra M K rfl
    · subst e11
      obtain ⟨ta1, h2, ha1, M, K⟩ := Sigmoid_steps L hs
      rw [ha] at ha1; cases ha1
      exact unary_node ih ha ra M K rfl
    · subst e12
      obtain ⟨ta1, h2, ha1, M, K⟩ := Tanh_steps L hs
      rw [ha] at ha1; cases ha1
      exact unary_node ih ha ra M K rfl
    · subst e13
      obtain ⟨ta1, h2, ha1, M, K⟩ := softmax_steps L hs
      rw [ha] at ha1; cases ha1
      exact unary_node ih ha ra M K rfl
    · subst e14
      obtain ⟨ta1, h2, ha1, M, K⟩ := sum_steps hs
      rw [ha] at ha1; cases ha1
      exact reduce_node ih ha ra M K rfl
    · subst e15
      obtain ⟨ta1, h2, ha1, M, K⟩ := mean_steps hs
      rw [ha] at ha1; cases ha1
      exact reduce_node ih ha ra M K rfl

theorem ruleOf_total (L : Libm F) {h : Heap F} {o : Nat} (op : Op)
    (W : Wired (kindOf op) h o) : ∃ h1, ruleOf L op h (some o) = some h1 ∧ Same h h1 := by
  cases op with
  | ADD => exact add_backward_total W
  | SUM => exact sum_backward_total W
  | SUB => exact sub_backward_total W
  | MUL => exact mul_backward_total W
  | MATMUL => exact matmul_backward_total W
  | RELU => exact relu_backward_total W
  | LEAKY_RELU => exact leaky_relu_backward_total W
  | SIGMOID => exact Sigmoid_backward_total W
  | TANH => exact Tanh_backward_total L W
  | MEAN => exact mean_backward_total W
  | SOFTMAX => exact softmax_backward_total W
  | DIV => exact Div_backward_total L W
  | POW => exact Pow_backward_total L W
  | EXP => exact Exp_backward_total L W
  | MSE => exact MSELoss_backward_total W

/-- C35: no backward rule touches a missing gradient buffer or an index out of
range on a graph built from rank-2 float leaves by the forward operations.
First, every heap built by calls of `tensor` for rank-2 `FLOAT32`/`FLOAT64`
leaves and by forward operations that are applied to rank-2 tensors and return
a result wires each tagged node as its operation does: result and operands are
float tensors with their data buffers, a tracking tensor owns a gradient
buffer of `size` entries, and the result tracks exactly when the operation
says so.  Second, on a node so wired the rule of its tag returns, which in
this model it does only if every buffer it reads or writes exists and every
index is below the buffer's length; it changes gradient values only, so the
node stays wired for the rules that run after it.  Third, whenever the gate
for an operand is open, both the result and that operand own a gradient
buffer. -/
theorem backward_rules_safe (L : Libm F) (cvt : F → Int) :
    (∀ h : Heap F, Builds L cvt h → ∀ (o : Nat) (t : Tensor F) (op : Op),
      h.deref o = some t → t.op = some op → Wired (kindOf op) h o) ∧
    (∀ (h : Heap F) (o : Nat) (op : Op), Wired (kindOf op) h o →
      ∃ h1, ruleOf L op h (some o) = some h1 ∧ Same h h1 ∧ Wired (kindOf op) h1 o) ∧
    (∀ (h : Heap F) (o i q : Nat) (k : NodeKind), Wired k h o → GateOpen k h o i q →
      ∃ dt n m, HasG h o dt n ∧ HasG h q dt m) := by
  refine ⟨?_, ?_, ?_⟩
  · intro h B o t op ho hop
    exact (builds_sound B o t ho).2 op hop
  · intro h o op W
    obtain ⟨h1, e, S⟩ := ruleOf_total L op W
    exact ⟨h1, e, S, wired_same S W⟩
  · intro h o i q k W G
    exact gate_buffers W G

/-- C35, on the graph `m = mul(x, y)` of two tracking `1 × 1` leaves as the
constructor and `mul` build it: the node `m` is wired, and `mul_backward(m)`
returns. -/
theorem backward_rules_safe_witness :
    Wired .binary exMulBuilt 2 ∧
    ∃ h1, mul_backward exMulBuilt (some 2) = some h1 ∧ Same exMulBuilt h1 ∧
      Wired .binary h1 2 :=
  (fun (w : Wired (kindOf .MUL) exMulBuilt 2) =>
    ⟨w, (backward_rules_safe libmQ (fun _ => 0)).2.1 exMulBuilt 2 .MUL w⟩)
    ((backward_rules_safe libmQ (fun _ => 0)).1 exMulBuilt
      (@Builds.node ℚ _ libmQ (fun _ => 0)
        [some (leafMat .FLOAT32 1 1 [2] .true), some (leafMat .FLOAT32 1 1 [3] .true)]
        exMulBuilt 0 0 0 1 2 mul
        (@Builds.leaf ℚ _ libmQ (fun _ => 0) [some (leafMat .FLOAT32 1 1 [2] .true)]
          [some (leafMat .FLOAT32 1 1 [2] .true), some (leafMat .FLOAT32 1 1 [3] .true)]
          (some (Data.ofF .FLOAT32 [3])) .FLOAT32 1 1 .true 1
          (@Builds.leaf ℚ _ libmQ (fun _ => 0) [] [some (leafMat .FLOAT32 1 1 [2] .true)]
            (some (Data.ofF .FLOAT32 [2])) .FLOAT32 1 1 .true 0
            Builds.start rfl (by with_unfolding_all decide))
          rfl (by with_unfolding_all decide))
        (List.Mem.tail _ (List.Mem.tail _ (List.Mem.head _)))
        ⟨_, rfl, rfl⟩ ⟨_, rfl, rfl⟩ (by with_unfolding_all decide))
      2 _ .MUL rfl rfl)

/-- The float element loop of `Div` fills the fresh result with the
element-wise quotients. -/
theorem divStepF_loop (dt : DType) (h : Heap F) (p1 p2 : Nat)
    (a b t0 : Tensor F) (r c : Nat) (xs ys : List F)
    (ha : h.deref p1 = some a) (hb : h.deref p2 = some b)
    (ma : IsMat a r c xs) (mb : IsMat b r c ys) (hda : a.dtype = dt) (hdb : b.dtype = dt)
    (ht0 : t0.dims = [(r : Int), (c : Int)])
    (D : List F) (hD : D.length = r * c) :
    loopN (divStepF dt h.length p1 p2) (r * c) (h ++ [some { t0 with data := Data.ofF dt D }])
      = some (h ++ [some { t0 with data := (Data.ofF dt
            ((List.range (r * c)).map fun i => xs.getD i 0 / ys.getD i 0)) }]) := by
  have hfl : dt.isFloat = true := hda ▸ ma.isFloat
  have hc : (c : Int) ≠ 0 := by have := ma.cols_pos; omega
  have key := loopN_overwrite (fun D => h ++ [some { t0 with data := Data.ofF dt D }])
    (divStepF dt h.length p1 p2) (fun i => xs.getD i 0 / ys.getD i 0) D (r * c)
    (le_of_eq hD.symm) ?_
  · rw [key, ← hD, overwrite_full]
  · intro i hi
    have hxi : i < xs.length := by rw [ma.len_eq]; exact hi
    have hyi : i < ys.length := by rw [mb.len_eq]; exact hi
    have hoi : i < (overwrite i (fun i => xs.getD i 0 / ys.getD i 0) D).length := by
      rw [length_overwrite _ _ _ (by omega)]; omega
    simp only [divStepF, posOf, rdDim, rdF, wrF, deref_append_new, deref_append_left _ ha,
      deref_append_left _ hb, Option.bind_eq_bind, Option.some_bind, ht0,
      List.getElem?_cons_zero, List.getElem?_cons_succ, shape_index_nat i _ _ hc,
      ma.data_eq, mb.data_eq, hda, hdb, getF_ofF hfl, getElem?_getD xs i 0 hxi,
      getElem?_getD ys i 0 hyi, setF_ofF hfl _ i _ hoi, store_append_new]

/-- `Div` on two float matrices of one type and shape. -/
theorem Div_float (L : Libm F) (h : Heap F) (p1 p2 : Nat) (a b : Tensor F) (r c : Nat)
    (xs ys : List F) (ha : h.deref p1 = some a) (hb : h.deref p2 = some b)
    (ma : IsMat a r c xs) (mb : IsMat b r c ys) (hdt : a.dtype = b.dtype) :
    Div L h (some p1) (some p2)
      = some (h ++ [some (binResult .DIV a b p1 p2
            ((List.range (r * c)).map fun i => xs.getD i 0 / ys.getD i 0))], some h.length) := by
  have hfl := ma.isFloat
  have hloop := fun (dt : DType) (hda : a.dtype = dt) t0 ht0 =>
    divStepF_loop dt h p1 p2 a b t0 r c xs ys ha hb ma mb hda (hdt ▸ hda) ht0
      (List.replicate (r * c) 0) (by simp)
  unfold Div
  simp only [ha, hb, Option.bind_eq_bind, Option.some_bind, ma.ndim_eq, mb.ndim_eq, hdt,
    ne_eq, not_true_eq_false, or_self, if_false, ma.dims_eq, mb.dims_eq,
    dimsDiffer_self [(r : Int), (c : Int)] 2 (by simp), Bool.false_eq_true,
    tensor_mat _ _ _ _ _ ma.fits, forLoop, ma.size_eq, toNat_mul_cast]
  cases hd : b.dtype with
  | FLOAT32 =>
    have := hloop .FLOAT32 (hdt.trans hd) (fresh .FLOAT32 [(r : Int), (c : Int)]
      (condBool (lnot a.requires_grad || lnot b.requires_grad))) rfl
    simp only [fresh, prod_pair, toNat_mul_cast, Data.calloc, Data.ofF] at this ⊢
    rw [this]
    simp [link2, deref_append_new, store_append_new, binResult, fresh, hdt, hd,
      ma.dims_eq, Data.ofF, MAX_PREVS, toNat_mul_cast]
  | FLOAT64 =>
    have := hloop .FLOAT64 (hdt.trans hd) (fresh .FLOAT64 [(r : Int), (c : Int)]
      (condBool (lnot a.requires_grad || lnot b.requires_grad))) rfl
    simp only [fresh, prod_pair, toNat_mul_cast, Data.calloc, Data.ofF] at this ⊢
    rw [this]
    simp [link2, deref_append_new, store_append_new, binResult, fresh, hdt, hd,
      ma.dims_eq, Data.ofF, MAX_PREVS, toNat_mul_cast]
  | INT32 => simp [hdt, hd, DType.isFloat] at hfl
  | INT64 => simp [hdt, hd, DType.isFloat] at hfl

/-- First block of `Div_backward`:
`prevs[0]->grad[i] += out->grad[i] / prevs[1]->data[i]`. -/
theorem divBwd_first (h : Heap F) (o p0 p1 : Nat) (tout t0 t1 : Tensor F) (dt : DType)
    (r c : Nat) (og g ys : List F)
    (ho : h.deref o = some tout) (h0 : h.deref p0 = some t0) (h1 : h.deref p1 = some t1)
    (hne : o ≠ p0)
    (hdo : tout.dims = [(r : Int), (c : Int)])
    (hc : 0 < c) (hfl : dt.isFloat = true) (hto : tout.dtype = dt) (ht0 : t0.dtype = dt)
    (hog : tout.grad = some og) (hogl : og.length = r * c)
    (hg : t0.grad = some g) (hgl : g.length = r * c)
    (hys : t1.data = Data.ofF dt ys) (hysl : ys.length = r * c) :
    loopN (divBwdStepA dt o p0 p1) (r * c) h
      = some (accGrad h p0 (fun i => og.getD i 0 / ys.getD i 0)) := by
  have hc' : (c : Int) ≠ 0 := by omega
  rw [← hgl]
  apply loopN_accGrad h p0 t0 g _ _ h0 hg
  intro i hi G hG hGi
  have hio : i < og.length := by omega
  have hiy : i < ys.length := by omega
  have e5 : rdDim h o 0 = some (r : Int) := by simp [rdDim, ho, hdo]
  have e6 : rdDim h o 1 = some (c : Int) := by simp [rdDim, ho, hdo]
  simp only [divBwdStepA, posOf, rdDim_sg h0, e5, e6, Option.bind_eq_bind,
    Option.some_bind, shape_index_nat i _ _ hc', rdG_sg_self h0 G dt ht0 hfl, hGi,
    getElem?_getD g i 0 hi, rdG_sg_ne _ hne, rdG_of ho hog dt hto hfl,
    getElem?_getD og i 0 hio, rdF_sg h0, rdF_of h1 dt hys hfl, getElem?_getD ys i 0 hiy,
    wrG_sg_self h0 G dt ht0 hfl i _ (by omega)]

/-- Second block of `Div_backward`:
`prevs[1]->grad[i] += (-out->grad[i] * prevs[0]->data[i]) / pow(prevs[1]->data[i], 2)`. -/
theorem divBwd_second (L : Libm F) (h : Heap F) (o p0 p1 : Nat) (tout t0 t1 : Tensor F)
    (dt : DType) (r c : Nat) (og g xs ys : List F)
    (ho : h.deref o = some tout) (h0 : h.deref p0 = some t0) (h1 : h.deref p1 = some t1)
    (hne : o ≠ p1)
    (hdo : tout.dims = [(r : Int), (c : Int)])
    (hc : 0 < c) (hfl : dt.isFloat = true) (hto : tout.dtype = dt) (ht1 : t1.dtype = dt)
    (hog : tout.grad = some og) (hogl : og.length = r * c)
    (hg : t1.grad = some g) (hgl : g.length = r * c)
    (hxs : t0.data = Data.ofF dt xs) (hxsl : xs.length = r * c)
    (hys : t1.data = Data.ofF dt ys) (hysl : ys.length = r * c) (hp : p0 ≠ p1) :
    loopN (divBwdStepB L dt o p0 p1) (r * c) h
      = some (accGrad h p1
          (fun i => (-og.getD i 0 * xs.getD i 0) / L.pow (ys.getD i 0) 2)) := by
  have hc' : (c : Int) ≠ 0 := by omega
  rw [← hgl]
  apply loopN_accGrad h p1 t1 g _ _ h1 hg
  intro i hi G hG hGi
  have hio : i < og.length := by omega
  have hix : i < xs.length := by omega
  have hiy : i < ys.length := by omega
  have e5 : rdDim h o 0 = some (r : Int) := by simp [rdDim, ho, hdo]
  have e6 : rdDim h o 1 = some (c : Int) := by simp [rdDim, ho, hdo]
  simp only [divBwdStepB, posOf, rdDim_sg h1, e5, e6, Option.bind_eq_bind,
    Option.some_bind, shape_index_nat i _ _ hc',
    rdG_sg_self h1 G dt ht1 hfl, hGi,
    getElem?_getD g i 0 hi, rdG_sg_ne _ hne, rdG_of ho hog dt hto hfl,
    getElem?_getD og i 0 hio, rdF_sg h1, rdF_of h0 dt hxs hfl, rdF_of h1 dt hys hfl,
    getElem?_getD xs i 0 hix, getElem?_getD ys i 0 hiy,
    wrG_sg_self h1 G dt ht1 hfl i _ (by omega)]

/-- The rule `Div_backward` on a result of two distinct float matrices. -/
theorem Div_backward_spec (L : Libm F) (h : Heap F) (o p0 p1 : Nat) (tout t0 t1 : Tensor F)
    (dt : DType) (r c : Nat) (og xs ys : List F)
    (ho : h.deref o = some tout)
    (hp0 : tout.prevs[0]? = some (some p0)) (hp1 : tout.prevs[1]? = some (some p1))
    (hdo : tout.dims = [(r : Int), (c : Int)]) (hto : tout.dtype = dt)
    (hsz : tout.size = (r : Int) * (c : Int))
    (hog : tout.grad = some og) (hogl : og.length = r * c)
    (h0 : h.deref p0 = some t0) (m0 : IsMat t0 r c xs) (hd0 : t0.dtype = dt)
    (g0 : GradOK t0 (r * c))
    (h1 : h.deref p1 = some t1) (m1 : IsMat t1 r c ys) (hd1 : t1.dtype = dt)
    (g1 : GradOK t1 (r * c))
    (hne0 : o ≠ p0) (hne1 : o ≠ p1) (hne : p0 ≠ p1) :
    Div_backward L h (some o)
      = some (accIf t1 (accIf t0 h p0 (fun i => og.getD i 0 / ys.getD i 0)) p1
          (fun i => (-og.getD i 0 * xs.getD i 0) / L.pow (ys.getD i 0) 2)) := by
  have hfl : dt.isFloat = true := hd0 ▸ m0.isFloat
  have hc := m0.cols_pos
  have second : ∀ (h' : Heap F) (t0' : Tensor F), h'.deref o = some tout →
      h'.deref p0 = some t0' → t0'.data = Data.ofF dt xs → h'.deref p1 = some t1 →
      ((rdPrev h' o 1).bind fun p1 => (h'.deref p1).bind fun t1 =>
        if eqTrue t1.requires_grad = true then
          forLoop tout.size (divBwdStepB L dt o p0 p1) h'
        else some h')
        = some (accIf t1 h' p1
            (fun i => (-og.getD i 0 * xs.getD i 0) / L.pow (ys.getD i 0) 2)) := by
    intro h' t0' ho' h0' hx0' h1'
    simp only [rdPrev_of ho' hp1, h1', Option.bind_eq_bind, Option.some_bind]
    cases hrg : t1.requires_grad with
    | true =>
      obtain ⟨g, hg, hgl⟩ := g1 hrg
      have hb := divBwd_second L h' o p0 p1 tout t0' t1 dt r c og g xs ys ho' h0' h1' hne1 hdo
        hc hfl hto hd1 hog hogl hg hgl hx0' m0.len_eq (hd1 ▸ m1.data_eq) m1.len_eq hne
      simp [eqTrue, bool.toInt, forLoop, hsz, toNat_mul_cast, hb, accIf_true hrg]
    | false => simp [eqTrue, bool.toInt, accIf_false hrg]
  have body : divBwdF L dt o h
      = some (accIf t1 (accIf t0 h p0 (fun i => og.getD i 0 / ys.getD i 0)) p1
          (fun i => (-og.getD i 0 * xs.getD i 0) / L.pow (ys.getD i 0) 2)) := by
    unfold divBwdF
    simp only [ho, rdPrev_of ho hp0, rdPrev_of ho hp1, h0, Option.bind_eq_bind,
      Option.some_bind]
    cases hrg : t0.requires_grad with
    | true =>
      obtain ⟨g, hg, hgl⟩ := g0 hrg
      have hb := divBwd_first h o p0 p1 tout t0 t1 dt r c og g ys ho h0 h1 hne0 hdo
        hc hfl hto hd0 hog hogl hg hgl (hd1 ▸ m1.data_eq) m1.len_eq
      have ho' : (accGrad h p0 (fun i => og.getD i 0 / ys.getD i 0)).deref o = some tout := by
        rw [deref_accGrad_ne h _ hne0, ho]
      have h1' : (accGrad h p0 (fun i => og.getD i 0 / ys.getD i 0)).deref p1 = some t1 := by
        rw [deref_accGrad_ne h _ (Ne.symm hne), h1]
      have et : eqTrue bool.true = true := rfl
      have hb' : forLoop tout.size (divBwdStepA dt o p0 p1) h
          = some (accGrad h p0 (fun i => og.getD i 0 / ys.getD i 0)) := by
        simp only [forLoop, hsz, toNat_mul_cast, hb]
      simp only [et, if_true, hb', Option.some_bind, accIf_true hrg]
      exact second _ _ ho' (deref_accGrad_self h0 _) (hd0 ▸ m0.data_eq) h1'
    | false =>
      have ef : eqTrue bool.false = false := rfl
      simp only [ef, Bool.false_eq_true, if_false, Option.some_bind, accIf_false hrg]
      exact second h t0 ho h0 (hd0 ▸ m0.data_eq) h1
  unfold Div_backward
  simp only [ho, Option.bind_eq_bind, Option.some_bind, hto]
  cases dt with
  | FLOAT32 => exact body
  | FLOAT64 => exact body
  | INT32 => cases hfl
  | INT64 => cases hfl

/-- A tensor without a gradient buffer is the same struct after any change of
gradient contents. -/
theorem upToGrad_none {t t1 : Tensor F} (e : UpToGrad t t1) (hg : t.grad = none) : t1 = t := by
  have hl := e.len
  rw [hg] at hl
  have h1 : t1.grad = none := by
    cases hq : t1.grad with
    | none => rfl
    | some g => rw [hq] at hl; cases hl
  have := e.eq
  rw [h1, ← hg] at this
  exact this

/-- A well-built tensor whose flag is `false` owns no gradient buffer. -/
theorem wellBuilt_no_grad {t : Tensor F} (w : WellBuilt t) (hf : t.requires_grad = bool.false) :
    t.grad = none := by
  rw [w.grad_eq, if_neg]
  rintro ⟨_, h⟩
  rw [hf] at h
  cases h

/-- From a rule's result on the seeded heap to the contribution statement. -/
theorem contrib_make
    (fwd : Heap F → Option Nat → Option Nat → Option (Heap F × Option Nat))
    (rule : Heap F → Option Nat → Option (Heap F)) (h : Heap F) (p q a w : Nat)
    (ta tw tout : Tensor F) (ga og : List F) (n : Nat) (v : Nat → F)
    (hfwd : fwd h (some p) (some q) = some (h ++ [some tout], some h.length))
    (ha : h.deref a = some ta) (hw : h.deref w = some tw) (haw : a ≠ w)
    (gA : ta.grad = some ga) (hgl : ga.length = n)
    (hrule : rule (setGrad (h ++ [some tout]) h.length og) (some h.length)
      = some (accGrad (setGrad (h ++ [some tout]) h.length og) a v)) :
    Contrib fwd rule h p q a w tw ga og n v := by
  have halt := deref_eq_some_lt ha
  have hwlt := deref_eq_some_lt hw
  have ha2 : (setGrad (h ++ [some tout]) h.length og).deref a = some ta := by
    rw [deref_setGrad_ne _ _ (by omega), deref_append_left _ ha]
  have hw2 : (setGrad (h ++ [some tout]) h.length og).deref w = some tw := by
    rw [deref_setGrad_ne _ _ (by omega), deref_append_left _ hw]
  refine ⟨_, _, _, hfwd, hrule, ?_, ?_⟩
  · rw [deref_accGrad_ne _ _ (Ne.symm haw), hw2]
  · intro i hi
    rw [gradAt_accGrad_self, gradAt_of ha2 gA, getElem?_getD ga i 0 (by omega)]
    rfl

/-- C12, amended: a backward rule never touches a tensor that does not track
gradients, float arithmetic read as exact.  (1) On every heap built from rank-2
float leaves by the forward operations, and on every heap that differs from it
in the contents of gradient buffers only (seeded upstream gradients, the work
of earlier rules), the rule of every tagged node returns, and every tensor
whose `requires_grad` flag is false owns no gradient buffer and is the same
struct before and after the rule.  (2) In the element-wise two-operand rules
the other operand, if tracking, receives its contribution.  For float matrices
`a` (tracking, gradient `ga`) and `w` (flag false) of one type and shape and
any upstream gradient `og` stored in `out->grad`, the rule returns, `w` is
unchanged and `a.grad[i] = ga[i] + v[i]`, where `v[i]` is `og[i]` for
`add(a, w)`, `add(w, a)` and `sub(a, w)`, `-og[i]` for `sub(w, a)`,
`w[i] * og[i]` for `mul(a, w)` and `mul(w, a)`, `og[i] / w[i]` for `Div(a, w)`
and `(-og[i] * w[i]) / pow(a[i], 2)` for `Div(w, a)`. -/
theorem backward_rule_frame (L : Libm F) (cvt : F → Int) :
    (∀ h hh : Heap F, Builds L cvt h → Same h hh →
      ∀ (o : Nat) (t : Tensor F) (op : Op), h.deref o = some t → t.op = some op →
        ∃ h1, ruleOf L op hh (some o) = some h1 ∧
          ∀ p tp, h.deref p = some tp → tp.requires_grad = bool.false →
            tp.grad = none ∧ hh.deref p = some tp ∧ h1.deref p = some tp) ∧
    (∀ (h : Heap F) (a w : Nat) (ta tw : Tensor F) (r c : Nat) (xs ws ga og : List F),
      h.deref a = some ta → h.deref w = some tw → a ≠ w →
      IsMat ta r c xs → IsMat tw r c ws → ta.dtype = tw.dtype →
      HasGrad ta ga → tw.requires_grad = bool.false → og.length = r * c →
      Contrib add add_backward h a w a w tw ga og (r * c) (fun i => og.getD i 0) ∧
      Contrib add add_backward h w a a w tw ga og (r * c) (fun i => og.getD i 0) ∧
      Contrib sub sub_backward h a w a w tw ga og (r * c) (fun i => og.getD i 0) ∧
      Contrib sub sub_backward h w a a w tw ga og (r * c) (fun i => -og.getD i 0) ∧
      Contrib mul mul_backward h a w a w tw ga og (r * c)
        (fun i => ws.getD i 0 * og.getD i 0) ∧
      Contrib mul mul_backward h w a a w tw ga og (r * c)
        (fun i => ws.getD i 0 * og.getD i 0) ∧
      Contrib (Div L) (Div_backward L) h a w a w tw ga og (r * c)
        (fun i => og.getD i 0 / ws.getD i 0) ∧
      Contrib (Div L) (Div_backward L) h w a a w tw ga og (r * c)
        (fun i => (-og.getD i 0 * ws.getD i 0) / L.pow (xs.getD i 0) 2)) := by
  constructor
  · intro h hh B S o t op ho hop
    have W := (builds_sound B o t ho).2 op hop
    obtain ⟨h1, e, S1⟩ := ruleOf_total L op (wired_same S W)
    refine ⟨h1, e, ?_⟩
    intro p tp hp hf
    have hg : tp.grad = none := wellBuilt_no_grad (builds_sound B p tp hp).1.built hf
    obtain ⟨u, hu, eu⟩ := S p tp hp
    have e1 : u = tp := upToGrad_none eu hg
    subst e1
    obtain ⟨u1, hu1, eu1⟩ := S1 p u hu
    have e2 : u1 = u := upToGrad_none eu1 hg
    subst e2
    exact ⟨hg, hu, hu1⟩
  · intro h a w ta tw r c xs ws ga og ha hw haw ma mw hdt gA gW hog
    have halt := deref_eq_some_lt ha
    have hwlt := deref_eq_some_lt hw
    have hsa : ta.size = ((r * c : Nat) : Int) := by rw [ma.size_eq]; push_cast; rfl
    have hgal : ga.length = r * c := by
      have := gA.len_eq; rw [hsa] at this; exact_mod_cast this
    have okA : GradOK ta (r * c) := hasGrad_ok gA hsa
    have okW : GradOK tw (r * c) := fun hh => by rw [gW] at hh; cases hh
    -- the facts every case shares, for a result `tout` at `h.length`
    have setup : ∀ (tout : Tensor F),
        (setGrad (h ++ [some tout]) h.length og).deref h.length
            = some { tout with grad := some og } ∧
        (setGrad (h ++ [some tout]) h.length og).deref a = some ta ∧
        (setGrad (h ++ [some tout]) h.length og).deref w = some tw := by
      intro tout
      refine ⟨deref_setGrad_self (deref_append_new h tout) og, ?_, ?_⟩
      · rw [deref_setGrad_ne _ _ (by omega), deref_append_left _ ha]
      · rw [deref_setGrad_ne _ _ (by omega), deref_append_left _ hw]
    have hl : ∀ (f : Nat → F), ((List.range (r * c)).map f).length = r * c := by
      intro f; simp
    refine ⟨?_, ?_, ?_, ?_, ?_, ?_, ?_, ?_⟩
    · -- add(a, w)
      obtain ⟨ho2, ha2, hw2⟩ := setup (binResult .ADD ta tw a w
        ((List.range (r * c)).map fun i => xs.getD i 0 + ws.getD i 0))
      have mo := binResult_isMat .ADD tw a w ma _ (hl fun i => xs.getD i 0 + ws.getD i 0)
      have hspec := add_backward_spec _ h.length a w _ ta tw ta.dtype r c og ho2 rfl rfl
        mo.dims_eq rfl mo.size_eq rfl hog ha2 ma.dims_eq rfl okA hw2 mw.dims_eq hdt.symm okW
        ma.cols_pos ma.isFloat (by omega) (by omega)
      rw [accIf_true gA.tracks, accIf_false gW] at hspec
      exact contrib_make add add_backward h a w a w ta tw _ ga og (r * c) _
        (add_float h a w ta tw r c xs ws ha hw ma mw hdt) ha hw haw gA.grad_eq hgal hspec
    · -- add(w, a)
      obtain ⟨ho2, ha2, hw2⟩ := setup (binResult .ADD tw ta w a
        ((List.range (r * c)).map fun i => ws.getD i 0 + xs.getD i 0))
      have mo := binResult_isMat .ADD ta w a mw _ (hl fun i => ws.getD i 0 + xs.getD i 0)
      have hspec := add_backward_spec _ h.length w a _ tw ta tw.dtype r c og ho2 rfl rfl
        mo.dims_eq rfl mo.size_eq rfl hog hw2 mw.dims_eq rfl okW ha2 ma.dims_eq hdt okA
        mw.cols_pos mw.isFloat (by omega) (by omega)
      rw [accIf_false gW, accIf_true gA.tracks] at hspec
      exact contrib_make add add_backward h w a a w ta tw _ ga og (r * c) _
        (add_float h w a tw ta r c ws xs hw ha mw ma hdt.symm) ha hw haw gA.grad_eq hgal hspec
    · -- sub(a, w)
      obtain ⟨ho2, ha2, hw2⟩ := setup (binResult .SUB ta tw a w
        ((List.range (r * c)).map fun i => xs.getD i 0 - ws.getD i 0))
      have mo := binResult_isMat .SUB tw a w ma _ (hl fun i => xs.getD i 0 - ws.getD i 0)
      have hspec := sub_backward_spec _ h.length a w _ ta tw ta.dtype r c og ho2 rfl rfl
        mo.dims_eq rfl mo.size_eq rfl hog ha2 ma.dims_eq rfl okA hw2 mw.dims_eq hdt.symm okW
        ma.cols_pos ma.isFloat (by omega) (by omega)
      rw [accIf_true gA.tracks, accIf_false gW] at hspec
      exact contrib_make sub sub_backward h a w a w ta tw _ ga og (r * c) _
        (sub_float h a w ta tw r c xs ws ha hw ma mw hdt) ha hw haw gA.grad_eq hgal hspec
    · -- sub(w, a)
      obtain ⟨ho2, ha2, hw2⟩ := setup (binResult .SUB tw ta w a
        ((List.range (r * c)).map fun i => ws.getD i 0 - xs.getD i 0))
      have mo := binResult_isMat .SUB ta w a mw _ (hl fun i => ws.getD i 0 - xs.getD i 0)
      have hspec := sub_backward_spec _ h.length w a _ tw ta tw.dtype r c og ho2 rfl rfl
        mo.dims_eq rfl mo.size_eq rfl hog hw2 mw.dims_eq rfl okW ha2 ma.dims_eq hdt okA
        mw.cols_pos mw.isFloat (by omega) (by omega)
      rw [accIf_false gW, accIf_true gA.tracks] at hspec
      exact contrib_make sub sub_backward h w a a w ta tw _ ga og (r * c) _
        (sub_float h w a tw ta r c ws xs hw ha mw ma hdt.symm) ha hw haw gA.grad_eq hgal hspec
    · -- mul(a, w)
      obtain ⟨ho2, ha2, hw2⟩ := setup (binResult .MUL ta tw a w
        ((List.range (r * c)).map fun i => xs.getD i 0 * ws.getD i 0))
      have mo := binResult_isMat .MUL tw a w ma _ (hl fun i => xs.getD i 0 * ws.getD i 0)
      have hspec := mul_backward_spec _ h.length a w _ ta tw ta.dtype r c og xs ws ho2 rfl rfl
        mo.dims_eq rfl mo.size_eq rfl hog ha2 ma rfl okA hw2 mw hdt.symm okW
        (by omega) (by omega) haw
      rw [accIf_true gA.tracks, accIf_false gW] at hspec
      exact contrib_make mul mul_backward h a w a w ta tw _ ga og (r * c) _
        (mul_float h a w ta tw r c xs ws ha hw ma mw hdt) ha hw haw gA.grad_eq hgal hspec
    · -- mul(w, a)
      obtain ⟨ho2, ha2, hw2⟩ := setup (binResult .MUL tw ta w a
        ((List.range (r * c)).map fun i => ws.getD i 0 * xs.getD i 0))
      have mo := binResult_isMat .MUL ta w a mw _ (hl fun i => ws.getD i 0 * xs.getD i 0)
      have hspec := mul_backward_spec _ h.length w a _ tw ta tw.dtype r c og ws xs ho2 rfl rfl
        mo.dims_eq rfl mo.size_eq rfl hog hw2 mw rfl okW ha2 ma hdt okA
        (by omega) (by omega) (Ne.symm haw)
      rw [accIf_false gW, accIf_true gA.tracks] at hspec
      exact contrib_make mul mul_backward h w a a w ta tw _ ga og (r * c) _
        (mul_float h w a tw ta r c ws xs hw ha mw ma hdt.symm) ha hw haw gA.grad_eq hgal hspec
    · -- Div(a, w)
      obtain ⟨ho2, ha2, hw2⟩ := setup (binResult .DIV ta tw a w
        ((List.range (r * c)).map fun i => xs.getD i 0 / ws.getD i 0))
      have mo := binResult_isMat .DIV tw a w ma _ (hl fun i => xs.getD i 0 / ws.getD i 0)
      have hspec := Div_backward_spec L _ h.length a w _ ta tw ta.dtype r c og xs ws ho2 rfl rfl
        mo.dims_eq rfl mo.size_eq rfl hog ha2 ma rfl okA hw2 mw hdt.symm okW
        (by omega) (by omega) haw
      rw [accIf_true gA.tracks, accIf_false gW] at hspec
      exact contrib_make (Div L) (Div_backward L) h a w a w ta tw _ ga og (r * c) _
        (Div_float L h a w ta tw r c xs ws ha hw ma mw hdt) ha hw haw gA.grad_eq hgal hspec
    · -- Div(w, a)
      obtain ⟨ho2, ha2, hw2⟩ := setup (binResult .DIV tw ta w a
        ((List.range (r * c)).map fun i => ws.getD i 0 / xs.getD i 0))
      have mo := binResult_isMat .DIV ta w a mw _ (hl fun i => ws.getD i 0 / xs.getD i 0)
      have hspec := Div_backward_spec L _ h.length w a _ tw ta tw.dtype r c og ws xs ho2 rfl rfl
        mo.dims_eq rfl mo.size_eq rfl hog hw2 mw rfl okW ha2 ma hdt okA
        (by omega) (by omega) (Ne.symm haw)
      rw [accIf_false gW, accIf_true gA.tracks] at hspec
      exact contrib_make (Div L) (Div_backward L) h w a a w ta tw _ ga og (r * c) _
        (Div_float L h w a tw ta r c ws xs hw ha mw ma hdt.symm) ha hw haw gA.grad_eq hgal hspec

/-- C12, amended, on concrete inputs over the rationals.  On the graph
`m = mul(a, w)` as the constructor and `mul` build it, with `a = [[2]]`
tracking and `w = [[3]]` not, `mul_backward(m)` returns and every tensor whose
flag is false is unchanged; on `a = [[2, 3]]` (tracking, gradient `[1, 1]`),
`w = [[4, 5]]` (not tracking) and upstream gradient `[10, 20]`, `mul_backward`
on `mul(a, w)` adds `w[i] * og[i]` and `Div_backward` on `Div(w, a)` adds
`(-og[i] * w[i]) / pow(a[i], 2)` to `a.grad[i]`, leaving `w` unchanged. -/
theorem backward_rule_frame_witness :
    (∃ h1, mul_backward exMixedBuilt (some 2) = some h1 ∧
      ∀ p tp, exMixedBuilt.deref p = some tp → tp.requires_grad = bool.false →
        tp.grad = none ∧ exMixedBuilt.deref p = some tp ∧ h1.deref p = some tp) ∧
    Contrib mul mul_backward exFrame 0 1 0 1 (leafMat .FLOAT64 1 2 [4, 5] .false)
      [1, 1] [10, 20] (1 * 2)
      (fun i => ([4, 5] : List ℚ).getD i 0 * ([10, 20] : List ℚ).getD i 0) ∧
    Contrib (Div libmQ) (Div_backward libmQ) exFrame 1 0 0 1
      (leafMat .FLOAT64 1 2 [4, 5] .false) [1, 1] [10, 20] (1 * 2)
      (fun i => (-([10, 20] : List ℚ).getD i 0 * ([4, 5] : List ℚ).getD i 0)
        / libmQ.pow (([2, 3] : List ℚ).getD i 0) 2) :=
  ⟨(backward_rule_frame libmQ (fun _ => 0)).1 exMixedBuilt exMixedBuilt
      (@Builds.node ℚ _ libmQ (fun _ => 0)
        [some (leafMat .FLOAT32 1 1 [2] .true), some (leafMat .FLOAT32 1 1 [3] .false)]
        exMixedBuilt 0 0 0 1 2 mul
        (@Builds.leaf ℚ _ libmQ (fun _ => 0) [some (leafMat .FLOAT32 1 1 [2] .true)]
          [some (leafMat .FLOAT32 1 1 [2] .true), some (leafMat .FLOAT32 1 1 [3] .false)]
          (some (Data.ofF .FLOAT32 [3])) .FLOAT32 1 1 .false 1
          (@Builds.leaf ℚ _ libmQ (fun _ => 0) [] [some (leafMat .FLOAT32 1 1 [2] .true)]
            (some (Data.ofF .FLOAT32 [2])) .FLOAT32 1 1 .true 0
            Builds.start rfl (by with_unfolding_all decide))
          rfl (by with_unfolding_all decide))
        (List.Mem.tail _ (List.Mem.tail _ (List.Mem.head _)))
        ⟨_, rfl, rfl⟩ ⟨_, rfl, rfl⟩ (by with_unfolding_all decide))
      (Same.sRefl2 exMixedBuilt) 2 _ .MUL rfl rfl,
   ((backward_rule_frame libmQ (fun _ => 0)).2 exFrame 0 1
      { leafMat .FLOAT64 1 2 [2, 3] .true with grad := some [1, 1] }
      (leafMat .FLOAT64 1 2 [4, 5] .false) 1 2 [2, 3] [4, 5] [1, 1] [10, 20] rfl rfl
      (by decide) ⟨rfl, rfl, rfl, rfl, by decide, rfl, rfl, by decide⟩
      ⟨rfl, rfl, rfl, rfl, by decide, rfl, rfl, by decide⟩ rfl ⟨rfl, rfl, rfl⟩ rfl
      rfl).2.2.2.2.1,
   ((backward_rule_frame libmQ (fun _ => 0)).2 exFrame 0 1
      { leafMat .FLOAT64 1 2 [2, 3] .true with grad := some [1, 1] }
      (leafMat .FLOAT64 1 2 [4, 5] .false) 1 2 [2, 3] [4, 5] [1, 1] [10, 20] rfl rfl
      (by decide) ⟨rfl, rfl, rfl, rfl, by decide, rfl, rfl, by decide⟩
      ⟨rfl, rfl, rfl, rfl, by decide, rfl, rfl, by decide⟩ rfl ⟨rfl, rfl, rfl⟩ rfl
      rfl).2.2.2.2.2.2.2⟩

/-- C12 as stated, for every backward rule, fails on `MSELoss_backward`: the
rule has no code for the gradient of `yTrue`.  On
`out = MSELoss(yTrue, yPred)` with `yTrue = [[1]]` tracking (gradient `[0]`)
and `yPred = [[3]]` not tracking, the rule returns with nothing changed: the
tracking operand `yTrue` still holds `[0]` and has received no contribution
(and `yPred` still has no buffer).  With both `x = [[2]]` as `yTrue` and
`y = [[3]]` as `yPred` tracking and `out->grad[0] = 1`, the rule adds 1 to the
gradient of `yPred` and nothing to the gradient of `yTrue`. -/
theorem backward_rule_frame_counterexample :
    ((exMSE3.deref 0).map fun t => t.requires_grad) = some bool.true ∧
    ((exMSE3.deref 1).map fun t => t.requires_grad) = some bool.false ∧
    ((MSELoss libmQ exMSE3 (some 0) (some 1)).bind fun r => r.2.bind fun out =>
        (MSELoss_backward r.1 (some out)).map fun h2 =>
          (gradOf r.1 0, gradOf h2 0, gradOf h2 1)) = some (some [0], some [0], none) ∧
    ((progMSE libmQ exXY 0 1).bind fun r =>
        (MSELoss_backward r.1 (some r.2)).map fun h2 => (gradOf h2 0, gradOf h2 1))
      = some (some [0], some [1]) := by
  refine ⟨?_, ?_, ?_, ?_⟩ <;> with_unfolding_all decide

/-- C21: the `INT64` case of `sub` has no `break`.  On the `INT64` tensors
`a = [[5]]`, `b = [[3]]`, `sub(a, b)` returns `NULL`, while on the same values
of type `INT32` it returns the tensor `[[2]]`. -/
theorem sub_int64_returns_null :
    ptrOf (sub exI64 (some 0) (some 1)) = some none ∧
    intsOfResult (sub exI32 (some 0) (some 1)) = some [2] := by
  constructor <;> with_unfolding_all decide

/-- C22: the `INT64` case of `mul` has no `break`.  On the `INT64` tensors
`a = [[5]]`, `b = [[3]]`, `mul(a, b)` returns `NULL`, while on the same values
of type `INT32` it returns the tensor `[[15]]`. -/
theorem mul_int64_returns_null :
    ptrOf (mul exI64 (some 0) (some 1)) = some none ∧
    intsOfResult (mul exI32 (some 0) (some 1)) = some [15] := by
  constructor <;> with_unfolding_all decide

/-- C23: the `INT64` case of `sum` has no `break`.  On the `INT64` tensor
`a = [[5]]`, `sum(a)` returns `NULL`, while on the same value of type `INT32`
it returns the tensor `[5]`. -/
theorem sum_int64_returns_null :
    ptrOf (sum exI64 (some 0)) = some none ∧
    intsOfResult (sum exI32 (some 0)) = some [5] := by
  constructor <;> with_unfolding_all decide

/-- C26 as stated, for every number of rows, fails on a tensor of two rows.
On the matrix `x = [[0], [0]]` of two rows and one column (with `exp(0) = 1`)
`softmax` returns `[[1/2], [1/2]]`: the one element of a row sums to `1/2`,
not 1, and element `(0, 0)` is not `exp(x[0][0])` divided by the sum over
the row's one element, which is 1. -/
theorem softmax_not_row_wise :
    dataOfResult (softmax libmQ exRows (some 0)) = some [1 / 2, 1 / 2] ∧
    ([1 / 2] : List ℚ).sum ≠ 1 ∧
    libmQ.exp 0 / ([libmQ.exp 0] : List ℚ).sum = 1 := by
  refine ⟨?_, ?_, ?_⟩
  · with_unfolding_all decide
  · norm_num
  · simp [libmQ]

/-- C28: `Exp` passes the result's own zeroed element to `exp`, not the
input's.  On `x = [[2]]`, whatever the library function `exp` is, the result
holds `exp(0)`. -/
theorem exp_reads_result_buffer (L : Libm ℚ) :
    dataOfResult (Exp L exX2 (some 0)) = some [L.exp 0] := by
  with_unfolding_all rfl

/-- C30: the rule's unsupported-type branch frees the node and `backward` goes
on to read it.  On `out = add(a, b)` over two `INT32` tensors created with
`requires_grad = true`, `add_backward(out)` returns with `out` released, and
`backward(out)` then reads `out->num_prevs` from the released struct. -/
theorem backward_reads_freed_node :
    progAddRule exI32 0 1 = some false ∧
    progAddBackward libmQ 5 exI32 0 1 = .ub := by
  constructor <;> with_unfolding_all decide

/-- C32: on rank-1 tensors the element loop of `add` reads `dims[1]`, which
does not exist.  On `a = [1, 2]`, `b = [3, 4]` (both `tensor(.., {2}, 1, ..)`),
the read of `a->dims[1]` is out of bounds, and `add(a, b)` has no defined
outcome. -/
theorem add_rank1_reads_missing_dim :
    rdDim exVec 0 0 = some 2 ∧ rdDim exVec 0 1 = none ∧
    add exVec (some 0) (some 1) = none := by
  refine ⟨?_, ?_, ?_⟩ <;> with_unfolding_all decide

end Main

end Torch
